import Mathlib

/-! # Polygon flattener: a shallow embedding of `flatten_arrangement.cpp`

The development follows the source files

* `simple_rational.hpp`  (`rat_t`: integer part plus proper fraction),
* `flatten_arrangement.cpp` (`wind_t`, `line_t`, `edge_t`, `vertex_t`, `side`,
  `goes_to`, the sweep, the classifier, the snap rounder and the tracer),
* `flatten_arrangement.h` (the rule masks).

Conventions of the embedding.

* `int64` and `int` values are mathematical integers (`Int`): the statements
  about rationals and the geometric predicate are the ones the source makes
  under its "safe for 20 bits" proviso, in which no intermediate value leaves
  the 64-bit range.  The winding counts are `short`; their narrowing is kept
  explicit (`short`).
* Objects live in two arenas (`verts`, `edges`) of the session; a pointer is an
  index into its arena, the null pointer is `none`, and a deleted edge is a
  `none` slot.
* `assert_` throws `assertion_t`; the comparator throws `action_t`.  Both are
  values of `fault`, next to two outcomes that are not C++ exceptions: a loop
  that does not come to an end (`fuel`) and the use of a pointer that does not
  denote a live object (`dangling`).
* `from` and `to` are reserved words, the fields are `from_` and `to_`.
-/

namespace Flatten

/-! ## Faults -/

/-- The two kinds of `action_t`. -/
inductive flavour where
  | split
  | intersect
deriving DecidableEq, Repr

/-- What a call can end in other than a normal return. -/
inductive fault where
  /-- `assfail()`: `throw(assertion_t(4))`. -/
  | assertion_t
  /-- `throw(action_t(p, q, v, f))`; `v` is `none` for the null pointer. -/
  | action_t (p q : Nat) (v : Option Nat) (f : flavour)
  /-- The loop did not finish within the fuel it was given. -/
  | fuel
  /-- A pointer that is null or refers to a deleted object was dereferenced. -/
  | dangling
deriving DecidableEq, Repr

/-- `assert_(x)`: returns when `x` holds and throws `assertion_t` otherwise. -/
def assert_ (x : Bool) : Except fault Unit :=
  if x then .ok () else .error .assertion_t

/-! ## Winding numbers (`wind_t`) and the rule masks -/

/-- Conversion of an `int` to `short` (two's complement, 16 bits). -/
def short (z : Int) : Int := (z + 32768) % 65536 - 32768

/-- Winding number for the two shapes being combined. -/
structure wind_t where
  a : Int
  b : Int
deriving DecidableEq, Repr

namespace wind_t

/-- `wind_t::operator+`: the sums are computed in `int` and stored in `short`. -/
def add (w other : wind_t) : wind_t :=
  ⟨short (w.a + other.a), short (w.b + other.b)⟩

/-- `wind_t(-wind.a, -wind.b)`, as written in `goes_to`. -/
def neg (w : wind_t) : wind_t := ⟨short (-w.a), short (-w.b)⟩

/-- `wind_t::is_zero`. -/
def is_zero (w : wind_t) : Bool := w.a == 0 && w.b == 0

/-- The index `m` computed by `is_inside`. -/
def index (w : wind_t) : Nat :=
  (if w.a ≠ 0 then 1 else 0) + (if w.b ≠ 0 then 2 else 0)

/-- `wind_t::is_inside`: `(flatten_rule >> m) & 1`. -/
def is_inside (w : wind_t) (flatten_rule : Int) : Bool :=
  Int.land (flatten_rule >>> w.index) 1 != 0

end wind_t

/-- `flatten_arrangement::FLATTEN_A`. -/
def FLATTEN_A : Int := 0xa
/-- `flatten_arrangement::FLATTEN_B`. -/
def FLATTEN_B : Int := 0xc
/-- `flatten_arrangement::FLATTEN_A_OR_B`. -/
def FLATTEN_A_OR_B : Int := 0xe
/-- `flatten_arrangement::FLATTEN_A_AND_B`. -/
def FLATTEN_A_AND_B : Int := 0x8
/-- `flatten_arrangement::FLATTEN_A_MINUS_B`. -/
def FLATTEN_A_MINUS_B : Int := 0x2
/-- `flatten_arrangement::FLATTEN_B_MINUS_A`. -/
def FLATTEN_B_MINUS_A : Int := 0x4
/-- `flatten_arrangement::FLATTEN_A_XOR_B`. -/
def FLATTEN_A_XOR_B : Int := 0x6
/-- `flatten_arrangement::FLATTEN_EMPTY`. -/
def FLATTEN_EMPTY : Int := 0x0

/-! ## Rational numbers (`rat_t`, `simple_rational.hpp`) -/

/-- The value `i + n/d`: `i` is the (signed) integer part, `n/d` the fractional
part, "always positive and less than one". -/
structure rat_t where
  i : Int
  n : Int
  d : Int
deriving DecidableEq, Repr

namespace rat_t

/-- `rat_t(int64 i_)`. -/
def ofInt (i_ : Int) : rat_t := ⟨i_, 0, 1⟩

/-- `rat_t::intval`. -/
def intval (r : rat_t) : Int := r.i

/-- The loop of `rat_t::gcd`; `%` on `int64` is the truncating remainder. -/
def gcd_loop : Nat → Int → Int → Except fault Int
  | 0, _, _ => .error .fuel
  | fuel + 1, a, b =>
    if a = 0 then .ok b
    else
      let b1 := Int.tmod b a
      if b1 = 0 then .ok a
      else gcd_loop fuel (Int.tmod a b1) b1

/-- `rat_t::gcd`: the two assertions, then the loop.  The first argument gets
smaller on every round, which bounds the number of rounds. -/
def gcd (a b : Int) : Except fault Int :=
  if ¬ (a ≥ 0) then .error .assertion_t
  else if ¬ (b ≥ 0) then .error .assertion_t
  else gcd_loop (a.toNat + 1) a b

/-- `rat_t::check`. -/
def check (r : rat_t) : Except fault Unit :=
  if ¬ (r.d > 0) then .error .assertion_t
  else if ¬ (r.n ≥ 0 ∧ r.n < r.d) then .error .assertion_t
  else .ok ()

/-- `rat_t::canonicalize`: divide the fraction by its gcd, then `check`. -/
def canonicalize (r : rat_t) : Except fault rat_t :=
  match gcd r.n r.d with
  | .error e => .error e
  | .ok g =>
    if ¬ (g > 0) then .error .assertion_t
    else
      let r1 : rat_t := ⟨r.i, Int.tdiv r.n g, Int.tdiv r.d g⟩
      match check r1 with
      | .error e => .error e
      | .ok _ => .ok r1

/-- `rat_t::normalize`. -/
def normalize (r : rat_t) (canonical : Bool) : Except fault rat_t :=
  if ¬ (r.d ≠ 0) then .error .assertion_t
  else if r.n = 0 then .ok ⟨r.i, r.n, 1⟩
  else
    let r1 : rat_t := if r.d < 0 then ⟨r.i, -r.n, -r.d⟩ else r
    if ¬ (r1.d > 0) then .error .assertion_t
    else
      let r2 : rat_t := ⟨r1.i + Int.tdiv r1.n r1.d, Int.tmod r1.n r1.d, r1.d⟩
      let r3 : rat_t := if r2.n < 0 then ⟨r2.i - 1, r2.n + r2.d, r2.d⟩ else r2
      if canonical then canonicalize r3 else .ok r3

/-- `rat_t(int64 i_, int64 n_, int64 d_)`. -/
def mk3 (i_ n_ d_ : Int) : Except fault rat_t :=
  normalize ⟨i_, n_, d_⟩ true

/-- `rat_t::operator-(const int64&)`. -/
def sub (r : rat_t) (other : Int) : rat_t := ⟨r.i - other, r.n, r.d⟩

/-- `rat_t::operator*(const int64&)`. -/
def mul (r : rat_t) (other : Int) : Except fault rat_t :=
  normalize ⟨r.i * other, r.n * other, r.d⟩ true

/-- `rat_t::times`. -/
def times (r : rat_t) (other : Int) : Except fault rat_t :=
  normalize ⟨r.i * other, r.n * other, r.d⟩ false

/-- `rat_t::operator==`. -/
def eq (r other : rat_t) : Bool :=
  r.i == other.i && r.n == other.n && r.d == other.d

/-- The bit racing loop of `rat_t::operator<`, started with `na = n`,
`nb = other.n`, in exact integer arithmetic.  This is the loop of the code as
long as no sum leaves `int64`, which is so for denominators up to `2^62`
(`lt_loop64_eq`); `lt_loop64` is the loop with the `int64` operations of the
code wrapping, for the values beyond. -/
def lt_loop : Nat → Int → Int → Int → Int → Except fault Bool
  | 0, _, _, _, _ => .error .fuel
  | fuel + 1, na, d, nb, od =>
    let na1 := na + na
    let nb1 := nb + nb
    let a := decide (na1 ≥ d)
    let b := decide (nb1 ≥ od)
    if a ≠ b then .ok b
    else if a then lt_loop fuel (na1 - d) d (nb1 - od) od
    else lt_loop fuel na1 d nb1 od

/-- `rat_t::operator<` in exact integer arithmetic: the operator of the code
for denominators up to `2^62`, where it agrees with `lt64` (`lt64_eq_lt`), which
is the range the sweep is written for (`we should be safe for 20 bits`).  Two
proper fractions agree on fewer leading binary digits than `d * other.d`, so
the loop that has not returned by then never does. -/
def lt (r other : rat_t) : Except fault Bool :=
  if r.i ≠ other.i then .ok (decide (r.i < other.i))
  else if r.d = other.d then .ok (decide (r.n < other.n))
  else lt_loop (r.d * other.d).toNat r.n r.d other.n other.d

/-- The rational number a `rat_t` stands for. -/
def val (r : rat_t) : ℚ := r.i + (r.n : ℚ) / r.d

/-- The canonical form: positive denominator, proper reduced fraction, and
denominator one when the fraction is zero. -/
def canonical (r : rat_t) : Prop :=
  1 ≤ r.d ∧ 0 ≤ r.n ∧ r.n < r.d ∧ Int.gcd r.n r.d = 1 ∧ (r.n = 0 → r.d = 1)

instance (r : rat_t) : Decidable r.canonical := by
  unfold canonical; infer_instance

end rat_t

/-! ## Lines, flags, pins, edges and vertices -/

/-- A line with integer endpoints. -/
structure line_t where
  x0 : Int
  y0 : Int
  x1 : Int
  y1 : Int
deriving DecidableEq, Repr

/-- `line_t::operator==`. -/
def line_t.eq (l other : line_t) : Bool :=
  l.x0 == other.x0 && l.y0 == other.y0 && l.x1 == other.x1 && l.y1 == other.y1

/-- `line_t(raw.x1, raw.y1, raw.x0, raw.y0)`, as written in `goes_to`. -/
def line_t.reverse (l : line_t) : line_t := ⟨l.x1, l.y1, l.x0, l.y0⟩

/-- The flag bits of an edge. -/
structure flags_t where
  keep : Bool := false
  checked : Bool := false
  active : Bool := false
  sense : Bool := false
  visited : Bool := false
  todo : Bool := false
deriving DecidableEq, Repr

/-- A pin: an integer vertex and the side on which the edge passes it. -/
structure pin_t where
  v : Option Nat := none
  above : Bool := false
deriving DecidableEq, Repr

/-- `edgemap_t`, a `map<vertex_t *, edge_t *>`: the entries in key order. -/
abbrev edgemap_t := List (Nat × Nat)

namespace edgemap_t

/-- The entry for key `k`, if there is one. -/
def find (m : edgemap_t) (k : Nat) : Option Nat :=
  match m with
  | [] => none
  | (k1, e) :: rest => if k1 = k then some e else find rest k

/-- `map::erase(key)`. -/
def erase (m : edgemap_t) (k : Nat) : edgemap_t :=
  match m with
  | [] => []
  | (k1, e) :: rest => if k1 = k then erase rest k else (k1, e) :: erase rest k

/-- `m[k] = e`: replaces the entry for `k` or adds it at its place in key
order. -/
def set (m : edgemap_t) (k e : Nat) : edgemap_t :=
  match m with
  | [] => [(k, e)]
  | (k1, e1) :: rest =>
    if k1 = k then (k, e) :: rest
    else if k < k1 then (k, e) :: (k1, e1) :: rest
    else (k1, e1) :: set rest k e

end edgemap_t

/-- An edge.  `from_` and `to_` point to vertices; `aelpos` is the element of
the active edge list the stored iterator designates. -/
structure edge_t where
  raw : line_t
  from_ : Nat
  to_ : Nat
  wind : wind_t := ⟨0, 0⟩
  checked_wind : wind_t := ⟨0, 0⟩
  flags : flags_t := {}
  pin_set : Option (List pin_t) := none
  aelpos : Option Nat := none
deriving DecidableEq, Repr

/-- `edge_t::edge_t(raw_, from_, to_)`. -/
def edge_t.new (raw_ : line_t) (from_ to_ : Nat) : edge_t :=
  { raw := raw_, from_ := from_, to_ := to_ }

/-- `edge_t::equals`. -/
def edge_t.equals (e other : edge_t) : Bool :=
  other.from_ == e.from_ && other.to_ == e.to_

/-- A vertex with its edges going up (`above`) and down (`below`). -/
structure vertex_t where
  above : edgemap_t := []
  below : edgemap_t := []
  x : rat_t
  y : rat_t
deriving DecidableEq, Repr

/-- `vertex_t::equals`. -/
def vertex_t.equals (v other : vertex_t) : Bool :=
  v.x.eq other.x && v.y.eq other.y

/-- `vertex_t::distance`: squared distance of the integer parts. -/
def vertex_t.distance (v other : vertex_t) : Int :=
  let dx := other.x.i - v.x.i
  let dy := other.y.i - v.y.i
  dx * dx + dy * dy

/-- `vertexsort_t::operator()`: by `y`, then by `x`. -/
def vertexsort_t (p q : vertex_t) : Except fault Bool :=
  if p.y.eq q.y then p.x.lt q.x else p.y.lt q.y

/-! ## The geometric predicate -/

/-- The comparison that ends both overloads of `side`, on rationals. -/
def side_sign (a b : rat_t) : Except fault Int :=
  if a.eq b then .ok 0
  else
    match a.lt b with
    | .error e => .error e
    | .ok true => .ok (-1)
    | .ok false => .ok 1

/-- `side(vertex_t *, edge_t *)`: rational vertex against the raw line of the
edge. -/
def side (v : vertex_t) (p : edge_t) : Except fault Int :=
  let x1 := p.raw.x0
  let y1 := p.raw.y0
  let x2 := p.raw.x1
  let y2 := p.raw.y1
  match (v.y.sub y1).mul (x1 - x2) with
  | .error e => .error e
  | .ok a =>
    match (v.x.sub x1).mul (y1 - y2) with
    | .error e => .error e
    | .ok b => side_sign a b

/-- `side(vertex_t *, line_t const &)`: integer part of the vertex against a
line. -/
def side_line (v : vertex_t) (p : line_t) : Int :=
  let x1 := p.x0
  let y1 := p.y0
  let x2 := p.x1
  let y2 := p.y1
  let x0 := v.x.i
  let y0 := v.y.i
  let a := (y0 - y1) * (x1 - x2)
  let b := (x0 - x1) * (y1 - y2)
  if a = b then 0 else if a < b then -1 else 1

/-- The two coordinates `flattener_t::intersect` hands to `find`. -/
def intersect_point (p q : line_t) : Except fault (rat_t × rat_t) :=
  let x1 := p.x0
  let x2 := p.x1
  let x3 := q.x0
  let x4 := q.x1
  let y1 := p.y0
  let y2 := p.y1
  let y3 := q.y0
  let y4 := q.y1
  let un := (x4 - x3) * (y1 - y3) - (y4 - y3) * (x1 - x3)
  let ud := (y4 - y3) * (x2 - x1) - (x4 - x3) * (y2 - y1)
  match rat_t.mk3 x1 ((x2 - x1) * un) ud with
  | .error e => .error e
  | .ok x =>
    match rat_t.mk3 y1 ((y2 - y1) * un) ud with
    | .error e => .error e
    | .ok y => .ok (x, y)

/-- One coordinate of `flattener_t::snap`: round to the nearest integer. -/
def snap_coord (x : rat_t) : Except fault rat_t :=
  if x.n ≠ 0 then
    match rat_t.mk3 x.i 1 2 with
    | .error e => .error e
    | .ok half =>
      match x.lt half with
      | .error e => .error e
      | .ok l => .ok ⟨if ¬ l then x.i + 1 else x.i, 0, 1⟩
  else .ok x

/-! ## Reading the geometric statements -/

/-- The determinant whose sign `side` returns, at the point `(x, y)`. -/
def line_t.det (l : line_t) (x y : ℚ) : ℚ :=
  (y - l.y0) * (l.x0 - l.x1) - (x - l.x0) * (l.y0 - l.y1)

/-- The sign of a rational number as `-1`, `0` or `1`. -/
def sgn (q : ℚ) : Int := if q = 0 then 0 else if q < 0 then -1 else 1

/-- The point `(x, y)` lies on the infinite line through the endpoints of `l`. -/
def line_t.on_line (l : line_t) (x y : ℚ) : Prop :=
  ∃ t : ℚ, x = l.x0 + t * (l.x1 - l.x0) ∧ y = l.y0 + t * (l.y1 - l.y0)

/-! ## The session state (`flattener_t`) -/

/-- The state of a `flattener_t`, with the two arenas its pointers refer to.
`vertexset`, `snapset` and `ael` list their elements in container order;
`snaplist` is a `set<edge_t *>`. -/
structure flattener_t where
  verts : List vertex_t := []
  edges : List (Option edge_t) := []
  vertexset : List Nat := []
  flatten_rule : Int
  dot : Option Nat := none
  todo : List Nat := []
  ael : List Nat := []
  snaplist : List Nat := []
  snapset : List Nat := []
deriving DecidableEq, Repr

namespace flattener_t

/-- `flattener_t(flatten_rule_)`. -/
def new (flatten_rule_ : Int) : flattener_t := { flatten_rule := flatten_rule_ }

/-- Dereference of a `vertex_t *`. -/
def vertex (s : flattener_t) (v : Nat) : Except fault vertex_t :=
  match s.verts[v]? with
  | some x => .ok x
  | none => .error .dangling

/-- Dereference of an `edge_t *`. -/
def edge (s : flattener_t) (e : Nat) : Except fault edge_t :=
  match s.edges[e]? with
  | some (some x) => .ok x
  | _ => .error .dangling

/-- Store through a `vertex_t *`. -/
def set_vertex (s : flattener_t) (v : Nat) (x : vertex_t) : flattener_t :=
  { s with verts := s.verts.set v x }

/-- Store through an `edge_t *`. -/
def set_edge (s : flattener_t) (e : Nat) (x : edge_t) : flattener_t :=
  { s with edges := s.edges.set e (some x) }

/-- `delete p` for an edge. -/
def delete_edge (s : flattener_t) (e : Nat) : flattener_t :=
  { s with edges := s.edges.set e none }

/-- Assignment to `todo`. -/
def set_todo (s : flattener_t) (t : List Nat) : flattener_t := { s with todo := t }

/-- Assignment to `ael`. -/
def set_ael (s : flattener_t) (l : List Nat) : flattener_t := { s with ael := l }

/-- Assignment to `dot`. -/
def set_dot (s : flattener_t) (d : Option Nat) : flattener_t := { s with dot := d }

/-- Assignment to `snaplist`. -/
def set_snaplist (s : flattener_t) (l : List Nat) : flattener_t := { s with snaplist := l }

end flattener_t

/-- `set<vertex_t *, vertexsort_t>::insert` of a vertex at `(x, y)` that would
get the address `nid`: the element equivalent to it if there is one, else `nid`
itself, and the set afterwards.  The comparator is a strict weak order on the
vertices of a set, so the outcome does not depend on which elements the
container compares. -/
def vertexset_t.insert (verts : List vertex_t) (x y : rat_t) (nid : Nat) :
    List Nat → Except fault (Nat × List Nat)
  | [] => .ok (nid, [nid])
  | w :: rest =>
    match verts[w]? with
    | none => .error .dangling
    | some vw =>
      match vertexsort_t vw { x := x, y := y } with
      | .error e => .error e
      | .ok true =>
        match vertexset_t.insert verts x y nid rest with
        | .error e => .error e
        | .ok (r, rest1) => .ok (r, w :: rest1)
      | .ok false =>
        match vertexsort_t { x := x, y := y } vw with
        | .error e => .error e
        | .ok true => .ok (nid, nid :: w :: rest)
        | .ok false => .ok (w, w :: rest)

namespace flattener_t

/-- `flattener_t::find`: the vertex of `vertexset` at `(x, y)`, created when
there is none. -/
def find (s : flattener_t) (x y : rat_t) : Except fault (Nat × flattener_t) :=
  match vertexset_t.insert s.verts x y s.verts.length s.vertexset with
  | .error e => .error e
  | .ok (r, set1) =>
    if r = s.verts.length then
      .ok (r, { s with verts := s.verts ++ [{ x := x, y := y }], vertexset := set1 })
    else .ok (r, s)

/-- `flattener_t::snap`: round both coordinates and look the vertex up in
`snapset`, creating it when there is none. -/
def snap (s : flattener_t) (x y : rat_t) : Except fault (Nat × flattener_t) :=
  match snap_coord x with
  | .error e => .error e
  | .ok x1 =>
    match snap_coord y with
    | .error e => .error e
    | .ok y1 =>
      match vertexset_t.insert s.verts x1 y1 s.verts.length s.snapset with
      | .error e => .error e
      | .ok (r, set1) =>
        if r = s.verts.length then
          .ok (r, { s with verts := s.verts ++ [{ x := x1, y := y1 }], snapset := set1 })
        else .ok (r, s)

/-- The entry `v->below[w]`, `none` when the map has no such key. -/
def below (s : flattener_t) (v w : Nat) : Option Nat :=
  match s.verts[v]? with
  | some x => x.below.find w
  | none => none

/-- The entry `v->above[w]`, `none` when the map has no such key. -/
def above (s : flattener_t) (v w : Nat) : Option Nat :=
  match s.verts[v]? with
  | some x => x.above.find w
  | none => none

/-- The flipped branch of `goes_to`:
`if ((e = above[q]) == 0) e = above[q] = q->below[this] = new edge_t(raw, q, this)`. -/
def link_above (s : flattener_t) (this q : Nat) (vthis vq : vertex_t) (raw : line_t) :
    Nat × flattener_t :=
  match vthis.above.find q with
  | some e => (e, s)
  | none =>
    let e := s.edges.length
    let s1 := { s with edges := s.edges ++ [some (edge_t.new raw q this)] }
    let s2 := s1.set_vertex q { vq with below := vq.below.set this e }
    (e, s2.set_vertex this { vthis with above := vthis.above.set q e })

/-- The other branch of `goes_to`:
`if ((e = below[q]) == 0) e = below[q] = q->above[this] = new edge_t(raw, this, q)`. -/
def link_below (s : flattener_t) (this q : Nat) (vthis vq : vertex_t) (raw : line_t) :
    Nat × flattener_t :=
  match vthis.below.find q with
  | some e => (e, s)
  | none =>
    let e := s.edges.length
    let s1 := { s with edges := s.edges ++ [some (edge_t.new raw this q)] }
    let s2 := s1.set_vertex q { vq with above := vq.above.set this e }
    (e, s2.set_vertex this { vthis with below := vthis.below.set q e })

/-- The end of `goes_to`: inherit the flags of `state` when it is not null. -/
def inherit (s : flattener_t) (e : Nat) (state : Option Nat) (flip : Bool) :
    Except fault flattener_t :=
  match state with
  | none => .ok s
  | some st =>
    match s.edge st, s.edge e with
    | .error x, _ => .error x
    | _, .error x => .error x
    | .ok sd, .ok ed =>
      .ok (s.set_edge e
        { ed with flags := { ed.flags with
            checked := sd.flags.checked
            sense := xor sd.flags.sense flip
            keep := sd.flags.keep } })

/-- `vertex_t::goes_to`, called on the vertex `this`: the edge between `this`
and `q` (`none` for the null pointer) and the state afterwards. -/
def goes_to (s : flattener_t) (this q : Nat) (raw : line_t) (wind : wind_t)
    (state : Option Nat) : Except fault (Option Nat × flattener_t) :=
  if q = this then .ok (none, s)
  else
    match s.vertex q, s.vertex this with
    | .error e, _ => .error e
    | _, .error e => .error e
    | .ok vq, .ok vthis =>
      match vertexsort_t vq vthis with
      | .error e => .error e
      | .ok flip =>
        let wind1 := if flip then wind.neg else wind
        let raw1 := if flip then raw.reverse else raw
        let es := if flip then s.link_above this q vthis vq raw1
          else s.link_below this q vthis vq raw1
        match es.2.edge es.1 with
        | .error x => .error x
        | .ok ed =>
          match (es.2.set_edge es.1 { ed with wind := ed.wind.add wind1 }).inherit
              es.1 state flip with
          | .error x => .error x
          | .ok s5 => .ok (some es.1, s5)

/-- `flattener_t::add_edge`. -/
def add_edge (s : flattener_t) (x y u v : Int) (is_shape_b : Bool) :
    Except fault flattener_t :=
  match s.find (rat_t.ofInt x) (rat_t.ofInt y) with
  | .error e => .error e
  | .ok (p, s1) =>
    match s1.find (rat_t.ofInt u) (rat_t.ofInt v) with
    | .error e => .error e
    | .ok (q, s2) =>
      match s2.goes_to p q ⟨x, y, u, v⟩
          ⟨if is_shape_b then 0 else 1, if is_shape_b then 1 else 0⟩ none with
      | .error e => .error e
      | .ok (_, s3) => .ok s3

/-- `unlink`: remove an edge from the two maps that refer to it. -/
def unlink (s : flattener_t) (p : Nat) : Except fault flattener_t :=
  match s.edge p with
  | .error e => .error e
  | .ok ed =>
    match s.vertex ed.from_ with
    | .error e => .error e
    | .ok vf =>
      let s1 := s.set_vertex ed.from_ { vf with below := vf.below.erase ed.to_ }
      match s1.vertex ed.to_ with
      | .error e => .error e
      | .ok vt => .ok (s1.set_vertex ed.to_ { vt with above := vt.above.erase ed.from_ })

/-- `remove`: unlink an edge, check that it is idle and delete it. -/
def remove (s : flattener_t) (p : Nat) : Except fault flattener_t :=
  match s.unlink p with
  | .error e => .error e
  | .ok s1 =>
    match s1.edge p with
    | .error e => .error e
    | .ok ed =>
      if ed.flags.active ≠ false then .error .assertion_t
      else if ed.flags.todo ≠ false then .error .assertion_t
      else .ok (s1.delete_edge p)

end flattener_t

/-- Sweep order of two positions: smaller `y`, then smaller `x`. -/
def vertex_t.precedes (p q : vertex_t) : Prop :=
  p.y.val < q.y.val ∨ (p.y.val = q.y.val ∧ p.x.val < q.x.val)

instance (p q : vertex_t) : Decidable (p.precedes q) := by
  unfold vertex_t.precedes; infer_instance

/-- Both coordinates of the vertex are canonical. -/
def vertex_t.canonical (v : vertex_t) : Prop := v.x.canonical ∧ v.y.canonical

instance (v : vertex_t) : Decidable v.canonical := by
  unfold vertex_t.canonical; infer_instance

/-- The elements of a vertex set refer to vertices of the arena, all of them
with canonical coordinates. -/
def vertexset_t.valid (verts : List vertex_t) (set : List Nat) : Prop :=
  ∀ w ∈ set, ∃ vw, verts[w]? = some vw ∧ vw.canonical

namespace flattener_t

/-- The two ends `(from, to)` of a live edge. -/
def ends (s : flattener_t) (e : Nat) : Option (Nat × Nat) :=
  match s.edges[e]? with
  | some (some ed) => some (ed.from_, ed.to_)
  | _ => none

/-- The winding of the edge `e`, `(0, 0)` when there is no such edge. -/
def wind_of (s : flattener_t) (e : Nat) : wind_t :=
  match s.edges[e]? with
  | some (some ed) => ed.wind
  | _ => ⟨0, 0⟩

/-- The graph double-link invariant: every edge reachable from a vertex is the
entry `e.from.below[e.to]` and the entry `e.to.above[e.from]`; and every entry
of a `below` (`above`) map of a vertex `v`, keyed by `w`, points to an edge
whose `from` (`to`) is `v` and whose other end is `w`.  The vertices of the
two vertex sets are vertices of the arena, over which the statement ranges. -/
def double_link (s : flattener_t) : Prop :=
  (∀ v w e, (s.below v w = some e ∨ s.above v w = some e) →
    ∃ ed, s.edge e = .ok ed ∧ s.below ed.from_ ed.to_ = some e ∧
      s.above ed.to_ ed.from_ = some e) ∧
  (∀ v w e, s.below v w = some e →
    ∃ ed, s.edge e = .ok ed ∧ ed.from_ = v ∧ ed.to_ = w) ∧
  (∀ v w e, s.above v w = some e →
    ∃ ed, s.edge e = .ok ed ∧ ed.to_ = v ∧ ed.from_ = w)

/-- The double-link invariant, entry by entry: an entry and its mirror entry
point to the same live edge, which has the two keys as its ends. -/
def linked (s : flattener_t) : Prop :=
  (∀ v w e, s.below v w = some e → s.ends e = some (v, w) ∧ s.above w v = some e) ∧
  (∀ v w e, s.above v w = some e → s.ends e = some (w, v) ∧ s.below w v = some e)

/-- No map refers to the edge `p`. -/
def unref (s : flattener_t) (p : Nat) : Prop :=
  ∀ v w, s.below v w ≠ some p ∧ s.above v w ≠ some p

/-- Every edge leads from a vertex to one that comes later in sweep order. -/
def ordered (s : flattener_t) : Prop :=
  ∀ v w e, s.below v w = some e →
    ∃ vv vw, s.verts[v]? = some vv ∧ s.verts[w]? = some vw ∧ vv.precedes vw


end flattener_t

namespace flattener_t

/-- The position of the vertex `u`. -/
def pos (s : flattener_t) (u : Nat) : Option (rat_t × rat_t) :=
  (s.verts[u]?).map fun v => (v.x, v.y)

/-- Everything of the session apart from the two arenas. -/
def rest_eq (s s1 : flattener_t) : Prop :=
  s1.vertexset = s.vertexset ∧ s1.snapset = s.snapset ∧ s1.todo = s.todo ∧
  s1.ael = s.ael ∧ s1.dot = s.dot ∧ s1.flatten_rule = s.flatten_rule ∧
  s1.snaplist = s.snaplist

end flattener_t

/-- The elements of a vertex set are in strict sweep order. -/
def vertexset_t.sorted (verts : List vertex_t) (set : List Nat) : Prop :=
  set.Pairwise fun a b =>
    ∃ va vb, verts[a]? = some va ∧ verts[b]? = some vb ∧ va.precedes vb

/-- The state of a session between calls of `add_edge`: a valid vertex set in
strict sweep order, the double-link invariant and edges in sweep order. -/
def flattener_t.wf (s : flattener_t) : Prop :=
  vertexset_t.valid s.verts s.vertexset ∧ vertexset_t.sorted s.verts s.vertexset ∧
  s.linked ∧ s.ordered

/-! ## Ranges, quadrants and the order of the active edge list -/

/-- A numeric range; the constructor puts the ends in order. -/
structure range_t where
  l : rat_t
  r : rat_t
deriving DecidableEq, Repr

/-- `range_t::range_t(l_, r_)`. -/
def range_t.new (l_ r_ : rat_t) : Except fault range_t := do
  if (← r_.lt l_) then pure ⟨r_, l_⟩ else pure ⟨l_, r_⟩

/-- `range_t::overlaps`. -/
def range_t.overlaps (t other : range_t) : Except fault Bool := do
  if (← other.r.lt t.l) then pure false
  else if (← t.r.lt other.l) then pure false
  else pure true

/-- The loop of `quadrant`: rotate by a quarter turn until `dx > 0 && dy >= 0`,
counting the turns. -/
def quadrant_loop : Nat → Int → Int → Nat → Except fault (Nat × Int × Int)
  | 0, _, _, _ => .error .fuel
  | fuel + 1, dx, dy, n =>
    if dx > 0 ∧ dy ≥ 0 then .ok (n, dx, dy)
    else quadrant_loop fuel dy (-dx) (n + 1)

/-- `quadrant`: fold a direction into the first quadrant; returns the number of
quarter turns and the folded direction.  Four rounds bring any direction other
than `(0, 0)` there. -/
def quadrant (dx dy : Int) : Except fault (Nat × Int × Int) := do
  assert_ (dx != 0 || dy != 0)
  quadrant_loop 4 dx dy 0

/-- `edgesort_t::operator()`: order two edges by the angle of their raw
lines. -/
def edgesort_t (p q : edge_t) : Except fault Bool := do
  let px := p.raw.x1 - p.raw.x0
  let py := p.raw.y1 - p.raw.y0
  let qx := q.raw.x1 - q.raw.x0
  let qy := q.raw.y1 - q.raw.y0
  if px = qx ∧ py = qy then pure false
  else
    let (pp, px, py) ← quadrant px py
    let (qq, qx, qy) ← quadrant qx qy
    if pp ≠ qq then pure (decide (pp < qq))
    else
      assert_ (px * qy != qx * py)
      pure (decide (px * qy > qx * py))

/-- `sort_active_edge::operator()`: left-to-right order of two edges on the
sweep line; throws `action_t` when the two edges cross or touch. -/
def sort_active_edge (s : flattener_t) (p q : Nat) : Except fault Bool := do
  if p = q then pure false
  else
    let pe ← s.edge p
    let qe ← s.edge q
    assert_ (! pe.equals qe)
    let pf ← s.vertex pe.from_
    let pt ← s.vertex pe.to_
    let qf ← s.vertex qe.from_
    let qt ← s.vertex qe.to_
    if ! (← (← range_t.new pf.x pt.x).overlaps (← range_t.new qf.x qt.x)) then
      pf.x.lt qf.x
    else
      assert_ (← (← range_t.new pf.y pt.y).overlaps (← range_t.new qf.y qt.y))
      assert_ (pe.flags.active || qe.flags.active)
      assert_ (pe.from_ != qe.to_)
      assert_ (pe.to_ != qe.from_)
      if pe.from_ = qe.from_ then
        if (← side qt pe) ≠ 0 then edgesort_t qe pe
        else if (← vertexsort_t pt qt) then
          throw (.action_t q p (some pe.to_) .split)
        else throw (.action_t p q (some qe.to_) .split)
      else if pe.to_ = qe.to_ then
        if (← side qf pe) ≠ 0 then edgesort_t pe qe
        else if (← vertexsort_t pf qf) then
          throw (.action_t p q (some qe.from_) .split)
        else throw (.action_t q p (some pe.from_) .split)
      else
        let a ← side pf qe
        let b ← side pt qe
        if a * b > 0 then pure (decide (a < 0))
        else
          let c ← side qf pe
          let d ← side qt pe
          if c * d > 0 then pure (decide (c > 0))
          else if a = 0 ∧ b = 0 then
            assert_ (c == 0 && d == 0)
            if (← vertexsort_t pf qf) then
              throw (.action_t p q (some qe.from_) .split)
            else throw (.action_t q p (some pe.from_) .split)
          else throw (.action_t p q none .intersect)

/-- `set<edge_t *, sort_active_edge>::insert`: the list after the call and the
element the returned iterator designates, or what the comparator threw.  The
standard leaves open with which elements a new key is compared, so the
operation is a parameter of the sweep. -/
abbrev ael_insert_t := flattener_t → Nat → Except fault (List Nat × Nat)

/-- The end of a search for the place of `e`: the new key goes in front of
`tail` unless it is not greater than its predecessor `pred`. -/
def ael_place (s : flattener_t) (e : Nat) (pred : Option Nat) (tail : List Nat) :
    Except fault (List Nat × Nat) :=
  match pred with
  | none => pure (e :: tail, e)
  | some j => do
    if (← sort_active_edge s j e) then pure (e :: tail, e) else pure (tail, j)

/-- Search from the left: `e` is compared with each element until one is
found that it precedes. -/
def ael_scan (s : flattener_t) (e : Nat) : Option Nat → List Nat →
    Except fault (List Nat × Nat)
  | pred, [] => ael_place s e pred []
  | pred, x :: rest => do
    if (← sort_active_edge s e x) then ael_place s e pred (x :: rest)
    else
      let (r, pos) ← ael_scan s e (some x) rest
      pure (x :: r, pos)

/-- An instance of the insertion into the active edge list: a container that
compares a new key with every element up to its place. -/
def set_insert : ael_insert_t := fun s e => ael_scan s e none s.ael

/-! ## The sweep -/

namespace flattener_t

/-- The element an iterator designates, for an iterator that was set. -/
def deref_pos (pos : Option Nat) : Except fault Nat :=
  match pos with
  | some x => .ok x
  | none => .error .dangling

/-- `it++` on an iterator of the active edge list: the element after `x`,
`none` for `end()`. -/
def ael_next : List Nat → Nat → Except fault (Option Nat)
  | [], _ => .error .dangling
  | y :: rest, x => if y = x then .ok rest.head? else ael_next rest x

/-- `flattener_t::push`: put an edge that spans the current vertex on the todo
list. -/
def push (s : flattener_t) (e : Option Nat) : Except fault flattener_t := do
  match e with
  | none => throw .assertion_t
  | some e =>
    let ed ← s.edge e
    let dot ← deref_pos s.dot
    let vdot ← s.vertex dot
    let vto ← s.vertex ed.to_
    if dot = ed.to_ then pure s
    else if (← vertexsort_t vto vdot) then pure s
    else
      assert_ (ed.from_ != ed.to_)
      if ed.flags.todo = true then pure s
      else
        let vfrom ← s.vertex ed.from_
        if (← vertexsort_t vdot vfrom) then
          assert_ (ed.flags.checked == false)
          pure s
        else
          let s1 := s.set_edge e
            { ed with flags := { ed.flags with checked := false, todo := true } }
          pure (s1.set_todo (e :: s1.todo))

/-- `assert_(a || b)` where `b` is only evaluated when `a` is false. -/
def assert_or (a : Bool) (b : Except fault Bool) : Except fault Unit :=
  if a then pure () else do assert_ (← b)

/-- `flattener_t::split`: split an edge at a vertex. -/
def split (s : flattener_t) (p v : Nat) : Except fault flattener_t := do
  let pe ← s.edge p
  assert_ (pe.flags.active == false)
  assert_ (pe.flags.todo == false)
  if v = pe.from_ ∨ v = pe.to_ then
    let (r, s1) ← s.goes_to pe.from_ pe.to_ pe.raw pe.wind (some p)
    s1.push r
  else
    let dot ← deref_pos s.dot
    let vdot ← s.vertex dot
    let vv ← s.vertex v
    let vfrom ← s.vertex pe.from_
    let vto ← s.vertex pe.to_
    assert_or (decide (dot = v)) (vertexsort_t vdot vv)
    assert_ (← vertexsort_t vfrom vv)
    assert_ (← vertexsort_t vv vto)
    let (r1, s1) ← s.goes_to pe.from_ v pe.raw pe.wind (some p)
    let s2 ← s1.push r1
    let pe2 ← s2.edge p
    let (r2, s3) ← s2.goes_to v pe2.to_ pe2.raw pe2.wind none
    s3.push r2

/-- `flattener_t::intersect(p, q)`: the vertex where the raw lines meet, and
both edges split there. -/
def intersect_edges (s : flattener_t) (p q : Nat) : Except fault flattener_t := do
  let pe ← s.edge p
  let qe ← s.edge q
  let (x, y) ← intersect_point pe.raw qe.raw
  let (v, s1) ← s.find x y
  let s2 ← s1.split p v
  s2.split q v

/-- The start of the handler in `insert`, for one of the two colliding edges:
out of the active edge list, out of the graph, not checked. -/
def retire (s : flattener_t) (p : Nat) : Except fault flattener_t := do
  let pe ← s.edge p
  let s1 ← (if pe.flags.active then do
      let pos ← deref_pos pe.aelpos
      pure ((s.set_ael (s.ael.erase pos)).set_edge p
        { pe with flags := { pe.flags with active := false } })
    else pure s)
  let s2 ← s1.unlink p
  let pe2 ← s2.edge p
  pure (s2.set_edge p { pe2 with flags := { pe2.flags with checked := false } })

/-- The handler of `insert` for a caught `action_t`. -/
def collide (s : flattener_t) (e p q : Nat) (v : Option Nat) (f : flavour) :
    Except fault flattener_t := do
  let ed ← s.edge e
  assert_ (ed.flags.active == false)
  assert_ (e == p || e == q)
  assert_ (p != q)
  let s1 ← s.retire p
  let s2 ← s1.retire q
  let s3 ← (match f with
    | .intersect => do
      let t ← s2.intersect_edges p q
      let qe ← t.edge q
      assert_ (! qe.flags.todo)
      pure (t.delete_edge q)
    | .split => do
      let w ← deref_pos v
      let t ← s2.split p w
      t.split q w)
  let pe ← s3.edge p
  assert_ (! pe.flags.todo)
  pure (s3.delete_edge p)

/-- `flattener_t::insert`: try to insert an edge into the active edge list. -/
def insert (ins : ael_insert_t) (s : flattener_t) (e : Nat) : Except fault flattener_t := do
  let ed ← s.edge e
  if ed.flags.active then pure s
  else
    match ins s e with
    | .ok (ael1, pos) =>
      pure ((s.set_ael ael1).set_edge e
        { ed with aelpos := some pos, flags := { ed.flags with active := true } })
    | .error (.action_t p q v f) => s.collide e p q v f
    | .error x => .error x

/-- First loop of `sweep`: the edges that end at the current vertex leave the
active edge list; `next` is the element after the last one removed. -/
def sweep_above (s : flattener_t) (next : Option Nat) :
    List (Nat × Nat) → Except fault (Option Nat × flattener_t)
  | [] => pure (next, s)
  | (_, e) :: rest => do
    let ed ← s.edge e
    if ed.flags.active then
      let pos ← deref_pos ed.aelpos
      let next1 ← ael_next s.ael pos
      let s1 := (s.set_ael (s.ael.erase pos)).set_edge e
        { ed with flags := { ed.flags with active := false } }
      sweep_above s1 next1 rest
    else sweep_above s next rest

/-- `if (e->flags.todo == false) { e->flags.todo = true; todo.push_back(e); }`. -/
def todo_push_back (s : flattener_t) (e : Nat) : Except fault flattener_t := do
  let ed ← s.edge e
  if ed.flags.todo = false then
    let s1 := s.set_edge e { ed with flags := { ed.flags with todo := true } }
    pure (s1.set_todo (s1.todo ++ [e]))
  else pure s

/-- The step of `sweep` for two neighbours that have not been compared: the
right one leaves the list and goes to the todo list. -/
def sweep_next (s : flattener_t) (next : Option Nat) : Except fault flattener_t :=
  match next with
  | none => pure s
  | some e => do
    let ed ← s.edge e
    assert_ ed.flags.active
    let s1 := (s.set_ael (s.ael.erase e)).set_edge e
      { ed with flags := { ed.flags with active := false } }
    s1.todo_push_back e

/-- Second loop of `sweep`: the edges that start at the current vertex go to
the todo list. -/
def sweep_below (s : flattener_t) : List (Nat × Nat) → Except fault flattener_t
  | [] => pure s
  | (_, e) :: rest => do
    let ed ← s.edge e
    assert_ (ed.flags.active == false)
    let s1 ← s.todo_push_back e
    sweep_below s1 rest

/-- Last loop of `sweep`: drain the todo list. -/
def sweep_todo (ins : ael_insert_t) : Nat → flattener_t → Except fault flattener_t
  | 0, _ => .error .fuel
  | fuel + 1, s =>
    match s.todo with
    | [] => pure s
    | e :: rest => do
      let ed ← s.edge e
      assert_ (ed.flags.todo == true)
      let s1 := (s.set_todo rest).set_edge e
        { ed with flags := { ed.flags with todo := false } }
      if ed.wind.is_zero then sweep_todo ins fuel s1
      else
        let s2 ← s1.insert ins e
        sweep_todo ins fuel s2

/-- `flattener_t::sweep`, at the vertex `dot`. -/
def sweep (ins : ael_insert_t) (fuel : Nat) (s : flattener_t) : Except fault flattener_t := do
  assert_ s.todo.isEmpty
  let dot ← deref_pos s.dot
  let vdot ← s.vertex dot
  let (next, s1) ← s.sweep_above none vdot.above
  let s2 ← s1.sweep_next next
  let vdot2 ← s2.vertex dot
  let s3 ← s2.sweep_below vdot2.below
  sweep_todo ins fuel s3

end flattener_t
/-! ## Classification, cull and fold -/

namespace flattener_t

/-- The loop of `walklist` over the active edge list, with the winding
accumulated so far. -/
def walklist_loop (flatten_rule : Int) (s : flattener_t) (wind : wind_t) :
    List Nat → Except fault (wind_t × flattener_t)
  | [] => pure (wind, s)
  | e :: rest => do
    let ed ← s.edge e
    assert_ ed.flags.active
    let new_wind := wind.add ed.wind
    if ed.flags.checked then
      assert_ (new_wind.a == ed.checked_wind.a)
      assert_ (new_wind.b == ed.checked_wind.b)
      walklist_loop flatten_rule s new_wind rest
    else
      let a := wind.is_inside flatten_rule
      let b := new_wind.is_inside flatten_rule
      let fl ← (if xor a b then do
          assert_ (ed.flags.checked == false || ed.flags.keep == true)
          pure { ed.flags with keep := true, sense := b }
        else do
          assert_ (ed.flags.checked == false || ed.flags.keep == false)
          pure { ed.flags with keep := false })
      let s1 := s.set_edge e
        { ed with flags := { fl with checked := true }, checked_wind := new_wind }
      walklist_loop flatten_rule s1 new_wind rest

/-- `walklist(ael, flatten_rule)`. -/
def walklist (s : flattener_t) : Except fault flattener_t := do
  assert_ (! (⟨0, 0⟩ : wind_t).is_inside s.flatten_rule)
  let (wind, s1) ← walklist_loop s.flatten_rule s ⟨0, 0⟩ s.ael
  assert_ wind.is_zero
  pure s1

/-- The loop of `cull` over the entries of a map. -/
def cull_loop (s : flattener_t) : List (Nat × Nat) → Except fault flattener_t
  | [] => pure s
  | (_, e) :: rest => do
    let ed ← s.edge e
    if ed.flags.keep = false then
      let s1 ← s.remove e
      cull_loop s1 rest
    else cull_loop s rest

/-- `cull((*it)->below)` for the vertex `v`. -/
def cull (s : flattener_t) (v : Nat) : Except fault flattener_t := do
  let vv ← s.vertex v
  cull_loop s vv.below

/-- `fold`: remove a vertex through which a single raw line passes. -/
def fold (s : flattener_t) (v : Nat) : Except fault flattener_t := do
  let vv ← s.vertex v
  match vv.above, vv.below with
  | [(_, a)], [(_, b)] =>
    let ae ← s.edge a
    let be ← s.edge b
    if ae.raw.eq be.raw ∧ ae.flags.sense = be.flags.sense then
      let (_, s1) ← s.goes_to ae.from_ be.to_ ae.raw ae.wind (some a)
      let s2 ← s1.remove a
      s2.remove b
    else pure s
  | _, _ => pure s

/-- The element after `x` in a vertex set, `none` at the end. -/
def set_next : List Nat → Nat → Option Nat
  | [], _ => none
  | y :: rest, x => if y = x then rest.head? else set_next rest x

/-- The first loop of `intersect()`: sweep and classify at every vertex in
sweep order; vertices found on the way are visited in their turn. -/
def intersect_loop (ins : ael_insert_t) (fuel : Nat) :
    Nat → Option Nat → flattener_t → Except fault flattener_t
  | 0, _, _ => .error .fuel
  | _ + 1, none, s => pure s
  | n + 1, some d, s => do
    let s1 ← (s.set_dot (some d)).sweep ins fuel
    let s2 ← s1.walklist
    intersect_loop ins fuel n (set_next s2.vertexset d) s2

/-- Apply `f` at each element of a list of vertices in turn. -/
def for_each (f : flattener_t → Nat → Except fault flattener_t) (s : flattener_t) :
    List Nat → Except fault flattener_t
  | [] => pure s
  | v :: rest => do
    let s1 ← f s v
    for_each f s1 rest

/-- `flattener_t::intersect()`: the sweep, then cull, then fold. -/
def intersect (ins : ael_insert_t) (fuel : Nat) (s : flattener_t) :
    Except fault flattener_t := do
  assert_ s.ael.isEmpty
  let s1 ← intersect_loop ins fuel fuel s.vertexset.head? s
  let s2 ← for_each cull s1 s1.vertexset
  for_each fold s2 s2.vertexset

end flattener_t

/-! ## Snap rounding -/

namespace flattener_t

/-- `pin_set_t::insert` with `pinsort_t(from)`: the pins are kept in the order
of their squared distance from `from`; a pin at a distance that is already
present is not inserted. -/
def pin_insert (s : flattener_t) (vfrom : vertex_t) (pin : pin_t) (d : Int) :
    List pin_t → Except fault (List pin_t)
  | [] => pure [pin]
  | p :: rest => do
    let vp ← s.vertex (← deref_pos p.v)
    if vfrom.distance vp < d then
      pure (p :: (← pin_insert s vfrom pin d rest))
    else if d < vfrom.distance vp then pure (pin :: p :: rest)
    else pure (p :: rest)

/-- `edge_t::add_pin`. -/
def add_pin (s : flattener_t) (e p : Nat) (above : Bool) : Except fault flattener_t := do
  let vp ← s.vertex p
  assert_ (vp.x.n == 0 && vp.y.n == 0)
  let ed ← s.edge e
  let vfrom ← s.vertex ed.from_
  let pins := match ed.pin_set with
    | none => []
    | some l => l
  let pins1 ← pin_insert s vfrom ⟨some p, above⟩ (vfrom.distance vp) pins
  pure (s.set_edge e { ed with pin_set := some pins1 })

/-- The loop of `hittest` over the open snapped edges. -/
def hittest_loop (s : flattener_t) (v : Nat) : List Nat → Except fault flattener_t
  | [] => pure s
  | p :: rest => do
    let vv ← s.vertex v
    let pe ← s.edge p
    let pf ← s.vertex pe.from_
    let pt ← s.vertex pe.to_
    if ! (← (← range_t.new pf.x pt.x).overlaps (← range_t.new vv.x vv.x)) then
      hittest_loop s v rest
    else
      let a := side_line vv ⟨pf.x.i, pf.y.i, pt.x.i, pt.y.i⟩
      let b := side_line vv pe.raw
      if b = 0 ∨ a * b < 0 then
        let (w, s1) ← s.find vv.x vv.y
        let s2 ← s1.add_pin p w (decide (b ≤ 0))
        hittest_loop s2 v rest
      else hittest_loop s v rest

/-- `flattener_t::hittest`. -/
def hittest (s : flattener_t) (v : Nat) : Except fault flattener_t :=
  hittest_loop s v s.snaplist

/-- The trimming loop of `snap_to_pins` for the arriving pin `it`: pop while
the last two pins and the new one make the wrong turn. -/
def trim (s : flattener_t) (it : pin_t) :
    Nat → pin_t → pin_t → List pin_t → Except fault (Nat × pin_t × pin_t × List pin_t)
  | 0, pin_a, pin_b, pinlist => pure (0, pin_a, pin_b, pinlist)
  | pincount + 1, pin_a, pin_b, pinlist =>
    if pincount + 1 ≥ 2 then do
      let vi ← s.vertex (← deref_pos it.v)
      let vb ← s.vertex (← deref_pos pin_b.v)
      let va ← s.vertex (← deref_pos pin_a.v)
      let a := side_line vi ⟨vb.x.i, vb.y.i, va.x.i, va.y.i⟩
      if a = 0 ∨ decide (a < 0) = it.above then pure (pincount + 1, pin_a, pin_b, pinlist)
      else
        match pinlist with
        | [] => trim s it pincount pin_b pin_b []
        | front :: tail => trim s it pincount pin_b front tail
    else pure (pincount + 1, pin_a, pin_b, pinlist)

/-- The first loop of `snap_to_pins`: collect the pins that stay. -/
def collect_pins (s : flattener_t) :
    List pin_t → Nat → pin_t → pin_t → List pin_t →
      Except fault (Nat × pin_t × pin_t × List pin_t)
  | [], pincount, pin_a, pin_b, pinlist => pure (pincount, pin_a, pin_b, pinlist)
  | it :: rest, pincount, pin_a, pin_b, pinlist => do
    let (pincount1, pin_a1, pin_b1, pinlist1) ← trim s it pincount pin_a pin_b pinlist
    let pinlist2 := if pincount1 ≥ 2 then pin_b1 :: pinlist1 else pinlist1
    collect_pins s rest (pincount1 + 1) it pin_a1 pinlist2

/-- The second loop of `snap_to_pins`: an edge of the primary set for each
pair of neighbours among the pins that stayed. -/
def route (this : Nat) :
    Nat → pin_t → pin_t → List pin_t → flattener_t → Except fault flattener_t
  | 0, _, _, _, s => pure s
  | pincount + 1, pin_a, pin_b, pinlist, s =>
    if pincount + 1 ≥ 2 then do
      let te ← s.edge this
      let (e, s1) ← s.goes_to (← deref_pos pin_b.v) (← deref_pos pin_a.v) te.raw te.wind
        (some this)
      let e ← deref_pos e
      let ed ← s1.edge e
      let s2 ← (if ed.wind.is_zero then s1.remove e else pure s1)
      match pinlist with
      | [] => route this pincount pin_b pin_b [] s2
      | front :: tail => route this pincount pin_b front tail s2
    else pure s

/-- `edge_t::snap_to_pins`. -/
def snap_to_pins (s : flattener_t) (this : Nat) : Except fault flattener_t := do
  let te ← s.edge this
  let pins ← (match te.pin_set with
    | none => throw .dangling
    | some l => pure l)
  let (pincount, pin_a, pin_b, pinlist) ← collect_pins s pins 0 {} {} []
  route this pincount pin_a pin_b pinlist s

/-- First phase of `stable_snap_round` for the entries of one `above` map. -/
def extract_loop (s : flattener_t) : List (Nat × Nat) → Except fault flattener_t
  | [] => pure s
  | (_, e) :: rest => do
    let ed ← s.edge e
    assert_ (ed.flags.keep == true)
    let ed1 := { ed with wind := (⟨if ed.flags.sense then -1 else 1, 0⟩ : wind_t) }
    let s1 := s.set_edge e ed1
    let vf ← s1.vertex ed1.from_
    let (p, s2) ← s1.snap vf.x vf.y
    let vt ← s2.vertex ed1.to_
    let (q, s3) ← s2.snap vt.x vt.y
    let vf3 ← s3.vertex ed1.from_
    let vt3 ← s3.vertex ed1.to_
    if vf3.x.n = 0 ∧ vf3.y.n = 0 ∧ vt3.x.n = 0 ∧ vt3.y.n = 0 then extract_loop s3 rest
    else
      let ed3 ← s3.edge e
      let (_, s4) ← s3.goes_to p q ed3.raw ed3.wind (some e)
      let s5 ← s4.remove e
      extract_loop s5 rest

/-- First phase of `stable_snap_round` at one vertex of the vertex set. -/
def extract (s : flattener_t) (v : Nat) : Except fault flattener_t := do
  let vv ← s.vertex v
  extract_loop s vv.above

/-- `set<edge_t *>::insert`. -/
def snaplist_insert (e : Nat) : List Nat → List Nat
  | [] => [e]
  | x :: rest =>
    if x = e then x :: rest
    else if e < x then e :: x :: rest
    else x :: snaplist_insert e rest

/-- The two pin loops of the second phase: both ends of an edge are pins of
it; the edge leaves `snaplist` at its `to` and enters it at its `from`. -/
def pin_ends (s : flattener_t) (v : Nat) (enter : Bool) :
    List (Nat × Nat) → Except fault flattener_t
  | [] => pure s
  | (_, e) :: rest => do
    let vv ← s.vertex v
    let (w, s1) ← s.find vv.x vv.y
    let s2 ← s1.add_pin e w true
    let s3 : flattener_t := if enter then s2.set_snaplist (snaplist_insert e s2.snaplist)
      else s2.set_snaplist (s2.snaplist.erase e)
    pin_ends s3 v enter rest

/-- Second phase of `stable_snap_round` at one vertex of the snap set. -/
def discover (s : flattener_t) (v : Nat) : Except fault flattener_t := do
  let vv ← s.vertex v
  let s1 ← s.pin_ends v false vv.above
  let s2 ← s1.hittest v
  let vv2 ← s2.vertex v
  s2.pin_ends v true vv2.below

/-- Third phase of `stable_snap_round` for the entries of one `above` map. -/
def reroute_loop (s : flattener_t) : List (Nat × Nat) → Except fault flattener_t
  | [] => pure s
  | (_, e) :: rest => do
    let s1 ← s.snap_to_pins e
    let s2 ← s1.remove e
    reroute_loop s2 rest

/-- Third phase of `stable_snap_round` at one vertex of the snap set. -/
def reroute (s : flattener_t) (v : Nat) : Except fault flattener_t := do
  let vv ← s.vertex v
  reroute_loop s vv.above

/-- `flattener_t::stable_snap_round`. -/
def stable_snap_round (s : flattener_t) : Except fault flattener_t := do
  let s1 ← for_each extract s s.vertexset
  assert_ s1.snaplist.isEmpty
  let s2 ← for_each discover s1 s1.snapset
  assert_ s2.snaplist.isEmpty
  for_each reroute s2 s2.snapset

/-- `flatten_arrangement::flatten`: `some` of the state when it returns true,
`none` when it returns false (an `assertion_t` or `action_t` was caught; the
state the session is left in is not described). -/
def flatten (ins : ael_insert_t) (fuel : Nat) (s : flattener_t) :
    Except fault (Option flattener_t) :=
  match (do let s1 ← s.intersect ins fuel; s1.stable_snap_round) with
  | .ok s2 => .ok (some s2)
  | .error .assertion_t => .ok none
  | .error (.action_t _ _ _ _) => .ok none
  | .error x => .error x

/-- Any sequence of `add_edge` calls. -/
def add_edges (s : flattener_t) : List (Int × Int × Int × Int × Bool) →
    Except fault flattener_t
  | [] => pure s
  | (x, y, u, v, b) :: rest => do
    let s1 ← s.add_edge x y u v b
    add_edges s1 rest

end flattener_t

namespace flattener_t

/-- The first entry of a map whose edge has (`want = true`) or has not the
sense `sense`. -/
def first_sense (s : flattener_t) (sense want : Bool) : List (Nat × Nat) →
    Except fault (Option Nat)
  | [] => pure none
  | (_, e) :: rest => do
    let ed ← s.edge e
    if (ed.flags.sense == sense) = want then pure (some e)
    else first_sense s sense want rest

/-- The inner loop of `get_result`: follow edges from `cur` until the trace is
back at `first` or finds no edge to go on with. -/
def trace (first : Nat) (sense : Bool) :
    Nat → Nat → Bool → List (Int × Int) → flattener_t →
      Except fault (List (Int × Int) × flattener_t)
  | 0, _, _, _, _ => .error .fuel
  | fuel + 1, cur, flip, poly, s => do
    let ce ← s.edge cur
    let from_ := if flip then ce.to_ else ce.from_
    let to_ := if flip then ce.from_ else ce.to_
    let vf ← s.vertex from_
    let poly1 := poly ++ [(vf.x.i, vf.y.i)]
    let s1 ← s.remove cur
    if to_ = first then pure (poly1, s1)
    else
      let vt ← s1.vertex to_
      match ← first_sense s1 sense false vt.above with
      | some e => trace first sense fuel e true poly1 s1
      | none =>
        match ← first_sense s1 sense true vt.below with
        | some e => trace first sense fuel e false poly1 s1
        | none => pure (poly1, s1)

/-- The trace of `get_result` that starts at the first entry of `below` of a
vertex: the polygon as it is pushed to the result (reversed when the first
edge has its sense flag set), and the state after the trace. -/
def trace_from (fuel : Nat) (s : flattener_t) (cur : Nat) :
    Except fault (List (Int × Int) × flattener_t) := do
  let ce ← s.edge cur
  let (poly, s1) ← trace ce.from_ ce.flags.sense fuel cur false [] s
  pure (if ce.flags.sense then poly.reverse else poly, s1)

/-- The outer loop of `flattener_t::get_result` over the vertex set.  The
result list belongs to the caller and is written as the loop goes: the first
component is the list as the call leaves it, also when the call ends in an
exception; the second is the state after a normal return, or the exception. -/
def get_result_loop (fuel : Nat) :
    List Nat → List (List (Int × Int)) → flattener_t →
      List (List (Int × Int)) × Except fault flattener_t
  | [], result, s => (result, .ok s)
  | v :: rest, result, s =>
    match s.vertex v with
    | .error x => (result, .error x)
    | .ok vv =>
      match vv.below with
      | [] => get_result_loop fuel rest result s
      | (_, cur) :: _ =>
        match s.trace_from fuel cur with
        | .error x => (result, .error x)
        | .ok (poly, s1) => get_result_loop fuel rest (result ++ [poly]) s1

/-- `flattener_t::get_result(result)`. -/
def get_result (fuel : Nat) (s : flattener_t) (result : List (List (Int × Int))) :
    List (List (Int × Int)) × Except fault flattener_t :=
  get_result_loop fuel s.vertexset result s

end flattener_t

/-- `flatten_arrangement::get_result(result)`: the result list as the call
leaves it, and `some` of the state when the call returns true, `none` when it
returns false (an exception was caught). -/
def flatten_arrangement.get_result (fuel : Nat) (s : flattener_t)
    (result : List (List (Int × Int))) :
    Except fault (List (List (Int × Int)) × Option flattener_t) :=
  match s.get_result fuel result with
  | (r, .ok s1) => .ok (r, some s1)
  | (r, .error .assertion_t) => .ok (r, none)
  | (r, .error (.action_t _ _ _ _)) => .ok (r, none)
  | (_, .error x) => .error x

namespace flattener_t

/-- The double-link invariant together with a list of edges that no map refers
to (edges that were unlinked and are about to be deleted). -/
def inv (U : List Nat) (s : flattener_t) : Prop :=
  s.linked ∧ ∀ p ∈ U, p < s.edges.length ∧ s.unref p

/-- A step from `s` to `s1` keeps the double-link invariant and leaves
unlinked edges unlinked. -/
def keeps (s s1 : flattener_t) : Prop := ∀ U, s.inv U → s1.inv U

end flattener_t

namespace flattener_t

/-- The component-wise sums of the windings of the edges `l`, as integers. -/
def wind_total (s : flattener_t) (l : List Nat) : Int × Int :=
  ((l.map fun e => (s.wind_of e).a).sum, (l.map fun e => (s.wind_of e).b).sum)

/-- The component-wise sum of the windings of the edges `l` as `walklist`
accumulates it with `wind_t::operator+`: two `short` counts. -/
def wind_sum (s : flattener_t) (l : List Nat) : wind_t :=
  ⟨short (s.wind_total l).1, short (s.wind_total l).2⟩

/-- Every edge of the active edge list is a live object. -/
def ael_live (s : flattener_t) : Prop := ∀ e ∈ s.ael, ∃ ed, s.edge e = .ok ed

/-- The condition of sweep closure: the windings of the active edge list sum
to `(0, 0)`, and the `checked_wind` of every edge that is checked is the sum of
the windings up to and including that edge. -/
def closure (s : flattener_t) : Prop :=
  s.wind_sum s.ael = ⟨0, 0⟩ ∧
  ∀ pre e post ed, s.ael = pre ++ e :: post → s.edge e = .ok ed →
    ed.flags.checked = true → ed.checked_wind = s.wind_sum (pre ++ [e])

end flattener_t

namespace flattener_t

/-- An active edge list as `walklist` meets it, from left to right: the left
side of a contour of shape A, the two sides of a contour of shape B inside it
and the right side of the contour of shape A.  The third edge was classified
at an earlier vertex of the sweep, the others are new. -/
def walk_example (flatten_rule_ : Int) : flattener_t :=
  { flatten_rule := flatten_rule_
    ael := [0, 1, 2, 3]
    edges := [
      some { raw := ⟨0, 0, 0, 9⟩, from_ := 0, to_ := 1, wind := ⟨1, 0⟩,
             flags := { active := true } },
      some { raw := ⟨2, 2, 2, 7⟩, from_ := 2, to_ := 3, wind := ⟨0, 1⟩,
             flags := { active := true } },
      some { raw := ⟨7, 7, 7, 2⟩, from_ := 4, to_ := 5, wind := ⟨0, -1⟩,
             checked_wind := ⟨1, 0⟩,
             flags := { active := true, checked := true, sense := true } },
      some { raw := ⟨9, 9, 9, 0⟩, from_ := 6, to_ := 7, wind := ⟨-1, 0⟩,
             flags := { active := true } }] }

end flattener_t

namespace flattener_t

/-- The edges of the primary graph, as `edgecount` walks them: for each vertex
of the vertex set in sweep order the entries of its `below` map, each as the
integer parts of the positions of its two ends. -/
def edge_list (s : flattener_t) : List ((Int × Int) × (Int × Int)) :=
  s.vertexset.flatMap fun v =>
    match s.verts[v]? with
    | none => []
    | some vv => vv.below.filterMap fun p =>
        match s.verts[p.1]? with
        | none => none
        | some vw => some ((vv.x.i, vv.y.i), (vw.x.i, vw.y.i))

end flattener_t

namespace flattener_t

/-- A relation between states that holds along every step that only writes
flags, windings and iterators of edges, or the lists of the sweep. -/
structure flag_steps (R : flattener_t → flattener_t → Prop) : Prop where
  refl : ∀ s, R s s
  trans : ∀ {s s1 s2}, R s s1 → R s1 s2 → R s s2
  set_edge : ∀ {s : flattener_t} {e : Nat} {ed : edge_t} (wind cw : wind_t) (flags : flags_t)
    (pos : Option Nat), s.edge e = .ok ed →
    R s (s.set_edge e ⟨ed.raw, ed.from_, ed.to_, wind, cw, flags, ed.pin_set, pos⟩)
  set_todo : ∀ (s : flattener_t) (t : List Nat), R s (s.set_todo t)
  set_ael : ∀ (s : flattener_t) (l : List Nat), R s (s.set_ael l)
  set_dot : ∀ (s : flattener_t) (d : Option Nat), R s (s.set_dot d)

/-- A relation between states that holds along `goes_to`. -/
structure join_steps (R : flattener_t → flattener_t → Prop) : Prop where
  goes_to : ∀ {s s1 : flattener_t} {this q : Nat} {raw : line_t} {wind : wind_t}
    {state r : Option Nat}, s.goes_to this q raw wind state = .ok (r, s1) → R s s1

/-- A relation between states that holds along the steps that take an edge out
of the graph: `unlink` and the deletion of an edge. -/
structure link_steps (R : flattener_t → flattener_t → Prop) : Prop where
  unlink : ∀ {s s1 : flattener_t} {p : Nat}, s.unlink p = .ok s1 → R s s1
  delete_edge : ∀ (s : flattener_t) (p : Nat), R s (s.delete_edge p)

/-- A relation between states that holds along `find` at canonical
coordinates. -/
structure find_steps (R : flattener_t → flattener_t → Prop) : Prop where
  find : ∀ {s s1 : flattener_t} {x y : rat_t} {r : Nat}, x.canonical → y.canonical →
    s.find x y = .ok (r, s1) → R s s1

/-- A relation between states that holds along `snap` at the position of a
vertex. -/
structure snap_steps (R : flattener_t → flattener_t → Prop) : Prop where
  snap : ∀ {s s1 : flattener_t} {v r : Nat} {vv : vertex_t}, s.vertex v = .ok vv →
    s.snap vv.x vv.y = .ok (r, s1) → R s s1

/-- A relation between states that holds along the steps of the second phase
of snap rounding: `find` at the position of a vertex, a store to the pins of an
edge and the assignment to `snaplist`. -/
structure pin_steps (R : flattener_t → flattener_t → Prop) : Prop where
  find_at : ∀ {s s1 : flattener_t} {v r : Nat} {vv : vertex_t}, s.vertex v = .ok vv →
    s.find vv.x vv.y = .ok (r, s1) → R s s1
  set_pins : ∀ {s : flattener_t} {e : Nat} {ed : edge_t} (pins : Option (List pin_t)),
    s.edge e = .ok ed → R s (s.set_edge e { ed with pin_set := pins })
  set_snaplist : ∀ (s : flattener_t) (l : List Nat), R s (s.set_snaplist l)

end flattener_t

namespace flattener_t

/-- A relation between states that holds along the stores of `goes_to`: a new
edge object, and an entry written into the `below` or `above` map of a
vertex. -/
structure store_steps (R : flattener_t → flattener_t → Prop) : Prop where
  new_edge : ∀ (s : flattener_t) (raw : line_t) (a b : Nat),
    R s { s with edges := s.edges ++ [some (edge_t.new raw a b)] }
  below_set : ∀ {s : flattener_t} {v : Nat} {old : vertex_t} (k e : Nat),
    s.verts[v]? = some old → R s (s.set_vertex v { old with below := old.below.set k e })
  above_set : ∀ {s : flattener_t} {v : Nat} {old : vertex_t} (k e : Nat),
    s.verts[v]? = some old → R s (s.set_vertex v { old with above := old.above.set k e })

/-- A relation between states that holds along the stores of `unlink`: an
entry erased from the `below` or `above` map of a vertex. -/
structure erase_steps (R : flattener_t → flattener_t → Prop) : Prop where
  below_erase : ∀ {s : flattener_t} {v : Nat} {old : vertex_t} (k : Nat),
    s.verts[v]? = some old → R s (s.set_vertex v { old with below := old.below.erase k })
  above_erase : ∀ {s : flattener_t} {v : Nat} {old : vertex_t} (k : Nat),
    s.verts[v]? = some old → R s (s.set_vertex v { old with above := old.above.erase k })

end flattener_t
namespace flattener_t

/-- The keys of every `below` and `above` map are in strictly increasing
order (the order of `std::map`): no key occurs twice. -/
def maps_ok (s : flattener_t) : Prop :=
  ∀ (v : Nat) (vv : vertex_t), s.verts[v]? = some vv →
    (vv.below.map Prod.fst).Pairwise (· < ·) ∧ (vv.above.map Prod.fst).Pairwise (· < ·)

/-- Every vertex of the arena has canonical coordinates. -/
def canon (s : flattener_t) : Prop :=
  ∀ (v : Nat) (vv : vertex_t), s.verts[v]? = some vv → vv.canonical

/-- The session is sound: canonical coordinates, a primary vertex set of
vertices of the arena in strict sweep order, a snap set of vertices with
integer coordinates, and maps with keys in order. -/
def sound (s : flattener_t) : Prop :=
  s.canon ∧ (∀ v ∈ s.vertexset, v < s.verts.length) ∧
  vertexset_t.sorted s.verts s.vertexset ∧
  (∀ u ∈ s.snapset, ∃ vu : vertex_t, s.verts[u]? = some vu ∧ vu.x.n = 0 ∧ vu.y.n = 0) ∧ s.maps_ok

/-- From `s` to `s1` every vertex keeps its position and its membership in
the two vertex sets. -/
def grows (s s1 : flattener_t) : Prop :=
  (∀ (v : Nat) (vv : vertex_t), s.verts[v]? = some vv →
    ∃ vv1 : vertex_t, s1.verts[v]? = some vv1 ∧ vv1.x = vv.x ∧ vv1.y = vv.y) ∧
  (∀ v ∈ s.vertexset, v ∈ s1.vertexset) ∧ (∀ u ∈ s.snapset, u ∈ s1.snapset)

/-- From `s` to `s1` only edges and maps were written: the vertices and the
two vertex sets are the same, an edge that was there has kept its line, its
ends and its pins, and a new edge has no pins. -/
def edits (s s1 : flattener_t) : Prop :=
  s1.vertexset = s.vertexset ∧ s1.snapset = s.snapset ∧
  s1.verts.length = s.verts.length ∧ (∀ v, s1.pos v = s.pos v) ∧
  s.edges.length ≤ s1.edges.length ∧
  (∀ e ed1, s1.edge e = .ok ed1 →
    (∃ ed, s.edge e = .ok ed ∧ ed1.raw = ed.raw ∧ ed1.from_ = ed.from_ ∧
      ed1.to_ = ed.to_ ∧ ed1.pin_set = ed.pin_set) ∨
    (s.edges.length ≤ e ∧ ed1.pin_set = none))

/-- A step that only writes edges and maps and keeps the keys of the maps in
order. -/
def calm (s s1 : flattener_t) : Prop := s.edits s1 ∧ (s.maps_ok → s1.maps_ok)

/-- A step that keeps the session sound, the positions of its vertices and the
members of its vertex sets. -/
def steady (s s1 : flattener_t) : Prop := s.sound → s1.sound ∧ s.grows s1

/-- The vertex `v` has integer coordinates, the coordinates of a vertex of
the snap set. -/
def snapped (s : flattener_t) (v : Nat) : Prop :=
  ∃ (vv : vertex_t) (u : Nat) (vu : vertex_t), s.verts[v]? = some vv ∧ vv.x.n = 0 ∧ vv.y.n = 0 ∧ u ∈ s.snapset ∧
    s.verts[u]? = some vu ∧ vu.x = vv.x ∧ vu.y = vv.y

/-- Every edge of the graph has two snapped ends. -/
def integer_output (s : flattener_t) : Prop :=
  ∀ v w e, s.below v w = some e → s.snapped v ∧ s.snapped w

/-- Every pin of every edge is a snapped vertex. -/
def pins_ok (s : flattener_t) : Prop :=
  ∀ (e : Nat) (ed : edge_t) (l : List pin_t) (p : pin_t), s.edge e = .ok ed →
    ed.pin_set = some l → p ∈ l → ∃ v, p.v = some v ∧ s.snapped v

/-- A session that has not been snap rounded: every vertex is in the primary
vertex set and the snap set is empty. -/
def plain (s : flattener_t) : Prop :=
  (∀ v, v < s.verts.length → v ∈ s.vertexset) ∧ s.snapset = []

/-- No edge has pins. -/
def unpinned (s : flattener_t) : Prop := ∀ e ed, s.edge e = .ok ed → ed.pin_set = none

/-- A step that keeps a sound session sound and plain. -/
def plainly (s s1 : flattener_t) : Prop := s.sound ∧ s.plain → s1.sound ∧ s1.plain

/-- A step that adds no pins. -/
def pinless (s s1 : flattener_t) : Prop := s.unpinned → s1.unpinned

end flattener_t

namespace flattener_t

/-- The invariants that every step of the pipeline keeps: the session is sound
and doubly linked. -/
def base (s : flattener_t) : Prop := s.sound ∧ s.linked

/-- The state of the first phase of snap rounding, while the `above` map of `v`
is walked: an edge of the graph has two snapped ends, or ends at one of the
vertices `R` that are still to come, or is one of the entries `L` of `v` that
are still to come. -/
def pending (s : flattener_t) (R : List Nat) (v : Nat) (L : List (Nat × Nat)) : Prop :=
  ∀ a b e, s.below a b = some e →
    (s.snapped a ∧ s.snapped b) ∨ b ∈ R ∨ (b = v ∧ (a, e) ∈ L)

end flattener_t

namespace flattener_t

/-- The state of snap rounding after its first phase: the invariants of the
pipeline, every edge of the graph with two snapped ends, every pin a snapped
vertex. -/
def rounded (s : flattener_t) : Prop := s.base ∧ s.integer_output ∧ s.pins_ok

end flattener_t

namespace flattener_t

/-- The pin is the null pin or a snapped vertex. -/
def pin_snapped (s : flattener_t) (p : pin_t) : Prop := ∀ v, p.v = some v → s.snapped v

end flattener_t

namespace flattener_t

/-- The point `pt` is the integer coordinate pair of a vertex of the snap
set. -/
def snap_point (s : flattener_t) (pt : Int × Int) : Prop :=
  ∃ (u : Nat) (vu : vertex_t), u ∈ s.snapset ∧ s.verts[u]? = some vu ∧ vu.x.n = 0 ∧
    vu.y.n = 0 ∧ vu.x.i = pt.1 ∧ vu.y.i = pt.2

end flattener_t

/-- The point `(x, y)` lies on the closed segment between the endpoints of
`l`. -/
def line_t.seg (l : line_t) (x y : ℚ) : Prop :=
  ∃ t : ℚ, 0 ≤ t ∧ t ≤ 1 ∧ x = l.x0 + t * (l.x1 - l.x0) ∧ y = l.y0 + t * (l.y1 - l.y0)

/-- The point `(x, y)` is one of the two endpoints of `l`. -/
def line_t.has_end (l : line_t) (x y : ℚ) : Prop :=
  (x = l.x0 ∧ y = l.y0) ∨ (x = l.x1 ∧ y = l.y1)

/-- Two segments that do not touch or cross: a point they share is an endpoint
of both. -/
def line_t.apart (p q : line_t) : Prop :=
  ∀ x y : ℚ, p.seg x y → q.seg x y → p.has_end x y ∧ q.has_end x y

/-- The line runs in sweep order: from its first endpoint up, or to the right
on the same height. -/
def line_t.lex (l : line_t) : Prop := l.y0 < l.y1 ∨ (l.y0 = l.y1 ∧ l.x0 < l.x1)

/-- A set of segments no two of which touch or cross: any two of them are the
same segment, one way round or the other, or are apart. -/
def scattered (S : line_t → Prop) : Prop :=
  ∀ l1 l2, S l1 → S l2 → l1 = l2 ∨ l1 = l2.reverse ∨ l1.apart l2

namespace flattener_t

/-- Every edge is a segment of `S`, possibly turned round, runs in sweep order
and has its two ends at the endpoints of its line. -/
def tidy (S : line_t → Prop) (s : flattener_t) : Prop :=
  ∀ e ed, s.edge e = .ok ed → (S ed.raw ∨ S ed.raw.reverse) ∧ ed.raw.lex ∧
    s.pos ed.from_ = some (rat_t.ofInt ed.raw.x0, rat_t.ofInt ed.raw.y0) ∧
    s.pos ed.to_ = some (rat_t.ofInt ed.raw.x1, rat_t.ofInt ed.raw.y1)

end flattener_t

/-- An insertion into the active edge list that throws no `action_t` of its
own: what it throws, the comparator has thrown for two edges in the same
state. -/
def ael_insert_t.comparing (ins : ael_insert_t) : Prop :=
  ∀ s e a b v f, ins s e = .error (.action_t a b v f) →
    ∃ x y, sort_active_edge s x y = .error (.action_t a b v f)

namespace flattener_t

/-- A step that only writes edges that exist and maps. -/
def quiet (s s1 : flattener_t) : Prop := s.calm s1 ∧ s1.edges.length = s.edges.length

/-- A step of the sweep over segments that do not touch or cross. -/
def sweeps (S : line_t → Prop) (s s1 : flattener_t) : Prop :=
  s.sound ∧ s.plain ∧ s.tidy S → s.quiet s1

end flattener_t
namespace flattener_t

/-- Every vertex has integer coordinates. -/
def integral (s : flattener_t) : Prop :=
  ∀ (v : Nat) (vv : vertex_t), s.verts[v]? = some vv → vv.x.n = 0 ∧ vv.y.n = 0

end flattener_t

namespace flattener_t

/-- Every vertex has integer coordinates and lies at the position of a vertex
of the primary vertex set. -/
def settled (s : flattener_t) : Prop :=
  ∀ (v : Nat) (vv : vertex_t), s.verts[v]? = some vv →
    vv.x.n = 0 ∧ vv.y.n = 0 ∧ ∃ w ∈ s.vertexset, s.pos w = some (vv.x, vv.y)

/-- A step that takes a sound settled session to a sound settled session with
the same primary vertex set. -/
def settles (s s1 : flattener_t) : Prop :=
  s.sound ∧ s.settled → s1.sound ∧ s1.settled ∧ s1.vertexset = s.vertexset ∧ s.grows s1

end flattener_t

/-- The segments passed to `add_edge`. -/
def segments (l : List (Int × Int × Int × Int × Bool)) : List line_t :=
  l.map fun a => ⟨a.1, a.2.1, a.2.2.1, a.2.2.2.1⟩

/-- Both ends of `p` are left of both ends of `q`. -/
def line_t.left_of (p q : line_t) : Bool :=
  decide (p.x0 < q.x0) && decide (p.x0 < q.x1) && decide (p.x1 < q.x0) && decide (p.x1 < q.x1)

/-- Both ends of `p` are under both ends of `q`. -/
def line_t.under (p q : line_t) : Bool :=
  decide (p.y0 < q.y0) && decide (p.y0 < q.y1) && decide (p.y1 < q.y0) && decide (p.y1 < q.y1)

/-- The cross product of the directions of two segments. -/
def line_t.cross (p q : line_t) : Int :=
  (p.x1 - p.x0) * (q.y1 - q.y0) - (p.y1 - p.y0) * (q.x1 - q.x0)

/-- Two segments in different directions with a common end. -/
def line_t.corner (p q : line_t) : Bool :=
  decide (p.cross q ≠ 0) &&
    ((decide (p.x0 = q.x0) && decide (p.y0 = q.y0)) ||
     (decide (p.x0 = q.x1) && decide (p.y0 = q.y1)) ||
     (decide (p.x1 = q.x0) && decide (p.y1 = q.y0)) ||
     (decide (p.x1 = q.x1) && decide (p.y1 = q.y1)))

/-- A test that is sufficient for two segments to be the same, the reverse of
each other, or to have no common point other than a common end. -/
def line_t.clear (p q : line_t) : Bool :=
  decide (p = q) || decide (p = q.reverse) || p.left_of q || q.left_of p || p.under q ||
    q.under p || p.corner q

/-- The test `clear` on all pairs of a list of segments. -/
def clear_all (l : List line_t) : Bool := l.all fun p => l.all fun q => p.clear q

namespace flattener_t

/-- The flags of the edge `e`, all false when there is no such edge (the flags
of a new edge). -/
def flags_of (s : flattener_t) (e : Nat) : flags_t :=
  match s.edges[e]? with
  | some (some ed) => ed.flags
  | _ => {}

end flattener_t
namespace flattener_t

/-- A session with the edges `(0,0)-(3,0)` and `(3,0)-(3,3)` of shape A, the
first of them checked and kept with `sense` set. -/
def inherit_example : flattener_t :=
  match (flattener_t.new FLATTEN_A).add_edges [(0, 0, 3, 0, false), (3, 0, 3, 3, false)] with
  | .ok s => s.set_edge 0
      { raw := ⟨0, 0, 3, 0⟩, from_ := 0, to_ := 1, wind := ⟨1, 0⟩,
        flags := { checked := true, sense := true, keep := true } }
  | .error _ => flattener_t.new FLATTEN_A

end flattener_t

namespace rat_t

/-- One round of the loop of `operator<` on one of the two numerators:
`na += na`, then `na -= d` when the digit is one. -/
def double (d n : Int) : Int := if n + n ≥ d then n + n - d else n + n

/-- The binary digit `k` of the proper fraction `n / d`, counted from 0 after
the point: what the loop compares in round `k`. -/
def digit (d : Int) : Nat → Int → Bool
  | 0, n => decide (n + n ≥ d)
  | k + 1, n => digit d k (double d n)

/-- Conversion to `int64` (two's complement, 64 bits). -/
def wrap64 (z : Int) : Int := (z + 2 ^ 63) % 2 ^ 64 - 2 ^ 63

/-- The loop of `operator<` with every result converted to `int64`. -/
def lt_loop64 : Nat → Int → Int → Int → Int → Except fault Bool
  | 0, _, _, _, _ => .error .fuel
  | fuel + 1, na, d, nb, od =>
    let na1 := wrap64 (na + na)
    let nb1 := wrap64 (nb + nb)
    let a := decide (na1 ≥ d)
    let b := decide (nb1 ≥ od)
    if a ≠ b then .ok b
    else if a then lt_loop64 fuel (wrap64 (na1 - d)) d (wrap64 (nb1 - od)) od
    else lt_loop64 fuel na1 d nb1 od

end rat_t

namespace flattener_t

/-- The value `a` of the trimming loop of `snap_to_pins`:
`side(it->v, line_t(pin_b.v->x.i, pin_b.v->y.i, pin_a.v->x.i, pin_a.v->y.i))`. -/
def pin_side (s : flattener_t) (it pin_b pin_a : pin_t) : Except fault Int := do
  let vi ← s.vertex (← deref_pos it.v)
  let vb ← s.vertex (← deref_pos pin_b.v)
  let va ← s.vertex (← deref_pos pin_a.v)
  pure (side_line vi ⟨vb.x.i, vb.y.i, va.x.i, va.y.i⟩)

/-- The pins that `snap_to_pins` holds in `pin_a`, `pin_b` and `pinlist`, the
last one first: `pincount` of them. -/
def pin_stack : Nat → pin_t → pin_t → List pin_t → List pin_t
  | 0, _, _, _ => []
  | 1, a, _, _ => [a]
  | _ + 2, a, b, l => a :: b :: l

/-- The test that ends the trimming for the pin `it` on top of `pin_b` and
`pin_a`: `a == 0 || (a < 0) == it->above`. -/
def pin_stays (s : flattener_t) (it pin_b pin_a : pin_t) : Prop :=
  ∃ a, s.pin_side it pin_b pin_a = .ok a ∧ (a = 0 ∨ decide (a < 0) = it.above)

/-- Every pin of the list (last one first) that has two pins before it passed
the test of the trimming loop on them. -/
def trimmed (s : flattener_t) : List pin_t → Prop
  | z :: y :: x :: rest => s.pin_stays z x y ∧ trimmed s (y :: x :: rest)
  | _ => True

end flattener_t
namespace flattener_t

/-- A session with the edge `(0,0)-(4,4)` of shape A and a vertex at `(x, y)`;
the edge has its two ends and the vertex at `(x, y)` as pins, the end
`(4,4)` with the flag `above`, the other two with the flag true. -/
def pins_example (x y : Int) (above : Bool) : Except fault flattener_t := do
  let s ← (flattener_t.new FLATTEN_A).add_edges [(0, 0, 4, 4, false), (x, y, x, y, false)]
  let s ← s.add_pin 0 0 true
  let s ← s.add_pin 0 2 true
  s.add_pin 0 1 above

end flattener_t

/-- The ranges between `a` and `b` and between `c` and `d` overlap:
`range_t::overlaps` on values. -/
def range_overlap (a b c d : ℚ) : Prop :=
  ¬ (max c d < min a b) ∧ ¬ (max a b < min c d)

instance (a b c d : ℚ) : Decidable (range_overlap a b c d) := by
  unfold range_overlap; infer_instance

/-- The general case of `sort_active_edge::operator()`, on the four values of
`side`: what is returned or thrown for the edges `p` and `q` whose `from`
vertices are `pfrom` and `qfrom`; `fwd` tells whether `p.from` precedes
`q.from`. -/
def general_case (p q pfrom qfrom : Nat) (fwd : Bool) (a b c d : Int) : Except fault Bool :=
  if a * b > 0 then .ok (decide (a < 0))
  else if c * d > 0 then .ok (decide (c > 0))
  else if a = 0 ∧ b = 0 then
    if c = 0 ∧ d = 0 then
      if fwd then .error (.action_t p q (some qfrom) .split)
      else .error (.action_t q p (some pfrom) .split)
    else .error .assertion_t
  else .error (.action_t p q none .intersect)
namespace flattener_t

/-- A session with the edges `(0,0)-(4,4)` of shape A and `(4,0)-(0,4)` of
shape B, the first of them in the active edge list. -/
def cross_example : flattener_t :=
  match (flattener_t.new FLATTEN_A).add_edges [(0, 0, 4, 4, false), (4, 0, 0, 4, true)] with
  | .ok s => (s.set_ael [0]).set_edge 0
      { raw := ⟨0, 0, 4, 4⟩, from_ := 0, to_ := 1, wind := ⟨1, 0⟩, aelpos := some 0,
        flags := { active := true } }
  | .error _ => flattener_t.new FLATTEN_A

end flattener_t

/-- What an edge stands for in the graph: its raw line, its two ends and its
winding. -/
def edge_t.line (e : edge_t) : line_t × Nat × Nat × wind_t := (e.raw, e.from_, e.to_, e.wind)

namespace flattener_t

/-- A step that leaves the vertices and the current vertex alone and changes
nothing of an edge but its flags. -/
def same_lines (s s1 : flattener_t) : Prop :=
  s1.verts = s.verts ∧ s1.dot = s.dot ∧
  ∀ e : Nat, (s1.edges[e]?).map (Option.map edge_t.line) = (s.edges[e]?).map (Option.map edge_t.line)

/-- A session with the collinear edges `(0,0)-(0,4)` and `(0,0)-(0,8)` of
shape A, the second one unlinked, at the vertex `(0,0)` of the sweep. -/
def split_example : Except fault flattener_t := do
  let s ← (flattener_t.new FLATTEN_A).add_edges [(0, 0, 0, 4, false), (0, 0, 0, 8, false)]
  (s.set_dot (some 0)).unlink 1

end flattener_t

namespace flattener_t

/-- The key of `pinsort_t`: the squared distance of the pin's vertex from the
vertex `from` of the edge, `from->distance(p.v)`. -/
def pin_distance (s : flattener_t) (vfrom : vertex_t) (p : pin_t) : Option Int :=
  match p.v with
  | none => none
  | some w => (s.verts[w]?).map vfrom.distance

/-- The pins are in the order of a `pin_set_t`: every pin has a vertex, and
the distances from `from` increase strictly along the list. -/
def pins_sorted (s : flattener_t) (vfrom : vertex_t) (l : List pin_t) : Prop :=
  ∃ ds : List Int, l.map (s.pin_distance vfrom) = ds.map some ∧ ds.Pairwise (fun a b => a < b)

/-- The pins of an edge, none for an edge whose `pin_set` is null. -/
def pins_of (ed : edge_t) : List pin_t :=
  match ed.pin_set with
  | none => []
  | some l => l

/-- A session with the edges `(0,0)-(4,4)` and `(1,0)-(0,1)` of shape A; the
edge `(0,0)-(4,4)` has its end `(0,0)` and the vertex at `(1,0)` as pins. -/
def equidistant_example : Except fault flattener_t := do
  let s ← (flattener_t.new FLATTEN_A).add_edges [(0, 0, 4, 4, false), (1, 0, 0, 1, false)]
  let s ← s.add_pin 0 0 true
  s.add_pin 0 2 true

end flattener_t

namespace flattener_t

/-- A session with the edge `(0,0)-(4,4)` of shape A open in the snap list and
a vertex at `(x, y)`. -/
def hit_example (x y : Int) : Except fault flattener_t := do
  let s ← (flattener_t.new FLATTEN_A).add_edges [(0, 0, 4, 4, false), (x, y, x, y, false)]
  pure (s.set_snaplist [0])

end flattener_t

namespace flattener_t

/-- The invariants of an edge that `add_edge` and `split` establish: the edge
is live, its ends are vertices at canonical positions, `from` precedes `to` in
sweep order, the raw line runs in sweep order, and both ends lie on the raw
line. -/
def aligned (s : flattener_t) (e : Nat) : Prop :=
  ∃ ed vf vt, s.edge e = .ok ed ∧ s.verts[ed.from_]? = some vf ∧
    s.verts[ed.to_]? = some vt ∧ vf.canonical ∧ vt.canonical ∧ vf.precedes vt ∧
    ed.raw.lex ∧ ed.raw.det vf.x.val vf.y.val = 0 ∧ ed.raw.det vt.x.val vt.y.val = 0

/-- A session with the parallel edges `(0,0)-(2,4)` and `(1,0)-(3,4)` of shape
A, the first of them in the active edge list. -/
def parallel_example : flattener_t :=
  match (flattener_t.new FLATTEN_A).add_edges [(0, 0, 2, 4, false), (1, 0, 3, 4, false)] with
  | .ok s => (s.set_ael [0]).set_edge 0
      { raw := ⟨0, 0, 2, 4⟩, from_ := 0, to_ := 1, wind := ⟨1, 0⟩, aelpos := some 0,
        flags := { active := true } }
  | .error _ => flattener_t.new FLATTEN_A

end flattener_t

/-- What the active edge list and the comparator read of an edge: its raw
line, its two ends, the `active` flag and the iterator `aelpos`. -/
def edge_t.core (e : edge_t) : line_t × Nat × Nat × Bool × Option Nat :=
  (e.raw, e.from_, e.to_, e.flags.active, e.aelpos)

/-- The contract of `set::insert` for the active edge list: the new key is
inserted at some place and the iterator designates it, or the list is left as
it is and the iterator designates an element that the comparator found
equivalent to the new key. -/
def ael_insert_t.is_set (ins : ael_insert_t) : Prop :=
  ∀ s e l pos, ins s e = .ok (l, pos) →
    (pos = e ∧ ∃ l1 l2, s.ael = l1 ++ l2 ∧ l = l1 ++ e :: l2) ∨
    (l = s.ael ∧ pos ∈ s.ael ∧ sort_active_edge s e pos = .ok false ∧
      sort_active_edge s pos e = .ok false)

namespace flattener_t

/-- Every live edge satisfies the invariants of `add_edge` and `split`. -/
def all_aligned (s : flattener_t) : Prop := ∀ e ed, s.edge e = .ok ed → s.aligned e

/-- The `active` flags and the active edge list are synchronized: the list has
no duplicates and holds live edges only, and a live edge is active exactly
when it is in the list, and its `aelpos` then designates its own place. -/
def synced (s : flattener_t) : Prop :=
  s.ael.Nodup ∧ (∀ e ∈ s.ael, ∃ ed, s.edge e = .ok ed) ∧
  ∀ e ed, s.edge e = .ok ed →
    (ed.flags.active = true ↔ e ∈ s.ael) ∧ (ed.flags.active = true → ed.aelpos = some e)

/-- The state of the sweep between two calls of `insert`: sound, doubly
linked, every live edge aligned, flags and list synchronized. -/
def tame (s : flattener_t) : Prop := s.sound ∧ s.linked ∧ s.all_aligned ∧ s.synced

/-- A step that leaves the active edge list, the positions of the vertices and,
of every edge that was there, the raw line, the ends, the `active` flag and
`aelpos` as they were; an edge that was not there is aligned and not active. -/
def carried (s s1 : flattener_t) : Prop :=
  s1.ael = s.ael ∧ s.edges.length ≤ s1.edges.length ∧
  (∀ (u : Nat) (vu : vertex_t), s.verts[u]? = some vu →
    ∃ vu1 : vertex_t, s1.verts[u]? = some vu1 ∧ vu1.x = vu.x ∧ vu1.y = vu.y) ∧
  (∀ e ed, s.edge e = .ok ed → ∃ ed1, s1.edge e = .ok ed1 ∧ ed1.core = ed.core) ∧
  (∀ e ed1, s1.edge e = .ok ed1 →
    (∃ ed, s.edge e = .ok ed) ∨ (s.edges.length ≤ e ∧ ed1.flags.active = false ∧ s1.aligned e))

/-- A step that takes the edges `D` out of the active edge list and clears
their `active` flags, and is a carried step otherwise. -/
def released (D : List Nat) (s s1 : flattener_t) : Prop :=
  s1.ael = s.ael.filter (fun e => decide (e ∉ D)) ∧ s.edges.length ≤ s1.edges.length ∧
  (∀ (u : Nat) (vu : vertex_t), s.verts[u]? = some vu →
    ∃ vu1 : vertex_t, s1.verts[u]? = some vu1 ∧ vu1.x = vu.x ∧ vu1.y = vu.y) ∧
  (∀ e ed, s.edge e = .ok ed → ∃ ed1, s1.edge e = .ok ed1 ∧ ed1.raw = ed.raw ∧
    ed1.from_ = ed.from_ ∧ ed1.to_ = ed.to_ ∧
    (e ∈ D → ed1.flags.active = false) ∧
    (e ∉ D → ed1.flags.active = ed.flags.active ∧ ed1.aelpos = ed.aelpos)) ∧
  (∀ e ed1, s1.edge e = .ok ed1 →
    (∃ ed, s.edge e = .ok ed) ∨ (s.edges.length ≤ e ∧ ed1.flags.active = false ∧ s1.aligned e))

end flattener_t

namespace flattener_t

/-- The states of a session during the sweep: the state the `add_edge` calls
leave, where the active edge list is empty and no edge is active, and every
state that completed calls of `sweep`, `insert` and `walklist` and the moves
of the sweep vertex lead to from there. -/
inductive sweeping (ins : ael_insert_t) : flattener_t → Prop
  | start {rule : Int} {l : List (Int × Int × Int × Int × Bool)} {s : flattener_t} :
      (flattener_t.new rule).add_edges l = .ok s → sweeping ins s
  | set_dot {s : flattener_t} (d : Option Nat) : sweeping ins s → sweeping ins (s.set_dot d)
  | sweep {s s1 : flattener_t} {fuel : Nat} :
      sweeping ins s → s.sweep ins fuel = .ok s1 → sweeping ins s1
  | insert {s s1 : flattener_t} {e : Nat} :
      sweeping ins s → s.insert ins e = .ok s1 → sweeping ins s1
  | walklist {s s1 : flattener_t} : sweeping ins s → s.walklist = .ok s1 → sweeping ins s1

/-- A session in the sweep: the edges `(0,0)-(4,4)` and `(4,0)-(0,4)` of shape
A cross at `(2,2)`; the sweep at `(0,0)` has put the first into the active edge
list, and the sweep vertex is `(4,0)`, where the second starts. -/
def crossing_example : Except fault flattener_t := do
  let s ← (flattener_t.new FLATTEN_A).add_edges [(0, 0, 4, 4, false), (0, 4, 4, 0, false)]
  let s1 ← (s.set_dot (some 0)).sweep set_insert 10
  pure (s1.set_dot (some 3))

end flattener_t

namespace rat_t

/-- `rat_t::operator<` as the code runs it on `int64`: the sums and differences
of the loop wrap.  `fuel` bounds the rounds of the loop, which has no bound of
its own. -/
def lt64 (fuel : Nat) (r other : rat_t) : Except fault Bool :=
  if r.i ≠ other.i then .ok (decide (r.i < other.i))
  else if r.d = other.d then .ok (decide (r.n < other.n))
  else lt_loop64 fuel r.n r.d other.n other.d

/-- The three members are `int64` values. -/
def is_int64 (r : rat_t) : Prop :=
  (-2 ^ 63 ≤ r.i ∧ r.i < 2 ^ 63) ∧ (-2 ^ 63 ≤ r.n ∧ r.n < 2 ^ 63) ∧
    (-2 ^ 63 ≤ r.d ∧ r.d < 2 ^ 63)

instance (r : rat_t) : Decidable r.is_int64 := by
  unfold is_int64; infer_instance

end rat_t

/-- `vertexsort_t::operator()` with `operator<` on `int64`. -/
def vertexsort_t64 (fuel : Nat) (p q : vertex_t) : Except fault Bool :=
  if p.y.eq q.y then p.x.lt64 fuel q.x else p.y.lt64 fuel q.y

/-- `set<vertex_t *, vertexsort_t>::insert` with `operator<` on `int64`; see
`vertexset_t.insert`. -/
def vertexset_t.insert64 (fuel : Nat) (verts : List vertex_t) (x y : rat_t) (nid : Nat) :
    List Nat → Except fault (Nat × List Nat)
  | [] => .ok (nid, [nid])
  | w :: rest =>
    match verts[w]? with
    | none => .error .dangling
    | some vw =>
      match vertexsort_t64 fuel vw { x := x, y := y } with
      | .error e => .error e
      | .ok true =>
        match vertexset_t.insert64 fuel verts x y nid rest with
        | .error e => .error e
        | .ok (r, rest1) => .ok (r, w :: rest1)
      | .ok false =>
        match vertexsort_t64 fuel { x := x, y := y } vw with
        | .error e => .error e
        | .ok true => .ok (nid, nid :: w :: rest)
        | .ok false => .ok (w, w :: rest)

/-- One coordinate of `flattener_t::snap` on `int64`: `x < rat_t(x.i, 1, 2)` is
the operator of the code, and `++x.i` wraps. -/
def snap_coord64 (fuel : Nat) (x : rat_t) : Except fault rat_t :=
  if x.n ≠ 0 then
    match rat_t.mk3 x.i 1 2 with
    | .error e => .error e
    | .ok half =>
      match x.lt64 fuel half with
      | .error e => .error e
      | .ok l => .ok ⟨if ¬ l then rat_t.wrap64 (x.i + 1) else x.i, 0, 1⟩
  else .ok x

/-- The vertices of a set have canonical coordinates with denominators up to
`2^62`. -/
def vertexset_t.bounded (verts : List vertex_t) (set : List Nat) : Prop :=
  ∀ w ∈ set, ∃ vw, verts[w]? = some vw ∧ vw.canonical ∧
    vw.x.d ≤ 2 ^ 62 ∧ vw.y.d ≤ 2 ^ 62

namespace flattener_t

/-- `flattener_t::snap` on `int64`. -/
def snap64 (fuel : Nat) (s : flattener_t) (x y : rat_t) : Except fault (Nat × flattener_t) :=
  match snap_coord64 fuel x with
  | .error e => .error e
  | .ok x1 =>
    match snap_coord64 fuel y with
    | .error e => .error e
    | .ok y1 =>
      match vertexset_t.insert64 fuel s.verts x1 y1 s.verts.length s.snapset with
      | .error e => .error e
      | .ok (r, set1) =>
        if r = s.verts.length then
          .ok (r, { s with verts := s.verts ++ [{ x := x1, y := y1 }], snapset := set1 })
        else .ok (r, s)

/-- What a call of `get_result` does, in the words of the claim: from the state
`s` and the vertices `vs` still to visit, the traces that are completed one
after the other give the polygons `ps`, and the call ends as `out` says: with
the state after a normal return, or with the exception of the first trace that
fails, of which nothing is in `ps`. -/
inductive completes (fuel : Nat) :
    flattener_t → List Nat → List (List (Int × Int)) → Except fault flattener_t → Prop
  | done (s : flattener_t) : completes fuel s [] [] (.ok s)
  | missing {s : flattener_t} {v : Nat} {rest : List Nat} {x : fault} :
      s.vertex v = .error x → completes fuel s (v :: rest) [] (.error x)
  | skip {s : flattener_t} {v : Nat} {rest : List Nat} {vv : vertex_t}
      {ps : List (List (Int × Int))} {out : Except fault flattener_t} :
      s.vertex v = .ok vv → vv.below = [] → completes fuel s rest ps out →
      completes fuel s (v :: rest) ps out
  | traced {s s1 : flattener_t} {v k cur : Nat} {more : List (Nat × Nat)} {rest : List Nat}
      {vv : vertex_t} {poly : List (Int × Int)} {ps : List (List (Int × Int))}
      {out : Except fault flattener_t} :
      s.vertex v = .ok vv → vv.below = (k, cur) :: more →
      s.trace_from fuel cur = .ok (poly, s1) → completes fuel s1 rest ps out →
      completes fuel s (v :: rest) (poly :: ps) out
  | failed {s : flattener_t} {v k cur : Nat} {more : List (Nat × Nat)} {rest : List Nat}
      {vv : vertex_t} {x : fault} :
      s.vertex v = .ok vv → vv.below = (k, cur) :: more →
      s.trace_from fuel cur = .error x → completes fuel s (v :: rest) [] (.error x)

end flattener_t

end Flatten

/-! # Theorems -/

namespace Flatten

/-! ## `wind_t::is_inside` -/

theorem land_one_ne_zero (x : Int) (m : Nat) :
    (Int.land (x >>> m) 1 != 0) = Int.testBit x m := by
  have h1 : (1 : Int) = Int.ofNat 1 := rfl
  cases x with
  | ofNat n =>
    show (Int.land (Int.ofNat (n >>> m)) 1 != 0) = Nat.testBit n m
    rw [h1]
    show (Int.ofNat ((n >>> m) &&& 1) != 0) = Nat.testBit n m
    rw [Nat.testBit, Nat.and_comm]
    cases h : (1 &&& n >>> m) with
    | zero => rfl
    | succ k => rfl
  | negSucc n =>
    show (Int.land (Int.negSucc (n >>> m)) 1 != 0) = !Nat.testBit n m
    rw [h1]
    show (Int.ofNat (Nat.ldiff 1 (n >>> m)) != 0) = !Nat.testBit n m
    have h2 : Nat.ldiff 1 (n >>> m) = if Nat.testBit n m then 0 else 1 := by
      apply Nat.eq_of_testBit_eq
      intro i
      rw [Nat.testBit_ldiff]
      cases i with
      | zero =>
        have : Nat.testBit (n >>> m) 0 = Nat.testBit n m := by
          simp [Nat.testBit_shiftRight]
        rw [this]
        cases Nat.testBit n m <;> simp
      | succ j =>
        have : Nat.testBit 1 (j+1) = false := by simp [Nat.testBit_succ]
        rw [this]
        cases Nat.testBit n m <;> simp [Nat.testBit_succ]
    rw [h2]
    cases Nat.testBit n m <;> rfl

theorem wind_t.is_inside_eq_testBit (w : wind_t) (flatten_rule : Int) :
    w.is_inside flatten_rule = Int.testBit flatten_rule w.index :=
  land_one_ne_zero flatten_rule w.index

/-- C1: `wind_t::is_inside` returns bit `m` of the rule mask, where
`m = [a ≠ 0] + 2*[b ≠ 0]`; hence rule A is inside iff `a ≠ 0`, B iff `b ≠ 0`,
A-or-B iff either, A-and-B iff both, A-minus-B iff `a ≠ 0` and `b = 0`,
B-minus-A iff `a = 0` and `b ≠ 0`, A-xor-B iff exactly one is non-zero, the
empty rule never, and none of the eight is inside at `(0, 0)`. -/
theorem C1_is_inside_rule_bit (a b : Int) :
    (∀ flatten_rule : Int,
      wind_t.is_inside ⟨a, b⟩ flatten_rule
        = Int.testBit flatten_rule
            ((if a ≠ 0 then 1 else 0) + (if b ≠ 0 then 2 else 0))) ∧
    (wind_t.is_inside ⟨a, b⟩ FLATTEN_A = true ↔ a ≠ 0) ∧
    (wind_t.is_inside ⟨a, b⟩ FLATTEN_B = true ↔ b ≠ 0) ∧
    (wind_t.is_inside ⟨a, b⟩ FLATTEN_A_OR_B = true ↔ (a ≠ 0 ∨ b ≠ 0)) ∧
    (wind_t.is_inside ⟨a, b⟩ FLATTEN_A_AND_B = true ↔ (a ≠ 0 ∧ b ≠ 0)) ∧
    (wind_t.is_inside ⟨a, b⟩ FLATTEN_A_MINUS_B = true ↔ (a ≠ 0 ∧ b = 0)) ∧
    (wind_t.is_inside ⟨a, b⟩ FLATTEN_B_MINUS_A = true ↔ (a = 0 ∧ b ≠ 0)) ∧
    (wind_t.is_inside ⟨a, b⟩ FLATTEN_A_XOR_B = true
      ↔ ((a ≠ 0 ∧ b = 0) ∨ (a = 0 ∧ b ≠ 0))) ∧
    wind_t.is_inside ⟨a, b⟩ FLATTEN_EMPTY = false ∧
    ([FLATTEN_A, FLATTEN_B, FLATTEN_A_OR_B, FLATTEN_A_AND_B,
        FLATTEN_A_MINUS_B, FLATTEN_B_MINUS_A, FLATTEN_A_XOR_B, FLATTEN_EMPTY].all
      fun rule => ! wind_t.is_inside ⟨0, 0⟩ rule) = true := by
  refine ⟨fun r => wind_t.is_inside_eq_testBit ⟨a, b⟩ r, ?_, ?_, ?_, ?_, ?_, ?_, ?_, ?_, ?_⟩
  all_goals first
    | decide
    | (by_cases ha : a = 0 <;> by_cases hb : b = 0 <;>
        simp [wind_t.is_inside, wind_t.index, ha, hb, FLATTEN_A, FLATTEN_B,
          FLATTEN_A_OR_B, FLATTEN_A_AND_B, FLATTEN_A_MINUS_B, FLATTEN_B_MINUS_A,
          FLATTEN_A_XOR_B, FLATTEN_EMPTY] <;> decide)

/-! ## `rat_t`: normal form and value -/

namespace rat_t

theorem tmod_bounds (n d : Int) (hd : 0 < d) :
    -d < Int.tmod n d ∧ Int.tmod n d < d := by
  obtain ⟨k, rfl⟩ := Int.eq_ofNat_of_zero_le (le_of_lt hd)
  have hk : 0 < k := by exact_mod_cast hd
  cases n with
  | ofNat m =>
    show -(k : Int) < ((m % k : Nat) : Int) ∧ ((m % k : Nat) : Int) < k
    have := Nat.mod_lt m hk
    omega
  | negSucc m =>
    show -(k : Int) < -((Nat.succ m % k : Nat) : Int) ∧ -((Nat.succ m % k : Nat) : Int) < k
    have := Nat.mod_lt (Nat.succ m) hk
    omega

/-- The truncating quotient and remainder, followed by the source's fix-up of a
negative remainder, are the floor quotient and the non-negative remainder. -/
theorem tdiv_tmod_fix (n d : Int) (hd : 0 < d) :
    (if Int.tmod n d < 0 then Int.tdiv n d - 1 else Int.tdiv n d) = n / d ∧
    (if Int.tmod n d < 0 then Int.tmod n d + d else Int.tmod n d) = n % d := by
  have h := Int.tmod_add_tdiv n d
  have hb := tmod_bounds n d hd
  by_cases hneg : Int.tmod n d < 0
  · rw [if_pos hneg, if_pos hneg]
    have key := (Int.ediv_emod_unique hd (a := n) (q := Int.tdiv n d - 1)
      (r := Int.tmod n d + d)).2
      ⟨by rw [Int.mul_sub, Int.mul_one]; omega, by omega, by omega⟩
    exact ⟨key.1.symm, key.2.symm⟩
  · rw [if_neg hneg, if_neg hneg]
    have key := (Int.ediv_emod_unique hd (a := n) (q := Int.tdiv n d)
      (r := Int.tmod n d)).2 ⟨h, by omega, hb.2⟩
    exact ⟨key.1.symm, key.2.symm⟩

theorem gcd_loop_nat (fuel a b : Nat) (h : a < fuel) :
    gcd_loop fuel (a : Int) (b : Int) = .ok ((Nat.gcd a b : Nat) : Int) := by
  induction fuel generalizing a b with
  | zero => omega
  | succ f ih =>
    unfold gcd_loop
    by_cases ha : a = 0
    · subst ha; simp
    · have ha' : (a : Int) ≠ 0 := by exact_mod_cast ha
      have hapos : 0 < a := Nat.pos_of_ne_zero ha
      rw [if_neg ha']
      have e1 : Int.tmod (b : Int) (a : Int) = ((b % a : Nat) : Int) := rfl
      simp only [e1]
      by_cases hb : b % a = 0
      · have : ((b % a : Nat) : Int) = 0 := by exact_mod_cast hb
        rw [if_pos this]
        have : Nat.gcd a b = a := by rw [Nat.gcd_rec, hb, Nat.gcd_zero_left]
        rw [this]
      · have hb' : ((b % a : Nat) : Int) ≠ 0 := by exact_mod_cast hb
        rw [if_neg hb']
        have e2 : Int.tmod (a : Int) ((b % a : Nat) : Int) = ((a % (b % a) : Nat) : Int) := rfl
        rw [e2]
        have hlt1 : b % a < a := Nat.mod_lt b hapos
        have hlt2 : a % (b % a) < b % a := Nat.mod_lt a (Nat.pos_of_ne_zero hb)
        rw [ih (a % (b % a)) (b % a) (by omega)]
        congr 2
        rw [Nat.gcd_rec a b, Nat.gcd_rec (b % a) a]

theorem gcd_eq (a b : Int) (ha : 0 ≤ a) (hb : 0 ≤ b) :
    gcd a b = .ok (Int.gcd a b : Int) := by
  obtain ⟨m, rfl⟩ := Int.eq_ofNat_of_zero_le ha
  obtain ⟨k, rfl⟩ := Int.eq_ofNat_of_zero_le hb
  unfold gcd
  rw [if_neg (by simp), if_neg (by simp)]
  rw [gcd_loop_nat _ m k (by simp)]
  rfl

end rat_t

namespace rat_t

theorem canonical_ofInt (i : Int) : (ofInt i).canonical := by
  unfold canonical ofInt; simp

theorem val_ofInt (i : Int) : (ofInt i).val = i := by
  unfold val ofInt; simp

/-- The integer part of a canonical value is the floor of the value. -/
theorem floor_val (r : rat_t) (h : r.canonical) : ⌊r.val⌋ = r.i := by
  obtain ⟨hd, hn0, hnd, -, -⟩ := h
  have hdq : (0 : ℚ) < r.d := by exact_mod_cast (by omega : (0 : Int) < r.d)
  rw [Int.floor_eq_iff]
  unfold val
  constructor
  · have : (0 : ℚ) ≤ (r.n : ℚ) / r.d := div_nonneg (by exact_mod_cast hn0) hdq.le
    linarith
  · have : (r.n : ℚ) / r.d < 1 := by
      rw [div_lt_one hdq]; exact_mod_cast hnd
    linarith

/-- Dividing a proper fraction by its gcd: what `canonicalize` returns. -/
theorem canonicalize_eq (r : rat_t) (hd : 0 < r.d) (hn0 : 0 ≤ r.n) (hnd : r.n < r.d) :
    ∃ r', canonicalize r = .ok r' ∧ r'.canonical ∧ r'.val = r.val ∧ r'.i = r.i := by
  have hg0 : 0 < Int.gcd r.n r.d := Int.gcd_pos_of_ne_zero_right _ (by omega)
  have hgz : (0 : Int) < (Int.gcd r.n r.d : Int) := by exact_mod_cast hg0
  have hdn : ((Int.gcd r.n r.d : Int)) ∣ r.n := Int.gcd_dvd_left
  have hdd : ((Int.gcd r.n r.d : Int)) ∣ r.d := Int.gcd_dvd_right
  have en : Int.tdiv r.n (Int.gcd r.n r.d) = r.n / (Int.gcd r.n r.d : Int) :=
    Int.tdiv_eq_ediv hn0 hgz.le
  have ed : Int.tdiv r.d (Int.gcd r.n r.d) = r.d / (Int.gcd r.n r.d : Int) :=
    Int.tdiv_eq_ediv hd.le hgz.le
  obtain ⟨n', hn'⟩ := hdn
  obtain ⟨d', hd'⟩ := hdd
  have qn : r.n / (Int.gcd r.n r.d : Int) = n' :=
    Int.ediv_eq_of_eq_mul_right hgz.ne' hn'
  have qd : r.d / (Int.gcd r.n r.d : Int) = d' :=
    Int.ediv_eq_of_eq_mul_right hgz.ne' hd'
  have hcop : Int.gcd n' d' = 1 := by
    have := Int.gcd_div_gcd_div_gcd (i := r.n) (j := r.d) hg0
    rwa [qn, qd] at this
  have hd'pos : 0 < d' := by
    by_contra hcon
    have : (Int.gcd r.n r.d : Int) * d' ≤ 0 :=
      Int.mul_nonpos_of_nonneg_of_nonpos hgz.le (by omega)
    omega
  have hn'0 : 0 ≤ n' := by
    by_contra hcon
    have : (Int.gcd r.n r.d : Int) * n' < 0 :=
      Int.mul_neg_of_pos_of_neg hgz (by omega)
    omega
  have hn'd' : n' < d' := by
    by_contra hcon
    have : (Int.gcd r.n r.d : Int) * d' ≤ (Int.gcd r.n r.d : Int) * n' :=
      Int.mul_le_mul_of_nonneg_left (by omega) hgz.le
    omega
  refine ⟨⟨r.i, n', d'⟩, ?_, ?_, ?_, rfl⟩
  · unfold canonicalize
    rw [gcd_eq r.n r.d hn0 hd.le]
    simp only [en, ed, qn, qd]
    rw [if_neg (not_not.mpr hgz)]
    have : check ⟨r.i, n', d'⟩ = .ok () := by
      unfold check
      dsimp only
      rw [if_neg (not_not.mpr hd'pos), if_neg (not_not.mpr ⟨hn'0, hn'd'⟩)]
    simp only [this]
  · refine ⟨(by show 1 ≤ d'; omega), hn'0, hn'd', hcop, ?_⟩
    intro h0
    change n' = 0 at h0
    change d' = 1
    rw [h0, Int.gcd_zero_left] at hcop
    omega
  · unfold val
    show (r.i : ℚ) + (n' : ℚ) / d' = r.i + (r.n : ℚ) / r.d
    have hgq : ((Int.gcd r.n r.d : Int) : ℚ) ≠ 0 := by exact_mod_cast hgz.ne'
    have hd'q : (d' : ℚ) ≠ 0 := by exact_mod_cast hd'pos.ne'
    have e1 : (r.n : ℚ) = ((Int.gcd r.n r.d : Int) : ℚ) * n' := by exact_mod_cast hn'
    have e2 : (r.d : ℚ) = ((Int.gcd r.n r.d : Int) : ℚ) * d' := by exact_mod_cast hd'
    rw [e1, e2, mul_div_mul_left _ _ hgq]

/-- What `normalize(true)` returns on any triple with a non-zero denominator. -/
theorem normalize_true_eq (r : rat_t) (hd : r.d ≠ 0) :
    ∃ r', normalize r true = .ok r' ∧ r'.canonical ∧ r'.val = r.val := by
  unfold normalize
  rw [if_neg (by simpa using hd)]
  by_cases hn : r.n = 0
  · rw [if_pos hn]
    refine ⟨_, rfl, ?_, ?_⟩
    · unfold canonical; simp [hn]
    · unfold val; simp [hn]
  · rw [if_neg hn]
    -- the sign of the denominator is moved to the numerator
    obtain ⟨r1, hr1, h1d, h1v⟩ : ∃ r1 : rat_t,
        (if r.d < 0 then (⟨r.i, -r.n, -r.d⟩ : rat_t) else r) = r1 ∧ 0 < r1.d ∧
          r1.val = r.val := by
      by_cases hneg : r.d < 0
      · refine ⟨_, rfl, ?_, ?_⟩
        · rw [if_pos hneg]; show 0 < -r.d; omega
        · rw [if_pos hneg]; unfold val
          show (r.i : ℚ) + ((-r.n : Int) : ℚ) / ((-r.d : Int) : ℚ) = r.i + (r.n : ℚ) / r.d
          push_cast
          rw [neg_div_neg_eq]
      · refine ⟨_, rfl, ?_, ?_⟩
        · rw [if_neg hneg]; omega
        · rw [if_neg hneg]
    simp only [hr1]
    rw [if_neg (by simpa using h1d)]
    have hfix := tdiv_tmod_fix r1.n r1.d h1d
    obtain ⟨r3, hr3, h3i, h3n, h3d⟩ : ∃ r3 : rat_t,
        (if (⟨r1.i + Int.tdiv r1.n r1.d, Int.tmod r1.n r1.d, r1.d⟩ : rat_t).n < 0 then
          (⟨(⟨r1.i + Int.tdiv r1.n r1.d, Int.tmod r1.n r1.d, r1.d⟩ : rat_t).i - 1,
            (⟨r1.i + Int.tdiv r1.n r1.d, Int.tmod r1.n r1.d, r1.d⟩ : rat_t).n
              + (⟨r1.i + Int.tdiv r1.n r1.d, Int.tmod r1.n r1.d, r1.d⟩ : rat_t).d,
            (⟨r1.i + Int.tdiv r1.n r1.d, Int.tmod r1.n r1.d, r1.d⟩ : rat_t).d⟩ : rat_t)
         else ⟨r1.i + Int.tdiv r1.n r1.d, Int.tmod r1.n r1.d, r1.d⟩) = r3 ∧
        r3.i = r1.i + r1.n / r1.d ∧ r3.n = r1.n % r1.d ∧ r3.d = r1.d := by
      refine ⟨_, rfl, ?_, ?_, ?_⟩
      · show (if Int.tmod r1.n r1.d < 0 then _ else _ : rat_t).i = _
        rw [← hfix.1]; split_ifs
        · simp; ring
        · simp
      · show (if Int.tmod r1.n r1.d < 0 then _ else _ : rat_t).n = _
        rw [← hfix.2]; split_ifs <;> rfl
      · show (if Int.tmod r1.n r1.d < 0 then _ else _ : rat_t).d = _
        split_ifs <;> simp
    simp only [hr3, if_true]
    have h3v : r3.val = r1.val := by
      unfold val
      rw [h3i, h3n, h3d]
      have hdq : (r1.d : ℚ) ≠ 0 := by exact_mod_cast h1d.ne'
      have := Int.emod_add_ediv r1.n r1.d
      have hq : (r1.n : ℚ) = ((r1.n % r1.d : Int) : ℚ) + (r1.d : ℚ) * ((r1.n / r1.d : Int) : ℚ) := by
        exact_mod_cast this.symm
      field_simp
      push_cast at hq ⊢
      linarith
    obtain ⟨r', h1, h2, h3, -⟩ := canonicalize_eq r3 (by omega)
      (by rw [h3n]; exact Int.emod_nonneg _ h1d.ne')
      (by rw [h3n, h3d]; exact Int.emod_lt_of_pos _ h1d)
    exact ⟨r', h1, h2, by rw [h3, h3v, h1v]⟩

theorem mk3_eq (i n d : Int) (hd : d ≠ 0) :
    ∃ r, mk3 i n d = .ok r ∧ r.canonical ∧ r.val = i + (n : ℚ) / d :=
  normalize_true_eq ⟨i, n, d⟩ hd

theorem mul_eq (r : rat_t) (k : Int) (hr : r.canonical) :
    ∃ r', r.mul k = .ok r' ∧ r'.canonical ∧ r'.val = k * r.val := by
  obtain ⟨r', h1, h2, h3⟩ := normalize_true_eq ⟨r.i * k, r.n * k, r.d⟩
    (by have := hr.1; show r.d ≠ 0; omega)
  refine ⟨r', h1, h2, ?_⟩
  rw [h3]
  unfold val
  push_cast
  ring

end rat_t

/-- C5: for all `i`, `n`, `d` with `d ≠ 0` the constructor `rat_t(i, n, d)`
returns `(i', n', d')` with `d' ≥ 1`, `0 ≤ n' < d'`, `gcd(n', d') = 1`,
`n' = 0 → d' = 1` and `i' + n'/d' = i + n/d`, where `i'` is the floor of the
value; and for every canonical `r` and integer `k` the product `r * k` is again
canonical and denotes `k` times the value of `r`. -/
theorem C5_rat_canonical_form (i n d : Int) (hd : d ≠ 0) (r : rat_t) (k : Int)
    (hr : r.canonical) :
    (∃ c, rat_t.mk3 i n d = .ok c ∧
      (1 ≤ c.d ∧ 0 ≤ c.n ∧ c.n < c.d ∧ Int.gcd c.n c.d = 1 ∧ (c.n = 0 → c.d = 1)) ∧
      (c.i : ℚ) + (c.n : ℚ) / c.d = i + (n : ℚ) / d ∧
      c.i = ⌊(i : ℚ) + (n : ℚ) / d⌋) ∧
    (∃ p, r.mul k = .ok p ∧
      (1 ≤ p.d ∧ 0 ≤ p.n ∧ p.n < p.d ∧ Int.gcd p.n p.d = 1 ∧ (p.n = 0 → p.d = 1)) ∧
      (p.i : ℚ) + (p.n : ℚ) / p.d = k * ((r.i : ℚ) + (r.n : ℚ) / r.d)) := by
  obtain ⟨c, h1, h2, h3⟩ := rat_t.mk3_eq i n d hd
  obtain ⟨p, h4, h5, h6⟩ := rat_t.mul_eq r k hr
  refine ⟨⟨c, h1, h2, h3, ?_⟩, ⟨p, h4, h5, h6⟩⟩
  rw [← h3]
  exact (rat_t.floor_val c h2).symm

/-- C5 at `rat_t(1, -7, -2)` (which is `4 + 1/2`) and at `(0 + 2/3) * (-2)`
(which is `-2 + 2/3`). -/
theorem C5_rat_canonical_form_witness :
    ((-2 : Int) ≠ 0 ∧ (⟨0, 2, 3⟩ : rat_t).canonical) ∧
    rat_t.mk3 1 (-7) (-2) = .ok ⟨4, 1, 2⟩ ∧
    (⟨0, 2, 3⟩ : rat_t).mul (-2) = .ok ⟨-2, 2, 3⟩ ∧
    ((∃ c, rat_t.mk3 1 (-7) (-2) = .ok c ∧
      (1 ≤ c.d ∧ 0 ≤ c.n ∧ c.n < c.d ∧ Int.gcd c.n c.d = 1 ∧ (c.n = 0 → c.d = 1)) ∧
      (c.i : ℚ) + (c.n : ℚ) / c.d = (1 : Int) + ((-7 : Int) : ℚ) / (-2 : Int) ∧
      c.i = ⌊((1 : Int) : ℚ) + ((-7 : Int) : ℚ) / (-2 : Int)⌋) ∧
    (∃ p, (⟨0, 2, 3⟩ : rat_t).mul (-2) = .ok p ∧
      (1 ≤ p.d ∧ 0 ≤ p.n ∧ p.n < p.d ∧ Int.gcd p.n p.d = 1 ∧ (p.n = 0 → p.d = 1)) ∧
      (p.i : ℚ) + (p.n : ℚ) / p.d
        = (-2 : Int) * (((0 : Int) : ℚ) + ((2 : Int) : ℚ) / (3 : Int)))) :=
  ⟨⟨by decide, by decide⟩, by rfl, by rfl,
    C5_rat_canonical_form 1 (-7) (-2) (by decide) ⟨0, 2, 3⟩ (-2) (by decide)⟩

/-! ## `rat_t`: equality and order -/

namespace rat_t

theorem eq_iff (a b : rat_t) : a.eq b = true ↔ a = b := by
  cases a; cases b; simp [eq, and_assoc]

/-- A reduced proper fraction is determined by its value. -/
theorem frac_inj (n1 d1 n2 d2 : Int) (h1 : 0 < d1) (h2 : 0 < d2)
    (c1 : Int.gcd n1 d1 = 1) (c2 : Int.gcd n2 d2 = 1)
    (h : (n1 : ℚ) / d1 = (n2 : ℚ) / d2) : n1 = n2 ∧ d1 = d2 := by
  have a1 := Rat.num_div_eq_of_coprime h1 c1
  have a2 := Rat.num_div_eq_of_coprime h2 c2
  have b1 := Rat.den_div_eq_of_coprime h1 c1
  have b2 := Rat.den_div_eq_of_coprime h2 c2
  rw [h] at a1 b1
  exact ⟨a1.symm.trans a2, b1.symm.trans b2⟩

/-- Canonical values are equal as soon as they denote the same number. -/
theorem canonical_val_inj (a b : rat_t) (ha : a.canonical) (hb : b.canonical)
    (h : a.val = b.val) : a = b := by
  have hi : a.i = b.i := by
    rw [← floor_val a ha, ← floor_val b hb, h]
  have hf : (a.n : ℚ) / a.d = (b.n : ℚ) / b.d := by
    unfold val at h
    rw [hi] at h
    linarith
  obtain ⟨hn, hd⟩ := frac_inj a.n a.d b.n b.d (by have := ha.1; omega)
    (by have := hb.1; omega) ha.2.2.2.1 hb.2.2.2.1 hf
  cases a; cases b; simp_all

theorem eq_iff_val (a b : rat_t) (ha : a.canonical) (hb : b.canonical) :
    a.eq b = true ↔ a.val = b.val := by
  rw [eq_iff]
  exact ⟨fun h => by rw [h], canonical_val_inj a b ha hb⟩

/-- The bit racing loop decides the order of two different proper fractions
once the fuel covers the binary digits on which they can agree. -/
theorem lt_loop_eq (fuel : Nat) (d od : Int) (hd : 0 < d) (hod : 0 < od) :
    ∀ (na nb : Int), 0 ≤ na → na < d → 0 ≤ nb → nb < od →
      na * od ≠ nb * d → d * od ≤ |na * od - nb * d| * 2 ^ fuel →
      lt_loop fuel na d nb od = .ok (decide (na * od < nb * d)) := by
  induction fuel with
  | zero =>
    intro na nb h0 h1 h2 h3 _ hf
    exfalso
    have p1 : na * od < d * od := Int.mul_lt_mul_of_pos_right h1 hod
    have p2 : nb * d < od * d := Int.mul_lt_mul_of_pos_right h3 hd
    have p3 : 0 ≤ na * od := Int.mul_nonneg h0 hod.le
    have p4 : 0 ≤ nb * d := Int.mul_nonneg h2 hd.le
    have p5 : od * d = d * od := Int.mul_comm _ _
    have : |na * od - nb * d| < d * od := by
      rw [abs_lt]; constructor <;> omega
    simp at hf
    omega
  | succ f ih =>
    intro na nb h0 h1 h2 h3 hne hf
    have p5 : od * d = d * od := Int.mul_comm _ _
    have k1 : (na + na) * od = 2 * (na * od) := by ring
    have k2 : (nb + nb) * d = 2 * (nb * d) := by ring
    have key1 : na + na ≥ d ↔ 2 * (na * od) ≥ d * od := by
      rw [← k1]
      constructor
      · intro h; exact Int.mul_le_mul_of_nonneg_right h hod.le
      · intro h; exact le_of_mul_le_mul_right h hod
    have key2 : nb + nb ≥ od ↔ 2 * (nb * d) ≥ d * od := by
      rw [← k2, ← p5]
      constructor
      · intro h; exact Int.mul_le_mul_of_nonneg_right h hd.le
      · intro h; exact le_of_mul_le_mul_right h hd
    have hf' : d * od ≤ |2 * (na * od) - 2 * (nb * d)| * 2 ^ f := by
      have : 2 * (na * od) - 2 * (nb * d) = 2 * (na * od - nb * d) := by ring
      rw [this, abs_mul, abs_two]
      calc d * od ≤ |na * od - nb * d| * 2 ^ (f + 1) := hf
        _ = 2 * |na * od - nb * d| * 2 ^ f := by ring
    unfold lt_loop
    simp only []
    by_cases ha : na + na ≥ d <;> by_cases hb : nb + nb ≥ od
    · -- both leading digits are one
      have hcond : ¬ (decide (na + na ≥ d) ≠ decide (nb + nb ≥ od)) := by simp [ha, hb]
      rw [if_neg hcond, if_pos (by simp [ha])]
      have e1 : (na + na - d) * od = 2 * (na * od) - d * od := by ring
      have e2 : (nb + nb - od) * d = 2 * (nb * d) - d * od := by ring
      rw [ih (na + na - d) (nb + nb - od) (by omega) (by omega) (by omega) (by omega)
        (by rw [e1, e2]; omega)
        (by rw [e1, e2]
            have : 2 * (na * od) - d * od - (2 * (nb * d) - d * od)
                = 2 * (na * od) - 2 * (nb * d) := by ring
            rw [this]; exact hf')]
      congr 1
      rw [e1, e2]
      simp only [decide_eq_decide]
      omega
    · have hcond : decide (na + na ≥ d) ≠ decide (nb + nb ≥ od) := by simp [ha, hb]
      rw [if_pos hcond]
      have q1 := key1.1 ha
      have q2 : ¬ (2 * (nb * d) ≥ d * od) := fun h => hb (key2.2 h)
      congr 1
      simp only [decide_eq_decide]
      constructor
      · intro h; exact absurd h hb
      · intro h; omega
    · have hcond : decide (na + na ≥ d) ≠ decide (nb + nb ≥ od) := by simp [ha, hb]
      rw [if_pos hcond]
      have q1 : ¬ (2 * (na * od) ≥ d * od) := fun h => ha (key1.2 h)
      have q2 := key2.1 hb
      congr 1
      simp only [decide_eq_decide]
      constructor
      · intro _; omega
      · intro _; exact hb
    · have hcond : ¬ (decide (na + na ≥ d) ≠ decide (nb + nb ≥ od)) := by simp [ha, hb]
      rw [if_neg hcond, if_neg (by simp [ha])]
      rw [ih (na + na) (nb + nb) (by omega) (by omega) (by omega) (by omega)
        (by rw [k1, k2]; omega) (by rw [k1, k2]; exact hf')]
      congr 1
      rw [k1, k2]
      simp only [decide_eq_decide]
      omega

/-- Comparison of the values through cross multiplication. -/
theorem val_lt_iff (a b : rat_t) (ha : 0 < a.d) (hb : 0 < b.d) (hi : a.i = b.i) :
    a.val < b.val ↔ a.n * b.d < b.n * a.d := by
  unfold val
  rw [hi]
  have h1 : (0 : ℚ) < a.d := by exact_mod_cast ha
  have h2 : (0 : ℚ) < b.d := by exact_mod_cast hb
  rw [add_lt_add_iff_left, div_lt_div_iff₀ h1 h2]
  exact_mod_cast Iff.rfl

/-- `operator<` on canonical values returns, and returns the order of the
values. -/
theorem lt_eq (a b : rat_t) (ha : a.canonical) (hb : b.canonical) :
    a.lt b = .ok (decide (a.val < b.val)) := by
  have had : 0 < a.d := by have := ha.1; omega
  have hbd : 0 < b.d := by have := hb.1; omega
  unfold lt
  by_cases hi : a.i = b.i
  · rw [if_neg (not_not.mpr hi)]
    by_cases hd : a.d = b.d
    · rw [if_pos hd]
      congr 1
      simp only [decide_eq_decide]
      rw [val_lt_iff a b had hbd hi, hd]
      constructor
      · intro h; exact Int.mul_lt_mul_of_pos_right h hbd
      · intro h; exact lt_of_mul_lt_mul_right h hbd.le
    · rw [if_neg hd]
      have hne : a.n * b.d ≠ b.n * a.d := by
        intro h
        apply hd
        have hq : (a.n : ℚ) / a.d = (b.n : ℚ) / b.d := by
          rw [div_eq_div_iff (by exact_mod_cast had.ne') (by exact_mod_cast hbd.ne')]
          exact_mod_cast h
        exact (frac_inj a.n a.d b.n b.d had hbd ha.2.2.2.1 hb.2.2.2.1 hq).2
      have hpos : 0 < a.d * b.d := Int.mul_pos had hbd
      have hfuel : a.d * b.d ≤ |a.n * b.d - b.n * a.d| * 2 ^ (a.d * b.d).toNat := by
        have h1 : (1 : Int) ≤ |a.n * b.d - b.n * a.d| := by
          have : a.n * b.d - b.n * a.d ≠ 0 := sub_ne_zero.mpr hne
          exact Int.one_le_abs this
        have h2 : a.d * b.d ≤ 2 ^ (a.d * b.d).toNat := by
          have h3 : ((a.d * b.d).toNat : Int) = a.d * b.d := Int.toNat_of_nonneg hpos.le
          have h4 : (a.d * b.d).toNat < 2 ^ (a.d * b.d).toNat := Nat.lt_two_pow _
          have h5 : ((a.d * b.d).toNat : Int) < ((2 ^ (a.d * b.d).toNat : Nat) : Int) := by
            exact_mod_cast h4
          rw [h3] at h5
          push_cast at h5
          exact h5.le
        calc a.d * b.d ≤ 1 * 2 ^ (a.d * b.d).toNat := by rw [one_mul]; exact h2
          _ ≤ |a.n * b.d - b.n * a.d| * 2 ^ (a.d * b.d).toNat :=
            Int.mul_le_mul_of_nonneg_right h1 (by positivity)
      rw [lt_loop_eq _ a.d b.d had hbd a.n b.n ha.2.1 ha.2.2.1 hb.2.1 hb.2.2.1 hne hfuel]
      congr 1
      simp only [decide_eq_decide]
      exact (val_lt_iff a b had hbd hi).symm
  · rw [if_pos hi]
    congr 1
    simp only [decide_eq_decide]
    have fa := floor_val a ha
    have fb := floor_val b hb
    constructor
    · intro h
      by_contra hcon
      have : b.val ≤ a.val := not_lt.mp hcon
      have := Int.floor_le_floor this
      omega
    · intro h
      have := Int.floor_le_floor h.le
      omega

end rat_t

theorem rat_t.canonical_sub (r : rat_t) (k : Int) (h : r.canonical) :
    (r.sub k).canonical := h

theorem rat_t.val_sub (r : rat_t) (k : Int) : (r.sub k).val = r.val - k := by
  unfold rat_t.sub rat_t.val; push_cast; ring

theorem side_sign_eq (a b : rat_t) (ha : a.canonical) (hb : b.canonical) :
    side_sign a b = .ok (sgn (a.val - b.val)) := by
  unfold side_sign sgn
  by_cases h : a.eq b = true
  · rw [if_pos h, if_pos (sub_eq_zero.mpr ((rat_t.eq_iff_val a b ha hb).1 h))]
  · have hne : a.val ≠ b.val := fun e => h ((rat_t.eq_iff_val a b ha hb).2 e)
    rw [if_neg h, if_neg (sub_ne_zero.mpr hne), rat_t.lt_eq a b ha hb]
    by_cases hl : a.val < b.val
    · simp [hl]
    · simp [hl]

/-- `side` on a canonical vertex returns the sign of the determinant. -/
theorem side_eq (v : vertex_t) (p : edge_t) (hx : v.x.canonical) (hy : v.y.canonical) :
    side v p = .ok (sgn (p.raw.det v.x.val v.y.val)) := by
  obtain ⟨a, ha, ca, va⟩ := rat_t.mul_eq (v.y.sub p.raw.y0) (p.raw.x0 - p.raw.x1)
    (rat_t.canonical_sub _ _ hy)
  obtain ⟨b, hb, cb, vb⟩ := rat_t.mul_eq (v.x.sub p.raw.x0) (p.raw.y0 - p.raw.y1)
    (rat_t.canonical_sub _ _ hx)
  unfold side
  simp only [ha, hb]
  rw [side_sign_eq a b ca cb, va, vb, rat_t.val_sub, rat_t.val_sub]
  congr 2
  unfold line_t.det
  push_cast
  ring

theorem sgn_eq_zero (q : ℚ) : sgn q = 0 ↔ q = 0 := by
  unfold sgn
  by_cases h : q = 0
  · simp [h]
  · by_cases h2 : q < 0 <;> simp [h, h2]

/-- The determinant vanishes exactly on the line through two distinct
endpoints. -/
theorem line_t.det_eq_zero_iff (l : line_t) (hl : ¬ (l.x0 = l.x1 ∧ l.y0 = l.y1))
    (x y : ℚ) : l.det x y = 0 ↔ l.on_line x y := by
  unfold line_t.det line_t.on_line
  constructor
  · intro h
    by_cases hx : l.x0 = l.x1
    · have hy : l.y0 ≠ l.y1 := fun e => hl ⟨hx, e⟩
      have hyq : ((l.y1 : ℚ) - l.y0) ≠ 0 := by
        intro e; apply hy; have : (l.y1 : ℚ) = l.y0 := by linarith
        exact_mod_cast this.symm
      have hyq' : ((l.y0 : ℚ) - l.y1) ≠ 0 := by
        intro e; apply hyq; linarith
      refine ⟨(y - l.y0) / (l.y1 - l.y0), ?_, ?_⟩
      · rw [hx] at h ⊢
        simp only [sub_self, mul_zero, zero_sub, neg_eq_zero, mul_eq_zero] at h
        rcases h with h | h
        · linarith
        · exact absurd h hyq'
      · field_simp
    · have hxq : ((l.x1 : ℚ) - l.x0) ≠ 0 := by
        intro e; apply hx; have : (l.x1 : ℚ) = l.x0 := by linarith
        exact_mod_cast this.symm
      refine ⟨(x - l.x0) / (l.x1 - l.x0), ?_, ?_⟩
      · field_simp
      · field_simp
        linarith
  · rintro ⟨t, rfl, rfl⟩
    ring

theorem vertexsort_t_eq (p q : vertex_t) (hp : p.canonical) (hq : q.canonical) :
    vertexsort_t p q = .ok (decide (p.precedes q)) := by
  unfold vertexsort_t vertex_t.precedes
  by_cases h : p.y.eq q.y = true
  · have hv := (rat_t.eq_iff_val p.y q.y hp.2 hq.2).1 h
    rw [if_pos h, rat_t.lt_eq p.x q.x hp.1 hq.1]
    congr 1
    simp [hv]
  · have hv : p.y.val ≠ q.y.val := fun e => h ((rat_t.eq_iff_val p.y q.y hp.2 hq.2).2 e)
    rw [if_neg h, rat_t.lt_eq p.y q.y hp.2 hq.2]
    congr 1
    simp [hv]

/-- Two canonical positions neither of which precedes the other are equal. -/
theorem vertex_t.eq_of_not_precedes (p q : vertex_t) (hp : p.canonical)
    (hq : q.canonical) (h1 : ¬ p.precedes q) (h2 : ¬ q.precedes p) :
    p.x = q.x ∧ p.y = q.y := by
  unfold vertex_t.precedes at h1 h2
  push_neg at h1 h2
  have hy : p.y.val = q.y.val := le_antisymm h2.1 h1.1
  have hx : p.x.val = q.x.val := le_antisymm (h2.2 hy.symm) (h1.2 hy)
  exact ⟨rat_t.canonical_val_inj _ _ hp.1 hq.1 hx, rat_t.canonical_val_inj _ _ hp.2 hq.2 hy⟩

theorem vertex_t.precedes_asymm (p q : vertex_t) (h : p.precedes q) : ¬ q.precedes p := by
  unfold vertex_t.precedes at *
  rcases h with h | ⟨h1, h2⟩
  · rintro (h' | ⟨h1', _⟩)
    · exact lt_asymm h h'
    · rw [h1'] at h; exact lt_irrefl _ h
  · rintro (h' | ⟨_, h2'⟩)
    · rw [h1] at h'; exact lt_irrefl _ h'
    · exact lt_asymm h2 h2'

/-- What the insertion into a vertex set returns: an element of the set at the
requested position and the set unchanged, or the new address and a set that
holds it next to the old elements. -/
theorem vertexset_t.insert_eq (verts : List vertex_t) (x y : rat_t) (nid : Nat)
    (hx : x.canonical) (hy : y.canonical) (set : List Nat)
    (hv : vertexset_t.valid verts set) :
    ∃ r set1, vertexset_t.insert verts x y nid set = .ok (r, set1) ∧
      ((r ∈ set ∧ set1 = set ∧ ∃ vr, verts[r]? = some vr ∧ vr.x = x ∧ vr.y = y) ∨
       (r = nid ∧ (∀ w, w ∈ set1 ↔ w = nid ∨ w ∈ set))) := by
  induction set with
  | nil =>
    refine ⟨nid, [nid], rfl, Or.inr ⟨rfl, ?_⟩⟩
    intro w; simp
  | cons w rest ih =>
    obtain ⟨vw, hw, cw⟩ := hv w (List.mem_cons_self _ _)
    have hrest : vertexset_t.valid verts rest :=
      fun u hu => hv u (List.mem_cons_of_mem _ hu)
    obtain ⟨r, set1, e, hcase⟩ := ih hrest
    have cn : (⟨[], [], x, y⟩ : vertex_t).canonical := ⟨hx, hy⟩
    unfold vertexset_t.insert
    simp only [hw]
    rw [vertexsort_t_eq vw _ cw cn, vertexsort_t_eq _ vw cn cw]
    by_cases h1 : vw.precedes ⟨[], [], x, y⟩
    · simp only [h1, decide_True, e]
      refine ⟨r, w :: set1, rfl, ?_⟩
      rcases hcase with ⟨hr, hs, hvr⟩ | ⟨hr, hs⟩
      · exact Or.inl ⟨List.mem_cons_of_mem _ hr, by rw [hs], hvr⟩
      · refine Or.inr ⟨hr, ?_⟩
        intro u
        simp only [List.mem_cons, hs]
        tauto
    · simp only [h1, decide_False]
      by_cases h2 : (⟨[], [], x, y⟩ : vertex_t).precedes vw
      · simp only [h2, decide_True]
        refine ⟨nid, _, rfl, Or.inr ⟨rfl, ?_⟩⟩
        intro u; simp
      · simp only [h2, decide_False]
        refine ⟨w, _, rfl, Or.inl ⟨List.mem_cons_self _ _, rfl, vw, hw, ?_⟩⟩
        have := vertex_t.eq_of_not_precedes vw _ cw cn h1 h2
        exact ⟨this.1, this.2⟩

/-- What `find` returns on a valid vertex set: a vertex of the set at exactly
the requested position. -/
theorem flattener_t.find_eq (s : flattener_t) (x y : rat_t) (hx : x.canonical)
    (hy : y.canonical) (hv : vertexset_t.valid s.verts s.vertexset) :
    ∃ r s1 vr, s.find x y = .ok (r, s1) ∧ s1.vertex r = .ok vr ∧ vr.x = x ∧ vr.y = y ∧
      r ∈ s1.vertexset ∧
      ((s1 = s ∧ r ∈ s.vertexset) ∨
       (r = s.verts.length ∧ vr = { x := x, y := y } ∧
        s1.verts = s.verts ++ [{ x := x, y := y }] ∧
        (∀ w, w ∈ s1.vertexset ↔ w = r ∨ w ∈ s.vertexset) ∧
        s1.edges = s.edges ∧ s1.snapset = s.snapset ∧ s1.todo = s.todo ∧
        s1.ael = s.ael ∧ s1.dot = s.dot ∧ s1.flatten_rule = s.flatten_rule ∧
        s1.snaplist = s.snaplist)) := by
  obtain ⟨r, set1, e, hcase⟩ :=
    vertexset_t.insert_eq s.verts x y s.verts.length hx hy s.vertexset hv
  unfold flattener_t.find
  simp only [e]
  rcases hcase with ⟨hr, hs, vr, hvr, h1, h2⟩ | ⟨hr, hs⟩
  · have hlt : r < s.verts.length := by
      by_contra hcon
      rw [List.getElem?_eq_none (by omega)] at hvr
      exact absurd hvr (by simp)
    rw [if_neg (by omega)]
    refine ⟨r, s, vr, rfl, ?_, h1, h2, hr, Or.inl ⟨rfl, hr⟩⟩
    unfold flattener_t.vertex; simp only [hvr]
  · rw [if_pos hr]
    refine ⟨r, _, { x := x, y := y }, rfl, ?_, rfl, rfl, ?_, Or.inr
      ⟨hr, rfl, rfl, by simpa [hr] using hs, rfl, rfl, rfl, rfl, rfl, rfl, rfl⟩⟩
    · unfold flattener_t.vertex
      simp [hr]
    · exact (hs r).2 (Or.inl hr)

/-- C9: for two edges whose raw segments `(x1,y1)-(x2,y2)` and
`(x3,y3)-(x4,y4)` have `ud ≠ 0`, the vertex that `flattener_t::intersect`
obtains from `find` has `x = x1 + (x2-x1)*un/ud` and `y = y1 + (y2-y1)*un/ud`
as exact rationals, with `un = (x4-x3)(y1-y3) - (y4-y3)(x1-x3)` and
`ud = (y4-y3)(x2-x1) - (x4-x3)(y2-y1)`, and `side` of that vertex is `0` for
both edges. -/
theorem C9_intersection_on_both_lines (p q : edge_t) (s : flattener_t)
    (hud : (q.raw.y1 - q.raw.y0) * (p.raw.x1 - p.raw.x0)
      - (q.raw.x1 - q.raw.x0) * (p.raw.y1 - p.raw.y0) ≠ 0)
    (hs : vertexset_t.valid s.verts s.vertexset) :
    ∃ x y v s1 vv, intersect_point p.raw q.raw = .ok (x, y) ∧
      s.find x y = .ok (v, s1) ∧ s1.vertex v = .ok vv ∧
      vv.x.val = p.raw.x0 + ((p.raw.x1 - p.raw.x0 : Int) : ℚ)
        * (((q.raw.x1 - q.raw.x0) * (p.raw.y0 - q.raw.y0)
            - (q.raw.y1 - q.raw.y0) * (p.raw.x0 - q.raw.x0) : Int) : ℚ)
        / (((q.raw.y1 - q.raw.y0) * (p.raw.x1 - p.raw.x0)
            - (q.raw.x1 - q.raw.x0) * (p.raw.y1 - p.raw.y0) : Int) : ℚ) ∧
      vv.y.val = p.raw.y0 + ((p.raw.y1 - p.raw.y0 : Int) : ℚ)
        * (((q.raw.x1 - q.raw.x0) * (p.raw.y0 - q.raw.y0)
            - (q.raw.y1 - q.raw.y0) * (p.raw.x0 - q.raw.x0) : Int) : ℚ)
        / (((q.raw.y1 - q.raw.y0) * (p.raw.x1 - p.raw.x0)
            - (q.raw.x1 - q.raw.x0) * (p.raw.y1 - p.raw.y0) : Int) : ℚ) ∧
      side vv p = .ok 0 ∧ side vv q = .ok 0 := by
  obtain ⟨x, ex, cx, vx⟩ := rat_t.mk3_eq p.raw.x0
    ((p.raw.x1 - p.raw.x0) * ((q.raw.x1 - q.raw.x0) * (p.raw.y0 - q.raw.y0)
      - (q.raw.y1 - q.raw.y0) * (p.raw.x0 - q.raw.x0))) _ hud
  obtain ⟨y, ey, cy, vy⟩ := rat_t.mk3_eq p.raw.y0
    ((p.raw.y1 - p.raw.y0) * ((q.raw.x1 - q.raw.x0) * (p.raw.y0 - q.raw.y0)
      - (q.raw.y1 - q.raw.y0) * (p.raw.x0 - q.raw.x0))) _ hud
  obtain ⟨v, s1, vv, hf, hv, hvx, hvy, -, -⟩ := flattener_t.find_eq s x y cx cy hs
  have hudq : (((q.raw.y1 - q.raw.y0) * (p.raw.x1 - p.raw.x0)
      - (q.raw.x1 - q.raw.x0) * (p.raw.y1 - p.raw.y0) : Int) : ℚ) ≠ 0 := by
    exact_mod_cast hud
  have hxv : vv.x.val = p.raw.x0 + ((p.raw.x1 - p.raw.x0 : Int) : ℚ)
        * (((q.raw.x1 - q.raw.x0) * (p.raw.y0 - q.raw.y0)
            - (q.raw.y1 - q.raw.y0) * (p.raw.x0 - q.raw.x0) : Int) : ℚ)
        / (((q.raw.y1 - q.raw.y0) * (p.raw.x1 - p.raw.x0)
            - (q.raw.x1 - q.raw.x0) * (p.raw.y1 - p.raw.y0) : Int) : ℚ) := by
    rw [hvx, vx]; push_cast; ring
  have hyv : vv.y.val = p.raw.y0 + ((p.raw.y1 - p.raw.y0 : Int) : ℚ)
        * (((q.raw.x1 - q.raw.x0) * (p.raw.y0 - q.raw.y0)
            - (q.raw.y1 - q.raw.y0) * (p.raw.x0 - q.raw.x0) : Int) : ℚ)
        / (((q.raw.y1 - q.raw.y0) * (p.raw.x1 - p.raw.x0)
            - (q.raw.x1 - q.raw.x0) * (p.raw.y1 - p.raw.y0) : Int) : ℚ) := by
    rw [hvy, vy]; push_cast; ring
  refine ⟨x, y, v, s1, vv, ?_, hf, hv, hxv, hyv, ?_, ?_⟩
  · unfold intersect_point
    simp only [ex, ey]
  · rw [side_eq vv p (hvx ▸ cx) (hvy ▸ cy)]
    have : p.raw.det vv.x.val vv.y.val = 0 := by
      rw [hxv, hyv]; unfold line_t.det
      push_cast at hudq ⊢
      field_simp
      ring
    rw [this]; rfl
  · rw [side_eq vv q (hvx ▸ cx) (hvy ▸ cy)]
    have : q.raw.det vv.x.val vv.y.val = 0 := by
      rw [hxv, hyv]; unfold line_t.det
      push_cast at hudq ⊢
      field_simp
      ring
    rw [this]; rfl

/-- C9 at the diagonals `(0,0)-(3,3)` and `(0,2)-(2,0)` in a fresh session:
the vertex is `(1, 1)`; for `(0,0)-(1,2)` and `(0,1)-(1,0)` the coordinates
are `1/3` and `2/3`. -/
theorem C9_intersection_on_both_lines_witness :
    (((0 : Int) - 2) * ((3 : Int) - 0) - ((2 : Int) - 0) * ((3 : Int) - 0) ≠ 0 ∧
      vertexset_t.valid (flattener_t.new FLATTEN_A).verts
        (flattener_t.new FLATTEN_A).vertexset) ∧
    intersect_point ⟨0, 0, 3, 3⟩ ⟨0, 2, 2, 0⟩ = .ok (⟨1, 0, 1⟩, ⟨1, 0, 1⟩) ∧
    intersect_point ⟨0, 0, 1, 2⟩ ⟨0, 1, 1, 0⟩ = .ok (⟨0, 1, 3⟩, ⟨0, 2, 3⟩) ∧
    ∃ x y v s1 vv, intersect_point ⟨0, 0, 3, 3⟩ ⟨0, 2, 2, 0⟩ = .ok (x, y) ∧
      (flattener_t.new FLATTEN_A).find x y = .ok (v, s1) ∧ s1.vertex v = .ok vv ∧
      side vv (edge_t.new ⟨0, 0, 3, 3⟩ 0 1) = .ok 0 ∧
      side vv (edge_t.new ⟨0, 2, 2, 0⟩ 2 3) = .ok 0 := by
  have hv : vertexset_t.valid (flattener_t.new FLATTEN_A).verts
      (flattener_t.new FLATTEN_A).vertexset := by
    intro w hw; exact absurd hw (List.not_mem_nil w)
  obtain ⟨x, y, v, s1, vv, h1, h2, h3, -, -, h4, h5⟩ :=
    C9_intersection_on_both_lines (edge_t.new ⟨0, 0, 3, 3⟩ 0 1)
      (edge_t.new ⟨0, 2, 2, 0⟩ 2 3) (flattener_t.new FLATTEN_A) (by decide) hv
  exact ⟨⟨by decide, hv⟩, by rfl, by rfl, x, y, v, s1, vv, h1, h2, h3, h4, h5⟩
/-! ## Snapping -/

theorem snap_coord_eq (x : rat_t) (hx : x.canonical) :
    snap_coord x = .ok ⟨⌊x.val + 1 / 2⌋, 0, 1⟩ := by
  have hf := rat_t.floor_val x hx
  obtain ⟨hd, hn0, hnd, hg, hz⟩ := hx
  have hdq : (0 : ℚ) < x.d := by exact_mod_cast (by omega : (0 : Int) < x.d)
  have f0 : (0 : ℚ) ≤ (x.n : ℚ) / x.d := div_nonneg (by exact_mod_cast hn0) hdq.le
  have f1 : (x.n : ℚ) / x.d < 1 := by rw [div_lt_one hdq]; exact_mod_cast hnd
  unfold snap_coord
  by_cases hn : x.n = 0
  · rw [if_neg (not_not.mpr hn)]
    have hd1 := hz hn
    have : ⌊x.val + 1 / 2⌋ = x.i := by
      rw [Int.floor_eq_iff]
      unfold rat_t.val
      rw [hn]; simp; norm_num
    rw [this]
    cases x; simp_all
  · rw [if_pos hn]
    obtain ⟨half, eh, ch, vh⟩ := rat_t.mk3_eq x.i 1 2 (by decide)
    simp only [eh]
    rw [rat_t.lt_eq x half ⟨hd, hn0, hnd, hg, hz⟩ ch]
    have hxv : x.val = x.i + (x.n : ℚ) / x.d := rfl
    have hhv : half.val = x.i + 1 / 2 := by rw [vh]; norm_num
    by_cases hl : x.val < half.val
    · have : ⌊x.val + 1 / 2⌋ = x.i := by
        rw [Int.floor_eq_iff]
        rw [hhv] at hl
        constructor <;> linarith
      rw [decide_eq_true hl, this]
      simp
    · have : ⌊x.val + 1 / 2⌋ = x.i + 1 := by
        rw [Int.floor_eq_iff]
        rw [hhv] at hl
        push_cast
        constructor <;> linarith
      rw [decide_eq_false hl, this]
      simp

/-- In exact arithmetic `snap(x, y)` returns a vertex of the snap set whose
coordinates are the integers `floor(x + 1/2)` and `floor(y + 1/2)`. -/
theorem snap_half_up (s : flattener_t) (x y : rat_t) (hx : x.canonical)
    (hy : y.canonical) (hs : vertexset_t.valid s.verts s.snapset) :
    ∃ v s1 vv, s.snap x y = .ok (v, s1) ∧ s1.vertex v = .ok vv ∧ v ∈ s1.snapset ∧
      vv.x = ⟨⌊(x.i : ℚ) + (x.n : ℚ) / x.d + 1 / 2⌋, 0, 1⟩ ∧
      vv.y = ⟨⌊(y.i : ℚ) + (y.n : ℚ) / y.d + 1 / 2⌋, 0, 1⟩ := by
  have cx : (⟨⌊x.val + 1 / 2⌋, 0, 1⟩ : rat_t).canonical := rat_t.canonical_ofInt _
  have cy : (⟨⌊y.val + 1 / 2⌋, 0, 1⟩ : rat_t).canonical := rat_t.canonical_ofInt _
  obtain ⟨r, set1, e, hcase⟩ :=
    vertexset_t.insert_eq s.verts _ _ s.verts.length cx cy s.snapset hs
  unfold flattener_t.snap
  simp only [snap_coord_eq x hx, snap_coord_eq y hy, e]
  rcases hcase with ⟨hr, -, vr, hvr, h1, h2⟩ | ⟨hr, hset⟩
  · have hlt : r < s.verts.length := by
      by_contra hcon
      rw [List.getElem?_eq_none (by omega)] at hvr
      exact absurd hvr (by simp)
    rw [if_neg (by omega)]
    refine ⟨r, s, vr, rfl, ?_, hr, h1, h2⟩
    unfold flattener_t.vertex; simp only [hvr]
  · rw [if_pos hr]
    refine ⟨r, _, { x := ⟨⌊x.val + 1 / 2⌋, 0, 1⟩, y := ⟨⌊y.val + 1 / 2⌋, 0, 1⟩ }, rfl, ?_,
      (hset r).2 (Or.inl hr), rfl, rfl⟩
    unfold flattener_t.vertex
    simp [hr]

/-! ## The edge maps -/

namespace edgemap_t

theorem find_set (m : edgemap_t) (k e k' : Nat) :
    (m.set k e).find k' = if k' = k then some e else m.find k' := by
  induction m with
  | nil =>
    unfold set find
    by_cases h : k' = k
    · simp [h]
    · have : ¬ k = k' := fun e => h e.symm
      simp [h, this, find]
  | cons a rest ih =>
    obtain ⟨k1, e1⟩ := a
    unfold set
    by_cases h1 : k1 = k
    · simp only [h1, if_true]
      unfold find
      by_cases h : k' = k
      · simp [h]
      · have : ¬ k = k' := fun e => h e.symm
        simp [h, this]
    · simp only [h1, if_false]
      by_cases h2 : k < k1
      · simp only [h2, if_true]
        by_cases h : k' = k
        · subst h; simp [find]
        · have : ¬ k = k' := fun e => h e.symm
          simp [find, h, this]
      · simp only [h2, if_false]
        unfold find
        by_cases h3 : k1 = k'
        · have : ¬ k' = k := fun e => h1 (h3.trans e)
          simp [h3, this]
        · simp only [h3, if_false]
          exact ih

theorem find_erase (m : edgemap_t) (k k' : Nat) :
    (m.erase k).find k' = if k' = k then none else m.find k' := by
  induction m with
  | nil => unfold erase find; simp
  | cons a rest ih =>
    obtain ⟨k1, e1⟩ := a
    unfold erase
    by_cases h1 : k1 = k
    · simp only [h1, if_true]
      rw [ih]
      by_cases h : k' = k
      · simp [h]
      · have : ¬ k = k' := fun e => h e.symm
        simp [h, this, find]
    · simp only [h1, if_false]
      unfold find
      by_cases h3 : k1 = k'
      · have : ¬ k' = k := fun e => h1 (h3.trans e)
        simp [h3, this]
      · simp only [h3, if_false]
        exact ih

end edgemap_t

/-! ## Reading the arenas after a store -/

namespace flattener_t

theorem vertex_eq_ok (s : flattener_t) (v : Nat) (x : vertex_t) :
    s.vertex v = .ok x ↔ s.verts[v]? = some x := by
  unfold vertex
  cases h : s.verts[v]? with
  | none => simp
  | some y => simp

theorem edge_eq_ok (s : flattener_t) (e : Nat) (x : edge_t) :
    s.edge e = .ok x ↔ s.edges[e]? = some (some x) := by
  unfold edge
  cases h : s.edges[e]? with
  | none => simp
  | some y =>
    cases y with
    | none => simp
    | some z => simp

theorem ends_eq_some (s : flattener_t) (e a b : Nat) :
    s.ends e = some (a, b) ↔ ∃ ed, s.edge e = .ok ed ∧ ed.from_ = a ∧ ed.to_ = b := by
  unfold ends
  simp only [edge_eq_ok]
  cases h : s.edges[e]? with
  | none => simp
  | some y =>
    cases y with
    | none => simp
    | some z => simp

theorem below_set_vertex (s : flattener_t) (v : Nat) (x : vertex_t) (u w : Nat)
    (hv : v < s.verts.length) :
    (s.set_vertex v x).below u w = if u = v then x.below.find w else s.below u w := by
  unfold below set_vertex
  simp only [List.getElem?_set]
  by_cases h : v = u
  · subst h; simp [hv]
  · have : ¬ u = v := fun e => h e.symm
    simp [h, this]

theorem above_set_vertex (s : flattener_t) (v : Nat) (x : vertex_t) (u w : Nat)
    (hv : v < s.verts.length) :
    (s.set_vertex v x).above u w = if u = v then x.above.find w else s.above u w := by
  unfold above set_vertex
  simp only [List.getElem?_set]
  by_cases h : v = u
  · subst h; simp [hv]
  · have : ¬ u = v := fun e => h e.symm
    simp [h, this]

theorem ends_set_edge (s : flattener_t) (e : Nat) (x : edge_t) (e' : Nat)
    (he : e < s.edges.length) :
    (s.set_edge e x).ends e' = if e' = e then some (x.from_, x.to_) else s.ends e' := by
  unfold ends set_edge
  simp only [List.getElem?_set]
  by_cases h : e = e'
  · subst h; simp [he]
  · have : ¬ e' = e := fun c => h c.symm
    simp [h, this]

theorem ends_delete_edge (s : flattener_t) (e e' : Nat) (he : e < s.edges.length) :
    (s.delete_edge e).ends e' = if e' = e then none else s.ends e' := by
  unfold ends delete_edge
  simp only [List.getElem?_set]
  by_cases h : e = e'
  · subst h; simp [he]
  · have : ¬ e' = e := fun c => h c.symm
    simp [h, this]

theorem lt_of_vertex (s : flattener_t) (v : Nat) (x : vertex_t)
    (h : s.verts[v]? = some x) : v < s.verts.length := by
  by_contra hcon
  rw [List.getElem?_eq_none (by omega)] at h
  exact absurd h (by simp)

theorem lt_of_ends (s : flattener_t) (e : Nat) (p : Nat × Nat)
    (h : s.ends e = some p) : e < s.edges.length := by
  by_contra hcon
  unfold ends at h
  rw [List.getElem?_eq_none (by omega)] at h
  exact absurd h (by simp)

/-- The two forms of the double-link invariant say the same. -/
theorem double_link_iff_linked (s : flattener_t) : s.double_link ↔ s.linked := by
  unfold double_link linked
  constructor
  · rintro ⟨h1, h2, h3⟩
    constructor
    · intro v w e h
      obtain ⟨ed, he, hf, ht⟩ := h2 v w e h
      obtain ⟨ed', he', -, hab⟩ := h1 v w e (Or.inl h)
      rw [he] at he'
      injection he' with he'
      subst he'
      exact ⟨(ends_eq_some s e v w).2 ⟨ed, he, hf, ht⟩, by rw [← hf, ← ht]; exact hab⟩
    · intro v w e h
      obtain ⟨ed, he, ht, hf⟩ := h3 v w e h
      obtain ⟨ed', he', hbe, -⟩ := h1 v w e (Or.inr h)
      rw [he] at he'
      injection he' with he'
      subst he'
      exact ⟨(ends_eq_some s e w v).2 ⟨ed, he, hf, ht⟩, by rw [← hf, ← ht]; exact hbe⟩
  · rintro ⟨h1, h2⟩
    refine ⟨?_, ?_, ?_⟩
    · rintro v w e (h | h)
      · obtain ⟨he, ha⟩ := h1 v w e h
        obtain ⟨ed, hed, hf, ht⟩ := (ends_eq_some s e v w).1 he
        exact ⟨ed, hed, by rw [hf, ht]; exact h, by rw [hf, ht]; exact ha⟩
      · obtain ⟨he, hb⟩ := h2 v w e h
        obtain ⟨ed, hed, hf, ht⟩ := (ends_eq_some s e w v).1 he
        exact ⟨ed, hed, by rw [hf, ht]; exact hb, by rw [hf, ht]; exact h⟩
    · intro v w e h
      exact (ends_eq_some s e v w).1 (h1 v w e h).1
    · intro v w e h
      obtain ⟨ed, hed, hf, ht⟩ := (ends_eq_some s e w v).1 (h2 v w e h).1
      exact ⟨ed, hed, ht, hf⟩

end flattener_t

/-! ## `goes_to`: finding or creating the edge -/

namespace flattener_t

theorem pos_set_vertex (s : flattener_t) (v : Nat) (x old : vertex_t) (u : Nat)
    (hv : s.verts[v]? = some old) (hx : x.x = old.x) (hy : x.y = old.y) :
    (s.set_vertex v x).pos u = s.pos u := by
  unfold pos set_vertex
  simp only [List.getElem?_set]
  by_cases h : v = u
  · subst h
    simp [lt_of_vertex s v old hv, hv, hx, hy]
  · simp [h]

theorem below_eq_find (s : flattener_t) (v : Nat) (x : vertex_t) (w : Nat)
    (hv : s.verts[v]? = some x) : s.below v w = x.below.find w := by
  unfold below; simp only [hv]

theorem above_eq_find (s : flattener_t) (v : Nat) (x : vertex_t) (w : Nat)
    (hv : s.verts[v]? = some x) : s.above v w = x.above.find w := by
  unfold above; simp only [hv]

theorem ends_append (s : flattener_t) (x : Option edge_t) (vs : List vertex_t) (e : Nat)
    (he : e < s.edges.length) :
    ({ s with edges := s.edges ++ [x], verts := vs } : flattener_t).ends e = s.ends e := by
  unfold ends
  simp only [List.getElem?_append_left he]

/-- The two stores of the `below` branch of `goes_to`. -/
theorem link_below_maps (s : flattener_t) (this q : Nat) (vthis vq : vertex_t) (e : Nat)
    (ht : s.verts[this]? = some vthis) (hq : s.verts[q]? = some vq) (hne : q ≠ this) :
    (∀ u w, ((s.set_vertex q { vq with above := vq.above.set this e }).set_vertex this
        { vthis with below := vthis.below.set q e }).below u w
        = if u = this ∧ w = q then some e else s.below u w) ∧
    (∀ u w, ((s.set_vertex q { vq with above := vq.above.set this e }).set_vertex this
        { vthis with below := vthis.below.set q e }).above u w
        = if u = q ∧ w = this then some e else s.above u w) ∧
    (∀ u, ((s.set_vertex q { vq with above := vq.above.set this e }).set_vertex this
        { vthis with below := vthis.below.set q e }).pos u = s.pos u) := by
  have hlt : this < s.verts.length := lt_of_vertex s this vthis ht
  have hlq : q < s.verts.length := lt_of_vertex s q vq hq
  have hlt' : this < (s.set_vertex q { vq with above := vq.above.set this e }).verts.length := by
    simpa [set_vertex] using hlt
  refine ⟨?_, ?_, ?_⟩
  · intro u w
    rw [below_set_vertex _ _ _ _ _ hlt']
    by_cases hu : u = this
    · subst hu
      simp only [if_true, true_and]
      rw [edgemap_t.find_set, below_eq_find s u vthis w ht]
    · simp only [hu, if_false, false_and]
      rw [below_set_vertex _ _ _ _ _ hlq]
      by_cases hu2 : u = q
      · subst hu2
        simp only [if_true]
        rw [below_eq_find s u vq w hq]
      · simp only [hu2, if_false]
  · intro u w
    rw [above_set_vertex _ _ _ _ _ hlt']
    by_cases hu : u = this
    · subst hu
      have : ¬ (u = q ∧ w = u) := fun c => hne c.1.symm
      simp only [if_true, this, if_false]
      rw [above_eq_find s u vthis w ht]
    · simp only [hu, if_false]
      rw [above_set_vertex _ _ _ _ _ hlq]
      by_cases hu2 : u = q
      · subst hu2
        simp only [if_true, true_and]
        rw [edgemap_t.find_set, above_eq_find s u vq w hq]
      · simp only [hu2, if_false, false_and]
  · intro u
    rw [pos_set_vertex _ this { vthis with below := vthis.below.set q e } vthis u (by
        unfold set_vertex; simp only [List.getElem?_set]
        rw [if_neg hne]; exact ht) rfl rfl]
    rw [pos_set_vertex _ q { vq with above := vq.above.set this e } vq u hq rfl rfl]

/-- The two stores of the `above` branch of `goes_to`. -/
theorem link_above_maps (s : flattener_t) (this q : Nat) (vthis vq : vertex_t) (e : Nat)
    (ht : s.verts[this]? = some vthis) (hq : s.verts[q]? = some vq) (hne : q ≠ this) :
    (∀ u w, ((s.set_vertex q { vq with below := vq.below.set this e }).set_vertex this
        { vthis with above := vthis.above.set q e }).below u w
        = if u = q ∧ w = this then some e else s.below u w) ∧
    (∀ u w, ((s.set_vertex q { vq with below := vq.below.set this e }).set_vertex this
        { vthis with above := vthis.above.set q e }).above u w
        = if u = this ∧ w = q then some e else s.above u w) ∧
    (∀ u, ((s.set_vertex q { vq with below := vq.below.set this e }).set_vertex this
        { vthis with above := vthis.above.set q e }).pos u = s.pos u) := by
  have hlt : this < s.verts.length := lt_of_vertex s this vthis ht
  have hlq : q < s.verts.length := lt_of_vertex s q vq hq
  have hlt' : this < (s.set_vertex q { vq with below := vq.below.set this e }).verts.length := by
    simpa [set_vertex] using hlt
  refine ⟨?_, ?_, ?_⟩
  · intro u w
    rw [below_set_vertex _ _ _ _ _ hlt']
    by_cases hu : u = this
    · subst hu
      have : ¬ (u = q ∧ w = u) := fun c => hne c.1.symm
      simp only [if_true, this, if_false]
      rw [below_eq_find s u vthis w ht]
    · simp only [hu, if_false]
      rw [below_set_vertex _ _ _ _ _ hlq]
      by_cases hu2 : u = q
      · subst hu2
        simp only [if_true, true_and]
        rw [edgemap_t.find_set, below_eq_find s u vq w hq]
      · simp only [hu2, if_false, false_and]
  · intro u w
    rw [above_set_vertex _ _ _ _ _ hlt']
    by_cases hu : u = this
    · subst hu
      simp only [if_true, true_and]
      rw [edgemap_t.find_set, above_eq_find s u vthis w ht]
    · simp only [hu, if_false, false_and]
      rw [above_set_vertex _ _ _ _ _ hlq]
      by_cases hu2 : u = q
      · subst hu2
        simp only [if_true]
        rw [above_eq_find s u vq w hq]
      · simp only [hu2, if_false]
  · intro u
    rw [pos_set_vertex _ this { vthis with above := vthis.above.set q e } vthis u (by
        unfold set_vertex; simp only [List.getElem?_set]
        rw [if_neg hne]; exact ht) rfl rfl]
    rw [pos_set_vertex _ q { vq with below := vq.below.set this e } vq u hq rfl rfl]

/-- A new edge at the end of the arena and two mirrored entries for it keep
the double-link invariant. -/
theorem linked_new_edge (s s1 : flattener_t) (a b : Nat) (x : edge_t)
    (hl : s.linked) (hab : s.below a b = none)
    (hx : x.from_ = a ∧ x.to_ = b)
    (he : s1.edges = s.edges ++ [some x])
    (hb : ∀ u w, s1.below u w = if u = a ∧ w = b then some s.edges.length else s.below u w)
    (ha : ∀ u w, s1.above u w = if u = b ∧ w = a then some s.edges.length else s.above u w) :
    s1.linked ∧ s1.ends s.edges.length = some (a, b) ∧
      (∀ e, e ≠ s.edges.length → s1.edges[e]? = s.edges[e]?) := by
  have hends : ∀ e, s1.ends e = if e = s.edges.length then some (a, b) else s.ends e := by
    intro e
    unfold ends
    rw [he]
    by_cases h : e = s.edges.length
    · subst h; simp [hx.1, hx.2]
    · simp only [h, if_false]
      by_cases h2 : e < s.edges.length
      · rw [List.getElem?_append_left h2]
      · rw [List.getElem?_eq_none (by simp; omega), List.getElem?_eq_none (by omega)]
  refine ⟨⟨?_, ?_⟩, ?_, ?_⟩
  · intro u w e h
    rw [hb] at h
    rw [ha, hends]
    by_cases hc : u = a ∧ w = b
    · rw [if_pos hc] at h
      injection h with h
      subst h
      obtain ⟨rfl, rfl⟩ := hc
      simp
    · rw [if_neg hc] at h
      obtain ⟨h1, h2⟩ := hl.1 u w e h
      have hne' : e ≠ s.edges.length := by
        have := lt_of_ends s e _ h1; omega
      have hc' : ¬ (w = b ∧ u = a) := fun c => hc ⟨c.2, c.1⟩
      rw [if_neg hne', if_neg hc']
      exact ⟨h1, h2⟩
  · intro u w e h
    rw [ha] at h
    rw [hb, hends]
    by_cases hc : u = b ∧ w = a
    · rw [if_pos hc] at h
      injection h with h
      subst h
      obtain ⟨rfl, rfl⟩ := hc
      simp
    · rw [if_neg hc] at h
      obtain ⟨h1, h2⟩ := hl.2 u w e h
      have hne' : e ≠ s.edges.length := by
        have := lt_of_ends s e _ h1; omega
      have hc' : ¬ (w = a ∧ u = b) := fun c => hc ⟨c.2, c.1⟩
      rw [if_neg hne', if_neg hc']
      exact ⟨h1, h2⟩
  · rw [hends]; simp
  · intro e hne'
    rw [he]
    by_cases h2 : e < s.edges.length
    · rw [List.getElem?_append_left h2]
    · rw [List.getElem?_eq_none (by simp; omega), List.getElem?_eq_none (by omega)]

/-- The branch of `goes_to` that looks into `below`: the edge from `this` to
`q`, found or created. -/
theorem link_below_spec (s : flattener_t) (this q : Nat) (vthis vq : vertex_t)
    (raw : line_t) (hl : s.linked) (ht : s.verts[this]? = some vthis)
    (hq : s.verts[q]? = some vq) (hne : q ≠ this) :
    ∃ e s1, s.link_below this q vthis vq raw = (e, s1) ∧
    s1.linked ∧ s1.below this q = some e ∧ s1.ends e = some (this, q) ∧
    (∀ u w, ¬ (u = this ∧ w = q) → s1.below u w = s.below u w) ∧
    (∀ u w, ¬ (u = q ∧ w = this) → s1.above u w = s.above u w) ∧
    (∀ e', e' ≠ e → s1.edges[e']? = s.edges[e']?) ∧
    ((s.below this q = some e ∧ s1 = s) ∨
      (s.below this q = none ∧ e = s.edges.length ∧
        s1.edges = s.edges ++ [some (edge_t.new raw this q)])) ∧
    (∀ u, s1.pos u = s.pos u) ∧ s.rest_eq s1 := by
  have hbt : s.below this q = vthis.below.find q := below_eq_find s this vthis q ht
  unfold link_below
  cases hfind : vthis.below.find q with
  | some e =>
    rw [hfind] at hbt
    exact ⟨e, s, rfl, hl, hbt, (hl.1 this q e hbt).1, fun _ _ _ => rfl, fun _ _ _ => rfl,
      fun _ _ => rfl, Or.inl ⟨hbt, rfl⟩, fun _ => rfl, ⟨rfl, rfl, rfl, rfl, rfl, rfl, rfl⟩⟩
  | none =>
    rw [hfind] at hbt
    obtain ⟨hb, ha, hp⟩ := link_below_maps
      { s with edges := s.edges ++ [some (edge_t.new raw this q)] } this q vthis vq
      s.edges.length ht hq hne
    obtain ⟨h1, h2, h3⟩ := linked_new_edge s _ this q (edge_t.new raw this q) hl hbt
      ⟨rfl, rfl⟩ rfl hb ha
    refine ⟨_, _, rfl, h1, ?_, h2, ?_, ?_, h3, Or.inr ⟨hbt, rfl, rfl⟩, hp,
      ⟨rfl, rfl, rfl, rfl, rfl, rfl, rfl⟩⟩
    · rw [hb]; simp
    · intro u w hc
      rw [hb, if_neg hc]; rfl
    · intro u w hc
      rw [ha, if_neg hc]; rfl

/-- The branch of `goes_to` that looks into `above`: the edge from `q` to
`this`, found or created. -/
theorem link_above_spec (s : flattener_t) (this q : Nat) (vthis vq : vertex_t)
    (raw : line_t) (hl : s.linked) (ht : s.verts[this]? = some vthis)
    (hq : s.verts[q]? = some vq) (hne : q ≠ this) :
    ∃ e s1, s.link_above this q vthis vq raw = (e, s1) ∧
    s1.linked ∧ s1.below q this = some e ∧ s1.ends e = some (q, this) ∧
    (∀ u w, ¬ (u = q ∧ w = this) → s1.below u w = s.below u w) ∧
    (∀ u w, ¬ (u = this ∧ w = q) → s1.above u w = s.above u w) ∧
    (∀ e', e' ≠ e → s1.edges[e']? = s.edges[e']?) ∧
    ((s.below q this = some e ∧ s1 = s) ∨
      (s.below q this = none ∧ e = s.edges.length ∧
        s1.edges = s.edges ++ [some (edge_t.new raw q this)])) ∧
    (∀ u, s1.pos u = s.pos u) ∧ s.rest_eq s1 := by
  have hat : s.above this q = vthis.above.find q := above_eq_find s this vthis q ht
  unfold link_above
  cases hfind : vthis.above.find q with
  | some e =>
    rw [hfind] at hat
    have hbq := (hl.2 this q e hat).2
    exact ⟨e, s, rfl, hl, hbq, (hl.2 this q e hat).1, fun _ _ _ => rfl, fun _ _ _ => rfl,
      fun _ _ => rfl, Or.inl ⟨hbq, rfl⟩, fun _ => rfl, ⟨rfl, rfl, rfl, rfl, rfl, rfl, rfl⟩⟩
  | none =>
    rw [hfind] at hat
    have hbq : s.below q this = none := by
      cases hc : s.below q this with
      | none => rfl
      | some e =>
        have := (hl.1 q this e hc).2
        rw [hat] at this
        exact absurd this (by simp)
    obtain ⟨hb, ha, hp⟩ := link_above_maps
      { s with edges := s.edges ++ [some (edge_t.new raw q this)] } this q vthis vq
      s.edges.length ht hq hne
    obtain ⟨h1, h2, h3⟩ := linked_new_edge s _ q this (edge_t.new raw q this) hl hbq
      ⟨rfl, rfl⟩ rfl hb ha
    refine ⟨_, _, rfl, h1, ?_, h2, ?_, ?_, h3, Or.inr ⟨hbq, rfl, rfl⟩, hp,
      ⟨rfl, rfl, rfl, rfl, rfl, rfl, rfl⟩⟩
    · rw [hb]; simp
    · intro u w hc
      rw [hb, if_neg hc]; rfl
    · intro u w hc
      rw [ha, if_neg hc]; rfl

end flattener_t

namespace flattener_t

theorem wind_of_eq (s : flattener_t) (e : Nat) (ed : edge_t) (h : s.edge e = .ok ed) :
    s.wind_of e = ed.wind := by
  unfold wind_of
  rw [(edge_eq_ok s e ed).1 h]

/-- `goes_to` on two different vertices: the edge between them is found or
created in sweep order, and the (possibly negated) winding is added to it. -/
theorem goes_to_eq (s : flattener_t) (this q : Nat) (raw : line_t) (wind : wind_t)
    (state : Option Nat) (vthis vq : vertex_t) (flip : Bool) (hl : s.linked)
    (ht : s.verts[this]? = some vthis) (hq : s.verts[q]? = some vq) (hne : q ≠ this)
    (hflip : vertexsort_t vq vthis = .ok flip) :
    ∃ e s3 ed,
      s3.linked ∧
      s3.below (if flip then q else this) (if flip then this else q) = some e ∧
      (∀ u w, ¬ (u = (if flip then q else this) ∧ w = (if flip then this else q)) →
        s3.below u w = s.below u w) ∧
      (∀ u w, ¬ (u = (if flip then this else q) ∧ w = (if flip then q else this)) →
        s3.above u w = s.above u w) ∧
      (∀ e', e' ≠ e → s3.edges[e']? = s.edges[e']?) ∧
      ((s.below (if flip then q else this) (if flip then this else q) = some e ∧ s3 = s) ∨
        (s.below (if flip then q else this) (if flip then this else q) = none ∧
          e = s.edges.length ∧ s.edges[e]? = none ∧
          s3.edges = s.edges ++ [some ed])) ∧
      (∀ u, s3.pos u = s.pos u) ∧ s.rest_eq s3 ∧
      s3.edge e = .ok ed ∧ ed.wind = s.wind_of e ∧
      ed.from_ = (if flip then q else this) ∧ ed.to_ = (if flip then this else q) ∧
      s.goes_to this q raw wind state =
        match (s3.set_edge e { ed with wind := ed.wind.add (if flip then wind.neg else wind) }).inherit
            e state flip with
        | .ok s5 => .ok (some e, s5)
        | .error x => .error x := by
  have hgo : ∀ e s3 ed,
      (if flip then s.link_above this q vthis vq (if flip then raw.reverse else raw)
        else s.link_below this q vthis vq (if flip then raw.reverse else raw)) = (e, s3) →
      s3.edge e = .ok ed →
      s.goes_to this q raw wind state =
        match (s3.set_edge e { ed with wind := ed.wind.add (if flip then wind.neg else wind) }).inherit
            e state flip with
        | .ok s5 => .ok (some e, s5)
        | .error x => .error x := by
    intro e s3 ed hes hed
    unfold goes_to
    rw [if_neg hne]
    have hvq : s.vertex q = .ok vq := (vertex_eq_ok s q vq).2 hq
    have hvt : s.vertex this = .ok vthis := (vertex_eq_ok s this vthis).2 ht
    simp only [hvq, hvt, hflip, hes, hed]
    cases (s3.set_edge e
      { ed with wind := ed.wind.add (if flip then wind.neg else wind) }).inherit e state flip <;> rfl
  cases flip with
  | true =>
    obtain ⟨e, s3, he, h1, h2, h3, h4, h5, h6, h7, h8, h9⟩ :=
      link_above_spec s this q vthis vq raw.reverse hl ht hq hne
    obtain ⟨ed, hed, hf, hto⟩ := (ends_eq_some s3 e q this).1 h3
    have hw : ed.wind = s.wind_of e := by
      rcases h7 with ⟨_, rfl⟩ | ⟨_, he', hedges⟩
      · exact (wind_of_eq s3 e ed hed).symm
      · have : s3.edges[e]? = some (some (edge_t.new raw.reverse q this)) := by
          rw [hedges, he']; simp
        rw [(edge_eq_ok s3 e ed).1 hed] at this
        injection this with this
        injection this with this
        rw [this]
        unfold wind_of
        rw [he', List.getElem?_eq_none (le_refl _)]
        rfl
    refine ⟨e, s3, ed, h1, h2, h4, h5, h6, ?_, h8, h9, hed, hw, hf, hto, ?_⟩
    · rcases h7 with h | ⟨ha, hb, hc⟩
      · exact Or.inl h
      · refine Or.inr ⟨ha, hb, by rw [hb]; exact List.getElem?_eq_none (le_refl _), ?_⟩
        have : s3.edges[e]? = some (some (edge_t.new raw.reverse q this)) := by
          rw [hc, hb]; simp
        rw [(edge_eq_ok s3 e ed).1 hed] at this
        injection this with this
        injection this with this
        rw [hc, this]
    · exact hgo e s3 ed (by simpa using he) hed
  | false =>
    obtain ⟨e, s3, he, h1, h2, h3, h4, h5, h6, h7, h8, h9⟩ :=
      link_below_spec s this q vthis vq raw hl ht hq hne
    obtain ⟨ed, hed, hf, hto⟩ := (ends_eq_some s3 e this q).1 h3
    have hw : ed.wind = s.wind_of e := by
      rcases h7 with ⟨_, rfl⟩ | ⟨_, he', hedges⟩
      · exact (wind_of_eq s3 e ed hed).symm
      · have : s3.edges[e]? = some (some (edge_t.new raw this q)) := by
          rw [hedges, he']; simp
        rw [(edge_eq_ok s3 e ed).1 hed] at this
        injection this with this
        injection this with this
        rw [this]
        unfold wind_of
        rw [he', List.getElem?_eq_none (le_refl _)]
        rfl
    refine ⟨e, s3, ed, h1, h2, h4, h5, h6, ?_, h8, h9, hed, hw, hf, hto, ?_⟩
    · rcases h7 with h | ⟨ha, hb, hc⟩
      · exact Or.inl h
      · refine Or.inr ⟨ha, hb, by rw [hb]; exact List.getElem?_eq_none (le_refl _), ?_⟩
        have : s3.edges[e]? = some (some (edge_t.new raw this q)) := by
          rw [hc, hb]; simp
        rw [(edge_eq_ok s3 e ed).1 hed] at this
        injection this with this
        injection this with this
        rw [hc, this]
    · exact hgo e s3 ed (by simpa using he) hed

end flattener_t

/-! ## `add_edge` -/

namespace flattener_t

theorem pos_transfer (s s1 : flattener_t) (u : Nat) (vu : vertex_t)
    (h : s1.pos u = s.pos u) (hu : s.verts[u]? = some vu) :
    ∃ vu1, s1.verts[u]? = some vu1 ∧ vu1.x = vu.x ∧ vu1.y = vu.y := by
  unfold pos at h
  rw [hu] at h
  cases h1 : s1.verts[u]? with
  | none => rw [h1] at h; simp at h
  | some vu1 =>
    rw [h1] at h
    simp only [Option.map_some', Option.some.injEq, Prod.mk.injEq] at h
    exact ⟨vu1, rfl, h.1, h.2⟩

theorem valid_of_pos (s s1 : flattener_t) (set : List Nat)
    (h : ∀ u, s1.pos u = s.pos u) (hv : vertexset_t.valid s.verts set) :
    vertexset_t.valid s1.verts set := by
  intro w hw
  obtain ⟨vw, h1, h2⟩ := hv w hw
  obtain ⟨vw1, h3, h4, h5⟩ := pos_transfer s s1 w vw (h w) h1
  exact ⟨vw1, h3, by unfold vertex_t.canonical; rw [h4, h5]; exact h2⟩

theorem precedes_congr (a b a1 b1 : vertex_t) (hax : a1.x = a.x) (hay : a1.y = a.y)
    (hbx : b1.x = b.x) (hby : b1.y = b.y) : a1.precedes b1 ↔ a.precedes b := by
  unfold vertex_t.precedes; rw [hax, hay, hbx, hby]

/-- A store to an edge that keeps its two ends keeps the double-link
invariant. -/
theorem linked_set_edge (s : flattener_t) (e : Nat) (ed x : edge_t) (hl : s.linked)
    (he : s.edge e = .ok ed) (hf : x.from_ = ed.from_) (hto : x.to_ = ed.to_) :
    (s.set_edge e x).linked ∧ (∀ e', (s.set_edge e x).ends e' = s.ends e') := by
  have hends : ∀ e', (s.set_edge e x).ends e' = s.ends e' := by
    intro e'
    have h1 := (ends_eq_some s e ed.from_ ed.to_).2 ⟨ed, he, rfl, rfl⟩
    rw [ends_set_edge s e x e' (lt_of_ends s e _ h1)]
    by_cases h : e' = e
    · rw [if_pos h, h, h1, hf, hto]
    · rw [if_neg h]
  refine ⟨⟨?_, ?_⟩, hends⟩
  · intro u w e' h
    rw [hends]
    exact hl.1 u w e' h
  · intro u w e' h
    rw [hends]
    exact hl.2 u w e' h

/-- `find` leaves the graph as it is: the maps, the edges and the positions of
the vertices that exist. -/
theorem find_frame (s : flattener_t) (x y : rat_t) (hx : x.canonical)
    (hy : y.canonical) (hv : vertexset_t.valid s.verts s.vertexset) :
    ∃ r s1 vr, s.find x y = .ok (r, s1) ∧ s1.verts[r]? = some vr ∧ vr.x = x ∧ vr.y = y ∧
      r ∈ s1.vertexset ∧ vertexset_t.valid s1.verts s1.vertexset ∧
      (∀ u w, s1.below u w = s.below u w) ∧ (∀ u w, s1.above u w = s.above u w) ∧
      s1.edges = s.edges ∧
      (∀ (u : Nat) (vu : vertex_t), s.verts[u]? = some vu → s1.verts[u]? = some vu) ∧
      (∀ (u : Nat) (vu : vertex_t), s1.verts[u]? = some vu →
        s.verts[u]? = some vu ∨ (vu.below = [] ∧ vu.above = [])) ∧
      (∀ w, w ∈ s.vertexset → w ∈ s1.vertexset) ∧
      s1.snapset = s.snapset ∧ s1.todo = s.todo ∧ s1.ael = s.ael ∧ s1.dot = s.dot ∧
      s1.flatten_rule = s.flatten_rule ∧ s1.snaplist = s.snaplist ∧
      s.verts.length ≤ s1.verts.length := by
  obtain ⟨r, s1, vr, h1, h2, h3, h4, h5, hcase⟩ := find_eq s x y hx hy hv
  have h2' := (vertex_eq_ok s1 r vr).1 h2
  rcases hcase with ⟨rfl, _⟩ | ⟨hr, hvr, hverts, hset, hedges, r1, r2, r3, r4, r5, r6⟩
  · exact ⟨r, s1, vr, h1, h2', h3, h4, h5, hv, fun _ _ => rfl, fun _ _ => rfl, rfl,
      fun _ _ h => h, fun _ _ h => Or.inl h, fun _ h => h, rfl, rfl, rfl, rfl, rfl, rfl,
      le_refl _⟩
  · have hold : ∀ (u : Nat) (vu : vertex_t), s.verts[u]? = some vu →
        s1.verts[u]? = some vu := by
      intro u vu hu
      rw [hverts, List.getElem?_append_left (lt_of_vertex s u vu hu)]
      exact hu
    have hmaps : ∀ u : Nat, s1.verts[u]? = s.verts[u]? ∨
        (s.verts[u]? = none ∧ s1.verts[u]? = some { x := x, y := y }) := by
      intro u
      by_cases hu : u < s.verts.length
      · left; rw [hverts, List.getElem?_append_left hu]
      · by_cases hu2 : u = s.verts.length
        · right
          refine ⟨List.getElem?_eq_none (by omega), ?_⟩
          rw [hverts, hu2]; simp
        · left
          rw [hverts, List.getElem?_eq_none (by simp; omega),
            List.getElem?_eq_none (by omega)]
    refine ⟨r, s1, vr, h1, h2', h3, h4, h5, ?_, ?_, ?_, hedges, hold, ?_, ?_, r1, r2, r3, r4,
      r5, r6, by rw [hverts]; simp⟩
    · intro w hw
      rcases (hset w).1 hw with hw1 | hw1
      · rw [hw1]
        exact ⟨vr, h2', by unfold vertex_t.canonical; rw [h3, h4]; exact ⟨hx, hy⟩⟩
      · obtain ⟨vw, a1, a2⟩ := hv w hw1
        exact ⟨vw, hold w vw a1, a2⟩
    · intro u w
      unfold below
      rcases hmaps u with h | ⟨ha, hb⟩
      · rw [h]
      · rw [ha, hb]; rfl
    · intro u w
      unfold above
      rcases hmaps u with h | ⟨ha, hb⟩
      · rw [h]
      · rw [ha, hb]; rfl
    · intro u vu hu
      rcases hmaps u with h | ⟨_, hb⟩
      · left; rw [← h]; exact hu
      · right
        rw [hb] at hu
        injection hu with hu
        rw [← hu]
        exact ⟨rfl, rfl⟩
    · intro w hw
      exact (hset w).2 (Or.inr hw)

theorem linked_of_maps (s s1 : flattener_t) (hl : s.linked)
    (hb : ∀ u w, s1.below u w = s.below u w) (ha : ∀ u w, s1.above u w = s.above u w)
    (he : ∀ e, s1.ends e = s.ends e) : s1.linked := by
  refine ⟨?_, ?_⟩
  · intro u w e h
    rw [hb] at h
    rw [ha, he]
    exact hl.1 u w e h
  · intro u w e h
    rw [ha] at h
    rw [hb, he]
    exact hl.2 u w e h

theorem ends_of_edges (s s1 : flattener_t) (h : s1.edges = s.edges) (e : Nat) :
    s1.ends e = s.ends e := by
  unfold ends; rw [h]

/-- The sweep order of two integer positions. -/
theorem precedes_ofInt (a b : vertex_t) (x y u v : Int) (hax : a.x = rat_t.ofInt x)
    (hay : a.y = rat_t.ofInt y) (hbx : b.x = rat_t.ofInt u) (hby : b.y = rat_t.ofInt v) :
    a.precedes b ↔ (y < v ∨ (y = v ∧ x < u)) := by
  unfold vertex_t.precedes
  rw [hax, hay, hbx, hby, rat_t.val_ofInt, rat_t.val_ofInt, rat_t.val_ofInt, rat_t.val_ofInt]
  constructor
  · rintro (h | ⟨h1, h2⟩)
    · left; exact_mod_cast h
    · right; exact ⟨by exact_mod_cast h1, by exact_mod_cast h2⟩
  · rintro (h | ⟨h1, h2⟩)
    · left; exact_mod_cast h
    · right; exact ⟨by exact_mod_cast h1, by exact_mod_cast h2⟩

end flattener_t

/-! ## The vertex set stays sorted -/

theorem vertex_t.precedes_trans (a b c : vertex_t) (h1 : a.precedes b)
    (h2 : b.precedes c) : a.precedes c := by
  unfold vertex_t.precedes at *
  rcases h1 with h1 | ⟨h1, h1'⟩ <;> rcases h2 with h2 | ⟨h2, h2'⟩
  · left; exact lt_trans h1 h2
  · left; rw [← h2]; exact h1
  · left; rw [h1]; exact h2
  · right; exact ⟨h1.trans h2, lt_trans h1' h2'⟩

theorem vertex_t.precedes_irrefl (a b : vertex_t) (hx : a.x = b.x) (hy : a.y = b.y) :
    ¬ a.precedes b := by
  unfold vertex_t.precedes
  rw [hx, hy]
  rintro (h | ⟨_, h⟩) <;> exact lt_irrefl _ h

/-- Insertion keeps a sorted vertex set sorted, the new vertex being stored at
the end of the arena. -/
theorem vertexset_t.insert_sorted (verts : List vertex_t) (x y : rat_t)
    (hx : x.canonical) (hy : y.canonical) (set : List Nat)
    (hv : vertexset_t.valid verts set) (hs : vertexset_t.sorted verts set)
    (r : Nat) (set1 : List Nat)
    (h : vertexset_t.insert verts x y verts.length set = .ok (r, set1)) :
    vertexset_t.sorted (verts ++ [{ x := x, y := y }]) set1 := by
  have mono : ∀ a b : Nat, (∃ va vb : vertex_t, verts[a]? = some va ∧ verts[b]? = some vb ∧
        va.precedes vb) →
      ∃ va vb : vertex_t, (verts ++ [({ x := x, y := y } : vertex_t)])[a]? = some va ∧
        (verts ++ [({ x := x, y := y } : vertex_t)])[b]? = some vb ∧ va.precedes vb := by
    rintro a b ⟨va, vb, h1, h2, h3⟩
    have la : a < verts.length := by
      by_contra hc; rw [List.getElem?_eq_none (by omega)] at h1; simp at h1
    have lb : b < verts.length := by
      by_contra hc; rw [List.getElem?_eq_none (by omega)] at h2; simp at h2
    exact ⟨va, vb, by rw [List.getElem?_append_left la]; exact h1,
      by rw [List.getElem?_append_left lb]; exact h2, h3⟩
  have hnew : (verts ++ [({ x := x, y := y } : vertex_t)])[verts.length]?
      = some { x := x, y := y } := by simp
  have cn : (⟨[], [], x, y⟩ : vertex_t).canonical := ⟨hx, hy⟩
  induction set generalizing r set1 with
  | nil =>
    unfold vertexset_t.insert at h
    injection h with h
    injection h with h1 h2
    rw [← h2]
    exact List.pairwise_singleton _ _
  | cons w rest ih =>
    obtain ⟨vw, hw, cw⟩ := hv w (List.mem_cons_self _ _)
    have hrest : vertexset_t.valid verts rest :=
      fun u hu => hv u (List.mem_cons_of_mem _ hu)
    have hsr : vertexset_t.sorted verts rest := (List.pairwise_cons.1 hs).2
    have hwr := (List.pairwise_cons.1 hs).1
    have lw : w < verts.length := by
      by_contra hc; rw [List.getElem?_eq_none (by omega)] at hw; simp at hw
    have hw1 : (verts ++ [({ x := x, y := y } : vertex_t)])[w]? = some vw := by
      rw [List.getElem?_append_left lw]; exact hw
    unfold vertexset_t.insert at h
    simp only [hw] at h
    rw [vertexsort_t_eq vw _ cw cn, vertexsort_t_eq _ vw cn cw] at h
    by_cases h1 : vw.precedes ⟨[], [], x, y⟩
    · simp only [h1, decide_True] at h
      obtain ⟨r0, set0, e0, hcase⟩ :=
        vertexset_t.insert_eq verts x y verts.length hx hy rest hrest
      simp only [e0] at h
      injection h with h
      injection h with hr hset
      rw [← hset]
      refine List.pairwise_cons.2 ⟨?_, ih hrest hsr r0 set0 e0⟩
      intro b hb
      rcases hcase with ⟨_, hs0, _⟩ | ⟨_, hs0⟩
      · rw [hs0] at hb
        exact mono w b (hwr b hb)
      · rcases (hs0 b).1 hb with hb1 | hb1
        · rw [hb1]
          exact ⟨vw, _, hw1, hnew, h1⟩
        · exact mono w b (hwr b hb1)
    · simp only [h1, decide_False] at h
      by_cases h2 : (⟨[], [], x, y⟩ : vertex_t).precedes vw
      · simp only [h2, decide_True] at h
        injection h with h
        injection h with hr hset
        rw [← hset]
        refine List.pairwise_cons.2 ⟨?_, List.Pairwise.imp (fun {a b} hab => mono a b hab) hs⟩
        intro b hb
        rcases List.mem_cons.1 hb with hb1 | hb1
        · rw [hb1]; exact ⟨_, vw, hnew, hw1, h2⟩
        · obtain ⟨va, vb, a1, a2, a3⟩ := hwr b hb1
          rw [hw] at a1
          injection a1 with a1
          subst a1
          have lb : b < verts.length := by
            by_contra hc; rw [List.getElem?_eq_none (by omega)] at a2; simp at a2
          exact ⟨_, vb, hnew, by rw [List.getElem?_append_left lb]; exact a2,
            vertex_t.precedes_trans _ _ _ h2 a3⟩
      · simp only [h2, decide_False] at h
        injection h with h
        injection h with hr hset
        rw [← hset]
        exact List.Pairwise.imp (fun {a b} hab => mono a b hab) hs

/-- In a sorted vertex set two elements at the same position are the same
vertex. -/
theorem vertexset_t.unique (verts : List vertex_t) (set : List Nat)
    (hs : vertexset_t.sorted verts set) (a b : Nat) (ha : a ∈ set) (hb : b ∈ set)
    (va vb : vertex_t) (h1 : verts[a]? = some va) (h2 : verts[b]? = some vb)
    (hx : va.x = vb.x) (hy : va.y = vb.y) : a = b := by
  by_contra hne
  have hsym : Symmetric fun a b : Nat => ∀ va vb : vertex_t, verts[a]? = some va →
      verts[b]? = some vb → ¬ (va.x = vb.x ∧ va.y = vb.y) := by
    intro a b h va vb h1 h2 hc
    exact h vb va h2 h1 ⟨hc.1.symm, hc.2.symm⟩
  have hp : set.Pairwise fun a b : Nat => ∀ va vb : vertex_t, verts[a]? = some va →
      verts[b]? = some vb → ¬ (va.x = vb.x ∧ va.y = vb.y) := by
    refine List.Pairwise.imp ?_ hs
    rintro a b ⟨va, vb, e1, e2, hpr⟩ va' vb' e1' e2' ⟨hx, hy⟩
    rw [e1] at e1'; rw [e2] at e2'
    injection e1' with e1'; injection e2' with e2'
    subst e1' e2'
    exact vertex_t.precedes_irrefl va vb hx hy hpr
  exact hp.forall hsym ha hb hne va vb h1 h2 ⟨hx, hy⟩

theorem flattener_t.find_sorted (s : flattener_t) (x y : rat_t) (hx : x.canonical)
    (hy : y.canonical) (hv : vertexset_t.valid s.verts s.vertexset)
    (hs : vertexset_t.sorted s.verts s.vertexset) (r : Nat) (s1 : flattener_t)
    (h : s.find x y = .ok (r, s1)) : vertexset_t.sorted s1.verts s1.vertexset := by
  unfold flattener_t.find at h
  obtain ⟨r0, set0, e0, hcase⟩ :=
    vertexset_t.insert_eq s.verts x y s.verts.length hx hy s.vertexset hv
  have hsort := vertexset_t.insert_sorted s.verts x y hx hy s.vertexset hv hs r0 set0 e0
  simp only [e0] at h
  by_cases hr : r0 = s.verts.length
  · rw [if_pos hr] at h
    injection h with h
    injection h with h1 h2
    rw [← h2]
    exact hsort
  · rw [if_neg hr] at h
    injection h with h
    injection h with h1 h2
    rw [← h2]
    exact hs

namespace flattener_t

theorem pos_eq_some (s : flattener_t) (u : Nat) (x y : rat_t) :
    s.pos u = some (x, y) ↔ ∃ vu, s.verts[u]? = some vu ∧ vu.x = x ∧ vu.y = y := by
  unfold pos
  cases h : s.verts[u]? with
  | none => simp
  | some vu => simp

theorem pos_of_verts (s s1 : flattener_t)
    (h : ∀ (u : Nat) (vu : vertex_t), s.verts[u]? = some vu → s1.verts[u]? = some vu)
    (u : Nat) (p : rat_t × rat_t) (hp : s.pos u = some p) : s1.pos u = some p := by
  obtain ⟨x, y⟩ := p
  obtain ⟨vu, h1, h2, h3⟩ := (pos_eq_some s u x y).1 hp
  exact (pos_eq_some s1 u x y).2 ⟨vu, h u vu h1, h2, h3⟩

theorem ordered_of_maps (s s1 : flattener_t) (ho : s.ordered)
    (hb : ∀ u w, s1.below u w = s.below u w)
    (hp : ∀ (u : Nat) (vu : vertex_t), s.verts[u]? = some vu →
      ∃ vu1, s1.verts[u]? = some vu1 ∧ vu1.x = vu.x ∧ vu1.y = vu.y) : s1.ordered := by
  intro a b e h
  rw [hb] at h
  obtain ⟨va, vb, h1, h2, h3⟩ := ho a b e h
  obtain ⟨va1, a1, a2, a3⟩ := hp a va h1
  obtain ⟨vb1, b1, b2, b3⟩ := hp b vb h2
  exact ⟨va1, vb1, a1, b1, (precedes_congr va vb va1 vb1 a2 a3 b2 b3).2 h3⟩

theorem sorted_of_pos (s s1 : flattener_t) (set : List Nat)
    (h : ∀ u, s1.pos u = s.pos u) (hs : vertexset_t.sorted s.verts set) :
    vertexset_t.sorted s1.verts set := by
  refine List.Pairwise.imp ?_ hs
  rintro a b ⟨va, vb, h1, h2, h3⟩
  obtain ⟨va1, a1, a2, a3⟩ := pos_transfer s s1 a va (h a) h1
  obtain ⟨vb1, b1, b2, b3⟩ := pos_transfer s s1 b vb (h b) h2
  exact ⟨va1, vb1, a1, b1, (precedes_congr va vb va1 vb1 a2 a3 b2 b3).2 h3⟩

/-- `find` keeps the well-formedness of the session. -/
theorem find_wf (s : flattener_t) (x y : rat_t) (hx : x.canonical) (hy : y.canonical)
    (hs : s.wf) :
    ∃ r s1, s.find x y = .ok (r, s1) ∧ s1.wf ∧ r ∈ s1.vertexset ∧ s1.pos r = some (x, y) ∧
      (∀ u w, s1.below u w = s.below u w) ∧ (∀ u w, s1.above u w = s.above u w) ∧
      s1.edges = s.edges ∧ (∀ w, w ∈ s.vertexset → w ∈ s1.vertexset) ∧
      (∀ u p, s.pos u = some p → s1.pos u = some p) := by
  obtain ⟨hv, hso, hl, ho⟩ := hs
  obtain ⟨r, s1, vr, h1, h2, h3, h4, h5, h6, h7, h8, h9, h10, h11, h12, -⟩ :=
    find_frame s x y hx hy hv
  refine ⟨r, s1, h1, ⟨h6, find_sorted s x y hx hy hv hso r s1 h1, ?_, ?_⟩, h5,
    (pos_eq_some s1 r x y).2 ⟨vr, h2, h3, h4⟩, h7, h8, h9, h12, pos_of_verts s s1 h10⟩
  · exact linked_of_maps s s1 hl h7 h8 (ends_of_edges s s1 h9)
  · exact ordered_of_maps s s1 ho h7 (fun u vu hu => ⟨vu, h10 u vu hu, rfl, rfl⟩)

end flattener_t
namespace flattener_t

theorem edge_set_edge_self (s : flattener_t) (e : Nat) (ed x : edge_t)
    (he : s.edge e = .ok ed) : (s.set_edge e x).edge e = .ok x := by
  have hlt : e < s.edges.length := by
    have := (edge_eq_ok s e ed).1 he
    by_contra hc
    rw [List.getElem?_eq_none (by omega)] at this
    simp at this
  rw [edge_eq_ok]
  unfold set_edge
  simp [hlt]

theorem edges_set_edge_ne (s : flattener_t) (e e' : Nat) (x : edge_t) (h : e' ≠ e) :
    (s.set_edge e x).edges[e']? = s.edges[e']? := by
  unfold set_edge
  simp only [List.getElem?_set]
  rw [if_neg (fun c => h c.symm)]

/-- `goes_to` without a state edge, on two different vertices of a well-formed
session that are in sweep order one way or the other. -/
theorem goes_to_none_spec (s : flattener_t) (this q : Nat) (raw : line_t) (wind : wind_t)
    (vthis vq : vertex_t) (flip : Bool) (hs : s.wf)
    (ht : s.verts[this]? = some vthis) (hq : s.verts[q]? = some vq) (hne : q ≠ this)
    (hflip : vertexsort_t vq vthis = .ok flip)
    (hord : if flip then vq.precedes vthis else vthis.precedes vq) :
    ∃ e ed s4, s.goes_to this q raw wind none = .ok (some e, s4) ∧ s4.wf ∧
      s4.edge e = .ok ed ∧
      ed.from_ = (if flip then q else this) ∧ ed.to_ = (if flip then this else q) ∧
      ed.wind = (s.wind_of e).add (if flip then wind.neg else wind) ∧
      s4.below ed.from_ ed.to_ = some e ∧ s4.above ed.to_ ed.from_ = some e ∧
      s4.below ed.to_ ed.from_ = none ∧ s4.above ed.from_ ed.to_ = none ∧
      (∀ e', e' ≠ e → s4.edges[e']? = s.edges[e']?) ∧
      s4.vertexset = s.vertexset ∧ (∀ u, s4.pos u = s.pos u) ∧
      (∀ e0, s.below (if flip then q else this) (if flip then this else q) = some e0 →
        e0 = e) := by
  obtain ⟨hv, hso, hl, ho⟩ := hs
  obtain ⟨e, s3, ed, l3, b3, fb, fa, fe, hcase, hpos, hrest, hed, hw, hf, hto, hgo⟩ :=
    goes_to_eq s this q raw wind none vthis vq flip hl ht hq hne hflip
  obtain ⟨l4, hends4⟩ := linked_set_edge s3 e ed
    { ed with wind := ed.wind.add (if flip then wind.neg else wind) } l3 hed rfl rfl
  -- the two ends in sweep order, in the new state
  have hab : ∃ va vb, s3.verts[(if flip then q else this)]? = some va ∧
      s3.verts[(if flip then this else q)]? = some vb ∧ va.precedes vb := by
    obtain ⟨vt3, t1, t2, t3⟩ := pos_transfer s s3 this vthis (hpos this) ht
    obtain ⟨vq3, q1, q2, q3⟩ := pos_transfer s s3 q vq (hpos q) hq
    cases flip with
    | true =>
      exact ⟨vq3, vt3, q1, t1, (precedes_congr vq vthis vq3 vt3 q2 q3 t2 t3).2 hord⟩
    | false =>
      exact ⟨vt3, vq3, t1, q1, (precedes_congr vthis vq vt3 vq3 t2 t3 q2 q3).2 hord⟩
  have o4 : (s3.set_edge e
      { ed with wind := ed.wind.add (if flip then wind.neg else wind) }).ordered := by
    intro a b e' h
    change s3.below a b = some e' at h
    by_cases hc : a = (if flip then q else this) ∧ b = (if flip then this else q)
    · obtain ⟨rfl, rfl⟩ := hc
      exact hab
    · rw [fb a b hc] at h
      obtain ⟨va, vb, h1, h2, h3⟩ := ho a b e' h
      obtain ⟨va3, a1, a2, a3⟩ := pos_transfer s s3 a va (hpos a) h1
      obtain ⟨vb3, b1, b2, b3⟩ := pos_transfer s s3 b vb (hpos b) h2
      exact ⟨va3, vb3, a1, b1, (precedes_congr va vb va3 vb3 a2 a3 b2 b3).2 h3⟩
  have hnone : s3.below (if flip then this else q) (if flip then q else this) = none := by
    cases hc : s3.below (if flip then this else q) (if flip then q else this) with
    | none => rfl
    | some e' =>
      exfalso
      obtain ⟨vb, va, h1, h2, h3⟩ := o4 _ _ e' hc
      obtain ⟨va', vb', h1', h2', h3'⟩ := hab
      change s3.verts[_]? = some vb at h1
      change s3.verts[_]? = some va at h2
      rw [h1'] at h2; rw [h2'] at h1
      injection h1 with h1; injection h2 with h2
      subst h1 h2
      exact vertex_t.precedes_asymm _ _ h3' h3
  have hanone : s3.above (if flip then q else this) (if flip then this else q) = none := by
    cases hc : s3.above (if flip then q else this) (if flip then this else q) with
    | none => rfl
    | some e' =>
      have := (l3.2 _ _ e' hc).2
      rw [hnone] at this
      exact absurd this (by simp)
  refine ⟨e, _, _, ?_, ⟨?_, ?_, l4, o4⟩, edge_set_edge_self s3 e ed _ hed, hf, hto, ?_, ?_, ?_,
    ?_, ?_, ?_, hrest.1, hpos, ?_⟩
  · rw [hgo]; rfl
  · show vertexset_t.valid s3.verts s3.vertexset
    rw [hrest.1]
    exact valid_of_pos s s3 _ hpos hv
  · show vertexset_t.sorted s3.verts s3.vertexset
    rw [hrest.1]
    exact sorted_of_pos s s3 _ hpos hso
  · show ed.wind.add _ = _
    rw [hw]
  · show s3.below ed.from_ ed.to_ = some e
    rw [hf, hto]; exact b3
  · show s3.above ed.to_ ed.from_ = some e
    rw [hf, hto]; exact (l3.1 _ _ e b3).2
  · show s3.below ed.to_ ed.from_ = none
    rw [hf, hto]; exact hnone
  · show s3.above ed.from_ ed.to_ = none
    rw [hf, hto]; exact hanone
  · intro e' he'
    rw [edges_set_edge_ne s3 e e' _ he']
    exact fe e' he'
  · intro e0 h0
    rcases hcase with ⟨h1, _⟩ | ⟨h1, _⟩
    · rw [h1] at h0; injection h0 with h0; exact h0.symm
    · rw [h1] at h0; exact absurd h0 (by simp)

end flattener_t

namespace flattener_t

theorem ofInt_inj (a b : Int) (h : rat_t.ofInt a = rat_t.ofInt b) : a = b := by
  unfold rat_t.ofInt at h
  injection h

/-- `add_edge` on two different points of a well-formed session. -/
theorem add_edge_spec (s : flattener_t) (x y u v : Int) (is_shape_b : Bool)
    (hs : s.wf) (hne : ¬ (x = u ∧ y = v)) :
    ∃ s1 p q e ed, s.add_edge x y u v is_shape_b = .ok s1 ∧ s1.wf ∧
      p ∈ s1.vertexset ∧ s1.pos p = some (rat_t.ofInt x, rat_t.ofInt y) ∧
      q ∈ s1.vertexset ∧ s1.pos q = some (rat_t.ofInt u, rat_t.ofInt v) ∧
      s1.edge e = .ok ed ∧
      ed.from_ = (if y < v ∨ (y = v ∧ x < u) then p else q) ∧
      ed.to_ = (if y < v ∨ (y = v ∧ x < u) then q else p) ∧
      ed.wind = (s.wind_of e).add
        (if y < v ∨ (y = v ∧ x < u)
          then ⟨if is_shape_b then 0 else 1, if is_shape_b then 1 else 0⟩
          else wind_t.neg ⟨if is_shape_b then 0 else 1, if is_shape_b then 1 else 0⟩) ∧
      s1.below ed.from_ ed.to_ = some e ∧ s1.above ed.to_ ed.from_ = some e ∧
      s1.below ed.to_ ed.from_ = none ∧ s1.above ed.from_ ed.to_ = none ∧
      (∀ e', e' ≠ e → s1.edges[e']? = s.edges[e']?) ∧
      (∀ w, w ∈ s.vertexset → w ∈ s1.vertexset) ∧
      (∀ w pp, s.pos w = some pp → s1.pos w = some pp) ∧
      (∀ e0, s.below ed.from_ ed.to_ = some e0 → e0 = e) := by
  obtain ⟨p, s1, e1, wf1, pm1, pp1, b1, a1, ed1, m1, pos1⟩ :=
    find_wf s (rat_t.ofInt x) (rat_t.ofInt y) (rat_t.canonical_ofInt x)
      (rat_t.canonical_ofInt y) hs
  obtain ⟨q, s2, e2, wf2, qm2, qp2, b2, a2, ed2, m2, pos2⟩ :=
    find_wf s1 (rat_t.ofInt u) (rat_t.ofInt v) (rat_t.canonical_ofInt u)
      (rat_t.canonical_ofInt v) wf1
  have pp2 := pos2 p _ pp1
  obtain ⟨vp, hvp, hpx, hpy⟩ := (pos_eq_some s2 p _ _).1 pp2
  obtain ⟨vq, hvq, hqx, hqy⟩ := (pos_eq_some s2 q _ _).1 qp2
  have cp : vp.canonical := by
    unfold vertex_t.canonical; rw [hpx, hpy]
    exact ⟨rat_t.canonical_ofInt x, rat_t.canonical_ofInt y⟩
  have cq : vq.canonical := by
    unfold vertex_t.canonical; rw [hqx, hqy]
    exact ⟨rat_t.canonical_ofInt u, rat_t.canonical_ofInt v⟩
  have hpq : q ≠ p := by
    intro h
    rw [h, hvp] at hvq
    injection hvq with hvq
    rw [hvq] at hpx hpy
    rw [hqx] at hpx; rw [hqy] at hpy
    exact hne ⟨(ofInt_inj _ _ hpx).symm, (ofInt_inj _ _ hpy).symm⟩
  have hfwd : vp.precedes vq ↔ (y < v ∨ (y = v ∧ x < u)) :=
    precedes_ofInt vp vq x y u v hpx hpy hqx hqy
  have hwind : s2.wind_of = s.wind_of := by
    funext e; unfold wind_of; rw [ed2, ed1]
  have hbel : ∀ a b, s2.below a b = s.below a b := fun a b => by rw [b2, b1]
  have hflip := vertexsort_t_eq vq vp cq cp
  by_cases hc : vq.precedes vp
  · -- the edge was given against sweep order
    have hnf : ¬ (y < v ∨ (y = v ∧ x < u)) :=
      fun h => vertex_t.precedes_asymm _ _ hc (hfwd.2 h)
    rw [decide_eq_true hc] at hflip
    obtain ⟨e, ed, s4, g1, g2, g3, g4, g5, g6, g7, g8, g9, g10, g11, g12, g13, g14⟩ :=
      goes_to_none_spec s2 p q ⟨x, y, u, v⟩
        ⟨if is_shape_b then 0 else 1, if is_shape_b then 1 else 0⟩ vp vq true wf2 hvp hvq
        hpq hflip (by simpa using hc)
    simp only [↓reduceIte] at g4 g5 g6 g14
    refine ⟨s4, p, q, e, ed, ?_, g2, ?_, ?_, ?_, ?_, g3, ?_, ?_, ?_, g7, g8, g9, g10, ?_, ?_,
      ?_, ?_⟩
    · unfold add_edge; simp only [e1, e2, g1]
    · rw [g12]; exact m2 p pm1
    · rw [g13]; exact pp2
    · rw [g12]; exact qm2
    · rw [g13]; exact qp2
    · rw [if_neg hnf]; exact g4
    · rw [if_neg hnf]; exact g5
    · rw [if_neg hnf, g6, hwind]
    · intro e' he'; rw [g11 e' he', ed2, ed1]
    · intro w hw; rw [g12]; exact m2 w (m1 w hw)
    · intro w pp hw; rw [g13]; exact pos2 w pp (pos1 w pp hw)
    · intro e0 h0
      rw [g4, g5, ← hbel] at h0
      exact g14 e0 h0
  · have hf : y < v ∨ (y = v ∧ x < u) := by
      by_contra hcon
      have hn : ¬ vp.precedes vq := fun h => hcon (hfwd.1 h)
      obtain ⟨h1, h2⟩ := vertex_t.eq_of_not_precedes vp vq cp cq hn hc
      rw [hpx, hqx] at h1; rw [hpy, hqy] at h2
      exact hne ⟨ofInt_inj _ _ h1, ofInt_inj _ _ h2⟩
    rw [decide_eq_false hc] at hflip
    obtain ⟨e, ed, s4, g1, g2, g3, g4, g5, g6, g7, g8, g9, g10, g11, g12, g13, g14⟩ :=
      goes_to_none_spec s2 p q ⟨x, y, u, v⟩
        ⟨if is_shape_b then 0 else 1, if is_shape_b then 1 else 0⟩ vp vq false wf2 hvp hvq
        hpq hflip (by simpa using hfwd.2 hf)
    simp only [Bool.false_eq_true, ↓reduceIte] at g4 g5 g6 g14
    refine ⟨s4, p, q, e, ed, ?_, g2, ?_, ?_, ?_, ?_, g3, ?_, ?_, ?_, g7, g8, g9, g10, ?_, ?_,
      ?_, ?_⟩
    · unfold add_edge; simp only [e1, e2, g1]
    · rw [g12]; exact m2 p pm1
    · rw [g13]; exact pp2
    · rw [g12]; exact qm2
    · rw [g13]; exact qp2
    · rw [if_pos hf]; exact g4
    · rw [if_pos hf]; exact g5
    · rw [if_pos hf, g6, hwind]
    · intro e' he'; rw [g11 e' he', ed2, ed1]
    · intro w hw; rw [g12]; exact m2 w (m1 w hw)
    · intro w pp hw; rw [g13]; exact pos2 w pp (pos1 w pp hw)
    · intro e0 h0
      rw [g4, g5, ← hbel] at h0
      exact g14 e0 h0

theorem wf_new (flatten_rule_ : Int) : (flattener_t.new flatten_rule_).wf := by
  refine ⟨?_, ?_, ⟨?_, ?_⟩, ?_⟩
  · intro w hw; exact absurd hw (List.not_mem_nil w)
  · exact List.Pairwise.nil
  · intro v w e h; simp [below, new] at h
  · intro v w e h; simp [above, new] at h
  · intro v w e h; simp [below, new] at h

end flattener_t

theorem short_of_range (z : Int) (h1 : -32768 ≤ z) (h2 : z ≤ 32767) : short z = z := by
  unfold short; omega

theorem add_edge_wind_eq (is_shape_b : Bool) (fwd : Prop) [Decidable fwd] :
    (if fwd then (⟨if is_shape_b then 0 else 1, if is_shape_b then 1 else 0⟩ : wind_t)
      else wind_t.neg ⟨if is_shape_b then 0 else 1, if is_shape_b then 1 else 0⟩)
    = if fwd then (if is_shape_b then ⟨0, 1⟩ else ⟨1, 0⟩)
      else (if is_shape_b then ⟨0, -1⟩ else ⟨-1, 0⟩) := by
  by_cases h : fwd <;> cases is_shape_b <;> simp [h] <;> rfl

/-- C2: for points `P = (x, y)` and `Q = (u, v)` with `P ≠ Q`, `add_edge`
leaves exactly one edge between the two vertices, directed from the
sweep-earlier vertex (smaller `y`, then smaller `x`) to the sweep-later one.
Its winding is its winding before the call (`(0,0)` if it did not exist) plus
`c` when `P` precedes `Q` and minus `c` when `Q` precedes `P`, with `c = (1,0)`
for shape A and `(0,1)` for shape B; the sum is `wind_t::operator+` on `short`
counts, the exact integer sum whenever that fits 16 bits.  No other edge
changes.  A second identical call adds the same contribution to the same edge,
so that a new shape-A edge added twice has winding `(2,0)`, or `(-2,0)` when
given against sweep order. -/
theorem C2_add_edge_one_edge_summed (s : flattener_t) (x y u v : Int)
    (is_shape_b : Bool) (hs : s.wf) (hne : ¬ (x = u ∧ y = v)) :
    ∃ s1 p q e ed, s.add_edge x y u v is_shape_b = .ok s1 ∧ s1.wf ∧
      p ∈ s1.vertexset ∧ s1.pos p = some (rat_t.ofInt x, rat_t.ofInt y) ∧
      q ∈ s1.vertexset ∧ s1.pos q = some (rat_t.ofInt u, rat_t.ofInt v) ∧
      s1.edge e = .ok ed ∧
      ed.from_ = (if y < v ∨ (y = v ∧ x < u) then p else q) ∧
      ed.to_ = (if y < v ∨ (y = v ∧ x < u) then q else p) ∧
      s1.below ed.from_ ed.to_ = some e ∧ s1.above ed.to_ ed.from_ = some e ∧
      s1.below ed.to_ ed.from_ = none ∧ s1.above ed.from_ ed.to_ = none ∧
      ed.wind = (s.wind_of e).add
        (if y < v ∨ (y = v ∧ x < u) then (if is_shape_b then ⟨0, 1⟩ else ⟨1, 0⟩)
          else (if is_shape_b then ⟨0, -1⟩ else ⟨-1, 0⟩)) ∧
      ((-32768 < (s.wind_of e).a ∧ (s.wind_of e).a < 32767 ∧
          -32768 < (s.wind_of e).b ∧ (s.wind_of e).b < 32767) →
        ed.wind.a = (s.wind_of e).a +
          (if y < v ∨ (y = v ∧ x < u) then (if is_shape_b then 0 else 1)
            else (if is_shape_b then 0 else -1)) ∧
        ed.wind.b = (s.wind_of e).b +
          (if y < v ∨ (y = v ∧ x < u) then (if is_shape_b then 1 else 0)
            else (if is_shape_b then -1 else 0))) ∧
      (∀ e', e' ≠ e → s1.edges[e']? = s.edges[e']?) ∧
      ∃ s2 ed2, s1.add_edge x y u v is_shape_b = .ok s2 ∧ s2.edge e = .ok ed2 ∧
        ed2.from_ = ed.from_ ∧ ed2.to_ = ed.to_ ∧
        s2.below ed.from_ ed.to_ = some e ∧ s2.below ed.to_ ed.from_ = none ∧
        ed2.wind = ((s.wind_of e).add
          (if y < v ∨ (y = v ∧ x < u) then (if is_shape_b then ⟨0, 1⟩ else ⟨1, 0⟩)
            else (if is_shape_b then ⟨0, -1⟩ else ⟨-1, 0⟩))).add
          (if y < v ∨ (y = v ∧ x < u) then (if is_shape_b then ⟨0, 1⟩ else ⟨1, 0⟩)
            else (if is_shape_b then ⟨0, -1⟩ else ⟨-1, 0⟩)) ∧
        (∀ e', e' ≠ e → s2.edges[e']? = s.edges[e']?) ∧
        (s.edges[e]? = none → is_shape_b = false →
          ed2.wind = if y < v ∨ (y = v ∧ x < u) then ⟨2, 0⟩ else ⟨-2, 0⟩) := by
  obtain ⟨s1, p, q, e, ed, a1, a2, a3, a4, a5, a6, a7, a8, a9, a10, a11, a12, a13, a14, a15,
    a16, a17, a18⟩ := flattener_t.add_edge_spec s x y u v is_shape_b hs hne
  obtain ⟨s2, p2, q2, e2, ed2, b1, b2, b3, b4, b5, b6, b7, b8, b9, b10, b11, b12, b13, b14,
    b15, b16, b17, b18⟩ := flattener_t.add_edge_spec s1 x y u v is_shape_b a2 hne
  rw [add_edge_wind_eq] at a10 b10
  -- the second call meets the same two vertices and the same edge
  have hp : p2 = p := by
    obtain ⟨vp2, h1, h2, h3⟩ := (flattener_t.pos_eq_some s2 p2 _ _).1 b4
    obtain ⟨vp, h4, h5, h6⟩ := (flattener_t.pos_eq_some s2 p _ _).1 (b17 p _ a4)
    exact vertexset_t.unique s2.verts s2.vertexset b2.2.1 p2 p b3 (b16 p a3) vp2 vp h1 h4
      (h2.trans h5.symm) (h3.trans h6.symm)
  have hq : q2 = q := by
    obtain ⟨vq2, h1, h2, h3⟩ := (flattener_t.pos_eq_some s2 q2 _ _).1 b6
    obtain ⟨vq, h4, h5, h6⟩ := (flattener_t.pos_eq_some s2 q _ _).1 (b17 q _ a6)
    exact vertexset_t.unique s2.verts s2.vertexset b2.2.1 q2 q b5 (b16 q a5) vq2 vq h1 h4
      (h2.trans h5.symm) (h3.trans h6.symm)
  rw [hp, hq] at b8 b9
  have hf : ed2.from_ = ed.from_ := b8.trans a8.symm
  have ht : ed2.to_ = ed.to_ := b9.trans a9.symm
  have he : e2 = e := by
    have := b18 e (by rw [hf, ht]; exact a11)
    exact this.symm
  subst he
  have hw1 : s1.wind_of e2 = ed.wind := flattener_t.wind_of_eq s1 e2 ed a7
  refine ⟨s1, p, q, e2, ed, a1, a2, a3, a4, a5, a6, a7, a8, a9, a11, a12, a13, a14, a10, ?_,
    a15, s2, ed2, b1, b7, hf, ht, ?_, ?_, ?_, ?_, ?_⟩
  · rintro ⟨r1, r2, r3, r4⟩
    rw [a10]
    unfold wind_t.add
    by_cases h : y < v ∨ (y = v ∧ x < u) <;> cases is_shape_b <;>
      simp only [h, if_true, if_false, Bool.false_eq_true] <;>
      exact ⟨short_of_range _ (by omega) (by omega), short_of_range _ (by omega) (by omega)⟩
  · rw [← hf, ← ht]; exact b11
  · rw [← hf, ← ht]; exact b13
  · rw [b10, hw1, a10]
  · intro e' he'
    rw [b15 e' he', a15 e' he']
  · intro hnone hb
    rw [b10, hw1, a10]
    have : s.wind_of e2 = ⟨0, 0⟩ := by
      unfold flattener_t.wind_of; rw [hnone]
    rw [this, hb]
    by_cases h : y < v ∨ (y = v ∧ x < u)
    · simp only [h, if_true, Bool.false_eq_true, if_false]; rfl
    · simp only [h, if_false, Bool.false_eq_true]; rfl

/-- C2 in a fresh session for the shape-A edge `(0,0)-(3,0)` and, against
sweep order, `(3,0)-(0,0)`: added twice, the one edge has winding `(2,0)` and
`(-2,0)`. -/
theorem C2_add_edge_one_edge_summed_witness :
    ((flattener_t.new FLATTEN_A).wf ∧ ¬ ((0 : Int) = 3 ∧ (0 : Int) = 0)) ∧
    (match (flattener_t.new FLATTEN_A).add_edge 0 0 3 0 false with
      | .ok s1 => (match s1.add_edge 0 0 3 0 false with
        | .ok s2 => some (s2.edges.length, s2.wind_of 0, s2.below 0 1, s2.below 1 0)
        | .error _ => none)
      | .error _ => none) = some (1, ⟨2, 0⟩, some 0, none) ∧
    (match (flattener_t.new FLATTEN_A).add_edge 3 0 0 0 false with
      | .ok s1 => (match s1.add_edge 3 0 0 0 false with
        | .ok s2 => some (s2.edges.length, s2.wind_of 0, s2.below 1 0, s2.below 0 1)
        | .error _ => none)
      | .error _ => none) = some (1, ⟨-2, 0⟩, some 0, none) ∧
    ∃ s1 p q e ed, (flattener_t.new FLATTEN_A).add_edge 0 0 3 0 false = .ok s1 ∧ s1.wf ∧
      p ∈ s1.vertexset ∧ s1.pos p = some (rat_t.ofInt 0, rat_t.ofInt 0) ∧
      q ∈ s1.vertexset ∧ s1.pos q = some (rat_t.ofInt 3, rat_t.ofInt 0) ∧
      s1.edge e = .ok ed ∧ ed.from_ = p ∧ ed.to_ = q ∧ ed.wind = ⟨1, 0⟩ := by
  refine ⟨⟨flattener_t.wf_new _, by decide⟩, by rfl, by rfl, ?_⟩
  obtain ⟨s1, p, q, e, ed, h1, h2, h3, h4, h5, h6, h7, h8, h9, -, -, -, -, h10, -⟩ :=
    C2_add_edge_one_edge_summed (flattener_t.new FLATTEN_A) 0 0 3 0 false
      (flattener_t.wf_new _) (by decide)
  refine ⟨s1, p, q, e, ed, h1, h2, h3, h4, h5, h6, h7, by simpa using h8, by simpa using h9, ?_⟩
  have hw : (flattener_t.new FLATTEN_A).wind_of e = ⟨0, 0⟩ := by
    unfold flattener_t.wind_of flattener_t.new; simp
  rw [h10, hw]
  rfl

/-- An input edge whose two ends are one point: both calls of `find` give the
same vertex, and `goes_to` returns at once. -/
theorem flattener_t.add_edge_same (s : flattener_t) (x y : Int) (is_shape_b : Bool)
    (hs : s.wf) :
    ∃ s1, s.add_edge x y x y is_shape_b = .ok s1 ∧ s1.edges = s.edges ∧
      (∀ u w, s1.below u w = s.below u w ∧ s1.above u w = s.above u w) ∧ s1.wf := by
  obtain ⟨p, s1, e1, wf1, pm1, pp1, b1, a1, ed1, m1, pos1⟩ :=
    flattener_t.find_wf s (rat_t.ofInt x) (rat_t.ofInt y) (rat_t.canonical_ofInt x)
      (rat_t.canonical_ofInt y) hs
  obtain ⟨q, s2, e2, wf2, qm2, qp2, b2, a2, ed2, m2, pos2⟩ :=
    flattener_t.find_wf s1 (rat_t.ofInt x) (rat_t.ofInt y) (rat_t.canonical_ofInt x)
      (rat_t.canonical_ofInt y) wf1
  have hq : q = p := by
    obtain ⟨vq, h1, h2, h3⟩ := (flattener_t.pos_eq_some s2 q _ _).1 qp2
    obtain ⟨vp, h4, h5, h6⟩ := (flattener_t.pos_eq_some s2 p _ _).1 (pos2 p _ pp1)
    exact vertexset_t.unique s2.verts s2.vertexset wf2.2.1 q p qm2 (m2 p pm1) vq vp h1 h4
      (h2.trans h5.symm) (h3.trans h6.symm)
  refine ⟨s2, ?_, by rw [ed2, ed1], fun u w => ⟨by rw [b2, b1], by rw [a2, a1]⟩, wf2⟩
  unfold flattener_t.add_edge
  simp only [e1, e2]
  rw [hq]
  unfold flattener_t.goes_to
  simp

/-- C4: a zero-length input edge is a no-op on the edge graph.  For every
`(x, y)` and either shape, `add_edge(x, y, x, y, s)` creates no edge and
changes no existing edge (the arena of edges is what it was, so are all
entries of all `below` and `above` maps); `goes_to` with `q` equal to the
receiver returns null and leaves the state as it is. -/
theorem C4_zero_length_edge_noop (s : flattener_t) (x y : Int) (is_shape_b : Bool)
    (this : Nat) (raw : line_t) (wind : wind_t) (state : Option Nat) (hs : s.wf) :
    (∃ s1, s.add_edge x y x y is_shape_b = .ok s1 ∧ s1.edges = s.edges ∧
      (∀ u w, s1.below u w = s.below u w ∧ s1.above u w = s.above u w) ∧ s1.wf) ∧
    s.goes_to this this raw wind state = .ok (none, s) := by
  refine ⟨flattener_t.add_edge_same s x y is_shape_b hs, ?_⟩
  unfold flattener_t.goes_to
  simp

/-- C4 in a session that already holds the edge `(0,0)-(3,0)`: adding the
zero-length edge at `(3,0)`, or at the new point `(5,5)`, leaves the one edge
as it is. -/
theorem C4_zero_length_edge_noop_witness :
    (flattener_t.new FLATTEN_A).wf ∧
    (match (flattener_t.new FLATTEN_A).add_edge 0 0 3 0 false with
      | .ok s1 => (match s1.add_edge 3 0 3 0 true, s1.add_edge 5 5 5 5 false with
        | .ok s2, .ok s3 => some (decide (s2 = s1), decide (s3.edges = s1.edges),
            s3.verts.length)
        | _, _ => none)
      | .error _ => none) = some (true, true, 3) ∧
    (∃ s1, (flattener_t.new FLATTEN_A).add_edge 5 5 5 5 true = .ok s1 ∧
      s1.edges = (flattener_t.new FLATTEN_A).edges ∧
      (∀ u w, s1.below u w = (flattener_t.new FLATTEN_A).below u w ∧
        s1.above u w = (flattener_t.new FLATTEN_A).above u w) ∧ s1.wf) :=
  ⟨flattener_t.wf_new _, by rfl,
    (C4_zero_length_edge_noop (flattener_t.new FLATTEN_A) 5 5 true 0 ⟨0, 0, 0, 0⟩ ⟨0, 0⟩
      none (flattener_t.wf_new _)).1⟩

/-! ## The double-link invariant along the operations of the graph -/

/-- A sequence of two steps that returns: the first step returned, and the
second returned from its result. -/
theorem bind_ok {α β : Type} {step : Except fault α} {next : α → Except fault β} {out : β}
    (h : (step >>= next) = Except.ok out) :
    ∃ mid, step = Except.ok mid ∧ next mid = Except.ok out :=
  match step, h with
  | .ok mid, h => ⟨mid, rfl, h⟩
  | .error _, h => by simp [bind, Except.bind] at h

theorem pure_ok {α : Type} {a b : α} (h : (pure a : Except fault α) = .ok b) : a = b := by
  injection h

namespace flattener_t

theorem keeps_refl (s : flattener_t) : s.keeps s := fun _ h => h

theorem keeps_trans {s s1 s2 : flattener_t} (h1 : s.keeps s1) (h2 : s1.keeps s2) :
    s.keeps s2 := fun U h => h2 U (h1 U h)

theorem inv_tail {s : flattener_t} {p : Nat} {U : List Nat} (h : s.inv (p :: U)) :
    s.inv U := ⟨h.1, fun r hr => h.2 r (List.mem_cons_of_mem _ hr)⟩

/-- A step that leaves the maps and the ends of all edges as they are. -/
theorem keeps_of_graph {s s1 : flattener_t}
    (hb : ∀ u w, s1.below u w = s.below u w) (ha : ∀ u w, s1.above u w = s.above u w)
    (he : ∀ e, s1.ends e = s.ends e) (hlen : s.edges.length ≤ s1.edges.length) :
    s.keeps s1 := by
  rintro U ⟨hl, hu⟩
  refine ⟨linked_of_maps s s1 hl hb ha he, ?_⟩
  intro p hp
  obtain ⟨h1, h2⟩ := hu p hp
  refine ⟨by omega, ?_⟩
  intro u w
  rw [hb, ha]
  exact h2 u w

theorem keeps_of_arenas {s s1 : flattener_t} (hv : s1.verts = s.verts)
    (he : s1.edges = s.edges) : s.keeps s1 := by
  apply keeps_of_graph
  · intro u w; unfold below; rw [hv]
  · intro u w; unfold above; rw [hv]
  · intro e; unfold ends; rw [he]
  · rw [he]

theorem length_set_edge (s : flattener_t) (e : Nat) (x : edge_t) :
    (s.set_edge e x).edges.length = s.edges.length := by
  unfold set_edge; simp

theorem keeps_set_edge {s : flattener_t} {e : Nat} {ed : edge_t} (x : edge_t)
    (he : s.edge e = .ok ed) (hf : x.from_ = ed.from_) (hto : x.to_ = ed.to_) :
    s.keeps (s.set_edge e x) := by
  apply keeps_of_graph
  · intro u w; rfl
  · intro u w; rfl
  · intro e'
    have h1 := (ends_eq_some s e ed.from_ ed.to_).2 ⟨ed, he, rfl, rfl⟩
    rw [ends_set_edge s e x e' (lt_of_ends s e _ h1)]
    by_cases h : e' = e
    · rw [if_pos h, h, h1, hf, hto]
    · rw [if_neg h]
  · rw [length_set_edge]

theorem below_append_vertex (s : flattener_t) (x y : rat_t) (set1 : List Nat) (u w : Nat) :
    ({ s with verts := s.verts ++ [{ x := x, y := y }], vertexset := set1 } :
      flattener_t).below u w = s.below u w := by
  unfold below
  simp only []
  by_cases hu : u < s.verts.length
  · rw [List.getElem?_append_left hu]
  · by_cases hu2 : u = s.verts.length
    · rw [hu2, List.getElem?_eq_none (le_refl _)]
      simp [edgemap_t.find]
    · rw [List.getElem?_eq_none (by simp; omega), List.getElem?_eq_none (by omega)]

theorem above_append_vertex (s : flattener_t) (x y : rat_t) (set1 : List Nat) (u w : Nat) :
    ({ s with verts := s.verts ++ [{ x := x, y := y }], vertexset := set1 } :
      flattener_t).above u w = s.above u w := by
  unfold above
  simp only []
  by_cases hu : u < s.verts.length
  · rw [List.getElem?_append_left hu]
  · by_cases hu2 : u = s.verts.length
    · rw [hu2, List.getElem?_eq_none (le_refl _)]
      simp [edgemap_t.find]
    · rw [List.getElem?_eq_none (by simp; omega), List.getElem?_eq_none (by omega)]

theorem below_append_snap (s : flattener_t) (x y : rat_t) (set1 : List Nat) (u w : Nat) :
    ({ s with verts := s.verts ++ [{ x := x, y := y }], snapset := set1 } :
      flattener_t).below u w = s.below u w :=
  below_append_vertex s x y s.vertexset u w

theorem above_append_snap (s : flattener_t) (x y : rat_t) (set1 : List Nat) (u w : Nat) :
    ({ s with verts := s.verts ++ [{ x := x, y := y }], snapset := set1 } :
      flattener_t).above u w = s.above u w :=
  above_append_vertex s x y s.vertexset u w

theorem find_keeps {s s1 : flattener_t} {x y : rat_t} {r : Nat}
    (h : s.find x y = .ok (r, s1)) : s.keeps s1 := by
  unfold find at h
  split at h
  · exact absurd h (by simp)
  · split at h
    · injection h with h
      injection h with _ h
      rw [← h]
      exact keeps_of_graph (below_append_vertex s x y _) (above_append_vertex s x y _)
        (fun _ => rfl) (le_refl _)
    · injection h with h
      injection h with _ h
      rw [← h]
      exact keeps_refl s

theorem snap_keeps {s s1 : flattener_t} {x y : rat_t} {r : Nat}
    (h : s.snap x y = .ok (r, s1)) : s.keeps s1 := by
  unfold snap at h
  split at h
  · exact absurd h (by simp)
  · split at h
    · exact absurd h (by simp)
    · split at h
      · exact absurd h (by simp)
      · split at h
        · injection h with h
          injection h with _ h
          rw [← h]
          exact keeps_of_graph (below_append_snap s _ _ _) (above_append_snap s _ _ _)
            (fun _ => rfl) (le_refl _)
        · injection h with h
          injection h with _ h
          rw [← h]
          exact keeps_refl s

theorem inherit_keeps {s s1 : flattener_t} {e : Nat} {state : Option Nat} {flip : Bool}
    (h : s.inherit e state flip = .ok s1) : s.keeps s1 := by
  unfold inherit at h
  split at h
  · injection h with h; rw [← h]; exact keeps_refl s
  · split at h
    · exact absurd h (by simp)
    · exact absurd h (by simp)
    · rename_i sd ed hsd hed
      injection h with h
      rw [← h]
      exact keeps_set_edge _ hed rfl rfl

/-- `goes_to` keeps the double-link invariant, whatever its arguments. -/
theorem goes_to_keeps {s s1 : flattener_t} {this q : Nat} {raw : line_t} {wind : wind_t}
    {state : Option Nat} {r : Option Nat}
    (h : s.goes_to this q raw wind state = .ok (r, s1)) : s.keeps s1 := by
  by_cases hne : q = this
  · unfold goes_to at h
    rw [if_pos hne] at h
    injection h with h
    injection h with _ h
    rw [← h]; exact keeps_refl s
  · intro U hU
    cases hq : s.verts[q]? with
    | none =>
      unfold goes_to at h
      rw [if_neg hne] at h
      have : s.vertex q = .error .dangling := by unfold vertex; rw [hq]
      simp only [this] at h
      exact absurd h (by simp)
    | some vq =>
      cases ht : s.verts[this]? with
      | none =>
        unfold goes_to at h
        rw [if_neg hne] at h
        have h1 : s.vertex this = .error .dangling := by unfold vertex; rw [ht]
        have h2 : s.vertex q = .ok vq := (vertex_eq_ok s q vq).2 hq
        simp only [h1, h2] at h
        exact absurd h (by simp)
      | some vthis =>
        cases hflip : vertexsort_t vq vthis with
        | error x =>
          unfold goes_to at h
          rw [if_neg hne] at h
          have h1 : s.vertex this = .ok vthis := (vertex_eq_ok s this vthis).2 ht
          have h2 : s.vertex q = .ok vq := (vertex_eq_ok s q vq).2 hq
          simp only [h1, h2, hflip] at h
          exact absurd h (by simp)
        | ok flip =>
          obtain ⟨e, s3, ed, l3, b3, fb, fa, fe, hcase, hpos, hrest, hed, hw, hf, hto, hgo⟩ :=
            goes_to_eq s this q raw wind state vthis vq flip hU.1 ht hq hne hflip
          rw [hgo] at h
          have hU3 : s3.inv U := by
            refine ⟨l3, ?_⟩
            intro p hp
            obtain ⟨p1, p2⟩ := hU.2 p hp
            rcases hcase with ⟨_, rfl⟩ | ⟨hnone, he, _, hedges⟩
            · exact ⟨p1, p2⟩
            · refine ⟨by rw [hedges]; simp; omega, ?_⟩
              intro u w
              constructor
              · by_cases hc : u = (if flip then q else this) ∧ w = (if flip then this else q)
                · rw [hc.1, hc.2, b3]
                  intro hcon
                  injection hcon with hcon
                  omega
                · rw [fb u w hc]; exact (p2 u w).1
              · intro hcon
                have hm := (l3.2 u w p hcon).2
                by_cases hc : w = (if flip then q else this) ∧ u = (if flip then this else q)
                · rw [hc.1, hc.2, b3] at hm
                  injection hm with hm
                  omega
                · rw [fb w u hc] at hm
                  exact (p2 w u).1 hm
          have k1 : s3.keeps (s3.set_edge e
              { ed with wind := ed.wind.add (if flip then wind.neg else wind) }) :=
            keeps_set_edge _ hed rfl rfl
          cases hin : (s3.set_edge e
              { ed with wind := ed.wind.add (if flip then wind.neg else wind) }).inherit
              e state flip with
          | error x => rw [hin] at h; exact absurd h (by simp)
          | ok s5 =>
            rw [hin] at h
            injection h with h
            injection h with _ h
            rw [← h]
            exact inherit_keeps hin U (k1 U hU3)

end flattener_t

namespace flattener_t

/-- The two erasures of `unlink`. -/
theorem unlink_maps {s s1 : flattener_t} {p : Nat} {ed : edge_t}
    (he : s.edge p = .ok ed) (h : s.unlink p = .ok s1) :
    (∀ u w, s1.below u w = if u = ed.from_ ∧ w = ed.to_ then none else s.below u w) ∧
    (∀ u w, s1.above u w = if u = ed.to_ ∧ w = ed.from_ then none else s.above u w) ∧
    s1.edges = s.edges := by
  unfold unlink at h
  simp only [he] at h
  cases hf : s.verts[ed.from_]? with
  | none =>
    have : s.vertex ed.from_ = .error .dangling := by unfold vertex; rw [hf]
    simp only [this] at h
    exact absurd h (by simp)
  | some vf =>
    have hvf : s.vertex ed.from_ = .ok vf := (vertex_eq_ok s _ vf).2 hf
    simp only [hvf] at h
    have hlf : ed.from_ < s.verts.length := lt_of_vertex s _ vf hf
    cases ht : (s.set_vertex ed.from_ { vf with below := vf.below.erase ed.to_ }).verts[ed.to_]? with
    | none =>
      have : (s.set_vertex ed.from_ { vf with below := vf.below.erase ed.to_ }).vertex ed.to_
          = .error .dangling := by unfold vertex; rw [ht]
      simp only [this] at h
      exact absurd h (by simp)
    | some vt =>
      have hvt : (s.set_vertex ed.from_ { vf with below := vf.below.erase ed.to_ }).vertex ed.to_
          = .ok vt := (vertex_eq_ok _ _ vt).2 ht
      simp only [hvt] at h
      injection h with h
      have hlt : ed.to_ <
          (s.set_vertex ed.from_ { vf with below := vf.below.erase ed.to_ }).verts.length :=
        lt_of_vertex _ _ vt ht
      -- the maps of the vertex `to` after the first store
      have hvt_below : ∀ w, vt.below.find w
          = if ed.to_ = ed.from_ then (vf.below.erase ed.to_).find w else s.below ed.to_ w := by
        intro w
        have := below_eq_find _ ed.to_ vt w ht
        rw [below_set_vertex s _ _ _ _ hlf] at this
        exact this.symm
      have hvt_above : ∀ w, vt.above.find w = s.above ed.to_ w := by
        intro w
        have := above_eq_find _ ed.to_ vt w ht
        rw [above_set_vertex s _ _ _ _ hlf] at this
        rw [← this]
        by_cases hc : ed.to_ = ed.from_
        · rw [if_pos hc, hc]
          exact (above_eq_find s ed.from_ vf w hf).symm
        · rw [if_neg hc]
      refine ⟨?_, ?_, by rw [← h]; rfl⟩
      · intro u w
        rw [← h, below_set_vertex _ _ _ _ _ hlt]
        by_cases hu : u = ed.to_
        · rw [if_pos hu]
          show vt.below.find w = _
          rw [hvt_below]
          by_cases hc : ed.to_ = ed.from_
          · rw [if_pos hc, edgemap_t.find_erase, hu, hc]
            by_cases hw : w = ed.from_
            · simp [hw]
            · simp [hw]
              exact (below_eq_find s ed.from_ vf w hf).symm
          · rw [if_neg hc, hu]
            have : ¬ (ed.to_ = ed.from_ ∧ w = ed.to_) := fun c => hc c.1
            rw [if_neg this]
        · rw [if_neg hu, below_set_vertex s _ _ _ _ hlf]
          by_cases hu2 : u = ed.from_
          · rw [if_pos hu2]
            show (vf.below.erase ed.to_).find w = _
            rw [edgemap_t.find_erase, hu2]
            by_cases hw : w = ed.to_
            · simp [hw]
            · simp [hw]
              exact (below_eq_find s ed.from_ vf w hf).symm
          · rw [if_neg hu2]
            have : ¬ (u = ed.from_ ∧ w = ed.to_) := fun c => hu2 c.1
            rw [if_neg this]
      · intro u w
        rw [← h, above_set_vertex _ _ _ _ _ hlt]
        by_cases hu : u = ed.to_
        · rw [if_pos hu]
          show (vt.above.erase ed.from_).find w = _
          rw [edgemap_t.find_erase, hvt_above, hu]
          by_cases hw : w = ed.from_
          · simp [hw]
          · simp [hw]
        · rw [if_neg hu, above_set_vertex s _ _ _ _ hlf]
          have : ¬ (u = ed.to_ ∧ w = ed.from_) := fun c => hu c.1
          rw [if_neg this]
          by_cases hu2 : u = ed.from_
          · rw [if_pos hu2, hu2]
            exact (above_eq_find s ed.from_ vf w hf).symm
          · rw [if_neg hu2]

/-- `unlink` keeps the double-link invariant and leaves the edge without a
reference. -/
theorem unlink_inv {s s1 : flattener_t} {p : Nat} {U : List Nat} (hU : s.inv U)
    (h : s.unlink p = .ok s1) : s1.inv (p :: U) := by
  cases he : s.edge p with
  | error x =>
    unfold unlink at h
    simp only [he] at h
    exact absurd h (by simp)
  | ok ed =>
    obtain ⟨hb, ha, hedges⟩ := unlink_maps he h
    have hends : ∀ e, s1.ends e = s.ends e := fun e => ends_of_edges s s1 hedges e
    have hp : s.ends p = some (ed.from_, ed.to_) :=
      (ends_eq_some s p _ _).2 ⟨ed, he, rfl, rfl⟩
    have hl1 : s1.linked := by
      refine ⟨?_, ?_⟩
      · intro u w e hh
        rw [hb] at hh
        by_cases hc : u = ed.from_ ∧ w = ed.to_
        · rw [if_pos hc] at hh; exact absurd hh (by simp)
        · rw [if_neg hc] at hh
          have hc' : ¬ (w = ed.to_ ∧ u = ed.from_) := fun c => hc ⟨c.2, c.1⟩
          rw [ha, if_neg hc', hends]
          exact hU.1.1 u w e hh
      · intro u w e hh
        rw [ha] at hh
        by_cases hc : u = ed.to_ ∧ w = ed.from_
        · rw [if_pos hc] at hh; exact absurd hh (by simp)
        · rw [if_neg hc] at hh
          have hc' : ¬ (w = ed.from_ ∧ u = ed.to_) := fun c => hc ⟨c.2, c.1⟩
          rw [hb, if_neg hc', hends]
          exact hU.1.2 u w e hh
    refine ⟨hl1, ?_⟩
    intro r hr
    rcases List.mem_cons.1 hr with hr1 | hr1
    · rw [hr1]
      refine ⟨by rw [hedges]; exact lt_of_ends s p _ hp, ?_⟩
      have hbp : ∀ u w, s1.below u w ≠ some p := by
        intro u w hh
        have h1 := (hl1.1 u w p hh).1
        rw [hends, hp] at h1
        injection h1 with h1
        injection h1 with h1 h2
        rw [hb, if_pos ⟨h1.symm, h2.symm⟩] at hh
        exact absurd hh (by simp)
      intro u w
      refine ⟨hbp u w, ?_⟩
      intro hh
      exact hbp w u (hl1.2 u w p hh).2
    · obtain ⟨r1, r2⟩ := hU.2 r hr1
      refine ⟨by rw [hedges]; exact r1, ?_⟩
      intro u w
      constructor
      · rw [hb]
        by_cases hc : u = ed.from_ ∧ w = ed.to_
        · rw [if_pos hc]; simp
        · rw [if_neg hc]; exact (r2 u w).1
      · rw [ha]
        by_cases hc : u = ed.to_ ∧ w = ed.from_
        · rw [if_pos hc]; simp
        · rw [if_neg hc]; exact (r2 u w).2

theorem unlink_keeps {s s1 : flattener_t} {p : Nat} (h : s.unlink p = .ok s1) :
    s.keeps s1 := fun _ hU => inv_tail (unlink_inv hU h)

/-- Deleting an edge that no map refers to keeps the invariant. -/
theorem delete_inv {s : flattener_t} {p : Nat} {U : List Nat} (hU : s.inv U)
    (hp : p ∈ U) : (s.delete_edge p).inv U := by
  obtain ⟨p1, p2⟩ := hU.2 p hp
  have hends : ∀ e, e ≠ p → (s.delete_edge p).ends e = s.ends e := by
    intro e he
    rw [ends_delete_edge s p e p1, if_neg he]
  refine ⟨⟨?_, ?_⟩, ?_⟩
  · intro u w e hh
    have hne : e ≠ p := fun c => (p2 u w).1 (c ▸ hh)
    rw [hends e hne]
    exact hU.1.1 u w e hh
  · intro u w e hh
    have hne : e ≠ p := fun c => (p2 u w).2 (c ▸ hh)
    rw [hends e hne]
    exact hU.1.2 u w e hh
  · intro r hr
    obtain ⟨r1, r2⟩ := hU.2 r hr
    exact ⟨by unfold delete_edge; simpa using r1, r2⟩

/-- `remove` keeps the double-link invariant. -/
theorem remove_keeps {s s1 : flattener_t} {p : Nat} (h : s.remove p = .ok s1) :
    s.keeps s1 := by
  intro U hU
  unfold remove at h
  split at h
  · exact absurd h (by simp)
  · rename_i s2 hs2
    split at h
    · exact absurd h (by simp)
    · split at h
      · exact absurd h (by simp)
      · split at h
        · exact absurd h (by simp)
        · injection h with h
          rw [← h]
          exact inv_tail (delete_inv (unlink_inv hU hs2) (List.mem_cons_self _ _))

end flattener_t

/-! ## The double-link invariant along the sweep -/

namespace flattener_t

/-- A store to an edge that changes anything but its two ends. -/
theorem keeps_update {s : flattener_t} {e : Nat} {ed : edge_t} (he : s.edge e = .ok ed)
    (raw1 : line_t) (wind1 cw1 : wind_t) (flags1 : flags_t)
    (pins1 : Option (List pin_t)) (pos1 : Option Nat) :
    s.keeps (s.set_edge e ⟨raw1, ed.from_, ed.to_, wind1, cw1, flags1, pins1, pos1⟩) :=
  keeps_set_edge _ he rfl rfl

theorem keeps_set_todo (s : flattener_t) (t : List Nat) : s.keeps (s.set_todo t) :=
  keeps_of_arenas rfl rfl

theorem keeps_set_ael (s : flattener_t) (l : List Nat) : s.keeps (s.set_ael l) :=
  keeps_of_arenas rfl rfl

theorem keeps_set_dot (s : flattener_t) (d : Option Nat) : s.keeps (s.set_dot d) :=
  keeps_of_arenas rfl rfl

theorem keeps_set_snaplist (s : flattener_t) (l : List Nat) : s.keeps (s.set_snaplist l) :=
  keeps_of_arenas rfl rfl

theorem push_keeps {s s1 : flattener_t} {e : Option Nat} (h : s.push e = .ok s1) :
    s.keeps s1 := by
  unfold push at h
  cases e with
  | none => exact absurd h (by simp [throw, throwThe, MonadExceptOf.throw])
  | some e =>
    simp only [] at h
    obtain ⟨ed, hed, h⟩ := bind_ok h
    obtain ⟨dot, hdot, h⟩ := bind_ok h
    obtain ⟨vdot, hvdot, h⟩ := bind_ok h
    obtain ⟨vto, hvto, h⟩ := bind_ok h
    split at h
    · rw [← pure_ok h]; exact keeps_refl s
    · obtain ⟨c1, -, h⟩ := bind_ok h
      split at h
      · rw [← pure_ok h]; exact keeps_refl s
      · obtain ⟨-, -, h⟩ := bind_ok h
        split at h
        · rw [← pure_ok h]; exact keeps_refl s
        · obtain ⟨vfrom, -, h⟩ := bind_ok h
          obtain ⟨c2, -, h⟩ := bind_ok h
          split at h
          · obtain ⟨-, -, h⟩ := bind_ok h
            rw [← pure_ok h]; exact keeps_refl s
          · rw [← pure_ok h]
            exact keeps_trans (keeps_update hed _ _ _ _ _ _) (keeps_set_todo _ _)

theorem split_keeps {s s1 : flattener_t} {p v : Nat} (h : s.split p v = .ok s1) :
    s.keeps s1 := by
  unfold split at h
  obtain ⟨pe, hpe, h⟩ := bind_ok h
  obtain ⟨-, -, h⟩ := bind_ok h
  obtain ⟨-, -, h⟩ := bind_ok h
  split at h
  · obtain ⟨⟨r, t⟩, hg, h⟩ := bind_ok h
    exact keeps_trans (goes_to_keeps hg) (push_keeps h)
  · obtain ⟨dot, -, h⟩ := bind_ok h
    obtain ⟨vdot, -, h⟩ := bind_ok h
    obtain ⟨vv, -, h⟩ := bind_ok h
    obtain ⟨vfrom, -, h⟩ := bind_ok h
    obtain ⟨vto, -, h⟩ := bind_ok h
    obtain ⟨-, -, h⟩ := bind_ok h
    obtain ⟨c1, -, h⟩ := bind_ok h
    obtain ⟨-, -, h⟩ := bind_ok h
    obtain ⟨c2, -, h⟩ := bind_ok h
    obtain ⟨-, -, h⟩ := bind_ok h
    obtain ⟨⟨r1, t1⟩, hg1, h⟩ := bind_ok h
    obtain ⟨t2, hp1, h⟩ := bind_ok h
    obtain ⟨pe2, -, h⟩ := bind_ok h
    obtain ⟨⟨r2, t3⟩, hg2, h⟩ := bind_ok h
    exact keeps_trans (keeps_trans (keeps_trans (goes_to_keeps hg1) (push_keeps hp1))
      (goes_to_keeps hg2)) (push_keeps h)

theorem intersect_edges_keeps {s s1 : flattener_t} {p q : Nat}
    (h : s.intersect_edges p q = .ok s1) : s.keeps s1 := by
  unfold intersect_edges at h
  obtain ⟨pe, -, h⟩ := bind_ok h
  obtain ⟨qe, -, h⟩ := bind_ok h
  obtain ⟨⟨x, y⟩, -, h⟩ := bind_ok h
  obtain ⟨⟨v, t1⟩, hf, h⟩ := bind_ok h
  obtain ⟨t2, hs1, h⟩ := bind_ok h
  exact keeps_trans (keeps_trans (find_keeps hf) (split_keeps hs1)) (split_keeps h)

/-- The start of the handler takes an edge out of the graph: afterwards no map
refers to it. -/
theorem retire_inv {s s1 : flattener_t} {p : Nat} {U : List Nat} (hU : s.inv U)
    (h : s.retire p = .ok s1) : s1.inv (p :: U) := by
  unfold retire at h
  obtain ⟨pe, hpe, h⟩ := bind_ok h
  obtain ⟨t1, h1, h⟩ := bind_ok h
  obtain ⟨t2, h2, h⟩ := bind_ok h
  obtain ⟨pe2, hpe2, h⟩ := bind_ok h
  have k1 : s.keeps t1 := by
    split at h1
    · obtain ⟨pos, -, h1⟩ := bind_ok h1
      rw [← pure_ok h1]
      exact keeps_trans (keeps_set_ael s _) (keeps_update (s := s.set_ael _) hpe _ _ _ _ _ _)
    · rw [← pure_ok h1]; exact keeps_refl s
  rw [← pure_ok h]
  exact keeps_update hpe2 _ _ _ _ _ _ _ (unlink_inv (k1 U hU) h2)

theorem collide_keeps {s s1 : flattener_t} {e p q : Nat} {v : Option Nat} {f : flavour}
    (h : s.collide e p q v f = .ok s1) : s.keeps s1 := by
  intro U hU
  unfold collide at h
  obtain ⟨ed, -, h⟩ := bind_ok h
  obtain ⟨-, -, h⟩ := bind_ok h
  obtain ⟨-, -, h⟩ := bind_ok h
  obtain ⟨-, -, h⟩ := bind_ok h
  obtain ⟨t1, h1, h⟩ := bind_ok h
  obtain ⟨t2, h2, h⟩ := bind_ok h
  obtain ⟨t3, h3, h⟩ := bind_ok h
  obtain ⟨pe, -, h⟩ := bind_ok h
  obtain ⟨-, -, h⟩ := bind_ok h
  have i2 : t2.inv (q :: p :: U) := retire_inv (retire_inv hU h1) h2
  have i3 : t3.inv (q :: p :: U) := by
    cases f with
    | intersect =>
      simp only [] at h3
      obtain ⟨t, ht, h3⟩ := bind_ok h3
      obtain ⟨qe, -, h3⟩ := bind_ok h3
      obtain ⟨-, -, h3⟩ := bind_ok h3
      rw [← pure_ok h3]
      exact delete_inv (intersect_edges_keeps ht _ i2) (List.mem_cons_self _ _)
    | split =>
      simp only [] at h3
      obtain ⟨w, -, h3⟩ := bind_ok h3
      obtain ⟨t, ht, h3⟩ := bind_ok h3
      exact split_keeps h3 _ (split_keeps ht _ i2)
  rw [← pure_ok h]
  exact inv_tail (inv_tail (delete_inv i3 (List.mem_cons_of_mem _ (List.mem_cons_self _ _))))

/-- `insert` keeps the double-link invariant, whatever the container does. -/
theorem insert_keeps {ins : ael_insert_t} {s s1 : flattener_t} {e : Nat}
    (h : s.insert ins e = .ok s1) : s.keeps s1 := by
  unfold insert at h
  obtain ⟨ed, hed, h⟩ := bind_ok h
  split at h
  · rw [← pure_ok h]; exact keeps_refl s
  · split at h
    · rw [← pure_ok h]
      exact keeps_trans (keeps_set_ael s _) (keeps_update (s := s.set_ael _) hed _ _ _ _ _ _)
    · exact collide_keeps h
    · exact absurd h (by simp)

end flattener_t

namespace flattener_t

theorem sweep_above_keeps {s s1 : flattener_t} {next next1 : Option Nat}
    {l : List (Nat × Nat)} (h : s.sweep_above next l = .ok (next1, s1)) : s.keeps s1 := by
  induction l generalizing s next with
  | nil =>
    unfold sweep_above at h
    have := pure_ok h
    injection this with _ h2
    rw [← h2]; exact keeps_refl s
  | cons a rest ih =>
    obtain ⟨w, e⟩ := a
    unfold sweep_above at h
    obtain ⟨ed, hed, h⟩ := bind_ok h
    split at h
    · obtain ⟨pos, -, h⟩ := bind_ok h
      obtain ⟨n1, -, h⟩ := bind_ok h
      have k : s.keeps ((s.set_ael (s.ael.erase pos)).set_edge e
          { ed with flags := { ed.flags with active := false } }) :=
        keeps_trans (keeps_set_ael s _) (keeps_update (s := s.set_ael _) hed _ _ _ _ _ _)
      exact keeps_trans k (ih h)
    · exact ih h

theorem todo_push_back_keeps {s s1 : flattener_t} {e : Nat}
    (h : s.todo_push_back e = .ok s1) : s.keeps s1 := by
  unfold todo_push_back at h
  obtain ⟨ed, hed, h⟩ := bind_ok h
  split at h
  · rw [← pure_ok h]
    exact keeps_trans (keeps_update hed _ _ _ _ _ _) (keeps_set_todo _ _)
  · rw [← pure_ok h]; exact keeps_refl s

theorem sweep_next_keeps {s s1 : flattener_t} {next : Option Nat}
    (h : s.sweep_next next = .ok s1) : s.keeps s1 := by
  unfold sweep_next at h
  cases next with
  | none => rw [← pure_ok h]; exact keeps_refl s
  | some e =>
    simp only [] at h
    obtain ⟨ed, hed, h⟩ := bind_ok h
    obtain ⟨-, -, h⟩ := bind_ok h
    have k : s.keeps ((s.set_ael (s.ael.erase e)).set_edge e
        { ed with flags := { ed.flags with active := false } }) :=
      keeps_trans (keeps_set_ael s _) (keeps_update (s := s.set_ael _) hed _ _ _ _ _ _)
    exact keeps_trans k (todo_push_back_keeps h)

theorem sweep_below_keeps {s s1 : flattener_t} {l : List (Nat × Nat)}
    (h : s.sweep_below l = .ok s1) : s.keeps s1 := by
  induction l generalizing s with
  | nil =>
    unfold sweep_below at h
    rw [← pure_ok h]; exact keeps_refl s
  | cons a rest ih =>
    obtain ⟨w, e⟩ := a
    unfold sweep_below at h
    obtain ⟨ed, hed, h⟩ := bind_ok h
    obtain ⟨-, -, h⟩ := bind_ok h
    obtain ⟨t, ht, h⟩ := bind_ok h
    exact keeps_trans (todo_push_back_keeps ht) (ih h)

theorem sweep_todo_keeps {ins : ael_insert_t} {fuel : Nat} {s s1 : flattener_t}
    (h : sweep_todo ins fuel s = .ok s1) : s.keeps s1 := by
  induction fuel generalizing s with
  | zero =>
    unfold sweep_todo at h
    exact absurd h (by simp)
  | succ n ih =>
    unfold sweep_todo at h
    split at h
    · rw [← pure_ok h]; exact keeps_refl s
    · rename_i e rest hrest
      obtain ⟨ed, hed, h⟩ := bind_ok h
      obtain ⟨-, -, h⟩ := bind_ok h
      have k1 : s.keeps ((s.set_todo rest).set_edge e
          { ed with flags := { ed.flags with todo := false } }) :=
        keeps_trans (keeps_set_todo s _) (keeps_update (s := s.set_todo _) hed _ _ _ _ _ _)
      split at h
      · exact keeps_trans k1 (ih h)
      · obtain ⟨t, ht, h⟩ := bind_ok h
        exact keeps_trans (keeps_trans k1 (insert_keeps ht)) (ih h)

/-- `sweep` keeps the double-link invariant. -/
theorem sweep_keeps {ins : ael_insert_t} {fuel : Nat} {s s1 : flattener_t}
    (h : s.sweep ins fuel = .ok s1) : s.keeps s1 := by
  unfold sweep at h
  obtain ⟨-, -, h⟩ := bind_ok h
  obtain ⟨dot, -, h⟩ := bind_ok h
  obtain ⟨vdot, -, h⟩ := bind_ok h
  obtain ⟨⟨next, t1⟩, h1, h⟩ := bind_ok h
  obtain ⟨t2, h2, h⟩ := bind_ok h
  obtain ⟨vdot2, -, h⟩ := bind_ok h
  obtain ⟨t3, h3, h⟩ := bind_ok h
  exact keeps_trans (keeps_trans (keeps_trans (sweep_above_keeps h1) (sweep_next_keeps h2))
    (sweep_below_keeps h3)) (sweep_todo_keeps h)

theorem walklist_loop_keeps {rule : Int} {s s1 : flattener_t} {w w1 : wind_t}
    {l : List Nat} (h : walklist_loop rule s w l = .ok (w1, s1)) : s.keeps s1 := by
  induction l generalizing s w with
  | nil =>
    unfold walklist_loop at h
    have := pure_ok h
    injection this with _ h2
    rw [← h2]; exact keeps_refl s
  | cons e rest ih =>
    unfold walklist_loop at h
    obtain ⟨ed, hed, h⟩ := bind_ok h
    obtain ⟨-, -, h⟩ := bind_ok h
    split at h
    · obtain ⟨-, -, h⟩ := bind_ok h
      obtain ⟨-, -, h⟩ := bind_ok h
      exact ih h
    · obtain ⟨fl, -, h⟩ := bind_ok h
      exact keeps_trans (keeps_update hed _ _ _ _ _ _) (ih h)

/-- `walklist` keeps the double-link invariant. -/
theorem walklist_keeps {s s1 : flattener_t} (h : s.walklist = .ok s1) : s.keeps s1 := by
  unfold walklist at h
  obtain ⟨-, -, h⟩ := bind_ok h
  obtain ⟨⟨w, t⟩, h1, h⟩ := bind_ok h
  obtain ⟨-, -, h⟩ := bind_ok h
  rw [← pure_ok h]
  exact walklist_loop_keeps h1

theorem cull_loop_keeps {s s1 : flattener_t} {l : List (Nat × Nat)}
    (h : s.cull_loop l = .ok s1) : s.keeps s1 := by
  induction l generalizing s with
  | nil =>
    unfold cull_loop at h
    rw [← pure_ok h]; exact keeps_refl s
  | cons a rest ih =>
    obtain ⟨w, e⟩ := a
    unfold cull_loop at h
    obtain ⟨ed, hed, h⟩ := bind_ok h
    split at h
    · obtain ⟨t, ht, h⟩ := bind_ok h
      exact keeps_trans (remove_keeps ht) (ih h)
    · exact ih h

/-- `cull` keeps the double-link invariant. -/
theorem cull_keeps {s s1 : flattener_t} {v : Nat} (h : s.cull v = .ok s1) : s.keeps s1 := by
  unfold cull at h
  obtain ⟨vv, -, h⟩ := bind_ok h
  exact cull_loop_keeps h

/-- `fold` keeps the double-link invariant. -/
theorem fold_keeps {s s1 : flattener_t} {v : Nat} (h : s.fold v = .ok s1) : s.keeps s1 := by
  unfold fold at h
  obtain ⟨vv, -, h⟩ := bind_ok h
  split at h
  · obtain ⟨ae, -, h⟩ := bind_ok h
    obtain ⟨be, -, h⟩ := bind_ok h
    split at h
    · obtain ⟨⟨r, t1⟩, h1, h⟩ := bind_ok h
      obtain ⟨t2, h2, h⟩ := bind_ok h
      exact keeps_trans (keeps_trans (goes_to_keeps h1) (remove_keeps h2)) (remove_keeps h)
    · rw [← pure_ok h]; exact keeps_refl s
  · rw [← pure_ok h]; exact keeps_refl s

theorem for_each_keeps {f : flattener_t → Nat → Except fault flattener_t}
    (hf : ∀ s s1 v, f s v = .ok s1 → s.keeps s1) {s s1 : flattener_t} {l : List Nat}
    (h : for_each f s l = .ok s1) : s.keeps s1 := by
  induction l generalizing s with
  | nil =>
    unfold for_each at h
    rw [← pure_ok h]; exact keeps_refl s
  | cons v rest ih =>
    unfold for_each at h
    obtain ⟨t, ht, h⟩ := bind_ok h
    exact keeps_trans (hf _ _ _ ht) (ih h)

theorem intersect_loop_keeps {ins : ael_insert_t} {fuel n : Nat} {cur : Option Nat}
    {s s1 : flattener_t} (h : intersect_loop ins fuel n cur s = .ok s1) : s.keeps s1 := by
  induction n generalizing s cur with
  | zero =>
    unfold intersect_loop at h
    exact absurd h (by simp)
  | succ n ih =>
    cases cur with
    | none =>
      unfold intersect_loop at h
      rw [← pure_ok h]; exact keeps_refl s
    | some d =>
      unfold intersect_loop at h
      obtain ⟨t1, h1, h⟩ := bind_ok h
      obtain ⟨t2, h2, h⟩ := bind_ok h
      exact keeps_trans (keeps_trans (keeps_trans (keeps_set_dot s _) (sweep_keeps h1))
        (walklist_keeps h2)) (ih h)

/-- `flattener_t::intersect()` keeps the double-link invariant. -/
theorem intersect_keeps {ins : ael_insert_t} {fuel : Nat} {s s1 : flattener_t}
    (h : s.intersect ins fuel = .ok s1) : s.keeps s1 := by
  unfold intersect at h
  obtain ⟨-, -, h⟩ := bind_ok h
  obtain ⟨t1, h1, h⟩ := bind_ok h
  obtain ⟨t2, h2, h⟩ := bind_ok h
  exact keeps_trans (keeps_trans (intersect_loop_keeps h1)
    (for_each_keeps (fun _ _ _ => cull_keeps) h2)) (for_each_keeps (fun _ _ _ => fold_keeps) h)

end flattener_t

/-! ## The double-link invariant along snap rounding -/

namespace flattener_t

theorem add_pin_keeps {s s1 : flattener_t} {e p : Nat} {above : Bool}
    (h : s.add_pin e p above = .ok s1) : s.keeps s1 := by
  unfold add_pin at h
  obtain ⟨vp, -, h⟩ := bind_ok h
  obtain ⟨-, -, h⟩ := bind_ok h
  obtain ⟨ed, hed, h⟩ := bind_ok h
  obtain ⟨vfrom, -, h⟩ := bind_ok h
  obtain ⟨pins1, -, h⟩ := bind_ok h
  rw [← pure_ok h]
  exact keeps_update hed _ _ _ _ _ _

theorem hittest_loop_keeps {s s1 : flattener_t} {v : Nat} {l : List Nat}
    (h : s.hittest_loop v l = .ok s1) : s.keeps s1 := by
  induction l generalizing s with
  | nil =>
    unfold hittest_loop at h
    rw [← pure_ok h]; exact keeps_refl s
  | cons p rest ih =>
    unfold hittest_loop at h
    obtain ⟨vv, -, h⟩ := bind_ok h
    obtain ⟨pe, -, h⟩ := bind_ok h
    obtain ⟨pf, -, h⟩ := bind_ok h
    obtain ⟨pt, -, h⟩ := bind_ok h
    obtain ⟨r1, -, h⟩ := bind_ok h
    obtain ⟨r2, -, h⟩ := bind_ok h
    obtain ⟨ov, -, h⟩ := bind_ok h
    split at h
    · exact ih h
    · dsimp only at h
      split at h
      · obtain ⟨⟨w, t1⟩, h1, h⟩ := bind_ok h
        obtain ⟨t2, h2, h⟩ := bind_ok h
        exact keeps_trans (keeps_trans (find_keeps h1) (add_pin_keeps h2)) (ih h)
      · exact ih h

theorem hittest_keeps {s s1 : flattener_t} {v : Nat} (h : s.hittest v = .ok s1) :
    s.keeps s1 := hittest_loop_keeps h

theorem route_keeps {this n : Nat} {pin_a pin_b : pin_t} {pinlist : List pin_t}
    {s s1 : flattener_t} (h : route this n pin_a pin_b pinlist s = .ok s1) : s.keeps s1 := by
  induction n generalizing s pin_a pin_b pinlist with
  | zero =>
    unfold route at h
    rw [← pure_ok h]; exact keeps_refl s
  | succ n ih =>
    unfold route at h
    split at h
    · obtain ⟨te, -, h⟩ := bind_ok h
      obtain ⟨b, -, h⟩ := bind_ok h
      obtain ⟨a, -, h⟩ := bind_ok h
      obtain ⟨⟨e, t1⟩, h1, h⟩ := bind_ok h
      obtain ⟨e1, -, h⟩ := bind_ok h
      obtain ⟨ed, -, h⟩ := bind_ok h
      obtain ⟨t2, h2, h⟩ := bind_ok h
      have k2 : t1.keeps t2 := by
        split at h2
        · exact remove_keeps h2
        · rw [← pure_ok h2]; exact keeps_refl t1
      have k : s.keeps t2 := keeps_trans (goes_to_keeps h1) k2
      split at h
      · exact keeps_trans k (ih h)
      · exact keeps_trans k (ih h)
    · rw [← pure_ok h]; exact keeps_refl s

theorem snap_to_pins_keeps {s s1 : flattener_t} {this : Nat}
    (h : s.snap_to_pins this = .ok s1) : s.keeps s1 := by
  unfold snap_to_pins at h
  obtain ⟨te, -, h⟩ := bind_ok h
  obtain ⟨pins, -, h⟩ := bind_ok h
  obtain ⟨⟨pincount, pin_a, pin_b, pinlist⟩, -, h⟩ := bind_ok h
  exact route_keeps h

theorem extract_loop_keeps {s s1 : flattener_t} {l : List (Nat × Nat)}
    (h : s.extract_loop l = .ok s1) : s.keeps s1 := by
  induction l generalizing s with
  | nil =>
    unfold extract_loop at h
    rw [← pure_ok h]; exact keeps_refl s
  | cons a rest ih =>
    obtain ⟨w, e⟩ := a
    unfold extract_loop at h
    obtain ⟨ed, hed, h⟩ := bind_ok h
    obtain ⟨-, -, h⟩ := bind_ok h
    obtain ⟨vf, -, h⟩ := bind_ok h
    obtain ⟨⟨p, t2⟩, h2, h⟩ := bind_ok h
    obtain ⟨vt, -, h⟩ := bind_ok h
    obtain ⟨⟨q, t3⟩, h3, h⟩ := bind_ok h
    obtain ⟨vf3, -, h⟩ := bind_ok h
    obtain ⟨vt3, -, h⟩ := bind_ok h
    have k1 : s.keeps (s.set_edge e
        { ed with wind := (⟨if ed.flags.sense then -1 else 1, 0⟩ : wind_t) }) :=
      keeps_update hed _ _ _ _ _ _
    have k3 : s.keeps t3 := keeps_trans (keeps_trans k1 (snap_keeps h2)) (snap_keeps h3)
    split at h
    · exact keeps_trans k3 (ih h)
    · obtain ⟨ed3, -, h⟩ := bind_ok h
      obtain ⟨⟨r, t4⟩, h4, h⟩ := bind_ok h
      obtain ⟨t5, h5, h⟩ := bind_ok h
      exact keeps_trans (keeps_trans (keeps_trans k3 (goes_to_keeps h4)) (remove_keeps h5))
        (ih h)

theorem extract_keeps {s s1 : flattener_t} {v : Nat} (h : s.extract v = .ok s1) :
    s.keeps s1 := by
  unfold extract at h
  obtain ⟨vv, -, h⟩ := bind_ok h
  exact extract_loop_keeps h

theorem pin_ends_keeps {s s1 : flattener_t} {v : Nat} {enter : Bool} {l : List (Nat × Nat)}
    (h : s.pin_ends v enter l = .ok s1) : s.keeps s1 := by
  induction l generalizing s with
  | nil =>
    unfold pin_ends at h
    rw [← pure_ok h]; exact keeps_refl s
  | cons a rest ih =>
    obtain ⟨w0, e⟩ := a
    unfold pin_ends at h
    obtain ⟨vv, -, h⟩ := bind_ok h
    obtain ⟨⟨w, t1⟩, h1, h⟩ := bind_ok h
    obtain ⟨t2, h2, h⟩ := bind_ok h
    have k2 : s.keeps t2 := keeps_trans (find_keeps h1) (add_pin_keeps h2)
    have k3 : t2.keeps (if enter then t2.set_snaplist (snaplist_insert e t2.snaplist)
        else t2.set_snaplist (t2.snaplist.erase e)) := by
      split
      · exact keeps_set_snaplist t2 _
      · exact keeps_set_snaplist t2 _
    exact keeps_trans (keeps_trans k2 k3) (ih h)

theorem discover_keeps {s s1 : flattener_t} {v : Nat} (h : s.discover v = .ok s1) :
    s.keeps s1 := by
  unfold discover at h
  obtain ⟨vv, -, h⟩ := bind_ok h
  obtain ⟨t1, h1, h⟩ := bind_ok h
  obtain ⟨t2, h2, h⟩ := bind_ok h
  obtain ⟨vv2, -, h⟩ := bind_ok h
  exact keeps_trans (keeps_trans (pin_ends_keeps h1) (hittest_keeps h2)) (pin_ends_keeps h)

theorem reroute_loop_keeps {s s1 : flattener_t} {l : List (Nat × Nat)}
    (h : s.reroute_loop l = .ok s1) : s.keeps s1 := by
  induction l generalizing s with
  | nil =>
    unfold reroute_loop at h
    rw [← pure_ok h]; exact keeps_refl s
  | cons a rest ih =>
    obtain ⟨w, e⟩ := a
    unfold reroute_loop at h
    obtain ⟨t1, h1, h⟩ := bind_ok h
    obtain ⟨t2, h2, h⟩ := bind_ok h
    exact keeps_trans (keeps_trans (snap_to_pins_keeps h1) (remove_keeps h2)) (ih h)

theorem reroute_keeps {s s1 : flattener_t} {v : Nat} (h : s.reroute v = .ok s1) :
    s.keeps s1 := by
  unfold reroute at h
  obtain ⟨vv, -, h⟩ := bind_ok h
  exact reroute_loop_keeps h

/-- `stable_snap_round` keeps the double-link invariant. -/
theorem stable_snap_round_keeps {s s1 : flattener_t} (h : s.stable_snap_round = .ok s1) :
    s.keeps s1 := by
  unfold stable_snap_round at h
  obtain ⟨t1, h1, h⟩ := bind_ok h
  obtain ⟨-, -, h⟩ := bind_ok h
  obtain ⟨t2, h2, h⟩ := bind_ok h
  obtain ⟨-, -, h⟩ := bind_ok h
  exact keeps_trans (keeps_trans (for_each_keeps (fun _ _ _ => extract_keeps) h1)
    (for_each_keeps (fun _ _ _ => discover_keeps) h2))
    (for_each_keeps (fun _ _ _ => reroute_keeps) h)

/-- A call of `flatten` that returns true keeps the double-link invariant. -/
theorem flatten_keeps {ins : ael_insert_t} {fuel : Nat} {s s1 : flattener_t}
    (h : s.flatten ins fuel = .ok (some s1)) : s.keeps s1 := by
  unfold flatten at h
  split at h
  · rename_i s2 h2
    injection h with h
    injection h with h
    subst h
    obtain ⟨t1, h1, h2⟩ := bind_ok h2
    exact keeps_trans (intersect_keeps h1) (stable_snap_round_keeps h2)
  · exact absurd h (by simp)
  · exact absurd h (by simp)
  · exact absurd h (by simp)

theorem linked_of_keeps {s s1 : flattener_t} (k : s.keeps s1) (hl : s.linked) : s1.linked :=
  (k [] ⟨hl, fun _ hp => absurd hp (List.not_mem_nil _)⟩).1

end flattener_t

/-! ## The double-link invariant in a session -/

namespace flattener_t

theorem add_edge_keeps {s s1 : flattener_t} {x y u v : Int} {b : Bool}
    (h : s.add_edge x y u v b = .ok s1) : s.keeps s1 := by
  unfold add_edge at h
  split at h
  · exact absurd h (by simp)
  · rename_i p t1 h1
    split at h
    · exact absurd h (by simp)
    · rename_i q t2 h2
      split at h
      · exact absurd h (by simp)
      · rename_i r t3 h3
        injection h with h
        rw [← h]
        exact keeps_trans (keeps_trans (find_keeps h1) (find_keeps h2)) (goes_to_keeps h3)

theorem add_edges_keeps {s s1 : flattener_t} {l : List (Int × Int × Int × Int × Bool)}
    (h : s.add_edges l = .ok s1) : s.keeps s1 := by
  induction l generalizing s with
  | nil =>
    unfold add_edges at h
    rw [← pure_ok h]; exact keeps_refl s
  | cons a rest ih =>
    obtain ⟨x, y, u, v, b⟩ := a
    unfold add_edges at h
    obtain ⟨t, ht, h⟩ := bind_ok h
    exact keeps_trans (add_edge_keeps ht) (ih h)

/-- In a session that has only seen `add_edge`, `add_edge` returns. -/
theorem add_edge_wf (s : flattener_t) (x y u v : Int) (b : Bool) (hs : s.wf) :
    ∃ s1, s.add_edge x y u v b = .ok s1 ∧ s1.wf := by
  by_cases hne : x = u ∧ y = v
  · obtain ⟨hx, hy⟩ := hne
    subst hx; subst hy
    obtain ⟨s1, h1, -, -, h2⟩ := add_edge_same s x y b hs
    exact ⟨s1, h1, h2⟩
  · obtain ⟨s1, -, -, -, -, h1, h2, -⟩ := add_edge_spec s x y u v b hs hne
    exact ⟨s1, h1, h2⟩

theorem add_edges_wf (s : flattener_t) (l : List (Int × Int × Int × Int × Bool))
    (hs : s.wf) : ∃ s1, s.add_edges l = .ok s1 ∧ s1.wf := by
  induction l generalizing s with
  | nil => exact ⟨s, rfl, hs⟩
  | cons a rest ih =>
    obtain ⟨x, y, u, v, b⟩ := a
    obtain ⟨t, ht, hw⟩ := add_edge_wf s x y u v b hs
    obtain ⟨s1, h1, h2⟩ := ih t hw
    refine ⟨s1, ?_, h2⟩
    unfold add_edges
    rw [ht]
    exact h1

theorem double_link_of_keeps {s s1 : flattener_t} (k : s.keeps s1) (h : s.double_link) :
    s1.double_link :=
  (double_link_iff_linked s1).2 (linked_of_keeps k ((double_link_iff_linked s).1 h))

end flattener_t

/-- C3: the double-link invariant of the graph.  In a new session any
sequence of `add_edge` calls returns and leaves a graph in which every edge
that an entry of a `below` or `above` map refers to is alive, is `below[to]`
of its `from` and `above[from]` of its `to`, and in which every entry of a
`below` (resp. `above`) map of a vertex `v` with key `w` refers to an edge with
`from` (resp. `to`) `v` and other end `w`.  From any state `s` with this
property, `add_edge` calls, a `flatten()` that returns true (whatever place
the insert into the active edge list finds, and whatever the bound on the
loops), `goes_to`, `unlink`, `remove`, `split`, `fold` and `cull` lead to a
state with this property. -/
theorem C3_double_link_invariant (rule : Int) (s : flattener_t) (hs : s.double_link) :
    (∀ l, ∃ t, (flattener_t.new rule).add_edges l = .ok t ∧ t.double_link) ∧
    (∀ l t, s.add_edges l = .ok t → t.double_link) ∧
    (∀ ins fuel t, s.flatten ins fuel = .ok (some t) → t.double_link) ∧
    (∀ this q raw wind state r t,
      s.goes_to this q raw wind state = .ok (r, t) → t.double_link) ∧
    (∀ p t, s.unlink p = .ok t → t.double_link) ∧
    (∀ p t, s.remove p = .ok t → t.double_link) ∧
    (∀ p v t, s.split p v = .ok t → t.double_link) ∧
    (∀ v t, s.fold v = .ok t → t.double_link) ∧
    (∀ v t, s.cull v = .ok t → t.double_link) := by
  refine ⟨?_, ?_, ?_, ?_, ?_, ?_, ?_, ?_, ?_⟩
  · intro l
    obtain ⟨t, h1, h2⟩ := flattener_t.add_edges_wf _ l (flattener_t.wf_new rule)
    exact ⟨t, h1, (flattener_t.double_link_iff_linked t).2 h2.2.2.1⟩
  · intro l t h
    exact flattener_t.double_link_of_keeps (flattener_t.add_edges_keeps h) hs
  · intro ins fuel t h
    exact flattener_t.double_link_of_keeps (flattener_t.flatten_keeps h) hs
  · intro this q raw wind state r t h
    exact flattener_t.double_link_of_keeps (flattener_t.goes_to_keeps h) hs
  · intro p t h
    exact flattener_t.double_link_of_keeps (flattener_t.unlink_keeps h) hs
  · intro p t h
    exact flattener_t.double_link_of_keeps (flattener_t.remove_keeps h) hs
  · intro p v t h
    exact flattener_t.double_link_of_keeps (flattener_t.split_keeps h) hs
  · intro v t h
    exact flattener_t.double_link_of_keeps (flattener_t.fold_keeps h) hs
  · intro v t h
    exact flattener_t.double_link_of_keeps (flattener_t.cull_keeps h) hs

/-- C3 for the square `(0,0) (4,0) (4,4) (0,4)` of shape A and the quadrilateral
`(2,1) (6,2) (5,6) (1,5)` of shape B: the eight `add_edge` calls give a state
with the invariant; `flatten()` for `A and B` returns true, having met two
crossings off the grid, with the four edges of the result in its arena of 24
and the invariant in force; `goes_to`, `unlink`, `remove`, `fold` and `cull` return
on the state before `flatten()` and keep the invariant, and so does `split` of
the edge `(4,0)-(4,4)` at the vertex `(4,2)`, with the sweep at `(0,0)`. -/
theorem C3_double_link_invariant_witness :
    ∃ s t, (flattener_t.new FLATTEN_A_AND_B).add_edges
        [(0, 0, 4, 0, false), (4, 0, 4, 4, false), (4, 4, 0, 4, false), (0, 4, 0, 0, false),
         (2, 1, 6, 2, true), (6, 2, 5, 6, true), (5, 6, 1, 5, true), (1, 5, 2, 1, true)]
        = .ok s ∧ s.double_link ∧
      s.flatten set_insert 50 = .ok (some t) ∧ t.double_link ∧
      (t.edges.length, t.below 4 14, t.below 14 2, t.below 4 15, t.below 15 2)
        = (24, some 20, some 22, some 21, some 23) ∧
      (∃ r t1, s.goes_to 0 2 ⟨0, 0, 4, 4⟩ ⟨1, 0⟩ none = .ok (r, t1) ∧ t1.double_link) ∧
      (∃ t1, s.unlink 0 = .ok t1 ∧ t1.double_link) ∧
      (∃ t1, s.remove 0 = .ok t1 ∧ t1.double_link) ∧
      (∃ s2 t1, s.add_edges [(4, 2, 4, 2, false)] = .ok s2 ∧ s2.double_link ∧
        (s2.set_dot (some 0)).split 1 8 = .ok t1 ∧ t1.double_link ∧
        (t1.below 1 8, t1.below 8 2, t1.below 1 2) = (some 8, some 9, some 1)) ∧
      (∃ t1, s.fold 0 = .ok t1 ∧ t1.double_link) ∧
      (∃ t1, s.cull 0 = .ok t1 ∧ t1.double_link) := by
  have h0 : (flattener_t.new FLATTEN_A_AND_B).double_link :=
    (flattener_t.double_link_iff_linked _).2 (flattener_t.wf_new _).2.2.1
  obtain ⟨S, hS⟩ : ∃ S, S = (((flattener_t.new FLATTEN_A_AND_B).add_edges
        [(0, 0, 4, 0, false), (4, 0, 4, 4, false), (4, 4, 0, 4, false), (0, 4, 0, 0, false),
         (2, 1, 6, 2, true), (6, 2, 5, 6, true), (5, 6, 1, 5, true), (1, 5, 2, 1, true)]
        ).toOption).getD (flattener_t.new FLATTEN_A_AND_B) := ⟨_, rfl⟩
  have e1 : (flattener_t.new FLATTEN_A_AND_B).add_edges
        [(0, 0, 4, 0, false), (4, 0, 4, 4, false), (4, 4, 0, 4, false), (0, 4, 0, 0, false),
         (2, 1, 6, 2, true), (6, 2, 5, 6, true), (5, 6, 1, 5, true), (1, 5, 2, 1, true)]
        = .ok S := by rw [hS]; rfl
  have d1 : S.double_link := (C3_double_link_invariant FLATTEN_A_AND_B _ h0).2.1 _ _ e1
  obtain ⟨T, hT⟩ : ∃ T, T = (((S.flatten set_insert 50).toOption).join).getD S := ⟨_, rfl⟩
  have e2 : S.flatten set_insert 50 = .ok (some T) := by rw [hT, hS]; rfl
  have e3 : (T.edges.length, T.below 4 14, T.below 14 2, T.below 4 15, T.below 15 2)
        = (24, some 20, some 22, some 21, some 23) := by rw [hT, hS]; rfl
  have c := C3_double_link_invariant FLATTEN_A_AND_B S d1
  refine ⟨S, T, e1, d1, e2, c.2.2.1 _ _ _ e2, e3, ?_, ?_, ?_, ?_, ?_, ?_⟩
  · obtain ⟨X, hX⟩ : ∃ X, X = ((S.goes_to 0 2 ⟨0, 0, 4, 4⟩ ⟨1, 0⟩ none).toOption).getD
        (none, S) := ⟨_, rfl⟩
    have e : S.goes_to 0 2 ⟨0, 0, 4, 4⟩ ⟨1, 0⟩ none = .ok (X.1, X.2) := by rw [hX, hS]; rfl
    exact ⟨_, _, e, c.2.2.2.1 _ _ _ _ _ _ _ e⟩
  · obtain ⟨X, hX⟩ : ∃ X, X = ((S.unlink 0).toOption).getD S := ⟨_, rfl⟩
    have e : S.unlink 0 = .ok X := by rw [hX, hS]; rfl
    exact ⟨_, e, c.2.2.2.2.1 _ _ e⟩
  · obtain ⟨X, hX⟩ : ∃ X, X = ((S.remove 0).toOption).getD S := ⟨_, rfl⟩
    have e : S.remove 0 = .ok X := by rw [hX, hS]; rfl
    exact ⟨_, e, c.2.2.2.2.2.1 _ _ e⟩
  · obtain ⟨S2, hS2⟩ : ∃ X, X = ((S.add_edges [(4, 2, 4, 2, false)]).toOption).getD S :=
      ⟨_, rfl⟩
    have e : S.add_edges [(4, 2, 4, 2, false)] = .ok S2 := by rw [hS2, hS]; rfl
    have d2 : S2.double_link := c.2.1 _ _ e
    have d3 : (S2.set_dot (some 0)).double_link :=
      flattener_t.double_link_of_keeps (flattener_t.keeps_set_dot S2 _) d2
    obtain ⟨X, hX⟩ : ∃ X, X = (((S2.set_dot (some 0)).split 1 8).toOption).getD S := ⟨_, rfl⟩
    have e4 : (S2.set_dot (some 0)).split 1 8 = .ok X := by rw [hX, hS2, hS]; rfl
    have e5 : (X.below 1 8, X.below 8 2, X.below 1 2) = (some 8, some 9, some 1) := by
      rw [hX, hS2, hS]; rfl
    exact ⟨S2, X, e, d2, e4,
      (C3_double_link_invariant FLATTEN_A_AND_B _ d3).2.2.2.2.2.2.1 _ _ _ e4, e5⟩
  · obtain ⟨X, hX⟩ : ∃ X, X = ((S.fold 0).toOption).getD S := ⟨_, rfl⟩
    have e : S.fold 0 = .ok X := by rw [hX, hS]; rfl
    exact ⟨_, e, c.2.2.2.2.2.2.2.1 _ _ e⟩
  · obtain ⟨X, hX⟩ : ∃ X, X = ((S.cull 0).toOption).getD S := ⟨_, rfl⟩
    have e : S.cull 0 = .ok X := by rw [hX, hS]; rfl
    exact ⟨_, e, c.2.2.2.2.2.2.2.2 _ _ e⟩

/-! ## `walklist` -/

theorem short_short_add (x y : Int) : short (short x + y) = short (x + y) := by
  unfold short; omega

theorem short_zero : short 0 = 0 := by decide

theorem short_eq_of_range {z : Int} (h1 : -32768 ≤ z) (h2 : z < 32768) : short z = z := by
  unfold short; omega

namespace flattener_t

theorem wind_sum_nil (s : flattener_t) : s.wind_sum [] = ⟨0, 0⟩ := by
  simp [wind_sum, wind_total, short_zero]

theorem wind_sum_snoc (s : flattener_t) (l : List Nat) (e : Nat) :
    s.wind_sum (l ++ [e]) = (s.wind_sum l).add (s.wind_of e) := by
  simp only [wind_sum, wind_total, wind_t.add, List.map_append, List.sum_append, List.map_cons,
    List.map_nil, List.sum_cons, List.sum_nil, add_zero, short_short_add]

theorem wind_sum_congr {s c : flattener_t} (h : ∀ e, c.wind_of e = s.wind_of e)
    (l : List Nat) : c.wind_sum l = s.wind_sum l := by
  simp only [wind_sum, wind_total, h]

theorem wind_of_edge {s : flattener_t} {e : Nat} {ed : edge_t} (h : s.edge e = .ok ed) :
    s.wind_of e = ed.wind := by
  unfold edge at h
  unfold wind_of
  split at h
  · rename_i x hx
    injection h with h
    rw [h]
  · exact absurd h (by simp)

end flattener_t

theorem assert_ok {b : Bool} {u : Unit} (h : assert_ b = .ok u) : b = true := by
  unfold assert_ at h
  split at h
  · assumption
  · exact absurd h (by simp)

namespace flattener_t

theorem wind_of_set_edge (s : flattener_t) (e : Nat) (ed x : edge_t)
    (he : s.edge e = .ok ed) (hw : x.wind = ed.wind) (e' : Nat) :
    (s.set_edge e x).wind_of e' = s.wind_of e' := by
  by_cases h : e' = e
  · subst h
    rw [wind_of_edge (edge_set_edge_self s e' ed x he), wind_of_edge he, hw]
  · unfold wind_of
    rw [edges_set_edge_ne s e e' x h]

/-- The edge that `walklist` leaves in place of the unchecked edge `ed`, met
with the winding `W` accumulated from the edges to its left. -/
theorem walklist_loop_spec (rule : Int) (l : List Nat) :
    ∀ (c c1 : flattener_t) (done : List Nat) (w1 : wind_t),
      walklist_loop rule c (c.wind_sum done) l = .ok (w1, c1) → l.Nodup →
      w1 = c.wind_sum (done ++ l) ∧ (∀ e, c1.wind_of e = c.wind_of e) ∧
      (∀ e, e ∉ l → c1.edges[e]? = c.edges[e]?) ∧
      ∀ pre e post, l = pre ++ e :: post →
        ∃ ed, c.edge e = .ok ed ∧ ed.flags.active = true ∧
          (ed.flags.checked = true → c1.edge e = .ok ed ∧
            ed.checked_wind = c.wind_sum (done ++ pre ++ [e])) ∧
          (ed.flags.checked = false → c1.edge e = .ok
            { ed with
              flags := { ed.flags with
                keep := xor ((c.wind_sum (done ++ pre)).is_inside rule)
                  ((c.wind_sum (done ++ pre ++ [e])).is_inside rule),
                sense := if xor ((c.wind_sum (done ++ pre)).is_inside rule)
                    ((c.wind_sum (done ++ pre ++ [e])).is_inside rule)
                  then (c.wind_sum (done ++ pre ++ [e])).is_inside rule else ed.flags.sense,
                checked := true },
              checked_wind := c.wind_sum (done ++ pre ++ [e]) }) := by
  induction l with
  | nil =>
    intro c c1 done w1 h _
    unfold walklist_loop at h
    have h := pure_ok h
    injection h with h1 h2
    subst h1; subst h2
    refine ⟨by simp, fun _ => rfl, fun _ _ => rfl, ?_⟩
    intro pre e post hl
    exact absurd hl (by simp)
  | cons x rest ih =>
    intro c c1 done w1 h hnd
    have hx : x ∉ rest := (List.nodup_cons.1 hnd).1
    have hrest : rest.Nodup := (List.nodup_cons.1 hnd).2
    unfold walklist_loop at h
    obtain ⟨ed, hed, h⟩ := bind_ok h
    obtain ⟨u0, hact, h⟩ := bind_ok h
    have hact := assert_ok hact
    have hnew : (c.wind_sum done).add ed.wind = c.wind_sum (done ++ [x]) := by
      rw [wind_sum_snoc, wind_of_edge hed]
    dsimp only at h
    rw [hnew] at h
    split at h
    · rename_i hch
      obtain ⟨u1, ha, h⟩ := bind_ok h
      obtain ⟨u2, hb, h⟩ := bind_ok h
      have ha := assert_ok ha
      have hb := assert_ok hb
      have hcw : ed.checked_wind = c.wind_sum (done ++ [x]) := by
        have e1 : (c.wind_sum (done ++ [x])).a = ed.checked_wind.a := by simpa using ha
        have e2 : (c.wind_sum (done ++ [x])).b = ed.checked_wind.b := by simpa using hb
        cases hq : ed.checked_wind with
        | mk a b =>
          rw [hq] at e1 e2
          cases hp : c.wind_sum (done ++ [x]) with
          | mk a1 b1 =>
            rw [hp] at e1 e2
            simp only at e1 e2
            rw [e1, e2]
      obtain ⟨r1, r2, r3, r4⟩ := ih c c1 (done ++ [x]) w1 h hrest
      refine ⟨by rw [r1]; simp, r2, ?_, ?_⟩
      · intro e he
        exact r3 e (fun hc => he (List.mem_cons_of_mem _ hc))
      · intro pre e post hl
        cases pre with
        | nil =>
          simp only [List.nil_append, List.cons.injEq] at hl
          obtain ⟨h1, h2⟩ := hl
          subst h1
          refine ⟨ed, hed, hact, ?_, ?_⟩
          · intro _
            refine ⟨?_, by simpa using hcw⟩
            rw [edge_eq_ok, r3 x hx, ← edge_eq_ok]
            exact hed
          · intro hc
            rw [hch] at hc
            exact absurd hc (by simp)
        | cons y pre1 =>
          simp only [List.cons_append, List.cons.injEq] at hl
          obtain ⟨h1, h2⟩ := hl
          subst h1
          have := r4 pre1 e post h2
          simpa [List.append_assoc] using this
    · rename_i hch
      have hch : ed.flags.checked = false := by simpa using hch
      obtain ⟨fl, hfl, h⟩ := bind_ok h
      have hfl1 : fl = { ed.flags with
          keep := xor ((c.wind_sum done).is_inside rule)
            ((c.wind_sum (done ++ [x])).is_inside rule),
          sense := if xor ((c.wind_sum done).is_inside rule)
              ((c.wind_sum (done ++ [x])).is_inside rule)
            then (c.wind_sum (done ++ [x])).is_inside rule else ed.flags.sense } := by
        split at hfl
        · rename_i hxor
          obtain ⟨-, -, hfl⟩ := bind_ok hfl
          rw [← pure_ok hfl]
          simp [hxor]
        · rename_i hxor
          obtain ⟨-, -, hfl⟩ := bind_ok hfl
          rw [← pure_ok hfl]
          have hxor : xor ((c.wind_sum done).is_inside rule)
              ((c.wind_sum (done ++ [x])).is_inside rule) = false := by simpa using hxor
          simp [hxor]
      generalize hX : ({ ed with
          flags := { fl with checked := true },
          checked_wind := c.wind_sum (done ++ [x]) } : edge_t) = X at h
      have hw : ∀ e, (c.set_edge x X).wind_of e = c.wind_of e :=
        fun e => wind_of_set_edge c x ed X hed (by rw [← hX]) e
      rw [← wind_sum_congr hw (done ++ [x])] at h
      obtain ⟨r1, r2, r3, r4⟩ := ih _ c1 (done ++ [x]) w1 h hrest
      refine ⟨?_, fun e => (r2 e).trans (hw e), ?_, ?_⟩
      · rw [r1, wind_sum_congr hw]; simp
      · intro e he
        have hne : e ≠ x := fun hc => he (hc ▸ List.mem_cons_self _ _)
        rw [r3 e (fun hc => he (List.mem_cons_of_mem _ hc)), edges_set_edge_ne c x e _ hne]
      · intro pre e post hl
        cases pre with
        | nil =>
          simp only [List.nil_append, List.cons.injEq] at hl
          obtain ⟨h1, h2⟩ := hl
          subst h1
          refine ⟨ed, hed, hact, ?_, ?_⟩
          · intro hc
            rw [hch] at hc
            exact absurd hc (by simp)
          · intro _
            rw [edge_eq_ok, r3 x hx, ← edge_eq_ok, edge_set_edge_self c x ed X hed, ← hX, hfl1]
            simp
        | cons y pre1 =>
          simp only [List.cons_append, List.cons.injEq] at hl
          obtain ⟨h1, h2⟩ := hl
          subst h1
          have hne : e ≠ x := by
            intro hc
            apply hx
            rw [h2, ← hc]
            simp
          obtain ⟨ed', q1, q2, q3, q4⟩ := r4 pre1 e post h2
          have q1' : c.edge e = .ok ed' := by
            rw [edge_eq_ok] at q1 ⊢
            rw [← edges_set_edge_ne c x e X hne]
            exact q1
          refine ⟨ed', q1', q2, ?_, ?_⟩
          · intro hc
            have := q3 hc
            simpa [List.append_assoc, wind_sum_congr hw] using this
          · intro hc
            have := q4 hc
            simpa [List.append_assoc, wind_sum_congr hw] using this

end flattener_t

namespace flattener_t

/-- The three steps of `walklist`: the test of the rule, the loop and the test
of the winding at the end. -/
theorem walklist_ok {s s1 : flattener_t} (h : s.walklist = .ok s1) :
    (⟨0, 0⟩ : wind_t).is_inside s.flatten_rule = false ∧
    ∃ w, walklist_loop s.flatten_rule s (s.wind_sum []) s.ael = .ok (w, s1) ∧
      w.is_zero = true := by
  unfold walklist at h
  obtain ⟨u0, h0, h⟩ := bind_ok h
  obtain ⟨⟨w, t⟩, hl, h⟩ := bind_ok h
  obtain ⟨u1, hz, h⟩ := bind_ok h
  have ht := pure_ok h
  subst ht
  refine ⟨by simpa using assert_ok h0, w, ?_, assert_ok hz⟩
  rw [wind_sum_nil]
  exact hl

theorem wind_t.eq_zero_of_is_zero {w : wind_t} (h : w.is_zero = true) : w = ⟨0, 0⟩ := by
  cases w with
  | mk a b =>
    unfold wind_t.is_zero at h
    simp only [Bool.and_eq_true, beq_iff_eq] at h
    rw [h.1, h.2]

end flattener_t

/-- C11: the classification rule of `walklist`.  When `walklist` returns on an
active edge list without repeated entries, an edge `e` with the edges `pre` to
its left that was unchecked on entry ends with
`keep = is_inside(W) xor is_inside(W + e.wind)`, `checked = true` and
`checked_wind = W + e.wind`, where `W` is the component-wise sum of the
windings of `pre` (held in two `short` counts, and the exact sums when these
fit); an edge that was checked on entry is left as it was, its `keep` and
`sense` flags with it. -/
theorem C11_walklist_classification (s s1 : flattener_t) (pre post : List Nat) (e : Nat)
    (h : s.walklist = .ok s1) (hnd : s.ael.Nodup) (hl : s.ael = pre ++ e :: post) :
    ∃ ed ed1, s.edge e = .ok ed ∧ s1.edge e = .ok ed1 ∧
      (ed.flags.checked = false →
        ed1.flags.keep = xor ((s.wind_sum pre).is_inside s.flatten_rule)
          (((s.wind_sum pre).add ed.wind).is_inside s.flatten_rule) ∧
        ed1.flags.checked = true ∧ ed1.checked_wind = (s.wind_sum pre).add ed.wind) ∧
      (ed.flags.checked = true →
        ed1.flags.keep = ed.flags.keep ∧ ed1.flags.sense = ed.flags.sense ∧ ed1 = ed) ∧
      (-32768 ≤ (s.wind_total pre).1 ∧ (s.wind_total pre).1 < 32768 ∧
        -32768 ≤ (s.wind_total pre).2 ∧ (s.wind_total pre).2 < 32768 →
        s.wind_sum pre = ⟨(s.wind_total pre).1, (s.wind_total pre).2⟩) := by
  obtain ⟨-, w, hw, -⟩ := flattener_t.walklist_ok h
  obtain ⟨-, -, -, r⟩ := flattener_t.walklist_loop_spec s.flatten_rule s.ael s s1 [] w hw hnd
  obtain ⟨ed, h1, -, h3, h4⟩ := r pre e post hl
  have hsum : s.wind_sum ([] ++ pre ++ [e]) = (s.wind_sum pre).add ed.wind := by
    rw [List.nil_append, flattener_t.wind_sum_snoc, flattener_t.wind_of_edge h1]
  by_cases hc : ed.flags.checked = true
  · refine ⟨ed, ed, h1, (h3 hc).1, ?_, fun _ => ⟨rfl, rfl, rfl⟩, ?_⟩
    · intro hf
      rw [hf] at hc
      exact absurd hc (by simp)
    · rintro ⟨a1, a2, b1, b2⟩
      unfold flattener_t.wind_sum
      rw [short_eq_of_range a1 a2, short_eq_of_range b1 b2]
  · have hc : ed.flags.checked = false := by simpa using hc
    refine ⟨ed, _, h1, h4 hc, ?_, ?_, ?_⟩
    · intro _
      rw [hsum]
      exact ⟨rfl, rfl, rfl⟩
    · intro hf
      rw [hf] at hc
      exact absurd hc (by simp)
    · rintro ⟨a1, a2, b1, b2⟩
      unfold flattener_t.wind_sum
      rw [short_eq_of_range a1 a2, short_eq_of_range b1 b2]

/-- C11 on `walk_example` for `FLATTEN_A`: the second edge, unchecked and with
the sum `(1, 0)` to its left, ends checked, not kept and with
`checked_wind = (1, 1)`; the third edge, checked on entry, keeps its flags. -/
theorem C11_walklist_classification_witness :
    ∃ s1 ed1 ed2, (flattener_t.walk_example FLATTEN_A).walklist = .ok s1 ∧
      (flattener_t.walk_example FLATTEN_A).ael.Nodup ∧
      (flattener_t.walk_example FLATTEN_A).ael = [0] ++ 1 :: [2, 3] ∧
      s1.edge 1 = .ok ed1 ∧ ed1.flags.keep = false ∧ ed1.flags.checked = true ∧
      ed1.checked_wind = ⟨1, 1⟩ ∧
      s1.edge 2 = .ok ed2 ∧ ed2.flags.keep = false ∧ ed2.flags.sense = true ∧
      (s1.edges.map fun x => x.map fun y => (y.flags.keep, y.flags.sense, y.checked_wind)) =
        [some (true, true, ⟨1, 0⟩), some (false, false, ⟨1, 1⟩),
         some (false, true, ⟨1, 0⟩), some (true, false, ⟨0, 0⟩)] := by
  obtain ⟨T, hT⟩ : ∃ T, T = ((flattener_t.walk_example FLATTEN_A).walklist.toOption).getD
    (flattener_t.walk_example FLATTEN_A) := ⟨_, rfl⟩
  have e1 : (flattener_t.walk_example FLATTEN_A).walklist = .ok T := by rw [hT]; rfl
  have n1 : (flattener_t.walk_example FLATTEN_A).ael.Nodup := by decide
  obtain ⟨a, a1, p1, p2, p3, -, -⟩ :=
    C11_walklist_classification _ T [0] [2, 3] 1 e1 n1 rfl
  obtain ⟨b, b1, q1, q2, -, q4, -⟩ :=
    C11_walklist_classification _ T [0, 1] [3] 2 e1 n1 rfl
  have ha := p1.symm.trans (show (flattener_t.walk_example FLATTEN_A).edge 1 = Except.ok _ from rfl)
  injection ha with ha
  have hb := q1.symm.trans (show (flattener_t.walk_example FLATTEN_A).edge 2 = Except.ok _ from rfl)
  injection hb with hb
  have pa := p3 (by rw [ha])
  have qb := q4 (by rw [hb])
  refine ⟨T, a1, b1, e1, n1, rfl, p2, ?_, pa.2.1, ?_, q2, ?_, ?_, ?_⟩
  · rw [pa.1, ha]; rfl
  · rw [pa.2.2, ha]; rfl
  · rw [qb.1, hb]
  · rw [qb.2.1, hb]
  · rw [hT]; rfl

namespace flattener_t

theorem edge_set_edge_live (s : flattener_t) (e : Nat) (ed x : edge_t)
    (he : s.edge e = .ok ed) (e' : Nat) (h : ∃ y, s.edge e' = .ok y) :
    ∃ y, (s.set_edge e x).edge e' = .ok y := by
  by_cases hc : e' = e
  · subst hc
    exact ⟨x, edge_set_edge_self s e' ed x he⟩
  · obtain ⟨y, hy⟩ := h
    refine ⟨y, ?_⟩
    rw [edge_eq_ok] at hy ⊢
    rw [edges_set_edge_ne s e e' x hc]
    exact hy

/-- On live edges the loop of `walklist` returns or fails an assertion. -/
theorem walklist_loop_total (rule : Int) (l : List Nat) :
    ∀ (c : flattener_t) (w : wind_t), (∀ e ∈ l, ∃ ed, c.edge e = .ok ed) →
      (∃ r, walklist_loop rule c w l = .ok r) ∨
        walklist_loop rule c w l = .error .assertion_t := by
  induction l with
  | nil =>
    intro c w _
    exact Or.inl ⟨(w, c), rfl⟩
  | cons x rest ih =>
    intro c w hl
    obtain ⟨ed, hed⟩ := hl x (List.mem_cons_self _ _)
    have hrest : ∀ e ∈ rest, ∃ y, c.edge e = .ok y :=
      fun e he => hl e (List.mem_cons_of_mem _ he)
    unfold walklist_loop
    rw [hed]
    simp only [bind, Except.bind, assert_]
    by_cases hact : ed.flags.active = true
    · simp only [hact, if_true]
      by_cases hch : ed.flags.checked = true
      · simp only [hch, if_true]
        by_cases ha : ((w.add ed.wind).a == ed.checked_wind.a) = true
        · simp only [ha, if_true]
          by_cases hb : ((w.add ed.wind).b == ed.checked_wind.b) = true
          · simp only [hb, if_true]
            exact ih c _ hrest
          · simp only [hb]
            exact Or.inr rfl
        · simp only [ha]
          exact Or.inr rfl
      · have hch : ed.flags.checked = false := by simpa using hch
        simp only [hch, Bool.false_eq_true, if_false]
        by_cases hx : xor (w.is_inside rule) ((w.add ed.wind).is_inside rule) = true
        · simp only [hx, if_true, beq_self_eq_true, Bool.true_or, pure, Except.pure]
          exact ih _ _ (fun e he => edge_set_edge_live c x ed _ hed e (hrest e he))
        · simp only [hx, beq_self_eq_true, Bool.true_or, if_true, pure, Except.pure]
          exact ih _ _ (fun e he => edge_set_edge_live c x ed _ hed e (hrest e he))
    · simp only [hact]
      exact Or.inr rfl

/-- On live edges `walklist` returns or fails an assertion. -/
theorem walklist_total (s : flattener_t) (hl : s.ael_live) :
    (∃ s1, s.walklist = .ok s1) ∨ s.walklist = .error .assertion_t := by
  unfold walklist
  simp only [bind, Except.bind, assert_]
  by_cases h0 : (!(⟨0, 0⟩ : wind_t).is_inside s.flatten_rule) = true
  · simp only [h0, if_true]
    rcases walklist_loop_total s.flatten_rule s.ael s ⟨0, 0⟩ hl with ⟨⟨w, t⟩, hr⟩ | hr
    · rw [hr]
      by_cases hz : w.is_zero = true
      · simp only [hz, if_true]
        exact Or.inl ⟨t, rfl⟩
      · simp only [hz]
        exact Or.inr rfl
    · rw [hr]
      exact Or.inr rfl
  · simp only [h0]
    exact Or.inr rfl

/-- What a normal return of `walklist` says about the list on entry. -/
theorem walklist_closure {s s1 : flattener_t} (h : s.walklist = .ok s1) (hnd : s.ael.Nodup) :
    s.closure := by
  obtain ⟨-, w, hw, hz⟩ := walklist_ok h
  obtain ⟨r1, -, -, r⟩ := walklist_loop_spec s.flatten_rule s.ael s s1 [] w hw hnd
  constructor
  · rw [List.nil_append] at r1
    rw [← r1]
    exact wind_t.eq_zero_of_is_zero hz
  · intro pre e post ed hl he hc
    obtain ⟨ed', h1, -, h3, -⟩ := r pre e post hl
    rw [he] at h1
    injection h1 with h1
    subst h1
    have := (h3 hc).2
    simpa using this

end flattener_t

/-- C12, as stated, fails: in `walk_example` with `FLATTEN_A` the second edge
is unchecked on entry and has the sum `(1, 0)` to its left, so that
`is_inside(W + e.wind)` is `is_inside((1, 1))`, which is true; the edge is
inside shape A on both sides, is not kept, and its `sense` stays false. -/
theorem C12_walklist_sense_counterexample :
    ∃ s1 ed ed1, (flattener_t.walk_example FLATTEN_A).walklist = .ok s1 ∧
      (flattener_t.walk_example FLATTEN_A).ael = [0] ++ 1 :: [2, 3] ∧
      (flattener_t.walk_example FLATTEN_A).edge 1 = .ok ed ∧ ed.flags.checked = false ∧
      s1.edge 1 = .ok ed1 ∧ ed1.flags.sense = false ∧
      (((flattener_t.walk_example FLATTEN_A).wind_sum [0]).add ed.wind).is_inside FLATTEN_A
        = true :=
  ⟨_, _, _, rfl, rfl, rfl, rfl, rfl, rfl, rfl⟩

/-- C12, amended: when `walklist` returns on an active edge list without
repeated entries, an edge `e` that was unchecked on entry and is kept
(`is_inside(W)` and `is_inside(W + e.wind)` differ) ends with
`sense = is_inside(W + e.wind)`, where `W` is the sum of the windings of the
edges to its left; an edge that was unchecked on entry and is not kept ends
with the `sense` it had. -/
theorem C12_walklist_sense (s s1 : flattener_t) (pre post : List Nat) (e : Nat)
    (h : s.walklist = .ok s1) (hnd : s.ael.Nodup) (hl : s.ael = pre ++ e :: post) :
    ∃ ed ed1, s.edge e = .ok ed ∧ s1.edge e = .ok ed1 ∧
      (ed.flags.checked = false →
        ed1.flags.keep = xor ((s.wind_sum pre).is_inside s.flatten_rule)
          (((s.wind_sum pre).add ed.wind).is_inside s.flatten_rule) ∧
        (ed1.flags.keep = true →
          ed1.flags.sense = ((s.wind_sum pre).add ed.wind).is_inside s.flatten_rule) ∧
        (ed1.flags.keep = false → ed1.flags.sense = ed.flags.sense)) := by
  obtain ⟨-, w, hw, -⟩ := flattener_t.walklist_ok h
  obtain ⟨-, -, -, r⟩ := flattener_t.walklist_loop_spec s.flatten_rule s.ael s s1 [] w hw hnd
  obtain ⟨ed, h1, -, -, h4⟩ := r pre e post hl
  have hsum : s.wind_sum ([] ++ pre ++ [e]) = (s.wind_sum pre).add ed.wind := by
    rw [List.nil_append, flattener_t.wind_sum_snoc, flattener_t.wind_of_edge h1]
  by_cases hc : ed.flags.checked = false
  · refine ⟨ed, _, h1, h4 hc, fun _ => ?_⟩
    rw [hsum]
    refine ⟨rfl, ?_, ?_⟩
    · intro hk
      simp only [List.nil_append] at hk ⊢
      rw [if_pos hk]
    · intro hk
      simp only [List.nil_append] at hk ⊢
      rw [if_neg (by rw [hk]; simp)]
  · have hc1 : ed.flags.checked = true := by simpa using hc
    obtain ⟨ed', h1', -, h3, -⟩ := r pre e post hl
    rw [h1] at h1'
    injection h1' with h1'
    subst h1'
    exact ⟨ed, ed, h1, (h3 hc1).1, fun hf => absurd hf hc⟩

/-- C12, amended, on `walk_example` for `FLATTEN_A`: the first edge is kept and
gets `sense = is_inside((1, 0)) = true`; the last edge is kept and gets
`sense = is_inside((0, 0)) = false`. -/
theorem C12_walklist_sense_witness :
    ∃ s1 ed0 ed3, (flattener_t.walk_example FLATTEN_A).walklist = .ok s1 ∧
      (flattener_t.walk_example FLATTEN_A).ael.Nodup ∧
      (flattener_t.walk_example FLATTEN_A).ael = [] ++ 0 :: [1, 2, 3] ∧
      s1.edge 0 = .ok ed0 ∧ ed0.flags.keep = true ∧ ed0.flags.sense = true ∧
      s1.edge 3 = .ok ed3 ∧ ed3.flags.keep = true ∧ ed3.flags.sense = false := by
  obtain ⟨T, hT⟩ : ∃ T, T = ((flattener_t.walk_example FLATTEN_A).walklist.toOption).getD
    (flattener_t.walk_example FLATTEN_A) := ⟨_, rfl⟩
  have e1 : (flattener_t.walk_example FLATTEN_A).walklist = .ok T := by rw [hT]; rfl
  have n1 : (flattener_t.walk_example FLATTEN_A).ael.Nodup := by decide
  obtain ⟨a, a1, p1, p2, p3⟩ := C12_walklist_sense _ T [] [1, 2, 3] 0 e1 n1 rfl
  obtain ⟨b, b1, q1, q2, q3⟩ := C12_walklist_sense _ T [0, 1, 2] [] 3 e1 n1 rfl
  have ha := p1.symm.trans
    (show (flattener_t.walk_example FLATTEN_A).edge 0 = Except.ok _ from rfl)
  injection ha with ha
  have hb := q1.symm.trans
    (show (flattener_t.walk_example FLATTEN_A).edge 3 = Except.ok _ from rfl)
  injection hb with hb
  have pa := p3 (by rw [ha])
  have qb := q3 (by rw [hb])
  have ka : a1.flags.keep = true := by rw [pa.1, ha]; rfl
  have kb : b1.flags.keep = true := by rw [qb.1, hb]; rfl
  refine ⟨T, a1, b1, e1, n1, rfl, p2, ka, ?_, q2, kb, ?_⟩
  · rw [pa.2.1 ka, ha]; rfl
  · rw [qb.2.1 kb, hb]; rfl

namespace flattener_t

/-- A failed assertion of `walklist` at the vertex `d` ends the first loop of
`intersect()`. -/
theorem intersect_loop_walklist_fails {ins : ael_insert_t} {fuel n d : Nat}
    {t t1 : flattener_t} (h1 : (t.set_dot (some d)).sweep ins fuel = .ok t1)
    (h2 : t1.walklist = .error .assertion_t) :
    intersect_loop ins fuel (n + 1) (some d) t = .error .assertion_t := by
  unfold intersect_loop
  rw [h1]
  simp only [bind, Except.bind]
  rw [h2]

/-- A failed assertion at a later vertex ends the first loop of `intersect()`. -/
theorem intersect_loop_later_fails {ins : ael_insert_t} {fuel n d : Nat}
    {t t1 t2 : flattener_t} (h1 : (t.set_dot (some d)).sweep ins fuel = .ok t1)
    (h2 : t1.walklist = .ok t2)
    (h3 : intersect_loop ins fuel n (set_next t2.vertexset d) t2 = .error .assertion_t) :
    intersect_loop ins fuel (n + 1) (some d) t = .error .assertion_t := by
  unfold intersect_loop
  rw [h1]
  simp only [bind, Except.bind]
  rw [h2]
  simp only
  exact h3

/-- A failed assertion in the first loop of `intersect()` makes `flatten()`
return false. -/
theorem flatten_false_of_loop {ins : ael_insert_t} {fuel : Nat} {t : flattener_t}
    (h0 : t.ael = [])
    (h : intersect_loop ins fuel fuel t.vertexset.head? t = .error .assertion_t) :
    t.flatten ins fuel = .ok none := by
  unfold flatten intersect
  simp only [bind, Except.bind, assert_, h0, List.isEmpty_nil, if_true]
  rw [h]

end flattener_t

/-- C13: sweep closure.  On an active edge list of live edges without repeated
entries, `walklist` returns normally only if the windings of all edges of the
list sum to `(0, 0)` (as two `short` counts, and exactly when the sums fit) and
the `checked_wind` of every edge that was checked on entry is the sum of the
windings up to and including that edge; otherwise it fails an assertion.  A
failed assertion of `walklist` at any vertex of the sweep ends the loop of
`intersect()` with that failure, and `flatten()` returns false. -/
theorem C13_walklist_closure (s : flattener_t) (hnd : s.ael.Nodup) (hlive : s.ael_live) :
    (∀ s1, s.walklist = .ok s1 → s.closure ∧
      (-32768 ≤ (s.wind_total s.ael).1 ∧ (s.wind_total s.ael).1 < 32768 ∧
        -32768 ≤ (s.wind_total s.ael).2 ∧ (s.wind_total s.ael).2 < 32768 →
        s.wind_total s.ael = (0, 0))) ∧
    (¬ s.closure → s.walklist = .error .assertion_t) ∧
    (∀ ins fuel n d t t1, (t.set_dot (some d)).sweep ins fuel = .ok t1 →
      t1.walklist = .error .assertion_t →
      flattener_t.intersect_loop ins fuel (n + 1) (some d) t = .error .assertion_t) ∧
    (∀ ins fuel n d t t1 t2, (t.set_dot (some d)).sweep ins fuel = .ok t1 →
      t1.walklist = .ok t2 →
      flattener_t.intersect_loop ins fuel n (flattener_t.set_next t2.vertexset d) t2
        = .error .assertion_t →
      flattener_t.intersect_loop ins fuel (n + 1) (some d) t = .error .assertion_t) ∧
    (∀ ins fuel t, t.ael = [] →
      flattener_t.intersect_loop ins fuel fuel t.vertexset.head? t = .error .assertion_t →
      t.flatten ins fuel = .ok none) := by
  refine ⟨?_, ?_, ?_, ?_, ?_⟩
  · intro s1 h
    have hc := flattener_t.walklist_closure h hnd
    refine ⟨hc, ?_⟩
    rintro ⟨a1, a2, b1, b2⟩
    have h0 := hc.1
    unfold flattener_t.wind_sum at h0
    rw [short_eq_of_range a1 a2, short_eq_of_range b1 b2] at h0
    injection h0 with h1 h2
    exact Prod.ext h1 h2
  · intro hc
    rcases flattener_t.walklist_total s hlive with ⟨s1, h⟩ | h
    · exact absurd (flattener_t.walklist_closure h hnd) hc
    · exact h
  · intro ins fuel n d t t1 h1 h2
    exact flattener_t.intersect_loop_walklist_fails h1 h2
  · intro ins fuel n d t t1 t2 h1 h2 h3
    exact flattener_t.intersect_loop_later_fails h1 h2 h3
  · intro ins fuel t h0 h
    exact flattener_t.flatten_false_of_loop h0 h

/-- C13 on `walk_example`, where `walklist` returns and the windings sum to
`(0, 0)`, and on the session that holds the one edge `(0,0)-(3,0)`: after the
sweep at `(0,0)` the active edge list holds the edge, the windings sum to
`(1, 0)`, `walklist` fails its assertion and `flatten()` returns false. -/
theorem C13_walklist_closure_witness :
    ((flattener_t.walk_example FLATTEN_A).ael.Nodup ∧
      (flattener_t.walk_example FLATTEN_A).ael_live ∧
      (∃ s1, (flattener_t.walk_example FLATTEN_A).walklist = .ok s1) ∧
      (flattener_t.walk_example FLATTEN_A).closure ∧
      (flattener_t.walk_example FLATTEN_A).wind_total [0, 1, 2, 3] = (0, 0)) ∧
    ∃ s0 t1, (flattener_t.new FLATTEN_A).add_edges [(0, 0, 3, 0, false)] = .ok s0 ∧
      (s0.set_dot (some 0)).sweep set_insert 10 = .ok t1 ∧ t1.ael = [0] ∧
      t1.ael.Nodup ∧ t1.ael_live ∧ t1.wind_sum t1.ael = ⟨1, 0⟩ ∧ ¬ t1.closure ∧
      t1.walklist = .error .assertion_t ∧ s0.flatten set_insert 10 = .ok none := by
  have n1 : (flattener_t.walk_example FLATTEN_A).ael.Nodup := by decide
  have l1 : (flattener_t.walk_example FLATTEN_A).ael_live := by
    intro e he
    have he : e ∈ [0, 1, 2, 3] := he
    simp only [List.mem_cons, List.mem_singleton, List.not_mem_nil, or_false] at he
    rcases he with rfl | rfl | rfl | rfl <;> exact ⟨_, rfl⟩
  have c1 := C13_walklist_closure _ n1 l1
  have w1 : (flattener_t.walk_example FLATTEN_A).walklist = .ok
      (((flattener_t.walk_example FLATTEN_A).walklist.toOption).getD
        (flattener_t.walk_example FLATTEN_A)) := by rfl
  refine ⟨⟨n1, l1, ⟨_, w1⟩, (c1.1 _ w1).1, (c1.1 _ w1).2 (by decide)⟩, ?_⟩
  obtain ⟨S, hS⟩ : ∃ S, S = (((flattener_t.new FLATTEN_A).add_edges
    [(0, 0, 3, 0, false)]).toOption).getD (flattener_t.new FLATTEN_A) := ⟨_, rfl⟩
  obtain ⟨T, hT⟩ : ∃ T, T = (((S.set_dot (some 0)).sweep set_insert 10).toOption).getD S :=
    ⟨_, rfl⟩
  have e1 : (flattener_t.new FLATTEN_A).add_edges [(0, 0, 3, 0, false)] = .ok S := by
    rw [hS]; rfl
  have e2 : (S.set_dot (some 0)).sweep set_insert 10 = .ok T := by rw [hT, hS]; rfl
  have e3 : T.ael = [0] := by rw [hT, hS]; rfl
  have n2 : T.ael.Nodup := by rw [e3]; decide
  have l2 : T.ael_live := by
    intro e he
    rw [e3] at he
    simp only [List.mem_singleton] at he
    subst he
    rw [hT, hS]
    exact ⟨_, rfl⟩
  have e4 : T.wind_sum T.ael = ⟨1, 0⟩ := by rw [hT, hS]; rfl
  have c2 := C13_walklist_closure T n2 l2
  have nc : ¬ T.closure := by
    intro hc
    have h0 := hc.1
    rw [e4] at h0
    exact absurd h0 (by decide)
  have e5 := c2.2.1 nc
  have e6 : S.ael = [] := by rw [hS]; rfl
  have e7 : S.vertexset.head? = some 0 := by rw [hS]; rfl
  refine ⟨S, T, e1, e2, e3, n2, l2, e4, nc, e5, ?_⟩
  apply c2.2.2.2.2 set_insert 10 S e6
  rw [e7]
  exact c2.2.2.1 set_insert 10 9 0 S T e2 e5

/-! ## `get_result` -/

namespace flattener_t

/-- The list that `get_result` leaves is the list it was given followed by
what it leaves when it is given the empty list; the outcome does not depend
on the list. -/
theorem get_result_loop_append (fuel : Nat) (vs : List Nat) :
    ∀ (result : List (List (Int × Int))) (s : flattener_t),
      get_result_loop fuel vs result s =
        (result ++ (get_result_loop fuel vs [] s).1, (get_result_loop fuel vs [] s).2) := by
  induction vs with
  | nil =>
    intro result s
    simp [get_result_loop]
  | cons v rest ih =>
    intro result s
    unfold get_result_loop
    cases hv : s.vertex v with
    | error x => simp
    | ok vv =>
      simp only
      cases hb : vv.below with
      | nil => exact ih result s
      | cons p more =>
        obtain ⟨k, cur⟩ := p
        simp only
        cases ht : s.trace_from fuel cur with
        | error x => simp
        | ok r =>
          obtain ⟨poly, s1⟩ := r
          simp only
          rw [ih (result ++ [poly]) s1, ih ([] ++ [poly]) s1]
          simp

/-- A trace that returns, through whichever exit, has its polygon pushed. -/
theorem get_result_loop_step {fuel v k cur : Nat} {more : List (Nat × Nat)} {rest : List Nat}
    {result : List (List (Int × Int))} {s s1 : flattener_t} {vv : vertex_t}
    {poly : List (Int × Int)} (hv : s.vertex v = .ok vv) (hb : vv.below = (k, cur) :: more)
    (ht : s.trace_from fuel cur = .ok (poly, s1)) :
    get_result_loop fuel (v :: rest) result s
      = get_result_loop fuel rest (result ++ [poly]) s1 := by
  conv_lhs => unfold get_result_loop
  simp only [hv, hb, ht]

theorem first_sense_none (s : flattener_t) (sense want : Bool) (l : List (Nat × Nat))
    (h : ∀ p ∈ l, ∃ ed, s.edge p.2 = .ok ed ∧ (ed.flags.sense == sense) ≠ want) :
    first_sense s sense want l = .ok none := by
  induction l with
  | nil => rfl
  | cons p rest ih =>
    obtain ⟨k, e⟩ := p
    obtain ⟨ed, h1, h2⟩ := h (k, e) (List.mem_cons_self _ _)
    unfold first_sense
    simp only at h1
    rw [h1]
    simp only [bind, Except.bind]
    rw [if_neg h2]
    exact ih (fun p hp => h p (List.mem_cons_of_mem _ hp))

/-- The exit of the trace at a vertex from which no edge leads on. -/
theorem trace_dead_end (s s1 : flattener_t) (first cur fuel : Nat) (sense flip : Bool)
    (poly : List (Int × Int)) (ce : edge_t) (vf vt : vertex_t)
    (hce : s.edge cur = .ok ce)
    (hvf : s.vertex (if flip then ce.to_ else ce.from_) = .ok vf)
    (hrm : s.remove cur = .ok s1)
    (hne : (if flip then ce.from_ else ce.to_) ≠ first)
    (hvt : s1.vertex (if flip then ce.from_ else ce.to_) = .ok vt)
    (ha : ∀ p ∈ vt.above, ∃ ed, s1.edge p.2 = .ok ed ∧ ed.flags.sense = sense)
    (hb : ∀ p ∈ vt.below, ∃ ed, s1.edge p.2 = .ok ed ∧ ed.flags.sense ≠ sense) :
    trace first sense (fuel + 1) cur flip poly s = .ok (poly ++ [(vf.x.i, vf.y.i)], s1) := by
  have fa : first_sense s1 sense false vt.above = .ok none := by
    apply first_sense_none
    intro p hp
    obtain ⟨ed, h1, h2⟩ := ha p hp
    exact ⟨ed, h1, by simp [h2]⟩
  have fb : first_sense s1 sense true vt.below = .ok none := by
    apply first_sense_none
    intro p hp
    obtain ⟨ed, h1, h2⟩ := hb p hp
    exact ⟨ed, h1, by simpa using h2⟩
  unfold trace
  simp only [bind, Except.bind, hce, hvf, hrm, if_neg hne, hvt, fa, fb, pure, Except.pure]

end flattener_t

/-- C16, as stated, fails: in the session that holds the one edge
`(0,0)-(3,0)` the trace from `(0,0)` removes the edge, arrives at `(3,0)`,
which is not the start and has no edge left, and `get_result` returns true with
the one-point polygon `[(0,0)]` in the result list. -/
theorem C16_dangling_trace_counterexample :
    ∃ s s1 ce vt, (flattener_t.new FLATTEN_A).add_edges [(0, 0, 3, 0, false)] = .ok s ∧
      s.vertexset = [0, 1] ∧ s.edge 0 = .ok ce ∧ ce.from_ = 0 ∧ ce.to_ = 1 ∧
      flatten_arrangement.get_result 10 s [] = .ok ([[(0, 0)]], some s1) ∧
      s1.vertex 1 = .ok vt ∧ vt.above = [] ∧ vt.below = [] :=
  ⟨_, _, _, _, rfl, rfl, rfl, rfl, rfl, rfl, rfl, rfl, rfl⟩

/-- C16, amended: a dangling edge ends the trace, and what was traced is
pushed.  For every state, when the trace has pushed the `from` point of the
current edge, has removed the edge and stands at a vertex that is not the
start and has neither an above-edge whose sense differs from the traced sense
nor a below-edge whose sense equals it, the trace returns the points collected
so far; and for every trace that returns, `get_result` appends its polygon to
the result list, where it stays until the end of the call. -/
theorem C16_dangling_trace_pushed (s s1 : flattener_t) (first cur fuel : Nat)
    (sense flip : Bool) (poly : List (Int × Int)) (ce : edge_t) (vf vt : vertex_t)
    (hce : s.edge cur = .ok ce)
    (hvf : s.vertex (if flip then ce.to_ else ce.from_) = .ok vf)
    (hrm : s.remove cur = .ok s1)
    (hne : (if flip then ce.from_ else ce.to_) ≠ first)
    (hvt : s1.vertex (if flip then ce.from_ else ce.to_) = .ok vt)
    (ha : ∀ p ∈ vt.above, ∃ ed, s1.edge p.2 = .ok ed ∧ ed.flags.sense = sense)
    (hb : ∀ p ∈ vt.below, ∃ ed, s1.edge p.2 = .ok ed ∧ ed.flags.sense ≠ sense) :
    flattener_t.trace first sense (fuel + 1) cur flip poly s
      = .ok (poly ++ [(vf.x.i, vf.y.i)], s1) ∧
    (∀ (t t1 : flattener_t) (n v k e : Nat) (more : List (Nat × Nat)) (rest : List Nat)
      (result : List (List (Int × Int))) (vv : vertex_t) (pts : List (Int × Int)),
      t.vertex v = .ok vv → vv.below = (k, e) :: more → t.trace_from n e = .ok (pts, t1) →
      t.get_result_loop n (v :: rest) result = t1.get_result_loop n rest (result ++ [pts]) ∧
      ∃ later, (t.get_result_loop n (v :: rest) result).1 = result ++ pts :: later) := by
  refine ⟨flattener_t.trace_dead_end s s1 first cur fuel sense flip poly ce vf vt hce hvf hrm
    hne hvt ha hb, ?_⟩
  intro t t1 n v k e more rest result vv pts hv hbel ht
  have h1 := @flattener_t.get_result_loop_step n v k e more rest result t t1 vv pts hv hbel ht
  refine ⟨h1, (t1.get_result_loop n rest []).1, ?_⟩
  rw [h1, flattener_t.get_result_loop_append]
  simp

/-- C16, amended, in the session that holds the one edge `(0,0)-(3,0)`: the
trace from `(0,0)` ends at `(3,0)` with the points `[(0,0)]`, and the result
list that was `[[(7,7)]]` ends as `[[(7,7)], [(0,0)]]`. -/
theorem C16_dangling_trace_pushed_witness :
    ∃ s s1 ce vf vt, (flattener_t.new FLATTEN_A).add_edges [(0, 0, 3, 0, false)] = .ok s ∧
      s.edge 0 = .ok ce ∧ s.vertex ce.from_ = .ok vf ∧ s.remove 0 = .ok s1 ∧
      ce.to_ ≠ 0 ∧ s1.vertex ce.to_ = .ok vt ∧ vt.above = [] ∧ vt.below = [] ∧
      flattener_t.trace 0 false (9 + 1) 0 false [] s = .ok ([] ++ [(vf.x.i, vf.y.i)], s1) ∧
      (vf.x.i, vf.y.i) = (0, 0) ∧
      (∃ later, (s.get_result_loop 10 (0 :: [1]) [[(7, 7)]]).1
        = [[(7, 7)]] ++ [(0, 0)] :: later) ∧
      (s.get_result 10 [[(7, 7)]]).1 = [[(7, 7)], [(0, 0)]] := by
  obtain ⟨S, hS⟩ : ∃ S, S = (((flattener_t.new FLATTEN_A).add_edges
    [(0, 0, 3, 0, false)]).toOption).getD (flattener_t.new FLATTEN_A) := ⟨_, rfl⟩
  obtain ⟨T, hT⟩ : ∃ T, T = ((S.remove 0).toOption).getD S := ⟨_, rfl⟩
  have e0 : (flattener_t.new FLATTEN_A).add_edges [(0, 0, 3, 0, false)] = .ok S := by
    rw [hS]; rfl
  have e1 : S.edge 0 = .ok { raw := ⟨0, 0, 3, 0⟩, from_ := 0, to_ := 1, wind := ⟨1, 0⟩ } := by
    rw [hS]; rfl
  have e2 : S.vertex 0 = .ok { x := rat_t.ofInt 0, y := rat_t.ofInt 0, below := [(1, 0)] } := by
    rw [hS]; rfl
  have e3 : S.remove 0 = .ok T := by rw [hT, hS]; rfl
  have e4 : T.vertex 1 = .ok { x := rat_t.ofInt 3, y := rat_t.ofInt 0 } := by
    rw [hT, hS]; rfl
  have e5 : S.trace_from 10 0 = .ok ([(0, 0)], T) := by rw [hT, hS]; rfl
  have c := C16_dangling_trace_pushed S T 0 0 9 false false [] _ _ _ e1 e2 e3 (by decide) e4
    (fun p hp => absurd hp (List.not_mem_nil p)) (fun p hp => absurd hp (List.not_mem_nil p))
  refine ⟨S, T, _, _, _, e0, e1, e2, e3, by decide, e4, rfl, rfl, c.1, rfl, ?_, ?_⟩
  · exact (c.2 S T 10 0 1 0 [] [1] [[(7, 7)]] _ [(0, 0)] e2 rfl e5).2
  · rw [hS]; rfl

/-- C17, as stated, fails: the session holds the triangle `(0,0) (4,0) (0,4)`
and the edge `(0,10)-(3,10)`; `flatten()` returns false, because `walklist`
fails its last assertion at `(0,10)`, after the sweep has made the edge active
there.  In the state that this leaves, `get_result` traces the triangle,
pushes it, fails the assertion of `remove` on the active edge and returns
false with the triangle in the list that was empty. -/
theorem C17_partial_result_counterexample :
    ∃ s0 t2 w, (flattener_t.new FLATTEN_A).add_edges
        [(0, 0, 4, 0, false), (4, 0, 0, 4, false), (0, 4, 0, 0, false), (0, 10, 3, 10, false)]
        = .ok s0 ∧
      s0.flatten set_insert 20 = .ok none ∧
      (do
        let a ← (s0.set_dot (some 0)).sweep set_insert 20
        let a ← a.walklist
        let a ← (a.set_dot (some 1)).sweep set_insert 20
        let a ← a.walklist
        let a ← (a.set_dot (some 2)).sweep set_insert 20
        let a ← a.walklist
        let a ← (a.set_dot (some 3)).sweep set_insert 20
        flattener_t.walklist_loop a.flatten_rule a ⟨0, 0⟩ a.ael) = .ok (w, t2) ∧
      w.is_zero = false ∧
      flatten_arrangement.get_result 20 t2 [] = .ok ([[(0, 0), (4, 0), (0, 4)]], none) :=
  ⟨_, _, _, rfl, rfl, rfl, rfl, rfl⟩

/-- C15 fails on two triangles.  Shape A is `(1,1) (0,1) (2,0)`, shape B is
`(2,3) (1,2) (0,0)`, the rule is `FLATTEN_A_XOR_B`.  `flatten()` returns true.
Three sub-edges are merged by `goes_to` into the one edge from `(0,1)` to
`(1,1)` when they are snapped: two of winding `-1` and sense true, and last one
of winding `+1` and sense false; the edge is left with winding `-1` and the
sense of the last.  `get_result` then returns two open chains: the first trace
ends at `(1,1)`, which is not its start `(0,0)` (there is no edge between
`(1,2)` and `(0,0)`), the second has the one point `(0,1)`, and the edge from
`(0,0)` to `(0,1)` is left in the graph. -/
theorem C15_open_contour :
    ∃ s t t1 ed, (flattener_t.new FLATTEN_A_XOR_B).add_edges
        [(1, 1, 0, 1, false), (0, 1, 2, 0, false), (2, 0, 1, 1, false),
         (2, 3, 1, 2, true), (1, 2, 0, 0, true), (0, 0, 2, 3, true)] = .ok s ∧
      s.flatten set_insert 100 = .ok (some t) ∧
      t.edge 30 = .ok ed ∧ (t.pos ed.from_, t.pos ed.to_) =
        (some (rat_t.ofInt 0, rat_t.ofInt 1), some (rat_t.ofInt 1, rat_t.ofInt 1)) ∧
      ed.wind = ⟨-1, 0⟩ ∧ ed.flags.sense = false ∧
      flatten_arrangement.get_result 100 t []
        = .ok ([[(0, 0), (1, 1), (2, 3), (1, 2)], [(0, 1)]], some t1) ∧
      (t.pos 5, t.pos 4) =
        (some (rat_t.ofInt 0, rat_t.ofInt 0), some (rat_t.ofInt 1, rat_t.ofInt 2)) ∧
      (t.below 5 4, t.above 5 4) = (none, none) ∧
      (t1.pos 5, t1.pos 1) =
        (some (rat_t.ofInt 0, rat_t.ofInt 0), some (rat_t.ofInt 0, rat_t.ofInt 1)) ∧
      t1.below 5 1 = some 28 :=
  ⟨_, _, _, _, rfl, rfl, rfl, rfl, rfl, rfl, rfl, rfl, rfl, rfl, rfl⟩

/-- C20 fails on two triangles.  Shape A is `(0,0) (0,1) (2,0)`, shape B is
`(1,0) (2,0) (0,2)`, the rule is `FLATTEN_A_OR_B`.  The sides `(0,1)-(2,0)` and
`(0,2)-(1,0)` cross at `(2/3, 2/3)`, which is snapped to `(1,1)`; the side
`(2,0)-(0,2)` has integer ends, stays out of the snap set and is not split at
`(1,1)`, which lies on it.  `flatten()` returns true and `get_result` yields
the one polygon `(2,0) (0,2) (1,1) (0,1) (0,0)`, which runs from `(2,0)` to
`(0,2)` and back to `(1,1)` along the same line.  Its five edges, added as
shape A to a new session with `FLATTEN_A`, give after `flatten()` and
`get_result` the one polygon `(0,0) (2,0) (1,1) (0,1)`: the point `(0,2)` is
gone. -/
theorem C20_not_idempotent :
    ∃ s t t1 s2 t2 t3, (flattener_t.new FLATTEN_A_OR_B).add_edges
        [(0, 0, 0, 1, false), (0, 1, 2, 0, false), (2, 0, 0, 0, false),
         (1, 0, 2, 0, true), (2, 0, 0, 2, true), (0, 2, 1, 0, true)] = .ok s ∧
      s.flatten set_insert 100 = .ok (some t) ∧
      flatten_arrangement.get_result 100 t []
        = .ok ([[(2, 0), (0, 2), (1, 1), (0, 1), (0, 0)]], some t1) ∧
      (flattener_t.new FLATTEN_A).add_edges
        [(2, 0, 0, 2, false), (0, 2, 1, 1, false), (1, 1, 0, 1, false),
         (0, 1, 0, 0, false), (0, 0, 2, 0, false)] = .ok s2 ∧
      s2.flatten set_insert 100 = .ok (some t2) ∧
      flatten_arrangement.get_result 100 t2 []
        = .ok ([[(0, 0), (2, 0), (1, 1), (0, 1)]], some t3) :=
  ⟨_, _, _, _, _, _, rfl, rfl, rfl, rfl, rfl, rfl⟩

/-! ## Worked examples -/

/-- C19: overlapping squares, intersection.  With `FLATTEN_A_AND_B`,
A = `(0,0) (20,0) (20,20) (0,20)` as shape A and B = `(10,10) (30,10) (30,30)
(10,30)` as shape B, the sweep finds the two crossings `(20,10)` and `(10,20)`
(the only vertices it adds to the eight corners), `intersect()` leaves the four
edges of the square `(10,10) (20,10) (20,20) (10,20)` and culls all others,
`flatten()` returns true, and `get_result` returns true with the one polygon
`(10,10) (20,10) (20,20) (10,20)`: each corner once, in cyclic order, and no
edge is left in the graph. -/
theorem C19_overlapping_squares_and :
    ∃ s s1 t t1, (flattener_t.new FLATTEN_A_AND_B).add_edges
        [(0, 0, 20, 0, false), (20, 0, 20, 20, false), (20, 20, 0, 20, false),
         (0, 20, 0, 0, false),
         (10, 10, 30, 10, true), (30, 10, 30, 30, true), (30, 30, 10, 30, true),
         (10, 30, 10, 10, true)] = .ok s ∧
      s.verts.length = 8 ∧
      s.intersect set_insert 100 = .ok s1 ∧
      s1.verts.length = 10 ∧
      (s1.pos 8, s1.pos 9) = (some (rat_t.ofInt 20, rat_t.ofInt 10),
        some (rat_t.ofInt 10, rat_t.ofInt 20)) ∧
      s1.edge_list = [((10, 10), (20, 10)), ((10, 10), (10, 20)), ((20, 10), (20, 20)),
        ((10, 20), (20, 20))] ∧
      s.flatten set_insert 100 = .ok (some t) ∧
      t.edge_list = [((10, 10), (20, 10)), ((10, 10), (10, 20)), ((20, 10), (20, 20)),
        ((10, 20), (20, 20))] ∧
      flatten_arrangement.get_result 100 t []
        = .ok ([[(10, 10), (20, 10), (20, 20), (10, 20)]], some t1) ∧
      t1.edge_list = [] :=
  ⟨_, _, _, _, rfl, rfl, rfl, rfl, rfl, rfl, rfl, rfl, rfl, rfl⟩

/-! ## Canonical coordinates -/

theorem rat_t.mk3_canonical {i n d : Int} {r : rat_t} (h : rat_t.mk3 i n d = .ok r) :
    r.canonical := by
  by_cases hd : d = 0
  · subst hd
    unfold rat_t.mk3 rat_t.normalize at h
    simp at h
  · obtain ⟨r1, e1, c1, -⟩ := rat_t.mk3_eq i n d hd
    rw [e1] at h
    injection h with h
    exact h ▸ c1

theorem intersect_point_canonical {p q : line_t} {x y : rat_t}
    (h : intersect_point p q = .ok (x, y)) : x.canonical ∧ y.canonical := by
  unfold intersect_point at h
  dsimp only at h
  split at h
  · exact absurd h (by simp)
  · rename_i x1 hx
    split at h
    · exact absurd h (by simp)
    · rename_i y1 hy
      injection h with h
      injection h with h1 h2
      exact ⟨h1 ▸ rat_t.mk3_canonical hx, h2 ▸ rat_t.mk3_canonical hy⟩

/-! ## Relations that hold along the pipeline -/

namespace flattener_t

section
variable {R : flattener_t → flattener_t → Prop}

theorem remove_rel (L : link_steps R) (F : flag_steps R) {s s1 : flattener_t} {p : Nat}
    (h : s.remove p = .ok s1) : R s s1 := by
  unfold remove at h
  split at h
  · exact absurd h (by simp)
  · rename_i t ht
    split at h
    · exact absurd h (by simp)
    · split at h
      · exact absurd h (by simp)
      · split at h
        · exact absurd h (by simp)
        · injection h with h
          rw [← h]
          exact F.trans (L.unlink ht) (L.delete_edge t p)

theorem push_rel (F : flag_steps R) {s s1 : flattener_t} {e : Option Nat}
    (h : s.push e = .ok s1) : R s s1 := by
  unfold push at h
  cases e with
  | none => exact absurd h (by simp [throw, throwThe, MonadExceptOf.throw])
  | some e =>
    simp only [] at h
    obtain ⟨ed, hed, h⟩ := bind_ok h
    obtain ⟨dot, hdot, h⟩ := bind_ok h
    obtain ⟨vdot, hvdot, h⟩ := bind_ok h
    obtain ⟨vto, hvto, h⟩ := bind_ok h
    split at h
    · rw [← pure_ok h]; exact F.refl s
    · obtain ⟨c1, -, h⟩ := bind_ok h
      split at h
      · rw [← pure_ok h]; exact F.refl s
      · obtain ⟨-, -, h⟩ := bind_ok h
        split at h
        · rw [← pure_ok h]; exact F.refl s
        · obtain ⟨vfrom, -, h⟩ := bind_ok h
          obtain ⟨c2, -, h⟩ := bind_ok h
          split at h
          · obtain ⟨-, -, h⟩ := bind_ok h
            rw [← pure_ok h]; exact F.refl s
          · rw [← pure_ok h]
            exact F.trans (F.set_edge _ _ _ _ hed) (F.set_todo _ _)

theorem split_rel (J : join_steps R) (F : flag_steps R) {s s1 : flattener_t} {p v : Nat}
    (h : s.split p v = .ok s1) : R s s1 := by
  unfold split at h
  obtain ⟨pe, hpe, h⟩ := bind_ok h
  obtain ⟨-, -, h⟩ := bind_ok h
  obtain ⟨-, -, h⟩ := bind_ok h
  split at h
  · obtain ⟨⟨r, t⟩, hg, h⟩ := bind_ok h
    exact F.trans (J.goes_to hg) (push_rel F h)
  · obtain ⟨dot, -, h⟩ := bind_ok h
    obtain ⟨vdot, -, h⟩ := bind_ok h
    obtain ⟨vv, -, h⟩ := bind_ok h
    obtain ⟨vfrom, -, h⟩ := bind_ok h
    obtain ⟨vto, -, h⟩ := bind_ok h
    obtain ⟨-, -, h⟩ := bind_ok h
    obtain ⟨c1, -, h⟩ := bind_ok h
    obtain ⟨-, -, h⟩ := bind_ok h
    obtain ⟨c2, -, h⟩ := bind_ok h
    obtain ⟨-, -, h⟩ := bind_ok h
    obtain ⟨⟨r1, t1⟩, hg1, h⟩ := bind_ok h
    obtain ⟨t2, hp1, h⟩ := bind_ok h
    obtain ⟨pe2, -, h⟩ := bind_ok h
    obtain ⟨⟨r2, t3⟩, hg2, h⟩ := bind_ok h
    exact F.trans (F.trans (F.trans (J.goes_to hg1) (push_rel F hp1)) (J.goes_to hg2))
      (push_rel F h)

theorem intersect_edges_rel (V : find_steps R) (J : join_steps R) (F : flag_steps R)
    {s s1 : flattener_t} {p q : Nat} (h : s.intersect_edges p q = .ok s1) : R s s1 := by
  unfold intersect_edges at h
  obtain ⟨pe, -, h⟩ := bind_ok h
  obtain ⟨qe, -, h⟩ := bind_ok h
  obtain ⟨⟨x, y⟩, hxy, h⟩ := bind_ok h
  obtain ⟨⟨v, t1⟩, hf, h⟩ := bind_ok h
  obtain ⟨t2, hs1, h⟩ := bind_ok h
  obtain ⟨cx, cy⟩ := intersect_point_canonical hxy
  exact F.trans (F.trans (V.find cx cy hf) (split_rel J F hs1)) (split_rel J F h)

theorem retire_rel (L : link_steps R) (F : flag_steps R) {s s1 : flattener_t} {p : Nat}
    (h : s.retire p = .ok s1) : R s s1 := by
  unfold retire at h
  obtain ⟨pe, hpe, h⟩ := bind_ok h
  obtain ⟨t1, h1, h⟩ := bind_ok h
  obtain ⟨t2, h2, h⟩ := bind_ok h
  obtain ⟨pe2, hpe2, h⟩ := bind_ok h
  have k1 : R s t1 := by
    split at h1
    · obtain ⟨pos, -, h1⟩ := bind_ok h1
      rw [← pure_ok h1]
      exact F.trans (F.set_ael s _) (F.set_edge (s := s.set_ael _) _ _ _ _ hpe)
    · rw [← pure_ok h1]; exact F.refl s
  rw [← pure_ok h]
  exact F.trans (F.trans k1 (L.unlink h2)) (F.set_edge _ _ _ _ hpe2)

theorem collide_rel (V : find_steps R) (J : join_steps R) (L : link_steps R) (F : flag_steps R)
    {s s1 : flattener_t} {e p q : Nat} {v : Option Nat} {f : flavour}
    (h : s.collide e p q v f = .ok s1) : R s s1 := by
  unfold collide at h
  obtain ⟨ed, -, h⟩ := bind_ok h
  obtain ⟨-, -, h⟩ := bind_ok h
  obtain ⟨-, -, h⟩ := bind_ok h
  obtain ⟨-, -, h⟩ := bind_ok h
  obtain ⟨t1, h1, h⟩ := bind_ok h
  obtain ⟨t2, h2, h⟩ := bind_ok h
  obtain ⟨t3, h3, h⟩ := bind_ok h
  obtain ⟨pe, -, h⟩ := bind_ok h
  obtain ⟨-, -, h⟩ := bind_ok h
  have k3 : R t2 t3 := by
    cases f with
    | intersect =>
      simp only [] at h3
      obtain ⟨t, ht, h3⟩ := bind_ok h3
      obtain ⟨qe, -, h3⟩ := bind_ok h3
      obtain ⟨-, -, h3⟩ := bind_ok h3
      rw [← pure_ok h3]
      exact F.trans (intersect_edges_rel V J F ht) (L.delete_edge t q)
    | split =>
      simp only [] at h3
      obtain ⟨w, -, h3⟩ := bind_ok h3
      obtain ⟨t, ht, h3⟩ := bind_ok h3
      exact F.trans (split_rel J F ht) (split_rel J F h3)
  rw [← pure_ok h]
  exact F.trans (F.trans (F.trans (retire_rel L F h1) (retire_rel L F h2)) k3)
    (L.delete_edge t3 p)

theorem insert_rel (V : find_steps R) (J : join_steps R) (L : link_steps R) (F : flag_steps R)
    {ins : ael_insert_t} {s s1 : flattener_t} {e : Nat}
    (h : s.insert ins e = .ok s1) : R s s1 := by
  unfold insert at h
  obtain ⟨ed, hed, h⟩ := bind_ok h
  split at h
  · rw [← pure_ok h]; exact F.refl s
  · split at h
    · rw [← pure_ok h]
      exact F.trans (F.set_ael s _) (F.set_edge (s := s.set_ael _) _ _ _ _ hed)
    · exact collide_rel V J L F h
    · exact absurd h (by simp)

end

end flattener_t

namespace flattener_t

section
variable {R : flattener_t → flattener_t → Prop}

theorem sweep_above_rel (F : flag_steps R) {s s1 : flattener_t} {next next1 : Option Nat}
    {l : List (Nat × Nat)} (h : s.sweep_above next l = .ok (next1, s1)) : R s s1 := by
  induction l generalizing s next with
  | nil =>
    unfold sweep_above at h
    have := pure_ok h
    injection this with _ h2
    rw [← h2]; exact F.refl s
  | cons a rest ih =>
    obtain ⟨w, e⟩ := a
    unfold sweep_above at h
    obtain ⟨ed, hed, h⟩ := bind_ok h
    split at h
    · obtain ⟨pos, -, h⟩ := bind_ok h
      obtain ⟨n1, -, h⟩ := bind_ok h
      have k : R s ((s.set_ael (s.ael.erase pos)).set_edge e
          { ed with flags := { ed.flags with active := false } }) :=
        F.trans (F.set_ael s _) (F.set_edge (s := s.set_ael _) _ _ _ _ hed)
      exact F.trans k (ih h)
    · exact ih h

theorem todo_push_back_rel (F : flag_steps R) {s s1 : flattener_t} {e : Nat}
    (h : s.todo_push_back e = .ok s1) : R s s1 := by
  unfold todo_push_back at h
  obtain ⟨ed, hed, h⟩ := bind_ok h
  split at h
  · rw [← pure_ok h]
    exact F.trans (F.set_edge _ _ _ _ hed) (F.set_todo _ _)
  · rw [← pure_ok h]; exact F.refl s

theorem sweep_next_rel (F : flag_steps R) {s s1 : flattener_t} {next : Option Nat}
    (h : s.sweep_next next = .ok s1) : R s s1 := by
  unfold sweep_next at h
  cases next with
  | none => rw [← pure_ok h]; exact F.refl s
  | some e =>
    simp only [] at h
    obtain ⟨ed, hed, h⟩ := bind_ok h
    obtain ⟨-, -, h⟩ := bind_ok h
    have k : R s ((s.set_ael (s.ael.erase e)).set_edge e
        { ed with flags := { ed.flags with active := false } }) :=
      F.trans (F.set_ael s _) (F.set_edge (s := s.set_ael _) _ _ _ _ hed)
    exact F.trans k (todo_push_back_rel F h)

theorem sweep_below_rel (F : flag_steps R) {s s1 : flattener_t} {l : List (Nat × Nat)}
    (h : s.sweep_below l = .ok s1) : R s s1 := by
  induction l generalizing s with
  | nil =>
    unfold sweep_below at h
    rw [← pure_ok h]; exact F.refl s
  | cons a rest ih =>
    obtain ⟨w, e⟩ := a
    unfold sweep_below at h
    obtain ⟨ed, hed, h⟩ := bind_ok h
    obtain ⟨-, -, h⟩ := bind_ok h
    obtain ⟨t, ht, h⟩ := bind_ok h
    exact F.trans (todo_push_back_rel F ht) (ih h)

theorem sweep_todo_rel {ins : ael_insert_t}
    (I : ∀ {s s1 : flattener_t} {e : Nat}, s.insert ins e = .ok s1 → R s s1)
    (F : flag_steps R) {fuel : Nat} {s s1 : flattener_t}
    (h : sweep_todo ins fuel s = .ok s1) : R s s1 := by
  induction fuel generalizing s with
  | zero =>
    unfold sweep_todo at h
    exact absurd h (by simp)
  | succ n ih =>
    unfold sweep_todo at h
    split at h
    · rw [← pure_ok h]; exact F.refl s
    · rename_i e rest hrest
      obtain ⟨ed, hed, h⟩ := bind_ok h
      obtain ⟨-, -, h⟩ := bind_ok h
      have k1 : R s ((s.set_todo rest).set_edge e
          { ed with flags := { ed.flags with todo := false } }) :=
        F.trans (F.set_todo s _) (F.set_edge (s := s.set_todo _) _ _ _ _ hed)
      split at h
      · exact F.trans k1 (ih h)
      · obtain ⟨t, ht, h⟩ := bind_ok h
        exact F.trans (F.trans k1 (I ht)) (ih h)

theorem sweep_rel {ins : ael_insert_t}
    (I : ∀ {s s1 : flattener_t} {e : Nat}, s.insert ins e = .ok s1 → R s s1)
    (F : flag_steps R) {fuel : Nat} {s s1 : flattener_t}
    (h : s.sweep ins fuel = .ok s1) : R s s1 := by
  unfold sweep at h
  obtain ⟨-, -, h⟩ := bind_ok h
  obtain ⟨dot, -, h⟩ := bind_ok h
  obtain ⟨vdot, -, h⟩ := bind_ok h
  obtain ⟨⟨next, t1⟩, h1, h⟩ := bind_ok h
  obtain ⟨t2, h2, h⟩ := bind_ok h
  obtain ⟨vdot2, -, h⟩ := bind_ok h
  obtain ⟨t3, h3, h⟩ := bind_ok h
  exact F.trans (F.trans (F.trans (sweep_above_rel F h1) (sweep_next_rel F h2))
    (sweep_below_rel F h3)) (sweep_todo_rel I F h)

theorem walklist_loop_rel (F : flag_steps R) {rule : Int} {s s1 : flattener_t} {w w1 : wind_t}
    {l : List Nat} (h : walklist_loop rule s w l = .ok (w1, s1)) : R s s1 := by
  induction l generalizing s w with
  | nil =>
    unfold walklist_loop at h
    have := pure_ok h
    injection this with _ h2
    rw [← h2]; exact F.refl s
  | cons e rest ih =>
    unfold walklist_loop at h
    obtain ⟨ed, hed, h⟩ := bind_ok h
    obtain ⟨-, -, h⟩ := bind_ok h
    split at h
    · obtain ⟨-, -, h⟩ := bind_ok h
      obtain ⟨-, -, h⟩ := bind_ok h
      exact ih h
    · obtain ⟨fl, -, h⟩ := bind_ok h
      exact F.trans (F.set_edge _ _ _ _ hed) (ih h)

theorem walklist_rel (F : flag_steps R) {s s1 : flattener_t} (h : s.walklist = .ok s1) : R s s1 := by
  unfold walklist at h
  obtain ⟨-, -, h⟩ := bind_ok h
  obtain ⟨⟨w, t⟩, h1, h⟩ := bind_ok h
  obtain ⟨-, -, h⟩ := bind_ok h
  rw [← pure_ok h]
  exact walklist_loop_rel F h1

theorem cull_loop_rel (L : link_steps R) (F : flag_steps R) {s s1 : flattener_t} {l : List (Nat × Nat)}
    (h : s.cull_loop l = .ok s1) : R s s1 := by
  induction l generalizing s with
  | nil =>
    unfold cull_loop at h
    rw [← pure_ok h]; exact F.refl s
  | cons a rest ih =>
    obtain ⟨w, e⟩ := a
    unfold cull_loop at h
    obtain ⟨ed, hed, h⟩ := bind_ok h
    split at h
    · obtain ⟨t, ht, h⟩ := bind_ok h
      exact F.trans (remove_rel L F ht) (ih h)
    · exact ih h

theorem cull_rel (L : link_steps R) (F : flag_steps R) {s s1 : flattener_t} {v : Nat} (h : s.cull v = .ok s1) : R s s1 := by
  unfold cull at h
  obtain ⟨vv, -, h⟩ := bind_ok h
  exact cull_loop_rel L F h

theorem fold_rel (J : join_steps R) (L : link_steps R) (F : flag_steps R) {s s1 : flattener_t} {v : Nat} (h : s.fold v = .ok s1) : R s s1 := by
  unfold fold at h
  obtain ⟨vv, -, h⟩ := bind_ok h
  split at h
  · obtain ⟨ae, -, h⟩ := bind_ok h
    obtain ⟨be, -, h⟩ := bind_ok h
    split at h
    · obtain ⟨⟨r, t1⟩, h1, h⟩ := bind_ok h
      obtain ⟨t2, h2, h⟩ := bind_ok h
      exact F.trans (F.trans (J.goes_to h1) (remove_rel L F h2)) (remove_rel L F h)
    · rw [← pure_ok h]; exact F.refl s
  · rw [← pure_ok h]; exact F.refl s

theorem for_each_rel (F : flag_steps R) {f : flattener_t → Nat → Except fault flattener_t}
    (hf : ∀ s s1 v, f s v = .ok s1 → R s s1) {s s1 : flattener_t} {l : List Nat}
    (h : for_each f s l = .ok s1) : R s s1 := by
  induction l generalizing s with
  | nil =>
    unfold for_each at h
    rw [← pure_ok h]; exact F.refl s
  | cons v rest ih =>
    unfold for_each at h
    obtain ⟨t, ht, h⟩ := bind_ok h
    exact F.trans (hf _ _ _ ht) (ih h)

theorem intersect_loop_rel {ins : ael_insert_t}
    (I : ∀ {s s1 : flattener_t} {e : Nat}, s.insert ins e = .ok s1 → R s s1)
    (F : flag_steps R) {fuel n : Nat} {cur : Option Nat}
    {s s1 : flattener_t} (h : intersect_loop ins fuel n cur s = .ok s1) : R s s1 := by
  induction n generalizing s cur with
  | zero =>
    unfold intersect_loop at h
    exact absurd h (by simp)
  | succ n ih =>
    cases cur with
    | none =>
      unfold intersect_loop at h
      rw [← pure_ok h]; exact F.refl s
    | some d =>
      unfold intersect_loop at h
      obtain ⟨t1, h1, h⟩ := bind_ok h
      obtain ⟨t2, h2, h⟩ := bind_ok h
      exact F.trans (F.trans (F.trans (F.set_dot s _) (sweep_rel I F h1))
        (walklist_rel F h2)) (ih h)

theorem intersect_rel {ins : ael_insert_t}
    (I : ∀ {s s1 : flattener_t} {e : Nat}, s.insert ins e = .ok s1 → R s s1)
    (J : join_steps R) (L : link_steps R) (F : flag_steps R) {fuel : Nat} {s s1 : flattener_t}
    (h : s.intersect ins fuel = .ok s1) : R s s1 := by
  unfold intersect at h
  obtain ⟨-, -, h⟩ := bind_ok h
  obtain ⟨t1, h1, h⟩ := bind_ok h
  obtain ⟨t2, h2, h⟩ := bind_ok h
  exact F.trans (F.trans (intersect_loop_rel I F h1)
    (for_each_rel F (fun _ _ _ => cull_rel L F) h2)) (for_each_rel F (fun _ _ _ => fold_rel J L F) h)

theorem add_edge_rel (V : find_steps R) (J : join_steps R) (F : flag_steps R) {s s1 : flattener_t} {x y u v : Int} {b : Bool}
    (h : s.add_edge x y u v b = .ok s1) : R s s1 := by
  unfold add_edge at h
  split at h
  · exact absurd h (by simp)
  · rename_i p t1 h1
    split at h
    · exact absurd h (by simp)
    · rename_i q t2 h2
      split at h
      · exact absurd h (by simp)
      · rename_i r t3 h3
        injection h with h
        rw [← h]
        exact F.trans (F.trans (V.find (rat_t.canonical_ofInt _) (rat_t.canonical_ofInt _) h1)
          (V.find (rat_t.canonical_ofInt _) (rat_t.canonical_ofInt _) h2)) (J.goes_to h3)

theorem add_edges_rel (V : find_steps R) (J : join_steps R) (F : flag_steps R) {s s1 : flattener_t} {l : List (Int × Int × Int × Int × Bool)}
    (h : s.add_edges l = .ok s1) : R s s1 := by
  induction l generalizing s with
  | nil =>
    unfold add_edges at h
    rw [← pure_ok h]; exact F.refl s
  | cons a rest ih =>
    obtain ⟨x, y, u, v, b⟩ := a
    unfold add_edges at h
    obtain ⟨t, ht, h⟩ := bind_ok h
    exact F.trans (add_edge_rel V J F ht) (ih h)

theorem add_pin_rel (P : pin_steps R) {s s1 : flattener_t} {e p : Nat} {above : Bool}
    (h : s.add_pin e p above = .ok s1) : R s s1 := by
  unfold add_pin at h
  obtain ⟨vp, -, h⟩ := bind_ok h
  obtain ⟨-, -, h⟩ := bind_ok h
  obtain ⟨ed, hed, h⟩ := bind_ok h
  obtain ⟨vfrom, -, h⟩ := bind_ok h
  obtain ⟨pins1, -, h⟩ := bind_ok h
  rw [← pure_ok h]
  exact P.set_pins _ hed

theorem hittest_loop_rel (P : pin_steps R) (F : flag_steps R) {s s1 : flattener_t} {v : Nat} {l : List Nat}
    (h : s.hittest_loop v l = .ok s1) : R s s1 := by
  induction l generalizing s with
  | nil =>
    unfold hittest_loop at h
    rw [← pure_ok h]; exact F.refl s
  | cons p rest ih =>
    unfold hittest_loop at h
    obtain ⟨vv, hvv, h⟩ := bind_ok h
    obtain ⟨pe, -, h⟩ := bind_ok h
    obtain ⟨pf, -, h⟩ := bind_ok h
    obtain ⟨pt, -, h⟩ := bind_ok h
    obtain ⟨r1, -, h⟩ := bind_ok h
    obtain ⟨r2, -, h⟩ := bind_ok h
    obtain ⟨ov, -, h⟩ := bind_ok h
    split at h
    · exact ih h
    · dsimp only at h
      split at h
      · obtain ⟨⟨w, t1⟩, h1, h⟩ := bind_ok h
        obtain ⟨t2, h2, h⟩ := bind_ok h
        exact F.trans (F.trans (P.find_at hvv h1) (add_pin_rel P h2)) (ih h)
      · exact ih h

theorem hittest_rel (P : pin_steps R) (F : flag_steps R) {s s1 : flattener_t} {v : Nat} (h : s.hittest v = .ok s1) :
    R s s1 := hittest_loop_rel P F h

theorem route_rel (J : join_steps R) (L : link_steps R) (F : flag_steps R) {this n : Nat} {pin_a pin_b : pin_t} {pinlist : List pin_t}
    {s s1 : flattener_t} (h : route this n pin_a pin_b pinlist s = .ok s1) : R s s1 := by
  induction n generalizing s pin_a pin_b pinlist with
  | zero =>
    unfold route at h
    rw [← pure_ok h]; exact F.refl s
  | succ n ih =>
    unfold route at h
    split at h
    · obtain ⟨te, -, h⟩ := bind_ok h
      obtain ⟨b, -, h⟩ := bind_ok h
      obtain ⟨a, -, h⟩ := bind_ok h
      obtain ⟨⟨e, t1⟩, h1, h⟩ := bind_ok h
      obtain ⟨e1, -, h⟩ := bind_ok h
      obtain ⟨ed, -, h⟩ := bind_ok h
      obtain ⟨t2, h2, h⟩ := bind_ok h
      have k2 : R t1 t2 := by
        split at h2
        · exact remove_rel L F h2
        · rw [← pure_ok h2]; exact F.refl t1
      have k : R s t2 := F.trans (J.goes_to h1) k2
      split at h
      · exact F.trans k (ih h)
      · exact F.trans k (ih h)
    · rw [← pure_ok h]; exact F.refl s

theorem snap_to_pins_rel (J : join_steps R) (L : link_steps R) (F : flag_steps R) {s s1 : flattener_t} {this : Nat}
    (h : s.snap_to_pins this = .ok s1) : R s s1 := by
  unfold snap_to_pins at h
  obtain ⟨te, -, h⟩ := bind_ok h
  obtain ⟨pins, -, h⟩ := bind_ok h
  obtain ⟨⟨pincount, pin_a, pin_b, pinlist⟩, -, h⟩ := bind_ok h
  exact route_rel J L F h

theorem extract_loop_rel (S : snap_steps R) (J : join_steps R) (L : link_steps R) (F : flag_steps R) {s s1 : flattener_t} {l : List (Nat × Nat)}
    (h : s.extract_loop l = .ok s1) : R s s1 := by
  induction l generalizing s with
  | nil =>
    unfold extract_loop at h
    rw [← pure_ok h]; exact F.refl s
  | cons a rest ih =>
    obtain ⟨w, e⟩ := a
    unfold extract_loop at h
    obtain ⟨ed, hed, h⟩ := bind_ok h
    obtain ⟨-, -, h⟩ := bind_ok h
    obtain ⟨vf, hvf, h⟩ := bind_ok h
    obtain ⟨⟨p, t2⟩, h2, h⟩ := bind_ok h
    obtain ⟨vt, hvt, h⟩ := bind_ok h
    obtain ⟨⟨q, t3⟩, h3, h⟩ := bind_ok h
    obtain ⟨vf3, -, h⟩ := bind_ok h
    obtain ⟨vt3, -, h⟩ := bind_ok h
    have k1 : R s (s.set_edge e
        { ed with wind := (⟨if ed.flags.sense then -1 else 1, 0⟩ : wind_t) }) :=
      F.set_edge _ _ _ _ hed
    have k3 : R s t3 := F.trans (F.trans k1 (S.snap hvf h2)) (S.snap hvt h3)
    split at h
    · exact F.trans k3 (ih h)
    · obtain ⟨ed3, -, h⟩ := bind_ok h
      obtain ⟨⟨r, t4⟩, h4, h⟩ := bind_ok h
      obtain ⟨t5, h5, h⟩ := bind_ok h
      exact F.trans (F.trans (F.trans k3 (J.goes_to h4)) (remove_rel L F h5))
        (ih h)

theorem extract_rel (S : snap_steps R) (J : join_steps R) (L : link_steps R) (F : flag_steps R) {s s1 : flattener_t} {v : Nat} (h : s.extract v = .ok s1) :
    R s s1 := by
  unfold extract at h
  obtain ⟨vv, -, h⟩ := bind_ok h
  exact extract_loop_rel S J L F h

theorem pin_ends_rel (P : pin_steps R) (F : flag_steps R) {s s1 : flattener_t} {v : Nat} {enter : Bool} {l : List (Nat × Nat)}
    (h : s.pin_ends v enter l = .ok s1) : R s s1 := by
  induction l generalizing s with
  | nil =>
    unfold pin_ends at h
    rw [← pure_ok h]; exact F.refl s
  | cons a rest ih =>
    obtain ⟨w0, e⟩ := a
    unfold pin_ends at h
    obtain ⟨vv, hvv, h⟩ := bind_ok h
    obtain ⟨⟨w, t1⟩, h1, h⟩ := bind_ok h
    obtain ⟨t2, h2, h⟩ := bind_ok h
    have k2 : R s t2 := F.trans (P.find_at hvv h1) (add_pin_rel P h2)
    have k3 : R t2 (if enter then t2.set_snaplist (snaplist_insert e t2.snaplist)
        else t2.set_snaplist (t2.snaplist.erase e)) := by
      split
      · exact P.set_snaplist t2 _
      · exact P.set_snaplist t2 _
    exact F.trans (F.trans k2 k3) (ih h)

theorem discover_rel (P : pin_steps R) (F : flag_steps R) {s s1 : flattener_t} {v : Nat} (h : s.discover v = .ok s1) :
    R s s1 := by
  unfold discover at h
  obtain ⟨vv, -, h⟩ := bind_ok h
  obtain ⟨t1, h1, h⟩ := bind_ok h
  obtain ⟨t2, h2, h⟩ := bind_ok h
  obtain ⟨vv2, -, h⟩ := bind_ok h
  exact F.trans (F.trans (pin_ends_rel P F h1) (hittest_rel P F h2)) (pin_ends_rel P F h)

theorem reroute_loop_rel (J : join_steps R) (L : link_steps R) (F : flag_steps R) {s s1 : flattener_t} {l : List (Nat × Nat)}
    (h : s.reroute_loop l = .ok s1) : R s s1 := by
  induction l generalizing s with
  | nil =>
    unfold reroute_loop at h
    rw [← pure_ok h]; exact F.refl s
  | cons a rest ih =>
    obtain ⟨w, e⟩ := a
    unfold reroute_loop at h
    obtain ⟨t1, h1, h⟩ := bind_ok h
    obtain ⟨t2, h2, h⟩ := bind_ok h
    exact F.trans (F.trans (snap_to_pins_rel J L F h1) (remove_rel L F h2)) (ih h)

theorem reroute_rel (J : join_steps R) (L : link_steps R) (F : flag_steps R) {s s1 : flattener_t} {v : Nat} (h : s.reroute v = .ok s1) :
    R s s1 := by
  unfold reroute at h
  obtain ⟨vv, -, h⟩ := bind_ok h
  exact reroute_loop_rel J L F h

theorem stable_snap_round_rel (S : snap_steps R) (P : pin_steps R) (J : join_steps R) (L : link_steps R) (F : flag_steps R) {s s1 : flattener_t} (h : s.stable_snap_round = .ok s1) :
    R s s1 := by
  unfold stable_snap_round at h
  obtain ⟨t1, h1, h⟩ := bind_ok h
  obtain ⟨-, -, h⟩ := bind_ok h
  obtain ⟨t2, h2, h⟩ := bind_ok h
  obtain ⟨-, -, h⟩ := bind_ok h
  exact F.trans (F.trans (for_each_rel F (fun _ _ _ => extract_rel S J L F) h1)
    (for_each_rel F (fun _ _ _ => discover_rel P F) h2))
    (for_each_rel F (fun _ _ _ => reroute_rel J L F) h)

theorem flatten_rel {ins : ael_insert_t}
    (I : ∀ {s s1 : flattener_t} {e : Nat}, s.insert ins e = .ok s1 → R s s1)
    (S : snap_steps R) (P : pin_steps R) (J : join_steps R) (L : link_steps R)
    (F : flag_steps R) {fuel : Nat} {s s1 : flattener_t}
    (h : s.flatten ins fuel = .ok (some s1)) : R s s1 := by
  unfold flatten at h
  split at h
  · rename_i s2 h2
    injection h with h
    injection h with h
    subst h
    obtain ⟨t1, h1, h2⟩ := bind_ok h2
    exact F.trans (intersect_rel I J L F h1) (stable_snap_round_rel S P J L F h2)
  · exact absurd h (by simp)
  · exact absurd h (by simp)
  · exact absurd h (by simp)

end

end flattener_t

/-! ## The stores of `goes_to` and `unlink` -/

namespace flattener_t

section
variable {R : flattener_t → flattener_t → Prop}

theorem verts_set_vertex_ne (s : flattener_t) (v u : Nat) (x : vertex_t) (h : v ≠ u) :
    (s.set_vertex v x).verts[u]? = s.verts[u]? := by
  unfold set_vertex
  simp only [List.getElem?_set]
  simp [h]

theorem link_below_rel (A : store_steps R) (F : flag_steps R) (s : flattener_t)
    (this q : Nat) (vthis vq : vertex_t) (raw : line_t)
    (ht : s.verts[this]? = some vthis) (hq : s.verts[q]? = some vq) (hne : q ≠ this) :
    R s (s.link_below this q vthis vq raw).2 := by
  unfold link_below
  split
  · exact F.refl s
  · dsimp only
    have k1 := A.new_edge s raw this q
    have hq1 : ({ s with edges := s.edges ++ [some (edge_t.new raw this q)] } :
        flattener_t).verts[q]? = some vq := hq
    have k2 := A.above_set this s.edges.length hq1
    have ht2 : (({ s with edges := s.edges ++ [some (edge_t.new raw this q)] } :
        flattener_t).set_vertex q { vq with above := vq.above.set this s.edges.length }).verts[this]?
          = some vthis := by
      rw [verts_set_vertex_ne _ _ _ _ hne]; exact ht
    exact F.trans (F.trans k1 k2) (A.below_set q s.edges.length ht2)

theorem link_above_rel (A : store_steps R) (F : flag_steps R) (s : flattener_t)
    (this q : Nat) (vthis vq : vertex_t) (raw : line_t)
    (ht : s.verts[this]? = some vthis) (hq : s.verts[q]? = some vq) (hne : q ≠ this) :
    R s (s.link_above this q vthis vq raw).2 := by
  unfold link_above
  split
  · exact F.refl s
  · dsimp only
    have k1 := A.new_edge s raw q this
    have hq1 : ({ s with edges := s.edges ++ [some (edge_t.new raw q this)] } :
        flattener_t).verts[q]? = some vq := hq
    have k2 := A.below_set this s.edges.length hq1
    have ht2 : (({ s with edges := s.edges ++ [some (edge_t.new raw q this)] } :
        flattener_t).set_vertex q { vq with below := vq.below.set this s.edges.length }).verts[this]?
          = some vthis := by
      rw [verts_set_vertex_ne _ _ _ _ hne]; exact ht
    exact F.trans (F.trans k1 k2) (A.above_set q s.edges.length ht2)

theorem inherit_rel (F : flag_steps R) {s s1 : flattener_t} {e : Nat} {state : Option Nat}
    {flip : Bool} (h : s.inherit e state flip = .ok s1) : R s s1 := by
  unfold inherit at h
  split at h
  · injection h with h; rw [← h]; exact F.refl s
  · split at h
    · exact absurd h (by simp)
    · exact absurd h (by simp)
    · rename_i sd ed hsd hed
      injection h with h
      rw [← h]
      exact F.set_edge _ _ _ _ hed

/-- The relation holds along `goes_to` when it holds along its stores. -/
theorem goes_to_rel (A : store_steps R) (F : flag_steps R) : join_steps R := by
  constructor
  intro s s1 this q raw wind state r h
  unfold goes_to at h
  split at h
  · injection h with h
    injection h with h1 h2
    rw [← h2]; exact F.refl s
  · rename_i hne
    split at h
    · exact absurd h (by simp)
    · exact absurd h (by simp)
    · rename_i vq vthis hq ht
      have hq' := (vertex_eq_ok s q vq).1 hq
      have ht' := (vertex_eq_ok s this vthis).1 ht
      split at h
      · exact absurd h (by simp)
      · rename_i flip hflip
        dsimp only at h
        split at h
        · exact absurd h (by simp)
        · rename_i ed hed
          split at h
          · exact absurd h (by simp)
          · rename_i s5 h5
            injection h with h
            injection h with h1 h2
            rw [← h2]
            have k1 : R s (if flip then s.link_above this q vthis vq
                (if flip then raw.reverse else raw)
              else s.link_below this q vthis vq (if flip then raw.reverse else raw)).2 := by
              cases flip
              · exact link_below_rel A F s this q vthis vq _ ht' hq' hne
              · exact link_above_rel A F s this q vthis vq _ ht' hq' hne
            exact F.trans (F.trans k1 (F.set_edge _ _ _ _ hed)) (inherit_rel F h5)

/-- The relation holds along `unlink` when it holds along its stores. -/
theorem unlink_rel (E : erase_steps R) (F : flag_steps R) {s s1 : flattener_t} {p : Nat}
    (h : s.unlink p = .ok s1) : R s s1 := by
  unfold unlink at h
  split at h
  · exact absurd h (by simp)
  · rename_i ed hed
    split at h
    · exact absurd h (by simp)
    · rename_i vf hvf
      dsimp only at h
      split at h
      · exact absurd h (by simp)
      · rename_i vt hvt
        injection h with h
        rw [← h]
        exact F.trans (E.below_erase _ ((vertex_eq_ok s _ vf).1 hvf))
          (E.above_erase _ ((vertex_eq_ok _ _ vt).1 hvt))

theorem link_rel (E : erase_steps R) (F : flag_steps R)
    (D : ∀ (s : flattener_t) (p : Nat), R s (s.delete_edge p)) : link_steps R :=
  ⟨fun h => unlink_rel E F h, D⟩

end

end flattener_t
/-! ## Maps with keys in order -/

namespace edgemap_t

theorem keys_set (m : edgemap_t) (k e k' : Nat) :
    k' ∈ (m.set k e).map Prod.fst ↔ k' = k ∨ k' ∈ m.map Prod.fst := by
  induction m with
  | nil => simp [set]
  | cons a rest ih =>
    obtain ⟨k1, e1⟩ := a
    unfold set
    by_cases h1 : k1 = k
    · simp only [h1, if_true, List.map_cons, List.mem_cons]
      tauto
    · by_cases h2 : k < k1
      · simp only [h1, h2, if_true, if_false, List.map_cons, List.mem_cons]
      · simp only [h1, h2, if_false, List.map_cons, List.mem_cons, ih]
        tauto

theorem sorted_set (m : edgemap_t) (k e : Nat) (h : (m.map Prod.fst).Pairwise (· < ·)) :
    ((m.set k e).map Prod.fst).Pairwise (· < ·) := by
  induction m with
  | nil => simp [set]
  | cons a rest ih =>
    obtain ⟨k1, e1⟩ := a
    simp only [List.map_cons, List.pairwise_cons] at h
    unfold set
    by_cases h1 : k1 = k
    · simp only [h1, if_true, List.map_cons, List.pairwise_cons]
      exact ⟨fun x hx => h1 ▸ h.1 x hx, h.2⟩
    · by_cases h2 : k < k1
      · simp only [h1, h2, if_true, if_false, List.map_cons, List.pairwise_cons,
          List.mem_cons]
        refine ⟨?_, h.1, h.2⟩
        rintro x (hx | hx)
        · rw [hx]; exact h2
        · exact lt_trans h2 (h.1 x hx)
      · simp only [h1, h2, if_false, List.map_cons, List.pairwise_cons]
        refine ⟨?_, ih h.2⟩
        intro x hx
        rcases (keys_set rest k e x).1 hx with hx | hx
        · rw [hx]; omega
        · exact h.1 x hx

theorem keys_erase (m : edgemap_t) (k : Nat) :
    ((m.erase k).map Prod.fst).Sublist (m.map Prod.fst) := by
  induction m with
  | nil => simp [erase]
  | cons a rest ih =>
    obtain ⟨k1, e1⟩ := a
    unfold erase
    by_cases h1 : k1 = k
    · simp only [h1, if_true, List.map_cons]
      exact List.Sublist.cons _ ih
    · simp only [h1, if_false, List.map_cons]
      exact List.Sublist.cons₂ _ ih

theorem sorted_erase (m : edgemap_t) (k : Nat) (h : (m.map Prod.fst).Pairwise (· < ·)) :
    ((m.erase k).map Prod.fst).Pairwise (· < ·) :=
  List.Pairwise.sublist (keys_erase m k) h

theorem mem_of_find (m : edgemap_t) (k e : Nat) (h : m.find k = some e) : (k, e) ∈ m := by
  induction m with
  | nil => simp [find] at h
  | cons a rest ih =>
    obtain ⟨k1, e1⟩ := a
    unfold find at h
    by_cases h1 : k1 = k
    · simp only [h1, if_true, Option.some.injEq] at h
      rw [h1, h]; exact List.mem_cons_self _ _
    · simp only [h1, if_false] at h
      exact List.mem_cons_of_mem _ (ih h)

theorem find_of_mem (m : edgemap_t) (k e : Nat) (hs : (m.map Prod.fst).Pairwise (· < ·))
    (h : (k, e) ∈ m) : m.find k = some e := by
  induction m with
  | nil => simp at h
  | cons a rest ih =>
    obtain ⟨k1, e1⟩ := a
    simp only [List.map_cons, List.pairwise_cons] at hs
    unfold find
    rcases List.mem_cons.1 h with h | h
    · injection h with h1 h2
      simp [h1, h2]
    · have hk : k ∈ rest.map Prod.fst := List.mem_map.2 ⟨(k, e), h, rfl⟩
      have := hs.1 k hk
      rw [if_neg (by omega)]
      exact ih hs.2 h

end edgemap_t
/-! ## Steps that only write edges and maps -/

namespace flattener_t

theorem edits_refl (s : flattener_t) : s.edits s :=
  ⟨rfl, rfl, rfl, fun _ => rfl, le_refl _, fun _ ed1 h => Or.inl ⟨ed1, h, rfl, rfl, rfl, rfl⟩⟩

theorem edits_trans {s s1 s2 : flattener_t} (h : s.edits s1) (k : s1.edits s2) :
    s.edits s2 := by
  obtain ⟨a1, a2, a3, a4, a5, a6⟩ := h
  obtain ⟨b1, b2, b3, b4, b5, b6⟩ := k
  refine ⟨b1.trans a1, b2.trans a2, b3.trans a3, fun v => (b4 v).trans (a4 v),
    le_trans a5 b5, ?_⟩
  intro e ed2 he
  rcases b6 e ed2 he with ⟨ed1, h1, r1, f1, t1, p1⟩ | ⟨hl, hp⟩
  · rcases a6 e ed1 h1 with ⟨ed, h0, r0, f0, t0, p0⟩ | ⟨hl, hp⟩
    · exact Or.inl ⟨ed, h0, r1.trans r0, f1.trans f0, t1.trans t0, p1.trans p0⟩
    · exact Or.inr ⟨hl, p1.trans hp⟩
  · exact Or.inr ⟨le_trans a5 hl, hp⟩

/-- A store to a vertex that keeps its position is an edit. -/
theorem edits_set_vertex (s : flattener_t) (v : Nat) (x old : vertex_t)
    (hv : s.verts[v]? = some old) (hx : x.x = old.x) (hy : x.y = old.y) :
    s.edits (s.set_vertex v x) :=
  ⟨rfl, rfl, by unfold set_vertex; simp, fun u => pos_set_vertex s v x old u hv hx hy,
    le_refl _, fun _ ed1 h => Or.inl ⟨ed1, h, rfl, rfl, rfl, rfl⟩⟩

theorem edits_set_edge (s : flattener_t) (e : Nat) (ed x : edge_t)
    (he : s.edge e = .ok ed) (hr : x.raw = ed.raw) (hf : x.from_ = ed.from_)
    (ht : x.to_ = ed.to_) (hp : x.pin_set = ed.pin_set) : s.edits (s.set_edge e x) := by
  refine ⟨rfl, rfl, rfl, fun _ => rfl, by unfold set_edge; simp, ?_⟩
  intro e' ed1 h
  by_cases hc : e' = e
  · subst hc
    rw [edge_set_edge_self s e' ed x he] at h
    injection h with h
    exact Or.inl ⟨ed, he, h ▸ hr, h ▸ hf, h ▸ ht, h ▸ hp⟩
  · rw [edge_eq_ok, edges_set_edge_ne s e e' x hc, ← edge_eq_ok] at h
    exact Or.inl ⟨ed1, h, rfl, rfl, rfl, rfl⟩

theorem edits_delete_edge (s : flattener_t) (p : Nat) : s.edits (s.delete_edge p) := by
  refine ⟨rfl, rfl, rfl, fun _ => rfl, by unfold delete_edge; simp, ?_⟩
  intro e ed1 h
  rw [edge_eq_ok] at h
  unfold delete_edge at h
  simp only [List.getElem?_set] at h
  by_cases hc : p = e
  · rw [if_pos hc] at h
    split at h <;> simp at h
  · rw [if_neg hc] at h
    exact Or.inl ⟨ed1, (edge_eq_ok s e ed1).2 h, rfl, rfl, rfl, rfl⟩

theorem edits_new_edge (s : flattener_t) (raw : line_t) (a b : Nat) :
    s.edits { s with edges := s.edges ++ [some (edge_t.new raw a b)] } := by
  refine ⟨rfl, rfl, rfl, fun _ => rfl, by simp, ?_⟩
  intro e ed1 h
  rw [edge_eq_ok] at h
  simp only [] at h
  by_cases hc : e < s.edges.length
  · rw [List.getElem?_append_left hc] at h
    exact Or.inl ⟨ed1, (edge_eq_ok s e ed1).2 h, rfl, rfl, rfl, rfl⟩
  · by_cases hc2 : e = s.edges.length
    · subst hc2
      rw [List.getElem?_append_right (le_refl _)] at h
      simp at h
      exact Or.inr ⟨le_refl _, by rw [← h]; rfl⟩
    · rw [List.getElem?_eq_none (by simp; omega)] at h
      simp at h

theorem edits_flag : flag_steps edits where
  refl := edits_refl
  trans := edits_trans
  set_edge := fun _ _ _ _ he => edits_set_edge _ _ _ _ he rfl rfl rfl rfl
  set_todo := fun _ _ => ⟨rfl, rfl, rfl, fun _ => rfl, le_refl _,
    fun _ ed1 h => Or.inl ⟨ed1, h, rfl, rfl, rfl, rfl⟩⟩
  set_ael := fun _ _ => ⟨rfl, rfl, rfl, fun _ => rfl, le_refl _,
    fun _ ed1 h => Or.inl ⟨ed1, h, rfl, rfl, rfl, rfl⟩⟩
  set_dot := fun _ _ => ⟨rfl, rfl, rfl, fun _ => rfl, le_refl _,
    fun _ ed1 h => Or.inl ⟨ed1, h, rfl, rfl, rfl, rfl⟩⟩

theorem edits_store : store_steps edits where
  new_edge := edits_new_edge
  below_set := fun _ _ hv => edits_set_vertex _ _ _ _ hv rfl rfl
  above_set := fun _ _ hv => edits_set_vertex _ _ _ _ hv rfl rfl

theorem edits_erase : erase_steps edits where
  below_erase := fun _ hv => edits_set_vertex _ _ _ _ hv rfl rfl
  above_erase := fun _ hv => edits_set_vertex _ _ _ _ hv rfl rfl

theorem edits_join : join_steps edits := goes_to_rel edits_store edits_flag

theorem edits_link : link_steps edits := link_rel edits_erase edits_flag edits_delete_edge

/-! ## Steps that keep the keys of the maps in order -/

theorem maps_ok_set_vertex (s : flattener_t) (v : Nat) (x : vertex_t) (hs : s.maps_ok)
    (hb : (x.below.map Prod.fst).Pairwise (· < ·))
    (ha : (x.above.map Prod.fst).Pairwise (· < ·)) : (s.set_vertex v x).maps_ok := by
  intro u vu hu
  unfold set_vertex at hu
  simp only [List.getElem?_set] at hu
  by_cases hc : v = u
  · rw [if_pos hc] at hu
    split at hu
    · injection hu with hu
      rw [← hu]; exact ⟨hb, ha⟩
    · exact absurd hu (by simp)
  · rw [if_neg hc] at hu
    exact hs u vu hu

theorem maps_ok_of_verts (s s1 : flattener_t) (h : s1.verts = s.verts) (hs : s.maps_ok) :
    s1.maps_ok := by
  intro u vu hu
  rw [h] at hu
  exact hs u vu hu

theorem calm_refl (s : flattener_t) : s.calm s := ⟨edits_refl s, id⟩

theorem calm_trans {s s1 s2 : flattener_t} (h : s.calm s1) (k : s1.calm s2) : s.calm s2 :=
  ⟨edits_trans h.1 k.1, fun m => k.2 (h.2 m)⟩

theorem calm_flag : flag_steps calm where
  refl := calm_refl
  trans := calm_trans
  set_edge := fun _ _ _ _ he =>
    ⟨edits_flag.set_edge _ _ _ _ he, maps_ok_of_verts _ _ rfl⟩
  set_todo := fun s t => ⟨edits_flag.set_todo s t, maps_ok_of_verts _ _ rfl⟩
  set_ael := fun s t => ⟨edits_flag.set_ael s t, maps_ok_of_verts _ _ rfl⟩
  set_dot := fun s t => ⟨edits_flag.set_dot s t, maps_ok_of_verts _ _ rfl⟩

theorem calm_store : store_steps calm where
  new_edge := fun s raw a b => ⟨edits_new_edge s raw a b, maps_ok_of_verts _ _ rfl⟩
  below_set := fun {s v old} k e hv => ⟨edits_store.below_set k e hv, fun m =>
    maps_ok_set_vertex s v _ m (edgemap_t.sorted_set _ k e (m v old hv).1) (m v old hv).2⟩
  above_set := fun {s v old} k e hv => ⟨edits_store.above_set k e hv, fun m =>
    maps_ok_set_vertex s v _ m (m v old hv).1 (edgemap_t.sorted_set _ k e (m v old hv).2)⟩

theorem calm_erase : erase_steps calm where
  below_erase := fun {s v old} k hv => ⟨edits_erase.below_erase k hv, fun m =>
    maps_ok_set_vertex s v _ m (edgemap_t.sorted_erase _ k (m v old hv).1) (m v old hv).2⟩
  above_erase := fun {s v old} k hv => ⟨edits_erase.above_erase k hv, fun m =>
    maps_ok_set_vertex s v _ m (m v old hv).1 (edgemap_t.sorted_erase _ k (m v old hv).2)⟩

theorem calm_join : join_steps calm := goes_to_rel calm_store calm_flag

theorem calm_link : link_steps calm :=
  link_rel calm_erase calm_flag
    fun s p => ⟨edits_delete_edge s p, maps_ok_of_verts _ _ rfl⟩

end flattener_t
/-! ## Steps that keep the session sound -/

namespace flattener_t

theorem sound.valid {s : flattener_t} (h : s.sound) :
    vertexset_t.valid s.verts s.vertexset := by
  intro w hw
  have hlt := h.2.1 w hw
  refine ⟨s.verts[w], List.getElem?_eq_getElem hlt, h.1 w _ (List.getElem?_eq_getElem hlt)⟩

theorem sound.snap_valid {s : flattener_t} (h : s.sound) :
    vertexset_t.valid s.verts s.snapset := by
  intro w hw
  obtain ⟨vu, h1, -, -⟩ := h.2.2.2.1 w hw
  exact ⟨vu, h1, h.1 w vu h1⟩

theorem grows_refl (s : flattener_t) : s.grows s :=
  ⟨fun _ vv h => ⟨vv, h, rfl, rfl⟩, fun _ h => h, fun _ h => h⟩

theorem grows_trans {s s1 s2 : flattener_t} (h : s.grows s1) (k : s1.grows s2) :
    s.grows s2 := by
  refine ⟨?_, fun v hv => k.2.1 v (h.2.1 v hv), fun v hv => k.2.2 v (h.2.2 v hv)⟩
  intro v vv hv
  obtain ⟨vv1, h1, h2, h3⟩ := h.1 v vv hv
  obtain ⟨vv2, k1, k2, k3⟩ := k.1 v vv1 h1
  exact ⟨vv2, k1, k2.trans h2, k3.trans h3⟩

theorem grows_of_edits {s s1 : flattener_t} (h : s.edits s1) : s.grows s1 := by
  obtain ⟨a1, a2, -, a4, -, -⟩ := h
  exact ⟨fun v vv hv => pos_transfer s s1 v vv (a4 v) hv, fun v hv => a1 ▸ hv,
    fun v hv => a2 ▸ hv⟩

theorem sound_of_calm {s s1 : flattener_t} (hs : s.sound) (h : s.calm s1) : s1.sound := by
  obtain ⟨⟨a1, a2, a3, a4, -, -⟩, hm⟩ := h
  obtain ⟨c1, c2, c3, c4, c5⟩ := hs
  refine ⟨?_, ?_, ?_, ?_, hm c5⟩
  · intro v vv1 hv
    obtain ⟨vv, h1, h2, h3⟩ := pos_transfer s1 s v vv1 (a4 v).symm hv
    have := c1 v vv h1
    unfold vertex_t.canonical at this ⊢
    rw [← h2, ← h3]; exact this
  · intro v hv
    rw [a1] at hv; rw [a3]; exact c2 v hv
  · rw [a1]; exact sorted_of_pos s s1 _ a4 c3
  · intro u hu
    rw [a2] at hu
    obtain ⟨vu, h1, h2, h3⟩ := c4 u hu
    obtain ⟨vu1, k1, k2, k3⟩ := pos_transfer s s1 u vu (a4 u) h1
    exact ⟨vu1, k1, by rw [k2]; exact h2, by rw [k3]; exact h3⟩

theorem steady_of_calm {s s1 : flattener_t} (h : s.calm s1) : s.steady s1 :=
  fun hs => ⟨sound_of_calm hs h, grows_of_edits h.1⟩

theorem steady_refl (s : flattener_t) : s.steady s := fun hs => ⟨hs, grows_refl s⟩

theorem steady_trans {s s1 s2 : flattener_t} (h : s.steady s1) (k : s1.steady s2) :
    s.steady s2 := fun hs =>
  ⟨(k (h hs).1).1, grows_trans (h hs).2 (k (h hs).1).2⟩

/-- A step that leaves the vertices and the two vertex sets alone is steady. -/
theorem steady_of_frame {s s1 : flattener_t} (h1 : s1.verts = s.verts)
    (h2 : s1.vertexset = s.vertexset) (h3 : s1.snapset = s.snapset) : s.steady s1 := by
  intro hs
  unfold sound canon maps_ok grows
  rw [h1, h2, h3]
  exact ⟨hs, grows_refl s⟩

theorem steady_flag : flag_steps steady where
  refl := steady_refl
  trans := steady_trans
  set_edge := fun _ _ _ _ he => steady_of_calm (calm_flag.set_edge _ _ _ _ he)
  set_todo := fun s t => steady_of_calm (calm_flag.set_todo s t)
  set_ael := fun s t => steady_of_calm (calm_flag.set_ael s t)
  set_dot := fun s t => steady_of_calm (calm_flag.set_dot s t)

theorem steady_join : join_steps steady := ⟨fun h => steady_of_calm (calm_join.goes_to h)⟩

theorem steady_link : link_steps steady :=
  ⟨fun h => steady_of_calm (calm_link.unlink h),
    fun s p => steady_of_calm (calm_link.delete_edge s p)⟩

/-- A vertex appended to the arena: what is kept. -/
theorem sound_append {s : flattener_t} (hs : s.sound) (x y : rat_t) (hx : x.canonical)
    (hy : y.canonical) (s1 : flattener_t)
    (hv : s1.verts = s.verts ++ [{ x := x, y := y }])
    (h1 : ∀ v ∈ s1.vertexset, v < s1.verts.length)
    (h2 : vertexset_t.sorted s1.verts s1.vertexset)
    (h3 : ∀ u ∈ s1.snapset, ∃ vu : vertex_t, s1.verts[u]? = some vu ∧ vu.x.n = 0 ∧ vu.y.n = 0) :
    s1.sound := by
  have key : ∀ (u : Nat) (vu : vertex_t), s1.verts[u]? = some vu →
      s.verts[u]? = some vu ∨ vu = { x := x, y := y } := by
    intro u vu hu
    rw [hv] at hu
    by_cases hc : u < s.verts.length
    · rw [List.getElem?_append_left hc] at hu
      exact Or.inl hu
    · by_cases hc2 : u = s.verts.length
      · subst hc2
        rw [List.getElem?_append_right (le_refl _)] at hu
        simp at hu
        exact Or.inr hu.symm
      · rw [List.getElem?_eq_none (by simp; omega)] at hu
        simp at hu
  refine ⟨?_, h1, h2, h3, ?_⟩
  · intro u vu hu
    rcases key u vu hu with h | h
    · exact hs.1 u vu h
    · rw [h]; exact ⟨hx, hy⟩
  · intro u vu hu
    rcases key u vu hu with h | h
    · exact hs.2.2.2.2 u vu h
    · rw [h]; exact ⟨List.Pairwise.nil, List.Pairwise.nil⟩

theorem grows_append (s s1 : flattener_t) (x : vertex_t) (hv : s1.verts = s.verts ++ [x])
    (h1 : ∀ v ∈ s.vertexset, v ∈ s1.vertexset) (h2 : ∀ v ∈ s.snapset, v ∈ s1.snapset) :
    s.grows s1 := by
  refine ⟨?_, h1, h2⟩
  intro v vv h
  refine ⟨vv, ?_, rfl, rfl⟩
  rw [hv, List.getElem?_append_left (lt_of_vertex s v vv h)]
  exact h

theorem steady_find {s s1 : flattener_t} {x y : rat_t} {r : Nat} (hx : x.canonical)
    (hy : y.canonical) (h : s.find x y = .ok (r, s1)) : s.steady s1 := by
  intro hs
  obtain ⟨r0, s0, vr, e0, -, -, -, -, hcase⟩ := find_eq s x y hx hy hs.valid
  have hsort := find_sorted s x y hx hy hs.valid hs.2.2.1 r s1 h
  rw [e0] at h
  injection h with h
  injection h with hr hs1
  subst hs1
  rcases hcase with ⟨h1, -⟩ | ⟨h1, -, h3, h4, -, h6, -⟩
  · rw [h1]; exact ⟨hs, grows_refl s⟩
  · refine ⟨sound_append hs x y hx hy s0 h3 ?_ hsort ?_, grows_append s s0 _ h3
      (fun v hv => (h4 v).2 (Or.inr hv)) (fun v hv => h6 ▸ hv)⟩
    · intro v hv
      rw [h3]
      rcases (h4 v).1 hv with h | h
      · rw [h, h1]; simp
      · have := hs.2.1 v h
        simp; omega
    · intro u hu
      rw [h6] at hu
      obtain ⟨vu, k1, k2, k3⟩ := hs.2.2.2.1 u hu
      refine ⟨vu, ?_, k2, k3⟩
      rw [h3, List.getElem?_append_left (lt_of_vertex s u vu k1)]
      exact k1

theorem steady_find_steps : find_steps steady := ⟨fun hx hy h => steady_find hx hy h⟩

end flattener_t
namespace flattener_t

/-- One coordinate of `snap` at a canonical value: an integer, the value
itself when it is an integer already. -/
theorem snap_coord_shape {x x1 : rat_t} (hx : x.canonical) (h : snap_coord x = .ok x1) :
    x1.n = 0 ∧ x1.canonical ∧ (x.n = 0 → x1 = x) := by
  have e1 := snap_coord_eq x hx
  refine ⟨?_, ?_, ?_⟩
  · rw [e1] at h; injection h with h; rw [← h]
  · rw [e1] at h; injection h with h; rw [← h]
    exact rat_t.canonical_ofInt _
  · intro hn
    unfold snap_coord at h
    rw [if_neg (not_not.mpr hn)] at h
    injection h with h
    exact h.symm

/-- What `snap` does in a sound session at canonical coordinates: the vertex it
returns is in the snap set at the rounded position; either nothing changes or
the vertex is new, the last of the arena. -/
theorem snap_shape {s s1 : flattener_t} {x y : rat_t} {r : Nat} (hs : s.sound)
    (hx : x.canonical) (hy : y.canonical) (h : s.snap x y = .ok (r, s1)) :
    ∃ x1 y1, snap_coord x = .ok x1 ∧ snap_coord y = .ok y1 ∧
      ((s1 = s ∧ r ∈ s.snapset ∧ ∃ vr, s.verts[r]? = some vr ∧ vr.x = x1 ∧ vr.y = y1) ∨
       (r = s.verts.length ∧ ∃ set1,
          s1 = { s with verts := s.verts ++ [{ x := x1, y := y1 }], snapset := set1 } ∧
          ∀ w, w ∈ set1 ↔ w = r ∨ w ∈ s.snapset)) := by
  unfold snap at h
  split at h
  · exact absurd h (by simp)
  · rename_i x1 hx1
    split at h
    · exact absurd h (by simp)
    · rename_i y1 hy1
      obtain ⟨-, cx1, -⟩ := snap_coord_shape hx hx1
      obtain ⟨-, cy1, -⟩ := snap_coord_shape hy hy1
      obtain ⟨r0, set0, e0, hcase⟩ :=
        vertexset_t.insert_eq s.verts x1 y1 s.verts.length cx1 cy1 s.snapset hs.snap_valid
      refine ⟨x1, y1, hx1, hy1, ?_⟩
      simp only [e0] at h
      rcases hcase with ⟨h1, h2, vr, h3, h4, h5⟩ | ⟨h1, h2⟩
      · have hlt := lt_of_vertex s r0 vr h3
        rw [if_neg (by omega)] at h
        injection h with h
        injection h with ha hb
        subst ha; subst hb
        exact Or.inl ⟨rfl, h1, vr, h3, h4, h5⟩
      · rw [if_pos h1] at h
        injection h with h
        injection h with ha hb
        subst ha
        exact Or.inr ⟨h1, set0, hb.symm, fun w => by rw [h2 w, h1]⟩

theorem steady_snap {s s1 : flattener_t} {x y : rat_t} {r : Nat} (hx : x.canonical)
    (hy : y.canonical) (h : s.snap x y = .ok (r, s1)) : s.steady s1 := by
  intro hs
  obtain ⟨x1, y1, hx1, hy1, hcase⟩ := snap_shape hs hx hy h
  obtain ⟨nx, cx1, -⟩ := snap_coord_shape hx hx1
  obtain ⟨ny, cy1, -⟩ := snap_coord_shape hy hy1
  rcases hcase with ⟨h1, -⟩ | ⟨h1, set1, h2, h3⟩
  · rw [h1]; exact ⟨hs, grows_refl s⟩
  · have hv : s1.verts = s.verts ++ [{ x := x1, y := y1 }] := by rw [h2]
    have hvs : s1.vertexset = s.vertexset := by rw [h2]
    have hss : s1.snapset = set1 := by rw [h2]
    refine ⟨sound_append hs x1 y1 cx1 cy1 s1 hv ?_ ?_ ?_, grows_append s s1 _ hv
      (fun v hv => hvs ▸ hv) (fun v hv => by rw [hss]; exact (h3 v).2 (Or.inr hv))⟩
    · intro v hv1
      rw [hvs] at hv1
      have := hs.2.1 v hv1
      rw [hv]; simp; omega
    · rw [hvs, hv]
      refine List.Pairwise.imp ?_ hs.2.2.1
      rintro a b ⟨va, vb, e1, e2, e3⟩
      refine ⟨va, vb, ?_, ?_, e3⟩
      · rw [List.getElem?_append_left (lt_of_vertex s a va e1)]; exact e1
      · rw [List.getElem?_append_left (lt_of_vertex s b vb e2)]; exact e2
    · intro u hu
      rw [hss] at hu
      rcases (h3 u).1 hu with h | h
      · refine ⟨{ x := x1, y := y1 }, ?_, nx, ny⟩
        rw [hv, h, h1, List.getElem?_append_right (le_refl _)]
        simp
      · obtain ⟨vu, k1, k2, k3⟩ := hs.2.2.2.1 u h
        refine ⟨vu, ?_, k2, k3⟩
        rw [hv, List.getElem?_append_left (lt_of_vertex s u vu k1)]
        exact k1

theorem steady_snap_steps : snap_steps steady where
  snap := fun {s _ v _ vv} hv h => fun hs =>
    steady_snap (hs.1 v vv ((vertex_eq_ok s v vv).1 hv)).1
      (hs.1 v vv ((vertex_eq_ok s v vv).1 hv)).2 h hs

theorem steady_pin_steps : pin_steps steady where
  find_at := fun {s _ v _ vv} hv h => fun hs =>
    steady_find (hs.1 v vv ((vertex_eq_ok s v vv).1 hv)).1
      (hs.1 v vv ((vertex_eq_ok s v vv).1 hv)).2 h hs
  set_pins := fun _ _ => steady_of_frame rfl rfl rfl
  set_snaplist := fun _ _ => steady_of_frame rfl rfl rfl

theorem steady_insert {ins : ael_insert_t} {s s1 : flattener_t} {e : Nat}
    (h : s.insert ins e = .ok s1) : s.steady s1 :=
  insert_rel steady_find_steps steady_join steady_link steady_flag h

end flattener_t

/-! ## The entries of the maps along `goes_to` and `remove` -/

namespace flattener_t

theorem snapped_of_grows {s s1 : flattener_t} (h : s.grows s1) {v : Nat}
    (hv : s.snapped v) : s1.snapped v := by
  obtain ⟨vv, u, vu, h1, h2, h3, h4, h5, h6, h7⟩ := hv
  obtain ⟨vv1, a1, a2, a3⟩ := h.1 v vv h1
  obtain ⟨vu1, b1, b2, b3⟩ := h.1 u vu h5
  exact ⟨vv1, u, vu1, a1, by rw [a2]; exact h2, by rw [a3]; exact h3, h.2.2 u h4, b1,
    by rw [a2, b2]; exact h6, by rw [a3, b3]; exact h7⟩

theorem inherit_verts {s s1 : flattener_t} {e : Nat} {state : Option Nat} {flip : Bool}
    (h : s.inherit e state flip = .ok s1) : s1.verts = s.verts := by
  unfold inherit at h
  split at h
  · injection h with h; rw [← h]
  · split at h
    · exact absurd h (by simp)
    · exact absurd h (by simp)
    · injection h with h
      rw [← h]; rfl

theorem below_of_verts (s s1 : flattener_t) (h : s1.verts = s.verts) (u w : Nat) :
    s1.below u w = s.below u w := by
  unfold below; rw [h]

theorem above_of_verts (s s1 : flattener_t) (h : s1.verts = s.verts) (u w : Nat) :
    s1.above u w = s.above u w := by
  unfold above; rw [h]

/-- After `goes_to` on `this` and `q`, an entry of a `below` map was there
before or is the entry between `this` and `q`. -/
theorem goes_to_entries {s s1 : flattener_t} {this q : Nat} {raw : line_t} {wind : wind_t}
    {state r : Option Nat} (hl : s.linked)
    (h : s.goes_to this q raw wind state = .ok (r, s1)) (u w e : Nat)
    (he : s1.below u w = some e) :
    s.below u w = some e ∨ (u = this ∧ w = q) ∨ (u = q ∧ w = this) := by
  by_cases hne : q = this
  · unfold goes_to at h
    rw [if_pos hne] at h
    injection h with h
    injection h with _ h
    rw [← h] at he; exact Or.inl he
  · cases hq : s.verts[q]? with
    | none =>
      unfold goes_to at h
      have : s.vertex q = .error .dangling := by unfold vertex; rw [hq]
      rw [if_neg hne, this] at h
      exact absurd h (by simp)
    | some vq =>
      cases ht : s.verts[this]? with
      | none =>
        unfold goes_to at h
        have e1 : s.vertex this = .error .dangling := by unfold vertex; rw [ht]
        have e2 : s.vertex q = .ok vq := (vertex_eq_ok s q vq).2 hq
        rw [if_neg hne, e1, e2] at h
        exact absurd h (by simp)
      | some vthis =>
        cases hflip : vertexsort_t vq vthis with
        | error x =>
          unfold goes_to at h
          have e1 : s.vertex this = .ok vthis := (vertex_eq_ok s this vthis).2 ht
          have e2 : s.vertex q = .ok vq := (vertex_eq_ok s q vq).2 hq
          rw [if_neg hne, e1, e2] at h
          simp only [hflip] at h
          exact absurd h (by simp)
        | ok flip =>
          obtain ⟨e0, s3, ed, -, -, hb, -, -, -, -, -, -, -, -, -, hgo⟩ :=
            goes_to_eq s this q raw wind state vthis vq flip hl ht hq hne hflip
          rw [hgo] at h
          split at h
          · rename_i s5 h5
            injection h with h
            injection h with _ h
            subst h
            have hv : s5.verts = s3.verts := by
              rw [inherit_verts h5]; rfl
            rw [below_of_verts s3 s5 hv] at he
            by_cases hc : u = (if flip then q else this) ∧ w = (if flip then this else q)
            · cases flip
              · exact Or.inr (Or.inl (by simpa using hc))
              · exact Or.inr (Or.inr (by simpa using hc))
            · rw [hb u w hc] at he
              exact Or.inl he
          · exact absurd h (by simp)

/-- After `remove`, an entry of a `below` map was there before, and the edge is
gone. -/
theorem remove_entries {s s1 : flattener_t} {p : Nat} (h : s.remove p = .ok s1) :
    (∀ u w e, s1.below u w = some e → s.below u w = some e) ∧ s1.ends p = none := by
  unfold remove at h
  split at h
  · exact absurd h (by simp)
  · rename_i s2 hs2
    split at h
    · exact absurd h (by simp)
    · rename_i ed2 hed2
      split at h
      · exact absurd h (by simp)
      · split at h
        · exact absurd h (by simp)
        · injection h with h
          subst h
          cases he : s.edge p with
          | error x =>
            unfold unlink at hs2
            simp only [he] at hs2
            exact absurd hs2 (by simp)
          | ok ed =>
            obtain ⟨hb, -, -⟩ := unlink_maps he hs2
            refine ⟨?_, ?_⟩
            · intro u w e hh
              have : (s2.delete_edge p).below u w = s2.below u w := rfl
              rw [this, hb] at hh
              split at hh
              · exact absurd hh (by simp)
              · exact hh
            · have hlt : p < s2.edges.length := by
                have := (edge_eq_ok s2 p ed2).1 hed2
                by_contra hc
                rw [List.getElem?_eq_none (by omega)] at this
                simp at this
              rw [ends_delete_edge s2 p p hlt, if_pos rfl]

end flattener_t
/-! ## First phase of snap rounding: every edge gets snapped ends -/

namespace flattener_t

theorem base_step {s s1 : flattener_t} (hb : s.base) (h1 : s.steady s1) (h2 : s.keeps s1) :
    s1.base ∧ s.grows s1 :=
  ⟨⟨(h1 hb.1).1, linked_of_keeps h2 hb.2⟩, (h1 hb.1).2⟩

/-- A vertex of the snap set is snapped. -/
theorem snapped_self {s : flattener_t} (hs : s.sound) {u : Nat} (hu : u ∈ s.snapset) :
    s.snapped u := by
  obtain ⟨vu, h1, h2, h3⟩ := hs.2.2.2.1 u hu
  exact ⟨vu, u, vu, h1, h2, h3, hu, h1, rfl, rfl⟩

/-- The vertex that `snap` returns and the maps afterwards. -/
theorem snap_spec {s s1 : flattener_t} {x y : rat_t} {r : Nat} (hs : s.sound)
    (hx : x.canonical) (hy : y.canonical) (h : s.snap x y = .ok (r, s1)) :
    r ∈ s1.snapset ∧
    (∃ vr x1 y1, s1.verts[r]? = some vr ∧ snap_coord x = .ok x1 ∧ snap_coord y = .ok y1 ∧
      vr.x = x1 ∧ vr.y = y1) ∧
    (∀ u w, s1.below u w = s.below u w) ∧ (∀ u w, s1.above u w = s.above u w) ∧
    s1.edges = s.edges ∧ s1.vertexset = s.vertexset := by
  obtain ⟨x1, y1, hx1, hy1, hcase⟩ := snap_shape hs hx hy h
  rcases hcase with ⟨h1, h2, vr, h3, h4, h5⟩ | ⟨h1, set1, h2, h3⟩
  · subst h1
    exact ⟨h2, ⟨vr, x1, y1, h3, hx1, hy1, h4, h5⟩, fun _ _ => rfl, fun _ _ => rfl, rfl, rfl⟩
  · subst h2
    refine ⟨(h3 r).2 (Or.inl rfl), ⟨{ x := x1, y := y1 }, x1, y1, ?_, hx1, hy1, rfl, rfl⟩,
      fun u w => below_append_snap s x1 y1 set1 u w,
      fun u w => above_append_snap s x1 y1 set1 u w, rfl, rfl⟩
    show (s.verts ++ [({ x := x1, y := y1 } : vertex_t)])[r]? = _
    rw [h1, List.getElem?_append_right (le_refl _)]
    simp

/-- A vertex with integer coordinates is snapped once `snap` was called at its
position. -/
theorem snapped_of_snap {s s1 : flattener_t} {a r : Nat} {va : vertex_t} (hs : s.sound)
    (ha : s.verts[a]? = some va) (hx : va.x.n = 0) (hy : va.y.n = 0)
    (h : s.snap va.x va.y = .ok (r, s1)) : s1.snapped a := by
  have ca := hs.1 a va ha
  obtain ⟨h1, ⟨vr, x1, y1, h2, h3, h4, h5, h6⟩, -, -, -, -⟩ := snap_spec hs ca.1 ca.2 h
  obtain ⟨-, -, ex⟩ := snap_coord_shape ca.1 h3
  obtain ⟨-, -, ey⟩ := snap_coord_shape ca.2 h4
  obtain ⟨va1, a1, a2, a3⟩ := (steady_snap ca.1 ca.2 h hs).2.1 a va ha
  exact ⟨va1, r, vr, a1, by rw [a2]; exact hx, by rw [a3]; exact hy, h1, h2,
    by rw [h5, ex hx, a2], by rw [h6, ey hy, a3]⟩

theorem extract_loop_pending {R : List Nat} {v : Nat} (L : List (Nat × Nat))
    {s s1 : flattener_t} (hb : s.base) (hp : s.pending R v L)
    (h : s.extract_loop L = .ok s1) : s1.base ∧ s.grows s1 ∧ s1.pending R v [] := by
  induction L generalizing s with
  | nil =>
    unfold extract_loop at h
    rw [← pure_ok h]; exact ⟨hb, grows_refl s, hp⟩
  | cons a rest ih =>
    obtain ⟨a0, e⟩ := a
    unfold extract_loop at h
    obtain ⟨ed, hed, h⟩ := bind_ok h
    obtain ⟨-, -, h⟩ := bind_ok h
    obtain ⟨vf, hvf, h⟩ := bind_ok h
    obtain ⟨⟨p, t2⟩, h2, h⟩ := bind_ok h
    obtain ⟨vt, hvt, h⟩ := bind_ok h
    obtain ⟨⟨q, t3⟩, h3, h⟩ := bind_ok h
    obtain ⟨vf3, hvf3, h⟩ := bind_ok h
    obtain ⟨vt3, hvt3, h⟩ := bind_ok h
    obtain ⟨b1, g1⟩ := base_step hb (steady_flag.set_edge
        (⟨if ed.flags.sense then -1 else 1, 0⟩ : wind_t) ed.checked_wind ed.flags ed.aelpos hed)
      (keeps_update hed _ _ _ _ _ _)
    obtain ⟨b2, g2⟩ := base_step b1 (steady_snap_steps.snap hvf h2) (snap_keeps h2)
    obtain ⟨b3, g3⟩ := base_step b2 (steady_snap_steps.snap hvt h3) (snap_keeps h3)
    have hvf' := (vertex_eq_ok _ _ _).1 hvf
    have hvt' := (vertex_eq_ok _ _ _).1 hvt
    have hvf3' := (vertex_eq_ok _ _ _).1 hvf3
    have hvt3' := (vertex_eq_ok _ _ _).1 hvt3
    have cf := b1.1.1 _ vf hvf'
    have ct := b2.1.1 _ vt hvt'
    obtain ⟨hp2, -, hbe2, -, -, -⟩ := snap_spec b1.1 cf.1 cf.2 h2
    obtain ⟨hq3, -, hbe3, -, -, -⟩ := snap_spec b2.1 ct.1 ct.2 h3
    have g03 : s.grows t3 := grows_trans (grows_trans g1 g2) g3
    have hbel : ∀ u w, t3.below u w = s.below u w := by
      intro u w
      rw [hbe3, hbe2]; rfl
    split at h
    · rename_i hint
      obtain ⟨i1, i2, i3, i4⟩ := hint
      have hp3 : t3.pending R v rest := by
        intro a b e' he'
        rw [hbel] at he'
        rcases hp a b e' he' with ⟨s1, s2⟩ | hR | ⟨hv, hm⟩
        · exact Or.inl ⟨snapped_of_grows g03 s1, snapped_of_grows g03 s2⟩
        · exact Or.inr (Or.inl hR)
        · rcases List.mem_cons.1 hm with hm | hm
          · injection hm with hm1 hm2
            subst hm1; subst hm2; subst hv
            obtain ⟨ed', k1, k2, k3⟩ := (ends_eq_some s e' a b).1 (hb.2.1 a b e' he').1
            rw [hed] at k1
            injection k1 with k1
            subst k1
            left
            constructor
            · -- the `from` end
              obtain ⟨w2, a1, a2, a3⟩ := g2.1 _ vf hvf'
              obtain ⟨w3, c1, c2, c3⟩ := g3.1 _ w2 a1
              have e3 : w3 = vf3 := by
                have := c1.symm.trans hvf3'
                injection this
              have nx : vf.x.n = 0 := by rw [← a2, ← c2, e3]; exact i1
              have ny : vf.y.n = 0 := by rw [← a3, ← c3, e3]; exact i2
              have := snapped_of_snap b1.1 hvf' nx ny h2
              rw [k2] at this
              exact snapped_of_grows g3 this
            · obtain ⟨w3, c1, c2, c3⟩ := g3.1 _ vt hvt'
              have e3 : w3 = vt3 := by
                have := c1.symm.trans hvt3'
                injection this
              have nx : vt.x.n = 0 := by rw [← c2, e3]; exact i3
              have ny : vt.y.n = 0 := by rw [← c3, e3]; exact i4
              have := snapped_of_snap b2.1 hvt' nx ny h3
              rw [k3] at this
              exact this
          · exact Or.inr (Or.inr ⟨hv, hm⟩)
      obtain ⟨r1, r2, r3⟩ := ih b3 hp3 h
      exact ⟨r1, grows_trans g03 r2, r3⟩
    · obtain ⟨ed3, -, h⟩ := bind_ok h
      obtain ⟨⟨r, t4⟩, h4, h⟩ := bind_ok h
      obtain ⟨t5, h5, h⟩ := bind_ok h
      obtain ⟨b4, g4⟩ := base_step b3 (steady_join.goes_to h4) (goes_to_keeps h4)
      obtain ⟨b5, g5⟩ := base_step b4 (remove_rel steady_link steady_flag h5)
        (remove_keeps h5)
      have g35 : t3.grows t5 := grows_trans g4 g5
      have sp : t5.snapped p :=
        snapped_of_grows (grows_trans g3 g35) (snapped_self b2.1 hp2)
      have sq : t5.snapped q := snapped_of_grows g35 (snapped_self b3.1 hq3)
      obtain ⟨hre, hdead⟩ := remove_entries h5
      have hp5 : t5.pending R v rest := by
        intro a b e' he5
        have he4 := hre a b e' he5
        rcases goes_to_entries b3.2 h4 a b e' he4 with he3 | ⟨ha, hb'⟩ | ⟨ha, hb'⟩
        · rw [hbel] at he3
          rcases hp a b e' he3 with ⟨s1, s2⟩ | hR | ⟨hv, hm⟩
          · exact Or.inl ⟨snapped_of_grows (grows_trans g03 g35) s1,
              snapped_of_grows (grows_trans g03 g35) s2⟩
          · exact Or.inr (Or.inl hR)
          · rcases List.mem_cons.1 hm with hm | hm
            · injection hm with hm1 hm2
              subst hm2
              have := (b5.2.1 a b e' he5).1
              rw [hdead] at this
              exact absurd this (by simp)
            · exact Or.inr (Or.inr ⟨hv, hm⟩)
        · rw [ha, hb']; exact Or.inl ⟨sp, sq⟩
        · rw [ha, hb']; exact Or.inl ⟨sq, sp⟩
      obtain ⟨r1, r2, r3⟩ := ih b5 hp5 h
      exact ⟨r1, grows_trans (grows_trans g03 g35) r2, r3⟩

end flattener_t
namespace flattener_t

theorem extract_pending {R : List Nat} {v : Nat} {s s1 : flattener_t} (hb : s.base)
    (hp : ∀ a b e, s.below a b = some e → (s.snapped a ∧ s.snapped b) ∨ b ∈ v :: R)
    (h : s.extract v = .ok s1) :
    s1.base ∧ s.grows s1 ∧
      ∀ a b e, s1.below a b = some e → (s1.snapped a ∧ s1.snapped b) ∨ b ∈ R := by
  unfold extract at h
  obtain ⟨vv, hvv, h⟩ := bind_ok h
  have hvv' := (vertex_eq_ok s v vv).1 hvv
  have hp0 : s.pending R v vv.above := by
    intro a b e he
    rcases hp a b e he with hs | hm
    · exact Or.inl hs
    · rcases List.mem_cons.1 hm with hm | hm
      · refine Or.inr (Or.inr ⟨hm, ?_⟩)
        have := (hb.2.1 a b e he).2
        rw [hm, above_eq_find s v vv a hvv'] at this
        exact edgemap_t.mem_of_find _ _ _ this
      · exact Or.inr (Or.inl hm)
  obtain ⟨r1, r2, r3⟩ := extract_loop_pending vv.above hb hp0 h
  refine ⟨r1, r2, ?_⟩
  intro a b e he
  rcases r3 a b e he with hs | hm | ⟨-, hm⟩
  · exact Or.inl hs
  · exact Or.inr hm
  · exact absurd hm (List.not_mem_nil _)

/-- First phase of snap rounding: when every edge ends at a vertex of the list
that is walked, every edge has two snapped ends afterwards. -/
theorem for_each_extract (l : List Nat) {s s1 : flattener_t} (hb : s.base)
    (hp : ∀ a b e, s.below a b = some e → (s.snapped a ∧ s.snapped b) ∨ b ∈ l)
    (h : for_each extract s l = .ok s1) : s1.base ∧ s.grows s1 ∧ s1.integer_output := by
  induction l generalizing s with
  | nil =>
    unfold for_each at h
    rw [← pure_ok h]
    refine ⟨hb, grows_refl s, ?_⟩
    intro a b e he
    rcases hp a b e he with hs | hm
    · exact hs
    · exact absurd hm (List.not_mem_nil _)
  | cons v rest ih =>
    unfold for_each at h
    obtain ⟨t, ht, h⟩ := bind_ok h
    obtain ⟨r1, r2, r3⟩ := extract_pending hb hp ht
    obtain ⟨q1, q2, q3⟩ := ih r1 r3 h
    exact ⟨q1, grows_trans r2 q2, q3⟩

/-! ## Second phase of snap rounding: every pin is a snapped vertex -/

theorem integer_output_of {s s1 : flattener_t} (hg : s.grows s1)
    (hb : ∀ u w, s1.below u w = s.below u w) (h : s.integer_output) :
    s1.integer_output := by
  intro a b e he
  rw [hb] at he
  exact ⟨snapped_of_grows hg (h a b e he).1, snapped_of_grows hg (h a b e he).2⟩

theorem pins_ok_of {s s1 : flattener_t} (hg : s.grows s1)
    (he : ∀ e ed1, s1.edge e = .ok ed1 →
      ed1.pin_set = none ∨ ∃ ed, s.edge e = .ok ed ∧ ed.pin_set = ed1.pin_set)
    (h : s.pins_ok) : s1.pins_ok := by
  intro e ed1 l p h1 h2 h3
  rcases he e ed1 h1 with hn | ⟨ed, k1, k2⟩
  · rw [hn] at h2; exact absurd h2 (by simp)
  · obtain ⟨v, hv, hs⟩ := h e ed l p k1 (k2.trans h2) h3
    exact ⟨v, hv, snapped_of_grows hg hs⟩

theorem pins_ok_of_edits {s s1 : flattener_t} (hd : s.edits s1) (h : s.pins_ok) :
    s1.pins_ok := by
  refine pins_ok_of (grows_of_edits hd) ?_ h
  intro e ed1 h1
  rcases hd.2.2.2.2.2 e ed1 h1 with ⟨ed, k1, -, -, -, k2⟩ | ⟨-, k⟩
  · exact Or.inr ⟨ed, k1, k2.symm⟩
  · exact Or.inl k

theorem pin_insert_mem {s : flattener_t} {vfrom : vertex_t} {pin : pin_t} {d : Int}
    (l : List pin_t) {l1 : List pin_t} (h : pin_insert s vfrom pin d l = .ok l1) :
    ∀ x ∈ l1, x = pin ∨ x ∈ l := by
  induction l generalizing l1 with
  | nil =>
    unfold pin_insert at h
    rw [← pure_ok h]
    intro x hx
    exact Or.inl (List.mem_singleton.1 hx)
  | cons p rest ih =>
    unfold pin_insert at h
    obtain ⟨w, -, h⟩ := bind_ok h
    obtain ⟨vp, -, h⟩ := bind_ok h
    split at h
    · obtain ⟨l2, h2, h⟩ := bind_ok h
      rw [← pure_ok h]
      intro x hx
      rcases List.mem_cons.1 hx with hx | hx
      · exact Or.inr (hx ▸ List.mem_cons_self _ _)
      · rcases ih h2 x hx with hx | hx
        · exact Or.inl hx
        · exact Or.inr (List.mem_cons_of_mem _ hx)
    · split at h
      · rw [← pure_ok h]
        intro x hx
        rcases List.mem_cons.1 hx with hx | hx
        · exact Or.inl hx
        · exact Or.inr hx
      · rw [← pure_ok h]
        intro x hx
        exact Or.inr hx

/-- The state of the second and third phase of snap rounding. -/
theorem add_pin_inv {s s1 : flattener_t} {e p : Nat} {above : Bool} (hb : s.base)
    (hi : s.integer_output) (hk : s.pins_ok) (hp : s.snapped p)
    (h : s.add_pin e p above = .ok s1) :
    s1.base ∧ s.grows s1 ∧ s1.integer_output ∧ s1.pins_ok := by
  unfold add_pin at h
  obtain ⟨vp, -, h⟩ := bind_ok h
  obtain ⟨-, -, h⟩ := bind_ok h
  obtain ⟨ed, hed, h⟩ := bind_ok h
  obtain ⟨vfrom, -, h⟩ := bind_ok h
  obtain ⟨pins1, hins, h⟩ := bind_ok h
  rw [← pure_ok h]
  obtain ⟨b1, g1⟩ := base_step hb (steady_pin_steps.set_pins (some pins1) hed)
    (keeps_update hed _ _ _ _ _ _)
  refine ⟨b1, g1, integer_output_of g1 (fun _ _ => rfl) hi, ?_⟩
  intro e' ed1 l x h1 h2 h3
  by_cases hc : e' = e
  · subst hc
    rw [edge_set_edge_self s e' ed _ hed] at h1
    injection h1 with h1
    rw [← h1] at h2
    simp only [Option.some.injEq] at h2
    rw [← h2] at h3
    rcases pin_insert_mem _ hins x h3 with hx | hx
    · exact ⟨p, by rw [hx], snapped_of_grows g1 hp⟩
    · cases hps : ed.pin_set with
      | none => rw [hps] at hx; exact absurd hx (List.not_mem_nil _)
      | some l0 =>
        rw [hps] at hx
        obtain ⟨v, hv, hs⟩ := hk e' ed l0 x hed hps hx
        exact ⟨v, hv, snapped_of_grows g1 hs⟩
  · rw [edge_eq_ok, edges_set_edge_ne s e e' _ hc, ← edge_eq_ok] at h1
    obtain ⟨v, hv, hs⟩ := hk e' ed1 l x h1 h2 h3
    exact ⟨v, hv, snapped_of_grows g1 hs⟩

/-- The vertex that `find` returns at the position of a vertex of the snap set
is snapped. -/
theorem find_at_inv {s s1 : flattener_t} {v w : Nat} {vv : vertex_t} (hb : s.base)
    (hi : s.integer_output) (hk : s.pins_ok) (hv : v ∈ s.snapset)
    (hvv : s.vertex v = .ok vv) (h : s.find vv.x vv.y = .ok (w, s1)) :
    s1.base ∧ s.grows s1 ∧ s1.integer_output ∧ s1.pins_ok ∧ s1.snapped w := by
  have hvv' := (vertex_eq_ok s v vv).1 hvv
  have cv := hb.1.1 v vv hvv'
  obtain ⟨b1, g1⟩ := base_step hb (steady_pin_steps.find_at hvv h) (find_keeps h)
  obtain ⟨r0, s0, vr, e0, f2, f3, f4, -, -, f6, -, f8, -⟩ :=
    find_frame s vv.x vv.y cv.1 cv.2 hb.1.valid
  rw [e0] at h
  injection h with h
  injection h with ha hc
  subst ha; subst hc
  refine ⟨b1, g1, integer_output_of g1 f6 hi, pins_ok_of g1 ?_ hk, ?_⟩
  · intro e ed1 h1
    rw [edge_eq_ok, f8, ← edge_eq_ok] at h1
    exact Or.inr ⟨ed1, h1, rfl⟩
  · obtain ⟨vu, k1, k2, k3⟩ := hb.1.2.2.2.1 v hv
    have : vu = vv := by
      have := k1.symm.trans hvv'
      injection this
    subst this
    obtain ⟨vv1, a1, a2, a3⟩ := g1.1 v vu k1
    exact ⟨vr, v, vv1, f2, by rw [f3]; exact k2, by rw [f4]; exact k3, g1.2.2 v hv, a1,
      by rw [a2, f3], by rw [a3, f4]⟩

end flattener_t
namespace flattener_t

theorem rounded_frame {s s1 : flattener_t} (h : s.rounded) (hv : s1.verts = s.verts)
    (he : s1.edges = s.edges) (h1 : s1.vertexset = s.vertexset)
    (h2 : s1.snapset = s.snapset) : s1.rounded ∧ s.grows s1 := by
  obtain ⟨hb, hi, hk⟩ := h
  obtain ⟨b1, g1⟩ := base_step hb (steady_of_frame hv h1 h2) (keeps_of_arenas hv he)
  refine ⟨⟨b1, integer_output_of g1 (fun u w => below_of_verts s s1 hv u w) hi,
    pins_ok_of g1 ?_ hk⟩, g1⟩
  intro e ed1 k
  rw [edge_eq_ok, he, ← edge_eq_ok] at k
  exact Or.inr ⟨ed1, k, rfl⟩

theorem pin_ends_inv {v : Nat} {enter : Bool} (l : List (Nat × Nat)) {s s1 : flattener_t}
    (hr : s.rounded) (hv : v ∈ s.snapset) (h : s.pin_ends v enter l = .ok s1) :
    s1.rounded ∧ s.grows s1 := by
  induction l generalizing s with
  | nil =>
    unfold pin_ends at h
    rw [← pure_ok h]; exact ⟨hr, grows_refl s⟩
  | cons a rest ih =>
    obtain ⟨w0, e⟩ := a
    unfold pin_ends at h
    obtain ⟨vv, hvv, h⟩ := bind_ok h
    obtain ⟨⟨w, t1⟩, h1, h⟩ := bind_ok h
    obtain ⟨t2, h2, h⟩ := bind_ok h
    obtain ⟨b1, g1, i1, k1, sw⟩ := find_at_inv hr.1 hr.2.1 hr.2.2 hv hvv h1
    obtain ⟨b2, g2, i2, k2⟩ := add_pin_inv b1 i1 k1 sw h2
    have r2 : t2.rounded := ⟨b2, i2, k2⟩
    have hstep : ∀ sl : List Nat, (t2.set_snaplist sl).rounded ∧ t2.grows (t2.set_snaplist sl) :=
      fun sl => rounded_frame r2 rfl rfl rfl rfl
    have r3 : (if enter then t2.set_snaplist (snaplist_insert e t2.snaplist)
        else t2.set_snaplist (t2.snaplist.erase e)).rounded ∧
        t2.grows (if enter then t2.set_snaplist (snaplist_insert e t2.snaplist)
        else t2.set_snaplist (t2.snaplist.erase e)) := by
      split
      · exact hstep _
      · exact hstep _
    have g03 := grows_trans (grows_trans g1 g2) r3.2
    obtain ⟨q1, q2⟩ := ih r3.1 (g03.2.2 v hv) h
    exact ⟨q1, grows_trans g03 q2⟩

theorem hittest_loop_inv {v : Nat} (l : List Nat) {s s1 : flattener_t}
    (hr : s.rounded) (hv : v ∈ s.snapset) (h : s.hittest_loop v l = .ok s1) :
    s1.rounded ∧ s.grows s1 := by
  induction l generalizing s with
  | nil =>
    unfold hittest_loop at h
    rw [← pure_ok h]; exact ⟨hr, grows_refl s⟩
  | cons p rest ih =>
    unfold hittest_loop at h
    obtain ⟨vv, hvv, h⟩ := bind_ok h
    obtain ⟨pe, -, h⟩ := bind_ok h
    obtain ⟨pf, -, h⟩ := bind_ok h
    obtain ⟨pt, -, h⟩ := bind_ok h
    obtain ⟨r1, -, h⟩ := bind_ok h
    obtain ⟨r2, -, h⟩ := bind_ok h
    obtain ⟨ov, -, h⟩ := bind_ok h
    split at h
    · exact ih hr hv h
    · dsimp only at h
      split at h
      · obtain ⟨⟨w, t1⟩, h1, h⟩ := bind_ok h
        obtain ⟨t2, h2, h⟩ := bind_ok h
        obtain ⟨b1, g1, i1, k1, sw⟩ := find_at_inv hr.1 hr.2.1 hr.2.2 hv hvv h1
        obtain ⟨b2, g2, i2, k2⟩ := add_pin_inv b1 i1 k1 sw h2
        have g02 := grows_trans g1 g2
        obtain ⟨q1, q2⟩ := ih ⟨b2, i2, k2⟩ (g02.2.2 v hv) h
        exact ⟨q1, grows_trans g02 q2⟩
      · exact ih hr hv h

theorem discover_inv {v : Nat} {s s1 : flattener_t} (hr : s.rounded) (hv : v ∈ s.snapset)
    (h : s.discover v = .ok s1) : s1.rounded ∧ s.grows s1 := by
  unfold discover at h
  obtain ⟨vv, -, h⟩ := bind_ok h
  obtain ⟨t1, h1, h⟩ := bind_ok h
  obtain ⟨t2, h2, h⟩ := bind_ok h
  obtain ⟨vv2, -, h⟩ := bind_ok h
  obtain ⟨r1, g1⟩ := pin_ends_inv _ hr hv h1
  obtain ⟨r2, g2⟩ := hittest_loop_inv _ r1 (g1.2.2 v hv) h2
  obtain ⟨r3, g3⟩ := pin_ends_inv _ r2 (g2.2.2 v (g1.2.2 v hv)) h
  exact ⟨r3, grows_trans (grows_trans g1 g2) g3⟩

theorem for_each_discover (l : List Nat) {s s1 : flattener_t} (hr : s.rounded)
    (hl : ∀ v ∈ l, v ∈ s.snapset) (h : for_each discover s l = .ok s1) :
    s1.rounded ∧ s.grows s1 := by
  induction l generalizing s with
  | nil =>
    unfold for_each at h
    rw [← pure_ok h]; exact ⟨hr, grows_refl s⟩
  | cons v rest ih =>
    unfold for_each at h
    obtain ⟨t, ht, h⟩ := bind_ok h
    obtain ⟨r1, g1⟩ := discover_inv hr (hl v (List.mem_cons_self _ _)) ht
    obtain ⟨q1, q2⟩ := ih r1 (fun u hu => g1.2.2 u (hl u (List.mem_cons_of_mem _ hu))) h
    exact ⟨q1, grows_trans g1 q2⟩

end flattener_t
/-! ## Third phase of snap rounding: the new edges run between pins -/

namespace flattener_t

set_option maxHeartbeats 1000000 in
theorem trim_mem (P : pin_t → Prop) {s : flattener_t} {it : pin_t} (n : Nat)
    {pin_a pin_b : pin_t} {pinlist : List pin_t} {n1 : Nat} {a1 b1 : pin_t}
    {l1 : List pin_t} (ha : P pin_a) (hb : P pin_b) (hl : ∀ x ∈ pinlist, P x)
    (h : trim s it n pin_a pin_b pinlist = .ok (n1, a1, b1, l1)) :
    P a1 ∧ P b1 ∧ ∀ x ∈ l1, P x := by
  induction n generalizing pin_a pin_b pinlist with
  | zero =>
    rw [trim.eq_1] at h
    have e := pure_ok h
    injection e with e1 e2
    injection e2 with e2 e3
    injection e3 with e3 e4
    rw [← e2, ← e3, ← e4]; exact ⟨ha, hb, hl⟩
  | succ n ih =>
    cases pinlist with
    | nil =>
      rw [trim.eq_2] at h
      split at h
      · obtain ⟨i, -, h⟩ := bind_ok h
        obtain ⟨vi, -, h⟩ := bind_ok h
        obtain ⟨b, -, h⟩ := bind_ok h
        obtain ⟨vb, -, h⟩ := bind_ok h
        obtain ⟨a, -, h⟩ := bind_ok h
        obtain ⟨va, -, h⟩ := bind_ok h
        dsimp only at h
        split at h
        · have e := pure_ok h
          injection e with e1 e2
          injection e2 with e2 e3
          injection e3 with e3 e4
          rw [← e2, ← e3, ← e4]; exact ⟨ha, hb, hl⟩
        · exact ih hb hb (fun x hx => absurd hx (List.not_mem_nil _)) h
      · have e := pure_ok h
        injection e with e1 e2
        injection e2 with e2 e3
        injection e3 with e3 e4
        rw [← e2, ← e3, ← e4]; exact ⟨ha, hb, hl⟩
    | cons front tail =>
      rw [trim.eq_3] at h
      split at h
      · obtain ⟨i, -, h⟩ := bind_ok h
        obtain ⟨vi, -, h⟩ := bind_ok h
        obtain ⟨b, -, h⟩ := bind_ok h
        obtain ⟨vb, -, h⟩ := bind_ok h
        obtain ⟨a, -, h⟩ := bind_ok h
        obtain ⟨va, -, h⟩ := bind_ok h
        dsimp only at h
        split at h
        · have e := pure_ok h
          injection e with e1 e2
          injection e2 with e2 e3
          injection e3 with e3 e4
          rw [← e2, ← e3, ← e4]; exact ⟨ha, hb, hl⟩
        · exact ih hb (hl front (List.mem_cons_self _ _))
            (fun x hx => hl x (List.mem_cons_of_mem _ hx)) h
      · have e := pure_ok h
        injection e with e1 e2
        injection e2 with e2 e3
        injection e3 with e3 e4
        rw [← e2, ← e3, ← e4]; exact ⟨ha, hb, hl⟩

theorem collect_pins_mem (P : pin_t → Prop) {s : flattener_t} (pins : List pin_t) {n : Nat}
    {pin_a pin_b : pin_t} {pinlist : List pin_t} {n1 : Nat} {a1 b1 : pin_t}
    {l1 : List pin_t} (hp : ∀ x ∈ pins, P x) (ha : P pin_a) (hb : P pin_b)
    (hl : ∀ x ∈ pinlist, P x)
    (h : collect_pins s pins n pin_a pin_b pinlist = .ok (n1, a1, b1, l1)) :
    P a1 ∧ P b1 ∧ ∀ x ∈ l1, P x := by
  induction pins generalizing n pin_a pin_b pinlist with
  | nil =>
    unfold collect_pins at h
    have e := pure_ok h
    injection e with e1 e2
    injection e2 with e2 e3
    injection e3 with e3 e4
    rw [← e2, ← e3, ← e4]; exact ⟨ha, hb, hl⟩
  | cons it rest ih =>
    unfold collect_pins at h
    obtain ⟨⟨n2, a2, b2, l2⟩, h1, h⟩ := bind_ok h
    obtain ⟨q1, q2, q3⟩ := trim_mem P n ha hb hl h1
    refine ih (fun x hx => hp x (List.mem_cons_of_mem _ hx)) (hp it (List.mem_cons_self _ _))
      q1 ?_ h
    intro x hx
    split at hx
    · rcases List.mem_cons.1 hx with hx | hx
      · rw [hx]; exact q2
      · exact q3 x hx
    · exact q3 x hx

theorem rounded_remove {s s1 : flattener_t} {p : Nat} (hr : s.rounded)
    (h : s.remove p = .ok s1) : s1.rounded ∧ s.grows s1 := by
  obtain ⟨hb, hi, hk⟩ := hr
  obtain ⟨b1, g1⟩ := base_step hb (remove_rel steady_link steady_flag h) (remove_keeps h)
  refine ⟨⟨b1, ?_, pins_ok_of_edits (remove_rel edits_link edits_flag h) hk⟩, g1⟩
  intro a b e he
  have := hi a b e ((remove_entries h).1 a b e he)
  exact ⟨snapped_of_grows g1 this.1, snapped_of_grows g1 this.2⟩

theorem rounded_goes_to {s s1 : flattener_t} {this q : Nat} {raw : line_t} {wind : wind_t}
    {state r : Option Nat} (hr : s.rounded) (ht : s.snapped this) (hq : s.snapped q)
    (h : s.goes_to this q raw wind state = .ok (r, s1)) : s1.rounded ∧ s.grows s1 := by
  obtain ⟨hb, hi, hk⟩ := hr
  obtain ⟨b1, g1⟩ := base_step hb (steady_join.goes_to h) (goes_to_keeps h)
  refine ⟨⟨b1, ?_, pins_ok_of_edits (edits_join.goes_to h) hk⟩, g1⟩
  intro a b e he
  rcases goes_to_entries hb.2 h a b e he with h0 | ⟨h1, h2⟩ | ⟨h1, h2⟩
  · exact ⟨snapped_of_grows g1 (hi a b e h0).1, snapped_of_grows g1 (hi a b e h0).2⟩
  · rw [h1, h2]; exact ⟨snapped_of_grows g1 ht, snapped_of_grows g1 hq⟩
  · rw [h1, h2]; exact ⟨snapped_of_grows g1 hq, snapped_of_grows g1 ht⟩

theorem deref_pos_ok {p : Option Nat} {x : Nat} (h : deref_pos p = .ok x) : p = some x := by
  unfold deref_pos at h
  split at h
  · injection h with h; rw [h]
  · exact absurd h (by simp)

theorem route_inv {this : Nat} (n : Nat) {pin_a pin_b : pin_t} {pinlist : List pin_t}
    {s s1 : flattener_t} (hr : s.rounded) (ha : s.pin_snapped pin_a)
    (hb : s.pin_snapped pin_b) (hl : ∀ x ∈ pinlist, s.pin_snapped x)
    (h : route this n pin_a pin_b pinlist s = .ok s1) : s1.rounded ∧ s.grows s1 := by
  induction n generalizing s pin_a pin_b pinlist with
  | zero =>
    unfold route at h
    rw [← pure_ok h]; exact ⟨hr, grows_refl s⟩
  | succ n ih =>
    unfold route at h
    split at h
    · obtain ⟨te, -, h⟩ := bind_ok h
      obtain ⟨b, hdb, h⟩ := bind_ok h
      obtain ⟨a, hda, h⟩ := bind_ok h
      obtain ⟨⟨e, t1⟩, h1, h⟩ := bind_ok h
      obtain ⟨e1, -, h⟩ := bind_ok h
      obtain ⟨ed, -, h⟩ := bind_ok h
      obtain ⟨t2, h2, h⟩ := bind_ok h
      obtain ⟨r1, g1⟩ := rounded_goes_to hr (hb b (deref_pos_ok hdb))
        (ha a (deref_pos_ok hda)) h1
      have r2 : t2.rounded ∧ t1.grows t2 := by
        split at h2
        · exact rounded_remove r1 h2
        · rw [← pure_ok h2]; exact ⟨r1, grows_refl t1⟩
      have g02 := grows_trans g1 r2.2
      have hb2 : t2.pin_snapped pin_b := fun v hv => snapped_of_grows g02 (hb v hv)
      cases pinlist with
      | nil =>
        obtain ⟨q1, q2⟩ := ih r2.1 hb2 hb2 (fun x hx => absurd hx (List.not_mem_nil _)) h
        exact ⟨q1, grows_trans g02 q2⟩
      | cons front tail =>
        obtain ⟨q1, q2⟩ := ih r2.1 hb2
          (fun v hv => snapped_of_grows g02 (hl front (List.mem_cons_self _ _) v hv))
          (fun x hx v hv => snapped_of_grows g02 (hl x (List.mem_cons_of_mem _ hx) v hv)) h
        exact ⟨q1, grows_trans g02 q2⟩
    · rw [← pure_ok h]; exact ⟨hr, grows_refl s⟩

theorem snap_to_pins_inv {s s1 : flattener_t} {this : Nat} (hr : s.rounded)
    (h : s.snap_to_pins this = .ok s1) : s1.rounded ∧ s.grows s1 := by
  unfold snap_to_pins at h
  obtain ⟨te, hte, h⟩ := bind_ok h
  obtain ⟨pins, hpins, h⟩ := bind_ok h
  obtain ⟨⟨n, a, b, l⟩, hc, h⟩ := bind_ok h
  have hp : ∀ x ∈ pins, s.pin_snapped x := by
    intro x hx v hv
    cases hps : te.pin_set with
    | none =>
      rw [hps] at hpins
      exact absurd hpins (by simp [throw, throwThe, MonadExceptOf.throw])
    | some l0 =>
      rw [hps] at hpins
      have : l0 = pins := pure_ok hpins
      subst this
      obtain ⟨v', k1, k2⟩ := hr.2.2 this te l0 x hte hps hx
      rw [k1] at hv
      injection hv with hv
      exact hv ▸ k2
  have hd : s.pin_snapped {} := fun v hv => absurd hv (by simp)
  obtain ⟨q1, q2, q3⟩ := collect_pins_mem s.pin_snapped pins hp hd hd
    (fun x hx => absurd hx (List.not_mem_nil _)) hc
  exact route_inv n hr q1 q2 q3 h

theorem reroute_loop_inv (l : List (Nat × Nat)) {s s1 : flattener_t} (hr : s.rounded)
    (h : s.reroute_loop l = .ok s1) : s1.rounded ∧ s.grows s1 := by
  induction l generalizing s with
  | nil =>
    unfold reroute_loop at h
    rw [← pure_ok h]; exact ⟨hr, grows_refl s⟩
  | cons a rest ih =>
    obtain ⟨w, e⟩ := a
    unfold reroute_loop at h
    obtain ⟨t1, h1, h⟩ := bind_ok h
    obtain ⟨t2, h2, h⟩ := bind_ok h
    obtain ⟨r1, g1⟩ := snap_to_pins_inv hr h1
    obtain ⟨r2, g2⟩ := rounded_remove r1 h2
    obtain ⟨q1, q2⟩ := ih r2 h
    exact ⟨q1, grows_trans (grows_trans g1 g2) q2⟩

theorem reroute_inv {s s1 : flattener_t} {v : Nat} (hr : s.rounded)
    (h : s.reroute v = .ok s1) : s1.rounded ∧ s.grows s1 := by
  unfold reroute at h
  obtain ⟨vv, -, h⟩ := bind_ok h
  exact reroute_loop_inv _ hr h

theorem for_each_reroute (l : List Nat) {s s1 : flattener_t} (hr : s.rounded)
    (h : for_each reroute s l = .ok s1) : s1.rounded ∧ s.grows s1 := by
  induction l generalizing s with
  | nil =>
    unfold for_each at h
    rw [← pure_ok h]; exact ⟨hr, grows_refl s⟩
  | cons v rest ih =>
    unfold for_each at h
    obtain ⟨t, ht, h⟩ := bind_ok h
    obtain ⟨r1, g1⟩ := reroute_inv hr ht
    obtain ⟨q1, q2⟩ := ih r1 h
    exact ⟨q1, grows_trans g1 q2⟩

end flattener_t
/-! ## Plain sessions: before the first snap rounding -/

namespace flattener_t

section
variable {R : flattener_t → flattener_t → Prop}

/-- A reflexive and transitive relation that holds along every edit holds
along the steps that write flags, link and unlink. -/
theorem flag_of_edits (h : ∀ {s s1 : flattener_t}, s.edits s1 → R s s1)
    (ht : ∀ {s s1 s2 : flattener_t}, R s s1 → R s1 s2 → R s s2) : flag_steps R where
  refl := fun s => h (edits_refl s)
  trans := ht
  set_edge := fun _ _ _ _ he => h (edits_flag.set_edge _ _ _ _ he)
  set_todo := fun s t => h (edits_flag.set_todo s t)
  set_ael := fun s t => h (edits_flag.set_ael s t)
  set_dot := fun s t => h (edits_flag.set_dot s t)

theorem join_of_edits (h : ∀ {s s1 : flattener_t}, s.edits s1 → R s s1) : join_steps R :=
  ⟨fun k => h (edits_join.goes_to k)⟩

theorem link_of_edits (h : ∀ {s s1 : flattener_t}, s.edits s1 → R s s1) : link_steps R :=
  ⟨fun k => h (edits_link.unlink k), fun s p => h (edits_link.delete_edge s p)⟩

end

theorem find_edges {s s1 : flattener_t} {x y : rat_t} {r : Nat}
    (h : s.find x y = .ok (r, s1)) : s1.edges = s.edges := by
  unfold find at h
  split at h
  · exact absurd h (by simp)
  · split at h
    · injection h with h
      injection h with _ h
      rw [← h]
    · injection h with h
      injection h with _ h
      rw [← h]

theorem snap_edges {s s1 : flattener_t} {x y : rat_t} {r : Nat}
    (h : s.snap x y = .ok (r, s1)) : s1.edges = s.edges := by
  unfold snap at h
  split at h
  · exact absurd h (by simp)
  · split at h
    · exact absurd h (by simp)
    · split at h
      · exact absurd h (by simp)
      · split at h
        · injection h with h
          injection h with _ h
          rw [← h]
        · injection h with h
          injection h with _ h
          rw [← h]

theorem pinless_of_edits {s s1 : flattener_t} (h : s.edits s1) : s.pinless s1 := by
  intro hu e ed1 he
  rcases h.2.2.2.2.2 e ed1 he with ⟨ed, k1, -, -, -, k2⟩ | ⟨-, k⟩
  · rw [k2]; exact hu e ed k1
  · exact k

theorem pinless_of_edges {s s1 : flattener_t} (h : s1.edges = s.edges) : s.pinless s1 := by
  intro hu e ed1 he
  rw [edge_eq_ok, h, ← edge_eq_ok] at he
  exact hu e ed1 he

theorem pinless_flag : flag_steps pinless :=
  flag_of_edits pinless_of_edits (fun h k hu => k (h hu))

theorem pinless_join : join_steps pinless := join_of_edits pinless_of_edits

theorem pinless_link : link_steps pinless := link_of_edits pinless_of_edits

theorem pinless_find : find_steps pinless := ⟨fun _ _ h => pinless_of_edges (find_edges h)⟩

theorem pinless_snap : snap_steps pinless := ⟨fun _ h => pinless_of_edges (snap_edges h)⟩

theorem plainly_of_calm {s s1 : flattener_t} (h : s.calm s1) : s.plainly s1 := by
  rintro ⟨hs, hp⟩
  obtain ⟨a1, a2, a3, -⟩ := h.1
  refine ⟨sound_of_calm hs h, ?_, a2.trans hp.2⟩
  intro v hv
  rw [a1]; rw [a3] at hv
  exact hp.1 v hv

theorem plainly_flag : flag_steps plainly where
  refl := fun _ h => h
  trans := fun h k hs => k (h hs)
  set_edge := fun _ _ _ _ he => plainly_of_calm (calm_flag.set_edge _ _ _ _ he)
  set_todo := fun s t => plainly_of_calm (calm_flag.set_todo s t)
  set_ael := fun s t => plainly_of_calm (calm_flag.set_ael s t)
  set_dot := fun s t => plainly_of_calm (calm_flag.set_dot s t)

theorem plainly_join : join_steps plainly := ⟨fun k => plainly_of_calm (calm_join.goes_to k)⟩

theorem plainly_link : link_steps plainly :=
  ⟨fun k => plainly_of_calm (calm_link.unlink k),
    fun s p => plainly_of_calm (calm_link.delete_edge s p)⟩

theorem plainly_find {s s1 : flattener_t} {x y : rat_t} {r : Nat} (hx : x.canonical)
    (hy : y.canonical) (h : s.find x y = .ok (r, s1)) : s.plainly s1 := by
  rintro ⟨hs, hp⟩
  refine ⟨(steady_find hx hy h hs).1, ?_⟩
  obtain ⟨r0, s0, vr, e0, -, -, -, -, hcase⟩ := find_eq s x y hx hy hs.valid
  rw [e0] at h
  injection h with h
  injection h with hr hs1
  subst hs1
  rcases hcase with ⟨h1, -⟩ | ⟨h1, -, h3, h4, -, h6, -⟩
  · rw [h1]; exact hp
  · refine ⟨?_, h6.trans hp.2⟩
    intro v hv
    rw [h3] at hv
    simp at hv
    by_cases hc : v < s.verts.length
    · exact (h4 v).2 (Or.inr (hp.1 v hc))
    · exact (h4 v).2 (Or.inl (by omega))

theorem plainly_find_steps : find_steps plainly := ⟨fun hx hy h => plainly_find hx hy h⟩

theorem plainly_insert {ins : ael_insert_t} {s s1 : flattener_t} {e : Nat}
    (h : s.insert ins e = .ok s1) : s.plainly s1 :=
  insert_rel plainly_find_steps plainly_join plainly_link plainly_flag h

theorem pinless_insert {ins : ael_insert_t} {s s1 : flattener_t} {e : Nat}
    (h : s.insert ins e = .ok s1) : s.pinless s1 :=
  insert_rel pinless_find pinless_join pinless_link pinless_flag h

/-! ## Integer output -/

/-- Snap rounding of a plain session without pins: afterwards every edge of
the graph has two snapped ends. -/
theorem stable_snap_round_rounded {s t : flattener_t} (hb : s.base) (hp : s.plain)
    (hu : s.unpinned) (h : s.stable_snap_round = .ok t) : t.rounded ∧ s.grows t := by
  unfold stable_snap_round at h
  obtain ⟨t1, h1, h⟩ := bind_ok h
  obtain ⟨-, -, h⟩ := bind_ok h
  obtain ⟨t2, h2, h⟩ := bind_ok h
  obtain ⟨-, -, h⟩ := bind_ok h
  have hp0 : ∀ a b e, s.below a b = some e → (s.snapped a ∧ s.snapped b) ∨ b ∈ s.vertexset := by
    intro a b e he
    right
    have := (hb.2.1 a b e he).2
    apply hp.1
    unfold above at this
    cases hv : s.verts[b]? with
    | none => rw [hv] at this; exact absurd this (by simp)
    | some vb => exact lt_of_vertex s b vb hv
  obtain ⟨b1, g1, i1⟩ := for_each_extract s.vertexset hb hp0 h1
  have u1 : t1.unpinned :=
    for_each_rel pinless_flag
      (fun _ _ _ => extract_rel pinless_snap pinless_join pinless_link pinless_flag) h1 hu
  have k1 : t1.pins_ok := by
    intro e ed l p he hl _
    rw [u1 e ed he] at hl
    exact absurd hl (by simp)
  obtain ⟨r2, g2⟩ := for_each_discover t1.snapset ⟨b1, i1, k1⟩ (fun _ hv => hv) h2
  obtain ⟨r3, g3⟩ := for_each_reroute t2.snapset r2 h
  exact ⟨r3, grows_trans (grows_trans g1 g2) g3⟩

theorem base_new (rule : Int) : (flattener_t.new rule).base := by
  refine ⟨⟨?_, ?_, List.Pairwise.nil, ?_, ?_⟩, (wf_new rule).2.2.1⟩
  · intro v vv h; simp [new] at h
  · intro v h; simp [new] at h
  · intro v h; simp [new] at h
  · intro v vv h; simp [new] at h

/-- A session built by `add_edge` calls is sound, doubly linked, plain and
without pins. -/
theorem add_edges_fresh {rule : Int} {l : List (Int × Int × Int × Int × Bool)}
    {s : flattener_t} (h : (flattener_t.new rule).add_edges l = .ok s) :
    s.base ∧ s.plain ∧ s.unpinned := by
  have b0 := base_new rule
  have p0 : (flattener_t.new rule).plain := ⟨fun v hv => by simp [new] at hv, rfl⟩
  have u0 : (flattener_t.new rule).unpinned := by
    intro e ed he
    simp [edge, new] at he
  obtain ⟨hs, hp⟩ := add_edges_rel plainly_find_steps plainly_join plainly_flag h ⟨b0.1, p0⟩
  exact ⟨⟨hs, linked_of_keeps (add_edges_keeps h) b0.2⟩, hp,
    add_edges_rel pinless_find pinless_join pinless_flag h u0⟩

/-- The first `flatten` of a sound, doubly linked, plain session without
pins. -/
theorem flatten_rounded {ins : ael_insert_t} {fuel : Nat} {s t : flattener_t}
    (hb : s.base) (hp : s.plain) (hu : s.unpinned)
    (h : s.flatten ins fuel = .ok (some t)) : t.rounded ∧ s.grows t := by
  unfold flatten at h
  split at h
  · rename_i s2 h2
    injection h with h
    injection h with h
    subst h
    obtain ⟨t1, h1, h2⟩ := bind_ok h2
    obtain ⟨hs1, hp1⟩ := intersect_rel plainly_insert plainly_join plainly_link plainly_flag h1
      ⟨hb.1, hp⟩
    have hl1 := linked_of_keeps (intersect_keeps h1) hb.2
    have hu1 := intersect_rel pinless_insert pinless_join pinless_link pinless_flag h1 hu
    have g1 := (intersect_rel steady_insert steady_join steady_link steady_flag h1 hb.1).2
    obtain ⟨r, g⟩ := stable_snap_round_rounded ⟨hs1, hl1⟩ hp1 hu1 h2
    exact ⟨r, grows_trans g1 g⟩
  · exact absurd h (by simp)
  · exact absurd h (by simp)
  · exact absurd h (by simp)

end flattener_t

/-! ## The points that `get_result` emits -/

namespace flattener_t

theorem snap_point_of_edits {s s1 : flattener_t} (h : s.edits s1) {pt : Int × Int}
    (hp : s1.snap_point pt) : s.snap_point pt := by
  obtain ⟨u, vu, h1, h2, h3, h4, h5, h6⟩ := hp
  obtain ⟨-, a2, -, a4, -, -⟩ := h
  obtain ⟨vu0, k1, k2, k3⟩ := pos_transfer s1 s u vu (a4 u).symm h2
  exact ⟨u, vu0, a2 ▸ h1, k1, by rw [k2]; exact h3, by rw [k3]; exact h4,
    by rw [k2]; exact h5, by rw [k3]; exact h6⟩

/-- The position of a snapped vertex is a point of the snap set. -/
theorem snap_point_of_snapped {s : flattener_t} {v : Nat} {vv : vertex_t}
    (hv : s.verts[v]? = some vv) (h : s.snapped v) : s.snap_point (vv.x.i, vv.y.i) := by
  obtain ⟨vv', u, vu, h1, h2, h3, h4, h5, h6, h7⟩ := h
  have : vv' = vv := by
    have := h1.symm.trans hv
    injection this
  subst this
  exact ⟨u, vu, h4, h5, by rw [h6]; exact h2, by rw [h7]; exact h3, by rw [h6], by rw [h7]⟩

theorem first_sense_mem {s : flattener_t} {sense want : Bool} (l : List (Nat × Nat))
    {e : Nat} (h : first_sense s sense want l = .ok (some e)) : ∃ w, (w, e) ∈ l := by
  induction l with
  | nil =>
    unfold first_sense at h
    have := pure_ok h
    exact absurd this (by simp)
  | cons a rest ih =>
    obtain ⟨w, e0⟩ := a
    unfold first_sense at h
    obtain ⟨ed, -, h⟩ := bind_ok h
    split at h
    · have := pure_ok h
      injection this with this
      exact ⟨w, this ▸ List.mem_cons_self _ _⟩
    · obtain ⟨w', hw⟩ := ih h
      exact ⟨w', List.mem_cons_of_mem _ hw⟩

/-- Every point a trace pushes is a point of the snap set. -/
theorem trace_points {first : Nat} {sense : Bool} (n : Nat) {cur : Nat} {flip : Bool}
    {poly poly1 : List (Int × Int)} {s s1 : flattener_t} (hr : s.rounded)
    (hc : ∃ a b, s.below a b = some cur)
    (h : trace first sense n cur flip poly s = .ok (poly1, s1)) :
    s1.rounded ∧ s.edits s1 ∧ ∀ pt ∈ poly1, pt ∈ poly ∨ s.snap_point pt := by
  induction n generalizing cur flip poly s with
  | zero =>
    unfold trace at h
    exact absurd h (by simp)
  | succ n ih =>
    unfold trace at h
    obtain ⟨ce, hce, h⟩ := bind_ok h
    dsimp only at h
    generalize hfrom : (if flip = true then ce.to_ else ce.from_) = from_ at h
    generalize hto : (if flip = true then ce.from_ else ce.to_) = to_ at h
    obtain ⟨vf, hvf, h⟩ := bind_ok h
    obtain ⟨t1, h1, h⟩ := bind_ok h
    obtain ⟨a, b, hab⟩ := hc
    obtain ⟨ed', k1, k2, k3⟩ := (ends_eq_some s cur a b).1 (hr.1.2.1 a b cur hab).1
    rw [hce] at k1
    injection k1 with k1
    subst k1
    have sa := (hr.2.1 a b cur hab).1
    have sb := (hr.2.1 a b cur hab).2
    have hvf' := (vertex_eq_ok _ _ _).1 hvf
    have spt : s.snap_point (vf.x.i, vf.y.i) := by
      cases flip
      · simp only [Bool.false_eq_true, if_false] at hfrom
        rw [← hfrom, k2] at hvf'
        exact snap_point_of_snapped hvf' sa
      · simp only [if_true] at hfrom
        rw [← hfrom, k3] at hvf'
        exact snap_point_of_snapped hvf' sb
    obtain ⟨r1, g1⟩ := rounded_remove hr h1
    have e1 : s.edits t1 := remove_rel edits_link edits_flag h1
    have base_case : ∀ pt ∈ poly ++ [(vf.x.i, vf.y.i)], pt ∈ poly ∨ s.snap_point pt := by
      intro pt hpt
      rcases List.mem_append.1 hpt with hpt | hpt
      · exact Or.inl hpt
      · rw [List.mem_singleton.1 hpt]; exact Or.inr spt
    have next : ∀ (e : Nat) (fl : Bool) (w : Nat) (vt : vertex_t) (v : Nat),
        t1.verts[v]? = some vt → ((w, e) ∈ vt.above ∨ (w, e) ∈ vt.below) →
        trace first sense n e fl (poly ++ [(vf.x.i, vf.y.i)]) t1 = .ok (poly1, s1) →
        s1.rounded ∧ s.edits s1 ∧ ∀ pt ∈ poly1, pt ∈ poly ∨ s.snap_point pt := by
      intro e fl w vt v hv hm ht
      have hc1 : ∃ a b, t1.below a b = some e := by
        rcases hm with hm | hm
        · have := edgemap_t.find_of_mem vt.above w e (r1.1.1.2.2.2.2 v vt hv).2 hm
          rw [← above_eq_find t1 v vt w hv] at this
          exact ⟨w, v, (r1.1.2.2 v w e this).2⟩
        · have := edgemap_t.find_of_mem vt.below w e (r1.1.1.2.2.2.2 v vt hv).1 hm
          rw [← below_eq_find t1 v vt w hv] at this
          exact ⟨v, w, this⟩
      obtain ⟨q1, q2, q3⟩ := ih r1 hc1 ht
      refine ⟨q1, edits_trans e1 q2, ?_⟩
      intro pt hpt
      rcases q3 pt hpt with hp | hp
      · exact base_case pt hp
      · exact Or.inr (snap_point_of_edits e1 hp)
    split at h
    · have := pure_ok h
      injection this with p1 p2
      subst p1; subst p2
      exact ⟨r1, e1, base_case⟩
    · obtain ⟨vt, hvt, h⟩ := bind_ok h
      have hvt' := (vertex_eq_ok _ _ _).1 hvt
      obtain ⟨o1, ho1, h⟩ := bind_ok h
      cases o1 with
      | some e =>
        obtain ⟨w, hw⟩ := first_sense_mem _ ho1
        exact next e true w vt _ hvt' (Or.inl hw) h
      | none =>
        dsimp only at h
        obtain ⟨o2, ho2, h⟩ := bind_ok h
        cases o2 with
        | some e =>
          obtain ⟨w, hw⟩ := first_sense_mem _ ho2
          exact next e false w vt _ hvt' (Or.inr hw) h
        | none =>
          have := pure_ok h
          injection this with p1 p2
          subst p1; subst p2
          exact ⟨r1, e1, base_case⟩

theorem trace_from_points {fuel cur : Nat} {poly : List (Int × Int)} {s s1 : flattener_t}
    (hr : s.rounded) (hc : ∃ a b, s.below a b = some cur)
    (h : s.trace_from fuel cur = .ok (poly, s1)) :
    s1.rounded ∧ s.edits s1 ∧ ∀ pt ∈ poly, s.snap_point pt := by
  unfold trace_from at h
  obtain ⟨ce, -, h⟩ := bind_ok h
  obtain ⟨⟨p0, t1⟩, h1, h⟩ := bind_ok h
  have := pure_ok h
  injection this with p1 p2
  subst p2
  obtain ⟨q1, q2, q3⟩ := trace_points fuel hr hc h1
  refine ⟨q1, q2, ?_⟩
  intro pt hpt
  have hm : pt ∈ p0 := by
    rw [← p1] at hpt
    split at hpt
    · exact List.mem_reverse.1 hpt
    · exact hpt
  rcases q3 pt hm with hp | hp
  · exact absurd hp (List.not_mem_nil _)
  · exact hp

theorem get_result_loop_points {fuel : Nat} (l : List Nat) {result : List (List (Int × Int))}
    {s : flattener_t} (hr : s.rounded) :
    ∀ poly ∈ (get_result_loop fuel l result s).1,
      poly ∈ result ∨ ∀ pt ∈ poly, s.snap_point pt := by
  induction l generalizing s result with
  | nil =>
    intro poly hp
    unfold get_result_loop at hp
    exact Or.inl hp
  | cons v rest ih =>
    intro poly hp
    unfold get_result_loop at hp
    split at hp
    · exact Or.inl hp
    · rename_i vv hvv
      have hvv' := (vertex_eq_ok _ _ _).1 hvv
      split at hp
      · exact ih hr poly hp
      · rename_i k cur tl hbel
        split at hp
        · exact Or.inl hp
        · rename_i p1 s1 ht
          have hc : ∃ a b, s.below a b = some cur := by
            refine ⟨v, k, ?_⟩
            rw [below_eq_find s v vv k hvv', hbel]
            simp [edgemap_t.find]
          obtain ⟨q1, q2, q3⟩ := trace_from_points hr hc ht
          rcases ih q1 poly hp with h | h
          · rcases List.mem_append.1 h with h | h
            · exact Or.inl h
            · rw [List.mem_singleton.1 h]; exact Or.inr q3
          · exact Or.inr (fun pt hpt => snap_point_of_edits q2 (h pt hpt))

end flattener_t

theorem flatten_arrangement.get_result_points {fuel : Nat} {s : flattener_t}
    {result r : List (List (Int × Int))} {o : Option flattener_t} (hr : s.rounded)
    (h : flatten_arrangement.get_result fuel s result = .ok (r, o)) :
    ∀ poly ∈ r, poly ∈ result ∨ ∀ pt ∈ poly, s.snap_point pt := by
  have key := @flattener_t.get_result_loop_points fuel s.vertexset result s hr
  unfold flatten_arrangement.get_result at h
  unfold flattener_t.get_result at h
  split at h
  · rename_i r0 s1 heq
    injection h with h
    injection h with h1 h2
    rw [heq] at key
    exact h1 ▸ key
  · rename_i r0 heq
    injection h with h
    injection h with h1 h2
    rw [heq] at key
    exact h1 ▸ key
  · rename_i r0 _ _ _ _ heq
    injection h with h
    injection h with h1 h2
    rw [heq] at key
    exact h1 ▸ key
  · exact absurd h (by simp)

/-- C14: in a session built by `add_edge` calls, whenever `flatten()` returns
true, every edge of the graph (every entry of a `below` or an `above` map, so
every edge left in the primary vertex set) is a live edge whose two ends have
`x.n = 0` and `y.n = 0` and the coordinates of a vertex of the snap set; and
every point of every polygon that `get_result` then appends to the result,
whether it returns true or false, is the integer coordinate pair of a vertex of
the snap set. -/
theorem C14_integer_output (rule : Int) (l : List (Int × Int × Int × Int × Bool))
    (ins : ael_insert_t) (fuel : Nat) (s t : flattener_t)
    (hs : (flattener_t.new rule).add_edges l = .ok s)
    (ht : s.flatten ins fuel = .ok (some t)) :
    (∀ v w e, (t.below v w = some e ∨ t.above v w = some e) →
      ∃ ed, t.edge e = .ok ed ∧ t.snapped ed.from_ ∧ t.snapped ed.to_) ∧
    ∀ n result r o, flatten_arrangement.get_result n t result = .ok (r, o) →
      ∀ poly ∈ r, poly ∈ result ∨ ∀ pt ∈ poly, t.snap_point pt := by
  obtain ⟨hb, hp, hu⟩ := flattener_t.add_edges_fresh hs
  obtain ⟨hr, -⟩ := flattener_t.flatten_rounded hb hp hu ht
  refine ⟨?_, fun n result r o h => flatten_arrangement.get_result_points hr h⟩
  intro v w e he
  rcases he with he | he
  · obtain ⟨ed, k1, k2, k3⟩ := (flattener_t.ends_eq_some t e v w).1 (hr.1.2.1 v w e he).1
    have := hr.2.1 v w e he
    exact ⟨ed, k1, k2 ▸ this.1, k3 ▸ this.2⟩
  · have hb' := (hr.1.2.2 v w e he).2
    obtain ⟨ed, k1, k2, k3⟩ := (flattener_t.ends_eq_some t e w v).1 (hr.1.2.1 w v e hb').1
    have := hr.2.1 w v e hb'
    exact ⟨ed, k1, k2 ▸ this.1, k3 ▸ this.2⟩

/-- C14 at the square `(0,0) (4,0) (4,4) (0,4)` of shape A and the
quadrilateral `(2,1) (6,2) (5,6) (1,5)` of shape B with `A and B`: `flatten()`
returns true after the two crossings `(4, 3/2)` and `(5/4, 4)` off the grid,
the graph has an edge between the vertices 4 and 14, and `get_result` emits the
polygon `(2,1) (4,2) (4,4) (1,4)`: the crossings at their snapped positions. -/
theorem C14_integer_output_witness :
    ∃ s t, ((flattener_t.new FLATTEN_A_AND_B).add_edges
        [(0, 0, 4, 0, false), (4, 0, 4, 4, false), (4, 4, 0, 4, false), (0, 4, 0, 0, false),
         (2, 1, 6, 2, true), (6, 2, 5, 6, true), (5, 6, 1, 5, true), (1, 5, 2, 1, true)]
        = .ok s ∧ s.flatten set_insert 50 = .ok (some t)) ∧
      ((∀ v w e, (t.below v w = some e ∨ t.above v w = some e) →
        ∃ ed, t.edge e = .ok ed ∧ t.snapped ed.from_ ∧ t.snapped ed.to_) ∧
      ∀ n result r o, flatten_arrangement.get_result n t result = .ok (r, o) →
        ∀ poly ∈ r, poly ∈ result ∨ ∀ pt ∈ poly, t.snap_point pt) ∧
      t.below 4 14 = some 20 ∧
      (∃ t1, flatten_arrangement.get_result 50 t []
        = .ok ([[(2, 1), (4, 2), (4, 4), (1, 4)]], some t1)) := by
  obtain ⟨S, hS⟩ : ∃ S, S = (((flattener_t.new FLATTEN_A_AND_B).add_edges
        [(0, 0, 4, 0, false), (4, 0, 4, 4, false), (4, 4, 0, 4, false), (0, 4, 0, 0, false),
         (2, 1, 6, 2, true), (6, 2, 5, 6, true), (5, 6, 1, 5, true), (1, 5, 2, 1, true)]
        ).toOption).getD (flattener_t.new FLATTEN_A_AND_B) := ⟨_, rfl⟩
  have e1 : (flattener_t.new FLATTEN_A_AND_B).add_edges
        [(0, 0, 4, 0, false), (4, 0, 4, 4, false), (4, 4, 0, 4, false), (0, 4, 0, 0, false),
         (2, 1, 6, 2, true), (6, 2, 5, 6, true), (5, 6, 1, 5, true), (1, 5, 2, 1, true)]
        = .ok S := by rw [hS]; rfl
  obtain ⟨T, hT⟩ : ∃ T, T = (((S.flatten set_insert 50).toOption).join).getD S := ⟨_, rfl⟩
  have e2 : S.flatten set_insert 50 = .ok (some T) := by rw [hT, hS]; rfl
  have e3 : T.below 4 14 = some 20 := by rw [hT, hS]; rfl
  obtain ⟨X, hX⟩ : ∃ X, X = (((flatten_arrangement.get_result 50 T []).toOption).getD
      ([], none)).2.getD T := ⟨_, rfl⟩
  have e4 : flatten_arrangement.get_result 50 T []
      = .ok ([[(2, 1), (4, 2), (4, 4), (1, 4)]], some X) := by rw [hX, hT, hS]; rfl
  exact ⟨S, T, ⟨e1, e2⟩, C14_integer_output FLATTEN_A_AND_B _ set_insert 50 S T e1 e2, e3,
    X, e4⟩

/-! ## Segments that touch or cross -/

theorem line_t.seg_of_between (l : line_t) (hl : l.lex) (x y : Int)
    (hd : l.det x y = 0) (h1 : l.y0 < y ∨ (l.y0 = y ∧ l.x0 ≤ x))
    (h2 : y < l.y1 ∨ (y = l.y1 ∧ x ≤ l.x1)) : l.seg x y := by
  unfold line_t.det at hd
  unfold line_t.seg
  rcases hl with hl | ⟨hl1, hl2⟩
  · have hy : ((l.y1 : ℚ) - l.y0) > 0 := by
      have : (l.y0 : ℚ) < l.y1 := by exact_mod_cast hl
      linarith
    have hy0 : (l.y0 : ℚ) ≤ y := by
      rcases h1 with h | ⟨h, -⟩
      · exact_mod_cast h.le
      · exact_mod_cast h.le
    have hy1 : (y : ℚ) ≤ l.y1 := by
      rcases h2 with h | ⟨h, -⟩
      · exact_mod_cast h.le
      · exact_mod_cast h.le
    refine ⟨((y : ℚ) - l.y0) / (l.y1 - l.y0), div_nonneg (by linarith) hy.le,
      (div_le_one hy).2 (by linarith), ?_, ?_⟩
    · field_simp
      linarith
    · field_simp
  · have hx : ((l.x1 : ℚ) - l.x0) > 0 := by
      have : (l.x0 : ℚ) < l.x1 := by exact_mod_cast hl2
      linarith
    have e1 : (l.y0 : ℚ) = l.y1 := by exact_mod_cast hl1
    have ey : (y : ℚ) = l.y0 := by
      rw [e1] at hd
      have : ((y : ℚ) - l.y1) * (l.x0 - l.x1) = 0 := by linarith
      rcases mul_eq_zero.1 this with h | h
      · linarith
      · linarith
    have eyz : y = l.y0 := by exact_mod_cast ey
    have hx0 : (l.x0 : ℚ) ≤ x := by
      rcases h1 with h | ⟨-, h⟩
      · omega
      · exact_mod_cast h
    have hx1 : (x : ℚ) ≤ l.x1 := by
      rcases h2 with h | ⟨-, h⟩
      · omega
      · exact_mod_cast h
    refine ⟨((x : ℚ) - l.x0) / (l.x1 - l.x0), div_nonneg (by linarith) hx.le,
      (div_le_one hx).2 (by linarith), ?_, ?_⟩
    · field_simp
    · rw [ey, e1]; ring

theorem line_t.seg_end0 (l : line_t) : l.seg l.x0 l.y0 :=
  ⟨0, le_refl _, zero_le_one, by ring, by ring⟩

theorem line_t.seg_end1 (l : line_t) : l.seg l.x1 l.y1 :=
  ⟨1, zero_le_one, le_refl _, by ring, by ring⟩
/-- Two segments on one line, the second given by the parameters `s < r` of
its endpoints along the first: when they overlap in more than a common
endpoint, they are not apart. -/
theorem line_t.not_apart_of_param (p q : line_t) (hp : p.lex) (s r : ℚ)
    (hcx : (q.x0 : ℚ) = p.x0 + s * (p.x1 - p.x0)) (hcy : (q.y0 : ℚ) = p.y0 + s * (p.y1 - p.y0))
    (hdx : (q.x1 : ℚ) = p.x0 + r * (p.x1 - p.x0)) (hdy : (q.y1 : ℚ) = p.y0 + r * (p.y1 - p.y0))
    (hsr : s < r) (h1 : s ≤ 1) (h2 : 0 ≤ r) (h3 : r ≠ 0) (h4 : s ≠ 1)
    (h5 : ¬ (s = 0 ∧ r = 1)) : ¬ p.apart q := by
  intro hap
  have hu : ((p.x1 : ℚ) - p.x0) ≠ 0 ∨ ((p.y1 : ℚ) - p.y0) ≠ 0 := by
    rcases hp with h | ⟨-, h⟩
    · right
      have : (p.y0 : ℚ) < p.y1 := by exact_mod_cast h
      linarith
    · left
      have : (p.x0 : ℚ) < p.x1 := by exact_mod_cast h
      linarith
  -- the point with parameter `t`
  have inp : ∀ t : ℚ, 0 ≤ t → t ≤ 1 →
      p.seg (p.x0 + t * (p.x1 - p.x0)) (p.y0 + t * (p.y1 - p.y0)) :=
    fun t h0 h1 => ⟨t, h0, h1, rfl, rfl⟩
  have inq : ∀ t : ℚ, s ≤ t → t ≤ r →
      q.seg (p.x0 + t * (p.x1 - p.x0)) (p.y0 + t * (p.y1 - p.y0)) := by
    intro t h0 h1
    have hrs : r - s > 0 := by linarith
    refine ⟨(t - s) / (r - s), div_nonneg (by linarith) hrs.le,
      (div_le_one hrs).2 (by linarith), ?_, ?_⟩
    · rw [hcx, hdx]; field_simp; ring
    · rw [hcy, hdy]; field_simp; ring
  have same : ∀ t t' : ℚ, p.x0 + t * ((p.x1 : ℚ) - p.x0) = p.x0 + t' * (p.x1 - p.x0) →
      p.y0 + t * ((p.y1 : ℚ) - p.y0) = p.y0 + t' * (p.y1 - p.y0) → t = t' := by
    intro t t' e1 e2
    rcases hu with h | h
    · have : (t - t') * ((p.x1 : ℚ) - p.x0) = 0 := by linarith
      rcases mul_eq_zero.1 this with k | k
      · linarith
      · exact absurd k h
    · have : (t - t') * ((p.y1 : ℚ) - p.y0) = 0 := by linarith
      rcases mul_eq_zero.1 this with k | k
      · linarith
      · exact absurd k h
  have endp : ∀ t : ℚ, p.has_end (p.x0 + t * (p.x1 - p.x0)) (p.y0 + t * (p.y1 - p.y0)) →
      t = 0 ∨ t = 1 := by
    rintro t (⟨e1, e2⟩ | ⟨e1, e2⟩)
    · exact Or.inl (same t 0 (by linarith) (by linarith))
    · exact Or.inr (same t 1 (by linarith) (by linarith))
  have endq : ∀ t : ℚ, q.has_end (p.x0 + t * (p.x1 - p.x0)) (p.y0 + t * (p.y1 - p.y0)) →
      t = s ∨ t = r := by
    rintro t (⟨e1, e2⟩ | ⟨e1, e2⟩)
    · exact Or.inl (same t s (by rw [e1, hcx]) (by rw [e2, hcy]))
    · exact Or.inr (same t r (by rw [e1, hdx]) (by rw [e2, hdy]))
  have key : ∀ t : ℚ, 0 ≤ t → t ≤ 1 → s ≤ t → t ≤ r → (t = 0 ∨ t = 1) ∧ (t = s ∨ t = r) :=
    fun t a1 a2 a3 a4 =>
      ⟨endp t (hap _ _ (inp t a1 a2) (inq t a3 a4)).1,
        endq t (hap _ _ (inp t a1 a2) (inq t a3 a4)).2⟩
  rcases lt_trichotomy s 0 with hs | hs | hs
  · obtain ⟨-, k⟩ := key 0 (le_refl _) zero_le_one hs.le h2
    rcases k with k | k
    · linarith
    · exact h3 k.symm
  · rcases lt_trichotomy r 1 with hr | hr | hr
    · obtain ⟨k, -⟩ := key r h2 hr.le hsr.le (le_refl _)
      rcases k with k | k
      · exact h3 k
      · linarith
    · exact h5 ⟨hs, hr⟩
    · obtain ⟨-, k⟩ := key 1 zero_le_one (le_refl _) (by linarith) hr.le
      rcases k with k | k
      · linarith
      · linarith
  · obtain ⟨k, -⟩ := key s hs.le h1 (le_refl _) hsr.le
    rcases k with k | k
    · linarith
    · exact h4 k

/-- Collinear segments in sweep order whose ranges overlap and that are
neither the same nor joined end to start are not apart. -/
theorem line_t.not_apart_collinear (p q : line_t) (hp : p.lex) (hq : q.lex)
    (hc : p.det q.x0 q.y0 = 0) (hd : p.det q.x1 q.y1 = 0)
    (hx : ¬ (max q.x0 q.x1 < min p.x0 p.x1) ∧ ¬ (max p.x0 p.x1 < min q.x0 q.x1))
    (hy : ¬ (max q.y0 q.y1 < min p.y0 p.y1) ∧ ¬ (max p.y0 p.y1 < min q.y0 q.y1))
    (h1 : ¬ (p.x0 = q.x1 ∧ p.y0 = q.y1)) (h2 : ¬ (p.x1 = q.x0 ∧ p.y1 = q.y0))
    (h3 : ¬ (p.x0 = q.x0 ∧ p.y0 = q.y0 ∧ p.x1 = q.x1 ∧ p.y1 = q.y1)) : ¬ p.apart q := by
  have hne : ¬ (p.x0 = p.x1 ∧ p.y0 = p.y1) := by
    rintro ⟨e1, e2⟩
    rcases hp with h | ⟨-, h⟩ <;> omega
  obtain ⟨s, hcx, hcy⟩ := (line_t.det_eq_zero_iff p hne _ _).1 hc
  obtain ⟨r, hdx, hdy⟩ := (line_t.det_eq_zero_iff p hne _ _).1 hd
  have dx : ((q.x1 : ℚ) - q.x0) = (r - s) * (p.x1 - p.x0) := by rw [hcx, hdx]; ring
  have dy : ((q.y1 : ℚ) - q.y0) = (r - s) * (p.y1 - p.y0) := by rw [hcy, hdy]; ring
  have qy : q.y0 ≤ q.y1 := by rcases hq with h | ⟨h, -⟩ <;> omega
  have py : p.y0 ≤ p.y1 := by rcases hp with h | ⟨h, -⟩ <;> omega
  have qyq : (q.y0 : ℚ) ≤ q.y1 := by exact_mod_cast qy
  have a1 : q.y0 ≤ p.y1 := by omega
  have a2 : p.y0 ≤ q.y1 := by omega
  have a1q : (q.y0 : ℚ) ≤ p.y1 := by exact_mod_cast a1
  have a2q : (p.y0 : ℚ) ≤ q.y1 := by exact_mod_cast a2
  have facts : s < r ∧ s ≤ 1 ∧ 0 ≤ r := by
    rcases hp with h | ⟨e, h⟩
    · have uy : ((p.y1 : ℚ) - p.y0) > 0 := by
        have : (p.y0 : ℚ) < p.y1 := by exact_mod_cast h
        linarith
      refine ⟨?_, ?_, ?_⟩
      · by_contra hcon
        have hle : r - s ≤ 0 := by linarith
        rcases hq with k | ⟨k1, k2⟩
        · have : (q.y0 : ℚ) < q.y1 := by exact_mod_cast k
          nlinarith
        · have e0 : ((q.y1 : ℚ) - q.y0) = 0 := by
            have : (q.y0 : ℚ) = q.y1 := by exact_mod_cast k1
            linarith
          rw [dy] at e0
          rcases mul_eq_zero.1 e0 with z | z
          · have : ((q.x1 : ℚ) - q.x0) = 0 := by rw [dx, z]; ring
            have : (q.x0 : ℚ) < q.x1 := by exact_mod_cast k2
            linarith
          · linarith
      · by_contra hcon
        have : s > 1 := by linarith
        nlinarith
      · by_contra hcon
        have : r < 0 := by linarith
        nlinarith
    · have uy : ((p.y1 : ℚ) - p.y0) = 0 := by
        have : (p.y0 : ℚ) = p.y1 := by exact_mod_cast e
        linarith
      have ux : ((p.x1 : ℚ) - p.x0) > 0 := by
        have : (p.x0 : ℚ) < p.x1 := by exact_mod_cast h
        linarith
      have qh : q.y0 = q.y1 := by
        have : ((q.y1 : ℚ) - q.y0) = 0 := by rw [dy, uy]; ring
        have : (q.y1 : ℚ) = q.y0 := by linarith
        exact_mod_cast this.symm
      have qx : q.x0 < q.x1 := by rcases hq with k | ⟨-, k⟩ <;> omega
      have b1 : q.x0 ≤ p.x1 := by omega
      have b2 : p.x0 ≤ q.x1 := by omega
      have b1q : (q.x0 : ℚ) ≤ p.x1 := by exact_mod_cast b1
      have b2q : (p.x0 : ℚ) ≤ q.x1 := by exact_mod_cast b2
      have qxq : (q.x0 : ℚ) < q.x1 := by exact_mod_cast qx
      refine ⟨?_, ?_, ?_⟩
      · by_contra hcon
        have hle : r - s ≤ 0 := by linarith
        nlinarith
      · by_contra hcon
        have : s > 1 := by linarith
        nlinarith
      · by_contra hcon
        have : r < 0 := by linarith
        nlinarith
  refine line_t.not_apart_of_param p q hp s r hcx hcy hdx hdy facts.1 facts.2.1 facts.2.2
    ?_ ?_ ?_
  · intro e
    apply h1
    constructor
    · have : (q.x1 : ℚ) = p.x0 := by rw [hdx, e]; ring
      exact_mod_cast this.symm
    · have : (q.y1 : ℚ) = p.y0 := by rw [hdy, e]; ring
      exact_mod_cast this.symm
  · intro e
    apply h2
    constructor
    · have : (q.x0 : ℚ) = p.x1 := by rw [hcx, e]; ring
      exact_mod_cast this.symm
    · have : (q.y0 : ℚ) = p.y1 := by rw [hcy, e]; ring
      exact_mod_cast this.symm
  · rintro ⟨e1, e2⟩
    apply h3
    refine ⟨?_, ?_, ?_, ?_⟩
    · have : (q.x0 : ℚ) = p.x0 := by rw [hcx, e1]; ring
      exact_mod_cast this.symm
    · have : (q.y0 : ℚ) = p.y0 := by rw [hcy, e1]; ring
      exact_mod_cast this.symm
    · have : (q.x1 : ℚ) = p.x1 := by rw [hdx, e2]; ring
      exact_mod_cast this.symm
    · have : (q.y1 : ℚ) = p.y1 := by rw [hdy, e2]; ring
      exact_mod_cast this.symm

theorem sgn_mul_nonpos (a b : ℚ) (h : ¬ (sgn a * sgn b > 0)) : a * b ≤ 0 := by
  unfold sgn at h
  by_contra hc
  push_neg at hc
  rcases lt_trichotomy a 0 with ha | ha | ha
  · have hb : b < 0 := by
      by_contra hb
      push_neg at hb
      nlinarith
    simp [ha.ne, ha, hb.ne, hb] at h
  · rw [ha] at hc; simp at hc
  · have hb : 0 < b := by
      by_contra hb
      push_neg at hb
      nlinarith
    have ha' : ¬ a < 0 := by linarith
    have hb' : ¬ b < 0 := by linarith
    simp [ha.ne', ha', hb.ne', hb'] at h

theorem frac_unit (a b : ℚ) (h : a * b ≤ 0) (hk : a - b ≠ 0) :
    0 ≤ a / (a - b) ∧ a / (a - b) ≤ 1 := by
  rcases lt_or_gt_of_ne hk with hneg | hpos
  · have ha : a ≤ 0 := by
      by_contra hc
      push_neg at hc
      nlinarith
    have hb : 0 ≤ b := by
      by_contra hc
      push_neg at hc
      nlinarith
    constructor
    · exact div_nonneg_of_nonpos ha hneg.le
    · rw [div_le_one_of_neg hneg]; linarith
  · have ha : 0 ≤ a := by
      by_contra hc
      push_neg at hc
      nlinarith
    have hb : b ≤ 0 := by
      by_contra hc
      push_neg at hc
      nlinarith
    constructor
    · exact div_nonneg ha hpos.le
    · rw [div_le_one hpos]; linarith

/-- Two segments neither of which lies strictly on one side of the other and
that are not on one line share a point; when they have no common endpoint they
are not apart. -/
theorem line_t.not_apart_crossing (p q : line_t)
    (hab : ¬ (sgn (q.det p.x0 p.y0) * sgn (q.det p.x1 p.y1) > 0))
    (hcd : ¬ (sgn (p.det q.x0 q.y0) * sgn (p.det q.x1 q.y1) > 0))
    (hn : ¬ (sgn (q.det p.x0 p.y0) = 0 ∧ sgn (q.det p.x1 p.y1) = 0))
    (e1 : ¬ (p.x0 = q.x0 ∧ p.y0 = q.y0)) (e2 : ¬ (p.x0 = q.x1 ∧ p.y0 = q.y1))
    (e3 : ¬ (p.x1 = q.x0 ∧ p.y1 = q.y0)) (e4 : ¬ (p.x1 = q.x1 ∧ p.y1 = q.y1)) :
    ¬ p.apart q := by
  intro hap
  have hAB := sgn_mul_nonpos _ _ hab
  have hCD := sgn_mul_nonpos _ _ hcd
  rw [sgn_eq_zero, sgn_eq_zero] at hn
  unfold line_t.det at hAB hCD hn
  obtain ⟨A, hA⟩ : ∃ A : ℚ, A = ((p.y0 : ℚ) - q.y0) * (q.x0 - q.x1) - (p.x0 - q.x0) * (q.y0 - q.y1) :=
    ⟨_, rfl⟩
  obtain ⟨B, hB⟩ : ∃ B : ℚ, B = ((p.y1 : ℚ) - q.y0) * (q.x0 - q.x1) - (p.x1 - q.x0) * (q.y0 - q.y1) :=
    ⟨_, rfl⟩
  obtain ⟨C, hC⟩ : ∃ C : ℚ, C = ((q.y0 : ℚ) - p.y0) * (p.x0 - p.x1) - (q.x0 - p.x0) * (p.y0 - p.y1) :=
    ⟨_, rfl⟩
  obtain ⟨D, hD⟩ : ∃ D : ℚ, D = ((q.y1 : ℚ) - p.y0) * (p.x0 - p.x1) - (q.x1 - p.x0) * (p.y0 - p.y1) :=
    ⟨_, rfl⟩
  rw [← hA, ← hB] at hAB hn
  rw [← hC, ← hD] at hCD
  have hK : A - B ≠ 0 := by
    intro hk
    have hab' : A = B := by linarith
    rw [hab'] at hAB
    have : B = 0 := by nlinarith
    exact hn ⟨by rw [hab', this], this⟩
  have hK2 : C - D = -(A - B) := by rw [hA, hB, hC, hD]; ring
  have hK3 : C - D ≠ 0 := by rw [hK2]; exact neg_ne_zero.2 hK
  obtain ⟨t0, t1⟩ := frac_unit A B hAB hK
  obtain ⟨u0, u1⟩ := frac_unit C D hCD hK3
  have hp : p.seg (p.x0 + A / (A - B) * (p.x1 - p.x0)) (p.y0 + A / (A - B) * (p.y1 - p.y0)) :=
    ⟨_, t0, t1, rfl, rfl⟩
  have hq : q.seg (p.x0 + A / (A - B) * (p.x1 - p.x0)) (p.y0 + A / (A - B) * (p.y1 - p.y0)) := by
    have ix : ((p.x0 : ℚ) - q.x0) * (A - B) + A * (p.x1 - p.x0) + C * (q.x1 - q.x0) = 0 := by
      rw [hA, hB, hC]; ring
    have iy : ((p.y0 : ℚ) - q.y0) * (A - B) + A * (p.y1 - p.y0) + C * (q.y1 - q.y0) = 0 := by
      rw [hA, hB, hC]; ring
    refine ⟨C / (C - D), u0, u1, ?_, ?_⟩
    · rw [hK2, div_neg]
      field_simp
      linear_combination ix
    · rw [hK2, div_neg]
      field_simp
      linear_combination iy
  obtain ⟨k1, k2⟩ := hap _ _ hp hq
  rcases k1 with ⟨a1, a2⟩ | ⟨a1, a2⟩ <;> rcases k2 with ⟨b1, b2⟩ | ⟨b1, b2⟩
  · exact e1 ⟨by exact_mod_cast a1.symm.trans b1, by exact_mod_cast a2.symm.trans b2⟩
  · exact e2 ⟨by exact_mod_cast a1.symm.trans b1, by exact_mod_cast a2.symm.trans b2⟩
  · exact e3 ⟨by exact_mod_cast a1.symm.trans b1, by exact_mod_cast a2.symm.trans b2⟩
  · exact e4 ⟨by exact_mod_cast a1.symm.trans b1, by exact_mod_cast a2.symm.trans b2⟩

/-! ## When the comparator of the active edge list throws -/

theorem bind_action {α β : Type} {x : Except fault α} {g : α → Except fault β} {a b : Nat}
    {v : Option Nat} {f : flavour} (h : (x >>= g) = .error (.action_t a b v f))
    (hx : ∀ a b v f, x ≠ .error (.action_t a b v f)) :
    ∃ y, x = .ok y ∧ g y = .error (.action_t a b v f) :=
  match x, h, hx with
  | .ok y, h, _ => ⟨y, rfl, h⟩
  | .error e, h, hx => by
    have : e = .action_t a b v f := by
      simp only [bind, Except.bind] at h
      injection h
    exact absurd (this ▸ rfl) (hx a b v f)

theorem ok_no_action {α : Type} {x : Except fault α} {y : α} (h : x = .ok y) :
    ∀ a b v f, x ≠ .error (.action_t a b v f) := by
  intro a b v f e
  rw [h] at e
  exact absurd e (by simp)

theorem assert_no_action (c : Bool) : ∀ a b v f, assert_ c ≠ .error (.action_t a b v f) := by
  intro a b v f e
  unfold assert_ at e
  split at e <;> simp at e

theorem flattener_t.edge_no_action (s : flattener_t) (e : Nat) :
    ∀ a b v f, s.edge e ≠ .error (.action_t a b v f) := by
  intro a b v f h
  unfold flattener_t.edge at h
  split at h <;> simp at h

theorem flattener_t.vertex_no_action (s : flattener_t) (e : Nat) :
    ∀ a b v f, s.vertex e ≠ .error (.action_t a b v f) := by
  intro a b v f h
  unfold flattener_t.vertex at h
  split at h <;> simp at h

theorem quadrant_loop_no_action (n : Nat) (dx dy : Int) (k : Nat) :
    ∀ a b v f, quadrant_loop n dx dy k ≠ .error (.action_t a b v f) := by
  induction n generalizing dx dy k with
  | zero =>
    intro a b v f h
    unfold quadrant_loop at h
    simp at h
  | succ n ih =>
    intro a b v f h
    unfold quadrant_loop at h
    split at h
    · simp at h
    · exact ih _ _ _ a b v f h

theorem quadrant_no_action (dx dy : Int) :
    ∀ a b v f, quadrant dx dy ≠ .error (.action_t a b v f) := by
  intro a b v f h
  unfold quadrant at h
  obtain ⟨-, -, h⟩ := bind_action h (assert_no_action _)
  exact quadrant_loop_no_action _ _ _ _ a b v f h

theorem edgesort_t_no_action (p q : edge_t) :
    ∀ a b v f, edgesort_t p q ≠ .error (.action_t a b v f) := by
  intro a b v f h
  unfold edgesort_t at h
  dsimp only at h
  split at h
  · simp [pure, Except.pure] at h
  · obtain ⟨⟨pp, px, py⟩, -, h⟩ := bind_action h (quadrant_no_action _ _)
    obtain ⟨⟨qq, qx, qy⟩, -, h⟩ := bind_action h (quadrant_no_action _ _)
    dsimp only at h
    split at h
    · simp [pure, Except.pure] at h
    · obtain ⟨-, -, h⟩ := bind_action h (assert_no_action _)
      simp [pure, Except.pure] at h

theorem range_t.new_eq (a b : rat_t) (ha : a.canonical) (hb : b.canonical) :
    ∃ r, range_t.new a b = .ok r ∧ r.l.canonical ∧ r.r.canonical ∧
      r.l.val = min a.val b.val ∧ r.r.val = max a.val b.val := by
  unfold range_t.new
  rw [rat_t.lt_eq b a hb ha]
  by_cases h : b.val < a.val
  · refine ⟨⟨b, a⟩, by simp [h, bind, Except.bind, pure, Except.pure], hb, ha, ?_, ?_⟩
    · simp [min_eq_right h.le]
    · simp [max_eq_left h.le]
  · push_neg at h
    refine ⟨⟨a, b⟩, by simp [not_lt.2 h, bind, Except.bind, pure, Except.pure], ha, hb, ?_, ?_⟩
    · simp [min_eq_left h]
    · simp [max_eq_right h]

theorem range_t.overlaps_eq (t o : range_t) (h1 : t.l.canonical) (h2 : t.r.canonical)
    (h3 : o.l.canonical) (h4 : o.r.canonical) :
    t.overlaps o = .ok (decide (¬ (o.r.val < t.l.val) ∧ ¬ (t.r.val < o.l.val))) := by
  unfold range_t.overlaps
  rw [rat_t.lt_eq o.r t.l h4 h1, rat_t.lt_eq t.r o.l h2 h3]
  by_cases a : o.r.val < t.l.val
  · simp [a, bind, Except.bind, pure, Except.pure]
  · by_cases b : t.r.val < o.l.val
    · simp [a, b, bind, Except.bind, pure, Except.pure]
    · simp [a, b, bind, Except.bind, pure, Except.pure]

/-- The tests that `sort_active_edge` has made when it throws an `action_t`,
in a session whose vertices have canonical coordinates. -/
theorem sort_active_edge_action {s : flattener_t} {p q a b : Nat} {v : Option Nat}
    {f : flavour} (hc : s.canon) (h : sort_active_edge s p q = .error (.action_t a b v f)) :
    ∃ pe qe pf pt qf qt, s.edge p = .ok pe ∧ s.edge q = .ok qe ∧
      s.verts[pe.from_]? = some pf ∧ s.verts[pe.to_]? = some pt ∧
      s.verts[qe.from_]? = some qf ∧ s.verts[qe.to_]? = some qt ∧
      pe.equals qe = false ∧
      (¬ (max qf.x.val qt.x.val < min pf.x.val pt.x.val) ∧
        ¬ (max pf.x.val pt.x.val < min qf.x.val qt.x.val)) ∧
      (¬ (max qf.y.val qt.y.val < min pf.y.val pt.y.val) ∧
        ¬ (max pf.y.val pt.y.val < min qf.y.val qt.y.val)) ∧
      pe.from_ ≠ qe.to_ ∧ pe.to_ ≠ qe.from_ ∧
      ((pe.from_ = qe.from_ ∧ pe.raw.det qt.x.val qt.y.val = 0) ∨
       (pe.to_ = qe.to_ ∧ pe.raw.det qf.x.val qf.y.val = 0) ∨
       (pe.from_ ≠ qe.from_ ∧ pe.to_ ≠ qe.to_ ∧
         pe.raw.det qf.x.val qf.y.val = 0 ∧ pe.raw.det qt.x.val qt.y.val = 0) ∨
       (pe.from_ ≠ qe.from_ ∧ pe.to_ ≠ qe.to_ ∧
        ¬ (sgn (qe.raw.det pf.x.val pf.y.val) * sgn (qe.raw.det pt.x.val pt.y.val) > 0) ∧
        ¬ (sgn (pe.raw.det qf.x.val qf.y.val) * sgn (pe.raw.det qt.x.val qt.y.val) > 0) ∧
        ¬ (sgn (qe.raw.det pf.x.val pf.y.val) = 0 ∧
            sgn (qe.raw.det pt.x.val pt.y.val) = 0))) := by
  unfold sort_active_edge at h
  split at h
  · simp [pure, Except.pure] at h
  · obtain ⟨pe, hpe, h⟩ := bind_action h (s.edge_no_action _)
    obtain ⟨qe, hqe, h⟩ := bind_action h (s.edge_no_action _)
    obtain ⟨u0, heq, h⟩ := bind_action h (assert_no_action _)
    have heq' : pe.equals qe = false := by
      have := assert_ok heq
      simpa using this
    obtain ⟨pf, hpf, h⟩ := bind_action h (s.vertex_no_action _)
    obtain ⟨pt, hpt, h⟩ := bind_action h (s.vertex_no_action _)
    obtain ⟨qf, hqf, h⟩ := bind_action h (s.vertex_no_action _)
    obtain ⟨qt, hqt, h⟩ := bind_action h (s.vertex_no_action _)
    have hpf' := (flattener_t.vertex_eq_ok _ _ _).1 hpf
    have hpt' := (flattener_t.vertex_eq_ok _ _ _).1 hpt
    have hqf' := (flattener_t.vertex_eq_ok _ _ _).1 hqf
    have hqt' := (flattener_t.vertex_eq_ok _ _ _).1 hqt
    have cpf := hc _ _ hpf'
    have cpt := hc _ _ hpt'
    have cqf := hc _ _ hqf'
    have cqt := hc _ _ hqt'
    obtain ⟨r1, e1, l1, l2, l3, l4⟩ := range_t.new_eq pf.x pt.x cpf.1 cpt.1
    obtain ⟨r2, e2, m1, m2, m3, m4⟩ := range_t.new_eq qf.x qt.x cqf.1 cqt.1
    obtain ⟨r1', k1, h⟩ := bind_action h (ok_no_action e1)
    rw [e1] at k1; injection k1 with k1; subst k1
    obtain ⟨r2', k2, h⟩ := bind_action h (ok_no_action e2)
    rw [e2] at k2; injection k2 with k2; subst k2
    have eo := range_t.overlaps_eq r1 r2 l1 l2 m1 m2
    obtain ⟨ov, k3, h⟩ := bind_action h (ok_no_action eo)
    rw [eo] at k3; injection k3 with k3; subst k3
    split at h
    · rw [rat_t.lt_eq pf.x qf.x cpf.1 cqf.1] at h
      simp at h
    · rename_i hov
      have hovx : ¬ (r2.r.val < r1.l.val) ∧ ¬ (r1.r.val < r2.l.val) := by
        simpa using hov
      rw [l3, l4, m3, m4] at hovx
      obtain ⟨r3, e3, n1, n2, n3, n4⟩ := range_t.new_eq pf.y pt.y cpf.2 cpt.2
      obtain ⟨r4, e4, o1, o2, o3, o4⟩ := range_t.new_eq qf.y qt.y cqf.2 cqt.2
      obtain ⟨r3', k1, h⟩ := bind_action h (ok_no_action e3)
      rw [e3] at k1; injection k1 with k1; subst k1
      obtain ⟨r4', k2, h⟩ := bind_action h (ok_no_action e4)
      rw [e4] at k2; injection k2 with k2; subst k2
      have eo2 := range_t.overlaps_eq r3 r4 n1 n2 o1 o2
      obtain ⟨ov2, k3, h⟩ := bind_action h (ok_no_action eo2)
      rw [eo2] at k3; injection k3 with k3; subst k3
      obtain ⟨u1, hy, h⟩ := bind_action h (assert_no_action _)
      have hovy : ¬ (r4.r.val < r3.l.val) ∧ ¬ (r3.r.val < r4.l.val) := by
        simpa using assert_ok hy
      rw [n3, n4, o3, o4] at hovy
      obtain ⟨-, -, h⟩ := bind_action h (assert_no_action _)
      obtain ⟨u2, hft, h⟩ := bind_action h (assert_no_action _)
      obtain ⟨u3, htf, h⟩ := bind_action h (assert_no_action _)
      have hft' : pe.from_ ≠ qe.to_ := by simpa using assert_ok hft
      have htf' : pe.to_ ≠ qe.from_ := by simpa using assert_ok htf
      refine ⟨pe, qe, pf, pt, qf, qt, hpe, hqe, hpf', hpt', hqf', hqt', heq', hovx, hovy,
        hft', htf', ?_⟩
      split at h
      · rename_i hff
        have es := side_eq qt pe cqt.1 cqt.2
        obtain ⟨sd, k, h⟩ := bind_action h (ok_no_action es)
        rw [es] at k; injection k with k; subst k
        split at h
        · exact absurd h (edgesort_t_no_action _ _ _ _ _ _)
        · rename_i hz
          exact Or.inl ⟨hff, (sgn_eq_zero _).1 (not_not.1 hz)⟩
      · rename_i hff
        split at h
        · rename_i htt
          have es := side_eq qf pe cqf.1 cqf.2
          obtain ⟨sd, k, h⟩ := bind_action h (ok_no_action es)
          rw [es] at k; injection k with k; subst k
          split at h
          · exact absurd h (edgesort_t_no_action _ _ _ _ _ _)
          · rename_i hz
            exact Or.inr (Or.inl ⟨htt, (sgn_eq_zero _).1 (not_not.1 hz)⟩)
        · rename_i htt
          have ea := side_eq pf qe cpf.1 cpf.2
          have eb := side_eq pt qe cpt.1 cpt.2
          have ec := side_eq qf pe cqf.1 cqf.2
          have ed := side_eq qt pe cqt.1 cqt.2
          obtain ⟨sa, k, h⟩ := bind_action h (ok_no_action ea)
          rw [ea] at k; injection k with k; subst k
          obtain ⟨sb, k, h⟩ := bind_action h (ok_no_action eb)
          rw [eb] at k; injection k with k; subst k
          split at h
          · simp [pure, Except.pure] at h
          · rename_i hab
            obtain ⟨sc, k, h⟩ := bind_action h (ok_no_action ec)
            rw [ec] at k; injection k with k; subst k
            obtain ⟨sd, k, h⟩ := bind_action h (ok_no_action ed)
            rw [ed] at k; injection k with k; subst k
            split at h
            · simp [pure, Except.pure] at h
            · rename_i hcd
              split at h
              · obtain ⟨u4, hz, h⟩ := bind_action h (assert_no_action _)
                have hz' := assert_ok hz
                simp only [Bool.and_eq_true, beq_iff_eq] at hz'
                exact Or.inr (Or.inr (Or.inl ⟨hff, htt, (sgn_eq_zero _).1 hz'.1,
                  (sgn_eq_zero _).1 hz'.2⟩))
              · rename_i hn
                exact Or.inr (Or.inr (Or.inr ⟨hff, htt, hab, hcd, hn⟩))

theorem line_t.reverse_reverse (l : line_t) : l.reverse.reverse = l := rfl

theorem line_t.seg_reverse (l : line_t) (x y : ℚ) : l.reverse.seg x y ↔ l.seg x y := by
  have key : ∀ l : line_t, l.seg x y → l.reverse.seg x y := by
    rintro l ⟨t, h0, h1, hx, hy⟩
    refine ⟨1 - t, by linarith, by linarith, ?_, ?_⟩
    · rw [hx]; unfold line_t.reverse; ring
    · rw [hy]; unfold line_t.reverse; ring
  exact ⟨fun h => key l.reverse h, key l⟩

theorem line_t.has_end_reverse (l : line_t) (x y : ℚ) :
    l.reverse.has_end x y ↔ l.has_end x y := by
  unfold line_t.has_end line_t.reverse
  exact Or.comm

theorem line_t.apart_reverse_left (p q : line_t) : p.reverse.apart q ↔ p.apart q := by
  unfold line_t.apart
  constructor
  · intro h x y hp hq
    have := h x y ((line_t.seg_reverse p x y).2 hp) hq
    exact ⟨(line_t.has_end_reverse p x y).1 this.1, this.2⟩
  · intro h x y hp hq
    have := h x y ((line_t.seg_reverse p x y).1 hp) hq
    exact ⟨(line_t.has_end_reverse p x y).2 this.1, this.2⟩

theorem line_t.apart_symm (p q : line_t) (h : p.apart q) : q.apart p :=
  fun x y hq hp => ⟨(h x y hp hq).2, (h x y hp hq).1⟩

theorem line_t.apart_reverse_right (p q : line_t) : p.apart q.reverse ↔ p.apart q :=
  ⟨fun h => line_t.apart_symm _ _ ((line_t.apart_reverse_left q p).1 (line_t.apart_symm _ _ h)),
    fun h => line_t.apart_symm _ _ ((line_t.apart_reverse_left q p).2 (line_t.apart_symm _ _ h))⟩

theorem line_t.lex_reverse (l : line_t) (h : l.reverse.lex) : ¬ l.lex := by
  unfold line_t.lex line_t.reverse at h
  unfold line_t.lex
  simp only at h
  omega

/-- Two edges of a tidy session over a scattered set are the same segment or
apart. -/
theorem scattered.raw {S : line_t → Prop} (hS : scattered S) {p q : line_t}
    (hp : S p ∨ S p.reverse) (hq : S q ∨ S q.reverse) :
    p = q ∨ p = q.reverse ∨ p.apart q := by
  have rev : ∀ a b : line_t, a.reverse = b → a = b.reverse := by
    intro a b h; rw [← h]; rfl
  rcases hp with hp | hp <;> rcases hq with hq | hq
  · exact hS p q hp hq
  · rcases hS _ _ hp hq with h | h | h
    · exact Or.inr (Or.inl h)
    · exact Or.inl h
    · exact Or.inr (Or.inr ((line_t.apart_reverse_right p q).1 h))
  · rcases hS _ _ hp hq with h | h | h
    · exact Or.inr (Or.inl (rev _ _ h))
    · exact Or.inl (by have := rev _ _ h; exact this)
    · exact Or.inr (Or.inr ((line_t.apart_reverse_left p q).1 h))
  · rcases hS _ _ hp hq with h | h | h
    · exact Or.inl (by have := congrArg line_t.reverse h; exact this)
    · exact Or.inr (Or.inl (rev _ _ h))
    · exact Or.inr (Or.inr ((line_t.apart_reverse_left p q).1
        ((line_t.apart_reverse_right _ q).1 h)))

namespace flattener_t

/-- In a sound and plain session two vertices at one position are the same. -/
theorem pos_inj {s : flattener_t} (hs : s.sound) (hp : s.plain) {v w : Nat}
    {x y : rat_t} (hv : s.pos v = some (x, y)) (hw : s.pos w = some (x, y)) : v = w := by
  obtain ⟨vv, h1, h2, h3⟩ := (pos_eq_some s v x y).1 hv
  obtain ⟨vw, k1, k2, k3⟩ := (pos_eq_some s w x y).1 hw
  exact vertexset_t.unique s.verts s.vertexset hs.2.2.1 v w
    (hp.1 v (lt_of_vertex s v vv h1)) (hp.1 w (lt_of_vertex s w vw k1)) vv vw h1 k1
    (h2.trans k2.symm) (h3.trans k3.symm)

end flattener_t

/-- In a sound, plain and tidy session over a scattered set of segments the
comparator of the active edge list throws no `action_t`. -/
theorem sort_active_edge_quiet {S : line_t → Prop} (hS : scattered S) {s : flattener_t}
    (hs : s.sound) (hp : s.plain) (ht : s.tidy S) (p q : Nat) :
    ∀ a b v f, sort_active_edge s p q ≠ .error (.action_t a b v f) := by
  intro a b v f h
  obtain ⟨pe, qe, pf, pt, qf, qt, hpe, hqe, hpf, hpt, hqf, hqt, heq, hx, hy, hft, htf, hcase⟩ :=
    sort_active_edge_action hs.1 h
  obtain ⟨sp, lp, fp, tp⟩ := ht p pe hpe
  obtain ⟨sq, lq, fq, tq⟩ := ht q qe hqe
  -- the coordinates of the four ends
  have val : ∀ (u : Nat) (vu : vertex_t) (i j : Int), s.verts[u]? = some vu →
      s.pos u = some (rat_t.ofInt i, rat_t.ofInt j) → vu.x.val = i ∧ vu.y.val = j := by
    intro u vu i j h1 h2
    obtain ⟨vu', k1, k2, k3⟩ := (flattener_t.pos_eq_some s u _ _).1 h2
    have : vu' = vu := by
      have := k1.symm.trans h1
      injection this
    subst this
    rw [k2, k3]
    exact ⟨rat_t.val_ofInt i, rat_t.val_ofInt j⟩
  obtain ⟨pfx, pfy⟩ := val _ _ _ _ hpf fp
  obtain ⟨ptx, pty⟩ := val _ _ _ _ hpt tp
  obtain ⟨qfx, qfy⟩ := val _ _ _ _ hqf fq
  obtain ⟨qtx, qty⟩ := val _ _ _ _ hqt tq
  rw [pfx, ptx, qfx, qtx] at hx
  rw [pfy, pty, qfy, qty] at hy
  rw [pfx, pfy, ptx, pty, qfx, qfy, qtx, qty] at hcase
  -- two ends at one position are one vertex
  have same : ∀ (u w : Nat) (i j i' j' : Int),
      s.pos u = some (rat_t.ofInt i, rat_t.ofInt j) →
      s.pos w = some (rat_t.ofInt i', rat_t.ofInt j') → i = i' ∧ j = j' → u = w := by
    rintro u w i j i' j' h1 h2 ⟨e1, e2⟩
    rw [← e1, ← e2] at h2
    exact flattener_t.pos_inj hs hp h1 h2
  have diff : ∀ (u w : Nat) (i j i' j' : Int),
      s.pos u = some (rat_t.ofInt i, rat_t.ofInt j) →
      s.pos w = some (rat_t.ofInt i', rat_t.ofInt j') → u = w → i = i' ∧ j = j' := by
    intro u w i j i' j' h1 h2 e
    rw [e, h2] at h1
    injection h1 with h1
    injection h1 with a1 a2
    exact ⟨(flattener_t.ofInt_inj _ _ a1).symm, (flattener_t.ofInt_inj _ _ a2).symm⟩
  have h1 : ¬ (pe.raw.x0 = qe.raw.x1 ∧ pe.raw.y0 = qe.raw.y1) :=
    fun e => hft (same _ _ _ _ _ _ fp tq e)
  have h2 : ¬ (pe.raw.x1 = qe.raw.x0 ∧ pe.raw.y1 = qe.raw.y0) :=
    fun e => htf (same _ _ _ _ _ _ tp fq e)
  have h3 : ¬ (pe.raw.x0 = qe.raw.x0 ∧ pe.raw.y0 = qe.raw.y0 ∧ pe.raw.x1 = qe.raw.x1 ∧
      pe.raw.y1 = qe.raw.y1) := by
    rintro ⟨e1, e2, e3, e4⟩
    have a1 := same _ _ _ _ _ _ fp fq ⟨e1, e2⟩
    have a2 := same _ _ _ _ _ _ tp tq ⟨e3, e4⟩
    unfold edge_t.equals at heq
    simp [a1, a2] at heq
  have hxz : ¬ (max qe.raw.x0 qe.raw.x1 < min pe.raw.x0 pe.raw.x1) ∧
      ¬ (max pe.raw.x0 pe.raw.x1 < min qe.raw.x0 qe.raw.x1) := by
    exact_mod_cast hx
  have hyz : ¬ (max qe.raw.y0 qe.raw.y1 < min pe.raw.y0 pe.raw.y1) ∧
      ¬ (max pe.raw.y0 pe.raw.y1 < min qe.raw.y0 qe.raw.y1) := by
    exact_mod_cast hy
  have nap : ¬ pe.raw.apart qe.raw := by
    rcases hcase with ⟨hff, hd⟩ | ⟨htt, hc⟩ | ⟨-, -, hc, hd⟩ | ⟨hff, htt, hab, hcd, hn⟩
    · obtain ⟨e1, e2⟩ := diff _ _ _ _ _ _ fp fq hff
      refine line_t.not_apart_collinear _ _ lp lq ?_ hd hxz hyz h1 h2 h3
      rw [← e1, ← e2]; unfold line_t.det; ring
    · obtain ⟨e1, e2⟩ := diff _ _ _ _ _ _ tp tq htt
      refine line_t.not_apart_collinear _ _ lp lq hc ?_ hxz hyz h1 h2 h3
      rw [← e1, ← e2]; unfold line_t.det; ring
    · exact line_t.not_apart_collinear _ _ lp lq hc hd hxz hyz h1 h2 h3
    · exact line_t.not_apart_crossing _ _ hab hcd hn
        (fun e => hff (same _ _ _ _ _ _ fp fq e)) h1 h2
        (fun e => htt (same _ _ _ _ _ _ tp tq e))
  rcases hS.raw sp sq with e | e | e
  · apply h3
    rw [e]; exact ⟨rfl, rfl, rfl, rfl⟩
  · rw [e] at lp
    exact line_t.lex_reverse _ lp lq
  · exact nap e

/-! ## The sweep over segments that do not touch or cross -/

theorem ael_place_comparing {s : flattener_t} {e : Nat} {pred : Option Nat} {tail : List Nat}
    {a b : Nat} {v : Option Nat} {f : flavour}
    (h : ael_place s e pred tail = .error (.action_t a b v f)) :
    ∃ x y, sort_active_edge s x y = .error (.action_t a b v f) := by
  unfold ael_place at h
  split at h
  · simp [pure, Except.pure] at h
  · rename_i j
    by_cases hc : ∀ a b v f, sort_active_edge s j e ≠ .error (.action_t a b v f)
    · obtain ⟨r, -, h⟩ := bind_action h hc
      split at h <;> simp [pure, Except.pure] at h
    · push_neg at hc
      obtain ⟨a', b', v', f', hc⟩ := hc
      cases hx : sort_active_edge s j e with
      | ok r => rw [hx] at hc; simp at hc
      | error x =>
        rw [hx] at h
        simp only [bind, Except.bind] at h
        injection h with h
        exact ⟨j, e, by rw [hx, h]⟩

theorem ael_scan_comparing {s : flattener_t} {e : Nat} (l : List Nat) {pred : Option Nat}
    {a b : Nat} {v : Option Nat} {f : flavour}
    (h : ael_scan s e pred l = .error (.action_t a b v f)) :
    ∃ x y, sort_active_edge s x y = .error (.action_t a b v f) := by
  induction l generalizing pred with
  | nil =>
    unfold ael_scan at h
    exact ael_place_comparing h
  | cons x rest ih =>
    unfold ael_scan at h
    cases hx : sort_active_edge s e x with
    | error z =>
      rw [hx] at h
      simp only [bind, Except.bind] at h
      injection h with h
      exact ⟨e, x, by rw [hx, h]⟩
    | ok r =>
      rw [hx] at h
      simp only [bind, Except.bind] at h
      split at h
      · exact ael_place_comparing h
      · cases hr : ael_scan s e (some x) rest with
        | error z =>
          rw [hr] at h
          simp only at h
          injection h with h
          exact ih (hr.trans (by rw [h]))
        | ok y =>
          rw [hr] at h
          simp [pure, Except.pure] at h

/-- The insertion that compares a new key with every element up to its place
throws what the comparator throws. -/
theorem set_insert_comparing : set_insert.comparing := by
  intro s e a b v f h
  exact ael_scan_comparing _ h

namespace flattener_t

theorem quiet_refl (s : flattener_t) : s.quiet s := ⟨calm_refl s, rfl⟩

theorem quiet_trans {s s1 s2 : flattener_t} (h : s.quiet s1) (k : s1.quiet s2) : s.quiet s2 :=
  ⟨calm_trans h.1 k.1, k.2.trans h.2⟩

theorem quiet_flag : flag_steps quiet where
  refl := quiet_refl
  trans := quiet_trans
  set_edge := fun _ _ _ _ he => ⟨calm_flag.set_edge _ _ _ _ he, length_set_edge _ _ _⟩
  set_todo := fun s t => ⟨calm_flag.set_todo s t, rfl⟩
  set_ael := fun s t => ⟨calm_flag.set_ael s t, rfl⟩
  set_dot := fun s t => ⟨calm_flag.set_dot s t, rfl⟩

/-- A tidy session stays tidy along a step that adds no edge. -/
theorem tidy_of_quiet {S : line_t → Prop} {s s1 : flattener_t} (ht : s.tidy S)
    (h : s.quiet s1) : s1.tidy S := by
  intro e ed1 he
  obtain ⟨⟨⟨-, -, -, a4, -, a6⟩, -⟩, hl⟩ := h
  rcases a6 e ed1 he with ⟨ed, k1, k2, k3, k4, -⟩ | ⟨k, -⟩
  · obtain ⟨t1, t2, t3, t4⟩ := ht e ed k1
    rw [k2, k3, k4, a4, a4]
    exact ⟨t1, t2, t3, t4⟩
  · have := (edge_eq_ok s1 e ed1).1 he
    have hlt : e < s1.edges.length := by
      by_contra hc
      rw [List.getElem?_eq_none (by omega)] at this
      simp at this
    omega

theorem sweeps_flag (S : line_t → Prop) : flag_steps (sweeps S) where
  refl := fun s _ => quiet_refl s
  trans := fun h k hs =>
    quiet_trans (h hs) (k ⟨sound_of_calm hs.1 (h hs).1, (plainly_of_calm (h hs).1 ⟨hs.1, hs.2.1⟩).2,
      tidy_of_quiet hs.2.2 (h hs)⟩)
  set_edge := fun _ _ _ _ he _ => quiet_flag.set_edge _ _ _ _ he
  set_todo := fun s t _ => quiet_flag.set_todo s t
  set_ael := fun s t _ => quiet_flag.set_ael s t
  set_dot := fun s t _ => quiet_flag.set_dot s t

/-- Over segments that do not touch or cross, `insert` puts the edge into the
active edge list or leaves the state alone: the handler for `action_t` does
not run. -/
theorem insert_sweeps {S : line_t → Prop} (hS : scattered S) {ins : ael_insert_t}
    (hins : ins.comparing) {s s1 : flattener_t} {e : Nat}
    (h : s.insert ins e = .ok s1) : sweeps S s s1 := by
  intro hs
  unfold insert at h
  obtain ⟨ed, hed, h⟩ := bind_ok h
  split at h
  · rw [← pure_ok h]; exact quiet_refl s
  · split at h
    · rw [← pure_ok h]
      exact quiet_trans (quiet_flag.set_ael s _)
        (quiet_flag.set_edge (s := s.set_ael _) _ _ _ _ hed)
    · rename_i p q v f hact
      obtain ⟨x, y, hxy⟩ := hins s e p q v f hact
      exact absurd hxy (sort_active_edge_quiet hS hs.1 hs.2.1 hs.2.2 x y p q v f)
    · exact absurd h (by simp)

/-- Over segments that do not touch or cross, `intersect()` only writes edges
and maps: it calls `find` for no new vertex. -/
theorem intersect_calm {S : line_t → Prop} (hS : scattered S) {ins : ael_insert_t}
    (hins : ins.comparing) {fuel : Nat} {s s1 : flattener_t} (hs : s.sound) (hp : s.plain)
    (ht : s.tidy S) (h : s.intersect ins fuel = .ok s1) : s.calm s1 := by
  unfold intersect at h
  obtain ⟨-, -, h⟩ := bind_ok h
  obtain ⟨t1, h1, h⟩ := bind_ok h
  obtain ⟨t2, h2, h⟩ := bind_ok h
  have k1 : s.quiet t1 :=
    intersect_loop_rel (fun hi => insert_sweeps hS hins hi) (sweeps_flag S) h1 ⟨hs, hp, ht⟩
  have k2 : t1.calm t2 := for_each_rel calm_flag (fun _ _ _ => cull_rel calm_link calm_flag) h2
  have k3 : t2.calm s1 :=
    for_each_rel calm_flag (fun _ _ _ => fold_rel calm_join calm_link calm_flag) h
  exact calm_trans (calm_trans k1.1 k2) k3

end flattener_t
/-! ## The session before the sweep -/

namespace flattener_t

theorem link_below_edges (s : flattener_t) (this q : Nat) (vthis vq : vertex_t)
    (raw : line_t) :
    (s.link_below this q vthis vq raw).2.edges = s.edges ∨
    (s.link_below this q vthis vq raw).2.edges = s.edges ++ [some (edge_t.new raw this q)] := by
  unfold link_below
  split
  · exact Or.inl rfl
  · exact Or.inr rfl

theorem link_above_edges (s : flattener_t) (this q : Nat) (vthis vq : vertex_t)
    (raw : line_t) :
    (s.link_above this q vthis vq raw).2.edges = s.edges ∨
    (s.link_above this q vthis vq raw).2.edges = s.edges ++ [some (edge_t.new raw q this)] := by
  unfold link_above
  split
  · exact Or.inl rfl
  · exact Or.inr rfl

/-- The edge that `goes_to` creates: between `this` and `q` in sweep order,
with the line it was given, turned round when the ends are. -/
theorem goes_to_made {s s1 : flattener_t} {this q : Nat} {raw : line_t} {wind : wind_t}
    {state r : Option Nat} (h : s.goes_to this q raw wind state = .ok (r, s1))
    (e : Nat) (ed1 : edge_t) (he : s1.edge e = .ok ed1) (hlen : s.edges.length ≤ e) :
    ∃ vthis vq flip, s.verts[this]? = some vthis ∧ s.verts[q]? = some vq ∧ q ≠ this ∧
      vertexsort_t vq vthis = .ok flip ∧
      ed1.raw = (if flip then raw.reverse else raw) ∧
      ed1.from_ = (if flip then q else this) ∧ ed1.to_ = (if flip then this else q) := by
  unfold goes_to at h
  split at h
  · injection h with h
    injection h with h1 h2
    rw [← h2] at he
    have := (edge_eq_ok s e ed1).1 he
    rw [List.getElem?_eq_none hlen] at this
    simp at this
  · rename_i hne
    split at h
    · exact absurd h (by simp)
    · exact absurd h (by simp)
    · rename_i vq vthis hq ht
      have hq' := (vertex_eq_ok s q vq).1 hq
      have ht' := (vertex_eq_ok s this vthis).1 ht
      split at h
      · exact absurd h (by simp)
      · rename_i flip hflip
        dsimp only at h
        split at h
        · exact absurd h (by simp)
        · rename_i ed hed
          split at h
          · exact absurd h (by simp)
          · rename_i s5 h5
            injection h with h
            injection h with h1 h2
            subst h2
            refine ⟨vthis, vq, flip, ht', hq', hne, hflip, ?_⟩
            have k : quiet _ s5 :=
              quiet_trans (quiet_flag.set_edge _ _ _ _ hed) (inherit_rel quiet_flag h5)
            have hl5 := k.2
            rcases k.1.1.2.2.2.2.2 e ed1 he with ⟨ed0, k1, k2, k3, k4, -⟩ | ⟨k0, -⟩
            · rw [k2, k3, k4]
              have k1' := (edge_eq_ok _ e ed0).1 k1
              cases flip
              · simp only [Bool.false_eq_true, if_false] at k1' ⊢
                rcases link_below_edges s this q vthis vq raw with hh | hh
                · rw [hh, List.getElem?_eq_none hlen] at k1'
                  simp at k1'
                · rw [hh] at k1'
                  by_cases hc : e = s.edges.length
                  · subst hc
                    rw [List.getElem?_append_right (le_refl _)] at k1'
                    simp at k1'
                    rw [← k1']
                    exact ⟨rfl, rfl, rfl⟩
                  · rw [List.getElem?_eq_none (by simp; omega)] at k1'
                    simp at k1'
              · simp only [if_true] at k1' ⊢
                rcases link_above_edges s this q vthis vq raw.reverse with hh | hh
                · rw [hh, List.getElem?_eq_none hlen] at k1'
                  simp at k1'
                · rw [hh] at k1'
                  by_cases hc : e = s.edges.length
                  · subst hc
                    rw [List.getElem?_append_right (le_refl _)] at k1'
                    simp at k1'
                    rw [← k1']
                    exact ⟨rfl, rfl, rfl⟩
                  · rw [List.getElem?_eq_none (by simp; omega)] at k1'
                    simp at k1'
            · have := (edge_eq_ok s5 e ed1).1 he
              have hlt : e < s5.edges.length := by
                by_contra hc
                rw [List.getElem?_eq_none (by omega)] at this
                simp at this
              rw [hl5] at hlt
              omega

/-- A tidy session stays tidy when its vertices keep their positions and its
edges stay as they are. -/
theorem tidy_of_edges {S : line_t → Prop} {s s1 : flattener_t} (ht : s.tidy S)
    (hg : s.grows s1) (he : s1.edges = s.edges) : s1.tidy S := by
  intro e ed h
  rw [edge_eq_ok, he, ← edge_eq_ok] at h
  obtain ⟨t1, t2, t3, t4⟩ := ht e ed h
  refine ⟨t1, t2, ?_, ?_⟩
  · obtain ⟨vu, k1, k2, k3⟩ := (pos_eq_some s _ _ _).1 t3
    obtain ⟨vu1, a1, a2, a3⟩ := hg.1 _ vu k1
    exact (pos_eq_some s1 _ _ _).2 ⟨vu1, a1, a2.trans k2, a3.trans k3⟩
  · obtain ⟨vu, k1, k2, k3⟩ := (pos_eq_some s _ _ _).1 t4
    obtain ⟨vu1, a1, a2, a3⟩ := hg.1 _ vu k1
    exact (pos_eq_some s1 _ _ _).2 ⟨vu1, a1, a2.trans k2, a3.trans k3⟩

/-- `find` at integer coordinates in a sound session: the vertex it returns is
at these coordinates and all vertices stay integer. -/
theorem find_integral {s s1 : flattener_t} {x y : Int} {r : Nat} (hs : s.sound)
    (hi : s.integral) (h : s.find (rat_t.ofInt x) (rat_t.ofInt y) = .ok (r, s1)) :
    s1.integral ∧ s1.pos r = some (rat_t.ofInt x, rat_t.ofInt y) := by
  obtain ⟨r0, s0, vr, e0, h2, h3, h4, -, hcase⟩ :=
    find_eq s _ _ (rat_t.canonical_ofInt x) (rat_t.canonical_ofInt y) hs.valid
  rw [e0] at h
  injection h with h
  injection h with ha hb
  subst ha; subst hb
  refine ⟨?_, (pos_eq_some _ _ _ _).2 ⟨vr, (vertex_eq_ok _ _ _).1 h2, h3, h4⟩⟩
  rcases hcase with ⟨h1, -⟩ | ⟨h1, -, hv, -⟩
  · rw [h1]; exact hi
  · intro v vv hvv
    rw [hv] at hvv
    by_cases hc : v < s.verts.length
    · rw [List.getElem?_append_left hc] at hvv
      exact hi v vv hvv
    · by_cases hc2 : v = s.verts.length
      · subst hc2
        rw [List.getElem?_append_right (le_refl _)] at hvv
        simp at hvv
        rw [← hvv]
        exact ⟨rfl, rfl⟩
      · rw [List.getElem?_eq_none (by simp; omega)] at hvv
        simp at hvv

theorem integral_of_edits {s s1 : flattener_t} (h : s.edits s1) (hi : s.integral) :
    s1.integral := by
  intro v vv hv
  obtain ⟨vv0, k1, k2, k3⟩ := pos_transfer s1 s v vv (h.2.2.2.1 v).symm hv
  have := hi v vv0 k1
  rw [← k2, ← k3]; exact this

theorem add_edge_tidy {S : line_t → Prop} {s s1 : flattener_t} {x y u v : Int} {b : Bool}
    (hb : s.sound) (hp : s.plain) (ht : s.tidy S) (hi : s.integral) (hS : S ⟨x, y, u, v⟩)
    (h : s.add_edge x y u v b = .ok s1) : s1.tidy S ∧ s1.integral := by
  unfold add_edge at h
  split at h
  · exact absurd h (by simp)
  · rename_i p t1 h1
    split at h
    · exact absurd h (by simp)
    · rename_i q t2 h2
      split at h
      · exact absurd h (by simp)
      · rename_i r t3 h3
        injection h with h
        subst h
        have cx := rat_t.canonical_ofInt x
        have cy := rat_t.canonical_ofInt y
        have cu := rat_t.canonical_ofInt u
        have cv := rat_t.canonical_ofInt v
        obtain ⟨b1, p1⟩ := plainly_find cx cy h1 ⟨hb, hp⟩
        obtain ⟨b2, p2⟩ := plainly_find cu cv h2 ⟨b1, p1⟩
        have g1 := (steady_find cx cy h1 hb).2
        have g2 := (steady_find cu cv h2 b1).2
        obtain ⟨i1, pp⟩ := find_integral hb hi h1
        obtain ⟨i2, pq⟩ := find_integral b1 i1 h2
        have tt2 : t2.tidy S :=
          tidy_of_edges (tidy_of_edges ht g1 (find_edges h1)) g2 (find_edges h2)
        have pp2 : t2.pos p = some (rat_t.ofInt x, rat_t.ofInt y) := by
          obtain ⟨vu, k1, k2, k3⟩ := (pos_eq_some t1 _ _ _).1 pp
          obtain ⟨vu1, a1, a2, a3⟩ := g2.1 _ vu k1
          exact (pos_eq_some t2 _ _ _).2 ⟨vu1, a1, a2.trans k2, a3.trans k3⟩
        have ed3 : t2.edits t3 := edits_join.goes_to h3
        refine ⟨?_, integral_of_edits ed3 i2⟩
        intro e ed1 he
        by_cases hlen : t2.edges.length ≤ e
        · obtain ⟨vthis, vq, flip, ht', hq', hne, hflip, r1, r2, r3⟩ :=
            goes_to_made h3 e ed1 he hlen
          obtain ⟨vp', k1, k2, k3⟩ := (pos_eq_some t2 _ _ _).1 pp2
          obtain ⟨vq', m1, m2, m3⟩ := (pos_eq_some t2 _ _ _).1 pq
          have e1 : vp' = vthis := by
            have := k1.symm.trans ht'
            injection this
          have e2 : vq' = vq := by
            have := m1.symm.trans hq'
            injection this
          subst e1; subst e2
          have cp : vp'.canonical := b2.1 _ _ k1
          have cq : vq'.canonical := b2.1 _ _ m1
          rw [vertexsort_t_eq vq' vp' cq cp] at hflip
          injection hflip with hflip
          have hpos3 : ∀ w, t3.pos w = t2.pos w := ed3.2.2.2.1
          cases flip
          · simp only [Bool.false_eq_true, if_false] at r1 r2 r3
            have hnp : ¬ vq'.precedes vp' := by simpa using hflip
            have hpq : vp'.precedes vq' := by
              by_contra hc
              have := vertex_t.eq_of_not_precedes vp' vq' cp cq hc hnp
              apply hne
              refine (pos_inj b2 p2 (x := vp'.x) (y := vp'.y) ?_ ?_).symm
              · exact (pos_eq_some t2 _ _ _).2 ⟨vp', k1, rfl, rfl⟩
              · exact (pos_eq_some t2 _ _ _).2 ⟨vq', m1, this.1.symm, this.2.symm⟩
            rw [r1, r2, r3, hpos3, hpos3]
            refine ⟨Or.inl hS, ?_, pp2, pq⟩
            exact (precedes_ofInt vp' vq' x y u v k2 k3 m2 m3).1 hpq
          · simp only [if_true] at r1 r2 r3
            have hqp : vq'.precedes vp' := by simpa using hflip
            rw [r1, r2, r3, hpos3, hpos3]
            refine ⟨Or.inr hS, ?_, pq, pp2⟩
            exact (precedes_ofInt vq' vp' u v x y m2 m3 k2 k3).1 hqp
        · push_neg at hlen
          rcases ed3.2.2.2.2.2 e ed1 he with ⟨ed0, k1, k2, k3, k4, -⟩ | ⟨k0, -⟩
          · obtain ⟨t1', t2', t3', t4'⟩ := tt2 e ed0 k1
            rw [k2, k3, k4, ed3.2.2.2.1, ed3.2.2.2.1]
            exact ⟨t1', t2', t3', t4'⟩
          · omega

/-- A session built by `add_edge` calls: its edges are the input segments in
sweep order, between the vertices at their endpoints, and all vertices are
integer. -/
theorem add_edges_tidy {S : line_t → Prop} (l : List (Int × Int × Int × Int × Bool))
    {s s1 : flattener_t} (hb : s.base) (hp : s.plain) (ht : s.tidy S) (hi : s.integral)
    (hS : ∀ a ∈ l, S ⟨a.1, a.2.1, a.2.2.1, a.2.2.2.1⟩) (h : s.add_edges l = .ok s1) :
    s1.tidy S ∧ s1.integral := by
  induction l generalizing s with
  | nil =>
    unfold add_edges at h
    rw [← pure_ok h]; exact ⟨ht, hi⟩
  | cons a rest ih =>
    obtain ⟨x, y, u, v, b⟩ := a
    unfold add_edges at h
    obtain ⟨t, h1, h⟩ := bind_ok h
    obtain ⟨t1, i1⟩ := add_edge_tidy hb.1 hp ht hi (hS _ (List.mem_cons_self _ _)) h1
    obtain ⟨s1', p1⟩ := add_edge_rel plainly_find_steps plainly_join plainly_flag h1 ⟨hb.1, hp⟩
    exact ih ⟨s1', linked_of_keeps (add_edge_keeps h1) hb.2⟩ p1 t1 i1
      (fun a ha => hS a (List.mem_cons_of_mem _ ha)) h

end flattener_t

/-! ## Snap rounding of a session whose vertices are integer -/

namespace flattener_t

theorem settles_refl (s : flattener_t) : s.settles s :=
  fun h => ⟨h.1, h.2, rfl, grows_refl s⟩

theorem settles_trans {s s1 s2 : flattener_t} (h : s.settles s1) (k : s1.settles s2) :
    s.settles s2 := by
  intro hs
  obtain ⟨a1, a2, a3, a4⟩ := h hs
  obtain ⟨b1, b2, b3, b4⟩ := k ⟨a1, a2⟩
  exact ⟨b1, b2, b3.trans a3, grows_trans a4 b4⟩

theorem settled_of_pos {s s1 : flattener_t} (hp : ∀ v, s1.pos v = s.pos v)
    (hv : s1.vertexset = s.vertexset) (h : s.settled) : s1.settled := by
  intro v vv hvv
  obtain ⟨vv0, k1, k2, k3⟩ := pos_transfer s1 s v vv (hp v).symm hvv
  obtain ⟨n1, n2, w, hw, pw⟩ := h v vv0 k1
  rw [k2] at n1
  rw [k3] at n2
  rw [k2, k3] at pw
  exact ⟨n1, n2, w, hv ▸ hw, (hp w).trans pw⟩

theorem settles_of_calm {s s1 : flattener_t} (h : s.calm s1) : s.settles s1 :=
  fun hs => ⟨sound_of_calm hs.1 h, settled_of_pos h.1.2.2.2.1 h.1.1 hs.2, h.1.1,
    grows_of_edits h.1⟩

theorem settles_flag : flag_steps settles where
  refl := settles_refl
  trans := settles_trans
  set_edge := fun _ _ _ _ he => settles_of_calm (calm_flag.set_edge _ _ _ _ he)
  set_todo := fun s t => settles_of_calm (calm_flag.set_todo s t)
  set_ael := fun s t => settles_of_calm (calm_flag.set_ael s t)
  set_dot := fun s t => settles_of_calm (calm_flag.set_dot s t)

theorem settles_join : join_steps settles :=
  ⟨fun h => settles_of_calm (calm_join.goes_to h)⟩

theorem settles_link : link_steps settles :=
  ⟨fun h => settles_of_calm (calm_link.unlink h),
    fun s p => settles_of_calm (calm_link.delete_edge s p)⟩

/-- A step that leaves the vertices and the two vertex sets alone. -/
theorem settles_of_frame {s s1 : flattener_t} (h1 : s1.verts = s.verts)
    (h2 : s1.vertexset = s.vertexset) (h3 : s1.snapset = s.snapset) : s.settles s1 := by
  intro hs
  refine ⟨(steady_of_frame h1 h2 h3 hs.1).1, ?_, h2, (steady_of_frame h1 h2 h3 hs.1).2⟩
  refine settled_of_pos ?_ h2 hs.2
  intro v
  unfold pos
  rw [h1]

/-- In a sound session `find` at the position of a vertex of the primary set
changes nothing. -/
theorem find_existing {s s1 : flattener_t} {x y : rat_t} {r w : Nat} (hs : s.sound)
    (hx : x.canonical) (hy : y.canonical) (hw : w ∈ s.vertexset)
    (pw : s.pos w = some (x, y)) (h : s.find x y = .ok (r, s1)) : s1 = s := by
  obtain ⟨r0, s0, vr, e0, h2, h3, h4, h5, hcase⟩ := find_eq s x y hx hy hs.valid
  have hsort := find_sorted s x y hx hy hs.valid hs.2.2.1 r s1 h
  rw [e0] at h
  injection h with h
  injection h with ha hb
  subst ha; subst hb
  rcases hcase with ⟨h1, -⟩ | ⟨h1, -, hv, hm, -⟩
  · exact h1
  · exfalso
    obtain ⟨vw, k1, k2, k3⟩ := (pos_eq_some s _ _ _).1 pw
    have hlt := hs.2.1 w hw
    have k1' : s0.verts[w]? = some vw := by
      rw [hv, List.getElem?_append_left hlt]; exact k1
    have := vertexset_t.unique s0.verts s0.vertexset hsort w r0 ((hm w).2 (Or.inr hw)) h5
      vw vr k1' ((vertex_eq_ok _ _ _).1 h2) (k2.trans h3.symm) (k3.trans h4.symm)
    omega

theorem settles_snap_steps : snap_steps settles where
  snap := by
    intro s s1 v r vv hv h hs
    have hv' := (vertex_eq_ok s v vv).1 hv
    have cx := (hs.1.1 v vv hv').1
    have cy := (hs.1.1 v vv hv').2
    obtain ⟨n1, n2, w, hw, pw⟩ := hs.2 v vv hv'
    obtain ⟨b1, g1⟩ := steady_snap cx cy h hs.1
    obtain ⟨x1, y1, hx1, hy1, hcase⟩ := snap_shape hs.1 cx cy h
    have ex := (snap_coord_shape cx hx1).2.2 n1
    have ey := (snap_coord_shape cy hy1).2.2 n2
    subst ex; subst ey
    rcases hcase with ⟨h1, -⟩ | ⟨h1, set1, h2, -⟩
    · rw [h1]; exact ⟨hs.1, hs.2, rfl, grows_refl s⟩
    · have hvs : s1.vertexset = s.vertexset := by rw [h2]
      have hvv : s1.verts = s.verts ++ [{ x := vv.x, y := vv.y }] := by rw [h2]
      refine ⟨b1, ?_, hvs, g1⟩
      have keep : ∀ u ∈ s.vertexset, s1.pos u = s.pos u := by
        intro u hu
        unfold pos
        rw [hvv, List.getElem?_append_left (hs.1.2.1 u hu)]
      intro u vu hu
      rw [hvv] at hu
      by_cases hc : u < s.verts.length
      · rw [List.getElem?_append_left hc] at hu
        obtain ⟨m1, m2, w', hw', pw'⟩ := hs.2 u vu hu
        exact ⟨m1, m2, w', hvs ▸ hw', (keep w' hw').trans pw'⟩
      · by_cases hc2 : u = s.verts.length
        · subst hc2
          rw [List.getElem?_append_right (le_refl _)] at hu
          simp at hu
          rw [← hu]
          exact ⟨n1, n2, w, hvs ▸ hw, (keep w hw).trans pw⟩
        · rw [List.getElem?_eq_none (by simp; omega)] at hu
          simp at hu

theorem settles_pin_steps : pin_steps settles where
  find_at := by
    intro s s1 v r vv hv h hs
    have hv' := (vertex_eq_ok s v vv).1 hv
    obtain ⟨-, -, w, hw, pw⟩ := hs.2 v vv hv'
    have := find_existing hs.1 (hs.1.1 v vv hv').1 (hs.1.1 v vv hv').2 hw pw h
    rw [this]
    exact settles_refl s hs
  set_pins := fun _ _ => settles_of_frame rfl rfl rfl
  set_snaplist := fun _ _ => settles_of_frame rfl rfl rfl

/-- A plain session with integer vertices is settled. -/
theorem settled_of_plain {s : flattener_t} (hp : s.plain) (hi : s.integral) : s.settled := by
  intro v vv hv
  refine ⟨(hi v vv hv).1, (hi v vv hv).2, v, hp.1 v (lt_of_vertex s v vv hv), ?_⟩
  exact (pos_eq_some s _ _ _).2 ⟨vv, hv, rfl, rfl⟩

/-- The first `flatten` of a session whose edges are input segments that
meet only at common endpoints: the primary vertex set is unchanged, every
vertex keeps its position, and every vertex of the result lies at the position
of a vertex of the input. -/
theorem flatten_scattered {S : line_t → Prop} (hS : scattered S) {ins : ael_insert_t}
    (hins : ins.comparing) {fuel : Nat} {s t : flattener_t} (hb : s.sound) (hp : s.plain)
    (ht : s.tidy S) (hi : s.integral) (h : s.flatten ins fuel = .ok (some t)) :
    t.vertexset = s.vertexset ∧ (∀ v ∈ s.vertexset, t.pos v = s.pos v) ∧
    ∀ (v : Nat) (vv : vertex_t), t.verts[v]? = some vv →
      ∃ w ∈ s.vertexset, s.pos w = some (vv.x, vv.y) := by
  unfold flatten at h
  split at h
  · rename_i s2 h2
    injection h with h
    injection h with h
    subst h
    obtain ⟨t1, h1, h2⟩ := bind_ok h2
    have c1 := intersect_calm hS hins hb hp ht h1
    obtain ⟨a1, a2, a3, a4⟩ := settles_of_calm c1 ⟨hb, settled_of_plain hp hi⟩
    obtain ⟨b1, b2, b3, b4⟩ := stable_snap_round_rel settles_snap_steps settles_pin_steps
      settles_join settles_link settles_flag h2 ⟨a1, a2⟩
    have g := grows_trans a4 b4
    have hvs := b3.trans a3
    have keep : ∀ v ∈ s.vertexset, s2.pos v = s.pos v := by
      intro v hv
      have hlt := hb.2.1 v hv
      obtain ⟨vv1, k1, k2, k3⟩ := g.1 v _ (List.getElem?_eq_getElem hlt)
      rw [(pos_eq_some s2 v vv1.x vv1.y).2 ⟨vv1, k1, rfl, rfl⟩]
      exact ((pos_eq_some s v _ _).2 ⟨_, List.getElem?_eq_getElem hlt, k2.symm, k3.symm⟩).symm
    refine ⟨hvs, keep, ?_⟩
    intro v vv hv
    obtain ⟨-, -, w, hw, pw⟩ := b2 v vv hv
    rw [hvs] at hw
    exact ⟨w, hw, (keep w hw).symm.trans pw⟩
  · exact absurd h (by simp)
  · exact absurd h (by simp)
  · exact absurd h (by simp)

end flattener_t

/-! ## A test for segments that meet only at common ends -/

theorem seg_le (a b c t : ℚ) (ha : a ≤ c) (hb : b ≤ c) (h0 : 0 ≤ t) (h1 : t ≤ 1) :
    a + t * (b - a) ≤ c := by
  nlinarith [mul_nonneg h0 (sub_nonneg.2 hb), mul_nonneg (sub_nonneg.2 h1) (sub_nonneg.2 ha)]

theorem seg_gt (a b c t : ℚ) (ha : c < a) (hb : c < b) (h0 : 0 ≤ t) (h1 : t ≤ 1) :
    c < a + t * (b - a) := by
  by_cases ht : t = 1
  · subst ht; linarith
  · have h2 : 0 < 1 - t := by
      rcases lt_or_eq_of_le h1 with h | h
      · linarith
      · exact absurd h ht
    nlinarith [mul_nonneg h0 (le_of_lt (sub_pos.2 hb)), mul_pos h2 (sub_pos.2 ha)]

theorem line_t.left_of_apart (p q : line_t) (h : p.left_of q = true) : p.apart q := by
  unfold line_t.left_of at h
  simp only [Bool.and_eq_true, decide_eq_true_eq] at h
  obtain ⟨⟨⟨h1, h2⟩, h3⟩, h4⟩ := h
  rintro x y ⟨t, t0, t1, hx, -⟩ ⟨u, u0, u1, kx, -⟩
  exfalso
  have a1 : ((p.x0 : ℚ)) ≤ (max p.x0 p.x1 : Int) := by exact_mod_cast le_max_left _ _
  have a2 : ((p.x1 : ℚ)) ≤ (max p.x0 p.x1 : Int) := by exact_mod_cast le_max_right _ _
  have b1 : ((max p.x0 p.x1 : Int) : ℚ) < q.x0 := by exact_mod_cast max_lt h1 h3
  have b2 : ((max p.x0 p.x1 : Int) : ℚ) < q.x1 := by exact_mod_cast max_lt h2 h4
  have c1 := seg_le _ _ _ t a1 a2 t0 t1
  have c2 := seg_gt _ _ _ u b1 b2 u0 u1
  rw [← hx] at c1
  rw [← kx] at c2
  exact absurd c1 (not_le.2 c2)

theorem line_t.under_apart (p q : line_t) (h : p.under q = true) : p.apart q := by
  unfold line_t.under at h
  simp only [Bool.and_eq_true, decide_eq_true_eq] at h
  obtain ⟨⟨⟨h1, h2⟩, h3⟩, h4⟩ := h
  rintro x y ⟨t, t0, t1, -, hy⟩ ⟨u, u0, u1, -, ky⟩
  exfalso
  have a1 : ((p.y0 : ℚ)) ≤ (max p.y0 p.y1 : Int) := by exact_mod_cast le_max_left _ _
  have a2 : ((p.y1 : ℚ)) ≤ (max p.y0 p.y1 : Int) := by exact_mod_cast le_max_right _ _
  have b1 : ((max p.y0 p.y1 : Int) : ℚ) < q.y0 := by exact_mod_cast max_lt h1 h3
  have b2 : ((max p.y0 p.y1 : Int) : ℚ) < q.y1 := by exact_mod_cast max_lt h2 h4
  have c1 := seg_le _ _ _ t a1 a2 t0 t1
  have c2 := seg_gt _ _ _ u b1 b2 u0 u1
  rw [← hy] at c1
  rw [← ky] at c2
  exact absurd c1 (not_le.2 c2)

/-- Two segments in different directions that start at the same point have no
other common point. -/
theorem line_t.apart_of_common_start (p q : line_t) (hc : p.cross q ≠ 0)
    (hx : p.x0 = q.x0) (hy : p.y0 = q.y0) : p.apart q := by
  rintro x y ⟨t, -, -, px, py⟩ ⟨u, -, -, qx, qy⟩
  have hcq : ((p.x1 : ℚ) - p.x0) * (q.y1 - q.y0) - (p.y1 - p.y0) * (q.x1 - q.x0) ≠ 0 := by
    unfold line_t.cross at hc
    exact_mod_cast hc
  have ex : (p.x0 : ℚ) = q.x0 := by exact_mod_cast hx
  have ey : (p.y0 : ℚ) = q.y0 := by exact_mod_cast hy
  have k1 : t * ((p.x1 : ℚ) - p.x0) = u * (q.x1 - q.x0) := by
    have := px.symm.trans qx
    rw [ex] at this ⊢
    linarith
  have k2 : t * ((p.y1 : ℚ) - p.y0) = u * (q.y1 - q.y0) := by
    have := py.symm.trans qy
    rw [ey] at this ⊢
    linarith
  have ht : t * (((p.x1 : ℚ) - p.x0) * (q.y1 - q.y0) - (p.y1 - p.y0) * (q.x1 - q.x0)) = 0 := by
    linear_combination (q.y1 - q.y0 : ℚ) * k1 - (q.x1 - q.x0 : ℚ) * k2
  have t0 : t = 0 := by
    rcases mul_eq_zero.1 ht with h | h
    · exact h
    · exact absurd h hcq
  subst t0
  have hx0 : x = p.x0 := by rw [px]; ring
  have hy0 : y = p.y0 := by rw [py]; ring
  exact ⟨Or.inl ⟨hx0, hy0⟩, Or.inl ⟨hx0.trans ex, hy0.trans ey⟩⟩

theorem line_t.corner_apart (p q : line_t) (h : p.corner q = true) : p.apart q := by
  unfold line_t.corner at h
  simp only [Bool.and_eq_true, Bool.or_eq_true, decide_eq_true_eq] at h
  obtain ⟨hc, h⟩ := h
  rcases h with ((⟨hx, hy⟩ | ⟨hx, hy⟩) | ⟨hx, hy⟩) | ⟨hx, hy⟩
  · exact line_t.apart_of_common_start p q hc hx hy
  · refine (line_t.apart_reverse_right p q).1 (line_t.apart_of_common_start p q.reverse ?_ hx hy)
    intro hz; apply hc
    unfold line_t.cross line_t.reverse at hz
    unfold line_t.cross
    simp only at hz
    linarith
  · refine (line_t.apart_reverse_left p q).1 (line_t.apart_of_common_start p.reverse q ?_ hx hy)
    intro hz; apply hc
    unfold line_t.cross line_t.reverse at hz
    unfold line_t.cross
    simp only at hz
    linarith
  · refine (line_t.apart_reverse_left p q).1 ((line_t.apart_reverse_right p.reverse q).1
      (line_t.apart_of_common_start p.reverse q.reverse ?_ hx hy))
    intro hz; apply hc
    unfold line_t.cross line_t.reverse at hz
    unfold line_t.cross
    simp only at hz
    linarith

theorem line_t.clear_sound (p q : line_t) (h : p.clear q = true) :
    p = q ∨ p = q.reverse ∨ p.apart q := by
  unfold line_t.clear at h
  simp only [Bool.or_eq_true, decide_eq_true_eq] at h
  rcases h with (((((h | h) | h) | h) | h) | h) | h
  · exact Or.inl h
  · exact Or.inr (Or.inl h)
  · exact Or.inr (Or.inr (line_t.left_of_apart p q h))
  · exact Or.inr (Or.inr (line_t.apart_symm _ _ (line_t.left_of_apart q p h)))
  · exact Or.inr (Or.inr (line_t.under_apart p q h))
  · exact Or.inr (Or.inr (line_t.apart_symm _ _ (line_t.under_apart q p h)))
  · exact Or.inr (Or.inr (line_t.corner_apart p q h))

/-- Segments that pass the test on all pairs meet only at common ends. -/
theorem clear_all_scattered (l : List line_t) (h : clear_all l = true) :
    scattered (fun r => r ∈ l) := by
  intro p q hp hq
  unfold clear_all at h
  rw [List.all_eq_true] at h
  have := h p hp
  rw [List.all_eq_true] at this
  exact line_t.clear_sound p q (this q hq)

/-- The first `flatten` of a session built by `add_edge` calls with segments
that meet only at common ends. -/
theorem flattener_t.flatten_segments {rule : Int} {l : List (Int × Int × Int × Int × Bool)}
    {ins : ael_insert_t} {fuel : Nat} {s t : flattener_t} (hins : ins.comparing)
    (hS : scattered (fun r => r ∈ segments l))
    (hs : (flattener_t.new rule).add_edges l = .ok s)
    (ht : s.flatten ins fuel = .ok (some t)) :
    t.vertexset = s.vertexset ∧ (∀ v ∈ s.vertexset, t.pos v = s.pos v) ∧
    ∀ (v : Nat) (vv : vertex_t), t.verts[v]? = some vv →
      ∃ w ∈ s.vertexset, s.pos w = some (vv.x, vv.y) := by
  obtain ⟨hb, hp, -⟩ := flattener_t.add_edges_fresh hs
  have p0 : (flattener_t.new rule).plain :=
    ⟨fun v hv => by simp [flattener_t.new] at hv, rfl⟩
  have t0 : (flattener_t.new rule).tidy (fun r => r ∈ segments l) := by
    intro e ed he
    simp [flattener_t.edge, flattener_t.new] at he
  have i0 : (flattener_t.new rule).integral := by
    intro v vv hv
    simp [flattener_t.new] at hv
  obtain ⟨t1, i1⟩ := flattener_t.add_edges_tidy l (flattener_t.base_new rule) p0 t0 i0
    (fun a ha => List.mem_map_of_mem _ ha) hs
  exact flattener_t.flatten_scattered hS hins hb.1 hp t1 i1 ht
/-! ## Disjoint contours -/

/-- C18: disjoint squares, union.  With `FLATTEN_A_OR_B`, the four edges of
A = `(0,0) (10,0) (10,10) (0,10)` as shape A and the four edges of
B = `(20,0) (30,0) (30,10) (20,10)` as shape B, `flatten()` returns true and
`get_result` returns true with exactly two polygons: the four corners of A and
the four corners of B, each corner once, in cyclic order around its square.
More generally, for every rule and every sequence of `add_edge` calls on a new
session whose segments meet only at common ends (any two are the same segment,
the reverse of each other, or have no common point other than a common end:
contours that do not touch or cross are of this kind), a `flatten()` that
returns true introduces no new vertices: the primary vertex set is the one
before the call, each of its vertices is at the position it had, and every
vertex of the session, those of the snap set included, lies at the position of
a vertex of the input.  The order of the active edge list is that of any insert
that raises only what a comparison of two edges raises. -/
theorem C18_disjoint_contours :
    (∃ s t t1, (flattener_t.new FLATTEN_A_OR_B).add_edges
        [(0, 0, 10, 0, false), (10, 0, 10, 10, false), (10, 10, 0, 10, false),
         (0, 10, 0, 0, false),
         (20, 0, 30, 0, true), (30, 0, 30, 10, true), (30, 10, 20, 10, true),
         (20, 10, 20, 0, true)] = .ok s ∧
      s.flatten set_insert 100 = .ok (some t) ∧
      flatten_arrangement.get_result 100 t []
        = .ok ([[(0, 0), (10, 0), (10, 10), (0, 10)],
                [(20, 0), (30, 0), (30, 10), (20, 10)]], some t1)) ∧
    ∀ (rule : Int) (l : List (Int × Int × Int × Int × Bool)) (ins : ael_insert_t)
      (fuel : Nat) (s t : flattener_t),
      ins.comparing → scattered (fun r => r ∈ segments l) →
      (flattener_t.new rule).add_edges l = .ok s →
      s.flatten ins fuel = .ok (some t) →
      t.vertexset = s.vertexset ∧ (∀ v ∈ s.vertexset, t.pos v = s.pos v) ∧
      ∀ (v : Nat) (vv : vertex_t), t.verts[v]? = some vv →
        ∃ w ∈ s.vertexset, s.pos w = some (vv.x, vv.y) :=
  ⟨⟨_, _, _, rfl, rfl, rfl⟩,
    fun _ _ _ _ _ _ hins hS hs ht => flattener_t.flatten_segments hins hS hs ht⟩

/-- C18 at the two squares above with `A or B` and the insert
`set_insert`: the eight segments meet only at the corners of their own square,
the session has the eight corners as its vertices before `flatten()`, and after
it the primary vertex set is the same list, the eight corners are where they
were, and the eight vertices of the snap set lie on them. -/
theorem C18_disjoint_contours_witness :
    ∃ s t, set_insert.comparing ∧
      scattered (fun r => r ∈ segments
        [(0, 0, 10, 0, false), (10, 0, 10, 10, false), (10, 10, 0, 10, false),
         (0, 10, 0, 0, false),
         (20, 0, 30, 0, true), (30, 0, 30, 10, true), (30, 10, 20, 10, true),
         (20, 10, 20, 0, true)]) ∧
      (flattener_t.new FLATTEN_A_OR_B).add_edges
        [(0, 0, 10, 0, false), (10, 0, 10, 10, false), (10, 10, 0, 10, false),
         (0, 10, 0, 0, false),
         (20, 0, 30, 0, true), (30, 0, 30, 10, true), (30, 10, 20, 10, true),
         (20, 10, 20, 0, true)] = .ok s ∧
      s.flatten set_insert 100 = .ok (some t) ∧
      (t.vertexset = s.vertexset ∧ (∀ v ∈ s.vertexset, t.pos v = s.pos v) ∧
        ∀ (v : Nat) (vv : vertex_t), t.verts[v]? = some vv →
          ∃ w ∈ s.vertexset, s.pos w = some (vv.x, vv.y)) ∧
      s.vertexset = [0, 1, 4, 5, 3, 2, 7, 6] ∧ s.verts.length = 8 ∧ t.verts.length = 16 := by
  have hS : scattered (fun r => r ∈ segments
        [(0, 0, 10, 0, false), (10, 0, 10, 10, false), (10, 10, 0, 10, false),
         (0, 10, 0, 0, false),
         (20, 0, 30, 0, true), (30, 0, 30, 10, true), (30, 10, 20, 10, true),
         (20, 10, 20, 0, true)]) := clear_all_scattered _ rfl
  obtain ⟨S, hS0⟩ : ∃ S, S = (((flattener_t.new FLATTEN_A_OR_B).add_edges
        [(0, 0, 10, 0, false), (10, 0, 10, 10, false), (10, 10, 0, 10, false),
         (0, 10, 0, 0, false),
         (20, 0, 30, 0, true), (30, 0, 30, 10, true), (30, 10, 20, 10, true),
         (20, 10, 20, 0, true)]).toOption).getD (flattener_t.new FLATTEN_A_OR_B) := ⟨_, rfl⟩
  have e1 : (flattener_t.new FLATTEN_A_OR_B).add_edges
        [(0, 0, 10, 0, false), (10, 0, 10, 10, false), (10, 10, 0, 10, false),
         (0, 10, 0, 0, false),
         (20, 0, 30, 0, true), (30, 0, 30, 10, true), (30, 10, 20, 10, true),
         (20, 10, 20, 0, true)] = .ok S := by rw [hS0]; rfl
  obtain ⟨T, hT⟩ : ∃ T, T = (((S.flatten set_insert 100).toOption).join).getD S := ⟨_, rfl⟩
  have e2 : S.flatten set_insert 100 = .ok (some T) := by rw [hT, hS0]; rfl
  have e3 : S.vertexset = [0, 1, 4, 5, 3, 2, 7, 6] := by rw [hS0]; rfl
  have e4 : S.verts.length = 8 := by rw [hS0]; rfl
  have e5 : T.verts.length = 16 := by rw [hT, hS0]; rfl
  exact ⟨S, T, set_insert_comparing, hS, e1, e2,
    C18_disjoint_contours.2 FLATTEN_A_OR_B _ set_insert 100 S T set_insert_comparing hS e1 e2,
    e3, e4, e5⟩

/-! ## The flags of the edge that `goes_to` returns -/

namespace flattener_t

theorem flags_of_eq (s : flattener_t) (e : Nat) (ed : edge_t) (h : s.edge e = .ok ed) :
    s.flags_of e = ed.flags := by
  unfold flags_of
  rw [(edge_eq_ok s e ed).1 h]

/-- The edge that a branch of `goes_to` finds or creates, before the winding is
added: an edge of the session, or a new edge with the given raw line and all
flags false at the end of the arena. -/
theorem link_below_edge (s : flattener_t) (this q : Nat) (vthis vq : vertex_t) (raw : line_t)
    (ed : edge_t) (h : (s.link_below this q vthis vq raw).2.edge
      (s.link_below this q vthis vq raw).1 = .ok ed) :
    (s.edge (s.link_below this q vthis vq raw).1 = .ok ed ∧
      (s.link_below this q vthis vq raw).2 = s) ∨
    ((s.link_below this q vthis vq raw).1 = s.edges.length ∧ ed = edge_t.new raw this q ∧
      ∀ e', e' < s.edges.length →
        (s.link_below this q vthis vq raw).2.edges[e']? = s.edges[e']?) := by
  unfold link_below at h ⊢
  split
  · rename_i e he
    simp only [he] at h
    exact Or.inl ⟨h, rfl⟩
  · rename_i he
    simp only [he] at h
    refine Or.inr ⟨rfl, ?_, ?_⟩
    · rw [edge_eq_ok] at h
      simp [set_vertex] at h
      exact h.symm
    · intro e' hlt
      simp [set_vertex, List.getElem?_append_left hlt]

theorem link_above_edge (s : flattener_t) (this q : Nat) (vthis vq : vertex_t) (raw : line_t)
    (ed : edge_t) (h : (s.link_above this q vthis vq raw).2.edge
      (s.link_above this q vthis vq raw).1 = .ok ed) :
    (s.edge (s.link_above this q vthis vq raw).1 = .ok ed ∧
      (s.link_above this q vthis vq raw).2 = s) ∨
    ((s.link_above this q vthis vq raw).1 = s.edges.length ∧ ed = edge_t.new raw q this ∧
      ∀ e', e' < s.edges.length →
        (s.link_above this q vthis vq raw).2.edges[e']? = s.edges[e']?) := by
  unfold link_above at h ⊢
  split
  · rename_i e he
    simp only [he] at h
    exact Or.inl ⟨h, rfl⟩
  · rename_i he
    simp only [he] at h
    refine Or.inr ⟨rfl, ?_, ?_⟩
    · rw [edge_eq_ok] at h
      simp [set_vertex] at h
      exact h.symm
    · intro e' hlt
      simp [set_vertex, List.getElem?_append_left hlt]

end flattener_t
namespace flattener_t

/-- What `inherit` stores: the flags `checked`, `sense` and `keep` of the edge
`e` are taken from the state edge, nothing else changes. -/
theorem inherit_eq {s s1 : flattener_t} {e : Nat} {state : Option Nat} {flip : Bool}
    {ed : edge_t} (he : s.edge e = .ok ed) (h : s.inherit e state flip = .ok s1) :
    (state = none ∧ s1 = s) ∨
    ∃ st sd, state = some st ∧ s.edge st = .ok sd ∧
      s1 = s.set_edge e { ed with flags := { ed.flags with
        checked := sd.flags.checked
        sense := xor sd.flags.sense flip
        keep := sd.flags.keep } } := by
  unfold inherit at h
  cases state with
  | none =>
    injection h with h
    exact Or.inl ⟨rfl, h.symm⟩
  | some st =>
    dsimp only at h
    rw [he] at h
    cases hsd : s.edge st with
    | error x => rw [hsd] at h; exact absurd h (by simp)
    | ok sd =>
      rw [hsd] at h
      dsimp only at h
      injection h with h
      exact Or.inr ⟨st, sd, rfl, hsd, h.symm⟩

/-- The edge that `goes_to` returns, field by field.  `ed0` is the edge before
the call: the edge between the two vertices, or a new edge with the raw line
handed in (reversed when the ends are swapped), winding `(0, 0)` and all flags
false. -/
theorem goes_to_fields {s s1 : flattener_t} {this q : Nat} {raw : line_t} {wind : wind_t}
    {state r : Option Nat} (h : s.goes_to this q raw wind state = .ok (r, s1))
    (hne : q ≠ this) :
    ∃ vthis vq flip e ed0 ed1, s.verts[this]? = some vthis ∧ s.verts[q]? = some vq ∧
      vertexsort_t vq vthis = .ok flip ∧ r = some e ∧ s1.edge e = .ok ed1 ∧
      ((s.edge e = .ok ed0) ∨
        (e = s.edges.length ∧ ed0 = edge_t.new (if flip then raw.reverse else raw)
          (if flip then q else this) (if flip then this else q))) ∧
      ed1.raw = ed0.raw ∧ ed1.from_ = ed0.from_ ∧ ed1.to_ = ed0.to_ ∧
      ed1.wind = ed0.wind.add (if flip then wind.neg else wind) ∧
      ed1.checked_wind = ed0.checked_wind ∧ ed1.pin_set = ed0.pin_set ∧
      ed1.aelpos = ed0.aelpos ∧
      ed1.flags.active = ed0.flags.active ∧ ed1.flags.todo = ed0.flags.todo ∧
      (state = none → ed1.flags = ed0.flags) ∧
      (∀ st, state = some st → ∃ sd,
        ((st = e ∧ sd = ed0) ∨ (st ≠ e ∧ s.edge st = .ok sd)) ∧
        ed1.flags.checked = sd.flags.checked ∧
        ed1.flags.sense = xor sd.flags.sense flip ∧
        ed1.flags.keep = sd.flags.keep) := by
  unfold goes_to at h
  rw [if_neg hne] at h
  split at h
  · exact absurd h (by simp)
  · exact absurd h (by simp)
  · rename_i vq vthis hq ht
    have hq' := (vertex_eq_ok s q vq).1 hq
    have ht' := (vertex_eq_ok s this vthis).1 ht
    split at h
    · exact absurd h (by simp)
    · rename_i flip hflip
      dsimp only at h
      split at h
      · exact absurd h (by simp)
      · rename_i ed hed
        split at h
        · exact absurd h (by simp)
        · rename_i s5 h5
          injection h with h
          injection h with h1 h2
          subst h2
          -- the edge before the winding is added
          have hcase : ∃ e s3, (if flip = true
                then s.link_above this q vthis vq (if flip = true then raw.reverse else raw)
                else s.link_below this q vthis vq (if flip = true then raw.reverse else raw))
                = (e, s3) ∧ s3.edge e = .ok ed ∧
              ((s.edge e = .ok ed ∧ s3 = s) ∨
                (e = s.edges.length ∧ ed = edge_t.new (if flip then raw.reverse else raw)
                  (if flip then q else this) (if flip then this else q) ∧
                  ∀ e', e' < s.edges.length → s3.edges[e']? = s.edges[e']?)) := by
            cases flip
            · simp only [Bool.false_eq_true, if_false] at hed ⊢
              exact ⟨_, _, rfl, hed, link_below_edge s this q vthis vq raw ed hed⟩
            · simp only [if_true] at hed ⊢
              exact ⟨_, _, rfl, hed, link_above_edge s this q vthis vq raw.reverse ed hed⟩
          obtain ⟨e, s3, hes, hed3, hc⟩ := hcase
          rw [hes] at h5 h1
          dsimp only at h5 h1
          have hself := edge_set_edge_self s3 e ed
            { ed with wind := ed.wind.add (if flip = true then wind.neg else wind) } hed3
          have horig : (s.edge e = .ok ed) ∨
              (e = s.edges.length ∧ ed = edge_t.new (if flip then raw.reverse else raw)
                (if flip then q else this) (if flip then this else q)) := by
            rcases hc with ⟨a, -⟩ | ⟨a, b, -⟩
            · exact Or.inl a
            · exact Or.inr ⟨a, b⟩
          rcases inherit_eq hself h5 with ⟨hn, hs5⟩ | ⟨st, sd, hst, hsd, hs5⟩
          · subst hs5
            refine ⟨vthis, vq, flip, e, ed, _, ht', hq', hflip, h1.symm, hself, horig,
              rfl, rfl, rfl, rfl, rfl, rfl, rfl, rfl, rfl, fun _ => rfl, ?_⟩
            intro st hst
            rw [hn] at hst
            exact absurd hst (by simp)
          · subst hs5
            have hfin := edge_set_edge_self
              (s3.set_edge e { ed with wind := ed.wind.add (if flip = true then wind.neg else wind) })
              e _ { ed with
                wind := ed.wind.add (if flip = true then wind.neg else wind)
                flags := { ed.flags with
                  checked := sd.flags.checked
                  sense := xor sd.flags.sense flip
                  keep := sd.flags.keep } } hself
            refine ⟨vthis, vq, flip, e, ed, _, ht', hq', hflip, h1.symm, hfin, horig,
              rfl, rfl, rfl, rfl, rfl, rfl, rfl, rfl, rfl, ?_, ?_⟩
            · intro hn
              rw [hst] at hn
              exact absurd hn (by simp)
            · intro st' hst'
              rw [hst] at hst'
              injection hst' with hst'
              subst hst'
              by_cases hse : st = e
              · subst hse
                rw [hself] at hsd
                injection hsd with hsd
                refine ⟨ed, Or.inl ⟨rfl, rfl⟩, ?_, ?_, ?_⟩
                · rw [← hsd]
                · rw [← hsd]
                · rw [← hsd]
              · refine ⟨sd, Or.inr ⟨hse, ?_⟩, rfl, rfl, rfl⟩
                rw [edge_eq_ok, edges_set_edge_ne _ _ _ _ hse] at hsd
                rw [edge_eq_ok]
                rcases hc with ⟨-, b⟩ | ⟨a, -, c⟩
                · rw [← b]; exact hsd
                · have hlt : st < s.edges.length := by
                    by_contra hcon
                    have hl3 : s3.edges.length ≤ s.edges.length + 1 := by
                      cases flip
                      · simp only [Bool.false_eq_true, if_false] at hes
                        rcases link_below_edges s this q vthis vq raw with k | k
                        · rw [hes] at k; simp only at k; rw [k]; omega
                        · rw [hes] at k; simp only at k; rw [k]; simp
                      · simp only [if_true] at hes
                        rcases link_above_edges s this q vthis vq raw.reverse with k | k
                        · rw [hes] at k; simp only at k; rw [k]; omega
                        · rw [hes] at k; simp only at k; rw [k]; simp
                    rw [List.getElem?_eq_none (by omega)] at hsd
                    simp at hsd
                  rw [← c st hlt]; exact hsd

end flattener_t
/-- C24: flag inheritance in `goes_to`.  In a doubly linked session, for two
different vertices `this` and `q` at canonical positions and a state edge that
is null or a live edge, `this->goes_to(q, raw, wind, state)` returns an edge
`e`.  With `flip` true exactly when `q` precedes `this` in sweep order, the
edge leads from the earlier to the later vertex, its winding is the winding it
had (`(0, 0)` for a new edge) plus `wind`, negated when `flip`, and a new edge
has the raw line handed in, reversed when `flip`.  With a state edge, `e` has
`checked = state.checked`, `keep = state.keep` and
`sense = state.sense XOR flip`; with a null state its flags are the ones it
had, all false for a new edge.  The flags `active` and `todo` are the ones it
had in both cases. -/
theorem C24_goes_to_flags (s : flattener_t) (this q : Nat) (raw : line_t) (wind : wind_t)
    (state : Option Nat) (vthis vq : vertex_t) (hl : s.linked)
    (ht : s.verts[this]? = some vthis) (hq : s.verts[q]? = some vq)
    (hct : vthis.canonical) (hcq : vq.canonical) (hne : q ≠ this)
    (hst : ∀ st, state = some st → ∃ sd, s.edge st = .ok sd) :
    ∃ e s1 ed1, s.goes_to this q raw wind state = .ok (some e, s1) ∧ s1.edge e = .ok ed1 ∧
      ed1.from_ = (if vq.precedes vthis then q else this) ∧
      ed1.to_ = (if vq.precedes vthis then this else q) ∧
      ed1.wind = (s.wind_of e).add (if vq.precedes vthis then wind.neg else wind) ∧
      (s.edges[e]? = none → ed1.raw = if vq.precedes vthis then raw.reverse else raw) ∧
      ed1.flags.active = (s.flags_of e).active ∧ ed1.flags.todo = (s.flags_of e).todo ∧
      (∀ st sd, state = some st → s.edge st = .ok sd →
        ed1.flags.checked = sd.flags.checked ∧ ed1.flags.keep = sd.flags.keep ∧
        ed1.flags.sense = xor sd.flags.sense (decide (vq.precedes vthis))) ∧
      (state = none → ed1.flags = s.flags_of e ∧
        (s.edges[e]? = none → ed1.flags.checked = false ∧ ed1.flags.keep = false ∧
          ed1.flags.sense = false)) := by
  have hflip := vertexsort_t_eq vq vthis hcq hct
  obtain ⟨e, s3, ed, -, -, -, -, fe, hcase, -, -, hed, -, -, -, hgo⟩ :=
    flattener_t.goes_to_eq s this q raw wind state vthis vq _ hl ht hq hne hflip
  -- the call returns
  have hret : ∃ s1, s.goes_to this q raw wind state = .ok (some e, s1) := by
    rw [hgo]
    have hself := flattener_t.edge_set_edge_self s3 e ed
      { ed with wind := ed.wind.add (if decide (vq.precedes vthis) = true then wind.neg else wind) }
      hed
    cases state with
    | none => exact ⟨_, rfl⟩
    | some st =>
      obtain ⟨sd, hsd⟩ := hst st rfl
      have hlive3 : ∃ y, s3.edge st = .ok y := by
        by_cases hse : st = e
        · subst hse; exact ⟨ed, hed⟩
        · refine ⟨sd, ?_⟩
          rw [flattener_t.edge_eq_ok, fe st hse, ← flattener_t.edge_eq_ok]
          exact hsd
      obtain ⟨y, hy⟩ := flattener_t.edge_set_edge_live s3 e ed
        { ed with wind := ed.wind.add (if decide (vq.precedes vthis) = true then wind.neg else wind) }
        hed st hlive3
      unfold flattener_t.inherit
      simp only [hy, hself]
      exact ⟨_, rfl⟩
  obtain ⟨s1, h⟩ := hret
  obtain ⟨vthis', vq', flip, e', ed0, ed1, ht', hq', hflip', hr, he1, horig, r1, r2, r3, r4,
    -, -, -, r8, r9, r10, r11⟩ := flattener_t.goes_to_fields h hne
  have e1 : vthis' = vthis := by
    have := ht'.symm.trans ht
    injection this
  have e2 : vq' = vq := by
    have := hq'.symm.trans hq
    injection this
  subst e1; subst e2
  rw [hflip] at hflip'
  injection hflip' with hflip'
  injection hr with hr
  subst hr
  subst hflip'
  have hfl : (if decide (vq'.precedes vthis') = true then wind.neg else wind)
      = (if vq'.precedes vthis' then wind.neg else wind) := by
    by_cases c : vq'.precedes vthis' <;> simp [c]
  have hrw : (if decide (vq'.precedes vthis') = true then raw.reverse else raw)
      = (if vq'.precedes vthis' then raw.reverse else raw) := by
    by_cases c : vq'.precedes vthis' <;> simp [c]
  have hq1 : (if decide (vq'.precedes vthis') = true then q else this)
      = (if vq'.precedes vthis' then q else this) := by
    by_cases c : vq'.precedes vthis' <;> simp [c]
  have hq2 : (if decide (vq'.precedes vthis') = true then this else q)
      = (if vq'.precedes vthis' then this else q) := by
    by_cases c : vq'.precedes vthis' <;> simp [c]
  rw [hfl] at r4
  rw [hrw, hq1, hq2] at horig
  -- the edge before the call
  have hends : ed0.from_ = (if vq'.precedes vthis' then q else this) ∧
      ed0.to_ = (if vq'.precedes vthis' then this else q) := by
    rcases horig with a | ⟨-, b⟩
    · rcases hcase with ⟨hb, hs3⟩ | ⟨_, hn, hnone, _⟩
      · have := (hl.1 _ _ _ hb).1
        obtain ⟨ed', k1, k2, k3⟩ := (flattener_t.ends_eq_some s e _ _).1 this
        rw [a] at k1
        injection k1 with k1
        subst k1
        rw [hq1] at k2
        rw [hq2] at k3
        exact ⟨k2, k3⟩
      · rw [flattener_t.edge_eq_ok, hnone] at a
        exact absurd a (by simp)
    · rw [b]; exact ⟨rfl, rfl⟩
  have hwind : ed0.wind = s.wind_of e ∧ ed0.flags = s.flags_of e := by
    rcases horig with a | ⟨a, b⟩
    · exact ⟨(flattener_t.wind_of_eq s e ed0 a).symm, (flattener_t.flags_of_eq s e ed0 a).symm⟩
    · unfold flattener_t.wind_of flattener_t.flags_of
      rw [a, List.getElem?_eq_none (le_refl _), b]
      exact ⟨rfl, rfl⟩
  have hnew : s.edges[e]? = none → ed0 = edge_t.new
      (if vq'.precedes vthis' then raw.reverse else raw)
      (if vq'.precedes vthis' then q else this) (if vq'.precedes vthis' then this else q) := by
    intro hn
    rcases horig with a | ⟨-, b⟩
    · rw [flattener_t.edge_eq_ok, hn] at a
      exact absurd a (by simp)
    · exact b
  refine ⟨e, s1, ed1, h, he1, r2.trans hends.1, r3.trans hends.2, ?_, ?_, ?_, ?_, ?_, ?_⟩
  · rw [r4, hwind.1]
  · intro hn
    rw [r1, hnew hn]
    rfl
  · rw [r8, hwind.2]
  · rw [r9, hwind.2]
  · intro st sd hst' hsd
    obtain ⟨sd', hsd', f1, f2, f3⟩ := r11 st hst'
    have : sd' = sd := by
      rcases hsd' with ⟨a, b⟩ | ⟨-, b⟩
      · subst a
        rcases horig with c | ⟨c, -⟩
        · rw [hsd] at c
          injection c with c
          rw [b, c]
        · rw [flattener_t.edge_eq_ok, c, List.getElem?_eq_none (le_refl _)] at hsd
          exact absurd hsd (by simp)
      · rw [hsd] at b
        injection b with b
        exact b.symm
    subst this
    exact ⟨f1, f3, f2⟩
  · intro hn
    refine ⟨(r10 hn).trans hwind.2, fun hnone => ?_⟩
    rw [r10 hn, hnew hnone]
    exact ⟨rfl, rfl, rfl⟩
/-- C24 in the session `inherit_example`: from the vertex `(3,3)` to the
vertex `(0,0)`, which precedes it, with the checked and kept edge
`(0,0)-(3,0)` of sense true as state.  The call creates the edge 2 from
`(0,0)` to `(3,3)` with the raw line reversed and the winding negated; it is
checked and kept and its sense is false. -/
theorem C24_goes_to_flags_witness :
    ∃ vthis vq e s1 ed1, flattener_t.inherit_example.linked ∧
      flattener_t.inherit_example.verts[2]? = some vthis ∧
      flattener_t.inherit_example.verts[0]? = some vq ∧
      vthis.canonical ∧ vq.canonical ∧ (0 : Nat) ≠ 2 ∧
      (∀ st, some 0 = some st → ∃ sd, flattener_t.inherit_example.edge st = .ok sd) ∧
      flattener_t.inherit_example.goes_to 2 0 ⟨3, 3, 0, 0⟩ ⟨1, 0⟩ (some 0)
        = .ok (some e, s1) ∧ s1.edge e = .ok ed1 ∧
      ed1.from_ = (if vq.precedes vthis then 0 else 2) ∧
      ed1.to_ = (if vq.precedes vthis then 2 else 0) ∧
      ed1.wind = (flattener_t.inherit_example.wind_of e).add
        (if vq.precedes vthis then wind_t.neg ⟨1, 0⟩ else ⟨1, 0⟩) ∧
      (flattener_t.inherit_example.edges[e]? = none →
        ed1.raw = if vq.precedes vthis then line_t.reverse ⟨3, 3, 0, 0⟩ else ⟨3, 3, 0, 0⟩) ∧
      ed1.flags.active = (flattener_t.inherit_example.flags_of e).active ∧
      ed1.flags.todo = (flattener_t.inherit_example.flags_of e).todo ∧
      (∀ st sd, some 0 = some st → flattener_t.inherit_example.edge st = .ok sd →
        ed1.flags.checked = sd.flags.checked ∧ ed1.flags.keep = sd.flags.keep ∧
        ed1.flags.sense = xor sd.flags.sense (decide (vq.precedes vthis))) ∧
      e = 2 ∧ ed1.raw = ⟨0, 0, 3, 3⟩ ∧ ed1.from_ = 0 ∧ ed1.to_ = 2 ∧ ed1.wind = ⟨-1, 0⟩ ∧
      ed1.flags = { checked := true, keep := true, sense := false } := by
  obtain ⟨S, hS⟩ : ∃ S, S = (((flattener_t.new FLATTEN_A).add_edges
      [(0, 0, 3, 0, false), (3, 0, 3, 3, false)]).toOption).getD (flattener_t.new FLATTEN_A) :=
    ⟨_, rfl⟩
  have e1 : (flattener_t.new FLATTEN_A).add_edges [(0, 0, 3, 0, false), (3, 0, 3, 3, false)]
      = .ok S := by rw [hS]; rfl
  have e2 : flattener_t.inherit_example = S.set_edge 0
      { raw := ⟨0, 0, 3, 0⟩, from_ := 0, to_ := 1, wind := ⟨1, 0⟩,
        flags := { checked := true, sense := true, keep := true } } := by rw [hS]; rfl
  have e3 : S.edge 0 = .ok { raw := ⟨0, 0, 3, 0⟩, from_ := 0, to_ := 1, wind := ⟨1, 0⟩ } := by
    rw [hS]; rfl
  have hl : flattener_t.inherit_example.linked := by
    rw [e2]
    exact (flattener_t.linked_set_edge S 0
      { raw := ⟨0, 0, 3, 0⟩, from_ := 0, to_ := 1, wind := ⟨1, 0⟩ }
      { raw := ⟨0, 0, 3, 0⟩, from_ := 0, to_ := 1, wind := ⟨1, 0⟩,
        flags := { checked := true, sense := true, keep := true } }
      (flattener_t.add_edges_fresh e1).1.2 e3 rfl rfl).1
  have hst : ∀ st, some 0 = some st → ∃ sd, flattener_t.inherit_example.edge st = .ok sd := by
    intro st h
    injection h with h
    subst h
    exact ⟨_, rfl⟩
  obtain ⟨e, s1, ed1, h1, h2, h3, h4, h5, h6, h7, h8, h9, -⟩ :=
    C24_goes_to_flags flattener_t.inherit_example 2 0 ⟨3, 3, 0, 0⟩ ⟨1, 0⟩ (some 0)
      { above := [(1, 1)], x := ⟨3, 0, 1⟩, y := ⟨3, 0, 1⟩ }
      { below := [(1, 0)], x := ⟨0, 0, 1⟩, y := ⟨0, 0, 1⟩ }
      hl rfl rfl (by decide) (by decide) (by decide) hst
  obtain ⟨T, hT⟩ : ∃ T, T = ((flattener_t.inherit_example.goes_to 2 0 ⟨3, 3, 0, 0⟩ ⟨1, 0⟩
      (some 0)).toOption).getD (none, flattener_t.inherit_example) := ⟨_, rfl⟩
  have k : flattener_t.inherit_example.goes_to 2 0 ⟨3, 3, 0, 0⟩ ⟨1, 0⟩ (some 0)
      = .ok (some 2, T.2) := by rw [hT]; rfl
  have k3 : T.2.edge 2 = .ok (⟨⟨0, 0, 3, 3⟩, 0, 2, ⟨-1, 0⟩, ⟨0, 0⟩,
      ⟨true, true, false, false, false, false⟩, none, none⟩ : edge_t) := by rw [hT]; rfl
  rw [h1] at k
  injection k with k
  injection k with k1 k2
  injection k1 with k1
  subst k1
  rw [← k2, h2] at k3
  injection k3 with k3
  refine ⟨_, _, 2, s1, ed1, hl, rfl, rfl, by decide, by decide, by decide, hst, h1, h2, h3, h4,
    h5, h6, h7, h8, h9, rfl, ?_, ?_, ?_, ?_, ?_⟩ <;> rw [k3]

/-! ## The rounds of the comparison of two fractions -/

namespace rat_t

theorem double_range (d n : Int) (h0 : 0 ≤ n) (h1 : n < d) :
    0 ≤ double d n ∧ double d n < d := by
  unfold double
  split <;> constructor <;> omega

/-- The digit that the loop computes is the digit of the binary expansion. -/
theorem digit_eq_floor (d : Int) (k : Nat) :
    ∀ n : Int, 0 ≤ n → n < d → digit d k n = decide ((2 ^ (k + 1) * n / d) % 2 = 1) := by
  induction k with
  | zero =>
    intro n h0 h1
    unfold digit
    have hd : 0 < d := by omega
    simp only [zero_add, pow_one, decide_eq_decide]
    have e : 2 * n = n + n := by ring
    rw [e]
    constructor
    · intro h
      have : (n + n) / d = 1 := by
        have e2 : n + n = (n + n - d) + 1 * d := by ring
        rw [e2, Int.add_mul_ediv_right _ _ hd.ne',
          Int.ediv_eq_zero_of_lt (by omega) (by omega)]
        rfl
      rw [this]; rfl
    · intro h
      by_contra hc
      have : (n + n) / d = 0 := Int.ediv_eq_zero_of_lt (by omega) (by omega)
      rw [this] at h
      simp at h
  | succ k ih =>
    intro n h0 h1
    have hd : 0 < d := by omega
    unfold digit
    rw [ih (double d n) (double_range d n h0 h1).1 (double_range d n h0 h1).2]
    simp only [decide_eq_decide]
    unfold double
    split
    · have e : 2 ^ (k + 1 + 1) * n = 2 ^ (k + 1) * (n + n - d) + 2 ^ (k + 1) * d := by ring
      rw [e, Int.add_mul_ediv_right _ _ hd.ne']
      have : (2 : Int) ^ (k + 1) = 2 * 2 ^ k := by ring
      rw [this]
      omega
    · have e : 2 ^ (k + 1 + 1) * n = 2 ^ (k + 1) * (n + n) := by ring
      rw [e]

/-- While the digits agree the loop goes on. -/
theorem lt_loop_equal_digits (d od : Int) (fuel : Nat) :
    ∀ na nb : Int, (∀ j, j < fuel → digit d j na = digit od j nb) →
      lt_loop fuel na d nb od = .error .fuel := by
  induction fuel with
  | zero => intro na nb _; rfl
  | succ f ih =>
    intro na nb h
    have h0 := h 0 (Nat.succ_pos f)
    unfold digit at h0
    have hs : ∀ j, j < f → digit d j (double d na) = digit od j (double od nb) := by
      intro j hj
      have := h (j + 1) (Nat.succ_lt_succ hj)
      unfold digit at this
      exact this
    have := ih (double d na) (double od nb) hs
    unfold lt_loop
    simp only []
    rw [if_neg (by simp [h0])]
    by_cases ha : na + na ≥ d
    · have hb : nb + nb ≥ od := by simpa [ha] using h0
      unfold double at this
      rw [if_pos ha, if_pos hb] at this
      rw [if_pos (by simp [ha])]
      exact this
    · have hb : ¬ nb + nb ≥ od := by simpa [ha] using h0
      unfold double at this
      rw [if_neg ha, if_neg hb] at this
      rw [if_neg (by simp [ha])]
      exact this

/-- The loop returns in the round of the first digit in which the fractions
differ, with the digit of the right operand. -/
theorem lt_loop_first_digit (d od : Int) (k : Nat) :
    ∀ na nb : Int, (∀ j, j < k → digit d j na = digit od j nb) →
      digit d k na ≠ digit od k nb →
      ∀ fuel, k < fuel → lt_loop fuel na d nb od = .ok (digit od k nb) := by
  induction k with
  | zero =>
    intro na nb _ hk fuel hf
    obtain ⟨f, rfl⟩ : ∃ f, fuel = f + 1 := ⟨fuel - 1, by omega⟩
    unfold digit at hk ⊢
    unfold lt_loop
    simp only []
    rw [if_pos hk]
  | succ k ih =>
    intro na nb h hk fuel hf
    obtain ⟨f, rfl⟩ : ∃ f, fuel = f + 1 := ⟨fuel - 1, by omega⟩
    have h0 := h 0 (Nat.succ_pos k)
    unfold digit at h0
    have hs : ∀ j, j < k → digit d j (double d na) = digit od j (double od nb) := by
      intro j hj
      have := h (j + 1) (Nat.succ_lt_succ hj)
      unfold digit at this
      exact this
    have hk' : digit d k (double d na) ≠ digit od k (double od nb) := by
      unfold digit at hk
      exact hk
    have := ih (double d na) (double od nb) hs hk' f (by omega)
    have hgoal : digit od (k + 1) nb = digit od k (double od nb) := by
      conv_lhs => unfold digit
    rw [hgoal]
    unfold lt_loop
    simp only []
    rw [if_neg (by simp [h0])]
    by_cases ha : na + na ≥ d
    · have hb : nb + nb ≥ od := by simpa [ha] using h0
      unfold double at this
      rw [if_pos ha, if_pos hb] at this
      rw [if_pos (by simp [ha])]
      unfold double
      rw [if_pos hb]
      exact this
    · have hb : ¬ nb + nb ≥ od := by simpa [ha] using h0
      unfold double at this
      rw [if_neg ha, if_neg hb] at this
      rw [if_neg (by simp [ha])]
      unfold double
      rw [if_neg hb]
      exact this

theorem wrap64_eq (z : Int) (h0 : -2 ^ 63 ≤ z) (h1 : z < 2 ^ 63) : wrap64 z = z := by
  unfold wrap64
  omega

/-- With denominators up to `2^62` no value of the loop leaves `int64`. -/
theorem lt_loop64_eq (d od : Int) (hd : d ≤ 2 ^ 62) (hod : od ≤ 2 ^ 62) (fuel : Nat) :
    ∀ na nb : Int, 0 ≤ na → na < d → 0 ≤ nb → nb < od →
      lt_loop64 fuel na d nb od = lt_loop fuel na d nb od := by
  induction fuel with
  | zero => intro na nb _ _ _ _; rfl
  | succ f ih =>
    intro na nb a0 a1 b0 b1
    unfold lt_loop64 lt_loop
    simp only []
    have e1 : wrap64 (na + na) = na + na := wrap64_eq _ (by omega) (by omega)
    have e2 : wrap64 (nb + nb) = nb + nb := wrap64_eq _ (by omega) (by omega)
    rw [e1, e2]
    have e3 : wrap64 (na + na - d) = na + na - d := wrap64_eq _ (by omega) (by omega)
    have e4 : wrap64 (nb + nb - od) = nb + nb - od := wrap64_eq _ (by omega) (by omega)
    rw [e3, e4]
    split
    · rfl
    · rename_i hab
      have hab' : decide (na + na ≥ d) = decide (nb + nb ≥ od) := by
        by_contra hc; exact hab hc
      split
      · rename_i ha
        have ha' : na + na ≥ d := by simpa using ha
        have hb' : nb + nb ≥ od := by
          rw [hab'] at ha; simpa using ha
        exact ih _ _ (by omega) (by omega) (by omega) (by omega)
      · rename_i ha
        have ha' : ¬ na + na ≥ d := by simpa using ha
        have hb' : ¬ nb + nb ≥ od := by
          rw [hab'] at ha; simpa using ha
        exact ih _ _ (by omega) (by omega) (by omega) (by omega)

end rat_t
/-- For canonical `a` and `b` the exact loop returns in the round `k` of the
first binary digit in which the fractions differ, `2^k < a.d * b.d`, with the
order of the values; with denominators up to `2^62` the loop on `int64`
computes the same. -/
theorem lt_first_digit (a b : rat_t) (ha : a.canonical) (hb : b.canonical) :
    a.lt b = .ok (decide (a.val < b.val)) ∧
    (a.i = b.i → a.d ≠ b.d →
      a.n * b.d ≠ b.n * a.d ∧
      ∃ k : Nat, 2 ^ k < a.d * b.d ∧
        (∀ j, j < k → rat_t.digit a.d j a.n = rat_t.digit b.d j b.n) ∧
        rat_t.digit a.d k a.n ≠ rat_t.digit b.d k b.n ∧
        (∀ fuel, fuel ≤ k → rat_t.lt_loop fuel a.n a.d b.n b.d = .error .fuel) ∧
        (∀ fuel, k < fuel →
          rat_t.lt_loop fuel a.n a.d b.n b.d = .ok (rat_t.digit b.d k b.n)) ∧
        rat_t.digit b.d k b.n = decide (a.val < b.val)) ∧
    (∀ k, rat_t.digit a.d k a.n = decide ((2 ^ (k + 1) * a.n / a.d) % 2 = 1)) ∧
    (a.d ≤ 2 ^ 62 → b.d ≤ 2 ^ 62 → ∀ fuel,
      rat_t.lt_loop64 fuel a.n a.d b.n b.d = rat_t.lt_loop fuel a.n a.d b.n b.d) := by
  have had : 0 < a.d := by have := ha.1; omega
  have hbd : 0 < b.d := by have := hb.1; omega
  refine ⟨rat_t.lt_eq a b ha hb, ?_, fun k => rat_t.digit_eq_floor a.d k a.n ha.2.1 ha.2.2.1,
    fun h1 h2 fuel => rat_t.lt_loop64_eq a.d b.d h1 h2 fuel a.n b.n ha.2.1 ha.2.2.1 hb.2.1
      hb.2.2.1⟩
  intro hi hd
  have hne : a.n * b.d ≠ b.n * a.d := by
    intro h
    apply hd
    have hq : (a.n : ℚ) / a.d = (b.n : ℚ) / b.d := by
      rw [div_eq_div_iff (by exact_mod_cast had.ne') (by exact_mod_cast hbd.ne')]
      exact_mod_cast h
    exact (rat_t.frac_inj a.n a.d b.n b.d had hbd ha.2.2.2.1 hb.2.2.2.1 hq).2
  refine ⟨hne, ?_⟩
  have h1 : (1 : Int) ≤ |a.n * b.d - b.n * a.d| := Int.one_le_abs (sub_ne_zero.mpr hne)
  -- the loop returns for every fuel `f` with `a.d * b.d ≤ 2 ^ f`
  have hret : ∀ f : Nat, a.d * b.d ≤ 2 ^ f →
      rat_t.lt_loop f a.n a.d b.n b.d = .ok (decide (a.n * b.d < b.n * a.d)) := by
    intro f hf
    apply rat_t.lt_loop_eq f a.d b.d had hbd a.n b.n ha.2.1 ha.2.2.1 hb.2.1 hb.2.2.1 hne
    calc a.d * b.d ≤ 1 * 2 ^ f := by rw [one_mul]; exact hf
      _ ≤ |a.n * b.d - b.n * a.d| * 2 ^ f := Int.mul_le_mul_of_nonneg_right h1 (by positivity)
  -- so some digit differs
  have hex : ∃ k, rat_t.digit a.d k a.n ≠ rat_t.digit b.d k b.n := by
    by_contra hc
    push_neg at hc
    have hpos : 0 < a.d * b.d := Int.mul_pos had hbd
    have h2 : a.d * b.d ≤ 2 ^ (a.d * b.d).toNat := by
      have h3 : ((a.d * b.d).toNat : Int) = a.d * b.d := Int.toNat_of_nonneg hpos.le
      have h4 : (a.d * b.d).toNat < 2 ^ (a.d * b.d).toNat := Nat.lt_two_pow _
      have h5 : ((a.d * b.d).toNat : Int) < ((2 ^ (a.d * b.d).toNat : Nat) : Int) := by
        exact_mod_cast h4
      rw [h3] at h5
      push_cast at h5
      exact h5.le
    have e1 := hret _ h2
    rw [rat_t.lt_loop_equal_digits a.d b.d _ a.n b.n (fun j _ => hc j)] at e1
    exact absurd e1 (by simp)
  classical
  let k := Nat.find hex
  have hk : rat_t.digit a.d k a.n ≠ rat_t.digit b.d k b.n := Nat.find_spec hex
  have hlt : ∀ j, j < k → rat_t.digit a.d j a.n = rat_t.digit b.d j b.n := by
    intro j hj
    by_contra hc
    exact Nat.find_min hex hj hc
  have hfirst := rat_t.lt_loop_first_digit a.d b.d k a.n b.n hlt hk
  have hbound : (2 : Int) ^ k < a.d * b.d := by
    by_contra hc
    push_neg at hc
    have e1 := hret k hc
    rw [rat_t.lt_loop_equal_digits a.d b.d k a.n b.n hlt] at e1
    exact absurd e1 (by simp)
  refine ⟨k, hbound, hlt, hk, ?_, hfirst, ?_⟩
  · intro fuel hf
    exact rat_t.lt_loop_equal_digits a.d b.d fuel a.n b.n (fun j hj => hlt j (by omega))
  · have hpos : 0 < a.d * b.d := Int.mul_pos had hbd
    have h2 : a.d * b.d ≤ 2 ^ (k + 1 + (a.d * b.d).toNat) := by
      have h3 : ((a.d * b.d).toNat : Int) = a.d * b.d := Int.toNat_of_nonneg hpos.le
      have h4 : (a.d * b.d).toNat < 2 ^ (a.d * b.d).toNat := Nat.lt_two_pow _
      have h5 : ((a.d * b.d).toNat : Int) < ((2 ^ (a.d * b.d).toNat : Nat) : Int) := by
        exact_mod_cast h4
      rw [h3] at h5
      push_cast at h5
      have h6 : (2 : Int) ^ (a.d * b.d).toNat ≤ 2 ^ (k + 1 + (a.d * b.d).toNat) :=
        pow_le_pow_right₀ (by norm_num) (by omega)
      omega
    have e1 := hret _ h2
    rw [hfirst _ (by omega)] at e1
    injection e1 with e1
    rw [e1]
    simp only [decide_eq_decide]
    exact (rat_t.val_lt_iff a b had hbd hi).symm
/-! ## The trimming of the pins in `snap_to_pins` -/

namespace flattener_t

theorem trim_zero (s : flattener_t) (it pin_a pin_b : pin_t) (l : List pin_t) :
    trim s it 0 pin_a pin_b l = .ok (0, pin_a, pin_b, l) := by
  rw [trim.eq_1]; rfl

theorem trim_one (s : flattener_t) (it pin_a pin_b : pin_t) (l : List pin_t) :
    trim s it 1 pin_a pin_b l = .ok (1, pin_a, pin_b, l) := by
  cases l with
  | nil => rw [trim.eq_2]; rfl
  | cons front tail => rw [trim.eq_3]; rfl

/-- One round of the trimming loop with two or more pins on the list: the loop
ends when `a` is zero or `(a < 0)` is the `above` flag of the new pin, and
drops the last pin otherwise. -/
theorem trim_two (s : flattener_t) (it pin_a pin_b : pin_t) (l : List pin_t) (n : Nat) :
    trim s it (n + 2) pin_a pin_b l =
      match s.pin_side it pin_b pin_a with
      | .error x => .error x
      | .ok a =>
        if a = 0 ∨ decide (a < 0) = it.above then .ok (n + 2, pin_a, pin_b, l)
        else trim s it (n + 1) pin_b (l.headD pin_b) l.tail := by
  unfold pin_side
  cases l with
  | nil =>
    rw [trim.eq_2]
    simp only [ge_iff_le, Nat.le_add_left, if_true, bind, Except.bind, pure, Except.pure]
    cases deref_pos it.v with
    | error x => rfl
    | ok i =>
      dsimp only
      cases s.vertex i with
      | error x => rfl
      | ok vi =>
        dsimp only
        cases deref_pos pin_b.v with
        | error x => rfl
        | ok b =>
          dsimp only
          cases s.vertex b with
          | error x => rfl
          | ok vb =>
            dsimp only
            cases deref_pos pin_a.v with
            | error x => rfl
            | ok a =>
              dsimp only
              cases s.vertex a with
              | error x => rfl
              | ok va =>
                dsimp only
                split <;> rfl
  | cons front tail =>
    rw [trim.eq_3]
    simp only [ge_iff_le, Nat.le_add_left, if_true, bind, Except.bind, pure, Except.pure]
    cases deref_pos it.v with
    | error x => rfl
    | ok i =>
      dsimp only
      cases s.vertex i with
      | error x => rfl
      | ok vi =>
        dsimp only
        cases deref_pos pin_b.v with
        | error x => rfl
        | ok b =>
          dsimp only
          cases s.vertex b with
          | error x => rfl
          | ok vb =>
            dsimp only
            cases deref_pos pin_a.v with
            | error x => rfl
            | ok a =>
              dsimp only
              cases s.vertex a with
              | error x => rfl
              | ok va =>
                dsimp only
                split <;> rfl

end flattener_t
namespace flattener_t

theorem getLast?_cons_ne {α : Type} (x : α) (l : List α) (h : l ≠ []) :
    (x :: l).getLast? = l.getLast? := by
  cases l with
  | nil => exact absurd rfl h
  | cons y l => exact List.getLast?_cons_cons

theorem getLast?_append_ne {α : Type} (pre l : List α) (h : l ≠ []) :
    (pre ++ l).getLast? = l.getLast? := by
  induction pre with
  | nil => rfl
  | cons x pre ih =>
    rw [List.cons_append, getLast?_cons_ne x (pre ++ l) (by simp [h]), ih]

theorem trimmed_tail (s : flattener_t) (z : pin_t) (l : List pin_t)
    (h : s.trimmed (z :: l)) : s.trimmed l := by
  cases l with
  | nil => trivial
  | cons y l =>
    cases l with
    | nil => trivial
    | cons x rest => exact h.2

theorem trimmed_suffix (s : flattener_t) {l1 l2 : List pin_t} (h : l1 <:+ l2)
    (ht : s.trimmed l2) : s.trimmed l1 := by
  induction l2 with
  | nil =>
    rw [List.suffix_nil] at h
    rw [h]; trivial
  | cons z l2 ih =>
    rcases List.suffix_cons_iff.1 h with h | h
    · rw [h]; exact ht
    · exact ih h (trimmed_tail s z l2 ht)

/-- The pins on the list after the trimming loop for the pin `it`: an end of
the list before, not empty unless that was, and with two or more pins left the
last two pass the test with `it`. -/
theorem trim_stack {s : flattener_t} {it : pin_t} (n : Nat) :
    ∀ {pin_a pin_b : pin_t} {l : List pin_t} {n1 : Nat} {a1 b1 : pin_t} {l1 : List pin_t},
      (l.length + 2 = n ∨ (n < 2 ∧ l = [])) →
      trim s it n pin_a pin_b l = .ok (n1, a1, b1, l1) →
      (l1.length + 2 = n1 ∨ (n1 < 2 ∧ l1 = [])) ∧
      pin_stack n1 a1 b1 l1 <:+ pin_stack n pin_a pin_b l ∧ (1 ≤ n → 1 ≤ n1) ∧
      (2 ≤ n1 → s.pin_stays it b1 a1) := by
  induction n with
  | zero =>
    intro pa pb l n1 a1 b1 l1 hw h
    rw [trim_zero] at h
    injection h with h
    injection h with e1 e2
    injection e2 with e2 e3
    injection e3 with e3 e4
    subst e1; subst e2; subst e3; subst e4
    exact ⟨hw, List.suffix_refl _, fun h => h, fun h => absurd h (by omega)⟩
  | succ m ih =>
    intro pa pb l n1 a1 b1 l1 hw h
    cases m with
    | zero =>
      rw [trim_one] at h
      injection h with h
      injection h with e1 e2
      injection e2 with e2 e3
      injection e3 with e3 e4
      subst e1; subst e2; subst e3; subst e4
      exact ⟨hw, List.suffix_refl _, fun h => h, fun h => absurd h (by omega)⟩
    | succ k =>
      rw [trim_two] at h
      cases hside : s.pin_side it pb pa with
      | error x => rw [hside] at h; exact absurd h (by simp)
      | ok a =>
        rw [hside] at h
        dsimp only at h
        split at h
        · rename_i hc
          injection h with h
          injection h with e1 e2
          injection e2 with e2 e3
          injection e3 with e3 e4
          subst e1; subst e2; subst e3; subst e4
          exact ⟨hw, List.suffix_refl _, fun _ => by omega, fun _ => ⟨a, hside, hc⟩⟩
        · have hlen : l.length = k := by
            rcases hw with hw | ⟨hw, -⟩
            · omega
            · omega
          have hw' : (l.tail.length + 2 = k + 1 ∨ (k + 1 < 2 ∧ l.tail = [])) := by
            cases l with
            | nil =>
              right
              simp at hlen
              subst hlen
              exact ⟨by omega, rfl⟩
            | cons front tail =>
              left
              simp at hlen ⊢
              omega
          obtain ⟨r1, r2, r3, r4⟩ := ih hw' h
          refine ⟨r1, ?_, fun _ => r3 (by omega), r4⟩
          refine List.IsSuffix.trans r2 ?_
          cases l with
          | nil =>
            simp at hlen
            subst hlen
            exact ⟨[pa], rfl⟩
          | cons front tail =>
            simp at hlen
            subst hlen
            exact ⟨[pa], rfl⟩

theorem pin_stack_push (n : Nat) (it a b : pin_t) (l : List pin_t)
    (hw : l.length + 2 = n ∨ (n < 2 ∧ l = [])) :
    pin_stack (n + 1) it a (if n ≥ 2 then b :: l else l) = it :: pin_stack n a b l := by
  cases n with
  | zero => rfl
  | succ m =>
    cases m with
    | zero =>
      rcases hw with hw | ⟨-, hw⟩
      · omega
      · subst hw; rfl
    | succ k =>
      have : k + 1 + 1 ≥ 2 := by omega
      rw [if_pos this]
      rfl

theorem pin_stack_length (n : Nat) (a b : pin_t) (l : List pin_t)
    (hw : l.length + 2 = n ∨ (n < 2 ∧ l = [])) : (pin_stack n a b l).length = n := by
  cases n with
  | zero => rfl
  | succ m =>
    cases m with
    | zero => rfl
    | succ k =>
      rcases hw with hw | ⟨hw, -⟩
      · simp [pin_stack]; omega
      · omega

/-- The first loop of `snap_to_pins`: the pins on the list at the end are
pins of the list before and of `pins` in their order, every one of them that
has two pins before it passed the test on them, the last pin of `pins` is the
last one on the list, and the first pin on the list stays. -/
theorem collect_pins_stack {s : flattener_t} (pins : List pin_t) :
    ∀ {n : Nat} {pin_a pin_b : pin_t} {l : List pin_t} {n1 : Nat} {a1 b1 : pin_t}
      {l1 : List pin_t}, (l.length + 2 = n ∨ (n < 2 ∧ l = [])) →
      s.trimmed (pin_stack n pin_a pin_b l) →
      collect_pins s pins n pin_a pin_b l = .ok (n1, a1, b1, l1) →
      (l1.length + 2 = n1 ∨ (n1 < 2 ∧ l1 = [])) ∧
      s.trimmed (pin_stack n1 a1 b1 l1) ∧
      (pin_stack n1 a1 b1 l1).reverse.Sublist ((pin_stack n pin_a pin_b l).reverse ++ pins) ∧
      (pins ≠ [] → (pin_stack n1 a1 b1 l1).head? = pins.getLast?) ∧
      (1 ≤ n → (pin_stack n1 a1 b1 l1).getLast? = (pin_stack n pin_a pin_b l).getLast?) := by
  induction pins with
  | nil =>
    intro n pa pb l n1 a1 b1 l1 hw ht h
    unfold collect_pins at h
    have e := pure_ok h
    injection e with e1 e2
    injection e2 with e2 e3
    injection e3 with e3 e4
    subst e1; subst e2; subst e3; subst e4
    exact ⟨hw, ht, by simp, fun hc => absurd rfl hc, fun _ => rfl⟩
  | cons it rest ih =>
    intro n pa pb l n1 a1 b1 l1 hw ht h
    unfold collect_pins at h
    obtain ⟨⟨m, a2, b2, l2⟩, h1, h⟩ := bind_ok h
    dsimp only at h
    obtain ⟨w2, suf, pos, stays⟩ := trim_stack n hw h1
    have hpush := pin_stack_push m it a2 b2 l2 w2
    have hw3 : ((if m ≥ 2 then b2 :: l2 else l2).length + 2 = m + 1 ∨
        (m + 1 < 2 ∧ (if m ≥ 2 then b2 :: l2 else l2) = [])) := by
      rcases w2 with w | ⟨w, wl⟩
      · left
        rw [if_pos (by omega)]
        simp; omega
      · rw [if_neg (by omega), wl]
        by_cases hm : m = 0
        · right; exact ⟨by omega, rfl⟩
        · left; simp; omega
    have ht3 : s.trimmed (pin_stack (m + 1) it a2 (if m ≥ 2 then b2 :: l2 else l2)) := by
      rw [hpush]
      have t2 := trimmed_suffix s suf ht
      cases m with
      | zero => trivial
      | succ m' =>
        cases m' with
        | zero => trivial
        | succ k => exact ⟨stays (by omega), t2⟩
    obtain ⟨r1, r2, r3, r4, r5⟩ := ih hw3 ht3 h
    rw [hpush] at r3 r5
    refine ⟨r1, r2, ?_, fun _ => ?_, fun hn => ?_⟩
    · refine r3.trans ?_
      rw [List.reverse_cons, List.append_assoc, List.singleton_append]
      obtain ⟨pre, hpre⟩ := suf
      rw [← hpre, List.reverse_append]
      exact List.Sublist.append_right (List.sublist_append_left _ _) _
    · by_cases hr : rest = []
      · subst hr
        unfold collect_pins at h
        have e := pure_ok h
        injection e with e1 e2
        injection e2 with e2 e3
        injection e3 with e3 e4
        subst e1; subst e2; subst e3; subst e4
        rw [hpush]
        rfl
      · rw [r4 hr, getLast?_cons_ne it rest hr]
    · rw [r5 (by omega)]
      have hne : pin_stack m a2 b2 l2 ≠ [] := by
        intro hc
        have := pin_stack_length m a2 b2 l2 w2
        rw [hc] at this
        simp at this
        have := pos hn
        omega
      obtain ⟨pre, hpre⟩ := suf
      rw [getLast?_cons_ne it _ hne, ← hpre, getLast?_append_ne pre _ hne]

end flattener_t
/-- C26, as stated, fails.  In `pins_example 2 2 true` the edge `(0,0)-(4,4)`
has the pins `(0,0)`, `(2,2)`, `(4,4)`.  When `(4,4)` arrives, two pins are on
the list and `a = 0`; the loop ends at once and the pin `(2,2)` stays, the list
ends with all three pins, and `snap_to_pins` routes the edge through the
collinear pin: `(0,0)-(2,2)` and `(2,2)-(4,4)`.  In `pins_example 2 1 true`
the middle pin is `(2,1)`, `a = -1` and `(a < 0)` is the `above` flag of the
arriving pin; again the loop ends at once and the pin stays. -/
theorem C26_pin_trimming_counterexample :
    (∃ s s1, flattener_t.pins_example 2 2 true = .ok s ∧
      s.pin_side ⟨some 1, true⟩ ⟨some 0, true⟩ ⟨some 2, true⟩ = .ok 0 ∧
      s.trim ⟨some 1, true⟩ 2 ⟨some 2, true⟩ ⟨some 0, true⟩ []
        = .ok (2, ⟨some 2, true⟩, ⟨some 0, true⟩, []) ∧
      s.collect_pins [⟨some 0, true⟩, ⟨some 2, true⟩, ⟨some 1, true⟩] 0 {} {} []
        = .ok (3, ⟨some 1, true⟩, ⟨some 2, true⟩, [⟨some 0, true⟩]) ∧
      (s.pos 0, s.pos 2, s.pos 1) =
        (some (rat_t.ofInt 0, rat_t.ofInt 0), some (rat_t.ofInt 2, rat_t.ofInt 2),
          some (rat_t.ofInt 4, rat_t.ofInt 4)) ∧
      s.snap_to_pins 0 = .ok s1 ∧ s.below 0 2 = none ∧ s.below 2 1 = none ∧
      s1.below 0 2 = some 2 ∧ s1.below 2 1 = some 1) ∧
    (∃ s, flattener_t.pins_example 2 1 true = .ok s ∧
      s.pin_side ⟨some 1, true⟩ ⟨some 0, true⟩ ⟨some 2, true⟩ = .ok (-1) ∧
      s.trim ⟨some 1, true⟩ 2 ⟨some 2, true⟩ ⟨some 0, true⟩ []
        = .ok (2, ⟨some 2, true⟩, ⟨some 0, true⟩, []) ∧
      s.collect_pins [⟨some 0, true⟩, ⟨some 2, true⟩, ⟨some 1, true⟩] 0 {} {} []
        = .ok (3, ⟨some 1, true⟩, ⟨some 2, true⟩, [⟨some 0, true⟩])) :=
  ⟨⟨_, _, rfl, rfl, rfl, rfl, rfl, rfl, rfl, rfl, rfl, rfl⟩, ⟨_, rfl, rfl, rfl, rfl⟩⟩

/-- C26, amended: pin-list trimming in `snap_to_pins`.  As each new pin `it`
arrives, while two or more pins are on the list and
`a = side(it, line(pin_b, pin_a))` for the last two pins is not zero and
`(a < 0)` differs from the `above` flag of `it`, the last pin is dropped; the
loop ends when fewer than two pins are left, when `a = 0` or when `(a < 0)` is
the flag; then `it` is put on the list.  Hence, when the first loop of
`snap_to_pins` returns, the list holds pins of the pin set in their order
(the last one first), among them the first and the last pin of the set, and
every pin on it that has two pins before it has `a = 0` or `(a < 0)` equal to
its flag on those two. -/
theorem C26_pin_trimming (s : flattener_t) :
    (∀ (it pin_a pin_b : pin_t) (l : List pin_t) (n : Nat),
      s.trim it (n + 2) pin_a pin_b l =
        match s.pin_side it pin_b pin_a with
        | .error x => .error x
        | .ok a =>
          if a = 0 ∨ decide (a < 0) = it.above then .ok (n + 2, pin_a, pin_b, l)
          else s.trim it (n + 1) pin_b (l.headD pin_b) l.tail) ∧
    (∀ (it pin_a pin_b : pin_t) (l : List pin_t),
      s.trim it 1 pin_a pin_b l = .ok (1, pin_a, pin_b, l) ∧
      s.trim it 0 pin_a pin_b l = .ok (0, pin_a, pin_b, l)) ∧
    (∀ (it : pin_t) (rest : List pin_t) (n : Nat) (pin_a pin_b : pin_t) (l : List pin_t),
      s.collect_pins (it :: rest) n pin_a pin_b l =
        match s.trim it n pin_a pin_b l with
        | .error x => .error x
        | .ok (n1, a1, b1, l1) =>
          s.collect_pins rest (n1 + 1) it a1 (if n1 ≥ 2 then b1 :: l1 else l1)) ∧
    (∀ (pins : List pin_t) (n1 : Nat) (a1 b1 : pin_t) (l1 : List pin_t),
      s.collect_pins pins 0 {} {} [] = .ok (n1, a1, b1, l1) →
      (flattener_t.pin_stack n1 a1 b1 l1).length = n1 ∧
      s.trimmed (flattener_t.pin_stack n1 a1 b1 l1) ∧
      (flattener_t.pin_stack n1 a1 b1 l1).reverse.Sublist pins ∧
      (flattener_t.pin_stack n1 a1 b1 l1).head? = pins.getLast? ∧
      (flattener_t.pin_stack n1 a1 b1 l1).getLast? = pins.head?) := by
  refine ⟨fun it pa pb l n => flattener_t.trim_two s it pa pb l n,
    fun it pa pb l => ⟨flattener_t.trim_one s it pa pb l, flattener_t.trim_zero s it pa pb l⟩,
    ?_, ?_⟩
  · intro it rest n pa pb l
    conv_lhs => unfold flattener_t.collect_pins
    cases s.trim it n pa pb l with
    | error x => rfl
    | ok r =>
      obtain ⟨n1, a1, b1, l1⟩ := r
      rfl
  · intro pins n1 a1 b1 l1 h
    have hw0 : (([] : List pin_t).length + 2 = 0 ∨ (0 < 2 ∧ ([] : List pin_t) = [])) :=
      Or.inr ⟨by omega, rfl⟩
    cases pins with
    | nil =>
      unfold flattener_t.collect_pins at h
      have e := pure_ok h
      injection e with e1 e2
      injection e2 with e2 e3
      injection e3 with e3 e4
      subst e1; subst e2; subst e3; subst e4
      exact ⟨rfl, trivial, by simp [flattener_t.pin_stack], rfl, rfl⟩
    | cons p0 rest =>
      obtain ⟨r1, r2, r3, r4, -⟩ := @flattener_t.collect_pins_stack s (p0 :: rest) 0 {} {} []
        n1 a1 b1 l1 hw0 trivial h
      refine ⟨flattener_t.pin_stack_length n1 a1 b1 l1 r1, r2, by simpa [flattener_t.pin_stack] using r3,
        r4 (by simp), ?_⟩
      -- the first pin stays
      unfold flattener_t.collect_pins at h
      obtain ⟨⟨m, a2, b2, l2⟩, h1, h⟩ := bind_ok h
      rw [flattener_t.trim_zero] at h1
      injection h1 with h1
      injection h1 with e1 e2
      injection e2 with e2 e3
      injection e3 with e3 e4
      subst e1; subst e2; subst e3; subst e4
      dsimp only at h
      obtain ⟨-, -, -, -, k⟩ := @flattener_t.collect_pins_stack s rest 1 p0 {} [] n1 a1 b1 l1
        (Or.inr ⟨by omega, rfl⟩) trivial (by simpa using h)
      rw [k (le_refl _)]
      rfl
/-- C26, amended, in `pins_example 2 1 false`: the pins are `(0,0)`, `(2,1)`
and `(4,4)`, the last one with the flag false.  When `(4,4)` arrives, `a = -1`
and `(a < 0)` differs from its flag, so the pin `(2,1)` is dropped; the list
ends with `(4,4)` and `(0,0)`. -/
theorem C26_pin_trimming_witness :
    ∃ s, flattener_t.pins_example 2 1 false = .ok s ∧
      s.collect_pins [⟨some 0, true⟩, ⟨some 2, true⟩, ⟨some 1, false⟩] 0 {} {} []
        = .ok (2, ⟨some 1, false⟩, ⟨some 0, true⟩, []) ∧
      ((flattener_t.pin_stack 2 ⟨some 1, false⟩ ⟨some 0, true⟩ []).length = 2 ∧
        s.trimmed (flattener_t.pin_stack 2 ⟨some 1, false⟩ ⟨some 0, true⟩ []) ∧
        (flattener_t.pin_stack 2 ⟨some 1, false⟩ ⟨some 0, true⟩ []).reverse.Sublist
          [⟨some 0, true⟩, ⟨some 2, true⟩, ⟨some 1, false⟩] ∧
        (flattener_t.pin_stack 2 ⟨some 1, false⟩ ⟨some 0, true⟩ []).head?
          = [(⟨some 0, true⟩ : pin_t), ⟨some 2, true⟩, ⟨some 1, false⟩].getLast? ∧
        (flattener_t.pin_stack 2 ⟨some 1, false⟩ ⟨some 0, true⟩ []).getLast?
          = [(⟨some 0, true⟩ : pin_t), ⟨some 2, true⟩, ⟨some 1, false⟩].head?) ∧
      s.pin_side ⟨some 1, false⟩ ⟨some 0, true⟩ ⟨some 2, true⟩ = .ok (-1) ∧
      s.trim ⟨some 1, false⟩ 2 ⟨some 2, true⟩ ⟨some 0, true⟩ []
        = .ok (1, ⟨some 0, true⟩, ⟨some 0, true⟩, []) := by
  obtain ⟨S, hS⟩ : ∃ S, S = ((flattener_t.pins_example 2 1 false).toOption).getD
      (flattener_t.new FLATTEN_A) := ⟨_, rfl⟩
  have e1 : flattener_t.pins_example 2 1 false = .ok S := by rw [hS]; rfl
  have e2 : S.collect_pins [⟨some 0, true⟩, ⟨some 2, true⟩, ⟨some 1, false⟩] 0 {} {} []
      = .ok (2, ⟨some 1, false⟩, ⟨some 0, true⟩, []) := by rw [hS]; rfl
  exact ⟨S, e1, e2,
    (C26_pin_trimming S).2.2.2 [⟨some 0, true⟩, ⟨some 2, true⟩, ⟨some 1, false⟩] 2
      ⟨some 1, false⟩ ⟨some 0, true⟩ [] e2,
    by rw [hS]; rfl, by rw [hS]; rfl⟩

/-! ## The cases of `sort_active_edge` -/

theorem overlaps_val (a b c d : rat_t) (ha : a.canonical) (hb : b.canonical)
    (hc : c.canonical) (hd : d.canonical) :
    (do (← range_t.new a b).overlaps (← range_t.new c d))
      = .ok (decide (range_overlap a.val b.val c.val d.val)) := by
  obtain ⟨r1, e1, l1, l2, l3, l4⟩ := range_t.new_eq a b ha hb
  obtain ⟨r2, e2, m1, m2, m3, m4⟩ := range_t.new_eq c d hc hd
  simp only [e1, e2, bind, Except.bind]
  rw [range_t.overlaps_eq r1 r2 l1 l2 m1 m2, l3, l4, m3, m4]
  rfl

/-- `sort_active_edge` on two different live edges whose ends are at canonical
positions, case by case. -/
theorem sort_active_edge_eq (s : flattener_t) (p q : Nat) (pe qe : edge_t)
    (pf pt qf qt : vertex_t) (hne : p ≠ q)
    (hp : s.edge p = .ok pe) (hq : s.edge q = .ok qe)
    (hpf : s.verts[pe.from_]? = some pf) (hpt : s.verts[pe.to_]? = some pt)
    (hqf : s.verts[qe.from_]? = some qf) (hqt : s.verts[qe.to_]? = some qt)
    (cpf : pf.canonical) (cpt : pt.canonical) (cqf : qf.canonical) (cqt : qt.canonical) :
    sort_active_edge s p q =
      if pe.equals qe then .error .assertion_t
      else if ¬ range_overlap pf.x.val pt.x.val qf.x.val qt.x.val then
        .ok (decide (pf.x.val < qf.x.val))
      else if ¬ range_overlap pf.y.val pt.y.val qf.y.val qt.y.val then .error .assertion_t
      else if ¬ (pe.flags.active = true ∨ qe.flags.active = true) then .error .assertion_t
      else if pe.from_ = qe.to_ then .error .assertion_t
      else if pe.to_ = qe.from_ then .error .assertion_t
      else if pe.from_ = qe.from_ then
        if sgn (pe.raw.det qt.x.val qt.y.val) ≠ 0 then edgesort_t qe pe
        else if pt.precedes qt then .error (.action_t q p (some pe.to_) .split)
        else .error (.action_t p q (some qe.to_) .split)
      else if pe.to_ = qe.to_ then
        if sgn (pe.raw.det qf.x.val qf.y.val) ≠ 0 then edgesort_t pe qe
        else if pf.precedes qf then .error (.action_t p q (some qe.from_) .split)
        else .error (.action_t q p (some pe.from_) .split)
      else general_case p q pe.from_ qe.from_ (decide (pf.precedes qf))
        (sgn (qe.raw.det pf.x.val pf.y.val)) (sgn (qe.raw.det pt.x.val pt.y.val))
        (sgn (pe.raw.det qf.x.val qf.y.val)) (sgn (pe.raw.det qt.x.val qt.y.val)) := by
  have vpf := (flattener_t.vertex_eq_ok s _ _).2 hpf
  have vpt := (flattener_t.vertex_eq_ok s _ _).2 hpt
  have vqf := (flattener_t.vertex_eq_ok s _ _).2 hqf
  have vqt := (flattener_t.vertex_eq_ok s _ _).2 hqt
  obtain ⟨r1, e1, l1, l2, l3, l4⟩ := range_t.new_eq pf.x pt.x cpf.1 cpt.1
  obtain ⟨r2, e2, m1, m2, m3, m4⟩ := range_t.new_eq qf.x qt.x cqf.1 cqt.1
  obtain ⟨r3, e3, n1, n2, n3, n4⟩ := range_t.new_eq pf.y pt.y cpf.2 cpt.2
  obtain ⟨r4, e4, o1, o2, o3, o4⟩ := range_t.new_eq qf.y qt.y cqf.2 cqt.2
  have ox : r1.overlaps r2 = .ok (decide (range_overlap pf.x.val pt.x.val qf.x.val qt.x.val)) := by
    rw [range_t.overlaps_eq r1 r2 l1 l2 m1 m2, l3, l4, m3, m4]; rfl
  have oy : r3.overlaps r4 = .ok (decide (range_overlap pf.y.val pt.y.val qf.y.val qt.y.val)) := by
    rw [range_t.overlaps_eq r3 r4 n1 n2 o1 o2, n3, n4, o3, o4]; rfl
  unfold sort_active_edge
  rw [if_neg hne]
  simp only [hp, hq, vpf, vpt, vqf, vqt, bind, Except.bind, e1, e2, e3, e4, ox, oy,
    side_eq pf qe cpf.1 cpf.2, side_eq pt qe cpt.1 cpt.2, side_eq qf pe cqf.1 cqf.2,
    side_eq qt pe cqt.1 cqt.2, vertexsort_t_eq pt qt cpt cqt, vertexsort_t_eq pf qf cpf cqf,
    rat_t.lt_eq pf.x qf.x cpf.1 cqf.1]
  by_cases h0 : pe.equals qe = true
  · simp [h0, assert_]
  rw [if_neg h0]
  have h0' : pe.equals qe = false := by simpa using h0
  simp only [h0', Bool.not_false, assert_, if_true]
  by_cases hx : range_overlap pf.x.val pt.x.val qf.x.val qt.x.val
  swap
  · simp [hx]
  rw [if_neg (not_not.2 hx)]
  simp only [hx, decide_True, Bool.not_true, Bool.false_eq_true, if_false]
  by_cases hy : range_overlap pf.y.val pt.y.val qf.y.val qt.y.val
  swap
  · simp [hy]
  rw [if_neg (not_not.2 hy)]
  simp only [hy, decide_True, if_true]
  by_cases ha : pe.flags.active = true ∨ qe.flags.active = true
  swap
  · have : (pe.flags.active || qe.flags.active) = false := by
      rcases hpa : pe.flags.active <;> rcases hqa : qe.flags.active <;> simp_all
    simp [ha, this]
  rw [if_neg (not_not.2 ha)]
  have ha' : (pe.flags.active || qe.flags.active) = true := by
    rcases ha with h | h <;> simp [h]
  simp only [ha', if_true]
  by_cases h1 : pe.from_ = qe.to_
  · simp [h1]
  rw [if_neg h1]
  have h1' : (pe.from_ != qe.to_) = true := by simpa using h1
  simp only [h1', if_true]
  by_cases h2 : pe.to_ = qe.from_
  · simp [h2]
  rw [if_neg h2]
  have h2' : (pe.to_ != qe.from_) = true := by simpa using h2
  simp only [h2', if_true]
  by_cases h3 : pe.from_ = qe.from_
  · rw [if_pos h3, if_pos h3]
    by_cases hz : sgn (pe.raw.det qt.x.val qt.y.val) ≠ 0
    · rw [if_pos hz, if_pos hz]
    · rw [if_neg hz, if_neg hz]
      by_cases hv : pt.precedes qt <;> simp [hv, throw, throwThe, MonadExceptOf.throw]
  rw [if_neg h3, if_neg h3]
  by_cases h4 : pe.to_ = qe.to_
  · rw [if_pos h4, if_pos h4]
    by_cases hz : sgn (pe.raw.det qf.x.val qf.y.val) ≠ 0
    · rw [if_pos hz, if_pos hz]
    · rw [if_neg hz, if_neg hz]
      by_cases hv : pf.precedes qf <;> simp [hv, throw, throwThe, MonadExceptOf.throw]
  rw [if_neg h4, if_neg h4]
  unfold general_case
  by_cases hab : sgn (qe.raw.det pf.x.val pf.y.val) * sgn (qe.raw.det pt.x.val pt.y.val) > 0
  · rw [if_pos hab, if_pos hab]; rfl
  rw [if_neg hab, if_neg hab]
  by_cases hcd : sgn (pe.raw.det qf.x.val qf.y.val) * sgn (pe.raw.det qt.x.val qt.y.val) > 0
  · rw [if_pos hcd, if_pos hcd]; rfl
  rw [if_neg hcd, if_neg hcd]
  by_cases hz : sgn (qe.raw.det pf.x.val pf.y.val) = 0 ∧ sgn (qe.raw.det pt.x.val pt.y.val) = 0
  · rw [if_pos hz, if_pos hz]
    by_cases hw : sgn (pe.raw.det qf.x.val qf.y.val) = 0 ∧ sgn (pe.raw.det qt.x.val qt.y.val) = 0
    · rw [if_pos hw]
      by_cases hv : pf.precedes qf <;> simp [hw, hv, throw, throwThe, MonadExceptOf.throw]
    · rw [if_neg hw]
      have : (sgn (pe.raw.det qf.x.val qf.y.val) == 0 && sgn (pe.raw.det qt.x.val qt.y.val) == 0)
          = false := by
        by_contra hc
        apply hw
        simpa using hc
      simp [this]
  · rw [if_neg hz, if_neg hz]; rfl
/-- Three points of a line, two of them different: a line through the two
passes through the third. -/
theorem line_t.det_of_two (l m : line_t) (hl : ¬ (l.x0 = l.x1 ∧ l.y0 = l.y1))
    (x1 y1 x2 y2 x3 y3 : ℚ) (h1 : l.det x1 y1 = 0) (h2 : l.det x2 y2 = 0)
    (h3 : l.det x3 y3 = 0) (hne : ¬ (x1 = x2 ∧ y1 = y2))
    (k1 : m.det x1 y1 = 0) (k2 : m.det x2 y2 = 0) : m.det x3 y3 = 0 := by
  obtain ⟨t1, a1, b1⟩ := (line_t.det_eq_zero_iff l hl _ _).1 h1
  obtain ⟨t2, a2, b2⟩ := (line_t.det_eq_zero_iff l hl _ _).1 h2
  obtain ⟨t3, a3, b3⟩ := (line_t.det_eq_zero_iff l hl _ _).1 h3
  have ht : t1 - t2 ≠ 0 := by
    intro e
    have : t1 = t2 := by linarith
    apply hne
    rw [a1, a2, b1, b2, this]
    exact ⟨rfl, rfl⟩
  unfold line_t.det at k1 k2 ⊢
  rw [a1, b1] at k1
  rw [a2, b2] at k2
  rw [a3, b3]
  have hB : (t1 - t2) * (((l.y1 : ℚ) - l.y0) * (m.x0 - m.x1) - (l.x1 - l.x0) * (m.y0 - m.y1))
      = 0 := by linear_combination k1 - k2
  have hB' := (mul_eq_zero.1 hB).resolve_left ht
  linear_combination k1 + (t3 - t1) * hB'

/-- C21: the general case of the active-edge comparator.  For two different
live edges `p` and `q` whose ends are at canonical positions, that overlap in
`x` and in `y`, one of them active, with the four ends four different vertices,
and with `a = side(p.from, q)`, `b = side(p.to, q)`, `c = side(q.from, p)`,
`d = side(q.to, p)` (the four calls return the signs of the determinants):
if `a * b > 0` the comparator returns `a < 0`; otherwise if `c * d > 0` it
returns `c > 0`; otherwise if `a = b = 0`, and `c = d = 0` as the code asserts,
it throws a split event for `(p, q, q.from)` when `p.from` precedes `q.from` and
for `(q, p, p.from)` when it does not, so that the first edge is the one that
starts earlier and the vertex is the later of the two `from`; otherwise it
throws an intersect event for `(p, q)`.  The assertion `c = d = 0` holds when
the ends of both edges lie on their raw lines, the ends of `p` are at different
positions and the raw line of `q` has two different ends.  The comparator
returns an order only if `a * b > 0` or `c * d > 0`: for two edges that
properly cross (`a * b < 0` and `c * d < 0`) it throws the intersect event. -/
theorem C21_comparator_general_case (s : flattener_t) (p q : Nat) (pe qe : edge_t)
    (pf pt qf qt : vertex_t) (hne : p ≠ q)
    (hp : s.edge p = .ok pe) (hq : s.edge q = .ok qe)
    (hpf : s.verts[pe.from_]? = some pf) (hpt : s.verts[pe.to_]? = some pt)
    (hqf : s.verts[qe.from_]? = some qf) (hqt : s.verts[qe.to_]? = some qt)
    (cpf : pf.canonical) (cpt : pt.canonical) (cqf : qf.canonical) (cqt : qt.canonical)
    (hx : range_overlap pf.x.val pt.x.val qf.x.val qt.x.val)
    (hy : range_overlap pf.y.val pt.y.val qf.y.val qt.y.val)
    (hact : pe.flags.active = true ∨ qe.flags.active = true)
    (h1 : pe.from_ ≠ qe.to_) (h2 : pe.to_ ≠ qe.from_)
    (h3 : pe.from_ ≠ qe.from_) (h4 : pe.to_ ≠ qe.to_) :
    ∃ a b c d : Int,
      (side pf qe = .ok a ∧ side pt qe = .ok b ∧ side qf pe = .ok c ∧ side qt pe = .ok d) ∧
      (a = sgn (qe.raw.det pf.x.val pf.y.val) ∧ b = sgn (qe.raw.det pt.x.val pt.y.val) ∧
        c = sgn (pe.raw.det qf.x.val qf.y.val) ∧ d = sgn (pe.raw.det qt.x.val qt.y.val)) ∧
      (a * b > 0 → sort_active_edge s p q = .ok (decide (a < 0))) ∧
      (¬ a * b > 0 → c * d > 0 → sort_active_edge s p q = .ok (decide (c > 0))) ∧
      (¬ a * b > 0 → ¬ c * d > 0 → a = 0 → b = 0 → c = 0 → d = 0 →
        (pf.precedes qf →
          sort_active_edge s p q = .error (.action_t p q (some qe.from_) .split)) ∧
        (¬ pf.precedes qf →
          sort_active_edge s p q = .error (.action_t q p (some pe.from_) .split) ∧
          (qf.precedes pf ∨ (pf.x = qf.x ∧ pf.y = qf.y)))) ∧
      (¬ a * b > 0 → ¬ c * d > 0 → ¬ (a = 0 ∧ b = 0) →
        sort_active_edge s p q = .error (.action_t p q none .intersect)) ∧
      (pe.raw.det pf.x.val pf.y.val = 0 → pe.raw.det pt.x.val pt.y.val = 0 →
        qe.raw.det qf.x.val qf.y.val = 0 → qe.raw.det qt.x.val qt.y.val = 0 →
        ¬ (pf.x.val = pt.x.val ∧ pf.y.val = pt.y.val) →
        ¬ (qe.raw.x0 = qe.raw.x1 ∧ qe.raw.y0 = qe.raw.y1) →
        a = 0 → b = 0 → c = 0 ∧ d = 0) ∧
      (∀ r, sort_active_edge s p q = .ok r → a * b > 0 ∨ c * d > 0) ∧
      (a * b < 0 → c * d < 0 →
        sort_active_edge s p q = .error (.action_t p q none .intersect)) := by
  have key := sort_active_edge_eq s p q pe qe pf pt qf qt hne hp hq hpf hpt hqf hqt
    cpf cpt cqf cqt
  have h0 : ¬ (pe.equals qe = true) := by
    unfold edge_t.equals
    simp
    intro e
    exact absurd e.symm h3
  rw [if_neg h0, if_neg (not_not.2 hx), if_neg (not_not.2 hy), if_neg (not_not.2 hact),
    if_neg h1, if_neg h2, if_neg h3, if_neg h4] at key
  refine ⟨_, _, _, _, ⟨side_eq pf qe cpf.1 cpf.2, side_eq pt qe cpt.1 cpt.2,
    side_eq qf pe cqf.1 cqf.2, side_eq qt pe cqt.1 cqt.2⟩, ⟨rfl, rfl, rfl, rfl⟩,
    ?_, ?_, ?_, ?_, ?_, ?_, ?_⟩
  · intro hab
    rw [key]; unfold general_case; rw [if_pos hab]
  · intro hab hcd
    rw [key]; unfold general_case; rw [if_neg hab, if_pos hcd]
  · intro hab hcd ha hb hc hd
    constructor
    · intro hv
      rw [key]; unfold general_case
      rw [if_neg hab, if_neg hcd, if_pos ⟨ha, hb⟩, if_pos ⟨hc, hd⟩]
      simp [hv]
    · intro hv
      constructor
      · rw [key]; unfold general_case
        rw [if_neg hab, if_neg hcd, if_pos ⟨ha, hb⟩, if_pos ⟨hc, hd⟩]
        simp [hv]
      · by_cases hw : qf.precedes pf
        · exact Or.inl hw
        · exact Or.inr (vertex_t.eq_of_not_precedes pf qf cpf cqf hv hw)
  · intro hab hcd hz
    rw [key]; unfold general_case
    rw [if_neg hab, if_neg hcd, if_neg hz]
  · intro e1 e2 e3 e4 hpp hqq ha hb
    rw [sgn_eq_zero] at ha hb ⊢
    rw [sgn_eq_zero]
    exact ⟨line_t.det_of_two qe.raw pe.raw hqq _ _ _ _ _ _ ha hb e3 hpp e1 e2,
      line_t.det_of_two qe.raw pe.raw hqq _ _ _ _ _ _ ha hb e4 hpp e1 e2⟩
  · intro r hr
    rw [key] at hr
    unfold general_case at hr
    by_contra hc
    push_neg at hc
    rw [if_neg (not_lt.2 hc.1), if_neg (not_lt.2 hc.2)] at hr
    split at hr
    · split at hr
      · split at hr <;> exact absurd hr (by simp)
      · exact absurd hr (by simp)
    · exact absurd hr (by simp)
  · intro hab hcd
    rw [key]; unfold general_case
    have hz : ¬ (sgn (qe.raw.det pf.x.val pf.y.val) = 0 ∧
        sgn (qe.raw.det pt.x.val pt.y.val) = 0) := by
      rintro ⟨z1, -⟩
      rw [z1] at hab
      simp at hab
    rw [if_neg (by omega), if_neg (by omega), if_neg hz]
/-- C21 in `cross_example`: the active edge `(0,0)-(4,4)` against the edge
`(4,0)-(0,4)`.  The ends of each edge lie on the two sides of the other
(`a * b < 0`, `c * d < 0`), and the comparator throws the intersect event for
the two edges. -/
theorem C21_comparator_general_case_witness :
    ∃ (pe qe : edge_t) (pf pt qf qt : vertex_t), (0 : Nat) ≠ 1 ∧
      flattener_t.cross_example.edge 0 = .ok pe ∧ flattener_t.cross_example.edge 1 = .ok qe ∧
      flattener_t.cross_example.verts[pe.from_]? = some pf ∧
      flattener_t.cross_example.verts[pe.to_]? = some pt ∧
      flattener_t.cross_example.verts[qe.from_]? = some qf ∧
      flattener_t.cross_example.verts[qe.to_]? = some qt ∧
      pf.canonical ∧ pt.canonical ∧ qf.canonical ∧ qt.canonical ∧
      range_overlap pf.x.val pt.x.val qf.x.val qt.x.val ∧
      range_overlap pf.y.val pt.y.val qf.y.val qt.y.val ∧
      (pe.flags.active = true ∨ qe.flags.active = true) ∧
      pe.from_ ≠ qe.to_ ∧ pe.to_ ≠ qe.from_ ∧ pe.from_ ≠ qe.from_ ∧ pe.to_ ≠ qe.to_ ∧
      (∃ a b c d : Int,
        (side pf qe = .ok a ∧ side pt qe = .ok b ∧ side qf pe = .ok c ∧ side qt pe = .ok d) ∧
        (a = sgn (qe.raw.det pf.x.val pf.y.val) ∧ b = sgn (qe.raw.det pt.x.val pt.y.val) ∧
          c = sgn (pe.raw.det qf.x.val qf.y.val) ∧ d = sgn (pe.raw.det qt.x.val qt.y.val)) ∧
        (a * b > 0 → sort_active_edge flattener_t.cross_example 0 1 = .ok (decide (a < 0))) ∧
        (¬ a * b > 0 → c * d > 0 →
          sort_active_edge flattener_t.cross_example 0 1 = .ok (decide (c > 0))) ∧
        (¬ a * b > 0 → ¬ c * d > 0 → a = 0 → b = 0 → c = 0 → d = 0 →
          (pf.precedes qf → sort_active_edge flattener_t.cross_example 0 1
            = .error (.action_t 0 1 (some qe.from_) .split)) ∧
          (¬ pf.precedes qf →
            sort_active_edge flattener_t.cross_example 0 1
              = .error (.action_t 1 0 (some pe.from_) .split) ∧
            (qf.precedes pf ∨ (pf.x = qf.x ∧ pf.y = qf.y)))) ∧
        (¬ a * b > 0 → ¬ c * d > 0 → ¬ (a = 0 ∧ b = 0) →
          sort_active_edge flattener_t.cross_example 0 1
            = .error (.action_t 0 1 none .intersect)) ∧
        (pe.raw.det pf.x.val pf.y.val = 0 → pe.raw.det pt.x.val pt.y.val = 0 →
          qe.raw.det qf.x.val qf.y.val = 0 → qe.raw.det qt.x.val qt.y.val = 0 →
          ¬ (pf.x.val = pt.x.val ∧ pf.y.val = pt.y.val) →
          ¬ (qe.raw.x0 = qe.raw.x1 ∧ qe.raw.y0 = qe.raw.y1) →
          a = 0 → b = 0 → c = 0 ∧ d = 0) ∧
        (∀ r, sort_active_edge flattener_t.cross_example 0 1 = .ok r →
          a * b > 0 ∨ c * d > 0) ∧
        (a * b < 0 → c * d < 0 →
          sort_active_edge flattener_t.cross_example 0 1
            = .error (.action_t 0 1 none .intersect))) ∧
      (side pf qe, side pt qe, side qf pe, side qt pe) = (.ok (-1), .ok 1, .ok 1, .ok (-1)) ∧
      sort_active_edge flattener_t.cross_example 0 1 = .error (.action_t 0 1 none .intersect) := by
  have ex : range_overlap (rat_t.val ⟨0, 0, 1⟩) (rat_t.val ⟨4, 0, 1⟩) (rat_t.val ⟨4, 0, 1⟩)
      (rat_t.val ⟨0, 0, 1⟩) := by
    unfold range_overlap rat_t.val
    norm_num
  have ey : range_overlap (rat_t.val ⟨0, 0, 1⟩) (rat_t.val ⟨4, 0, 1⟩) (rat_t.val ⟨0, 0, 1⟩)
      (rat_t.val ⟨4, 0, 1⟩) := by
    unfold range_overlap rat_t.val
    norm_num
  exact ⟨_, _, _, _, _, _, by decide, rfl, rfl, rfl, rfl, rfl, rfl, by decide, by decide,
    by decide, by decide, ex, ey, Or.inl rfl, by decide, by decide, by decide, by decide,
    C21_comparator_general_case flattener_t.cross_example 0 1 _ _ _ _ _ _ (by decide) rfl rfl
      rfl rfl rfl rfl (by decide) (by decide) (by decide) (by decide) ex ey (Or.inl rfl)
      (by decide) (by decide) (by decide) (by decide),
    by rfl, by rfl⟩

/-! ## The edges that `split` produces -/

namespace flattener_t

theorem same_lines_refl (s : flattener_t) : s.same_lines s := ⟨rfl, rfl, fun _ => rfl⟩

theorem same_lines_trans {s s1 s2 : flattener_t} (h : s.same_lines s1) (k : s1.same_lines s2) :
    s.same_lines s2 :=
  ⟨k.1.trans h.1, k.2.1.trans h.2.1, fun e => (k.2.2 e).trans (h.2.2 e)⟩

theorem same_lines_edge {s s1 : flattener_t} (h : s.same_lines s1) {e : Nat} {ed : edge_t}
    (he : s.edge e = .ok ed) :
    ∃ ed1, s1.edge e = .ok ed1 ∧ ed1.raw = ed.raw ∧ ed1.from_ = ed.from_ ∧
      ed1.to_ = ed.to_ ∧ ed1.wind = ed.wind := by
  have := h.2.2 e
  rw [(edge_eq_ok s e ed).1 he] at this
  cases h1 : s1.edges[e]? with
  | none => rw [h1] at this; simp at this
  | some x =>
    cases x with
    | none => rw [h1] at this; simp at this
    | some ed1 =>
      rw [h1] at this
      simp only [Option.map_some', Option.some.injEq, edge_t.line, Prod.mk.injEq] at this
      exact ⟨ed1, (edge_eq_ok s1 e ed1).2 h1, this.1, this.2.1, this.2.2.1, this.2.2.2⟩

theorem same_lines_edge_back {s s1 : flattener_t} (h : s.same_lines s1) {e : Nat} {ed1 : edge_t}
    (he : s1.edge e = .ok ed1) :
    ∃ ed, s.edge e = .ok ed ∧ ed1.raw = ed.raw ∧ ed1.from_ = ed.from_ ∧
      ed1.to_ = ed.to_ ∧ ed1.wind = ed.wind := by
  have := h.2.2 e
  rw [(edge_eq_ok s1 e ed1).1 he] at this
  cases h1 : s.edges[e]? with
  | none => rw [h1] at this; simp at this
  | some x =>
    cases x with
    | none => rw [h1] at this; simp at this
    | some ed =>
      rw [h1] at this
      simp only [Option.map_some', Option.some.injEq, edge_t.line, Prod.mk.injEq] at this
      exact ⟨ed, (edge_eq_ok s e ed).2 h1, this.1, this.2.1, this.2.2.1, this.2.2.2⟩

theorem same_lines_length {s s1 : flattener_t} (h : s.same_lines s1) :
    s1.edges.length = s.edges.length := by
  by_contra hc
  rcases Nat.lt_or_gt_of_ne hc with k | k
  · have := h.2.2 s1.edges.length
    rw [List.getElem?_eq_none (le_refl _), List.getElem?_eq_getElem k] at this
    simp at this
  · have := h.2.2 s.edges.length
    rw [List.getElem?_eq_none (le_refl _), List.getElem?_eq_getElem k] at this
    simp at this

theorem same_lines_set_flags {s : flattener_t} {e : Nat} {ed : edge_t} (fl : flags_t)
    (he : s.edge e = .ok ed) : s.same_lines (s.set_edge e { ed with flags := fl }) := by
  refine ⟨rfl, rfl, fun e' => ?_⟩
  by_cases hc : e' = e
  · subst hc
    rw [(edge_eq_ok _ _ _).1 (edge_set_edge_self s e' ed _ he), (edge_eq_ok _ _ _).1 he]
    rfl
  · rw [edges_set_edge_ne s e e' _ hc]

/-- `push` changes nothing of an edge but its flags. -/
theorem push_lines {s s1 : flattener_t} {r : Option Nat} (h : s.push r = .ok s1) :
    s.same_lines s1 := by
  unfold push at h
  cases r with
  | none => exact absurd h (by simp [throw, throwThe, MonadExceptOf.throw])
  | some e =>
    simp only [] at h
    obtain ⟨ed, hed, h⟩ := bind_ok h
    obtain ⟨dot, hdot, h⟩ := bind_ok h
    obtain ⟨vdot, hvdot, h⟩ := bind_ok h
    obtain ⟨vto, hvto, h⟩ := bind_ok h
    split at h
    · rw [← pure_ok h]; exact same_lines_refl s
    · obtain ⟨c1, -, h⟩ := bind_ok h
      split at h
      · rw [← pure_ok h]; exact same_lines_refl s
      · obtain ⟨u0, -, h⟩ := bind_ok h
        split at h
        · rw [← pure_ok h]; exact same_lines_refl s
        · obtain ⟨vfrom, -, h⟩ := bind_ok h
          obtain ⟨c2, -, h⟩ := bind_ok h
          split at h
          · obtain ⟨u1, -, h⟩ := bind_ok h
            rw [← pure_ok h]; exact same_lines_refl s
          · rw [← pure_ok h]
            exact same_lines_trans (same_lines_set_flags _ hed) ⟨rfl, rfl, fun _ => rfl⟩

end flattener_t
namespace flattener_t

theorem vertexsort_t_congr (p q p1 q1 : vertex_t) (hpx : p1.x = p.x) (hpy : p1.y = p.y)
    (hqx : q1.x = q.x) (hqy : q1.y = q.y) : vertexsort_t p1 q1 = vertexsort_t p q := by
  unfold vertexsort_t
  rw [hpx, hpy, hqx, hqy]

theorem inherit_dot {s s1 : flattener_t} {e : Nat} {state : Option Nat} {flip : Bool}
    (h : s.inherit e state flip = .ok s1) : s1.dot = s.dot := by
  unfold inherit at h
  split at h
  · injection h with h; rw [← h]
  · split at h
    · exact absurd h (by simp)
    · exact absurd h (by simp)
    · injection h with h
      rw [← h]; rfl

theorem inherit_edges {s s1 : flattener_t} {e : Nat} {state : Option Nat} {flip : Bool}
    (h : s.inherit e state flip = .ok s1) (e' : Nat) (hne : e' ≠ e) :
    s1.edges[e']? = s.edges[e']? := by
  unfold inherit at h
  split at h
  · injection h with h; rw [← h]
  · split at h
    · exact absurd h (by simp)
    · exact absurd h (by simp)
    · injection h with h
      rw [← h]
      exact edges_set_edge_ne _ _ _ _ hne

/-- `goes_to` from a vertex to a different vertex that does not precede it: the
edge between the two, found or created, with what is added to it, and what the
call leaves alone. -/
theorem goes_to_forward {s s1 : flattener_t} {this q : Nat} {raw : line_t} {wind : wind_t}
    {state r : Option Nat} {vthis vq : vertex_t} (hl : s.linked)
    (ht : s.verts[this]? = some vthis) (hq : s.verts[q]? = some vq) (hne : q ≠ this)
    (hflip : vertexsort_t vq vthis = .ok false)
    (h : s.goes_to this q raw wind state = .ok (r, s1)) :
    ∃ e ed1, r = some e ∧ s1.linked ∧ s1.below this q = some e ∧ s1.edge e = .ok ed1 ∧
      ed1.from_ = this ∧ ed1.to_ = q ∧
      ((∃ ed0, s.edge e = .ok ed0 ∧ ed0.from_ = this ∧ ed0.to_ = q ∧ ed1.raw = ed0.raw ∧
          ed1.wind = ed0.wind.add wind) ∨
        (s.edges.length ≤ e ∧ ed1.raw = raw ∧ ed1.wind = (⟨0, 0⟩ : wind_t).add wind)) ∧
      (∀ e', e' ≠ e → s1.edges[e']? = s.edges[e']?) ∧
      (∀ u w, ¬ (u = this ∧ w = q) → s1.below u w = s.below u w) ∧
      (∀ u, s1.pos u = s.pos u) ∧ s1.dot = s.dot := by
  obtain ⟨e, s3, ed, -, b3, fb, -, fe, -, hpos, hrest, hed, -, -, -, hgo⟩ :=
    goes_to_eq s this q raw wind state vthis vq false hl ht hq hne hflip
  simp only [Bool.false_eq_true, if_false] at b3 fb hgo
  have h0 := h
  rw [hgo] at h
  have hself := edge_set_edge_self s3 e ed { ed with wind := ed.wind.add wind } hed
  cases h5 : (s3.set_edge e { ed with wind := ed.wind.add wind }).inherit e state false with
  | error x => rw [h5] at h; exact absurd h (by simp)
  | ok s5 =>
    rw [h5] at h
    dsimp only at h
    injection h with h
    injection h with hr hs
    subst hs
    have hv5 : s5.verts = s3.verts := by
      rw [inherit_verts h5]; rfl
    have hg := goes_to_keeps h0
    obtain ⟨vthis', vq', flip, e', ed0, ed1, ht', hq', hflip', hr', he1, horig, r1, r2, r3, r4,
      -⟩ := goes_to_fields h0 hne
    have e1 : vthis' = vthis := by
      have := ht'.symm.trans ht
      injection this
    have e2 : vq' = vq := by
      have := hq'.symm.trans hq
      injection this
    subst e1; subst e2
    rw [hflip] at hflip'
    injection hflip' with hflip'
    subst hflip'
    rw [← hr] at hr'
    injection hr' with hr'
    subst hr'
    simp only [Bool.false_eq_true, if_false] at horig r4
    have hb5 : s5.below this q = some e := by
      rw [below_of_verts _ _ hv5]; exact b3
    have hl5 := linked_of_keeps hg hl
    obtain ⟨ed', k1, k2, k3⟩ := (ends_eq_some s5 e this q).1 (hl5.1 _ _ _ hb5).1
    rw [he1] at k1
    injection k1 with k1
    subst k1
    refine ⟨e, ed1, hr.symm, hl5, hb5, he1, k2, k3, ?_, ?_, ?_, ?_, ?_⟩
    · rcases horig with a | ⟨a, b⟩
      · exact Or.inl ⟨ed0, a, r2.symm.trans k2, r3.symm.trans k3, r1, r4⟩
      · refine Or.inr ⟨by omega, ?_, ?_⟩
        · rw [r1, b]; rfl
        · rw [r4, b]; rfl
    · intro e' hne'
      rw [inherit_edges h5 e' hne', edges_set_edge_ne _ _ _ _ hne', fe e' hne']
    · intro u w huw
      rw [below_of_verts _ _ hv5]
      exact fb u w huw
    · intro u
      have : s5.pos u = s3.pos u := by unfold pos; rw [hv5]
      rw [this]; exact hpos u
    · rw [inherit_dot h5]
      exact hrest.2.2.2.2.1
end flattener_t
namespace flattener_t

/-- One edge that `split` produces for the edge `pd`: an edge of the session,
to whose winding the winding of `pd` is added, or a new edge with the raw line
and the winding of `pd`. -/
theorem split_sub_edge_of {s t1 s1 : flattener_t} {pd : edge_t} {e : Nat} {ed1 ed2 : edge_t}
    (hcase : (∃ ed0, s.edge e = .ok ed0 ∧ ed1.raw = ed0.raw ∧ ed1.wind = ed0.wind.add pd.wind) ∨
      (s.edges.length ≤ e ∧ ed1.raw = pd.raw ∧ ed1.wind = (⟨0, 0⟩ : wind_t).add pd.wind))
    (h1 : t1.edge e = .ok ed1) (k : t1.same_lines s1) (h2 : s1.edge e = .ok ed2) :
    (∃ ed0, s.edge e = .ok ed0 ∧ ed2.raw = ed0.raw ∧ ed2.wind = ed0.wind.add pd.wind) ∨
      (s.edges.length ≤ e ∧ ed2.raw = pd.raw ∧ ed2.wind = (⟨0, 0⟩ : wind_t).add pd.wind) := by
  obtain ⟨ed', a, b, -, -, c⟩ := same_lines_edge k h1
  rw [h2] at a
  injection a with a
  subst a
  rcases hcase with ⟨ed0, x, y, z⟩ | ⟨x, y, z⟩
  · exact Or.inl ⟨ed0, x, b.trans y, c.trans z⟩
  · exact Or.inr ⟨x, b.trans y, c.trans z⟩

end flattener_t
/-- C23, amended: `split` adds the winding and gives new edges the raw line.
In a doubly linked session with canonical positions, let `p` be a live edge
whose `from` precedes its `to`, and let `split(p, v)` return.  Then `p` was
inactive and not on the todo list.  When `v` is an end of `p`, the edge between
`p.from` and `p.to` afterwards is an edge that was there before, with its raw
line and with `p.wind` added to its winding, or a new edge with raw line
`p.raw` and winding `p.wind`.  Otherwise `p.from` precedes `v`, `v` precedes
`p.to`, and the same holds for each of the two different edges from `p.from`
to `v` and from `v` to `p.to`. -/
theorem C23_split_sub_edges (s s1 : flattener_t) (p v : Nat) (pd : edge_t) (vf vt : vertex_t)
    (hl : s.linked) (hc : s.canon) (hp : s.edge p = .ok pd)
    (hvf : s.verts[pd.from_]? = some vf) (hvt : s.verts[pd.to_]? = some vt)
    (hord : vf.precedes vt) (h : s.split p v = .ok s1) :
    (pd.flags.active = false ∧ pd.flags.todo = false) ∧
    ((v = pd.from_ ∨ v = pd.to_) →
      ∃ e ed1, s1.below pd.from_ pd.to_ = some e ∧ s1.edge e = .ok ed1 ∧
        ed1.from_ = pd.from_ ∧ ed1.to_ = pd.to_ ∧
        ((∃ ed0, s.edge e = .ok ed0 ∧ ed1.raw = ed0.raw ∧ ed1.wind = ed0.wind.add pd.wind) ∨
          (s.edges.length ≤ e ∧ ed1.raw = pd.raw ∧
            ed1.wind = (⟨0, 0⟩ : wind_t).add pd.wind))) ∧
    (¬ (v = pd.from_ ∨ v = pd.to_) →
      ∃ vv e1 e2 ed1 ed2, s.verts[v]? = some vv ∧ vf.precedes vv ∧ vv.precedes vt ∧
        e1 ≠ e2 ∧ s1.below pd.from_ v = some e1 ∧ s1.below v pd.to_ = some e2 ∧
        s1.edge e1 = .ok ed1 ∧ s1.edge e2 = .ok ed2 ∧
        ed1.from_ = pd.from_ ∧ ed1.to_ = v ∧ ed2.from_ = v ∧ ed2.to_ = pd.to_ ∧
        ((∃ ed0, s.edge e1 = .ok ed0 ∧ ed1.raw = ed0.raw ∧ ed1.wind = ed0.wind.add pd.wind) ∨
          (s.edges.length ≤ e1 ∧ ed1.raw = pd.raw ∧
            ed1.wind = (⟨0, 0⟩ : wind_t).add pd.wind)) ∧
        ((∃ ed0, s.edge e2 = .ok ed0 ∧ ed2.raw = ed0.raw ∧ ed2.wind = ed0.wind.add pd.wind) ∨
          (s.edges.length ≤ e2 ∧ ed2.raw = pd.raw ∧
            ed2.wind = (⟨0, 0⟩ : wind_t).add pd.wind))) := by
  have cvf := hc _ _ hvf
  have cvt := hc _ _ hvt
  unfold flattener_t.split at h
  obtain ⟨pe, hpe, h⟩ := bind_ok h
  rw [hp] at hpe
  injection hpe with hpe
  subst hpe
  obtain ⟨u0, ha, h⟩ := bind_ok h
  obtain ⟨u1, htd, h⟩ := bind_ok h
  have ha' : pd.flags.active = false := by simpa using assert_ok ha
  have htd' : pd.flags.todo = false := by simpa using assert_ok htd
  refine ⟨⟨ha', htd'⟩, ?_, ?_⟩
  · intro hv
    rw [if_pos hv] at h
    obtain ⟨⟨r, t1⟩, hg, h⟩ := bind_ok h
    dsimp only at h
    have hne : pd.to_ ≠ pd.from_ := by
      intro e
      rw [e, hvf] at hvt
      injection hvt with hvt
      rw [hvt] at hord
      exact vertex_t.precedes_asymm _ _ hord hord
    have hflip : vertexsort_t vt vf = .ok false := by
      rw [vertexsort_t_eq vt vf cvt cvf]
      simp [vertex_t.precedes_asymm vf vt hord]
    obtain ⟨e, ed1, hr, l1, b1, he1, f1, f2, hcase, -, -, -, -⟩ :=
      flattener_t.goes_to_forward hl hvf hvt hne hflip hg
    have k := flattener_t.push_lines h
    obtain ⟨ed2, a, -, c, d, -⟩ := flattener_t.same_lines_edge k he1
    refine ⟨e, ed2, ?_, a, c.trans f1, d.trans f2, ?_⟩
    · rw [flattener_t.below_of_verts _ _ k.1]; exact b1
    · refine flattener_t.split_sub_edge_of ?_ he1 k a
      rcases hcase with ⟨ed0, x, -, -, y, z⟩ | x
      · exact Or.inl ⟨ed0, x, y, z⟩
      · exact Or.inr x
  · intro hv
    rw [if_neg hv] at h
    push_neg at hv
    obtain ⟨dot, -, h⟩ := bind_ok h
    obtain ⟨vdot, -, h⟩ := bind_ok h
    obtain ⟨vv, hvv, h⟩ := bind_ok h
    obtain ⟨vfrom, hvfrom, h⟩ := bind_ok h
    obtain ⟨vto, hvto, h⟩ := bind_ok h
    have hvv' := (flattener_t.vertex_eq_ok s _ _).1 hvv
    have e1 : vfrom = vf := by
      have := ((flattener_t.vertex_eq_ok s _ _).1 hvfrom).symm.trans hvf
      injection this
    have e2 : vto = vt := by
      have := ((flattener_t.vertex_eq_ok s _ _).1 hvto).symm.trans hvt
      injection this
    subst e1; subst e2
    have cvv := hc _ _ hvv'
    obtain ⟨u2, -, h⟩ := bind_ok h
    obtain ⟨c1, hc1, h⟩ := bind_ok h
    obtain ⟨u3, ha1, h⟩ := bind_ok h
    obtain ⟨c2, hc2, h⟩ := bind_ok h
    obtain ⟨u4, ha2, h⟩ := bind_ok h
    have p1 : vfrom.precedes vv := by
      rw [vertexsort_t_eq vfrom vv cvf cvv] at hc1
      injection hc1 with hc1
      have := assert_ok ha1
      rw [← hc1] at this
      simpa using this
    have p2 : vv.precedes vto := by
      rw [vertexsort_t_eq vv vto cvv cvt] at hc2
      injection hc2 with hc2
      have := assert_ok ha2
      rw [← hc2] at this
      simpa using this
    obtain ⟨⟨r1, t1⟩, hg1, h⟩ := bind_ok h
    dsimp only at h
    obtain ⟨t2, hpush1, h⟩ := bind_ok h
    obtain ⟨pe2, hpe2, h⟩ := bind_ok h
    obtain ⟨⟨r2, t3⟩, hg2, h⟩ := bind_ok h
    dsimp only at h
    -- the first edge
    have hflip1 : vertexsort_t vv vfrom = .ok false := by
      rw [vertexsort_t_eq vv vfrom cvv cvf]
      simp [vertex_t.precedes_asymm vfrom vv p1]
    obtain ⟨e1, ed1, hr1, l1, b1, he1, f1, f2, hcase1, fe1, fb1, hpos1, -⟩ :=
      flattener_t.goes_to_forward hl hvf hvv' hv.1 hflip1 hg1
    have k1 := flattener_t.push_lines hpush1
    have l2 := flattener_t.linked_of_keeps (flattener_t.push_keeps hpush1) l1
    -- the edge `p` is as it was
    have hpe1 : p ≠ e1 := by
      intro e
      subst e
      rcases hcase1 with ⟨ed0, x, -, y, -⟩ | ⟨x, -⟩
      · rw [hp] at x
        injection x with x
        rw [← x] at y
        exact hv.2 y.symm
      · have := (flattener_t.edge_eq_ok s p pd).1 hp
        rw [List.getElem?_eq_none x] at this
        simp at this
    have hp1 : t1.edge p = .ok pd := by
      rw [flattener_t.edge_eq_ok, fe1 p hpe1, ← flattener_t.edge_eq_ok]; exact hp
    obtain ⟨pe2', x1, x2, x3, x4, x5⟩ := flattener_t.same_lines_edge k1 hp1
    rw [hpe2] at x1
    injection x1 with x1
    subst x1
    rw [x2, x4, x5] at hg2
    -- the second edge
    obtain ⟨vv2, y1, y2, y3⟩ := flattener_t.pos_transfer s t1 v vv (hpos1 v) hvv'
    obtain ⟨vt2, z1, z2, z3⟩ := flattener_t.pos_transfer s t1 pd.to_ vto (hpos1 _) hvt
    rw [← k1.1] at y1 z1
    have hflip2 : vertexsort_t vt2 vv2 = .ok false := by
      rw [flattener_t.vertexsort_t_congr vto vv vt2 vv2 z2 z3 y2 y3,
        vertexsort_t_eq vto vv cvt cvv]
      simp [vertex_t.precedes_asymm vv vto p2]
    obtain ⟨e2, ed2, hr2, l3, b3, he2, g1, g2, hcase2, fe2, fb2, -, -⟩ :=
      flattener_t.goes_to_forward l2 y1 z1 (fun e => hv.2 e.symm) hflip2 hg2
    have k3 := flattener_t.push_lines h
    obtain ⟨ed1t2, q1, q2, q3, q4, q5⟩ := flattener_t.same_lines_edge k1 he1
    have hlen1 : s.edges.length ≤ t1.edges.length :=
      (flattener_t.edits_join.goes_to hg1).2.2.2.2.1
    have hlen2 := flattener_t.same_lines_length k1
    have hne12 : e1 ≠ e2 := by
      intro e
      subst e
      rcases hcase2 with ⟨ed0, x, y, -⟩ | ⟨x, -⟩
      · rw [q1] at x
        injection x with x
        rw [← x, q3, f1] at y
        exact hv.1 y.symm
      · have := (flattener_t.edge_eq_ok t2 e1 ed1t2).1 q1
        rw [List.getElem?_eq_none x] at this
        simp at this
    have hcase2' : (∃ ed0, s.edge e2 = .ok ed0 ∧ ed2.raw = ed0.raw ∧
          ed2.wind = ed0.wind.add pd.wind) ∨
        (s.edges.length ≤ e2 ∧ ed2.raw = pd.raw ∧
          ed2.wind = (⟨0, 0⟩ : wind_t).add pd.wind) := by
      rcases hcase2 with ⟨ed0, x, -, -, y, z⟩ | ⟨x, y, z⟩
      · obtain ⟨ed0', w1, w2, -, -, w5⟩ := flattener_t.same_lines_edge_back k1 x
        rw [flattener_t.edge_eq_ok, fe1 e2 (fun e => hne12 e.symm),
          ← flattener_t.edge_eq_ok] at w1
        exact Or.inl ⟨ed0', w1, y.trans w2, by rw [z, w5]⟩
      · exact Or.inr ⟨by omega, y, z⟩
    have he1t3 : t3.edge e1 = .ok ed1t2 := by
      rw [flattener_t.edge_eq_ok, fe2 e1 hne12, ← flattener_t.edge_eq_ok]; exact q1
    obtain ⟨ed1f, r1', r2', r3', r4', r5'⟩ := flattener_t.same_lines_edge k3 he1t3
    obtain ⟨ed2f, s1', s2', s3', s4', s5'⟩ := flattener_t.same_lines_edge k3 he2
    refine ⟨vv, e1, e2, ed1f, ed2f, hvv', p1, p2, hne12, ?_, ?_, r1', s1',
      r3'.trans (q3.trans f1), r4'.trans (q4.trans f2), s3'.trans g1, s4'.trans g2, ?_, ?_⟩
    · rw [flattener_t.below_of_verts _ _ k3.1, fb2 _ _ (fun c => hv.1 c.1.symm),
        flattener_t.below_of_verts _ _ k1.1]
      exact b1
    · rw [flattener_t.below_of_verts _ _ k3.1]; exact b3
    · have c1' : (∃ ed0, s.edge e1 = .ok ed0 ∧ ed1.raw = ed0.raw ∧
            ed1.wind = ed0.wind.add pd.wind) ∨
          (s.edges.length ≤ e1 ∧ ed1.raw = pd.raw ∧
            ed1.wind = (⟨0, 0⟩ : wind_t).add pd.wind) := by
        rcases hcase1 with ⟨ed0, x, -, -, y, z⟩ | x
        · exact Or.inl ⟨ed0, x, y, z⟩
        · exact Or.inr x
      rcases c1' with ⟨ed0, x, y, z⟩ | ⟨x, y, z⟩
      · exact Or.inl ⟨ed0, x, r2'.trans (q2.trans y), r5'.trans (q5.trans z)⟩
      · exact Or.inr ⟨x, r2'.trans (q2.trans y), r5'.trans (q5.trans z)⟩
    · exact flattener_t.split_sub_edge_of hcase2' he2 k3 s1'
/-- C23, counterexample: a sub-edge that existed keeps its own raw line.  In
the session `split_example` the edge 1 with raw line `(0,0)-(0,8)` from vertex
0 to vertex 2 is inactive, not on the todo list and unlinked, and vertex 1 at
`(0,4)` lies between its ends, after the current vertex 0.  `split(1, 1)`
returns, and the sub-edge from vertex 0 to vertex 1 is the edge 0 that was
there before: its winding has grown from `(1,0)` to `(2,0)`, and its raw line
still is `(0,0)-(0,4)`, not the raw line of the edge that was split. -/
theorem C23_split_sub_edges_counterexample :
    ∃ s s1 pd ed, flattener_t.split_example = .ok s ∧ s.edge 1 = .ok pd ∧
      pd.flags.active = false ∧ pd.flags.todo = false ∧
      s.below pd.from_ pd.to_ = none ∧ s.above pd.to_ pd.from_ = none ∧
      s.dot = some 0 ∧ pd.from_ = 0 ∧ pd.to_ = 2 ∧ s.pos 0 = some (⟨0, 0, 1⟩, ⟨0, 0, 1⟩) ∧
      s.pos 1 = some (⟨0, 0, 1⟩, ⟨4, 0, 1⟩) ∧ s.pos 2 = some (⟨0, 0, 1⟩, ⟨8, 0, 1⟩) ∧
      s.split 1 1 = .ok s1 ∧ s1.below pd.from_ 1 = some 0 ∧ s1.edge 0 = .ok ed ∧
      ed.wind = ⟨2, 0⟩ ∧ ed.raw = ⟨0, 0, 0, 4⟩ ∧ pd.raw = ⟨0, 0, 0, 8⟩ ∧ ed.raw ≠ pd.raw := by
  refine ⟨(flattener_t.split_example.toOption).getD (flattener_t.new FLATTEN_A),
    ((flattener_t.split_example >>= fun s => s.split 1 1).toOption).getD
      (flattener_t.new FLATTEN_A),
    (⟨⟨0, 0, 0, 8⟩, 0, 2, ⟨1, 0⟩, ⟨0, 0⟩, ⟨false, false, false, false, false, false⟩,
      none, none⟩ : edge_t),
    (⟨⟨0, 0, 0, 4⟩, 0, 1, ⟨2, 0⟩, ⟨0, 0⟩, ⟨false, false, false, false, false, true⟩,
      none, none⟩ : edge_t),
    rfl, rfl, rfl, rfl, rfl, rfl, rfl, rfl, rfl, rfl, rfl, rfl, rfl, rfl, rfl, rfl, rfl, rfl,
    by decide⟩
/-- C23, witness: the theorem at `split_example`, edge 1 and vertex 1.  The
edge from vertex 0 to vertex 1 is the old edge 0 with winding `(2,0)`, the edge
from vertex 1 to vertex 2 is the new edge 2 with the raw line of edge 1. -/
theorem C23_split_sub_edges_witness :
    ∃ s s1 pd vf vt, flattener_t.split_example = .ok s ∧ s.linked ∧ s.canon ∧
      s.edge 1 = .ok pd ∧ s.verts[pd.from_]? = some vf ∧ s.verts[pd.to_]? = some vt ∧
      vf.precedes vt ∧ s.split 1 1 = .ok s1 ∧
      (pd.flags.active = false ∧ pd.flags.todo = false) ∧
      (¬ (1 = pd.from_ ∨ 1 = pd.to_) →
        ∃ vv e1 e2 ed1 ed2, s.verts[1]? = some vv ∧ vf.precedes vv ∧ vv.precedes vt ∧
          e1 ≠ e2 ∧ s1.below pd.from_ 1 = some e1 ∧ s1.below 1 pd.to_ = some e2 ∧
          s1.edge e1 = .ok ed1 ∧ s1.edge e2 = .ok ed2 ∧
          ed1.from_ = pd.from_ ∧ ed1.to_ = 1 ∧ ed2.from_ = 1 ∧ ed2.to_ = pd.to_ ∧
          ((∃ ed0, s.edge e1 = .ok ed0 ∧ ed1.raw = ed0.raw ∧
              ed1.wind = ed0.wind.add pd.wind) ∨
            (s.edges.length ≤ e1 ∧ ed1.raw = pd.raw ∧
              ed1.wind = (⟨0, 0⟩ : wind_t).add pd.wind)) ∧
          ((∃ ed0, s.edge e2 = .ok ed0 ∧ ed2.raw = ed0.raw ∧
              ed2.wind = ed0.wind.add pd.wind) ∨
            (s.edges.length ≤ e2 ∧ ed2.raw = pd.raw ∧
              ed2.wind = (⟨0, 0⟩ : wind_t).add pd.wind))) ∧
      s1.below 0 1 = some 0 ∧ s1.below 1 2 = some 2 ∧ s.edges.length = 2 := by
  obtain ⟨S0, hS0⟩ : ∃ S, S = (((flattener_t.new FLATTEN_A).add_edges
      [(0, 0, 0, 4, false), (0, 0, 0, 8, false)]).toOption).getD (flattener_t.new FLATTEN_A) :=
    ⟨_, rfl⟩
  have e0 : (flattener_t.new FLATTEN_A).add_edges [(0, 0, 0, 4, false), (0, 0, 0, 8, false)]
      = .ok S0 := by rw [hS0]; rfl
  obtain ⟨S, hS⟩ : ∃ S, S = (flattener_t.split_example.toOption).getD
    (flattener_t.new FLATTEN_A) := ⟨_, rfl⟩
  have e1 : flattener_t.split_example = .ok S := by rw [hS]; rfl
  have e2 : (S0.set_dot (some 0)).unlink 1 = .ok S := by rw [hS, hS0]; rfl
  obtain ⟨S1, hS1⟩ : ∃ S1, S1 = ((S.split 1 1).toOption).getD (flattener_t.new FLATTEN_A) :=
    ⟨_, rfl⟩
  have e3 : S.split 1 1 = .ok S1 := by rw [hS1, hS]; rfl
  have hl0 : (S0.set_dot (some 0)).linked := (flattener_t.add_edges_fresh e0).1.2
  have hl : S.linked := flattener_t.linked_of_keeps (flattener_t.unlink_keeps e2) hl0
  have hv : S.verts = [{ below := [(1, 0)], x := ⟨0, 0, 1⟩, y := ⟨0, 0, 1⟩ },
      { above := [(0, 0)], x := ⟨0, 0, 1⟩, y := ⟨4, 0, 1⟩ },
      { x := ⟨0, 0, 1⟩, y := ⟨8, 0, 1⟩ }] := by rw [hS]; rfl
  have hc : S.canon := by
    intro v vv h
    rw [hv] at h
    match v, h with
    | 0, h => injection h with h; subst h; decide
    | 1, h => injection h with h; subst h; decide
    | 2, h => injection h with h; subst h; decide
    | (n + 3), h => simp at h
  have hp : S.edge 1 = .ok (⟨⟨0, 0, 0, 8⟩, 0, 2, ⟨1, 0⟩, ⟨0, 0⟩,
      ⟨false, false, false, false, false, false⟩, none, none⟩ : edge_t) := by rw [hS]; rfl
  have hvf : S.verts[0]? = some { below := [(1, 0)], x := ⟨0, 0, 1⟩, y := ⟨0, 0, 1⟩ } := by
    rw [hv]; rfl
  have hvt : S.verts[2]? = some { x := ⟨0, 0, 1⟩, y := ⟨8, 0, 1⟩ } := by rw [hv]; rfl
  have hord : vertex_t.precedes { below := [(1, 0)], x := ⟨0, 0, 1⟩, y := ⟨0, 0, 1⟩ }
      { x := ⟨0, 0, 1⟩, y := ⟨8, 0, 1⟩ } := by
    unfold vertex_t.precedes rat_t.val
    norm_num
  have k := C23_split_sub_edges S S1 1 1 _ _ _ hl hc hp hvf hvt hord e3
  exact ⟨S, S1, _, _, _, e1, hl, hc, hp, hvf, hvt, hord, e3, k.1, k.2.2,
    by rw [hS1, hS]; rfl, by rw [hS1, hS]; rfl, by rw [hS]; rfl⟩

namespace flattener_t

theorem pin_distance_vertex {s : flattener_t} {vfrom : vertex_t} {p : pin_t} {d : Int}
    (h : s.pin_distance vfrom p = some d) :
    ∃ w vw, p.v = some w ∧ s.verts[w]? = some vw ∧ vfrom.distance vw = d := by
  unfold pin_distance at h
  split at h
  · exact absurd h (by simp)
  · rename_i w hw
    cases hv : s.verts[w]? with
    | none => rw [hv] at h; exact absurd h (by simp)
    | some vw =>
      rw [hv] at h
      injection h with h
      exact ⟨w, vw, hw, hv, h⟩

theorem pin_distance_set_edge (s : flattener_t) (e : Nat) (x : edge_t) (vfrom : vertex_t)
    (p : pin_t) : (s.set_edge e x).pin_distance vfrom p = s.pin_distance vfrom p := rfl

/-- `pin_set_t::insert` on a set in order: the set stays as it is when it
holds a pin at the distance `d`; else the pin is added, and the set stays in
order. -/
theorem pin_insert_spec {s : flattener_t} {vfrom : vertex_t} {pin : pin_t} {d : Int}
    (l : List pin_t) :
    ∀ ds : List Int, l.map (s.pin_distance vfrom) = ds.map some →
      ds.Pairwise (fun a b => a < b) →
      ∃ l1, pin_insert s vfrom pin d l = .ok l1 ∧ (d ∈ ds → l1 = l) ∧
        (d ∉ ds → l1.Perm (pin :: l)) ∧
        (s.pin_distance vfrom pin = some d →
          ∃ ds1 : List Int, l1.map (s.pin_distance vfrom) = ds1.map some ∧
            ds1.Pairwise (fun a b => a < b) ∧ ∀ x ∈ ds1, x = d ∨ x ∈ ds) := by
  induction l with
  | nil =>
    intro ds hm hs
    cases ds with
    | cons a r => simp at hm
    | nil =>
      refine ⟨[pin], rfl, fun h => absurd h (List.not_mem_nil _), fun _ => List.Perm.refl _, ?_⟩
      intro hp
      exact ⟨[d], by simp [hp], List.pairwise_singleton _ _, fun x hx => Or.inl (by simpa using hx)⟩
  | cons p rest ih =>
    intro ds hm hs
    cases ds with
    | nil => simp at hm
    | cons dp ds' =>
      simp only [List.map_cons, List.cons.injEq] at hm
      obtain ⟨w, vw, hw, hv, hd⟩ := pin_distance_vertex hm.1
      have hs' := List.pairwise_cons.1 hs
      obtain ⟨l1, e1, a1, a2, a3⟩ := ih ds' hm.2 hs'.2
      have hvx : s.vertex w = .ok vw := (vertex_eq_ok s w vw).2 hv
      unfold pin_insert
      simp only [hw, deref_pos, bind, Except.bind, hvx, hd]
      by_cases c1 : dp < d
      · rw [if_pos c1]
        simp only [e1, pure, Except.pure]
        refine ⟨p :: l1, rfl, ?_, ?_, ?_⟩
        · intro hmem
          rcases List.mem_cons.1 hmem with h | h
          · omega
          · rw [a1 h]
        · intro hmem
          have : d ∉ ds' := fun h => hmem (List.mem_cons_of_mem _ h)
          exact ((a2 this).cons p).trans (List.Perm.swap pin p rest)
        · intro hp
          obtain ⟨ds1, b1, b2, b3⟩ := a3 hp
          refine ⟨dp :: ds1, by simp [hm.1, b1], List.pairwise_cons.2 ⟨?_, b2⟩, ?_⟩
          · intro x hx
            rcases b3 x hx with h | h
            · omega
            · exact hs'.1 x h
          · intro x hx
            rcases List.mem_cons.1 hx with h | h
            · exact Or.inr (h ▸ List.mem_cons_self _ _)
            · rcases b3 x h with h | h
              · exact Or.inl h
              · exact Or.inr (List.mem_cons_of_mem _ h)
      · rw [if_neg c1]
        by_cases c2 : d < dp
        · rw [if_pos c2]
          refine ⟨pin :: p :: rest, rfl, ?_, fun _ => List.Perm.refl _, ?_⟩
          · intro hmem
            rcases List.mem_cons.1 hmem with h | h
            · omega
            · have := hs'.1 d h; omega
          · intro hp
            refine ⟨d :: dp :: ds', by simp [hp, hm.1, hm.2], List.pairwise_cons.2 ⟨?_, hs⟩, ?_⟩
            · intro x hx
              rcases List.mem_cons.1 hx with h | h
              · omega
              · have := hs'.1 x h; omega
            · intro x hx
              rcases List.mem_cons.1 hx with h | h
              · exact Or.inl h
              · exact Or.inr h
        · rw [if_neg c2]
          have hdd : d = dp := by omega
          refine ⟨p :: rest, rfl, fun _ => rfl, ?_, ?_⟩
          · intro hmem
            exact absurd (hdd ▸ List.mem_cons_self _ _) hmem
          · intro _
            exact ⟨dp :: ds', by simp [hm.1, hm.2], hs, fun x hx => Or.inr hx⟩

/-- Pins in order have different vertices. -/
theorem pins_sorted_nodup {s : flattener_t} {vfrom : vertex_t} {l : List pin_t}
    (h : s.pins_sorted vfrom l) : (l.map pin_t.v).Nodup := by
  obtain ⟨ds, hm, hs⟩ := h
  have h1 : ds.Nodup := hs.imp (fun h => ne_of_lt h)
  have h2 : (ds.map some).Nodup := h1.map (Option.some_injective _)
  rw [← hm] at h2
  have h3 : (l.map ((fun o : Option Nat => match o with
      | none => none
      | some w => (s.verts[w]?).map vfrom.distance) ∘ pin_t.v)).Nodup := h2
  rw [← List.map_map] at h3
  exact List.Nodup.of_map _ h3

/-- A call of `goes_to` on two different vertices that returns gives an
edge. -/
theorem goes_to_some {s s1 : flattener_t} {this q : Nat} {raw : line_t} {wind : wind_t}
    {state r : Option Nat} (hne : q ≠ this)
    (h : s.goes_to this q raw wind state = .ok (r, s1)) : r ≠ none := by
  unfold goes_to at h
  rw [if_neg hne] at h
  cases h1 : s.vertex q with
  | error x => simp only [h1] at h; exact absurd h (by simp)
  | ok vq =>
    cases h2 : s.vertex this with
    | error x => simp only [h1, h2] at h; exact absurd h (by simp)
    | ok vthis =>
      simp only [h1, h2] at h
      cases h3 : vertexsort_t vq vthis with
      | error x => simp only [h3] at h; exact absurd h (by simp)
      | ok flip =>
        simp only [h3] at h
        split at h
        · exact absurd h (by simp)
        · split at h
          · exact absurd h (by simp)
          · injection h with h
            injection h with h _
            rw [← h]; simp

end flattener_t
/-- C30: pins are unique per squared distance.  For a live edge `e` whose pin
set is in order, `add_pin(p, above)` of an integer vertex `p` returns; the pin
set afterwards is the set before when it held a pin at the squared distance of
`p` from `e.from`, whatever the vertex and the flag of that pin, and is the
set before with the new pin otherwise.  The set stays in order, so the pins
have pairwise different vertices; the pins that the first loop of
`snap_to_pins` leaves on its list are therefore different from their
neighbours, and `goes_to` on two neighbours never returns null. -/
theorem C30_pins_unique (s : flattener_t) (e p : Nat) (above : Bool) (ed : edge_t)
    (vfrom vp : vertex_t) (he : s.edge e = .ok ed) (hf : s.verts[ed.from_]? = some vfrom)
    (hp : s.verts[p]? = some vp) (hint : vp.x.n = 0 ∧ vp.y.n = 0)
    (hs : s.pins_sorted vfrom (flattener_t.pins_of ed)) :
    ∃ pins1 s1, s.add_pin e p above = .ok s1 ∧
      s1 = s.set_edge e { ed with pin_set := some pins1 } ∧
      ((∃ x ∈ flattener_t.pins_of ed, s.pin_distance vfrom x = some (vfrom.distance vp)) →
        pins1 = flattener_t.pins_of ed) ∧
      ((¬ ∃ x ∈ flattener_t.pins_of ed, s.pin_distance vfrom x = some (vfrom.distance vp)) →
        pins1.Perm (⟨some p, above⟩ :: flattener_t.pins_of ed)) ∧
      s1.pins_sorted vfrom pins1 ∧ (pins1.map pin_t.v).Nodup ∧
      ∀ (t : flattener_t) (n : Nat) (a b : pin_t) (l : List pin_t),
        flattener_t.collect_pins t pins1 0 {} {} [] = .ok (n, a, b, l) →
        List.Chain' (fun x y : pin_t => x.v ≠ y.v ∧
          ∀ u w, y.v = some u → x.v = some w →
            ∀ (t1 t2 : flattener_t) (raw : line_t) (wind : wind_t) (st r : Option Nat),
              t1.goes_to u w raw wind st = .ok (r, t2) → r ≠ none)
          (flattener_t.pin_stack n a b l) := by
  obtain ⟨ds, hm, hsd⟩ := hs
  obtain ⟨l1, e1, a1, a2, a3⟩ :=
    @flattener_t.pin_insert_spec s vfrom ⟨some p, above⟩ (vfrom.distance vp)
      (flattener_t.pins_of ed) ds hm hsd
  have hmem : (∃ x ∈ flattener_t.pins_of ed,
      s.pin_distance vfrom x = some (vfrom.distance vp)) ↔ vfrom.distance vp ∈ ds := by
    constructor
    · rintro ⟨x, hx, hd⟩
      have : some (vfrom.distance vp) ∈ (flattener_t.pins_of ed).map (s.pin_distance vfrom) :=
        List.mem_map.2 ⟨x, hx, hd⟩
      rw [hm] at this
      obtain ⟨y, hy, hy2⟩ := List.mem_map.1 this
      injection hy2 with hy2
      rw [← hy2]; exact hy
    · intro h
      have : some (vfrom.distance vp) ∈ ds.map some := List.mem_map.2 ⟨_, h, rfl⟩
      rw [← hm] at this
      obtain ⟨x, hx, hx2⟩ := List.mem_map.1 this
      exact ⟨x, hx, hx2⟩
  have hpd : s.pin_distance vfrom ⟨some p, above⟩ = some (vfrom.distance vp) := by
    unfold flattener_t.pin_distance
    simp only [hp, Option.map_some']
  obtain ⟨ds1, b1, b2, -⟩ := a3 hpd
  have hsorted : (s.set_edge e { ed with pin_set := some l1 }).pins_sorted vfrom l1 :=
    ⟨ds1, b1, b2⟩
  have hnd := flattener_t.pins_sorted_nodup hsorted
  refine ⟨l1, _, ?_, rfl, fun h => a1 (hmem.1 h), fun h => a2 (fun c => h (hmem.2 c)),
    hsorted, hnd, ?_⟩
  · unfold flattener_t.add_pin
    have hvp : s.vertex p = .ok vp := (flattener_t.vertex_eq_ok s p vp).2 hp
    have hvf : s.vertex ed.from_ = .ok vfrom := (flattener_t.vertex_eq_ok s _ _).2 hf
    simp only [hvp, he, hvf, bind, Except.bind, assert_, hint.1, hint.2]
    rw [if_pos (by decide)]
    unfold flattener_t.pins_of at e1
    cases hps : ed.pin_set with
    | none =>
      rw [hps] at e1
      simp only [] at e1 ⊢
      rw [e1]; rfl
    | some l0 =>
      rw [hps] at e1
      simp only [] at e1 ⊢
      rw [e1]; rfl
  · intro t n a b l hc
    obtain ⟨-, -, hsub, -, -⟩ :=
      @flattener_t.collect_pins_stack t l1 0 {} {} [] n a b l (Or.inr ⟨by omega, rfl⟩)
        trivial hc
    have hsub1 : (flattener_t.pin_stack n a b l).reverse.Sublist l1 := by
      simpa [flattener_t.pin_stack] using hsub
    have hnd1 : ((flattener_t.pin_stack n a b l).map pin_t.v).Nodup := by
      have := (hsub1.map pin_t.v).nodup hnd
      rw [List.map_reverse] at this
      exact List.nodup_reverse.1 this
    have hpw : (flattener_t.pin_stack n a b l).Pairwise (fun x y : pin_t => x.v ≠ y.v) :=
      List.pairwise_map.1 hnd1
    refine List.Pairwise.chain' (hpw.imp ?_)
    intro x y hxy
    refine ⟨hxy, ?_⟩
    intro u w hu hw t1 t2 raw wind st r hg
    refine flattener_t.goes_to_some ?_ hg
    intro c
    apply hxy
    rw [hu, hw, c]

/-- C30, witness: the edge `(0,0)-(4,4)` has the pins `(0,0)` and `(1,0)`;
`add_pin` of the vertex at `(0,1)`, at the same squared distance 1 from
`(0,0)` as `(1,0)`, with the flag false leaves the pin set as it is. -/
theorem C30_pins_unique_witness :
    ∃ s ed vfrom vp pins1 s1, flattener_t.equidistant_example = .ok s ∧ s.edge 0 = .ok ed ∧
      s.verts[ed.from_]? = some vfrom ∧ s.verts[3]? = some vp ∧
      (vp.x.n = 0 ∧ vp.y.n = 0) ∧ s.pins_sorted vfrom (flattener_t.pins_of ed) ∧
      flattener_t.pins_of ed = [⟨some 0, true⟩, ⟨some 2, true⟩] ∧
      s.pin_distance vfrom ⟨some 2, true⟩ = some (vfrom.distance vp) ∧
      s.add_pin 0 3 false = .ok s1 ∧ s1 = s.set_edge 0 { ed with pin_set := some pins1 } ∧
      pins1 = [⟨some 0, true⟩, ⟨some 2, true⟩] ∧ (pins1.map pin_t.v).Nodup := by
  obtain ⟨S, hS⟩ : ∃ S, S = (flattener_t.equidistant_example.toOption).getD
    (flattener_t.new FLATTEN_A) := ⟨_, rfl⟩
  have e1 : flattener_t.equidistant_example = .ok S := by rw [hS]; rfl
  have he : S.edge 0 = .ok (⟨⟨0, 0, 4, 4⟩, 0, 1, ⟨1, 0⟩, ⟨0, 0⟩,
      ⟨false, false, false, false, false, false⟩,
      some [⟨some 0, true⟩, ⟨some 2, true⟩], none⟩ : edge_t) := by rw [hS]; rfl
  have hf : S.verts[0]? = some { below := [(1, 0)], x := ⟨0, 0, 1⟩, y := ⟨0, 0, 1⟩ } := by
    rw [hS]; rfl
  have hp : S.verts[3]? = some { above := [(2, 1)], x := ⟨0, 0, 1⟩, y := ⟨1, 0, 1⟩ } := by
    rw [hS]; rfl
  have hs : S.pins_sorted { below := [(1, 0)], x := ⟨0, 0, 1⟩, y := ⟨0, 0, 1⟩ }
      [⟨some 0, true⟩, ⟨some 2, true⟩] :=
    ⟨[0, 1], by rw [hS]; rfl, by decide⟩
  have hd : S.pin_distance { below := [(1, 0)], x := ⟨0, 0, 1⟩, y := ⟨0, 0, 1⟩ }
      ⟨some 2, true⟩ = some 1 := by rw [hS]; rfl
  obtain ⟨pins1, s1, k1, k2, k3, -, -, k6, -⟩ :=
    C30_pins_unique S 0 3 false _ _ _ he hf hp ⟨rfl, rfl⟩ hs
  exact ⟨S, _, _, _, pins1, s1, e1, he, hf, hp, ⟨rfl, rfl⟩, hs, rfl, hd, k1, k2,
    k3 ⟨_, List.mem_cons_of_mem _ (List.mem_cons_self _ _), hd⟩, k6⟩

namespace flattener_t

theorem side_line_congr (a b : vertex_t) (l : line_t) (hx : a.x = b.x) (hy : a.y = b.y) :
    side_line a l = side_line b l := by
  unfold side_line; rw [hx, hy]

theorem distance_congr (a b c d : vertex_t) (hx : a.x = b.x) (hy : a.y = b.y)
    (kx : c.x = d.x) (ky : c.y = d.y) : a.distance c = b.distance d := by
  unfold vertex_t.distance; rw [hx, hy, kx, ky]

/-- What `add_pin` does: the pin set of the edge becomes the result of the
insertion. -/
theorem add_pin_eq {s s1 : flattener_t} {e p : Nat} {above : Bool}
    (h : s.add_pin e p above = .ok s1) :
    ∃ vp ed vfrom pins1, s.verts[p]? = some vp ∧ (vp.x.n = 0 ∧ vp.y.n = 0) ∧
      s.edge e = .ok ed ∧
      s.verts[ed.from_]? = some vfrom ∧
      pin_insert s vfrom ⟨some p, above⟩ (vfrom.distance vp) (pins_of ed) = .ok pins1 ∧
      s1 = s.set_edge e { ed with pin_set := some pins1 } := by
  unfold add_pin at h
  obtain ⟨vp, hvp, h⟩ := bind_ok h
  obtain ⟨u0, hint, h⟩ := bind_ok h
  obtain ⟨ed, hed, h⟩ := bind_ok h
  obtain ⟨vfrom, hvf, h⟩ := bind_ok h
  obtain ⟨pins1, hins, h⟩ := bind_ok h
  have hint' : vp.x.n = 0 ∧ vp.y.n = 0 := by simpa using assert_ok hint
  refine ⟨vp, ed, vfrom, pins1, (vertex_eq_ok s p vp).1 hvp, hint', hed,
    (vertex_eq_ok s _ _).1 hvf, ?_, (pure_ok h).symm⟩
  unfold pins_of
  cases hps : ed.pin_set with
  | none => rw [hps] at hins; exact hins
  | some l => rw [hps] at hins; exact hins

/-- An insertion into a pin set that holds no pin at the distance `d` adds
the pin. -/
theorem pin_insert_adds {s : flattener_t} {vfrom : vertex_t} {pin : pin_t} {d : Int}
    (l : List pin_t) {l1 : List pin_t} (h : pin_insert s vfrom pin d l = .ok l1)
    (hd : ∀ x ∈ l, s.pin_distance vfrom x ≠ some d) : pin ∈ l1 := by
  induction l generalizing l1 with
  | nil =>
    unfold pin_insert at h
    rw [← pure_ok h]
    exact List.mem_singleton.2 rfl
  | cons p rest ih =>
    unfold pin_insert at h
    obtain ⟨w, hw, h⟩ := bind_ok h
    obtain ⟨vp, hvp, h⟩ := bind_ok h
    have hw' := deref_pos_ok hw
    have hvp' := (vertex_eq_ok s w vp).1 hvp
    split at h
    · obtain ⟨l2, h2, h⟩ := bind_ok h
      rw [← pure_ok h]
      exact List.mem_cons_of_mem _
        (ih h2 (fun x hx => hd x (List.mem_cons_of_mem _ hx)))
    · split at h
      · rw [← pure_ok h]
        exact List.mem_cons_self _ _
      · exfalso
        apply hd p (List.mem_cons_self _ _)
        unfold pin_distance
        simp only [hw', hvp', Option.map_some']
        congr 1
        omega

/-- The steps of `hittest` at another edge leave the edge `p` alone. -/
theorem hittest_loop_skip {p v : Nat} (l : List Nat) {s s1 : flattener_t} (hs : s.sound)
    (hp : p ∉ l) (h : s.hittest_loop v l = .ok s1) :
    s1.sound ∧ s.grows s1 ∧ s1.edges[p]? = s.edges[p]? := by
  induction l generalizing s with
  | nil =>
    unfold hittest_loop at h
    rw [← pure_ok h]; exact ⟨hs, grows_refl s, rfl⟩
  | cons q rest ih =>
    have hne : p ≠ q := fun c => hp (c ▸ List.mem_cons_self _ _)
    have hp' : p ∉ rest := fun c => hp (List.mem_cons_of_mem _ c)
    unfold hittest_loop at h
    obtain ⟨vv, hvv, h⟩ := bind_ok h
    obtain ⟨pe, -, h⟩ := bind_ok h
    obtain ⟨pf, -, h⟩ := bind_ok h
    obtain ⟨pt, -, h⟩ := bind_ok h
    obtain ⟨r1, -, h⟩ := bind_ok h
    obtain ⟨r2, -, h⟩ := bind_ok h
    obtain ⟨ov, -, h⟩ := bind_ok h
    split at h
    · exact ih hs hp' h
    · dsimp only at h
      split at h
      · obtain ⟨⟨w, t1⟩, h1, h⟩ := bind_ok h
        obtain ⟨t2, h2, h⟩ := bind_ok h
        dsimp only at h2 h
        have c := hs.1 v vv ((vertex_eq_ok s v vv).1 hvv)
        obtain ⟨s1', g1⟩ := steady_find c.1 c.2 h1 hs
        obtain ⟨s2', g2⟩ := add_pin_rel steady_pin_steps h2 s1'
        obtain ⟨-, ed, -, pins1, -, -, -, -, -, e2⟩ := add_pin_eq h2
        obtain ⟨q1, q2, q3⟩ := ih s2' hp' h
        refine ⟨q1, grows_trans (grows_trans g1 g2) q2, ?_⟩
        rw [q3, e2, edges_set_edge_ne _ _ _ _ hne, find_edges h1]
      · exact ih hs hp' h

end flattener_t
namespace flattener_t

theorem pos_of_grows {s s1 : flattener_t} (hg : s.grows s1) {u : Nat} {x y : rat_t}
    (h : s.pos u = some (x, y)) : s1.pos u = some (x, y) := by
  obtain ⟨vu, h1, h2, h3⟩ := (pos_eq_some s u x y).1 h
  obtain ⟨vu1, k1, k2, k3⟩ := hg.1 u vu h1
  exact (pos_eq_some s1 u x y).2 ⟨vu1, k1, k2.trans h2, k3.trans h3⟩

/-- The loop of `hittest` at the open edge `p`: the edge is handed to
`add_pin` when the test of `hittest` holds, and is left alone otherwise. -/
theorem hittest_loop_at {p v : Nat} {vv pf pt : vertex_t} {pe : edge_t} (l : List Nat) :
    ∀ {s s1 : flattener_t}, s.sound → l.Nodup → p ∈ l → s.pos v = some (vv.x, vv.y) →
      s.edge p = .ok pe → s.pos pe.from_ = some (pf.x, pf.y) →
      s.pos pe.to_ = some (pt.x, pt.y) → s.hittest_loop v l = .ok s1 →
      ((range_overlap pf.x.val pt.x.val vv.x.val vv.x.val ∧
          (side_line vv pe.raw = 0 ∨
            side_line vv ⟨pf.x.i, pf.y.i, pt.x.i, pt.y.i⟩ * side_line vv pe.raw < 0)) →
        ∃ t t1 w pe1, s.grows t ∧ t.edge p = .ok pe ∧ w ∈ t.vertexset ∧
          t.pos w = some (vv.x, vv.y) ∧
          t.add_pin p w (decide (side_line vv pe.raw ≤ 0)) = .ok t1 ∧
          t1.edge p = .ok pe1 ∧ s1.edge p = .ok pe1) ∧
      (¬ (range_overlap pf.x.val pt.x.val vv.x.val vv.x.val ∧
          (side_line vv pe.raw = 0 ∨
            side_line vv ⟨pf.x.i, pf.y.i, pt.x.i, pt.y.i⟩ * side_line vv pe.raw < 0)) →
        s1.edge p = .ok pe) := by
  induction l with
  | nil => intro s s1 _ _ hp; exact absurd hp (List.not_mem_nil _)
  | cons q rest ih =>
    intro s s1 hs hn hp hv he hf ht h
    have hn' := List.nodup_cons.1 hn
    unfold hittest_loop at h
    obtain ⟨vv', hvv, h⟩ := bind_ok h
    obtain ⟨qe, hqe, h⟩ := bind_ok h
    obtain ⟨qf, hqf, h⟩ := bind_ok h
    obtain ⟨qt, hqt, h⟩ := bind_ok h
    obtain ⟨r1, hr1, h⟩ := bind_ok h
    obtain ⟨r2, hr2, h⟩ := bind_ok h
    obtain ⟨ov, hov, h⟩ := bind_ok h
    have hvv' := (vertex_eq_ok s v vv').1 hvv
    have cv := hs.1 v vv' hvv'
    by_cases hqp : q = p
    · have hqp' : p = q := hqp.symm
      subst hqp'
      rw [he] at hqe
      injection hqe with hqe
      subst hqe
      have hqf' := (vertex_eq_ok s _ _).1 hqf
      have hqt' := (vertex_eq_ok s _ _).1 hqt
      obtain ⟨x1, a1, a2, a3⟩ := (pos_eq_some s v _ _).1 hv
      rw [hvv'] at a1
      injection a1 with a1
      subst a1
      obtain ⟨x2, b1, b2, b3⟩ := (pos_eq_some s _ _ _).1 hf
      rw [hqf'] at b1
      injection b1 with b1
      subst b1
      obtain ⟨x3, c1, c2, c3⟩ := (pos_eq_some s _ _ _).1 ht
      rw [hqt'] at c1
      injection c1 with c1
      subst c1
      have cf := hs.1 _ _ hqf'
      have ct := hs.1 _ _ hqt'
      have hval := overlaps_val qf.x qt.x vv'.x vv'.x cf.1 ct.1 cv.1 cv.1
      simp only [hr1, hr2, bind, Except.bind, hov] at hval
      injection hval with hval
      rw [side_line_congr vv' vv pe.raw a2 a3, b2, b3, c2, c3,
        side_line_congr vv' vv ⟨pf.x.i, pf.y.i, pt.x.i, pt.y.i⟩ a2 a3] at h
      rw [← a2, b2, c2] at *
      split at h
      · rename_i hnov
        have hno : ¬ range_overlap pf.x.val pt.x.val vv'.x.val vv'.x.val := by
          intro c
          rw [hval] at hnov
          simp [c] at hnov
        have k := (hittest_loop_skip rest hs hn'.1 h).2.2
        refine ⟨fun c => absurd c.1 hno, fun _ => ?_⟩
        rw [edge_eq_ok, k, ← edge_eq_ok]; exact he
      · rename_i hnov
        have hyes : range_overlap pf.x.val pt.x.val vv'.x.val vv'.x.val := by
          by_contra c
          rw [hval] at hnov
          simp [c] at hnov
        dsimp only at h
        split at h
        · rename_i hcond
          obtain ⟨⟨w, t1⟩, h1, h⟩ := bind_ok h
          obtain ⟨t2, h2, h⟩ := bind_ok h
          dsimp only at h2 h
          obtain ⟨s1', g1⟩ := steady_find cv.1 cv.2 h1 hs
          obtain ⟨s2', g2⟩ := add_pin_rel steady_pin_steps h2 s1'
          obtain ⟨r0, s0, vr, e0, f1, f2, f3, f4, -⟩ := find_eq s vv'.x vv'.y cv.1 cv.2 hs.valid
          rw [h1] at e0
          injection e0 with e0
          injection e0 with e01 e02
          subst e01; subst e02
          have het : t1.edge p = .ok pe := by
            rw [edge_eq_ok, find_edges h1, ← edge_eq_ok]; exact he
          obtain ⟨-, ed, -, pins1, -, -, k1, -, -, k2⟩ := add_pin_eq h2
          have k3 : t2.edge p = .ok { ed with pin_set := some pins1 } := by
            rw [k2]; exact edge_set_edge_self t1 p ed _ k1
          have k4 := (hittest_loop_skip rest s2' hn'.1 h).2.2
          refine ⟨fun _ => ⟨t1, t2, w, _, g1, het, f4, ?_, h2, k3, ?_⟩,
            fun c => absurd ⟨hyes, hcond⟩ c⟩
          · exact (pos_eq_some t1 w _ _).2 ⟨vr, (vertex_eq_ok t1 w vr).1 f1, f2.trans a2,
              f3.trans a3⟩
          · rw [edge_eq_ok, k4, ← edge_eq_ok]; exact k3
        · rename_i hcond
          have k := (hittest_loop_skip rest hs hn'.1 h).2.2
          refine ⟨fun c => absurd c.2 hcond, fun _ => ?_⟩
          rw [edge_eq_ok, k, ← edge_eq_ok]; exact he
    · have hp' : p ∈ rest := by
        rcases List.mem_cons.1 hp with c | c
        · exact absurd c.symm hqp
        · exact c
      split at h
      · exact ih hs hn'.2 hp' hv he hf ht h
      · dsimp only at h
        split at h
        · obtain ⟨⟨w, t1⟩, h1, h⟩ := bind_ok h
          obtain ⟨t2, h2, h⟩ := bind_ok h
          dsimp only at h2 h
          obtain ⟨s1', g1⟩ := steady_find cv.1 cv.2 h1 hs
          obtain ⟨s2', g2⟩ := add_pin_rel steady_pin_steps h2 s1'
          have g := grows_trans g1 g2
          obtain ⟨-, ed, -, pins1, -, -, -, -, -, e2⟩ := add_pin_eq h2
          have het : t2.edge p = .ok pe := by
            rw [edge_eq_ok, e2, edges_set_edge_ne _ _ _ _ (fun c => hqp c.symm), find_edges h1,
              ← edge_eq_ok]
            exact he
          obtain ⟨q1, q2⟩ := ih s2' hn'.2 hp' (pos_of_grows g hv) het (pos_of_grows g hf)
            (pos_of_grows g ht) h
          refine ⟨fun c => ?_, q2⟩
          obtain ⟨t, t', w', pe1, z1, z2⟩ := q1 c
          exact ⟨t, t', w', pe1, grows_trans g z1, z2⟩
        · exact ih hs hn'.2 hp' hv he hf ht h

end flattener_t
/-- C25: the pin criterion of `hittest`.  In a sound session let `p` be an
edge of the snap list (a set) with ends `pf` and `pt`, let `v` be a vertex
`vv`, `a = side(v, line(p.from, p.to))` on the integer parts of the ends and
`b = side(v, p.raw)`, and let `hittest(v)` return.  When the x-range of `p`
contains `v.x` and `b = 0` or `a * b < 0`, the edge `p` afterwards is what
`add_pin(w, b <= 0)` made of it, where `w` is the vertex of the primary vertex
set at the coordinates of `v`, which are integers: its pins are those it had
and possibly the pin `(w, b <= 0)`, which is among them when no pin was at the
squared distance of `v` from `p.from`.  Otherwise, and so when the x-range of
`p` does not contain `v.x`, the edge `p` is as it was. -/
theorem C25_hittest_criterion (s s1 : flattener_t) (v p : Nat) (vv pf pt : vertex_t)
    (pe : edge_t) (hs : s.sound) (hn : s.snaplist.Nodup) (hp : p ∈ s.snaplist)
    (hv : s.verts[v]? = some vv) (he : s.edge p = .ok pe)
    (hf : s.verts[pe.from_]? = some pf) (ht : s.verts[pe.to_]? = some pt)
    (h : s.hittest v = .ok s1) :
    (((min pf.x.val pt.x.val ≤ vv.x.val ∧ vv.x.val ≤ max pf.x.val pt.x.val) ∧
        (side_line vv pe.raw = 0 ∨
          side_line vv ⟨pf.x.i, pf.y.i, pt.x.i, pt.y.i⟩ * side_line vv pe.raw < 0)) →
      ∃ t t1 w pe1, s.grows t ∧ t.edge p = .ok pe ∧ w ∈ t.vertexset ∧
        t.pos w = some (vv.x, vv.y) ∧ (vv.x.n = 0 ∧ vv.y.n = 0) ∧
        t.add_pin p w (decide (side_line vv pe.raw ≤ 0)) = .ok t1 ∧
        t1.edge p = .ok pe1 ∧ s1.edge p = .ok pe1 ∧
        (∀ x ∈ flattener_t.pins_of pe1,
          x = ⟨some w, decide (side_line vv pe.raw ≤ 0)⟩ ∨ x ∈ flattener_t.pins_of pe) ∧
        ((∀ x ∈ flattener_t.pins_of pe, t.pin_distance pf x ≠ some (pf.distance vv)) →
          (⟨some w, decide (side_line vv pe.raw ≤ 0)⟩ : pin_t) ∈ flattener_t.pins_of pe1)) ∧
    (¬ ((min pf.x.val pt.x.val ≤ vv.x.val ∧ vv.x.val ≤ max pf.x.val pt.x.val) ∧
        (side_line vv pe.raw = 0 ∨
          side_line vv ⟨pf.x.i, pf.y.i, pt.x.i, pt.y.i⟩ * side_line vv pe.raw < 0)) →
      s1.edge p = .ok pe) := by
  have hro : range_overlap pf.x.val pt.x.val vv.x.val vv.x.val ↔
      (min pf.x.val pt.x.val ≤ vv.x.val ∧ vv.x.val ≤ max pf.x.val pt.x.val) := by
    unfold range_overlap
    simp only [max_self, min_self, not_lt]
  obtain ⟨q1, q2⟩ := @flattener_t.hittest_loop_at p v vv pf pt pe s.snaplist s s1 hs hn hp
    ((flattener_t.pos_eq_some s v _ _).2 ⟨vv, hv, rfl, rfl⟩) he
    ((flattener_t.pos_eq_some s _ _ _).2 ⟨pf, hf, rfl, rfl⟩)
    ((flattener_t.pos_eq_some s _ _ _).2 ⟨pt, ht, rfl, rfl⟩) h
  rw [hro] at q1 q2
  refine ⟨fun c => ?_, q2⟩
  obtain ⟨t, t1, w, pe1, g, het, hw, hpw, hadd, k1, k2⟩ := q1 c
  obtain ⟨vp, ed, vfrom, pins1, a1, a2, a3, a4, a5, a6⟩ := flattener_t.add_pin_eq hadd
  rw [het] at a3
  injection a3 with a3
  subst a3
  obtain ⟨vw, b1, b2, b3⟩ := (flattener_t.pos_eq_some t w _ _).1 hpw
  rw [a1] at b1
  injection b1 with b1
  subst b1
  obtain ⟨pf1, c1, c2, c3⟩ := g.1 _ _ hf
  rw [a4] at c1
  injection c1 with c1
  subst c1
  have k3 : t1.edge p = .ok { pe with pin_set := some pins1 } := by
    rw [a6]; exact flattener_t.edge_set_edge_self t p pe _ het
  rw [k1] at k3
  injection k3 with k3
  have hpins : flattener_t.pins_of pe1 = pins1 := by rw [k3]; rfl
  refine ⟨t, t1, w, pe1, g, het, hw, hpw, ⟨b2 ▸ a2.1, b3 ▸ a2.2⟩, hadd, k1, k2, ?_, ?_⟩
  · rw [hpins]
    exact flattener_t.pin_insert_mem _ a5
  · intro hd
    rw [hpins]
    refine flattener_t.pin_insert_adds _ a5 ?_
    intro x hx
    have e1 : vfrom.distance vp = pf.distance vv :=
      flattener_t.distance_congr vfrom pf vp vv c2 c3 b2 b3
    have e2 : t.pin_distance vfrom x = t.pin_distance pf x := by
      unfold flattener_t.pin_distance
      cases x.v with
      | none => rfl
      | some u =>
        show Option.map vfrom.distance t.verts[u]? = Option.map pf.distance t.verts[u]?
        congr 1
        funext vu
        exact flattener_t.distance_congr vfrom pf vu vu c2 c3 rfl rfl
    rw [e1, e2]
    exact hd x hx

/-- C25, witness: the edge `(0,0)-(4,4)` is open and `hittest` is called for
the vertex at `(2,2)` on its raw line: `b = 0`, and the vertex becomes a pin of
the edge with the flag true. -/
theorem C25_hittest_criterion_witness :
    ∃ s s1 vv pf pt pe pe1, flattener_t.hit_example 2 2 = .ok s ∧ s.sound ∧
      s.snaplist.Nodup ∧ 0 ∈ s.snaplist ∧ s.verts[2]? = some vv ∧ s.edge 0 = .ok pe ∧
      s.verts[pe.from_]? = some pf ∧ s.verts[pe.to_]? = some pt ∧ s.hittest 2 = .ok s1 ∧
      ((min pf.x.val pt.x.val ≤ vv.x.val ∧ vv.x.val ≤ max pf.x.val pt.x.val) ∧
        (side_line vv pe.raw = 0 ∨
          side_line vv ⟨pf.x.i, pf.y.i, pt.x.i, pt.y.i⟩ * side_line vv pe.raw < 0)) ∧
      s1.edge 0 = .ok pe1 ∧ flattener_t.pins_of pe = [] ∧
      flattener_t.pins_of pe1 = [⟨some 2, true⟩] := by
  obtain ⟨S0, hS0⟩ : ∃ S, S = (((flattener_t.new FLATTEN_A).add_edges
      [(0, 0, 4, 4, false), (2, 2, 2, 2, false)]).toOption).getD (flattener_t.new FLATTEN_A) :=
    ⟨_, rfl⟩
  have e0 : (flattener_t.new FLATTEN_A).add_edges [(0, 0, 4, 4, false), (2, 2, 2, 2, false)]
      = .ok S0 := by rw [hS0]; rfl
  have e1 : flattener_t.hit_example 2 2 = .ok (S0.set_snaplist [0]) := by rw [hS0]; rfl
  have hs : (S0.set_snaplist [0]).sound := (flattener_t.add_edges_fresh e0).1.1
  obtain ⟨S1, hS1⟩ : ∃ S1, S1 = (((S0.set_snaplist [0]).hittest 2).toOption).getD
    (flattener_t.new FLATTEN_A) := ⟨_, rfl⟩
  have e2 : (S0.set_snaplist [0]).hittest 2 = .ok S1 := by rw [hS1, hS0]; rfl
  have hv : (S0.set_snaplist [0]).verts[2]? = some { x := ⟨2, 0, 1⟩, y := ⟨2, 0, 1⟩ } := by
    rw [hS0]; rfl
  have he : (S0.set_snaplist [0]).edge 0 = .ok (⟨⟨0, 0, 4, 4⟩, 0, 1, ⟨1, 0⟩, ⟨0, 0⟩,
      ⟨false, false, false, false, false, false⟩, none, none⟩ : edge_t) := by rw [hS0]; rfl
  have hf : (S0.set_snaplist [0]).verts[0]? =
      some { below := [(1, 0)], x := ⟨0, 0, 1⟩, y := ⟨0, 0, 1⟩ } := by rw [hS0]; rfl
  have ht : (S0.set_snaplist [0]).verts[1]? =
      some { above := [(0, 0)], x := ⟨4, 0, 1⟩, y := ⟨4, 0, 1⟩ } := by rw [hS0]; rfl
  have hn : (S0.set_snaplist [0]).snaplist.Nodup := List.nodup_singleton 0
  have hp : 0 ∈ (S0.set_snaplist [0]).snaplist := List.mem_singleton.2 rfl
  have k := C25_hittest_criterion (S0.set_snaplist [0]) S1 2 0 _ _ _ _ hs hn hp hv he hf ht e2
  have hit : ((min (rat_t.val ⟨0, 0, 1⟩) (rat_t.val ⟨4, 0, 1⟩) ≤ rat_t.val ⟨2, 0, 1⟩ ∧
      rat_t.val ⟨2, 0, 1⟩ ≤ max (rat_t.val ⟨0, 0, 1⟩) (rat_t.val ⟨4, 0, 1⟩)) ∧
      (side_line { x := ⟨2, 0, 1⟩, y := ⟨2, 0, 1⟩ } ⟨0, 0, 4, 4⟩ = 0 ∨
        side_line { x := ⟨2, 0, 1⟩, y := ⟨2, 0, 1⟩ } ⟨0, 0, 4, 4⟩ *
          side_line { x := ⟨2, 0, 1⟩, y := ⟨2, 0, 1⟩ } ⟨0, 0, 4, 4⟩ < 0)) := by
    refine ⟨?_, Or.inl (by decide)⟩
    unfold rat_t.val
    norm_num
  obtain ⟨t, t1, w, pe1, -, -, -, -, -, -, -, k2, -, -⟩ := k.1 hit
  have k3 : S1.edge 0 = .ok (⟨⟨0, 0, 4, 4⟩, 0, 1, ⟨1, 0⟩, ⟨0, 0⟩,
      ⟨false, false, false, false, false, false⟩, some [⟨some 2, true⟩], none⟩ : edge_t) := by
    rw [hS1, hS0]; rfl
  rw [k2] at k3
  injection k3 with k3
  exact ⟨_, S1, _, _, _, _, pe1, e1, hs, hn, hp, hv, he, hf, ht, e2, hit, k2, rfl,
    by rw [k3]; rfl⟩

/-- The value of `side` at a point against a line through `(x0, y0)`. -/
theorem line_t.det_shift (l : line_t) (x0 y0 x y : ℚ) (h0 : l.det x0 y0 = 0) :
    l.det x y = (x - x0) * ((l.y1 : ℚ) - l.y0) - (y - y0) * ((l.x1 : ℚ) - l.x0) := by
  unfold line_t.det at h0 ⊢
  linarith

/-- Two segments that run in sweep order and overlap in `y`, each strictly on
one side of the line of the other: they lie on opposite sides of each other. -/
theorem opposite_sides (ux uy vx vy p0x p0y p1x p1y q0x q0y q1x q1y : ℚ)
    (hu : 0 < uy ∨ (uy = 0 ∧ 0 < ux)) (hv : 0 < vy ∨ (vy = 0 ∧ 0 < vx))
    (hp : (p1x - p0x) * uy = (p1y - p0y) * ux)
    (hq : (q1x - q0x) * vy = (q1y - q0y) * vx)
    (o1 : q0y ≤ p1y) (o2 : p0y ≤ q1y)
    (hab : 0 < ((p0x - q0x) * vy - (p0y - q0y) * vx) * ((p1x - q0x) * vy - (p1y - q0y) * vx))
    (hcd : 0 < ((q0x - p0x) * uy - (q0y - p0y) * ux) * ((q1x - p0x) * uy - (q1y - p0y) * ux)) :
    ((p0x - q0x) * vy - (p0y - q0y) * vx < 0 ↔ 0 < (q0x - p0x) * uy - (q0y - p0y) * ux) := by
  have i1 : uy * ((p1x - q0x) * vy - (p1y - q0y) * vx) +
      vy * ((q0x - p0x) * uy - (q0y - p0y) * ux) = (p1y - q0y) * (ux * vy - uy * vx) := by
    linear_combination vy * hp
  have i2 : uy * ((p0x - q0x) * vy - (p0y - q0y) * vx) +
      vy * ((q1x - p0x) * uy - (q1y - p0y) * ux) = (p0y - q1y) * (ux * vy - uy * vx) := by
    linear_combination uy * hq
  have huy : 0 ≤ uy := by rcases hu with h | h; exact le_of_lt h; exact le_of_eq h.1.symm
  have hvy : 0 ≤ vy := by rcases hv with h | h; exact le_of_lt h; exact le_of_eq h.1.symm
  by_cases hz : uy = 0 ∧ vy = 0
  · obtain ⟨z1, z2⟩ := hz
    have hux : 0 < ux := by rcases hu with h | h; exact absurd z1 (ne_of_gt h); exact h.2
    have hvx : 0 < vx := by rcases hv with h | h; exact absurd z2 (ne_of_gt h); exact h.2
    subst z1
    subst z2
    simp only [mul_zero, zero_sub, zero_mul] at hab hcd ⊢
    have hne : p0y - q0y ≠ 0 := by
      intro h
      rw [h] at hab
      simp at hab
    constructor
    · intro h
      have : 0 < p0y - q0y := by
        by_contra c
        push_neg at c
        have := mul_nonneg_of_nonpos_of_nonpos c (le_of_lt (neg_lt_zero.2 hvx))
        nlinarith
      nlinarith
    · intro h
      have : 0 < p0y - q0y := by
        by_contra c
        push_neg at c
        nlinarith
      nlinarith
  have hpos : 0 < uy + vy := by
    rcases lt_or_eq_of_le huy with h | h
    · linarith
    · rcases lt_or_eq_of_le hvy with k | k
      · linarith
      · exact absurd ⟨h.symm, k.symm⟩ hz
  generalize (p0x - q0x) * vy - (p0y - q0y) * vx = A at *
  generalize (p1x - q0x) * vy - (p1y - q0y) * vx = B at *
  generalize (q0x - p0x) * uy - (q0y - p0y) * ux = C at *
  generalize (q1x - p0x) * uy - (q1y - p0y) * ux = D at *
  generalize ux * vy - uy * vx = X at *
  have hA : A ≠ 0 := by intro h; rw [h] at hab; simp at hab
  have hC : C ≠ 0 := by intro h; rw [h] at hcd; simp at hcd
  have sAB : (0 < A ∧ 0 < B) ∨ (A < 0 ∧ B < 0) := by
    rcases lt_or_gt_of_ne hA with h | h
    · exact Or.inr ⟨h, by by_contra c; push_neg at c; nlinarith [mul_nonpos_of_nonpos_of_nonneg (le_of_lt h) c]⟩
    · exact Or.inl ⟨h, by by_contra c; push_neg at c; nlinarith [mul_nonpos_of_nonneg_of_nonpos (le_of_lt h) c]⟩
  have sCD : (0 < C ∧ 0 < D) ∨ (C < 0 ∧ D < 0) := by
    rcases lt_or_gt_of_ne hC with h | h
    · exact Or.inr ⟨h, by by_contra c; push_neg at c; nlinarith [mul_nonpos_of_nonpos_of_nonneg (le_of_lt h) c]⟩
    · exact Or.inl ⟨h, by by_contra c; push_neg at c; nlinarith [mul_nonpos_of_nonneg_of_nonpos (le_of_lt h) c]⟩
  have d1 : 0 ≤ p1y - q0y := by linarith
  have d2 : p0y - q1y ≤ 0 := by linarith
  rcases sAB with ⟨a1, b1⟩ | ⟨a1, b1⟩ <;> rcases sCD with ⟨c1, e1⟩ | ⟨c1, e1⟩
  · exfalso
    have k1 : 0 < uy * B + vy * C := by
      rcases lt_or_eq_of_le huy with h | h
      · have := mul_pos h b1
        have := mul_nonneg hvy (le_of_lt c1)
        linarith
      · have hv' : 0 < vy := by linarith
        have := mul_pos hv' c1
        rw [← h]; linarith
    have k2 : 0 < uy * A + vy * D := by
      rcases lt_or_eq_of_le huy with h | h
      · have := mul_pos h a1
        have := mul_nonneg hvy (le_of_lt e1)
        linarith
      · have hv' : 0 < vy := by linarith
        have := mul_pos hv' e1
        rw [← h]; linarith
    rw [i1] at k1
    rw [i2] at k2
    have x1 : 0 < X := by
      by_contra c
      push_neg at c
      have := mul_nonpos_of_nonneg_of_nonpos d1 c
      linarith
    have := mul_nonpos_of_nonpos_of_nonneg d2 (le_of_lt x1)
    linarith
  · constructor
    · intro h; linarith
    · intro h; linarith
  · constructor
    · intro _; exact c1
    · intro _; exact a1
  · exfalso
    have k1 : uy * B + vy * C < 0 := by
      rcases lt_or_eq_of_le huy with h | h
      · have := mul_neg_of_pos_of_neg h b1
        have := mul_nonpos_of_nonneg_of_nonpos hvy (le_of_lt c1)
        linarith
      · have hv' : 0 < vy := by linarith
        have := mul_neg_of_pos_of_neg hv' c1
        rw [← h]; linarith
    have k2 : uy * A + vy * D < 0 := by
      rcases lt_or_eq_of_le huy with h | h
      · have := mul_neg_of_pos_of_neg h a1
        have := mul_nonpos_of_nonneg_of_nonpos hvy (le_of_lt e1)
        linarith
      · have hv' : 0 < vy := by linarith
        have := mul_neg_of_pos_of_neg hv' e1
        rw [← h]; linarith
    rw [i1] at k1
    rw [i2] at k2
    have x1 : X < 0 := by
      by_contra c
      push_neg at c
      have := mul_nonneg d1 c
      linarith
    have := mul_nonneg_of_nonpos_of_nonpos d2 (le_of_lt x1)
    linarith
theorem sgn_mul_pos (a b : ℚ) : sgn a * sgn b > 0 ↔ 0 < a * b := by
  unfold sgn
  rcases lt_trichotomy a 0 with ha | ha | ha <;> rcases lt_trichotomy b 0 with hb | hb | hb
  · simp [ne_of_lt ha, ne_of_lt hb, ha, hb, mul_pos_of_neg_of_neg ha hb]
  · simp [hb]
  · simp [ne_of_lt ha, ne_of_gt hb, ha, not_lt.2 (le_of_lt hb),
      not_lt.2 (le_of_lt (mul_neg_of_neg_of_pos ha hb))]
  · simp [ha]
  · simp [ha]
  · simp [ha]
  · simp [ne_of_gt ha, ne_of_lt hb, hb, not_lt.2 (le_of_lt ha),
      not_lt.2 (le_of_lt (mul_neg_of_pos_of_neg ha hb))]
  · simp [hb]
  · simp [ne_of_gt ha, ne_of_gt hb, not_lt.2 (le_of_lt ha), not_lt.2 (le_of_lt hb),
      mul_pos ha hb]

theorem sgn_neg_iff (a : ℚ) : sgn a < 0 ↔ a < 0 := by
  unfold sgn
  rcases lt_trichotomy a 0 with ha | ha | ha
  · simp [ne_of_lt ha, ha]
  · simp [ha]
  · simp [ne_of_gt ha, not_lt.2 (le_of_lt ha)]

theorem sgn_pos_iff (a : ℚ) : sgn a > 0 ↔ 0 < a := by
  unfold sgn
  rcases lt_trichotomy a 0 with ha | ha | ha
  · simp [ne_of_lt ha, ha, not_lt.2 (le_of_lt ha)]
  · simp [ha]
  · simp [ne_of_gt ha, not_lt.2 (le_of_lt ha), ha]

/-- `edgesort_t` on two edges with different raw directions: when it returns
for one order, it returns the opposite for the other. -/
theorem edgesort_t_swap (p q : edge_t) (b : Bool)
    (hne : ¬ (p.raw.x1 - p.raw.x0 = q.raw.x1 - q.raw.x0 ∧
      p.raw.y1 - p.raw.y0 = q.raw.y1 - q.raw.y0))
    (h : edgesort_t p q = .ok b) : edgesort_t q p = .ok (!b) := by
  have hne' : ¬ (q.raw.x1 - q.raw.x0 = p.raw.x1 - p.raw.x0 ∧
      q.raw.y1 - q.raw.y0 = p.raw.y1 - p.raw.y0) := fun c => hne ⟨c.1.symm, c.2.symm⟩
  unfold edgesort_t at h ⊢
  simp only [] at h ⊢
  rw [if_neg hne] at h
  rw [if_neg hne']
  obtain ⟨⟨pp, px, py⟩, hqp, h⟩ := bind_ok h
  obtain ⟨⟨qq, qx, qy⟩, hqq, h⟩ := bind_ok h
  simp only [hqp, hqq, bind, Except.bind] at h ⊢
  by_cases hc : pp = qq
  · have hc' : ¬ (qq ≠ pp) := fun c => c hc.symm
    rw [if_neg (fun c : pp ≠ qq => c hc)] at h
    rw [if_neg hc']
    by_cases hx : px * qy = qx * py
    · simp [assert_, hx] at h
    · have hx' : ¬ (qx * py = px * qy) := fun c => hx c.symm
      simp only [assert_, bne_iff_ne, ne_eq, hx, hx', not_false_eq_true, if_true] at h ⊢
      injection h with h
      rw [← h]
      congr 1
      rcases lt_or_gt_of_ne hx with k | k
      · simp [k, not_lt.2 (le_of_lt k)]
      · simp [k, not_lt.2 (le_of_lt k)]
  · have hc' : qq ≠ pp := fun c => hc c.symm
    rw [if_pos hc] at h
    rw [if_pos hc']
    injection h with h
    rw [← h]
    congr 1
    rcases Nat.lt_or_gt_of_ne hc with k | k
    · simp [k, Nat.not_lt.2 (Nat.le_of_lt k)]
    · simp [k, Nat.not_lt.2 (Nat.le_of_lt k)]

/-- Two vectors that are both parallel to a vector other than zero are
parallel. -/
theorem parallel_of_common (zx zy ux uy vx vy : ℚ) (hz : ¬ (zx = 0 ∧ zy = 0))
    (h1 : zx * uy = zy * ux) (h2 : zx * vy = zy * vx) : ux * vy = uy * vx := by
  by_cases h : zx = 0
  · have hy : zy ≠ 0 := fun c => hz ⟨h, c⟩
    rw [h] at h1 h2
    simp only [zero_mul] at h1 h2
    have a1 : ux = 0 := by
      rcases mul_eq_zero.1 h1.symm with c | c
      · exact absurd c hy
      · exact c
    have a2 : vx = 0 := by
      rcases mul_eq_zero.1 h2.symm with c | c
      · exact absurd c hy
      · exact c
    rw [a1, a2]; ring
  · have : zx * (ux * vy - uy * vx) = 0 := by
      linear_combination ux * h2 - vx * h1
    rcases mul_eq_zero.1 this with c | c
    · exact absurd c h
    · linarith
theorem range_overlap_comm (a b c d : ℚ) : range_overlap a b c d ↔ range_overlap c d a b := by
  unfold range_overlap
  exact and_comm

theorem edge_t.equals_comm (p q : edge_t) : p.equals q = q.equals p := by
  unfold edge_t.equals
  have e1 : (q.from_ == p.from_) = (p.from_ == q.from_) := by
    by_cases h : q.from_ = p.from_
    · simp [h]
    · simp only [beq_eq_false_iff_ne.2 h, beq_eq_false_iff_ne.2 (fun c : p.from_ = q.from_ => h c.symm)]
  have e2 : (q.to_ == p.to_) = (p.to_ == q.to_) := by
    by_cases h : q.to_ = p.to_
    · simp [h]
    · simp only [beq_eq_false_iff_ne.2 h, beq_eq_false_iff_ne.2 (fun c : p.to_ = q.to_ => h c.symm)]
  rw [e1, e2]

theorem line_t.lex_cast (l : line_t) (h : l.lex) :
    (0 : ℚ) < (l.y1 : ℚ) - l.y0 ∨ ((l.y1 : ℚ) - l.y0 = 0 ∧ (0 : ℚ) < (l.x1 : ℚ) - l.x0) := by
  rcases h with h | ⟨h1, h2⟩
  · left
    have : (l.y0 : ℚ) < l.y1 := by exact_mod_cast h
    linarith
  · right
    have a : (l.y0 : ℚ) = l.y1 := by exact_mod_cast h1
    have b : (l.x0 : ℚ) < l.x1 := by exact_mod_cast h2
    constructor <;> linarith

/-- Two lines through a common point, with a further point on each: when the
point of the second line is off the first line, the point of the first line
is off the second, and the two lines have different directions. -/
theorem line_t.common_end (l m : line_t) (cx cy px py qx qy : ℚ) (hm : m.lex)
    (l0 : l.det cx cy = 0) (l1 : l.det px py = 0) (m0 : m.det cx cy = 0)
    (m1 : m.det qx qy = 0) (hpc : ¬ (px = cx ∧ py = cy)) (h : l.det qx qy ≠ 0) :
    m.det px py ≠ 0 ∧ ¬ (m.x1 - m.x0 = l.x1 - l.x0 ∧ m.y1 - m.y0 = l.y1 - l.y0) := by
  rw [line_t.det_shift l cx cy _ _ l0] at l1 h
  rw [line_t.det_shift m cx cy _ _ m0] at m1 ⊢
  have hv := line_t.lex_cast m hm
  have hvz : ¬ ((m.x1 : ℚ) - m.x0 = 0 ∧ (m.y1 : ℚ) - m.y0 = 0) := by
    rintro ⟨c1, c2⟩
    rcases hv with k | ⟨-, k⟩ <;> linarith
  constructor
  · intro c
    have hz : ¬ (px - cx = 0 ∧ py - cy = 0) := fun k => hpc ⟨by linarith [k.1], by linarith [k.2]⟩
    have e1 := parallel_of_common (px - cx) (py - cy) ((l.x1 : ℚ) - l.x0) ((l.y1 : ℚ) - l.y0)
      ((m.x1 : ℚ) - m.x0) ((m.y1 : ℚ) - m.y0) hz (by linarith) (by linarith)
    have e2 := parallel_of_common ((m.x1 : ℚ) - m.x0) ((m.y1 : ℚ) - m.y0) (qx - cx) (qy - cy)
      ((l.x1 : ℚ) - l.x0) ((l.y1 : ℚ) - l.y0) hvz (by linarith) (by linarith)
    apply h
    linarith
  · rintro ⟨c1, c2⟩
    have d1 : (m.x1 : ℚ) - m.x0 = (l.x1 : ℚ) - l.x0 := by exact_mod_cast c1
    have d2 : (m.y1 : ℚ) - m.y0 = (l.y1 : ℚ) - l.y0 := by exact_mod_cast c2
    apply h
    rw [← d1, ← d2]
    linarith

/-- The general case of the comparator with the two edges exchanged. -/
theorem general_case_swap (p q f1 f2 : Nat) (w1 w2 : Bool) (a b c d : Int) (r : Bool)
    (hboth : a * b > 0 → c * d > 0 → (c < 0 ↔ ¬ a < 0))
    (h : general_case p q f1 f2 w1 a b c d = .ok r) :
    general_case q p f2 f1 w2 c d a b = .ok (!r) := by
  unfold general_case at h ⊢
  by_cases hab : a * b > 0
  · rw [if_pos hab] at h
    injection h with h
    have ha : a ≠ 0 := by intro c; rw [c] at hab; simp at hab
    by_cases hcd : c * d > 0
    · rw [if_pos hcd, ← h]
      congr 1
      have := hboth hab hcd
      by_cases k : a < 0
      · have k2 : ¬ c < 0 := fun c => this.1 c k
        simp [k, k2]
      · simp [k, this.2 k]
    · rw [if_neg hcd, if_pos hab, ← h]
      congr 1
      rcases lt_or_gt_of_ne ha with k | k
      · simp [k, not_lt.2 (le_of_lt k)]
      · simp [k, not_lt.2 (le_of_lt k)]
  · rw [if_neg hab] at h
    by_cases hcd : c * d > 0
    · rw [if_pos hcd] at h
      rw [if_pos hcd]
      injection h with h
      have hc : c ≠ 0 := by intro k; rw [k] at hcd; simp at hcd
      rw [← h]
      congr 1
      rcases lt_or_gt_of_ne hc with k | k
      · simp [k, not_lt.2 (le_of_lt k)]
      · simp [k, not_lt.2 (le_of_lt k)]
    · rw [if_neg hcd] at h
      exfalso
      split at h
      · split at h
        · split at h <;> exact absurd h (by simp)
        · exact absurd h (by simp)
      · exact absurd h (by simp)
/-- The comparator with its two arguments exchanged: for two different aligned
edges, a comparison that returns a value returns the opposite of the value of
the comparison the other way round. -/
theorem sort_active_edge_swap (s : flattener_t) (p q : Nat) (b : Bool) (hne : p ≠ q)
    (ap : s.aligned p) (aq : s.aligned q) (h : sort_active_edge s p q = .ok b) :
    sort_active_edge s q p = .ok (!b) := by
  obtain ⟨pe, pf, pt, hp, hpf, hpt, cpf, cpt, op, lp, p0, p1⟩ := ap
  obtain ⟨qe, qf, qt, hq, hqf, hqt, cqf, cqt, oq, lq, q0, q1⟩ := aq
  rw [sort_active_edge_eq s p q pe qe pf pt qf qt hne hp hq hpf hpt hqf hqt cpf cpt cqf cqt] at h
  rw [sort_active_edge_eq s q p qe pe qf qt pf pt (fun c => hne c.symm) hq hp hqf hqt hpf hpt
    cqf cqt cpf cpt]
  have hpy : pf.y.val ≤ pt.y.val := by rcases op with k | k; exact le_of_lt k; exact le_of_eq k.1
  have hqy : qf.y.val ≤ qt.y.val := by rcases oq with k | k; exact le_of_lt k; exact le_of_eq k.1
  have hpne : ¬ (pt.x.val = pf.x.val ∧ pt.y.val = pf.y.val) := by
    rintro ⟨c1, c2⟩
    rcases op with k | k
    · linarith
    · linarith [k.2]
  have hqne : ¬ (qt.x.val = qf.x.val ∧ qt.y.val = qf.y.val) := by
    rintro ⟨c1, c2⟩
    rcases oq with k | k
    · linarith
    · linarith [k.2]
  have hpne' : ¬ (pf.x.val = pt.x.val ∧ pf.y.val = pt.y.val) := fun c => hpne ⟨c.1.symm, c.2.symm⟩
  have hqne' : ¬ (qf.x.val = qt.x.val ∧ qf.y.val = qt.y.val) := fun c => hqne ⟨c.1.symm, c.2.symm⟩
  by_cases heq : pe.equals qe = true
  · rw [if_pos heq] at h; exact absurd h (by simp)
  rw [if_neg heq] at h
  rw [edge_t.equals_comm qe pe, if_neg heq]
  by_cases hx : range_overlap pf.x.val pt.x.val qf.x.val qt.x.val
  swap
  · rw [if_pos hx] at h
    rw [if_pos (fun c => hx ((range_overlap_comm _ _ _ _).1 c))]
    injection h with h
    rw [← h]
    congr 1
    have hxne : pf.x.val ≠ qf.x.val := by
      intro c
      apply hx
      unfold range_overlap
      rw [c]
      constructor
      · exact not_lt.2 (le_trans (min_le_left _ _) (le_max_left _ _))
      · exact not_lt.2 (le_trans (min_le_left _ _) (le_max_left _ _))
    rcases lt_or_gt_of_ne hxne with k | k
    · simp [k, not_lt.2 (le_of_lt k)]
    · simp [k, not_lt.2 (le_of_lt k)]
  rw [if_neg (not_not.2 hx)] at h
  rw [if_neg (not_not.2 ((range_overlap_comm _ _ _ _).1 hx))]
  by_cases hy : range_overlap pf.y.val pt.y.val qf.y.val qt.y.val
  swap
  · rw [if_pos hy] at h; exact absurd h (by simp)
  rw [if_neg (not_not.2 hy)] at h
  rw [if_neg (not_not.2 ((range_overlap_comm _ _ _ _).1 hy))]
  by_cases hact : pe.flags.active = true ∨ qe.flags.active = true
  swap
  · rw [if_pos hact] at h; exact absurd h (by simp)
  rw [if_neg (not_not.2 hact)] at h
  rw [if_neg (not_not.2 hact.symm)]
  by_cases hft : pe.from_ = qe.to_
  · rw [if_pos hft] at h; exact absurd h (by simp)
  rw [if_neg hft] at h
  by_cases htf : pe.to_ = qe.from_
  · rw [if_pos htf] at h; exact absurd h (by simp)
  rw [if_neg htf] at h
  rw [if_neg (fun c => htf c.symm), if_neg (fun c => hft c.symm)]
  by_cases hff : pe.from_ = qe.from_
  · rw [if_pos hff] at h
    rw [if_pos hff.symm]
    have e : pf = qf := by
      rw [hff, hqf] at hpf
      injection hpf with hpf
      exact hpf.symm
    subst e
    by_cases hs : sgn (pe.raw.det qt.x.val qt.y.val) ≠ 0
    · rw [if_pos hs] at h
      have hd : pe.raw.det qt.x.val qt.y.val ≠ 0 := fun c => hs ((sgn_eq_zero _).2 c)
      obtain ⟨k1, k2⟩ := line_t.common_end pe.raw qe.raw pf.x.val pf.y.val pt.x.val pt.y.val
        qt.x.val qt.y.val lq p0 p1 q0 q1 hpne hd
      rw [if_pos (fun c => k1 ((sgn_eq_zero _).1 c))]
      exact edgesort_t_swap qe pe b k2 h
    · rw [if_neg hs] at h
      split at h <;> exact absurd h (by simp)
  rw [if_neg hff] at h
  rw [if_neg (fun c => hff c.symm)]
  by_cases htt : pe.to_ = qe.to_
  · rw [if_pos htt] at h
    rw [if_pos htt.symm]
    have e : pt = qt := by
      rw [htt, hqt] at hpt
      injection hpt with hpt
      exact hpt.symm
    subst e
    by_cases hs : sgn (pe.raw.det qf.x.val qf.y.val) ≠ 0
    · rw [if_pos hs] at h
      have hd : pe.raw.det qf.x.val qf.y.val ≠ 0 := fun c => hs ((sgn_eq_zero _).2 c)
      obtain ⟨k1, k2⟩ := line_t.common_end pe.raw qe.raw pt.x.val pt.y.val pf.x.val pf.y.val
        qf.x.val qf.y.val lq p1 p0 q1 q0 hpne' hd
      rw [if_pos (fun c => k1 ((sgn_eq_zero _).1 c))]
      exact edgesort_t_swap pe qe b (fun c => k2 ⟨c.1.symm, c.2.symm⟩) h
    · rw [if_neg hs] at h
      split at h <;> exact absurd h (by simp)
  rw [if_neg htt] at h
  rw [if_neg (fun c => htt c.symm)]
  refine general_case_swap p q _ _ _ _ _ _ _ _ b ?_ h
  intro hab hcd
  rw [sgn_mul_pos] at hab hcd
  rw [sgn_neg_iff, sgn_neg_iff]
  rw [line_t.det_shift qe.raw _ _ _ _ q0] at hab
  rw [line_t.det_shift qe.raw _ _ pt.x.val pt.y.val q0] at hab
  rw [line_t.det_shift pe.raw _ _ _ _ p0] at hcd
  rw [line_t.det_shift pe.raw _ _ qt.x.val qt.y.val p0] at hcd
  rw [line_t.det_shift qe.raw _ _ _ _ q0, line_t.det_shift pe.raw _ _ _ _ p0]
  rw [line_t.det_shift pe.raw _ _ _ _ p0] at p1
  rw [line_t.det_shift qe.raw _ _ _ _ q0] at q1
  have o1 : qf.y.val ≤ pt.y.val := by
    have := hy.2
    rw [max_eq_right hpy, min_eq_left hqy] at this
    exact not_lt.1 this
  have o2 : pf.y.val ≤ qt.y.val := by
    have := hy.1
    rw [max_eq_right hqy, min_eq_left hpy] at this
    exact not_lt.1 this
  have key := opposite_sides ((pe.raw.x1 : ℚ) - pe.raw.x0) ((pe.raw.y1 : ℚ) - pe.raw.y0)
    ((qe.raw.x1 : ℚ) - qe.raw.x0) ((qe.raw.y1 : ℚ) - qe.raw.y0)
    pf.x.val pf.y.val pt.x.val pt.y.val qf.x.val qf.y.val qt.x.val qt.y.val
    (line_t.lex_cast _ lp) (line_t.lex_cast _ lq) (by linarith) (by linarith) o1 o2 hab hcd
  have hcne : (qf.x.val - pf.x.val) * ((pe.raw.y1 : ℚ) - pe.raw.y0) -
      (qf.y.val - pf.y.val) * ((pe.raw.x1 : ℚ) - pe.raw.x0) ≠ 0 := by
    intro c
    rw [c] at hcd
    simp at hcd
  constructor
  · intro c k
    have := key.1 k
    linarith
  · intro k
    rcases lt_or_gt_of_ne hcne with c | c
    · exact c
    · exact absurd (key.2 c) k
/-- C22: the comparator of the active edge list is a consistent strict order.
For two different edges that satisfy the invariants of `add_edge` and `split`
(live, ends at canonical positions, `from` before `to` in sweep order, the raw
line in sweep order through both ends): whenever `cmp(p, q)` returns a value,
neither throwing an event nor failing an assertion, `cmp(q, p)` returns the
opposite value.  So when both comparisons return, exactly one of them returns
true, and two different edges are never equivalent for the ordered set. -/
theorem C22_comparator_consistent (s : flattener_t) (p q : Nat) (b : Bool) (hne : p ≠ q)
    (ap : s.aligned p) (aq : s.aligned q) (h : sort_active_edge s p q = .ok b) :
    sort_active_edge s q p = .ok (!b) :=
  sort_active_edge_swap s p q b hne ap aq h

/-- C22, witness: the parallel edges `(0,0)-(2,4)` and `(1,0)-(3,4)`, the
first one active: `cmp(0, 1)` returns true and `cmp(1, 0)` returns false. -/
theorem C22_comparator_consistent_witness :
    (0 : Nat) ≠ 1 ∧ flattener_t.parallel_example.aligned 0 ∧
      flattener_t.parallel_example.aligned 1 ∧
      sort_active_edge flattener_t.parallel_example 0 1 = .ok true ∧
      sort_active_edge flattener_t.parallel_example 1 0 = .ok (!true) := by
  have a0 : flattener_t.parallel_example.aligned 0 := by
    refine ⟨(⟨⟨0, 0, 2, 4⟩, 0, 1, ⟨1, 0⟩, ⟨0, 0⟩, ⟨false, false, true, false, false, false⟩,
      none, some 0⟩ : edge_t), { below := [(1, 0)], x := ⟨0, 0, 1⟩, y := ⟨0, 0, 1⟩ },
      { above := [(0, 0)], x := ⟨2, 0, 1⟩, y := ⟨4, 0, 1⟩ }, rfl, rfl, rfl, by decide,
      by decide, ?_, Or.inl (by decide), ?_, ?_⟩
    · unfold vertex_t.precedes rat_t.val; norm_num
    · unfold line_t.det rat_t.val; norm_num
    · unfold line_t.det rat_t.val; norm_num
  have a1 : flattener_t.parallel_example.aligned 1 := by
    refine ⟨(⟨⟨1, 0, 3, 4⟩, 2, 3, ⟨1, 0⟩, ⟨0, 0⟩, ⟨false, false, false, false, false, false⟩,
      none, none⟩ : edge_t), { below := [(3, 1)], x := ⟨1, 0, 1⟩, y := ⟨0, 0, 1⟩ },
      { above := [(2, 1)], x := ⟨3, 0, 1⟩, y := ⟨4, 0, 1⟩ }, rfl, rfl, rfl, by decide,
      by decide, ?_, Or.inl (by decide), ?_, ?_⟩
    · unfold vertex_t.precedes rat_t.val; norm_num
    · unfold line_t.det rat_t.val; norm_num
    · unfold line_t.det rat_t.val; norm_num
  have h : sort_active_edge flattener_t.parallel_example 0 1 = .ok true := by rfl
  exact ⟨by decide, a0, a1, h,
    C22_comparator_consistent flattener_t.parallel_example 0 1 true (by decide) a0 a1 h⟩

namespace flattener_t

theorem aligned_transfer {s s1 : flattener_t} {e : Nat} {ed ed1 : edge_t}
    (hg : ∀ (u : Nat) (vu : vertex_t), s.verts[u]? = some vu →
      ∃ vu1 : vertex_t, s1.verts[u]? = some vu1 ∧ vu1.x = vu.x ∧ vu1.y = vu.y)
    (he : s.edge e = .ok ed) (he1 : s1.edge e = .ok ed1) (hc : ed1.core = ed.core)
    (ha : s.aligned e) : s1.aligned e := by
  obtain ⟨ed', vf, vt, h1, h2, h3, h4, h5, h6, h7, h8, h9⟩ := ha
  rw [he] at h1
  injection h1 with h1
  subst h1
  simp only [edge_t.core, Prod.mk.injEq] at hc
  obtain ⟨vf1, a1, a2, a3⟩ := hg _ _ h2
  obtain ⟨vt1, b1, b2, b3⟩ := hg _ _ h3
  refine ⟨ed1, vf1, vt1, he1, by rw [hc.2.1]; exact a1, by rw [hc.2.2.1]; exact b1, ?_, ?_,
    (precedes_congr vf vt vf1 vt1 a2 a3 b2 b3).2 h6, by rw [hc.1]; exact h7, ?_, ?_⟩
  · unfold vertex_t.canonical; rw [a2, a3]; exact h4
  · unfold vertex_t.canonical; rw [b2, b3]; exact h5
  · rw [hc.1, a2, a3]; exact h8
  · rw [hc.1, b2, b3]; exact h9

theorem carried_refl (s : flattener_t) : s.carried s :=
  ⟨rfl, le_refl _, fun _ vu h => ⟨vu, h, rfl, rfl⟩, fun _ ed h => ⟨ed, h, rfl⟩,
    fun _ ed1 h => Or.inl ⟨ed1, h⟩⟩

theorem carried_trans {s s1 s2 : flattener_t} (h : s.carried s1) (k : s1.carried s2) :
    s.carried s2 := by
  obtain ⟨h1, h2, h3, h4, h5⟩ := h
  obtain ⟨k1, k2, k3, k4, k5⟩ := k
  refine ⟨k1.trans h1, le_trans h2 k2, ?_, ?_, ?_⟩
  · intro u vu hu
    obtain ⟨v1, a1, a2, a3⟩ := h3 u vu hu
    obtain ⟨v2, b1, b2, b3⟩ := k3 u v1 a1
    exact ⟨v2, b1, b2.trans a2, b3.trans a3⟩
  · intro e ed he
    obtain ⟨e1, a1, a2⟩ := h4 e ed he
    obtain ⟨e2, b1, b2⟩ := k4 e e1 a1
    exact ⟨e2, b1, b2.trans a2⟩
  · intro e ed2 he
    rcases k5 e ed2 he with ⟨ed1, a⟩ | ⟨a1, a2, a3⟩
    · rcases h5 e ed1 a with ⟨ed, b⟩ | ⟨b1, b2, b3⟩
      · exact Or.inl ⟨ed, b⟩
      · obtain ⟨ed2', c1, c2⟩ := k4 e ed1 a
        rw [he] at c1
        injection c1 with c1
        subst c1
        refine Or.inr ⟨b1, ?_, aligned_transfer k3 a he c2 b3⟩
        simp only [edge_t.core, Prod.mk.injEq] at c2
        rw [c2.2.2.2.1]; exact b2
    · exact Or.inr ⟨le_trans h2 a1, a2, a3⟩

/-- A carried step keeps the edges aligned and the flags synchronized. -/
theorem carried_fit {s s1 : flattener_t} (h : s.carried s1) (ha : s.all_aligned)
    (hs : s.synced) : s1.all_aligned ∧ s1.synced := by
  obtain ⟨h1, h2, h3, h4, h5⟩ := h
  obtain ⟨n1, n2, n3⟩ := hs
  have hlt : ∀ e ∈ s.ael, e < s.edges.length := by
    intro e he
    obtain ⟨ed, hed⟩ := n2 e he
    have := (edge_eq_ok s e ed).1 hed
    by_contra c
    rw [List.getElem?_eq_none (by omega)] at this
    simp at this
  constructor
  · intro e ed1 he1
    rcases h5 e ed1 he1 with ⟨ed, a⟩ | ⟨-, -, a⟩
    · obtain ⟨ed1', b1, b2⟩ := h4 e ed a
      rw [he1] at b1
      injection b1 with b1
      subst b1
      exact aligned_transfer h3 a he1 b2 (ha e ed a)
    · exact a
  · refine ⟨by rw [h1]; exact n1, ?_, ?_⟩
    · intro e he
      rw [h1] at he
      obtain ⟨ed, hed⟩ := n2 e he
      obtain ⟨ed1, a, -⟩ := h4 e ed hed
      exact ⟨ed1, a⟩
    · intro e ed1 he1
      rw [h1]
      rcases h5 e ed1 he1 with ⟨ed, a⟩ | ⟨a1, a2, -⟩
      · obtain ⟨ed1', b1, b2⟩ := h4 e ed a
        rw [he1] at b1
        injection b1 with b1
        subst b1
        simp only [edge_t.core, Prod.mk.injEq] at b2
        rw [b2.2.2.2.1, b2.2.2.2.2]
        exact n3 e ed a
      · constructor
        · constructor
          · intro c; rw [a2] at c; exact absurd c (by simp)
          · intro c; have := hlt e c; omega
        · intro c; rw [a2] at c; exact absurd c (by simp)

/-- A store to an edge that keeps what the list and the comparator read. -/
theorem carried_set_edge {s : flattener_t} {e : Nat} {ed x : edge_t} (he : s.edge e = .ok ed)
    (hc : x.core = ed.core) : s.carried (s.set_edge e x) := by
  have hlen : (s.set_edge e x).edges.length = s.edges.length := by
    unfold set_edge; simp
  refine ⟨rfl, by rw [hlen], fun _ vu h => ⟨vu, h, rfl, rfl⟩, ?_, ?_⟩
  · intro e' ed' he'
    by_cases c : e' = e
    · subst c
      rw [he] at he'
      injection he' with he'
      subst he'
      exact ⟨x, edge_set_edge_self s e' ed x he, hc⟩
    · refine ⟨ed', ?_, rfl⟩
      rw [edge_eq_ok, edges_set_edge_ne s e e' x c, ← edge_eq_ok]; exact he'
  · intro e' ed1 he1
    by_cases c : e' = e
    · subst c; exact Or.inl ⟨ed, he⟩
    · refine Or.inl ⟨ed1, ?_⟩
      rw [edge_eq_ok, edges_set_edge_ne s e e' x c, ← edge_eq_ok] at he1; exact he1

/-- A step that leaves the edges, the active edge list and the positions of the
vertices alone. -/
theorem carried_of_edges {s s1 : flattener_t} (h1 : s1.ael = s.ael) (h2 : s1.edges = s.edges)
    (h3 : ∀ (u : Nat) (vu : vertex_t), s.verts[u]? = some vu →
      ∃ vu1 : vertex_t, s1.verts[u]? = some vu1 ∧ vu1.x = vu.x ∧ vu1.y = vu.y) :
    s.carried s1 := by
  refine ⟨h1, by rw [h2], h3, ?_, ?_⟩
  · intro e ed he
    refine ⟨ed, ?_, rfl⟩
    rw [edge_eq_ok, h2, ← edge_eq_ok]; exact he
  · intro e ed1 he1
    refine Or.inl ⟨ed1, ?_⟩
    rw [edge_eq_ok, h2, ← edge_eq_ok] at he1; exact he1

end flattener_t
namespace flattener_t

theorem inherit_ael {s s1 : flattener_t} {e : Nat} {state : Option Nat} {flip : Bool}
    (h : s.inherit e state flip = .ok s1) : s1.ael = s.ael := by
  unfold inherit at h
  split at h
  · injection h with h; rw [← h]
  · split at h
    · exact absurd h (by simp)
    · exact absurd h (by simp)
    · injection h with h; rw [← h]; rfl

theorem link_below_ael (s : flattener_t) (this q : Nat) (vthis vq : vertex_t) (raw : line_t) :
    (s.link_below this q vthis vq raw).2.ael = s.ael := by
  unfold link_below
  split <;> rfl

theorem link_above_ael (s : flattener_t) (this q : Nat) (vthis vq : vertex_t) (raw : line_t) :
    (s.link_above this q vthis vq raw).2.ael = s.ael := by
  unfold link_above
  split <;> rfl

theorem goes_to_ael {s s1 : flattener_t} {this q : Nat} {raw : line_t} {wind : wind_t}
    {state r : Option Nat} (h : s.goes_to this q raw wind state = .ok (r, s1)) :
    s1.ael = s.ael := by
  unfold goes_to at h
  split at h
  · injection h with h
    injection h with _ h
    rw [← h]
  · cases h1 : s.vertex q with
    | error x => simp only [h1] at h; exact absurd h (by simp)
    | ok vq =>
      cases h2 : s.vertex this with
      | error x => simp only [h1, h2] at h; exact absurd h (by simp)
      | ok vthis =>
        simp only [h1, h2] at h
        cases h3 : vertexsort_t vq vthis with
        | error x => simp only [h3] at h; exact absurd h (by simp)
        | ok flip =>
          simp only [h3] at h
          split at h
          · exact absurd h (by simp)
          · split at h
            · exact absurd h (by simp)
            · rename_i s5 h5
              injection h with h
              injection h with _ h
              rw [← h, inherit_ael h5]
              cases flip with
              | true => exact link_above_ael _ _ _ _ _ _
              | false => exact link_below_ael _ _ _ _ _ _

/-- `goes_to` from a vertex to a later one along a line in sweep order through
both: a carried step. -/
theorem goes_to_carried {s s1 : flattener_t} {this q : Nat} {raw : line_t} {wind : wind_t}
    {state r : Option Nat} {vthis vq : vertex_t} (hl : s.linked)
    (ht : s.verts[this]? = some vthis) (hq : s.verts[q]? = some vq)
    (ct : vthis.canonical) (cq : vq.canonical) (hord : vthis.precedes vq) (hlex : raw.lex)
    (d0 : raw.det vthis.x.val vthis.y.val = 0) (d1 : raw.det vq.x.val vq.y.val = 0)
    (h : s.goes_to this q raw wind state = .ok (r, s1)) : s.carried s1 := by
  have hne : q ≠ this := by
    intro c
    rw [c, ht] at hq
    injection hq with hq
    rw [hq] at hord
    exact vertex_t.precedes_asymm _ _ hord hord
  have hflip : vertexsort_t vq vthis = .ok false := by
    rw [vertexsort_t_eq vq vthis cq ct]
    simp [vertex_t.precedes_asymm vthis vq hord]
  obtain ⟨e, ed1, hr, l1, b1, he1, f1, f2, hcase, fe, fb, hpos, -⟩ :=
    goes_to_forward hl ht hq hne hflip h
  obtain ⟨vthis', vq', flip, e', ed0, ed1', ht', hq', hflip', hr', he1', horig, r1, r2, r3, r4,
    r5, r6, r7, r8, -⟩ := goes_to_fields h hne
  rw [hr] at hr'
  injection hr' with hr'
  subst hr'
  rw [he1] at he1'
  injection he1' with he1'
  subst he1'
  have hlen : s.edges.length ≤ s1.edges.length := (edits_join.goes_to h).2.2.2.2.1
  have hverts : ∀ (u : Nat) (vu : vertex_t), s.verts[u]? = some vu →
      ∃ vu1 : vertex_t, s1.verts[u]? = some vu1 ∧ vu1.x = vu.x ∧ vu1.y = vu.y :=
    fun u vu hu => pos_transfer s s1 u vu (hpos u) hu
  refine ⟨goes_to_ael h, hlen, hverts, ?_, ?_⟩
  · intro x xd hx
    by_cases c : x = e
    · subst c
      rcases horig with a | ⟨a, -⟩
      · rw [hx] at a
        injection a with a
        subst a
        refine ⟨ed1, he1, ?_⟩
        simp only [edge_t.core, Prod.mk.injEq]
        exact ⟨r1, r2, r3, r8, r7⟩
      · have := (edge_eq_ok s x xd).1 hx
        rw [a, List.getElem?_eq_none (le_refl _)] at this
        simp at this
    · refine ⟨xd, ?_, rfl⟩
      rw [edge_eq_ok, fe x c, ← edge_eq_ok]; exact hx
  · intro x xd1 hx
    by_cases c : x = e
    · subst c
      rw [he1] at hx
      injection hx with hx
      subst hx
      rcases hcase with ⟨ed0', a, -⟩ | ⟨a, b, -⟩
      · exact Or.inl ⟨ed0', a⟩
      · right
        rcases horig with a' | ⟨a1, a2⟩
        · have := (edge_eq_ok s x ed0).1 a'
          rw [List.getElem?_eq_none a] at this
          simp at this
        · refine ⟨a, ?_, ?_⟩
          · rw [r8, a2]; rfl
          · obtain ⟨vt1, t1, t2, t3⟩ := hverts this vthis ht
            obtain ⟨vq1, q1, q2, q3⟩ := hverts q vq hq
            refine ⟨ed1, vt1, vq1, he1, by rw [f1]; exact t1, by rw [f2]; exact q1, ?_, ?_,
              (precedes_congr vthis vq vt1 vq1 t2 t3 q2 q3).2 hord, by rw [b]; exact hlex, ?_, ?_⟩
            · unfold vertex_t.canonical; rw [t2, t3]; exact ct
            · unfold vertex_t.canonical; rw [q2, q3]; exact cq
            · rw [b, t2, t3]; exact d0
            · rw [b, q2, q3]; exact d1
    · refine Or.inl ⟨xd1, ?_⟩
      rw [edge_eq_ok, fe x c, ← edge_eq_ok] at hx; exact hx

/-- `push` is a carried step. -/
theorem push_carried {s s1 : flattener_t} {r : Option Nat} (h : s.push r = .ok s1) :
    s.carried s1 := by
  unfold push at h
  cases r with
  | none => exact absurd h (by simp [throw, throwThe, MonadExceptOf.throw])
  | some e =>
    simp only [] at h
    obtain ⟨ed, hed, h⟩ := bind_ok h
    obtain ⟨dot, hdot, h⟩ := bind_ok h
    obtain ⟨vdot, hvdot, h⟩ := bind_ok h
    obtain ⟨vto, hvto, h⟩ := bind_ok h
    split at h
    · rw [← pure_ok h]; exact carried_refl s
    · obtain ⟨c1, -, h⟩ := bind_ok h
      split at h
      · rw [← pure_ok h]; exact carried_refl s
      · obtain ⟨u0, -, h⟩ := bind_ok h
        split at h
        · rw [← pure_ok h]; exact carried_refl s
        · obtain ⟨vfrom, -, h⟩ := bind_ok h
          obtain ⟨c2, -, h⟩ := bind_ok h
          split at h
          · obtain ⟨u1, -, h⟩ := bind_ok h
            rw [← pure_ok h]; exact carried_refl s
          · rw [← pure_ok h]
            have a := @carried_set_edge s e ed
              { ed with flags := { ed.flags with checked := false, todo := true } } hed rfl
            exact carried_trans a
              (carried_of_edges rfl rfl (fun _ vu hu => ⟨vu, hu, rfl, rfl⟩))

theorem unlink_ael {s s1 : flattener_t} {p : Nat} (h : s.unlink p = .ok s1) :
    s1.ael = s.ael := by
  unfold unlink at h
  split at h
  · exact absurd h (by simp)
  · split at h
    · exact absurd h (by simp)
    · dsimp only at h
      split at h
      · exact absurd h (by simp)
      · injection h with h
        rw [← h]; rfl

/-- `unlink` is a carried step. -/
theorem unlink_carried {s s1 : flattener_t} {p : Nat} (h : s.unlink p = .ok s1) :
    s.carried s1 := by
  cases he : s.edge p with
  | error x =>
    unfold unlink at h
    simp only [he] at h
    exact absurd h (by simp)
  | ok ed =>
    obtain ⟨-, -, hedges⟩ := unlink_maps he h
    have hp := (calm_link.unlink h).1.2.2.2.1
    have ha : s1.ael = s.ael := unlink_ael h
    exact carried_of_edges ha hedges (fun u vu hu => pos_transfer s s1 u vu (hp u) hu)

end flattener_t
namespace flattener_t

theorem carried_vertex {s s1 : flattener_t} (h : s.carried s1) {u : Nat} {vu : vertex_t}
    (hu : s.verts[u]? = some vu) :
    ∃ vu1 : vertex_t, s1.verts[u]? = some vu1 ∧ vu1.x = vu.x ∧ vu1.y = vu.y ∧
      (vu.canonical → vu1.canonical) := by
  obtain ⟨vu1, a1, a2, a3⟩ := h.2.2.1 u vu hu
  refine ⟨vu1, a1, a2, a3, ?_⟩
  intro c
  unfold vertex_t.canonical
  rw [a2, a3]; exact c

theorem carried_edge {s s1 : flattener_t} (h : s.carried s1) {e : Nat} {ed : edge_t}
    (he : s.edge e = .ok ed) :
    ∃ ed1, s1.edge e = .ok ed1 ∧ ed1.raw = ed.raw ∧ ed1.from_ = ed.from_ ∧ ed1.to_ = ed.to_ ∧
      ed1.flags.active = ed.flags.active ∧ ed1.aelpos = ed.aelpos := by
  obtain ⟨ed1, a, b⟩ := h.2.2.2.1 e ed he
  simp only [edge_t.core, Prod.mk.injEq] at b
  exact ⟨ed1, a, b.1, b.2.1, b.2.2.1, b.2.2.2.1, b.2.2.2.2⟩

/-- `split` of an aligned edge at a vertex of its raw line: a carried step. -/
theorem split_carried {s s1 : flattener_t} {p v : Nat} {vv : vertex_t} (hs : s.sound)
    (hl : s.linked) (ha : s.aligned p) (hv : s.verts[v]? = some vv)
    (hd : ∀ pd, s.edge p = .ok pd → pd.raw.det vv.x.val vv.y.val = 0)
    (h : s.split p v = .ok s1) : s.carried s1 := by
  obtain ⟨pd, vf, vt, hp, hvf, hvt, cf, ct, hord, hlex, d0, d1⟩ := ha
  have hdv := hd pd hp
  have cv := hs.1 v vv hv
  unfold split at h
  obtain ⟨pe, hpe, h⟩ := bind_ok h
  rw [hp] at hpe
  injection hpe with hpe
  subst hpe
  obtain ⟨u0, -, h⟩ := bind_ok h
  obtain ⟨u1, -, h⟩ := bind_ok h
  split at h
  · obtain ⟨⟨r, t1⟩, hg, h⟩ := bind_ok h
    dsimp only at h
    exact carried_trans (goes_to_carried hl hvf hvt cf ct hord hlex d0 d1 hg) (push_carried h)
  · obtain ⟨dot, -, h⟩ := bind_ok h
    obtain ⟨vdot, -, h⟩ := bind_ok h
    obtain ⟨vv', hvv, h⟩ := bind_ok h
    obtain ⟨vfrom, hvfrom, h⟩ := bind_ok h
    obtain ⟨vto, hvto, h⟩ := bind_ok h
    have e0 : vv' = vv := by
      have := ((vertex_eq_ok s _ _).1 hvv).symm.trans hv
      injection this
    have e1 : vfrom = vf := by
      have := ((vertex_eq_ok s _ _).1 hvfrom).symm.trans hvf
      injection this
    have e2 : vto = vt := by
      have := ((vertex_eq_ok s _ _).1 hvto).symm.trans hvt
      injection this
    subst e0; subst e1; subst e2
    obtain ⟨u2, -, h⟩ := bind_ok h
    obtain ⟨c1, hc1, h⟩ := bind_ok h
    obtain ⟨u3, ha1, h⟩ := bind_ok h
    obtain ⟨c2, hc2, h⟩ := bind_ok h
    obtain ⟨u4, ha2, h⟩ := bind_ok h
    have p1 : vfrom.precedes vv' := by
      rw [vertexsort_t_eq vfrom vv' cf cv] at hc1
      injection hc1 with hc1
      have := assert_ok ha1
      rw [← hc1] at this
      simpa using this
    have p2 : vv'.precedes vto := by
      rw [vertexsort_t_eq vv' vto cv ct] at hc2
      injection hc2 with hc2
      have := assert_ok ha2
      rw [← hc2] at this
      simpa using this
    obtain ⟨⟨r1, t1⟩, hg1, h⟩ := bind_ok h
    dsimp only at h
    obtain ⟨t2, hpush1, h⟩ := bind_ok h
    obtain ⟨pe2, hpe2, h⟩ := bind_ok h
    obtain ⟨⟨r2, t3⟩, hg2, h⟩ := bind_ok h
    dsimp only at h
    have k1 := goes_to_carried hl hvf hv cf cv p1 hlex d0 hdv hg1
    have k2 := carried_trans k1 (push_carried hpush1)
    have l2 : t2.linked :=
      linked_of_keeps (push_keeps hpush1) (linked_of_keeps (goes_to_keeps hg1) hl)
    obtain ⟨pe2', x1, x2, x3, x4, -, -⟩ := carried_edge k2 hp
    rw [hpe2] at x1
    injection x1 with x1
    subst x1
    obtain ⟨vv2, y1, y2, y3, y4⟩ := carried_vertex k2 hv
    obtain ⟨vt2, z1, z2, z3, z4⟩ := carried_vertex k2 hvt
    rw [← x4] at z1
    have k3 := goes_to_carried l2 y1 z1 (y4 cv) (z4 ct)
      ((precedes_congr vv' vto vv2 vt2 y2 y3 z2 z3).2 p2) (by rw [x2]; exact hlex)
      (by rw [x2, y2, y3]; exact hdv) (by rw [x2, z2, z3]; exact d1) hg2
    exact carried_trans k2 (carried_trans k3 (push_carried h))

theorem find_carried {s s1 : flattener_t} {x y : rat_t} {r : Nat} (hs : s.sound)
    (hx : x.canonical) (hy : y.canonical) (h : s.find x y = .ok (r, s1)) : s.carried s1 := by
  obtain ⟨-, g⟩ := steady_find hx hy h hs
  obtain ⟨r0, s0, vr, e0, -, -, -, -, hcase⟩ := find_eq s x y hx hy hs.valid
  rw [h] at e0
  injection e0 with e0
  injection e0 with e01 e02
  subst e01; subst e02
  have ha : s1.ael = s.ael := by
    rcases hcase with ⟨c, -⟩ | ⟨-, -, -, -, -, -, -, c, -⟩
    · rw [c]
    · exact c
  exact carried_of_edges ha (find_edges h) g.1

end flattener_t
/-- The point that `flattener_t::intersect` computes lies on both raw lines. -/
theorem intersect_point_on {p q : line_t} {x y : rat_t} (h : intersect_point p q = .ok (x, y)) :
    p.det x.val y.val = 0 ∧ q.det x.val y.val = 0 := by
  unfold intersect_point at h
  dsimp only at h
  by_cases hd : (q.y1 - q.y0) * (p.x1 - p.x0) - (q.x1 - q.x0) * (p.y1 - p.y0) = 0
  · rw [hd] at h
    unfold rat_t.mk3 rat_t.normalize at h
    simp at h
  · obtain ⟨rx, ex, -, vx⟩ := rat_t.mk3_eq p.x0
      ((p.x1 - p.x0) * ((q.x1 - q.x0) * (p.y0 - q.y0) - (q.y1 - q.y0) * (p.x0 - q.x0)))
      _ hd
    obtain ⟨ry, ey, -, vy⟩ := rat_t.mk3_eq p.y0
      ((p.y1 - p.y0) * ((q.x1 - q.x0) * (p.y0 - q.y0) - (q.y1 - q.y0) * (p.x0 - q.x0)))
      _ hd
    rw [ex, ey] at h
    dsimp only at h
    injection h with h
    injection h with h1 h2
    subst h1; subst h2
    have hd' : ((q.y1 : ℚ) - q.y0) * ((p.x1 : ℚ) - p.x0) -
        ((q.x1 : ℚ) - q.x0) * ((p.y1 : ℚ) - p.y0) ≠ 0 := by
      intro c
      apply hd
      have : (((q.y1 - q.y0) * (p.x1 - p.x0) - (q.x1 - q.x0) * (p.y1 - p.y0) : Int) : ℚ) = 0 := by
        push_cast; exact c
      exact_mod_cast this
    unfold line_t.det
    rw [vx, vy]
    push_cast
    constructor
    · field_simp
      ring
    · field_simp
      ring

namespace flattener_t

theorem carried_aligned {s s1 : flattener_t} (h : s.carried s1) {e : Nat} (ha : s.aligned e) :
    s1.aligned e := by
  obtain ⟨ed, vf, vt, he, r⟩ := ha
  obtain ⟨ed1, a, b⟩ := h.2.2.2.1 e ed he
  exact aligned_transfer h.2.2.1 he a b ⟨ed, vf, vt, he, r⟩

/-- `flattener_t::intersect(p, q)` on two aligned edges: a carried step. -/
theorem intersect_edges_carried {s s1 : flattener_t} {p q : Nat} (hs : s.sound)
    (hl : s.linked) (ap : s.aligned p) (aq : s.aligned q)
    (h : s.intersect_edges p q = .ok s1) : s.carried s1 := by
  unfold intersect_edges at h
  obtain ⟨pe, hpe, h⟩ := bind_ok h
  obtain ⟨qe, hqe, h⟩ := bind_ok h
  obtain ⟨⟨x, y⟩, hxy, h⟩ := bind_ok h
  obtain ⟨⟨v, t1⟩, hf, h⟩ := bind_ok h
  dsimp only at h
  obtain ⟨t2, h2, h⟩ := bind_ok h
  obtain ⟨cx, cy⟩ := intersect_point_canonical hxy
  obtain ⟨dp, dq⟩ := intersect_point_on hxy
  have k1 := find_carried hs cx cy hf
  obtain ⟨s1', -⟩ := steady_find cx cy hf hs
  have l1 : t1.linked := linked_of_keeps (find_keeps hf) hl
  obtain ⟨r0, s0, vr, e0, f1, f2, f3, -, -⟩ := find_eq s x y cx cy hs.valid
  rw [hf] at e0
  injection e0 with e0
  injection e0 with e01 e02
  subst e01; subst e02
  have hv1 := (vertex_eq_ok t1 v vr).1 f1
  obtain ⟨pe1, a1, a2, -⟩ := carried_edge k1 hpe
  obtain ⟨qe1, b1, b2, -⟩ := carried_edge k1 hqe
  have k2 := split_carried s1' l1 (carried_aligned k1 ap) hv1
    (by
      intro pd hpd
      rw [a1] at hpd
      injection hpd with hpd
      rw [← hpd, a2, f2, f3]; exact dp) h2
  obtain ⟨s2', -⟩ := split_rel steady_join steady_flag h2 s1'
  have l2 : t2.linked := linked_of_keeps (split_keeps h2) l1
  obtain ⟨vr2, c1, c2, c3, -⟩ := carried_vertex k2 hv1
  obtain ⟨qe2, d1, d2, -⟩ := carried_edge k2 b1
  have k3 := split_carried s2' l2 (carried_aligned k2 (carried_aligned k1 aq)) c1
    (by
      intro pd hpd
      rw [d1] at hpd
      injection hpd with hpd
      rw [← hpd, d2, b2, c2, c3, f2, f3]; exact dq) h
  exact carried_trans k1 (carried_trans k2 k3)

end flattener_t
namespace flattener_t

theorem aligned_moved {s s1 : flattener_t} {e : Nat} {ed ed1 : edge_t}
    (hg : ∀ (u : Nat) (vu : vertex_t), s.verts[u]? = some vu →
      ∃ vu1 : vertex_t, s1.verts[u]? = some vu1 ∧ vu1.x = vu.x ∧ vu1.y = vu.y)
    (he : s.edge e = .ok ed) (he1 : s1.edge e = .ok ed1) (h1 : ed1.raw = ed.raw)
    (h2 : ed1.from_ = ed.from_) (h3 : ed1.to_ = ed.to_) (ha : s.aligned e) : s1.aligned e := by
  obtain ⟨ed', vf, vt, k1, k2, k3, k4, k5, k6, k7, k8, k9⟩ := ha
  rw [he] at k1
  injection k1 with k1
  subst k1
  obtain ⟨vf1, a1, a2, a3⟩ := hg _ _ k2
  obtain ⟨vt1, b1, b2, b3⟩ := hg _ _ k3
  refine ⟨ed1, vf1, vt1, he1, by rw [h2]; exact a1, by rw [h3]; exact b1, ?_, ?_,
    (precedes_congr vf vt vf1 vt1 a2 a3 b2 b3).2 k6, by rw [h1]; exact k7, ?_, ?_⟩
  · unfold vertex_t.canonical; rw [a2, a3]; exact k4
  · unfold vertex_t.canonical; rw [b2, b3]; exact k5
  · rw [h1, a2, a3]; exact k8
  · rw [h1, b2, b3]; exact k9

theorem released_of_carried {s s1 : flattener_t} (h : s.carried s1) : released [] s s1 := by
  obtain ⟨h1, h2, h3, h4, h5⟩ := h
  refine ⟨by rw [h1]; simp, h2, h3, ?_, h5⟩
  intro e ed he
  obtain ⟨ed1, a, b⟩ := h4 e ed he
  simp only [edge_t.core, Prod.mk.injEq] at b
  exact ⟨ed1, a, b.1, b.2.1, b.2.2.1, fun c => absurd c (List.not_mem_nil _),
    fun _ => ⟨b.2.2.2.1, b.2.2.2.2⟩⟩

theorem released_trans {D1 D2 : List Nat} {s s1 s2 : flattener_t} (h : released D1 s s1)
    (k : released D2 s1 s2) : released (D1 ++ D2) s s2 := by
  obtain ⟨h1, h2, h3, h4, h5⟩ := h
  obtain ⟨k1, k2, k3, k4, k5⟩ := k
  refine ⟨?_, le_trans h2 k2, ?_, ?_, ?_⟩
  · rw [k1, h1, List.filter_filter]
    apply List.filter_congr
    intro x _
    by_cases c1 : x ∈ D1 <;> by_cases c2 : x ∈ D2 <;> simp [c1, c2]
  · intro u vu hu
    obtain ⟨v1, a1, a2, a3⟩ := h3 u vu hu
    obtain ⟨v2, b1, b2, b3⟩ := k3 u v1 a1
    exact ⟨v2, b1, b2.trans a2, b3.trans a3⟩
  · intro e ed he
    obtain ⟨e1, a1, a2, a3, a4, a5, a6⟩ := h4 e ed he
    obtain ⟨e2, b1, b2, b3, b4, b5, b6⟩ := k4 e e1 a1
    refine ⟨e2, b1, b2.trans a2, b3.trans a3, b4.trans a4, ?_, ?_⟩
    · intro c
      by_cases c2 : e ∈ D2
      · exact b5 c2
      · have c1 : e ∈ D1 := by
          rcases List.mem_append.1 c with x | x
          · exact x
          · exact absurd x c2
        rw [(b6 c2).1]; exact a5 c1
    · intro c
      have c1 : e ∉ D1 := fun x => c (List.mem_append_left _ x)
      have c2 : e ∉ D2 := fun x => c (List.mem_append_right _ x)
      exact ⟨(b6 c2).1.trans (a6 c1).1, (b6 c2).2.trans (a6 c1).2⟩
  · intro e ed2 he
    rcases k5 e ed2 he with ⟨ed1, a⟩ | ⟨a1, a2, a3⟩
    · rcases h5 e ed1 a with ⟨ed, b⟩ | ⟨b1, b2, b3⟩
      · exact Or.inl ⟨ed, b⟩
      · obtain ⟨ed2', c1, c2, c3, c4, c5, c6⟩ := k4 e ed1 a
        rw [he] at c1
        injection c1 with c1
        subst c1
        refine Or.inr ⟨b1, ?_, aligned_moved k3 a he c2 c3 c4 b3⟩
        by_cases x : e ∈ D2
        · exact c5 x
        · rw [(c6 x).1]; exact b2
    · exact Or.inr ⟨le_trans h2 a1, a2, a3⟩

/-- A released step keeps the edges aligned and the flags synchronized, and
the released edges are out of the list. -/
theorem released_fit {D : List Nat} {s s1 : flattener_t} (h : released D s s1)
    (ha : s.all_aligned) (hs : s.synced) :
    s1.all_aligned ∧ s1.synced ∧ ∀ e ∈ D, e ∉ s1.ael := by
  obtain ⟨h1, h2, h3, h4, h5⟩ := h
  obtain ⟨n1, n2, n3⟩ := hs
  have hlt : ∀ e ∈ s.ael, e < s.edges.length := by
    intro e he
    obtain ⟨ed, hed⟩ := n2 e he
    have := (edge_eq_ok s e ed).1 hed
    by_contra c
    rw [List.getElem?_eq_none (by omega)] at this
    simp at this
  have hmem : ∀ e, e ∈ s1.ael ↔ e ∈ s.ael ∧ e ∉ D := by
    intro e
    rw [h1, List.mem_filter]
    simp
  refine ⟨?_, ⟨?_, ?_, ?_⟩, ?_⟩
  · intro e ed1 he1
    rcases h5 e ed1 he1 with ⟨ed, a⟩ | ⟨-, -, a⟩
    · obtain ⟨ed1', b1, b2, b3, b4, -⟩ := h4 e ed a
      rw [he1] at b1
      injection b1 with b1
      subst b1
      exact aligned_moved h3 a he1 b2 b3 b4 (ha e ed a)
    · exact a
  · rw [h1]; exact n1.filter _
  · intro e he
    obtain ⟨ed, hed⟩ := n2 e ((hmem e).1 he).1
    obtain ⟨ed1, a, -⟩ := h4 e ed hed
    exact ⟨ed1, a⟩
  · intro e ed1 he1
    rw [hmem]
    rcases h5 e ed1 he1 with ⟨ed, a⟩ | ⟨a1, a2, -⟩
    · obtain ⟨ed1', b1, -, -, -, b5, b6⟩ := h4 e ed a
      rw [he1] at b1
      injection b1 with b1
      subst b1
      by_cases c : e ∈ D
      · have := b5 c
        constructor
        · constructor
          · intro x; rw [this] at x; exact absurd x (by simp)
          · intro x; exact absurd c x.2
        · intro x; rw [this] at x; exact absurd x (by simp)
      · rw [(b6 c).1, (b6 c).2]
        obtain ⟨m1, m2⟩ := n3 e ed a
        exact ⟨⟨fun x => ⟨m1.1 x, c⟩, fun x => m1.2 x.1⟩, m2⟩
    · constructor
      · constructor
        · intro c; rw [a2] at c; exact absurd c (by simp)
        · intro c; have := hlt e c.1; omega
      · intro c; rw [a2] at c; exact absurd c (by simp)
  · intro e he c
    exact ((hmem e).1 c).2 he

/-- An edge that is not in the list counts as released. -/
theorem released_skip {s : flattener_t} {p : Nat} {pe : edge_t} (hp : s.edge p = .ok pe)
    (hi : pe.flags.active = false) (hn : p ∉ s.ael) : released [p] s s := by
  refine ⟨?_, le_refl _, fun _ vu h => ⟨vu, h, rfl, rfl⟩, ?_, fun _ ed1 h => Or.inl ⟨ed1, h⟩⟩
  · symm
    rw [List.filter_eq_self]
    intro x hx
    have : x ≠ p := fun c => hn (c ▸ hx)
    simp [this]
  · intro e ed he
    refine ⟨ed, he, rfl, rfl, rfl, ?_, fun _ => ⟨rfl, rfl⟩⟩
    intro c
    have : e = p := by simpa using c
    subst this
    rw [hp] at he
    injection he with he
    rw [← he]; exact hi

/-- The erasure of an edge from the list with the store to its `active`
flag. -/
theorem released_erase {s : flattener_t} {p : Nat} {pe : edge_t} (hn : s.ael.Nodup)
    (hp : s.edge p = .ok pe) :
    released [p] s ((s.set_ael (s.ael.erase p)).set_edge p
      { pe with flags := { pe.flags with active := false } }) := by
  have hp' : (s.set_ael (s.ael.erase p)).edge p = .ok pe := hp
  refine ⟨?_, ?_, fun _ vu h => ⟨vu, h, rfl, rfl⟩, ?_, ?_⟩
  · show s.ael.erase p = _
    rw [hn.erase_eq_filter]
    apply List.filter_congr
    intro x _
    by_cases c : x = p <;> simp [c]
  · show s.edges.length ≤ (s.edges.set p _).length
    simp
  · intro e ed he
    by_cases c : e = p
    · subst c
      rw [hp] at he
      injection he with he
      subst he
      exact ⟨_, edge_set_edge_self _ e pe _ hp', rfl, rfl, rfl, fun _ => rfl,
        fun x => absurd (List.mem_singleton.2 rfl) x⟩
    · refine ⟨ed, ?_, rfl, rfl, rfl, fun x => absurd (List.mem_singleton.1 x) c,
        fun _ => ⟨rfl, rfl⟩⟩
      rw [edge_eq_ok, edges_set_edge_ne _ p e _ c]
      exact (edge_eq_ok s e ed).1 he
  · intro e ed1 he1
    by_cases c : e = p
    · subst c; exact Or.inl ⟨pe, hp⟩
    · refine Or.inl ⟨ed1, ?_⟩
      rw [edge_eq_ok, edges_set_edge_ne _ p e _ c] at he1
      exact (edge_eq_ok s e ed1).2 he1

/-- The start of the handler of `insert` releases the edge. -/
theorem retire_released {s s1 : flattener_t} {p : Nat} (hs : s.synced)
    (h : s.retire p = .ok s1) : released [p] s s1 := by
  unfold retire at h
  obtain ⟨pe, hpe, h⟩ := bind_ok h
  obtain ⟨t1, h1, h⟩ := bind_ok h
  obtain ⟨t2, h2, h⟩ := bind_ok h
  obtain ⟨pe2, hpe2, h⟩ := bind_ok h
  have k1 : released [p] s t1 := by
    split at h1
    · rename_i hact
      obtain ⟨pos, hpos, h1⟩ := bind_ok h1
      have := (hs.2.2 p pe hpe).2 hact
      rw [this] at hpos
      injection hpos with hpos
      subst hpos
      rw [← pure_ok h1]
      exact released_erase hs.1 hpe
    · rename_i hact
      rw [← pure_ok h1]
      have hi : pe.flags.active = false := by simpa using hact
      refine released_skip hpe hi ?_
      intro c
      have := ((hs.2.2 p pe hpe).1).2 c
      rw [hi] at this
      exact absurd this (by simp)
  have k2 := released_of_carried (unlink_carried h2)
  have k3 := released_of_carried (@carried_set_edge t2 p pe2
    { pe2 with flags := { pe2.flags with checked := false } } hpe2 rfl)
  rw [← pure_ok h]
  have := released_trans (released_trans k1 k2) k3
  simpa using this

/-- The deletion of an edge that is not in the list. -/
theorem delete_fit {s : flattener_t} {p : Nat} (ha : s.all_aligned) (hs : s.synced)
    (hn : p ∉ s.ael) : (s.delete_edge p).all_aligned ∧ (s.delete_edge p).synced := by
  have hne : ∀ e ed, (s.delete_edge p).edge e = .ok ed → e ≠ p ∧ s.edge e = .ok ed := by
    intro e ed he
    have h1 := (edge_eq_ok _ e ed).1 he
    unfold delete_edge at h1
    simp only [List.getElem?_set] at h1
    by_cases c : p = e
    · rw [if_pos c] at h1
      split at h1 <;> simp at h1
    · rw [if_neg c] at h1
      exact ⟨fun x => c x.symm, (edge_eq_ok s e ed).2 h1⟩
  have hback : ∀ e ed, e ≠ p → s.edge e = .ok ed → (s.delete_edge p).edge e = .ok ed := by
    intro e ed c he
    rw [edge_eq_ok]
    unfold delete_edge
    simp only [List.getElem?_set]
    rw [if_neg (fun x => c x.symm)]
    exact (edge_eq_ok s e ed).1 he
  constructor
  · intro e ed he
    obtain ⟨c, he'⟩ := hne e ed he
    obtain ⟨ed', vf, vt, k1, r⟩ := ha e ed he'
    exact ⟨ed', vf, vt, hback e ed' c k1, r⟩
  · refine ⟨hs.1, ?_, ?_⟩
    · intro e he
      obtain ⟨ed, hed⟩ := hs.2.1 e he
      exact ⟨ed, hback e ed (fun c => hn (c ▸ he)) hed⟩
    · intro e ed he
      exact hs.2.2 e ed (hne e ed he).2

end flattener_t
theorem line_t.lex_ne (l : line_t) (h : l.lex) : ¬ (l.x0 = l.x1 ∧ l.y0 = l.y1) := by
  rintro ⟨c1, c2⟩
  rcases h with k | ⟨-, k⟩ <;> omega

set_option maxHeartbeats 2000000 in
/-- An event of the comparator on two different aligned edges: the two edges
of the event are the two edges compared, and the vertex of a split event lies
on the raw lines of both. -/
theorem sort_active_edge_event {s : flattener_t} {x y p q : Nat} {v : Option Nat}
    {f : flavour} (hne : x ≠ y) (ax : s.aligned x) (ay : s.aligned y)
    (h : sort_active_edge s x y = .error (.action_t p q v f)) :
    ((p = x ∧ q = y) ∨ (p = y ∧ q = x)) ∧
    (f = .split → ∃ w vv, v = some w ∧ s.verts[w]? = some vv ∧
      (∀ xd, s.edge x = .ok xd → xd.raw.det vv.x.val vv.y.val = 0) ∧
      (∀ yd, s.edge y = .ok yd → yd.raw.det vv.x.val vv.y.val = 0)) := by
  obtain ⟨xe, xf, xt, hx, hxf, hxt, cxf, cxt, ox, lx, x0, x1⟩ := ax
  obtain ⟨ye, yf, yt, hy, hyf, hyt, cyf, cyt, oy, ly, y0, y1⟩ := ay
  rw [sort_active_edge_eq s x y xe ye xf xt yf yt hne hx hy hxf hxt hyf hyt cxf cxt cyf cyt] at h
  have hxne : ¬ (xf.x.val = xt.x.val ∧ xf.y.val = xt.y.val) := by
    rintro ⟨c1, c2⟩
    rcases ox with k | k
    · linarith
    · linarith [k.2]
  have hyne : ¬ (yf.x.val = yt.x.val ∧ yf.y.val = yt.y.val) := by
    rintro ⟨c1, c2⟩
    rcases oy with k | k
    · linarith
    · linarith [k.2]
  have fin : ∀ (a b : Nat) (w : Nat) (vv : vertex_t),
      (Except.error (fault.action_t a b (some w) flavour.split) : Except fault Bool) =
        .error (.action_t p q v f) →
      ((a = x ∧ b = y) ∨ (a = y ∧ b = x)) → s.verts[w]? = some vv →
      xe.raw.det vv.x.val vv.y.val = 0 → ye.raw.det vv.x.val vv.y.val = 0 →
      ((p = x ∧ q = y) ∨ (p = y ∧ q = x)) ∧
      (f = .split → ∃ w vv, v = some w ∧ s.verts[w]? = some vv ∧
        (∀ xd, s.edge x = .ok xd → xd.raw.det vv.x.val vv.y.val = 0) ∧
        (∀ yd, s.edge y = .ok yd → yd.raw.det vv.x.val vv.y.val = 0)) := by
    intro a b w vv e hab hw d1 d2
    injection e with e
    injection e with e1 e2 e3 e4
    subst e1; subst e2; subst e3
    refine ⟨hab, fun _ => ⟨w, vv, rfl, hw, ?_, ?_⟩⟩
    · intro xd hxd
      rw [hx] at hxd
      injection hxd with hxd
      rw [← hxd]; exact d1
    · intro yd hyd
      rw [hy] at hyd
      injection hyd with hyd
      rw [← hyd]; exact d2
  split at h
  · exact absurd h (by simp)
  split at h
  · exact absurd h (by simp)
  split at h
  · exact absurd h (by simp)
  split at h
  · exact absurd h (by simp)
  split at h
  · exact absurd h (by simp)
  split at h
  · exact absurd h (by simp)
  split at h
  · rename_i hff
    have e : xf = yf := by
      rw [hff, hyf] at hxf
      injection hxf with hxf
      exact hxf.symm
    subst e
    split at h
    · exact absurd h (edgesort_t_no_action _ _ _ _ _ _)
    · rename_i hs
      have hd : xe.raw.det yt.x.val yt.y.val = 0 := (sgn_eq_zero _).1 (not_not.1 hs)
      have hxt' : ye.raw.det xt.x.val xt.y.val = 0 :=
        line_t.det_of_two xe.raw ye.raw (line_t.lex_ne _ lx) xf.x.val xf.y.val yt.x.val yt.y.val
          xt.x.val xt.y.val x0 hd x1 hyne y0 y1
      split at h
      · exact fin _ _ _ xt h (Or.inr ⟨rfl, rfl⟩) hxt x1 hxt'
      · exact fin _ _ _ yt h (Or.inl ⟨rfl, rfl⟩) hyt hd y1
  split at h
  · rename_i htt
    have e : xt = yt := by
      rw [htt, hyt] at hxt
      injection hxt with hxt
      exact hxt.symm
    subst e
    split at h
    · exact absurd h (edgesort_t_no_action _ _ _ _ _ _)
    · rename_i hs
      have hd : xe.raw.det yf.x.val yf.y.val = 0 := (sgn_eq_zero _).1 (not_not.1 hs)
      have hxf' : ye.raw.det xf.x.val xf.y.val = 0 :=
        line_t.det_of_two xe.raw ye.raw (line_t.lex_ne _ lx) xt.x.val xt.y.val yf.x.val yf.y.val
          xf.x.val xf.y.val x1 hd x0 (fun c => hyne ⟨c.1.symm, c.2.symm⟩) y1 y0
      split at h
      · exact fin _ _ _ yf h (Or.inl ⟨rfl, rfl⟩) hyf hd y0
      · exact fin _ _ _ xf h (Or.inr ⟨rfl, rfl⟩) hxf x0 hxf'
  unfold general_case at h
  split at h
  · exact absurd h (by simp)
  split at h
  · exact absurd h (by simp)
  split at h
  · rename_i hab
    split at h
    · rename_i hcd
      have da : ye.raw.det xf.x.val xf.y.val = 0 := (sgn_eq_zero _).1 hab.1
      have dc : xe.raw.det yf.x.val yf.y.val = 0 := (sgn_eq_zero _).1 hcd.1
      split at h
      · exact fin _ _ _ yf h (Or.inl ⟨rfl, rfl⟩) hyf dc y0
      · exact fin _ _ _ xf h (Or.inr ⟨rfl, rfl⟩) hxf x0 da
    · exact absurd h (by simp)
  · injection h with h
    injection h with e1 e2 e3 e4
    refine ⟨Or.inl ⟨e1.symm, e2.symm⟩, ?_⟩
    intro c
    rw [c] at e4
    exact absurd e4 (by simp)

/-! ## The active flags and the active edge list -/

namespace flattener_t

theorem sort_active_edge_ne {s : flattener_t} {x y p q : Nat} {v : Option Nat} {f : flavour}
    (h : sort_active_edge s x y = .error (.action_t p q v f)) : x ≠ y := by
  intro c
  unfold sort_active_edge at h
  rw [if_pos c] at h
  exact absurd h (by simp [pure, Except.pure])

/-- The handler of `insert` for an event of the comparator: the two edges of
the event leave the active edge list, everything else stays in place, and the
state stays aligned and synchronized. -/
theorem collide_fit {s s1 : flattener_t} {e p q : Nat} {v : Option Nat} {f : flavour}
    (ht : s.tame) (hev : ∃ x y, sort_active_edge s x y = .error (.action_t p q v f))
    (h : s.collide e p q v f = .ok s1) :
    s1.all_aligned ∧ s1.synced ∧ s1.ael = s.ael.filter (fun a => decide (a ∉ [p, q])) ∧
      (e = p ∨ e = q) := by
  obtain ⟨hs, hl, ha, hy⟩ := ht
  obtain ⟨x, y, hxy⟩ := hev
  have hne := sort_active_edge_ne hxy
  obtain ⟨xe, ye, -, -, -, -, hx, hy', -⟩ := sort_active_edge_action hs.1 hxy
  have ax := ha x xe hx
  have ay := ha y ye hy'
  obtain ⟨hpq, hsplit⟩ := sort_active_edge_event hne ax ay hxy
  have ap : s.aligned p := by
    rcases hpq with ⟨c, -⟩ | ⟨c, -⟩ <;> rw [c] <;> assumption
  have aq : s.aligned q := by
    rcases hpq with ⟨-, c⟩ | ⟨-, c⟩ <;> rw [c] <;> assumption
  obtain ⟨pd, -, -, hp, -⟩ := ap
  obtain ⟨qd, -, -, hq, -⟩ := aq
  unfold collide at h
  obtain ⟨ed, hed, h⟩ := bind_ok h
  obtain ⟨u0, -, h⟩ := bind_ok h
  obtain ⟨u1, hepq, h⟩ := bind_ok h
  obtain ⟨u2, -, h⟩ := bind_ok h
  obtain ⟨t1, h1, h⟩ := bind_ok h
  obtain ⟨t2, h2, h⟩ := bind_ok h
  obtain ⟨t3, h3, h⟩ := bind_ok h
  obtain ⟨pe3, hpe3, h⟩ := bind_ok h
  obtain ⟨u3, -, h⟩ := bind_ok h
  have hepq' : e = p ∨ e = q := by simpa using assert_ok hepq
  have k1 := retire_released hy h1
  obtain ⟨a1, y1, -⟩ := released_fit k1 ha hy
  obtain ⟨s1', -⟩ := retire_rel steady_link steady_flag h1 hs
  have i1 := retire_inv (⟨hl, fun _ hp => absurd hp (List.not_mem_nil _)⟩ : s.inv []) h1
  have k2 := retire_released y1 h2
  obtain ⟨a2, y2, -⟩ := released_fit k2 a1 y1
  obtain ⟨s2', -⟩ := retire_rel steady_link steady_flag h2 s1'
  have i2 := retire_inv i1 h2
  have k12 := released_trans k1 k2
  obtain ⟨pd2, hp2, rp2, -⟩ := k12.2.2.2.1 p pd hp
  obtain ⟨qd2, hq2, rq2, -⟩ := k12.2.2.2.1 q qd hq
  have ap2 := a2 p pd2 hp2
  have aq2 := a2 q qd2 hq2
  have hfil : ∀ l : List Nat, l.filter (fun a => decide (a ∉ [p] ++ [q] ++ [])) =
      l.filter (fun a => decide (a ∉ [p, q])) := by
    intro l
    apply List.filter_congr
    intro a _
    simp
  have key : t3.all_aligned ∧ t3.synced ∧
      t3.ael = s.ael.filter (fun a => decide (a ∉ [p, q])) := by
    cases f with
    | intersect =>
      simp only [] at h3
      obtain ⟨t, g1, h3⟩ := bind_ok h3
      obtain ⟨qe, hqe, h3⟩ := bind_ok h3
      obtain ⟨u4, -, h3⟩ := bind_ok h3
      have kc := intersect_edges_carried s2' i2.1 ap2 aq2 g1
      have tot := released_trans k12 (released_of_carried kc)
      obtain ⟨a3, y3, n3⟩ := released_fit tot ha hy
      have hq3 : q ∉ t.ael := n3 q (by simp)
      obtain ⟨a4, y4⟩ := delete_fit a3 y3 hq3
      rw [← pure_ok h3]
      refine ⟨a4, y4, ?_⟩
      show t.ael = _
      rw [tot.1, hfil]
    | split =>
      simp only [] at h3
      obtain ⟨w, hw, h3⟩ := bind_ok h3
      obtain ⟨t, g1, h3⟩ := bind_ok h3
      obtain ⟨w', vv, e1, hvv, dx, dy⟩ := hsplit rfl
      rw [e1] at hw
      injection hw with hw
      subst hw
      have dp : pd.raw.det vv.x.val vv.y.val = 0 := by
        rcases hpq with ⟨c, -⟩ | ⟨c, -⟩
        · exact dx pd (c ▸ hp)
        · exact dy pd (c ▸ hp)
      have dq : qd.raw.det vv.x.val vv.y.val = 0 := by
        rcases hpq with ⟨-, c⟩ | ⟨-, c⟩
        · exact dy qd (c ▸ hq)
        · exact dx qd (c ▸ hq)
      obtain ⟨vv2, b1, b2, b3⟩ := k12.2.2.1 w' vv hvv
      have kc1 := split_carried s2' i2.1 ap2 b1
        (by
          intro x hx
          rw [hp2] at hx
          injection hx with hx
          rw [← hx, rp2, b2, b3]; exact dp) g1
      obtain ⟨s3', -⟩ := split_rel steady_join steady_flag g1 s2'
      have l3 : t.linked := linked_of_keeps (split_keeps g1) i2.1
      obtain ⟨vv3, c1, c2, c3, -⟩ := carried_vertex kc1 b1
      obtain ⟨qd3, hq3, rq3, -⟩ := carried_edge kc1 hq2
      have kc2 := split_carried s3' l3 (carried_aligned kc1 aq2) c1
        (by
          intro x hx
          rw [hq3] at hx
          injection hx with hx
          rw [← hx, rq3, rq2, c2, c3, b2, b3]; exact dq) h3
      have tot := released_trans k12 (released_of_carried (carried_trans kc1 kc2))
      obtain ⟨a3, y3, -⟩ := released_fit tot ha hy
      refine ⟨a3, y3, ?_⟩
      rw [tot.1, hfil]
  obtain ⟨a3, y3, e3⟩ := key
  have hp3 : p ∉ t3.ael := by
    rw [e3]
    intro c
    have := (List.mem_filter.1 c).2
    simp at this
  obtain ⟨a4, y4⟩ := delete_fit a3 y3 hp3
  rw [← pure_ok h]
  exact ⟨a4, y4, e3, hepq'⟩

/-- A store to the flags and the iterator of an edge keeps the edges
aligned. -/
theorem aligned_set_edge {s : flattener_t} {e : Nat} {ed x : edge_t} (ha : s.all_aligned)
    (he : s.edge e = .ok ed) (h1 : x.raw = ed.raw) (h2 : x.from_ = ed.from_)
    (h3 : x.to_ = ed.to_) (l : List Nat) : ((s.set_ael l).set_edge e x).all_aligned := by
  have he' : (s.set_ael l).edge e = .ok ed := he
  have hg : ∀ (u : Nat) (vu : vertex_t), s.verts[u]? = some vu →
      ∃ vu1 : vertex_t, ((s.set_ael l).set_edge e x).verts[u]? = some vu1 ∧ vu1.x = vu.x ∧
        vu1.y = vu.y := fun _ vu h => ⟨vu, h, rfl, rfl⟩
  intro e' ed' h'
  by_cases c : e' = e
  · subst c
    have k := edge_set_edge_self (s.set_ael l) e' ed x he'
    rw [h'] at k
    injection k with k
    subst k
    exact aligned_moved hg he h' h1 h2 h3 (ha e' ed he)
  · have k : s.edge e' = .ok ed' := by
      rw [edge_eq_ok, edges_set_edge_ne _ e e' x c] at h'
      exact (edge_eq_ok s e' ed').2 h'
    exact aligned_moved hg k h' rfl rfl rfl (ha e' ed' k)

/-- `insert` keeps the state of the sweep; an insertion that returns puts the
edge into the list, an insertion that throws takes the two edges of the event
out of it. -/
theorem insert_tame {ins : ael_insert_t} (hc : ins.comparing) (hi : ins.is_set)
    {s s1 : flattener_t} {e : Nat} (ht : s.tame) (h : s.insert ins e = .ok s1) :
    s1.tame ∧ ∀ ed, s.edge e = .ok ed → ed.flags.active = false →
      (∀ l pos, ins s e = .ok (l, pos) → pos = e ∧ s1.ael = l ∧
        ∃ l1 l2, s.ael = l1 ++ l2 ∧ l = l1 ++ e :: l2) ∧
      (∀ p q v f, ins s e = .error (.action_t p q v f) →
        s1.ael = s.ael.filter (fun a => decide (a ∉ [p, q])) ∧ (e = p ∨ e = q)) := by
  have hs1 := (insert_rel steady_find_steps steady_join steady_link steady_flag h ht.1).1
  have hl1 := linked_of_keeps (insert_keeps h) ht.2.1
  obtain ⟨hs, hl, ha, hy⟩ := ht
  unfold insert at h
  obtain ⟨ed, hed, h⟩ := bind_ok h
  split at h
  · rename_i hact
    rw [← pure_ok h]
    refine ⟨⟨hs, hl, ha, hy⟩, ?_⟩
    intro ed' he' hi'
    rw [hed] at he'
    injection he' with he'
    rw [he'] at hact
    rw [hi'] at hact
    exact absurd hact (by simp)
  · rename_i hact
    have hia : ed.flags.active = false := by simpa using hact
    have hnot : e ∉ s.ael := by
      intro c
      have := ((hy.2.2 e ed hed).1).2 c
      rw [hia] at this
      exact absurd this (by simp)
    split at h
    · rename_i ael1 pos hins
      have hset : pos = e ∧ ∃ l1 l2, s.ael = l1 ++ l2 ∧ ael1 = l1 ++ e :: l2 := by
        rcases hi s e ael1 pos hins with a | ⟨-, b1, b2, b3⟩
        · exact a
        · exfalso
          have hne : e ≠ pos := fun c => hnot (c ▸ b1)
          obtain ⟨pd, hpd⟩ := hy.2.1 pos b1
          have := sort_active_edge_swap s e pos false hne (ha e ed hed) (ha pos pd hpd) b2
          rw [b3] at this
          injection this with this
          exact absurd this (by simp)
      obtain ⟨hpos, l1, l2, e1, e2⟩ := hset
      subst hpos
      have e0 := pure_ok h
      subst e0
      have hself := edge_set_edge_self (s.set_ael ael1) pos ed
        { ed with aelpos := some pos, flags := { ed.flags with active := true } } hed
      refine ⟨⟨hs1, hl1, ?_, ?_⟩, ?_⟩
      · exact @aligned_set_edge s pos ed
          { ed with aelpos := some pos, flags := { ed.flags with active := true } } ha hed
          rfl rfl rfl ael1
      · refine ⟨?_, ?_, ?_⟩
        · show ael1.Nodup
          rw [e2]
          apply List.nodup_middle.2
          rw [← e1]
          exact List.nodup_cons.2 ⟨hnot, hy.1⟩
        · intro x hx
          by_cases c : x = pos
          · rw [c]; exact ⟨_, hself⟩
          · have hx' : x ∈ s.ael := by
              have : x ∈ ael1 := hx
              rw [e2] at this
              rw [e1]
              rcases List.mem_append.1 this with k | k
              · exact List.mem_append_left _ k
              · rcases List.mem_cons.1 k with k | k
                · exact absurd k c
                · exact List.mem_append_right _ k
            obtain ⟨xd, hxd⟩ := hy.2.1 x hx'
            refine ⟨xd, ?_⟩
            rw [edge_eq_ok, edges_set_edge_ne _ pos x _ c]
            exact (edge_eq_ok s x xd).1 hxd
        · intro x xd hxd
          have hmem : x ∈ ael1 ↔ (x = pos ∨ x ∈ s.ael) := by
            rw [e2, e1]
            simp only [List.mem_append, List.mem_cons]
            tauto
          show (xd.flags.active = true ↔ x ∈ ael1) ∧ _
          rw [hmem]
          by_cases c : x = pos
          · subst c
            rw [hself] at hxd
            injection hxd with hxd
            rw [← hxd]
            exact ⟨⟨fun _ => Or.inl rfl, fun _ => rfl⟩, fun _ => rfl⟩
          · have k : s.edge x = .ok xd := by
              rw [edge_eq_ok, edges_set_edge_ne _ pos x _ c] at hxd
              exact (edge_eq_ok s x xd).2 hxd
            obtain ⟨m1, m2⟩ := hy.2.2 x xd k
            exact ⟨⟨fun a => Or.inr (m1.1 a), fun a => by
              rcases a with a | a
              · exact absurd a c
              · exact m1.2 a⟩, m2⟩
      · intro ed' he' _
        refine ⟨?_, ?_⟩
        · intro l pos' hl'
          rw [hins] at hl'
          injection hl' with hl'
          injection hl' with k1 k2
          subst k1; subst k2
          exact ⟨rfl, rfl, l1, l2, e1, e2⟩
        · intro p q v f hf
          rw [hins] at hf
          exact absurd hf (by simp)
    · rename_i p q v f hins
      obtain ⟨a1, y1, e1, e2⟩ := collide_fit ⟨hs, hl, ha, hy⟩ (hc s e p q v f hins) h
      refine ⟨⟨hs1, hl1, a1, y1⟩, ?_⟩
      intro ed' he' _
      refine ⟨?_, ?_⟩
      · intro l pos hl'
        rw [hins] at hl'
        exact absurd hl' (by simp)
      · intro p' q' v' f' hf
        rw [hins] at hf
        injection hf with hf
        injection hf with k1 k2 k3 k4
        subst k1; subst k2
        exact ⟨e1, e2⟩
    · exact absurd h (by simp)

end flattener_t
namespace flattener_t

theorem carried_fit2 {s s1 : flattener_t} (h : s.carried s1) (ha : s.all_aligned)
    (hy : s.synced) : s1.all_aligned ∧ s1.synced := by
  obtain ⟨a, y, -⟩ := released_fit (released_of_carried h) ha hy
  exact ⟨a, y⟩

theorem sweep_above_fit {l : List (Nat × Nat)} :
    ∀ {s s1 : flattener_t} {next next1 : Option Nat}, s.all_aligned → s.synced →
      s.sweep_above next l = .ok (next1, s1) → s1.all_aligned ∧ s1.synced := by
  induction l with
  | nil =>
    intro s s1 next next1 ha hy h
    unfold sweep_above at h
    have := pure_ok h
    injection this with _ this
    rw [← this]; exact ⟨ha, hy⟩
  | cons a rest ih =>
    intro s s1 next next1 ha hy h
    obtain ⟨k, e⟩ := a
    unfold sweep_above at h
    obtain ⟨ed, hed, h⟩ := bind_ok h
    split at h
    · rename_i hact
      obtain ⟨pos, hpos, h⟩ := bind_ok h
      obtain ⟨n1, -, h⟩ := bind_ok h
      have := (hy.2.2 e ed hed).2 hact
      rw [this] at hpos
      injection hpos with hpos
      subst hpos
      obtain ⟨a1, y1, -⟩ := released_fit (released_erase hy.1 hed) ha hy
      exact ih a1 y1 h
    · exact ih ha hy h

theorem todo_push_back_carried {s s1 : flattener_t} {e : Nat}
    (h : s.todo_push_back e = .ok s1) : s.carried s1 := by
  unfold todo_push_back at h
  obtain ⟨ed, hed, h⟩ := bind_ok h
  split at h
  · rw [← pure_ok h]
    have a := @carried_set_edge s e ed { ed with flags := { ed.flags with todo := true } }
      hed rfl
    exact carried_trans a (carried_of_edges rfl rfl (fun _ vu hu => ⟨vu, hu, rfl, rfl⟩))
  · rw [← pure_ok h]; exact carried_refl s

theorem sweep_next_fit {s s1 : flattener_t} {next : Option Nat} (ha : s.all_aligned)
    (hy : s.synced) (h : s.sweep_next next = .ok s1) : s1.all_aligned ∧ s1.synced := by
  unfold sweep_next at h
  cases next with
  | none => rw [← pure_ok h]; exact ⟨ha, hy⟩
  | some e =>
    simp only [] at h
    obtain ⟨ed, hed, h⟩ := bind_ok h
    obtain ⟨u0, -, h⟩ := bind_ok h
    obtain ⟨a1, y1, -⟩ := released_fit (released_erase hy.1 hed) ha hy
    exact carried_fit2 (todo_push_back_carried h) a1 y1

theorem sweep_below_fit {l : List (Nat × Nat)} :
    ∀ {s s1 : flattener_t}, s.all_aligned → s.synced → s.sweep_below l = .ok s1 →
      s1.all_aligned ∧ s1.synced := by
  induction l with
  | nil =>
    intro s s1 ha hy h
    unfold sweep_below at h
    rw [← pure_ok h]; exact ⟨ha, hy⟩
  | cons a rest ih =>
    intro s s1 ha hy h
    obtain ⟨k, e⟩ := a
    unfold sweep_below at h
    obtain ⟨ed, hed, h⟩ := bind_ok h
    obtain ⟨u0, -, h⟩ := bind_ok h
    obtain ⟨t, h1, h⟩ := bind_ok h
    obtain ⟨a1, y1⟩ := carried_fit2 (todo_push_back_carried h1) ha hy
    exact ih a1 y1 h

theorem sweep_todo_tame {ins : ael_insert_t} (hc : ins.comparing) (hi : ins.is_set)
    {fuel : Nat} : ∀ {s s1 : flattener_t}, s.tame → sweep_todo ins fuel s = .ok s1 → s1.tame := by
  induction fuel with
  | zero =>
    intro s s1 _ h
    unfold sweep_todo at h
    exact absurd h (by simp)
  | succ n ih =>
    intro s s1 ht h
    unfold sweep_todo at h
    split at h
    · rw [← pure_ok h]; exact ht
    · rename_i e rest hrest
      obtain ⟨ed, hed, h⟩ := bind_ok h
      obtain ⟨u0, -, h⟩ := bind_ok h
      have hed' : (s.set_todo rest).edge e = .ok ed := hed
      have t1 : ((s.set_todo rest).set_edge e
          { ed with flags := { ed.flags with todo := false } }).tame := by
        obtain ⟨hs, hl, ha, hy⟩ := ht
        have s0 := (steady_flag.set_todo s rest hs).1
        have s1' := (steady_flag.set_edge ed.wind ed.checked_wind
          { ed.flags with todo := false } ed.aelpos hed' s0).1
        have l0 := linked_of_keeps (keeps_set_todo s rest) hl
        have l1 := linked_of_keeps (keeps_update hed' ed.raw ed.wind ed.checked_wind
          { ed.flags with todo := false } ed.pin_set ed.aelpos) l0
        have c0 : s.carried (s.set_todo rest) :=
          carried_of_edges rfl rfl (fun _ vu hu => ⟨vu, hu, rfl, rfl⟩)
        have c1 := @carried_set_edge (s.set_todo rest) e ed
          { ed with flags := { ed.flags with todo := false } } hed' rfl
        obtain ⟨a1, y1⟩ := carried_fit2 (carried_trans c0 c1) ha hy
        exact ⟨s1', l1, a1, y1⟩
      split at h
      · exact ih t1 h
      · obtain ⟨t2, h2, h⟩ := bind_ok h
        exact ih (insert_tame hc hi t1 h2).1 h

/-- `sweep` keeps the state of the sweep. -/
theorem sweep_tame {ins : ael_insert_t} (hc : ins.comparing) (hi : ins.is_set)
    {fuel : Nat} {s s1 : flattener_t} (ht : s.tame) (h : s.sweep ins fuel = .ok s1) :
    s1.tame := by
  obtain ⟨hs, hl, ha, hy⟩ := ht
  unfold sweep at h
  obtain ⟨u0, -, h⟩ := bind_ok h
  obtain ⟨dot, -, h⟩ := bind_ok h
  obtain ⟨vdot, -, h⟩ := bind_ok h
  obtain ⟨⟨next, t1⟩, h1, h⟩ := bind_ok h
  dsimp only at h
  obtain ⟨t2, h2, h⟩ := bind_ok h
  obtain ⟨vdot2, -, h⟩ := bind_ok h
  obtain ⟨t3, h3, h⟩ := bind_ok h
  have s1' := (sweep_above_rel steady_flag h1 hs).1
  have l1 := linked_of_keeps (sweep_above_keeps h1) hl
  obtain ⟨a1, y1⟩ := sweep_above_fit ha hy h1
  have s2' := (sweep_next_rel steady_flag h2 s1').1
  have l2 := linked_of_keeps (sweep_next_keeps h2) l1
  obtain ⟨a2, y2⟩ := sweep_next_fit a1 y1 h2
  have s3' := (sweep_below_rel steady_flag h3 s2').1
  have l3 := linked_of_keeps (sweep_below_keeps h3) l2
  obtain ⟨a3, y3⟩ := sweep_below_fit a2 y2 h3
  exact sweep_todo_tame hc hi ⟨s3', l3, a3, y3⟩ h

end flattener_t
namespace flattener_t

/-- `goes_to` activates no edge and leaves the active edge list alone. -/
theorem goes_to_idle {s s1 : flattener_t} {this q : Nat} {raw : line_t} {wind : wind_t}
    {state r : Option Nat} (hl : s.linked)
    (hi : ∀ e ed, s.edge e = .ok ed → ed.flags.active = false)
    (h : s.goes_to this q raw wind state = .ok (r, s1)) :
    ∀ e ed, s1.edge e = .ok ed → ed.flags.active = false := by
  by_cases hne : q = this
  · unfold goes_to at h
    rw [if_pos hne] at h
    injection h with h
    injection h with _ h
    rw [← h]; exact hi
  · obtain ⟨vthis, vq, flip, e, ed0, ed1, ht, hq, hflip, hr, he1, horig, -, -, -, -, -, -, -,
      r8, -⟩ := goes_to_fields h hne
    obtain ⟨e', s3, ed, -, -, -, -, fe, -, -, -, hed, -, -, -, hgo⟩ :=
      goes_to_eq s this q raw wind state vthis vq flip hl ht hq hne hflip
    rw [hgo] at h
    split at h
    · rename_i s5 h5
      injection h with h
      injection h with hr' hs
      subst hs
      rw [hr] at hr'
      injection hr' with hr'
      subst hr'
      intro x xd hx
      by_cases c : x = e'
      · subst c
        rw [he1] at hx
        injection hx with hx
        rw [← hx, r8]
        rcases horig with a | ⟨-, a⟩
        · exact hi x ed0 a
        · rw [a]; rfl
      · have : s5.edges[x]? = s.edges[x]? := by
          rw [inherit_edges h5 x c, edges_set_edge_ne _ _ _ _ c, fe x c]
        rw [edge_eq_ok, this, ← edge_eq_ok] at hx
        exact hi x xd hx
    · exact absurd h (by simp)

theorem add_edge_idle {s s1 : flattener_t} {x y u v : Int} {b : Bool} (hl : s.linked)
    (hi : ∀ e ed, s.edge e = .ok ed → ed.flags.active = false)
    (h : s.add_edge x y u v b = .ok s1) :
    ∀ e ed, s1.edge e = .ok ed → ed.flags.active = false := by
  unfold add_edge at h
  split at h
  · exact absurd h (by simp)
  · rename_i p t1 h1
    split at h
    · exact absurd h (by simp)
    · rename_i q t2 h2
      split at h
      · exact absurd h (by simp)
      · rename_i r t3 h3
        injection h with h
        subst h
        have l2 := linked_of_keeps (find_keeps h2) (linked_of_keeps (find_keeps h1) hl)
        refine goes_to_idle l2 ?_ h3
        intro e ed he
        rw [edge_eq_ok, find_edges h2, find_edges h1, ← edge_eq_ok] at he
        exact hi e ed he

theorem add_edge_ael {s s1 : flattener_t} {x y u v : Int} {b : Bool}
    (hs : s.sound) (h : s.add_edge x y u v b = .ok s1) : s1.ael = s.ael := by
  unfold add_edge at h
  split at h
  · exact absurd h (by simp)
  · rename_i p t1 h1
    split at h
    · exact absurd h (by simp)
    · rename_i q t2 h2
      split at h
      · exact absurd h (by simp)
      · rename_i r t3 h3
        injection h with h
        subst h
        have c1 := find_carried hs (rat_t.canonical_ofInt x) (rat_t.canonical_ofInt y) h1
        obtain ⟨s1', -⟩ := steady_find (rat_t.canonical_ofInt x) (rat_t.canonical_ofInt y) h1 hs
        have c2 := find_carried s1' (rat_t.canonical_ofInt u) (rat_t.canonical_ofInt v) h2
        rw [goes_to_ael h3, c2.1, c1.1]

theorem add_edges_idle (l : List (Int × Int × Int × Int × Bool)) :
    ∀ {s s1 : flattener_t}, s.base → s.ael = [] →
      (∀ e ed, s.edge e = .ok ed → ed.flags.active = false) → s.add_edges l = .ok s1 →
      s1.ael = [] ∧ ∀ e ed, s1.edge e = .ok ed → ed.flags.active = false := by
  induction l with
  | nil =>
    intro s s1 _ ha hi h
    unfold add_edges at h
    rw [← pure_ok h]; exact ⟨ha, hi⟩
  | cons a rest ih =>
    intro s s1 hb ha hi h
    obtain ⟨x, y, u, v, b⟩ := a
    unfold add_edges at h
    obtain ⟨t, h1, h⟩ := bind_ok h
    have hb1 : t.base :=
      ⟨(add_edge_rel steady_find_steps steady_join steady_flag h1 hb.1).1,
        linked_of_keeps (add_edge_keeps h1) hb.2⟩
    exact ih hb1 ((add_edge_ael hb.1 h1).trans ha) (add_edge_idle hb.2 hi h1) h

/-- A tidy session with canonical integer vertices has aligned edges. -/
theorem aligned_of_tidy {S : line_t → Prop} {s : flattener_t} (ht : s.tidy S) :
    s.all_aligned := by
  intro e ed he
  obtain ⟨-, hlex, hf, hto⟩ := ht e ed he
  obtain ⟨vf, f1, f2, f3⟩ := (pos_eq_some s _ _ _).1 hf
  obtain ⟨vt, t1, t2, t3⟩ := (pos_eq_some s _ _ _).1 hto
  refine ⟨ed, vf, vt, he, f1, t1, ?_, ?_, ?_, hlex, ?_, ?_⟩
  · unfold vertex_t.canonical
    rw [f2, f3]; exact ⟨rat_t.canonical_ofInt _, rat_t.canonical_ofInt _⟩
  · unfold vertex_t.canonical
    rw [t2, t3]; exact ⟨rat_t.canonical_ofInt _, rat_t.canonical_ofInt _⟩
  · unfold vertex_t.precedes
    rw [f2, f3, t2, t3, rat_t.val_ofInt, rat_t.val_ofInt, rat_t.val_ofInt, rat_t.val_ofInt]
    rcases hlex with k | ⟨k1, k2⟩
    · left; exact_mod_cast k
    · right; exact ⟨by exact_mod_cast k1, by exact_mod_cast k2⟩
  · unfold line_t.det
    rw [f2, f3, rat_t.val_ofInt, rat_t.val_ofInt]; ring
  · unfold line_t.det
    rw [t2, t3, rat_t.val_ofInt, rat_t.val_ofInt]; ring

/-- The session that `add_edge` calls build, at any vertex of the sweep, is in
the state of the sweep with an empty active edge list. -/
theorem add_edges_tame {rule : Int} {l : List (Int × Int × Int × Int × Bool)}
    {s : flattener_t} (h : (flattener_t.new rule).add_edges l = .ok s) (d : Option Nat) :
    (s.set_dot d).tame ∧ (s.set_dot d).ael = [] := by
  obtain ⟨hb, -, -⟩ := add_edges_fresh h
  have p0 : (flattener_t.new rule).plain := ⟨fun v hv => by simp [flattener_t.new] at hv, rfl⟩
  have t0 : (flattener_t.new rule).tidy (fun _ => True) := by
    intro e ed he
    simp [flattener_t.edge, flattener_t.new] at he
  have i0 : (flattener_t.new rule).integral := by
    intro v vv hv
    simp [flattener_t.new] at hv
  obtain ⟨t1, -⟩ := add_edges_tidy l (base_new rule) p0 t0 i0 (fun _ _ => trivial) h
  obtain ⟨a1, a2⟩ := add_edges_idle l (base_new rule) rfl
    (by
      intro e ed he
      simp [flattener_t.edge, flattener_t.new] at he) h
  have ha : s.all_aligned := aligned_of_tidy t1
  refine ⟨⟨hb.1, hb.2, ha, ?_, ?_, ?_⟩, a1⟩
  · show s.ael.Nodup
    rw [a1]; exact List.nodup_nil
  · intro e he
    have : e ∈ s.ael := he
    rw [a1] at this
    exact absurd this (List.not_mem_nil _)
  · intro e ed he
    have hi := a2 e ed he
    constructor
    · constructor
      · intro c; rw [hi] at c; exact absurd c (by simp)
      · intro c
        have : e ∈ s.ael := c
        rw [a1] at this
        exact absurd this (List.not_mem_nil _)
    · intro c; rw [hi] at c; exact absurd c (by simp)

end flattener_t

theorem ael_place_is_set {s : flattener_t} {e : Nat} {pred : Option Nat} {tail r : List Nat}
    {pos : Nat} (hp : ∀ j, pred = some j → sort_active_edge s e j = .ok false)
    (h : ael_place s e pred tail = .ok (r, pos)) :
    (pos = e ∧ r = e :: tail) ∨
    (r = tail ∧ pred = some pos ∧ sort_active_edge s e pos = .ok false ∧
      sort_active_edge s pos e = .ok false) := by
  unfold ael_place at h
  split at h
  · have := pure_ok h
    injection this with a b
    exact Or.inl ⟨b.symm, a.symm⟩
  · rename_i j
    obtain ⟨c, hc, h⟩ := bind_ok h
    split at h
    · have := pure_ok h
      injection this with a b
      exact Or.inl ⟨b.symm, a.symm⟩
    · rename_i hcf
      have := pure_ok h
      injection this with a b
      subst b
      have hcf' : c = false := by simpa using hcf
      rw [hcf'] at hc
      exact Or.inr ⟨a.symm, rfl, hp j rfl, hc⟩

theorem ael_scan_is_set {s : flattener_t} {e : Nat} (l : List Nat) :
    ∀ {pred : Option Nat} {r : List Nat} {pos : Nat},
      (∀ j, pred = some j → sort_active_edge s e j = .ok false) →
      ael_scan s e pred l = .ok (r, pos) →
      (pos = e ∧ ∃ l1 l2, l = l1 ++ l2 ∧ r = l1 ++ e :: l2) ∨
      (r = l ∧ (pred = some pos ∨ pos ∈ l) ∧ sort_active_edge s e pos = .ok false ∧
        sort_active_edge s pos e = .ok false) := by
  induction l with
  | nil =>
    intro pred r pos hp h
    unfold ael_scan at h
    rcases ael_place_is_set hp h with ⟨a, b⟩ | ⟨a, b, c, d⟩
    · exact Or.inl ⟨a, [], [], rfl, b⟩
    · exact Or.inr ⟨a, Or.inl b, c, d⟩
  | cons x rest ih =>
    intro pred r pos hp h
    unfold ael_scan at h
    obtain ⟨c, hc, h⟩ := bind_ok h
    split at h
    · rcases ael_place_is_set hp h with ⟨a, b⟩ | ⟨a, b, c, d⟩
      · exact Or.inl ⟨a, [], x :: rest, rfl, b⟩
      · exact Or.inr ⟨a, Or.inl b, c, d⟩
    · rename_i hcf
      have hcf' : c = false := by simpa using hcf
      rw [hcf'] at hc
      obtain ⟨⟨r1, pos1⟩, h1, h⟩ := bind_ok h
      have := pure_ok h
      injection this with a b
      subst b
      have hp1 : ∀ j, some x = some j → sort_active_edge s e j = .ok false := by
        intro j hj
        injection hj with hj
        rw [← hj]; exact hc
      rcases ih hp1 h1 with ⟨a1, l1, l2, a2, a3⟩ | ⟨a1, a2, a3, a4⟩
      · exact Or.inl ⟨a1, x :: l1, l2, by rw [a2]; rfl, by rw [← a, a3]; rfl⟩
      · refine Or.inr ⟨by rw [← a, a1], Or.inr ?_, a3, a4⟩
        rcases a2 with k | k
        · injection k with k
          rw [← k]; exact List.mem_cons_self _ _
        · exact List.mem_cons_of_mem _ k

/-- The insertion `set_insert` keeps the contract of `set::insert`. -/
theorem set_insert_is_set : set_insert.is_set := by
  intro s e l pos h
  rcases ael_scan_is_set s.ael (fun j hj => absurd hj (by simp)) h with a | ⟨a, b, c, d⟩
  · exact Or.inl a
  · refine Or.inr ⟨a, ?_, c, d⟩
    rcases b with k | k
    · exact absurd k (by simp)
    · exact k
namespace flattener_t

theorem walklist_loop_carried {rule : Int} (l : List Nat) :
    ∀ {s s1 : flattener_t} {w w1 : wind_t},
      walklist_loop rule s w l = .ok (w1, s1) → s.carried s1 := by
  induction l with
  | nil =>
    intro s s1 w w1 h
    unfold walklist_loop at h
    have := pure_ok h
    injection this with _ hs
    rw [← hs]; exact carried_refl s
  | cons e rest ih =>
    intro s s1 w w1 h
    unfold walklist_loop at h
    obtain ⟨ed, hed, h⟩ := bind_ok h
    obtain ⟨u0, -, h⟩ := bind_ok h
    split at h
    · obtain ⟨u1, -, h⟩ := bind_ok h
      obtain ⟨u2, -, h⟩ := bind_ok h
      exact ih h
    · obtain ⟨fl, hfl, h⟩ := bind_ok h
      have hact : fl.active = ed.flags.active := by
        split at hfl
        · obtain ⟨u1, -, hfl⟩ := bind_ok hfl
          rw [← pure_ok hfl]
        · obtain ⟨u1, -, hfl⟩ := bind_ok hfl
          rw [← pure_ok hfl]
      refine carried_trans (@carried_set_edge s e ed
        { ed with flags := { fl with checked := true }, checked_wind := w.add ed.wind } hed ?_)
        (ih h)
      unfold edge_t.core
      simp only [hact]

theorem walklist_tame {s s1 : flattener_t} (ht : s.tame) (h : s.walklist = .ok s1) :
    s1.tame := by
  obtain ⟨hs, hl, ha, hy⟩ := ht
  have hc : s.carried s1 := by
    unfold walklist at h
    obtain ⟨u0, -, h⟩ := bind_ok h
    obtain ⟨⟨w, t⟩, h1, h⟩ := bind_ok h
    obtain ⟨u1, -, h⟩ := bind_ok h
    rw [← pure_ok h]
    exact walklist_loop_carried _ h1
  obtain ⟨a1, y1⟩ := carried_fit hc ha hy
  exact ⟨(walklist_rel steady_flag h hs).1, linked_of_keeps (walklist_keeps h) hl, a1, y1⟩

/-- Every state of the sweep is tame. -/
theorem sweeping_tame {ins : ael_insert_t} (hc : ins.comparing) (hi : ins.is_set)
    {s : flattener_t} (hr : s.sweeping ins) : s.tame := by
  induction hr with
  | start h => exact (add_edges_tame h none).1
  | set_dot d _ ih => exact ih
  | sweep _ h ih => exact sweep_tame hc hi ih h
  | insert _ h ih => exact (insert_tame hc hi ih h).1
  | walklist _ h ih => exact walklist_tame ih h

end flattener_t

/-- C27: the `active` flags and the active edge list stay synchronized. Take an
insertion `ins` that compares with `sort_active_edge` and behaves as
`set::insert` does, and any state `s` of the sweep: the state the `add_edge`
calls leave (empty list, no edge active) or a state that completed calls of
`sweep` and `insert` lead to from there. In `s` the list has no duplicates and
holds live edges, an edge is active exactly when it is in the list, and then its
`aelpos` designates its own place. A call of `insert` for an edge that is not
active either puts the edge into the list, the other elements in place, or,
when the comparison raised the event of the edges `p` and `q`, leaves the list
without `p` and `q`, of which the inserted edge is one, and with every other
element in place. The last part says that the sweep does start from an empty
list with no edge active. -/
theorem C27_active_synchronized {ins : ael_insert_t} (hc : ins.comparing) (hi : ins.is_set)
    {s : flattener_t} (hr : s.sweeping ins) :
    s.synced ∧
    (∀ e ed s1, s.edge e = .ok ed → ed.flags.active = false → s.insert ins e = .ok s1 →
      s1.synced ∧
      (∀ l pos, ins s e = .ok (l, pos) → pos = e ∧ s1.ael = l ∧
        ∃ l1 l2, s.ael = l1 ++ l2 ∧ s1.ael = l1 ++ e :: l2) ∧
      (∀ p q v f, ins s e = .error (.action_t p q v f) →
        (e = p ∨ e = q) ∧ e ∉ s1.ael ∧ p ∉ s1.ael ∧ q ∉ s1.ael ∧
        s1.ael = s.ael.filter (fun a => decide (a ∉ [p, q])))) ∧
    ∀ (rule : Int) (l : List (Int × Int × Int × Int × Bool)) (s0 : flattener_t),
      (flattener_t.new rule).add_edges l = .ok s0 →
      s0.sweeping ins ∧ s0.ael = [] ∧ ∀ e ed, s0.edge e = .ok ed → ed.flags.active = false := by
  have ht := flattener_t.sweeping_tame hc hi hr
  refine ⟨ht.2.2.2, ?_, ?_⟩
  rotate_left
  · intro rule l s0 h0
    have k := flattener_t.add_edges_idle l (flattener_t.base_new rule) rfl
      (by
        intro e ed he
        simp [flattener_t.edge, flattener_t.new] at he) h0
    exact ⟨.start h0, k.1, k.2⟩
  intro e ed s1 hed hact h
  obtain ⟨t1, k⟩ := flattener_t.insert_tame hc hi ht h
  obtain ⟨k1, k2⟩ := k ed hed hact
  refine ⟨t1.2.2.2, ?_, ?_⟩
  · intro l pos hl
    obtain ⟨a, b, l1, l2, c, d⟩ := k1 l pos hl
    exact ⟨a, b, l1, l2, c, by rw [b, d]⟩
  · intro p q v f hev
    obtain ⟨a, b⟩ := k2 p q v f hev
    have np : p ∉ s1.ael := by
      rw [a]; intro c
      have := (List.mem_filter.1 c).2
      simp at this
    have nq : q ∉ s1.ael := by
      rw [a]; intro c
      have := (List.mem_filter.1 c).2
      simp at this
    refine ⟨b, ?_, np, nq, a⟩
    rcases b with b | b
    · rw [b]; exact np
    · rw [b]; exact nq

/-- C27, witness: the crossing edges `(0,0)-(4,4)` and `(4,0)-(0,4)`. After the
sweep at `(0,0)` the list is `[0]`; the insertion of edge 1 at `(4,0)` raises the
intersect event of the edges 1 and 0, and `insert` returns with an empty list. -/
theorem C27_active_synchronized_witness :
    ∃ s s1, flattener_t.crossing_example = .ok s ∧ s.sweeping set_insert ∧ s.ael = [0] ∧
      s.synced ∧ set_insert s 1 = .error (.action_t 1 0 none .intersect) ∧
      s.insert set_insert 1 = .ok s1 ∧ s1.synced ∧ s1.ael = [] := by
  obtain ⟨S0, hS0⟩ : ∃ S, S = (((flattener_t.new FLATTEN_A).add_edges
      [(0, 0, 4, 4, false), (0, 4, 4, 0, false)]).toOption).getD (flattener_t.new FLATTEN_A) :=
    ⟨_, rfl⟩
  have e0 : (flattener_t.new FLATTEN_A).add_edges [(0, 0, 4, 4, false), (0, 4, 4, 0, false)]
      = .ok S0 := by rw [hS0]; rfl
  obtain ⟨S1, hS1⟩ : ∃ S, S = (((S0.set_dot (some 0)).sweep set_insert 10).toOption).getD
    (flattener_t.new FLATTEN_A) := ⟨_, rfl⟩
  have e1 : (S0.set_dot (some 0)).sweep set_insert 10 = .ok S1 := by rw [hS1, hS0]; rfl
  have e2 : flattener_t.crossing_example = .ok (S1.set_dot (some 3)) := by
    rw [hS1, hS0]; rfl
  have hr : (S1.set_dot (some 3)).sweeping set_insert :=
    .set_dot _ (.sweep (.set_dot _ (.start e0)) e1)
  obtain ⟨S2, hS2⟩ : ∃ S, S = (((S1.set_dot (some 3)).insert set_insert 1).toOption).getD
    (flattener_t.new FLATTEN_A) := ⟨_, rfl⟩
  have e3 : (S1.set_dot (some 3)).insert set_insert 1 = .ok S2 := by
    rw [hS2, hS1, hS0]; rfl
  have e4 : set_insert (S1.set_dot (some 3)) 1 = .error (.action_t 1 0 none .intersect) := by
    rw [hS1, hS0]; rfl
  have e5 : (S1.set_dot (some 3)).edge 1 = .ok (⟨⟨4, 0, 0, 4⟩, 3, 2, ⟨-1, 0⟩, ⟨0, 0⟩,
      ⟨false, false, false, false, false, false⟩, none, none⟩ : edge_t) := by
    rw [hS1, hS0]; rfl
  have e6 : (S1.set_dot (some 3)).ael = [0] := by rw [hS1, hS0]; rfl
  have k := C27_active_synchronized set_insert_comparing set_insert_is_set hr
  obtain ⟨k1, k2, k3⟩ := k.2.1 1 _ S2 e5 rfl e3
  obtain ⟨-, -, -, -, k4⟩ := k3 1 0 none .intersect e4
  refine ⟨_, S2, e2, hr, e6, k.1, e4, e3, k1, ?_⟩
  rw [k4, e6]; rfl

/-! ## The comparison on `int64` -/

namespace rat_t

/-- With denominators up to `2^62` the operator on `int64` returns, within 124
rounds of the loop, what the exact operator returns: the order of the values. -/
theorem lt64_eq (fuel : Nat) (a b : rat_t) (ha : a.canonical) (hb : b.canonical)
    (da : a.d ≤ 2 ^ 62) (db : b.d ≤ 2 ^ 62) (hf : 124 ≤ fuel) :
    a.lt64 fuel b = .ok (decide (a.val < b.val)) := by
  have h := lt_eq a b ha hb
  unfold lt at h
  unfold lt64
  by_cases hi : a.i = b.i
  · rw [if_neg (not_not.mpr hi)] at h ⊢
    by_cases hd : a.d = b.d
    · rw [if_pos hd] at h ⊢
      exact h
    · rw [if_neg hd]
      obtain ⟨-, h2, -, -⟩ := lt_first_digit a b ha hb
      obtain ⟨-, k, hk, -, -, -, hret, hval⟩ := h2 hi hd
      have had : 0 < a.d := by have := ha.1; omega
      have hbd : 0 < b.d := by have := hb.1; omega
      have hk2 : k < 124 := by
        by_contra hc
        push_neg at hc
        have h1 : (2 : Int) ^ 124 ≤ 2 ^ k := pow_le_pow_right₀ (by norm_num) hc
        have h3 : a.d * b.d ≤ 2 ^ 62 * 2 ^ 62 := Int.mul_le_mul da db hbd.le (by norm_num)
        have h4 : (2 : Int) ^ 62 * 2 ^ 62 = 2 ^ 124 := by norm_num
        omega
      rw [lt_loop64_eq a.d b.d da db fuel a.n b.n ha.2.1 ha.2.2.1 hb.2.1 hb.2.2.1,
        hret fuel (by omega), hval]
  · rw [if_pos hi] at h ⊢
    exact h

/-- With denominators up to `2^62` the exact operator is the operator of the
code. -/
theorem lt64_eq_lt (fuel : Nat) (a b : rat_t) (ha : a.canonical) (hb : b.canonical)
    (da : a.d ≤ 2 ^ 62) (db : b.d ≤ 2 ^ 62) (hf : 124 ≤ fuel) :
    a.lt64 fuel b = a.lt b := by
  rw [lt64_eq fuel a b ha hb da db hf, lt_eq a b ha hb]

/-- Once both numerators are zero the loop on `int64` goes on for ever. -/
theorem lt_loop64_zero (d od : Int) (hd : 0 < d) (hod : 0 < od) (fuel : Nat) :
    lt_loop64 fuel 0 d 0 od = .error .fuel := by
  induction fuel with
  | zero => rfl
  | succ f ih =>
    unfold lt_loop64
    have e : wrap64 (0 + 0) = 0 := by decide
    simp only [e]
    have h1 : decide (0 ≥ d) = false := by simp; omega
    have h2 : decide (0 ≥ od) = false := by simp; omega
    rw [h1, h2]
    simpa using ih

end rat_t

/-- C7, as stated, fails on the code: `a = 0 + 2^62 / (2^63 - 1)` and
`b = 0 + 1/2` are canonical `int64` values and `a` is the greater, but in the
first round of the loop `na += na` is `2^63`, which wraps to `-2^63`, so that
the digit of `a` is taken to be 0 and `a < b` returns true. -/
theorem C7_rat_order_overflow_counterexample :
    (⟨0, 2 ^ 62, 2 ^ 63 - 1⟩ : rat_t).canonical ∧ (⟨0, 1, 2⟩ : rat_t).canonical ∧
    (⟨0, 2 ^ 62, 2 ^ 63 - 1⟩ : rat_t).is_int64 ∧ (⟨0, 1, 2⟩ : rat_t).is_int64 ∧
    (∀ fuel, (⟨0, 2 ^ 62, 2 ^ 63 - 1⟩ : rat_t).lt64 (fuel + 1) ⟨0, 1, 2⟩ = .ok true) ∧
    ¬ (((0 : Int) : ℚ) + ((2 ^ 62 : Int) : ℚ) / ((2 ^ 63 - 1 : Int) : ℚ)
        < ((0 : Int) : ℚ) + ((1 : Int) : ℚ) / ((2 : Int) : ℚ)) := by
  refine ⟨by decide, by decide, by decide, by decide, fun fuel => rfl, ?_⟩
  norm_num

/-- C7, amended: for canonical `a`, `b` (and `c`) with denominators up to `2^62`
the call `a < b` of the code (`int64`, at least 124 rounds of the loop allowed)
returns, and returns true exactly when `a.i + a.n/a.d < b.i + b.n/b.d`; hence
on these values `operator<` is irreflexive and transitive, and exactly one of
`a < b`, `a == b`, `b < a` holds. -/
theorem C7_rat_order_total (a b c : rat_t) (ha : a.canonical) (hb : b.canonical)
    (hc : c.canonical) (da : a.d ≤ 2 ^ 62) (db : b.d ≤ 2 ^ 62) (dc : c.d ≤ 2 ^ 62)
    (fuel : Nat) (hf : 124 ≤ fuel) :
    a.lt64 fuel b = .ok (decide ((a.i : ℚ) + (a.n : ℚ) / a.d < b.i + (b.n : ℚ) / b.d)) ∧
    a.lt64 fuel a = .ok false ∧
    (a.lt64 fuel b = .ok true → b.lt64 fuel c = .ok true → a.lt64 fuel c = .ok true) ∧
    ((a.lt64 fuel b = .ok true ∧ a.eq b = false ∧ b.lt64 fuel a = .ok false) ∨
     (a.lt64 fuel b = .ok false ∧ a.eq b = true ∧ b.lt64 fuel a = .ok false) ∨
     (a.lt64 fuel b = .ok false ∧ a.eq b = false ∧ b.lt64 fuel a = .ok true)) := by
  have hab := rat_t.lt64_eq fuel a b ha hb da db hf
  have hba := rat_t.lt64_eq fuel b a hb ha db da hf
  have hbc := rat_t.lt64_eq fuel b c hb hc db dc hf
  have hac := rat_t.lt64_eq fuel a c ha hc da dc hf
  have haa := rat_t.lt64_eq fuel a a ha ha da da hf
  have heq := rat_t.eq_iff_val a b ha hb
  refine ⟨hab, ?_, ?_, ?_⟩
  · rw [haa]; simp
  · rw [hab, hbc, hac]
    simp only [Except.ok.injEq, decide_eq_true_eq]
    exact fun h1 h2 => lt_trans h1 h2
  · rw [hab, hba]
    rcases lt_trichotomy a.val b.val with h | h | h
    · left
      refine ⟨by simp [h], ?_, by simp [h.le]⟩
      cases hq : a.eq b
      · rfl
      · exact absurd (heq.1 hq) h.ne
    · right; left
      exact ⟨by simp [h], heq.2 h, by simp [h]⟩
    · right; right
      refine ⟨by simp [h.le], ?_, by simp [h]⟩
      cases hq : a.eq b
      · rfl
      · exact absurd (heq.1 hq) h.ne'

/-- C7, amended, at `1/3`, `3/8` and `1/2`, where the order of `1/3` and `3/8`
is found by the bit racing loop. -/
theorem C7_rat_order_total_witness :
    ((⟨0, 1, 3⟩ : rat_t).canonical ∧ (⟨0, 3, 8⟩ : rat_t).canonical ∧
      (⟨0, 1, 2⟩ : rat_t).canonical) ∧
    ((3 : Int) ≤ 2 ^ 62 ∧ (8 : Int) ≤ 2 ^ 62 ∧ (2 : Int) ≤ 2 ^ 62) ∧
    (⟨0, 1, 3⟩ : rat_t).lt64 124 ⟨0, 3, 8⟩ = .ok true ∧
    ((⟨0, 1, 3⟩ : rat_t).lt64 124 ⟨0, 3, 8⟩
        = .ok (decide (((0 : Int) : ℚ) + ((1 : Int) : ℚ) / (3 : Int)
            < (0 : Int) + ((3 : Int) : ℚ) / (8 : Int))) ∧
      (⟨0, 1, 3⟩ : rat_t).lt64 124 ⟨0, 1, 3⟩ = .ok false ∧
      ((⟨0, 1, 3⟩ : rat_t).lt64 124 ⟨0, 3, 8⟩ = .ok true →
        (⟨0, 3, 8⟩ : rat_t).lt64 124 ⟨0, 1, 2⟩ = .ok true →
        (⟨0, 1, 3⟩ : rat_t).lt64 124 ⟨0, 1, 2⟩ = .ok true) ∧
      (((⟨0, 1, 3⟩ : rat_t).lt64 124 ⟨0, 3, 8⟩ = .ok true ∧
          (⟨0, 1, 3⟩ : rat_t).eq ⟨0, 3, 8⟩ = false ∧
          (⟨0, 3, 8⟩ : rat_t).lt64 124 ⟨0, 1, 3⟩ = .ok false) ∨
        ((⟨0, 1, 3⟩ : rat_t).lt64 124 ⟨0, 3, 8⟩ = .ok false ∧
          (⟨0, 1, 3⟩ : rat_t).eq ⟨0, 3, 8⟩ = true ∧
          (⟨0, 3, 8⟩ : rat_t).lt64 124 ⟨0, 1, 3⟩ = .ok false) ∨
        ((⟨0, 1, 3⟩ : rat_t).lt64 124 ⟨0, 3, 8⟩ = .ok false ∧
          (⟨0, 1, 3⟩ : rat_t).eq ⟨0, 3, 8⟩ = false ∧
          (⟨0, 3, 8⟩ : rat_t).lt64 124 ⟨0, 1, 3⟩ = .ok true))) :=
  ⟨⟨by decide, by decide, by decide⟩, ⟨by decide, by decide, by decide⟩, by rfl,
    C7_rat_order_total ⟨0, 1, 3⟩ ⟨0, 3, 8⟩ ⟨0, 1, 2⟩ (by decide) (by decide) (by decide)
      (by decide) (by decide) (by decide) 124 (le_refl _)⟩

/-- C29, as stated, fails on the code: `a = 0 + 2^62 / (2^63 - 1)` and
`b = 0 + 2^62 / (2^63 - 3)` are canonical `int64` values with different
fractions.  In the first round both sums are `2^63`, which wraps to `-2^63`, in
the second both are `-2^64`, which wraps to 0, and from then on both numerators
are 0 and both digits 0: the loop never returns. -/
theorem C29_lt_overflow_counterexample :
    (⟨0, 2 ^ 62, 2 ^ 63 - 1⟩ : rat_t).canonical ∧ (⟨0, 2 ^ 62, 2 ^ 63 - 3⟩ : rat_t).canonical ∧
    (⟨0, 2 ^ 62, 2 ^ 63 - 1⟩ : rat_t).is_int64 ∧ (⟨0, 2 ^ 62, 2 ^ 63 - 3⟩ : rat_t).is_int64 ∧
    (2 ^ 62 : Int) * (2 ^ 63 - 3) ≠ 2 ^ 62 * (2 ^ 63 - 1) ∧
    (∀ fuel, rat_t.lt_loop64 fuel (2 ^ 62) (2 ^ 63 - 1) (2 ^ 62) (2 ^ 63 - 3) = .error .fuel) ∧
    (∀ fuel, (⟨0, 2 ^ 62, 2 ^ 63 - 1⟩ : rat_t).lt64 fuel ⟨0, 2 ^ 62, 2 ^ 63 - 3⟩
      = .error .fuel) := by
  have key : ∀ fuel,
      rat_t.lt_loop64 fuel (2 ^ 62) (2 ^ 63 - 1) (2 ^ 62) (2 ^ 63 - 3) = .error .fuel := by
    intro fuel
    match fuel with
    | 0 => rfl
    | 1 => rfl
    | f + 2 =>
      have e : rat_t.lt_loop64 (f + 2) (2 ^ 62) (2 ^ 63 - 1) (2 ^ 62) (2 ^ 63 - 3)
          = rat_t.lt_loop64 f 0 (2 ^ 63 - 1) 0 (2 ^ 63 - 3) := rfl
      rw [e]
      exact rat_t.lt_loop64_zero _ _ (by norm_num) (by norm_num) f
  refine ⟨by decide, by decide, by decide, by decide, by decide, key, ?_⟩
  intro fuel
  have e : (⟨0, 2 ^ 62, 2 ^ 63 - 1⟩ : rat_t).lt64 fuel ⟨0, 2 ^ 62, 2 ^ 63 - 3⟩
      = rat_t.lt_loop64 fuel (2 ^ 62) (2 ^ 63 - 1) (2 ^ 62) (2 ^ 63 - 3) := rfl
  rw [e]
  exact key fuel

/-- C29, amended: termination of the rational comparison.  For canonical `a`
and `b` (`d > 0`, `0 <= n < d`, `gcd(n, d) = 1`, `n = 0` implies `d = 1`) with
denominators up to `2^62`, `a < b` as the code runs it on `int64` returns, with
the order of the values, when 124 rounds of the loop are allowed.  When the
loop is entered (equal integer parts, different denominators) the fractions
differ, and there is a first binary digit `k < 124` in which they differ, with
`2^k < a.d * b.d`: the loop runs through the rounds `0 .. k - 1`, in which the
digits agree, and returns in round `k` with the digit of `b`, which is the
order of the values; so it returns for every fuel above `k` and for no fuel up
to `k`.  The digits are those of the binary expansions of the fractions. -/
theorem C29_lt_terminates (a b : rat_t) (ha : a.canonical) (hb : b.canonical)
    (da : a.d ≤ 2 ^ 62) (db : b.d ≤ 2 ^ 62) :
    (∀ fuel, 124 ≤ fuel → a.lt64 fuel b = .ok (decide (a.val < b.val))) ∧
    (a.i = b.i → a.d ≠ b.d →
      a.n * b.d ≠ b.n * a.d ∧
      ∃ k : Nat, k < 124 ∧ 2 ^ k < a.d * b.d ∧
        (∀ j, j < k → rat_t.digit a.d j a.n = rat_t.digit b.d j b.n) ∧
        rat_t.digit a.d k a.n ≠ rat_t.digit b.d k b.n ∧
        (∀ fuel, fuel ≤ k → rat_t.lt_loop64 fuel a.n a.d b.n b.d = .error .fuel) ∧
        (∀ fuel, k < fuel →
          rat_t.lt_loop64 fuel a.n a.d b.n b.d = .ok (rat_t.digit b.d k b.n)) ∧
        (∀ fuel, k < fuel → a.lt64 fuel b = .ok (rat_t.digit b.d k b.n)) ∧
        rat_t.digit b.d k b.n = decide (a.val < b.val)) ∧
    (∀ k, rat_t.digit a.d k a.n = decide ((2 ^ (k + 1) * a.n / a.d) % 2 = 1)) := by
  obtain ⟨-, h2, h3, h4⟩ := lt_first_digit a b ha hb
  have h64 := h4 da db
  refine ⟨fun fuel hf => rat_t.lt64_eq fuel a b ha hb da db hf, ?_, h3⟩
  intro hi hd
  obtain ⟨hne, k, hk, hag, hdf, hno, hret, hval⟩ := h2 hi hd
  have hbd : 0 < b.d := by have := hb.1; omega
  have hk2 : k < 124 := by
    by_contra hc
    push_neg at hc
    have h1 : (2 : Int) ^ 124 ≤ 2 ^ k := pow_le_pow_right₀ (by norm_num) hc
    have h5 : a.d * b.d ≤ 2 ^ 62 * 2 ^ 62 := Int.mul_le_mul da db hbd.le (by norm_num)
    have h6 : (2 : Int) ^ 62 * 2 ^ 62 = 2 ^ 124 := by norm_num
    omega
  refine ⟨hne, k, hk2, hk, hag, hdf, ?_, ?_, ?_, hval⟩
  · intro fuel hf
    rw [h64 fuel]; exact hno fuel hf
  · intro fuel hf
    rw [h64 fuel]; exact hret fuel hf
  · intro fuel hf
    unfold rat_t.lt64
    rw [if_neg (not_not.mpr hi), if_neg hd, h64 fuel]
    exact hret fuel hf

/-- C29, amended, at `1/3` and `2/5`: the binary expansions `0.0101..` and
`0.0110..` agree in the digits 0 and 1 and differ in digit 2, so that the loop
returns true in its third round: with fuel 2 it has not returned, with fuel 3
it has. -/
theorem C29_lt_terminates_witness :
    (⟨0, 1, 3⟩ : rat_t).canonical ∧ (⟨0, 2, 5⟩ : rat_t).canonical ∧
    (3 : Int) ≤ 2 ^ 62 ∧ (5 : Int) ≤ 2 ^ 62 ∧
    ((∀ fuel, 124 ≤ fuel → (⟨0, 1, 3⟩ : rat_t).lt64 fuel ⟨0, 2, 5⟩
        = .ok (decide ((⟨0, 1, 3⟩ : rat_t).val < (⟨0, 2, 5⟩ : rat_t).val))) ∧
      ((0 : Int) = 0 → (3 : Int) ≠ 5 →
        (1 : Int) * 5 ≠ 2 * 3 ∧
        ∃ k : Nat, k < 124 ∧ (2 : Int) ^ k < 3 * 5 ∧
          (∀ j, j < k → rat_t.digit 3 j 1 = rat_t.digit 5 j 2) ∧
          rat_t.digit 3 k 1 ≠ rat_t.digit 5 k 2 ∧
          (∀ fuel, fuel ≤ k → rat_t.lt_loop64 fuel 1 3 2 5 = .error .fuel) ∧
          (∀ fuel, k < fuel → rat_t.lt_loop64 fuel 1 3 2 5 = .ok (rat_t.digit 5 k 2)) ∧
          (∀ fuel, k < fuel → (⟨0, 1, 3⟩ : rat_t).lt64 fuel ⟨0, 2, 5⟩
            = .ok (rat_t.digit 5 k 2)) ∧
          rat_t.digit 5 k 2
            = decide ((⟨0, 1, 3⟩ : rat_t).val < (⟨0, 2, 5⟩ : rat_t).val)) ∧
      (∀ k, rat_t.digit 3 k 1 = decide (((2 : Int) ^ (k + 1) * 1 / 3) % 2 = 1))) ∧
    (rat_t.digit 3 0 1, rat_t.digit 3 1 1, rat_t.digit 3 2 1) = (false, true, false) ∧
    (rat_t.digit 5 0 2, rat_t.digit 5 1 2, rat_t.digit 5 2 2) = (false, true, true) ∧
    rat_t.lt_loop64 2 1 3 2 5 = .error .fuel ∧ rat_t.lt_loop64 3 1 3 2 5 = .ok true ∧
    (⟨0, 1, 3⟩ : rat_t).lt64 3 ⟨0, 2, 5⟩ = .ok true :=
  ⟨by decide, by decide, by decide, by decide,
    C29_lt_terminates ⟨0, 1, 3⟩ ⟨0, 2, 5⟩ (by decide) (by decide) (by decide) (by decide),
    by decide, by decide, by rfl, by rfl, by rfl⟩
/-! ## `snap` on `int64` -/

theorem vertexsort_t64_eq (fuel : Nat) (hf : 124 ≤ fuel) (p q : vertex_t)
    (hp : p.canonical) (hq : q.canonical) (px : p.x.d ≤ 2 ^ 62) (py : p.y.d ≤ 2 ^ 62)
    (qx : q.x.d ≤ 2 ^ 62) (qy : q.y.d ≤ 2 ^ 62) :
    vertexsort_t64 fuel p q = vertexsort_t p q := by
  unfold vertexsort_t64 vertexsort_t
  rw [rat_t.lt64_eq_lt fuel p.x q.x hp.1 hq.1 px qx hf,
    rat_t.lt64_eq_lt fuel p.y q.y hp.2 hq.2 py qy hf]

theorem vertexset_t.insert64_eq (fuel : Nat) (hf : 124 ≤ fuel) (verts : List vertex_t)
    (x y : rat_t) (nid : Nat) (hx : x.canonical) (hy : y.canonical)
    (dx : x.d ≤ 2 ^ 62) (dy : y.d ≤ 2 ^ 62) (set : List Nat)
    (hv : vertexset_t.bounded verts set) :
    vertexset_t.insert64 fuel verts x y nid set = vertexset_t.insert verts x y nid set := by
  induction set with
  | nil => rfl
  | cons w rest ih =>
    obtain ⟨vw, hw, cw, bx, bw⟩ := hv w (List.mem_cons_self _ _)
    have hrest : vertexset_t.bounded verts rest :=
      fun u hu => hv u (List.mem_cons_of_mem _ hu)
    have cn : (⟨[], [], x, y⟩ : vertex_t).canonical := ⟨hx, hy⟩
    unfold vertexset_t.insert64 vertexset_t.insert
    simp only [hw]
    rw [vertexsort_t64_eq fuel hf vw _ cw cn bx bw dx dy,
      vertexsort_t64_eq fuel hf _ vw cn cw dx dy bx bw, ih hrest]

theorem rat_t.mk3_half (i : Int) : rat_t.mk3 i 1 2 = .ok ⟨i, 1, 2⟩ := by
  obtain ⟨half, eh, ch, vh⟩ := rat_t.mk3_eq i 1 2 (by decide)
  have c2 : (⟨i, 1, 2⟩ : rat_t).canonical := by
    refine ⟨by norm_num, by norm_num, by norm_num, ?_, fun h => absurd h (by norm_num)⟩
    show Int.gcd 1 2 = 1
    decide
  have : half = ⟨i, 1, 2⟩ := by
    apply rat_t.canonical_val_inj half _ ch c2
    rw [vh]
    unfold rat_t.val
    norm_num
  rw [eh, this]

theorem snap_coord64_eq (fuel : Nat) (hf : 124 ≤ fuel) (x : rat_t) (hx : x.canonical)
    (dx : x.d ≤ 2 ^ 62) (ix : -2 ^ 63 ≤ x.i) (jx : x.i < 2 ^ 63 - 1) :
    snap_coord64 fuel x = snap_coord x := by
  unfold snap_coord64 snap_coord
  by_cases hn : x.n = 0
  · rw [if_neg (not_not.mpr hn), if_neg (not_not.mpr hn)]
  · rw [if_pos hn, if_pos hn, rat_t.mk3_half]
    simp only []
    have c2 : (⟨x.i, 1, 2⟩ : rat_t).canonical := by
      refine ⟨by norm_num, by norm_num, by norm_num, ?_, fun h => absurd h (by norm_num)⟩
      show Int.gcd 1 2 = 1
      decide
    rw [rat_t.lt64_eq_lt fuel x ⟨x.i, 1, 2⟩ hx c2 dx (by norm_num) hf,
      rat_t.wrap64_eq (x.i + 1) (by omega) (by omega)]

/-- C10, as stated, fails on the code.  `x = 0 + 2^62 / (2^63 - 1)` is a
canonical `int64` value above `1/2`, but `x < rat_t(0, 1, 2)` returns true,
because the first sum of the loop wraps, and `snap` leaves the integer part 0
where `floor(x + 1/2) = 1`.  And for `x = (2^63 - 1) + 1/2` the increment
`++x.i` wraps to `-2^63`. -/
theorem C10_snap_overflow_counterexample :
    (⟨0, 2 ^ 62, 2 ^ 63 - 1⟩ : rat_t).canonical ∧ (⟨0, 2 ^ 62, 2 ^ 63 - 1⟩ : rat_t).is_int64 ∧
    (∀ fuel, ∃ v s1 vv,
      (flattener_t.new FLATTEN_A).snap64 (fuel + 1) ⟨0, 2 ^ 62, 2 ^ 63 - 1⟩ ⟨0, 0, 1⟩
        = .ok (v, s1) ∧
      s1.vertex v = .ok vv ∧ vv.x = ⟨0, 0, 1⟩) ∧
    ⌊((0 : Int) : ℚ) + ((2 ^ 62 : Int) : ℚ) / ((2 ^ 63 - 1 : Int) : ℚ) + 1 / 2⌋ = 1 ∧
    (⟨2 ^ 63 - 1, 1, 2⟩ : rat_t).canonical ∧ (⟨2 ^ 63 - 1, 1, 2⟩ : rat_t).is_int64 ∧
    (∀ fuel, ∃ v s1 vv,
      (flattener_t.new FLATTEN_A).snap64 fuel ⟨2 ^ 63 - 1, 1, 2⟩ ⟨0, 0, 1⟩ = .ok (v, s1) ∧
      s1.vertex v = .ok vv ∧ vv.x = ⟨-2 ^ 63, 0, 1⟩) ∧
    ⌊((2 ^ 63 - 1 : Int) : ℚ) + ((1 : Int) : ℚ) / ((2 : Int) : ℚ) + 1 / 2⌋ = 2 ^ 63 := by
  refine ⟨by decide, by decide, fun fuel => ⟨0, _, _, rfl, rfl, rfl⟩, ?_, by decide, by decide,
    fun fuel => ⟨0, _, _, rfl, rfl, rfl⟩, ?_⟩
  · rw [Int.floor_eq_iff]
    norm_num
  · rw [Int.floor_eq_iff]
    norm_num

/-- C10, amended: for canonical `x` and `y` with denominators up to `2^62` and
integer parts from `-2^63` to `2^63 - 2`, and a snap set of such vertices,
`flattener_t::snap(x, y)` as the code runs it on `int64` returns a vertex whose
coordinates are the integers (`n = 0`, `d = 1`) `floor(x + 1/2)` and
`floor(y + 1/2)`: a fractional part of exactly `1/2` rounds towards
`+infinity`, also for negative values, and an integer is left unchanged. -/
theorem C10_snap_rounds_half_up (fuel : Nat) (hf : 124 ≤ fuel) (s : flattener_t)
    (x y : rat_t) (hx : x.canonical) (hy : y.canonical)
    (dx : x.d ≤ 2 ^ 62) (dy : y.d ≤ 2 ^ 62)
    (ix : -2 ^ 63 ≤ x.i ∧ x.i < 2 ^ 63 - 1) (iy : -2 ^ 63 ≤ y.i ∧ y.i < 2 ^ 63 - 1)
    (hs : vertexset_t.bounded s.verts s.snapset) :
    ∃ v s1 vv, s.snap64 fuel x y = .ok (v, s1) ∧ s1.vertex v = .ok vv ∧ v ∈ s1.snapset ∧
      vv.x = ⟨⌊(x.i : ℚ) + (x.n : ℚ) / x.d + 1 / 2⌋, 0, 1⟩ ∧
      vv.y = ⟨⌊(y.i : ℚ) + (y.n : ℚ) / y.d + 1 / 2⌋, 0, 1⟩ := by
  have hv : vertexset_t.valid s.verts s.snapset := by
    intro w hw
    obtain ⟨vw, h1, h2, -⟩ := hs w hw
    exact ⟨vw, h1, h2⟩
  have e : s.snap64 fuel x y = s.snap x y := by
    unfold flattener_t.snap64 flattener_t.snap
    rw [snap_coord64_eq fuel hf x hx dx ix.1 ix.2, snap_coord64_eq fuel hf y hy dy iy.1 iy.2,
      snap_coord_eq x hx, snap_coord_eq y hy]
    simp only []
    rw [vertexset_t.insert64_eq fuel hf s.verts ⟨⌊x.val + 1 / 2⌋, 0, 1⟩ ⟨⌊y.val + 1 / 2⌋, 0, 1⟩
      s.verts.length (rat_t.canonical_ofInt _) (rat_t.canonical_ofInt _)
      (by norm_num) (by norm_num) s.snapset hs]
  rw [e]
  exact snap_half_up s x y hx hy hv

/-- C10, amended, at `(-3/2, 7/3)` in a fresh session: the snapped vertex is
`(-1, 2)`. -/
theorem C10_snap_rounds_half_up_witness :
    ((⟨-2, 1, 2⟩ : rat_t).canonical ∧ (⟨2, 1, 3⟩ : rat_t).canonical ∧
      vertexset_t.bounded (flattener_t.new FLATTEN_A).verts
        (flattener_t.new FLATTEN_A).snapset) ∧
    snap_coord64 124 ⟨-2, 1, 2⟩ = .ok ⟨-1, 0, 1⟩ ∧ snap_coord64 124 ⟨2, 1, 3⟩ = .ok ⟨2, 0, 1⟩ ∧
    snap_coord64 124 ⟨2, 2, 3⟩ = .ok ⟨3, 0, 1⟩ ∧ snap_coord64 124 ⟨5, 0, 1⟩ = .ok ⟨5, 0, 1⟩ ∧
    ∃ v s1 vv, (flattener_t.new FLATTEN_A).snap64 124 ⟨-2, 1, 2⟩ ⟨2, 1, 3⟩ = .ok (v, s1) ∧
      s1.vertex v = .ok vv ∧ v ∈ s1.snapset ∧
      vv.x = ⟨⌊((-2 : Int) : ℚ) + ((1 : Int) : ℚ) / (2 : Int) + 1 / 2⌋, 0, 1⟩ ∧
      vv.y = ⟨⌊((2 : Int) : ℚ) + ((1 : Int) : ℚ) / (3 : Int) + 1 / 2⌋, 0, 1⟩ :=
  have hv : vertexset_t.bounded (flattener_t.new FLATTEN_A).verts
      (flattener_t.new FLATTEN_A).snapset :=
    fun w hw => absurd hw (List.not_mem_nil w)
  ⟨⟨by decide, by decide, hv⟩, by rfl, by rfl, by rfl, by rfl,
    C10_snap_rounds_half_up 124 (le_refl _) (flattener_t.new FLATTEN_A) ⟨-2, 1, 2⟩ ⟨2, 1, 3⟩
      (by decide) (by decide) (by decide) (by decide) ⟨by decide, by decide⟩
      ⟨by decide, by decide⟩ hv⟩

/-! ## The result list when `get_result` fails -/

namespace flattener_t

/-- The loop of `get_result`, started with an empty list, leaves the polygons
of the traces it completes and nothing else. -/
theorem get_result_loop_completes (fuel : Nat) (vs : List Nat) :
    ∀ s : flattener_t, completes fuel s vs (get_result_loop fuel vs [] s).1
      (get_result_loop fuel vs [] s).2 := by
  induction vs with
  | nil =>
    intro s
    unfold get_result_loop
    exact completes.done s
  | cons v rest ih =>
    intro s
    unfold get_result_loop
    cases hv : s.vertex v with
    | error x => exact completes.missing hv
    | ok vv =>
      simp only
      cases hb : vv.below with
      | nil => exact completes.skip hv hb (ih s)
      | cons p more =>
        obtain ⟨k, cur⟩ := p
        simp only
        cases ht : s.trace_from fuel cur with
        | error x => exact completes.failed hv hb ht
        | ok r =>
          obtain ⟨poly, s1⟩ := r
          simp only
          rw [get_result_loop_append]
          exact completes.traced hv hb ht (ih s1)

end flattener_t

/-- C17, amended: for every state and every result list passed in, if
`get_result` returns false then the list is what it was before the call
followed by the polygons `added` of the traces that were completed before the
failure, in their order, and nothing else: the trace that failed, with an
assertion or an event, has left nothing in it.  These are also the polygons
that the call leaves in an empty list. -/
theorem C17_result_on_failure (fuel : Nat) (s : flattener_t)
    (result r : List (List (Int × Int)))
    (h : flatten_arrangement.get_result fuel s result = .ok (r, none)) :
    ∃ added x, r = result ++ added ∧
      flattener_t.completes fuel s s.vertexset added (.error x) ∧
      (x = .assertion_t ∨ ∃ p q v f, x = .action_t p q v f) ∧
      flatten_arrangement.get_result fuel s [] = .ok (added, none) := by
  have hc := flattener_t.get_result_loop_completes fuel s.vertexset s
  unfold flatten_arrangement.get_result flattener_t.get_result at h ⊢
  rw [flattener_t.get_result_loop_append] at h
  cases hp : flattener_t.get_result_loop fuel s.vertexset [] s with
  | mk added out =>
    rw [hp] at h hc
    simp only at h hc
    cases out with
    | ok s1 =>
      simp only at h
      injection h with h
      injection h with _ h
      exact absurd h (by simp)
    | error x =>
      cases x with
      | assertion_t =>
        simp only at h ⊢
        injection h with h
        injection h with h _
        exact ⟨added, _, h.symm, hc, Or.inl rfl, rfl⟩
      | action_t p q v f =>
        simp only at h ⊢
        injection h with h
        injection h with h _
        exact ⟨added, _, h.symm, hc, Or.inr ⟨p, q, v, f, rfl⟩, rfl⟩
      | fuel => exact absurd h (by simp)
      | dangling => exact absurd h (by simp)

/-- C17, amended, in the state that the failed `flatten()` of the triangle and
the open edge leaves: called with the list `[[(7,7)]]`, `get_result` returns
false and leaves `[[(7,7)], [(0,0),(4,0),(0,4)]]`: the triangle is the one
trace that was completed. -/
theorem C17_result_on_failure_witness :
    ∃ s0 t2 w, (flattener_t.new FLATTEN_A).add_edges
        [(0, 0, 4, 0, false), (4, 0, 0, 4, false), (0, 4, 0, 0, false), (0, 10, 3, 10, false)]
        = .ok s0 ∧
      (do
        let a ← (s0.set_dot (some 0)).sweep set_insert 20
        let a ← a.walklist
        let a ← (a.set_dot (some 1)).sweep set_insert 20
        let a ← a.walklist
        let a ← (a.set_dot (some 2)).sweep set_insert 20
        let a ← a.walklist
        let a ← (a.set_dot (some 3)).sweep set_insert 20
        flattener_t.walklist_loop a.flatten_rule a ⟨0, 0⟩ a.ael) = .ok (w, t2) ∧
      flatten_arrangement.get_result 20 t2 [[(7, 7)]]
        = .ok ([[(7, 7)], [(0, 0), (4, 0), (0, 4)]], none) ∧
      ∃ added x, [[(7, 7)], [(0, 0), (4, 0), (0, 4)]] = [[(7, 7)]] ++ added ∧
        flattener_t.completes 20 t2 t2.vertexset added (.error x) ∧
        (x = .assertion_t ∨ ∃ p q v f, x = .action_t p q v f) ∧
        flatten_arrangement.get_result 20 t2 [] = .ok (added, none) := by
  refine ⟨_, _, _, rfl, rfl, rfl, ?_⟩
  exact C17_result_on_failure 20 _ [[(7, 7)]] _ rfl

/-! ## Closing -/

end Flatten
